import Mathlib


/-!
# RTI+ refinement engine: shallow embedding

The embedding follows the C++ sources (`tail.h/.cpp`, `interval.h/.cpp`,
`statistics.h/.cpp`, `timed_automaton.h/.cpp`, `searcher.h/.cpp`).

* Pointers to `timed_state` objects are natural numbers (addresses) into an explicit
  heap; the null pointer is `none`.
* An `interval` is owned by the `map` of the state it belongs to and is stored by value in
  that map; a pointer to an interval is the triple (state address, symbol, map key).
* A failed `assert`, a dereferenced null pointer and an out-of-range array access are the
  result `none`.
* C++ `int` is `Int`; no operation of the engine comes near the machine bounds.
-/

namespace RTI

/-! ## Global configuration (`timed_data.cpp`, `statistics.cpp`) -/

/-- The process-wide variables of `timed_data.cpp` and `statistics.cpp` that the engine
reads. -/
structure globals where
  MAX_SYMBOL : Nat
  MIN_TIME : Int
  MAX_TIME : Int
  TIME_IQR25 : Int
  TIME_IQR50 : Int
  TIME_IQR75 : Int
  MIN_DATA : Int
  deriving DecidableEq, Repr

/-- The constant `NUM_HISTOGRAM_BARS = 4` of `timed_data.cpp`. -/
def NUM_HISTOGRAM_BARS : Nat := 4

/-! ## Tails (`tail.h`, `tail.cpp`) -/

/-- A `timed_tail`: the suffix of the timed word number `word` that starts at `index`.
`rest` is the view `&word->symbols[index]`, `&word->time_values[index]` of the word's arrays
from `index` on, including the sentinel entry that `timed_input` writes behind the last
position, so a tail of length `n` has `n + 1` entries in `rest`.  Two tails are the same
object iff they agree on all fields. -/
structure timed_tail where
  word : Nat
  index : Nat
  rest : List (Nat × Int)
  deriving DecidableEq, Repr

namespace timed_tail

/-- `get_length`: the number of positions left, the sentinel not counted. -/
def get_length (t : timed_tail) : Nat := t.rest.length - 1

/-- `get_symbol`: `word->symbols[index]`. -/
def get_symbol (t : timed_tail) : Nat :=
  match t.rest with
  | [] => 0
  | p :: _ => p.1

/-- `get_time_value`: `word->time_values[index]`. -/
def get_time_value (t : timed_tail) : Int :=
  match t.rest with
  | [] => 0
  | p :: _ => p.2

/-- `next_tail`: the tail one position further, null at the last position. The constructor
of `timed_automaton` chains a tail for every `index < length`. -/
def next_tail (t : timed_tail) : Option timed_tail :=
  match t.rest with
  | _ :: q :: r :: rs => some ⟨t.word, t.index + 1, q :: r :: rs⟩
  | _ => none

end timed_tail

/-- `tail_set`: a `multimap<int, timed_tail*>` keyed by the time value, as the list of its
values in iteration order (ascending key, equal keys in insertion order). -/
abbrev tail_set := List timed_tail

/-- `add_tail_to_set`: `multimap::insert`, which places the new element behind every element
whose key is not greater. -/
def add_tail_to_set : tail_set → timed_tail → tail_set
  | [], tail => [tail]
  | x :: xs, tail =>
    if tail.get_time_value < x.get_time_value then tail :: x :: xs
    else x :: add_tail_to_set xs tail

/-- The range insert `tails.insert(first, last)`: the elements are inserted one by one. -/
def insert_tails (tails : tail_set) (range : tail_set) : tail_set :=
  range.foldl add_tail_to_set tails

/-- `contains_tail_in_set`. -/
def contains_tail_in_set (tails : tail_set) (tail : timed_tail) : Bool :=
  tails.contains tail

/-- `del_tail_from_set`: erases the first entry holding this tail; `assert(0)` when there is
none. -/
def del_tail_from_set (tails : tail_set) (tail : timed_tail) : Option tail_set :=
  if tail ∈ tails then some (tails.erase tail) else none

/-- The elements before `tails.upper_bound(time)`. -/
def tails_upto (tails : tail_set) (time : Int) : tail_set :=
  tails.takeWhile (fun x => decide (x.get_time_value ≤ time))

/-- The elements from `tails.upper_bound(time)` on. -/
def tails_after (tails : tail_set) (time : Int) : tail_set :=
  tails.dropWhile (fun x => decide (x.get_time_value ≤ time))

/-! ## Intervals (`interval.h`, `interval.cpp`) -/

/-- The class `interval`. `to_` (the member `to`) is the target state, `none` the null pointer. The field
`probability` is never initialised nor read by the engine and is left out. -/
structure interval where
  begin : Int
  end_ : Int
  tails : tail_set
  to_ : Option Nat
  num_marked : Int
  undo_tails : tail_set
  undo_to : Option Nat
  deriving DecidableEq, Repr

/-- The constructor `interval::interval(b, e)`. -/
def interval.new (b e : Int) : interval :=
  { begin := b, end_ := e, tails := [], to_ := none, num_marked := 0,
    undo_tails := [], undo_to := none }

namespace interval

/-- `is_empty`. -/
def is_empty (i : interval) : Bool := i.tails.isEmpty

/-- `get_target`. -/
def get_target (i : interval) : Option Nat := i.to_

end interval

/-- `interval_set`: a `map<int, interval*>`, as the list of its entries in key order. -/
abbrev interval_set := List (Int × interval)

/-- `intervals.lower_bound(time)`: the first entry whose key is not less than `time`. -/
def lower_bound : interval_set → Int → Option (Int × interval)
  | [], _ => none
  | (k, i) :: rest, time => if time ≤ k then some (k, i) else lower_bound rest time

/-- The entry `get_interval_from_set` selects: the lower bound, or the last entry
(`*intervals.rbegin()`) when the lower bound is `end()`. -/
def find_interval (intervals : interval_set) (time : Int) : Option (Int × interval) :=
  match lower_bound intervals time with
  | some p => some p
  | none => intervals.getLast?

/-- `get_interval_from_set`. -/
def get_interval_from_set (intervals : interval_set) (time : Int) : Option interval :=
  (find_interval intervals time).map Prod.snd

/-- Writing through an `interval*`: the entry with key `key` is replaced by `f` of it. -/
def update_interval : interval_set → Int → (interval → interval) → interval_set
  | [], _, _ => []
  | (k, i) :: rest, key, f =>
    if k = key then (k, f i) :: rest else (k, i) :: update_interval rest key f

/-- `split_set`. The two asserts come first; then the new interval `[begin, time]` takes the
tails before `upper_bound(time)`, the old one is shrunk to `[time + 1, end]`, and the new
entry is inserted with key `time` (an insert into a `map` does nothing when the key is
there already). -/
def split_set : interval_set → Int → Option interval_set
  | [], _ => none
  | (k, i) :: rest, time =>
    if time ≤ k then
      if i.begin ≤ time ∧ time < i.end_ then
        let new_in : interval := { interval.new i.begin time with tails := tails_upto i.tails time }
        let i' : interval := { i with tails := tails_after i.tails time, begin := time + 1 }
        if k = time then some ((k, i') :: rest)
        else some ((time, new_in) :: (k, i') :: rest)
      else none
    else (split_set rest time).map (fun r => (k, i) :: r)

/-- `undo_split_set`: `find(time)` must succeed and have a successor; the successor takes
the tails and the `begin` of the found interval, which is erased. -/
def undo_split_set : interval_set → Int → Option interval_set
  | [], _ => none
  | [_], _ => none
  | (k, old_in) :: (k2, i) :: rest, time =>
    if k = time then
      some ((k2, { i with tails := insert_tails i.tails old_in.tails, begin := old_in.begin })
        :: rest)
    else (undo_split_set ((k2, i) :: rest) time).map (fun r => (k, old_in) :: r)

/-- `create_interval_set` on an empty map: the single interval `[MIN_TIME, MAX_TIME]`. -/
def create_interval_set (g : globals) : interval_set :=
  [(g.MAX_TIME, interval.new g.MIN_TIME g.MAX_TIME)]

/-! ## State statistics (`statistics.h`, `statistics.cpp`) -/

/-- `get_bar`. -/
def get_bar (g : globals) (time : Int) : Nat :=
  if time ≤ g.TIME_IQR25 then 0
  else if time ≤ g.TIME_IQR50 then 1
  else if time ≤ g.TIME_IQR75 then 2
  else 3

/-- `a[i] += d` on an `int` array. -/
def bump : List Int → Nat → Int → List Int
  | [], _, _ => []
  | x :: xs, 0, d => (x + d) :: xs
  | x :: xs, i + 1, d => x :: bump xs i d

/-- The class `state_statistics`. -/
structure state_statistics where
  total_counts : Int
  symbol_counts : List Int
  time_counts : List Int
  total_marks : Int
  symbol_marks : List Int
  time_marks : List Int
  deriving DecidableEq, Repr

/-- The constructor `state_statistics::state_statistics()`. -/
def state_statistics.new (g : globals) : state_statistics :=
  { total_counts := 0
    symbol_counts := List.replicate g.MAX_SYMBOL 0
    time_counts := List.replicate NUM_HISTOGRAM_BARS 0
    total_marks := 0
    symbol_marks := List.replicate g.MAX_SYMBOL 0
    time_marks := List.replicate NUM_HISTOGRAM_BARS 0 }

namespace state_statistics

/-- `add_count(timed_tail*)`. -/
def add_count (g : globals) (s : state_statistics) (tail : timed_tail) : state_statistics :=
  { s with
    total_counts := s.total_counts + 1
    symbol_counts := bump s.symbol_counts tail.get_symbol 1
    time_counts := bump s.time_counts (get_bar g tail.get_time_value) 1 }

/-- `del_count(timed_tail*)`. -/
def del_count (g : globals) (s : state_statistics) (tail : timed_tail) : state_statistics :=
  { s with
    total_counts := s.total_counts - 1
    symbol_counts := bump s.symbol_counts tail.get_symbol (-1)
    time_counts := bump s.time_counts (get_bar g tail.get_time_value) (-1) }

/-- `mark(timed_tail*)`: one unit moves from the counts to the marks. -/
def mark (g : globals) (s : state_statistics) (tail : timed_tail) : state_statistics :=
  { total_marks := s.total_marks + 1
    symbol_marks := bump s.symbol_marks tail.get_symbol 1
    time_marks := bump s.time_marks (get_bar g tail.get_time_value) 1
    total_counts := s.total_counts - 1
    symbol_counts := bump s.symbol_counts tail.get_symbol (-1)
    time_counts := bump s.time_counts (get_bar g tail.get_time_value) (-1) }

/-- `unmark(timed_tail*)`: one unit moves back from the marks to the counts. -/
def unmark (g : globals) (s : state_statistics) (tail : timed_tail) : state_statistics :=
  { total_marks := s.total_marks - 1
    symbol_marks := bump s.symbol_marks tail.get_symbol (-1)
    time_marks := bump s.time_marks (get_bar g tail.get_time_value) (-1)
    total_counts := s.total_counts + 1
    symbol_counts := bump s.symbol_counts tail.get_symbol 1
    time_counts := bump s.time_counts (get_bar g tail.get_time_value) 1 }

end state_statistics

end RTI


namespace RTI

/-! ## States and the automaton (`timed_automaton.h`, `timed_automaton.cpp`) -/

/-- The class `timed_state`: the array `targets` of `MAX_SYMBOL` interval sets and the
statistics object `stat`. -/
structure timed_state where
  targets : List interval_set
  stat : state_statistics
  deriving DecidableEq, Repr

/-- The constructor `timed_state::timed_state()`. -/
def timed_state.new (g : globals) : timed_state :=
  { targets := List.replicate g.MAX_SYMBOL (create_interval_set g)
    stat := state_statistics.new g }

namespace timed_state

/-- `get_intervals(symbol)`: `targets[symbol]`. -/
def get_intervals (s : timed_state) (symbol : Nat) : Option interval_set :=
  s.targets[symbol]?

/-- The entry that `get_interval(symbol, time)` points to. -/
def find (s : timed_state) (symbol : Nat) (time : Int) : Option (Int × interval) :=
  (s.get_intervals symbol).bind (fun l => find_interval l time)

/-- `get_interval(symbol, time)`. -/
def get_interval (s : timed_state) (symbol : Nat) (time : Int) : Option interval :=
  (s.find symbol time).map Prod.snd

/-- Assignment to `targets[symbol]`. -/
def set_intervals (s : timed_state) (symbol : Nat) (l : interval_set) : timed_state :=
  { s with targets := s.targets.set symbol l }

/-- Writing through a pointer to the interval with key `key` of `targets[symbol]`. -/
def update (s : timed_state) (symbol : Nat) (key : Int) (f : interval → interval) :
    timed_state :=
  match s.targets[symbol]? with
  | none => s
  | some l => { s with targets := s.targets.set symbol (update_interval l key f) }

/-- `timed_state::add_tail`. -/
def add_tail (g : globals) (s : timed_state) (tail : timed_tail) : Option timed_state :=
  match s.find tail.get_symbol tail.get_time_value with
  | none => none
  | some (k, _) =>
    some { targets := (s.update tail.get_symbol k
                        (fun i => { i with tails := add_tail_to_set i.tails tail })).targets
           stat := s.stat.add_count g tail }

/-- `timed_state::del_tail`. -/
def del_tail (g : globals) (s : timed_state) (tail : timed_tail) : Option timed_state :=
  match s.find tail.get_symbol tail.get_time_value with
  | none => none
  | some (k, i) =>
    match del_tail_from_set i.tails tail with
    | none => none
    | some ts =>
      some { targets := (s.update tail.get_symbol k (fun i => { i with tails := ts })).targets
             stat := s.stat.del_count g tail }

end timed_state

/-- The class `timed_automaton` together with the heap of `timed_state` objects and the
`marker` flags of the tails. `mem p` is the object at address `p` (`none`: nothing allocated
there), `next` the address the next `new timed_state()` returns, `states` the vector of
colored states, `root` its first element at construction. -/
structure timed_automaton where
  mem : Nat → Option timed_state
  next : Nat
  states : List Nat
  root : Nat
  marker : timed_tail → Bool

/-- A pointer to an interval: the state that owns the map, the symbol and the map key. -/
structure interval_ptr where
  state : Nat
  symbol : Nat
  key : Int
  deriving DecidableEq, Repr

namespace timed_automaton

/-- Writing the object at address `p`. -/
def store (A : timed_automaton) (p : Nat) (s : timed_state) : timed_automaton :=
  { A with mem := fun q => if q = p then some s else A.mem q }

/-- The expression `new timed_state()`: the fresh address and the heap with the new object. -/
def alloc (g : globals) (A : timed_automaton) : Nat × timed_automaton :=
  (A.next, { A with mem := fun q => if q = A.next then some (timed_state.new g) else A.mem q
                    next := A.next + 1 })

/-- The statement `delete p`; deleting the null pointer does nothing. -/
def free (A : timed_automaton) (p : Option Nat) : timed_automaton :=
  match p with
  | none => A
  | some p => { A with mem := fun q => if q = p then none else A.mem q }

/-- Dereferencing a state pointer. -/
def deref (A : timed_automaton) (p : Option Nat) : Option timed_state :=
  p.bind A.mem

/-- Reading through an interval pointer. -/
def read (A : timed_automaton) (r : interval_ptr) : Option interval :=
  (A.mem r.state).bind (fun s =>
    (s.get_intervals r.symbol).bind (fun l => (l.find? (fun e => e.1 == r.key)).map Prod.snd))

/-- Writing through an interval pointer. -/
def write (A : timed_automaton) (r : interval_ptr) (f : interval → interval) :
    Option timed_automaton :=
  (A.mem r.state).map (fun s => A.store r.state (s.update r.symbol r.key f))

/-- The pointer `p->get_interval(symbol, time)`. -/
def interval_at (A : timed_automaton) (p : Option Nat) (symbol : Nat) (time : Int) :
    Option (interval_ptr × interval) :=
  match p with
  | none => none
  | some q => ((A.mem q).bind (fun s => s.find symbol time)).map
      (fun e => (⟨q, symbol, e.1⟩, e.2))

/-- `p->add_tail(tail)`. -/
def add_tail (g : globals) (A : timed_automaton) (p : Option Nat) (tail : timed_tail) :
    Option timed_automaton :=
  match p with
  | none => none
  | some q => ((A.mem q).bind (fun s => s.add_tail g tail)).map (A.store q)

/-- `p->del_tail(tail)`. -/
def del_tail (g : globals) (A : timed_automaton) (p : Option Nat) (tail : timed_tail) :
    Option timed_automaton :=
  match p with
  | none => none
  | some q => ((A.mem q).bind (fun s => s.del_tail g tail)).map (A.store q)

/-- Applying a function to `p->stat`. -/
def update_stat (A : timed_automaton) (p : Option Nat)
    (f : state_statistics → state_statistics) : Option timed_automaton :=
  match p with
  | none => none
  | some q => (A.mem q).map (fun s => A.store q { s with stat := f s.stat })

/-- `add_state`: `states.push_back(s)`. -/
def add_state (A : timed_automaton) (s : Nat) : timed_automaton :=
  { A with states := A.states ++ [s] }

/-- Erasing the last occurrence of `s` from a vector, as the backward scan of `del_state`
does. -/
def erase_last (l : List Nat) (s : Nat) : List Nat :=
  (l.reverse.erase s).reverse

/-- `del_state`. -/
def del_state (A : timed_automaton) (s : Nat) : timed_automaton :=
  { A with states := erase_last A.states s }

/-- `contains_state`. -/
def contains_state (A : timed_automaton) (s : Option Nat) : Bool :=
  match s with
  | none => false
  | some p => A.states.contains p

/-- `get_state(number)`: the null pointer when `number` is out of range. -/
def get_state (A : timed_automaton) (number : Nat) : Option Nat :=
  A.states[number]?

/-- `num_states`. -/
def num_states (A : timed_automaton) : Nat := A.states.length

end timed_automaton

/-! ## Splitting an interval and its inverse -/

/-- The first loop of `recurse_split`: for every tail of `new_in` that has a successor, the
successor is deleted from `old_target` and added to `new_target`. -/
def move_next_tails (g : globals) (old_target new_target : Option Nat) :
    timed_automaton → List timed_tail → Option timed_automaton
  | A, [] => some A
  | A, tail :: ts =>
    match tail.next_tail with
    | none => move_next_tails g old_target new_target A ts
    | some nt =>
      (A.del_tail g old_target nt).bind (fun A1 =>
        (A1.add_tail g new_target nt).bind (fun A2 =>
          move_next_tails g old_target new_target A2 ts))

/-- One round of the loop over the symbols in `recurse_split`; `recurse` is the recursive
call. -/
def split_symbol (g : globals)
    (recurse : timed_automaton → interval_ptr → Option Nat → Option timed_automaton)
    (new_target old_target : Option Nat) (A : timed_automaton) (i : Nat) :
    Option timed_automaton :=
  (A.interval_at new_target i g.MAX_TIME).bind (fun (next_new_in, nni) =>
    if !nni.is_empty then
      (A.interval_at old_target i g.MAX_TIME).bind (fun (next_old_in, noi) =>
        if !noi.is_empty then
          let (n, A2) := A.alloc g
          (A2.write next_new_in (fun x => { x with to_ := some n })).bind (fun A3 =>
            recurse A3 next_new_in noi.to_)
        else
          (A.write next_new_in (fun x => { x with to_ := noi.to_ })).bind (fun A2 =>
            A2.write next_old_in (fun x => { x with to_ := none })))
    else some A)

/-- `timed_state::recurse_split(new_in, old_target)`. The recursion follows the tree below
`old_target`; `fuel` bounds its depth. -/
def recurse_split (g : globals) :
    Nat → timed_automaton → interval_ptr → Option Nat → Option timed_automaton
  | 0, _, _, _ => none
  | fuel + 1, A, new_in, old_target =>
    (A.read new_in).bind (fun ni =>
      (move_next_tails g old_target ni.get_target A ni.tails).bind (fun A1 =>
        (List.range g.MAX_SYMBOL).foldlM
          (split_symbol g (recurse_split g fuel) ni.get_target old_target) A1))

/-- The loop `for it3` of `recurse_un_split`: each tail is added to the statistics of
`old_target` and deleted from the statistics of `new_target`. -/
def move_counts (g : globals) (old_target new_target : Option Nat) :
    timed_automaton → List timed_tail → Option timed_automaton
  | A, [] => some A
  | A, tail :: ts =>
    (A.update_stat old_target (fun s => s.add_count g tail)).bind (fun A1 =>
      (A1.update_stat new_target (fun s => s.del_count g tail)).bind (fun A2 =>
        move_counts g old_target new_target A2 ts))

/-- One round of the first loop over the symbols in `recurse_un_split`; `recurse` is the
recursive call. -/
def un_split_symbol (g : globals)
    (recurse : timed_automaton → interval_ptr → Option Nat → Option timed_automaton)
    (new_target old_target : Option Nat) (A : timed_automaton) (i : Nat) :
    Option timed_automaton :=
  (A.interval_at new_target i g.MAX_TIME).bind (fun (next_new_in, nni) =>
    if !nni.is_empty then
      (A.interval_at old_target i g.MAX_TIME).bind (fun (next_old_in, noi) =>
        if !noi.is_empty then
          (recurse A next_new_in noi.to_).bind (fun A1 =>
            (A1.read next_new_in).map (fun x => A1.free x.to_))
        else
          (A.write next_old_in (fun x => { x with to_ := nni.to_ })).bind (fun A1 =>
            A1.write next_new_in (fun x => { x with to_ := none })))
    else some A)

/-- One round of the second loop over the symbols in `recurse_un_split`: the tails of the
interval of `new_target` are inserted into the interval of `old_target`, and the counts
follow. -/
def move_back_symbol (g : globals) (new_target old_target : Option Nat)
    (A : timed_automaton) (i : Nat) : Option timed_automaton :=
  (A.interval_at new_target i g.MAX_TIME).bind (fun (_, nni) =>
    (A.interval_at old_target i g.MAX_TIME).bind (fun (next_old_in, _) =>
      (A.write next_old_in
          (fun x => { x with tails := insert_tails x.tails nni.tails })).bind (fun A2 =>
        move_counts g old_target new_target A2 nni.tails)))

/-- `timed_state::recurse_un_split(new_in, old_target)`. -/
def recurse_un_split (g : globals) :
    Nat → timed_automaton → interval_ptr → Option Nat → Option timed_automaton
  | 0, _, _, _ => none
  | fuel + 1, A, new_in, old_target =>
    (A.read new_in).bind (fun ni =>
      ((List.range g.MAX_SYMBOL).reverse.foldlM
          (un_split_symbol g (recurse_un_split g fuel) ni.get_target old_target) A).bind
        (fun A1 =>
          (List.range g.MAX_SYMBOL).reverse.foldlM
            (move_back_symbol g ni.get_target old_target) A1))

/-- `timed_state::split(symbol, time)` on the state at address `p`. -/
def split (g : globals) (fuel : Nat) (A : timed_automaton) (p : Nat) (symbol : Nat)
    (time : Int) : Option timed_automaton :=
  (A.interval_at (some p) symbol time).bind (fun (in_, _) =>
    (A.mem p).bind (fun s =>
      (s.get_intervals symbol).bind (fun l =>
        (split_set l time).bind (fun l' =>
          let A1 := A.store p (s.set_intervals symbol l')
          (A1.interval_at (some p) symbol time).bind (fun (new_in, ni) =>
            if new_in = in_ ∨ ni.get_target ≠ none then none
            else
              (A1.read in_).bind (fun i =>
                if !ni.is_empty then
                  if !i.is_empty then
                    let (n, A2) := A1.alloc g
                    (A2.write new_in (fun x => { x with to_ := some n })).bind (fun A3 =>
                      recurse_split g fuel A3 new_in i.get_target)
                  else
                    (A1.write new_in (fun x => { x with to_ := i.to_ })).bind (fun A2 =>
                      A2.write in_ (fun x => { x with to_ := none }))
                else some A1))))))

/-- `timed_state::undo_split(symbol, time)` on the state at address `p`. -/
def undo_split (g : globals) (fuel : Nat) (A : timed_automaton) (p : Nat) (symbol : Nat)
    (time : Int) : Option timed_automaton :=
  (A.interval_at (some p) symbol (time + 1)).bind (fun (in_, i) =>
    (A.interval_at (some p) symbol time).bind (fun (new_in, ni) =>
      (if !ni.is_empty then
        if !i.is_empty then
          (recurse_un_split g fuel A new_in i.get_target).bind (fun A1 =>
            (A1.read new_in).map (fun x => A1.free x.to_))
        else
          (A.write in_ (fun x => { x with to_ := ni.to_ })).bind (fun A1 =>
            A1.write new_in (fun x => { x with to_ := none }))
      else some A).bind (fun A2 =>
        (A2.mem p).bind (fun s =>
          (s.get_intervals symbol).bind (fun l =>
            (undo_split_set l time).map (fun l' =>
              A2.store p (s.set_intervals symbol l')))))))

end RTI


namespace RTI

/-! ## Merging a tree state into another state and its inverse -/

/-- The keys `new_in->get_end()` at which `pre_split` splits `old_target`: the ends of the
intervals of `new_target` that differ from `MAX_TIME`, in map order. -/
def split_points (g : globals) (l : interval_set) : List Int :=
  (l.map (fun e => e.2.end_)).filter (fun e => e ≠ g.MAX_TIME)

/-- The entry an iterator that was advanced `j` times from `begin()` points to. -/
def nth_entry (A : timed_automaton) (p : Nat) (symbol : Nat) (j : Nat) :
    Option (interval_ptr × interval) :=
  (A.mem p).bind (fun s =>
    (s.get_intervals symbol).bind (fun l =>
      l[j]?.map (fun e => (⟨p, symbol, e.1⟩, e.2))))

/-- The number of entries of `p->get_intervals(symbol)`. -/
def num_intervals (A : timed_automaton) (p : Nat) (symbol : Nat) : Option Nat :=
  (A.mem p).bind (fun s => (s.get_intervals symbol).map List.length)

/-- `timed_state::pre_split(old_target, new_target)`. -/
def pre_split (g : globals) :
    Nat → timed_automaton → Nat → Nat → Option timed_automaton
  | 0, _, _, _ => none
  | fuel + 1, A, old_target, new_target =>
    ((List.range g.MAX_SYMBOL).foldlM (fun (A : timed_automaton) (i : Nat) =>
        (nth_entry A old_target i 0).bind (fun (first, _) =>
          if first.key ≠ g.MAX_TIME then none
          else
            (A.mem new_target).bind (fun sn =>
              (sn.get_intervals i).bind (fun ln =>
                (split_points g ln).foldlM (fun (A : timed_automaton) (e : Int) =>
                  split g (fuel + 1) A old_target i e) A)))) A).bind (fun A1 =>
      (List.range g.MAX_SYMBOL).foldlM (fun (A : timed_automaton) (i : Nat) =>
        (num_intervals A old_target i).bind (fun n =>
          (List.range n).foldlM (fun (A : timed_automaton) (j : Nat) =>
            (nth_entry A old_target i j).bind (fun (_, old_in) =>
              (nth_entry A new_target i j).bind (fun (_, new_in) =>
                if old_in.end_ ≠ new_in.end_ ∨ old_in.begin ≠ new_in.begin then none
                else
                  match old_in.to_, new_in.to_ with
                  | some o, some n => pre_split g fuel A o n
                  | _, _ => some A))) A)) A1)

/-- The `while` loop of `un_pre_split` for one symbol: as long as the first interval does
not end at `MAX_TIME`, the split at its end is undone. Every round erases one map entry, so
the number of entries at loop entry bounds the number of rounds. -/
def undo_first_splits (g : globals) (fuel : Nat) (old_target : Nat) (i : Nat) :
    Nat → timed_automaton → Option timed_automaton
  | 0, A =>
    (nth_entry A old_target i 0).bind (fun (first, old_in) =>
      if old_in.end_ ≠ g.MAX_TIME then none
      else if first.key ≠ g.MAX_TIME then none else some A)
  | n + 1, A =>
    (nth_entry A old_target i 0).bind (fun (first, old_in) =>
      if old_in.end_ ≠ g.MAX_TIME then
        (undo_split g fuel A old_target i old_in.end_).bind (fun A1 =>
          undo_first_splits g fuel old_target i n A1)
      else if first.key ≠ g.MAX_TIME then none else some A)

/-- `timed_state::un_pre_split(old_target)`. -/
def un_pre_split (g : globals) : Nat → timed_automaton → Nat → Option timed_automaton
  | 0, _, _ => none
  | fuel + 1, A, old_target =>
    ((List.range g.MAX_SYMBOL).foldlM (fun (A : timed_automaton) (i : Nat) =>
        (num_intervals A old_target i).bind (fun n =>
          (List.range n).foldlM (fun (A : timed_automaton) (j : Nat) =>
            (nth_entry A old_target i j).bind (fun (_, old_in) =>
              match old_in.to_ with
              | some o => un_pre_split g fuel A o
              | none => some A)) A)) A).bind (fun A1 =>
      (List.range g.MAX_SYMBOL).foldlM (fun (A : timed_automaton) (i : Nat) =>
        (num_intervals A old_target i).bind (fun n =>
          undo_first_splits g (fuel + 1) old_target i n A)) A1)

/-- The loop `for it3` of `recurse_merge`: every tail is added to `new_target->stat`. -/
def add_counts (g : globals) (s : state_statistics) (ts : List timed_tail) :
    state_statistics :=
  ts.foldl (state_statistics.add_count g) s

/-- The loop `for it3` of `recurse_un_merge`: every tail of `old_in` is deleted from `new_in`
and from `new_target->stat`. -/
def remove_tails (g : globals) (new_in : interval_ptr) :
    timed_automaton → List timed_tail → Option timed_automaton
  | A, [] => some A
  | A, tail :: ts =>
    (A.read new_in).bind (fun ni =>
      (del_tail_from_set ni.tails tail).bind (fun ts' =>
        (A.write new_in (fun x => { x with tails := ts' })).bind (fun A1 =>
          (A1.update_stat (some new_in.state) (fun s => s.del_count g tail)).bind (fun A2 =>
            remove_tails g new_in A2 ts))))

/-- `timed_state::recurse_merge(old_target, new_target)`. -/
def recurse_merge (g : globals) :
    Nat → timed_automaton → Option Nat → Option Nat → Option timed_automaton
  | 0, _, _, _ => none
  | _, _, none, _ => none
  | _, _, _, none => none
  | fuel + 1, A, some old_target, some new_target =>
    (List.range g.MAX_SYMBOL).foldlM (fun (A : timed_automaton) (i : Nat) =>
      (num_intervals A old_target i).bind (fun n =>
        (List.range n).foldlM (fun (A : timed_automaton) (j : Nat) =>
          (nth_entry A old_target i j).bind (fun (old_ptr, old_in) =>
            (nth_entry A new_target i j).bind (fun (new_ptr, new_in) =>
              if old_in.end_ ≠ new_in.end_ ∨ old_in.begin ≠ new_in.begin then none
              else if !old_in.is_empty then
                (if !new_in.is_empty then
                  recurse_merge g fuel A old_in.to_ new_in.to_
                else
                  (A.write new_ptr (fun x => { x with to_ := old_in.to_ })).bind (fun A1 =>
                    A1.write old_ptr (fun x => { x with to_ := none }))).bind (fun A2 =>
                  (A2.read old_ptr).bind (fun old_in2 =>
                    (A2.write new_ptr (fun x =>
                        { x with tails := insert_tails x.tails old_in2.tails })).bind (fun A3 =>
                      A3.update_stat (some new_target)
                        (fun s => add_counts g s old_in2.tails))))
              else some A))) A)) A

/-- `timed_state::recurse_un_merge(old_target, new_target)`. -/
def recurse_un_merge (g : globals) :
    Nat → timed_automaton → Option Nat → Option Nat → Option timed_automaton
  | 0, _, _, _ => none
  | _, _, none, _ => none
  | _, _, _, none => none
  | fuel + 1, A, some old_target, some new_target =>
    (List.range g.MAX_SYMBOL).reverse.foldlM (fun (A : timed_automaton) (i : Nat) =>
      (num_intervals A old_target i).bind (fun n =>
        (List.range n).reverse.foldlM (fun (A : timed_automaton) (j : Nat) =>
          (nth_entry A old_target i j).bind (fun (old_ptr, old_in) =>
            (nth_entry A new_target i j).bind (fun (new_ptr, new_in) =>
              if old_in.end_ ≠ new_in.end_ ∨ old_in.begin ≠ new_in.begin then none
              else if !old_in.is_empty then
                (remove_tails g new_ptr A old_in.tails).bind (fun A1 =>
                  (A1.read new_ptr).bind (fun new_in1 =>
                    (A1.read old_ptr).bind (fun old_in1 =>
                      if !new_in1.is_empty then
                        recurse_un_merge g fuel A1 old_in1.to_ new_in1.to_
                      else
                        (A1.write old_ptr (fun x => { x with to_ := new_in1.to_ })).bind
                          (fun A2 => A2.write new_ptr (fun x => { x with to_ := none })))))
              else some A))) A)) A

/-- `timed_state::point(symbol, time, new_target)` on the state at address `p`. -/
def point (g : globals) (fuel : Nat) (A : timed_automaton) (p : Nat) (symbol : Nat)
    (time : Int) (new_target : Option Nat) : Option timed_automaton :=
  (A.interval_at (some p) symbol time).bind (fun (in_, i) =>
    let old_target := i.get_target
    if old_target = new_target then none
    else
      (A.write in_ (fun x => { x with undo_tails := x.tails, to_ := new_target })).bind
        (fun A1 =>
          match old_target with
          | none => some A1
          | some o =>
            match new_target with
            | none => none
            | some n =>
              (pre_split g fuel A1 o n).bind (fun A2 =>
                (recurse_merge g fuel A2 (some o) (some n)).bind (fun A3 =>
                  A3.write in_ (fun x => { x with undo_to := some o })))))

/-- `timed_state::undo_point(symbol, time, new_target)` on the state at address `p`. -/
def undo_point (g : globals) (fuel : Nat) (A : timed_automaton) (p : Nat) (symbol : Nat)
    (time : Int) (new_target : Option Nat) : Option timed_automaton :=
  (A.interval_at (some p) symbol time).bind (fun (in_, i) =>
    if i.to_ ≠ new_target then none
    else
      let old_target := i.undo_to
      (A.write in_ (fun x => { x with undo_to := none })).bind (fun A1 =>
        match old_target with
        | none => some A1
        | some o =>
          (recurse_un_merge g fuel A1 (some o) new_target).bind (fun A2 =>
            (un_pre_split g fuel A2 o).bind (fun A3 =>
              A3.write in_ (fun x => { x with to_ := some o })))))

end RTI


namespace RTI

/-! ## Marks and the two scorers -/

/-- `timed_state::mark(in, tail)` called on the state at address `p`. The recursion follows
the chain of `next_tail`, which the first argument bounds. -/
def mark_chain (g : globals) :
    Nat → timed_automaton → Option Nat → interval_ptr → timed_tail → Option timed_automaton
  | 0, _, _, _, _ => none
  | n + 1, A, p, in_, tail =>
    if A.marker tail then some A
    else
      (A.update_stat p (fun s => s.mark g tail)).bind (fun A1 =>
        (A1.write in_ (fun x => { x with num_marked := x.num_marked + 1 })).bind (fun A2 =>
          let A3 : timed_automaton :=
            { A2 with marker := fun t => if t = tail then true else A2.marker t }
          match tail.next_tail with
          | none => some A3
          | some nt =>
            (A3.read in_).bind (fun i =>
              (A3.interval_at i.to_ nt.get_symbol nt.get_time_value).bind (fun (next_in, _) =>
                mark_chain g n A3 i.to_ next_in nt))))

/-- `timed_state::mark`. -/
def mark (g : globals) (A : timed_automaton) (p : Option Nat) (in_ : interval_ptr)
    (tail : timed_tail) : Option timed_automaton :=
  mark_chain g (tail.rest.length + 1) A p in_ tail

/-- `timed_state::un_mark(in, tail)` called on the state at address `p`. -/
def un_mark_chain (g : globals) :
    Nat → timed_automaton → Option Nat → interval_ptr → timed_tail → Option timed_automaton
  | 0, _, _, _, _ => none
  | n + 1, A, p, in_, tail =>
    if !A.marker tail then some A
    else
      (A.update_stat p (fun s => s.unmark g tail)).bind (fun A1 =>
        (A1.write in_ (fun x => { x with num_marked := x.num_marked - 1 })).bind (fun A2 =>
          let A3 : timed_automaton :=
            { A2 with marker := fun t => if t = tail then false else A2.marker t }
          match tail.next_tail with
          | none => some A3
          | some nt =>
            (A3.read in_).bind (fun i =>
              (A3.interval_at i.to_ nt.get_symbol nt.get_time_value).bind (fun (next_in, _) =>
                un_mark_chain g n A3 i.to_ next_in nt))))

/-- `timed_state::un_mark`. -/
def un_mark (g : globals) (A : timed_automaton) (p : Option Nat) (in_ : interval_ptr)
    (tail : timed_tail) : Option timed_automaton :=
  un_mark_chain g (tail.rest.length + 1) A p in_ tail

/-- `timed_state::clear_marked(in)` called on the state at address `p`. -/
def clear_marked (g : globals) (A : timed_automaton) (p : Option Nat) (in_ : interval_ptr) :
    Option timed_automaton :=
  (A.read in_).bind (fun i =>
    i.tails.foldlM (fun (A : timed_automaton) (tail : timed_tail) => un_mark g A p in_ tail) A)

/-- The test `in->get_tails().size() - in->get_num_marked() < MIN_DATA ||
in->get_num_marked() < MIN_DATA` of `recurse_test_split`. The first comparison is one of
`size_t` values: the difference and `MIN_DATA` are taken modulo `2 ^ 64`. -/
def too_few_marked (g : globals) (i : interval) : Prop :=
  ((i.tails.length : Int) - i.num_marked) % 2 ^ 64 < g.MIN_DATA % 2 ^ 64 ∨
    i.num_marked < g.MIN_DATA

instance too_few_marked_decidable (g : globals) (i : interval) :
    Decidable (too_few_marked g i) :=
  inferInstanceAs (Decidable (_ ∨ _))

/-- The body of the loop over the intervals in `recurse_test_split`; `recurse` is the
recursive call. -/
def test_split_interval (g : globals)
    (recurse : Option Nat → Option (List state_statistics))
    (acc : List state_statistics) (e : Int × interval) : Option (List state_statistics) :=
  if too_few_marked g e.2 then some acc
  else (recurse e.2.to_).map (fun r => acc ++ r)

/-- The body of the loop over the symbols in `recurse_test_split`. -/
def test_split_symbol (g : globals) (recurse : Option Nat → Option (List state_statistics))
    (s : timed_state) (acc : List state_statistics) (i : Nat) :
    Option (List state_statistics) :=
  (s.get_intervals i).bind (fun l => l.foldlM (test_split_interval g recurse) acc)

/-- `timed_state::recurse_test_split(state)`. The elementary scorers read the statistics of
`state` and write the accumulators of `statistics.cpp` only; the result is the list of the
statistics they are called on, in call order. -/
def recurse_test_split (g : globals) :
    Nat → timed_automaton → Option Nat → Option (List state_statistics)
  | _, _, none => some []
  | 0, _, some _ => none
  | fuel + 1, A, some state =>
    (A.mem state).bind (fun s =>
      (List.range g.MAX_SYMBOL).foldlM
        (test_split_symbol g (recurse_test_split g fuel A) s) [s.stat])

/-- The test `old_in->get_tails().size() < MIN_DATA || new_in->get_tails().size() < MIN_DATA`
of `recurse_test_merge`, a comparison of `size_t` values. -/
def too_few_tails (g : globals) (old_in new_in : interval) : Prop :=
  (old_in.tails.length : Int) < g.MIN_DATA % 2 ^ 64 ∨
    (new_in.tails.length : Int) < g.MIN_DATA % 2 ^ 64

instance too_few_tails_decidable (g : globals) (old_in new_in : interval) :
    Decidable (too_few_tails g old_in new_in) :=
  inferInstanceAs (Decidable (_ ∨ _))

/-- The body of the loop over the intervals in `recurse_test_merge`; `recurse` is the
recursive call. -/
def test_merge_interval (g : globals)
    (recurse : Option Nat → Option Nat → Option (List (state_statistics × state_statistics)))
    (A : timed_automaton) (old_target new_target : Nat) (i : Nat)
    (acc : List (state_statistics × state_statistics)) (j : Nat) :
    Option (List (state_statistics × state_statistics)) :=
  (nth_entry A old_target i j).bind (fun (_, old_in) =>
    (nth_entry A new_target i j).bind (fun (_, new_in) =>
      if too_few_tails g old_in new_in then some acc
      else (recurse old_in.to_ new_in.to_).map (fun r => acc ++ r)))

/-- The body of the loop over the symbols in `recurse_test_merge`. -/
def test_merge_symbol (g : globals)
    (recurse : Option Nat → Option Nat → Option (List (state_statistics × state_statistics)))
    (A : timed_automaton) (old_target new_target : Nat)
    (acc : List (state_statistics × state_statistics)) (i : Nat) :
    Option (List (state_statistics × state_statistics)) :=
  (num_intervals A old_target i).bind (fun n =>
    (List.range n).foldlM (test_merge_interval g recurse A old_target new_target i) acc)

/-- `timed_state::recurse_test_merge(old_target, new_target)`: the list of the pairs of
statistics the elementary scorers are called on, in call order. -/
def recurse_test_merge (g : globals) :
    Nat → timed_automaton → Option Nat → Option Nat →
      Option (List (state_statistics × state_statistics))
  | _, _, none, _ => some []
  | _, _, _, none => some []
  | 0, _, some _, some _ => none
  | fuel + 1, A, some old_target, some new_target =>
    (A.mem old_target).bind (fun so =>
      (A.mem new_target).bind (fun sn =>
        (List.range g.MAX_SYMBOL).foldlM
          (test_merge_symbol g (recurse_test_merge g fuel A) A old_target new_target)
          [(so.stat, sn.stat)]))

/-- The p-values that the floating-point code of `statistics.cpp` computes from the
elementary tests of a scorer run, and the threshold `SIGNIFICANCE`. They are parameters of
the model: `point` stands for the result of `calculate_consensus_test` or
`calculate_likelihood_test` after the tests of `recurse_test_merge`, `split` for the result
after the tests of `recurse_test_split`. -/
structure p_values where
  SIGNIFICANCE : ℚ
  point : List (state_statistics × state_statistics) → ℚ
  split : List state_statistics → ℚ

/-- The value `test_point` returns after the scorers were called on the pairs `r`. Every
elementary scorer of a pair of states returns at once, before it adds a test, when
`total_old < MIN_DATA || total_new < MIN_DATA`; when this holds for all pairs the
accumulators are as initialised and the result is `-1.0`. -/
def point_score (g : globals) (P : p_values)
    (r : List (state_statistics × state_statistics)) : ℚ :=
  if r.all (fun t => decide (t.1.total_counts < g.MIN_DATA ∨ t.2.total_counts < g.MIN_DATA))
  then -1 else P.point r

/-- The value `test_split` returns after the scorers were called on the states with the
statistics `r`; here `total_old` are the counts and `total_new` the marks of a state. -/
def split_score (g : globals) (P : p_values) (r : List state_statistics) : ℚ :=
  if r.all (fun t => decide (t.total_counts < g.MIN_DATA ∨ t.total_marks < g.MIN_DATA))
  then -1 else P.split r

/-- The marking loop of `test_split`: every tail of the interval up to `time` is marked, the
others must be unmarked. -/
def mark_upto (g : globals) (p : Nat) (in_ : interval_ptr) (time : Int)
    (A : timed_automaton) (tail : timed_tail) : Option timed_automaton :=
  if tail.get_time_value ≤ time then mark g A (some p) in_ tail
  else if A.marker tail then none else some A

/-- `timed_state::test_split(symbol, time)` called on the state at address `p`: the
automaton at return and the p-value (`0.0` when the target is null). -/
def test_split (g : globals) (P : p_values) (fuel : Nat) (A : timed_automaton) (p : Nat)
    (symbol : Nat) (time : Int) : Option (timed_automaton × ℚ) :=
  (A.interval_at (some p) symbol time).bind (fun (in_, i) =>
    match i.get_target with
    | none => some (A, 0)
    | some target =>
      (i.tails.foldlM (mark_upto g p in_ time) A).bind (fun A1 =>
        (recurse_test_split g fuel A1 (some target)).map (fun r => (A1, split_score g P r))))

/-- `timed_state::test_point(symbol, time, new_target)` called on the state at address `p`:
the automaton at return and the p-value (`0.0` when the old target is null). -/
def test_point (g : globals) (P : p_values) (fuel : Nat) (A : timed_automaton) (p : Nat)
    (symbol : Nat) (time : Int) (new_target : Option Nat) :
    Option (timed_automaton × ℚ) :=
  (A.interval_at (some p) symbol time).bind (fun (in_, i) =>
    match i.get_target with
    | none => some (A, 0)
    | some old_target =>
      if some old_target = new_target then none
      else
        (A.write in_ (fun x => { x with to_ := new_target })).bind (fun A1 =>
          match new_target with
          | none => none
          | some n =>
            (pre_split g fuel A1 old_target n).bind (fun A2 =>
              (recurse_test_merge g fuel A2 (some old_target) (some n)).bind (fun r =>
                (un_pre_split g fuel A2 old_target).bind (fun A3 =>
                  (A3.interval_at (some p) symbol time).bind (fun (in2, _) =>
                    (A3.write in2 (fun x => { x with to_ := some old_target })).map
                      (fun A4 => (A4, point_score g P r))))))))

/-! ## Construction of the prefix tree -/

/-- The loop of `create_states` over the tails of `in`: the successor of every tail is added
to the fresh target. -/
def add_next_tails (g : globals) (target : Option Nat) :
    timed_automaton → List timed_tail → Option timed_automaton
  | A, [] => some A
  | A, tail :: ts =>
    match tail.next_tail with
    | none => add_next_tails g target A ts
    | some nt => (A.add_tail g target nt).bind (fun A1 => add_next_tails g target A1 ts)

/-- `timed_state::create_states()` on the state at address `p`. -/
def create_states (g : globals) : Nat → timed_automaton → Nat → Option timed_automaton
  | 0, _, _ => none
  | fuel + 1, A, p =>
    (List.range g.MAX_SYMBOL).foldlM (fun (A : timed_automaton) (i : Nat) =>
      (num_intervals A p i).bind (fun n =>
        (List.range n).foldlM (fun (A : timed_automaton) (j : Nat) =>
          (nth_entry A p i j).bind (fun (ptr, in_) =>
            if in_.get_target ≠ none then none
            else if !in_.is_empty then
              let (n, A1) := A.alloc g
              (A1.write ptr (fun x => { x with to_ := some n })).bind (fun A2 =>
                (add_next_tails g (some n) A2 in_.tails).bind (fun A3 =>
                  create_states g fuel A3 n))
            else some A)) A)) A

/-- The tail at index 0 of the word number `w`; `sentinel` is the entry `timed_input` writes
behind the last position (the number of words and the sum of the delays). -/
def first_tail (w : Nat) (word : List (Nat × Int)) (num_words : Nat) : timed_tail :=
  ⟨w, 0, word ++ [(num_words, (word.map Prod.snd).sum)]⟩

/-- The tails at index 0 of all words of the input. -/
def first_tails (words : List (List (Nat × Int))) : List timed_tail :=
  (List.range words.length).zipWith (fun w word => first_tail w word words.length) words

/-- The automaton before the constructor body runs: the root is the only object. -/
def empty_automaton (g : globals) : timed_automaton :=
  { mem := fun q => if q = 0 then some (timed_state.new g) else none
    next := 1
    states := [0]
    root := 0
    marker := fun _ => false }

/-- The constructor `timed_automaton::timed_automaton(timed_input*)`: every word's first
tail is added to the root (unless its symbol is `10000`), then `create_states` builds the
prefix tree. -/
def tree_of_input (g : globals) (fuel : Nat) (words : List (List (Nat × Int))) :
    Option timed_automaton :=
  ((first_tails words).foldlM (fun (A : timed_automaton) (tail : timed_tail) =>
      if tail.get_symbol ≠ 10000 then A.add_tail g (some 0) tail else some A)
    (empty_automaton g)).bind (fun A => create_states g fuel A 0)

/-! ## The consistency checker -/

/-- `timed_automaton::check_next_tail(in, tail)`: `true` when no assertion fails. The
recursion follows the chain of `next_tail`, which the first argument bounds. -/
def check_next_tail (g : globals) : Nat → timed_automaton → interval_ptr → timed_tail → Bool
  | 0, _, _, _ => false
  | fuel + 1, A, in_, tail =>
    match A.read in_ with
    | none => false
    | some i =>
      decide (i.begin ≤ tail.get_time_value) && decide (tail.get_time_value ≤ i.end_) &&
      contains_tail_in_set i.tails tail && !A.marker tail &&
      (match tail.next_tail with
      | none => true
      | some nt =>
        match i.get_target with
        | none => false
        | some target =>
          match A.interval_at (some target) nt.get_symbol nt.get_time_value with
          | none => false
          | some (next_in, ni) =>
            contains_tail_in_set ni.tails nt && decide (ni.begin ≤ nt.get_time_value) &&
            decide (nt.get_time_value ≤ ni.end_) &&
            (if A.contains_state (some target) then true
            else
              (match A.mem target with
              | none => false
              | some st => decide (st.stat.total_marks = 0)) &&
              decide (ni.begin = g.MIN_TIME) && decide (ni.end_ = g.MAX_TIME) &&
              check_next_tail g fuel A next_in nt))

/-- `timed_automaton::check_consistency()` as it runs in a debug build: `true` when no
assertion fails. -/
def check_consistency (g : globals) (A : timed_automaton) : Bool :=
  A.states.all (fun state =>
    match A.mem state with
    | none => false
    | some s =>
      decide (s.stat.total_marks = 0) &&
      (List.range g.MAX_SYMBOL).all (fun i =>
        match s.get_intervals i with
        | none => false
        | some l =>
          l.all (fun e =>
            decide (e.2.num_marked = 0) &&
            e.2.tails.all (fun tail =>
              decide (e.2.begin ≤ tail.get_time_value) &&
              decide (tail.get_time_value ≤ e.2.end_) &&
              contains_tail_in_set e.2.tails tail && !A.marker tail &&
              (match tail.next_tail with
              | none => true
              | some nt =>
                match e.2.get_target with
                | none => false
                | some target =>
                  match A.interval_at (some target) nt.get_symbol nt.get_time_value with
                  | none => false
                  | some (next_in, _) =>
                    check_next_tail g (nt.rest.length + 1) A next_in nt)))))

end RTI


namespace RTI

/-! ## The partition invariants -/

/-- The intervals behind the first one: each begins right behind the end `pe` of its
predecessor, is keyed by its own end, ends later than its predecessor, and the last one ends
at `hi`. -/
def tail_cover : Int → interval_set → Int → Prop
  | pe, [], hi => pe = hi
  | pe, (k, i) :: rest, hi =>
    i.begin = pe + 1 ∧ k = i.end_ ∧ pe < i.end_ ∧ tail_cover i.end_ rest hi

instance tail_cover_decidable : (pe : Int) → (s : interval_set) → (hi : Int) →
    Decidable (tail_cover pe s hi)
  | pe, [], hi => inferInstanceAs (Decidable (pe = hi))
  | pe, (k, i) :: rest, hi =>
    have := tail_cover_decidable i.end_ rest hi
    inferInstanceAs (Decidable (i.begin = pe + 1 ∧ k = i.end_ ∧ pe < i.end_ ∧
      tail_cover i.end_ rest hi))

/-- The intervals of a partition form a contiguous, non-overlapping cover of
`[MIN_TIME, MAX_TIME]`, keyed and ordered by their ends. -/
def partition_ok (g : globals) : interval_set → Prop
  | [] => False
  | (k, i) :: rest =>
    i.begin = g.MIN_TIME ∧ k = i.end_ ∧ (rest ≠ [] → g.MIN_TIME ≤ i.end_) ∧
      tail_cover i.end_ rest g.MAX_TIME

instance partition_ok_decidable (g : globals) : (s : interval_set) →
    Decidable (partition_ok g s)
  | [] => inferInstanceAs (Decidable False)
  | (k, i) :: rest =>
    inferInstanceAs (Decidable (i.begin = g.MIN_TIME ∧ k = i.end_ ∧
      (rest ≠ [] → g.MIN_TIME ≤ i.end_) ∧ tail_cover i.end_ rest g.MAX_TIME))

/-- The iteration order of a `multimap`: ascending time values. -/
def tails_sorted (ts : tail_set) : Prop :=
  ts.Pairwise (fun a b => a.get_time_value ≤ b.get_time_value)

/-- Every tail stored in the interval lies within its bounds, and the tails are in the
order of a `multimap`. -/
def interval_ok (i : interval) : Prop :=
  tails_sorted i.tails ∧ ∀ x ∈ i.tails, i.begin ≤ x.get_time_value ∧ x.get_time_value ≤ i.end_

/-- The partition invariants: the cover of `[MIN_TIME, MAX_TIME]` and the bounds of the
stored tails. -/
def partition_valid (g : globals) (s : interval_set) : Prop :=
  partition_ok g s ∧ ∀ e ∈ s, interval_ok e.2

/-- The new interval `[begin, time]` that `split_set` creates from `i`. -/
def left_half (i : interval) (time : Int) : interval :=
  { begin := i.begin, end_ := time,
    tails := i.tails.filter (fun x => decide (x.get_time_value ≤ time)),
    to_ := none, num_marked := 0, undo_tails := [], undo_to := none }

/-- The interval `i` after `split_set` has shrunk it to `[time + 1, end]`. -/
def right_half (i : interval) (time : Int) : interval :=
  { i with begin := time + 1,
           tails := i.tails.filter (fun x => decide (time < x.get_time_value)) }

/-- The interval `r` after `undo_split_set` has merged its left neighbour `l` into it. -/
def merged (l r : interval) : interval :=
  { r with begin := l.begin, tails := insert_tails r.tails l.tails }

/-- A configuration for the examples: one symbol, times from 0 to 10. -/
def example_globals : globals :=
  { MAX_SYMBOL := 1, MIN_TIME := 0, MAX_TIME := 10, TIME_IQR25 := 2, TIME_IQR50 := 5,
    TIME_IQR75 := 7, MIN_DATA := 10 }

end RTI


namespace RTI

/-! ## Trees of states

The states below an interval whose target is not colored form a tree: every one of them is
the target of exactly one interval. `state_tree` is such a tree read off the heap, with the
address and the contents of every state; the children of a node are indexed by the symbol
and the map key of the interval that points to them. -/

/-- A tree of states; `null` stands for the null pointer. -/
inductive state_tree where
  | null : state_tree
  | node (addr : Nat) (s : timed_state) (kid : Nat → Int → state_tree) : state_tree

/-- `e` is an entry of the partition of `s` for the symbol `i`. -/
def is_edge (s : timed_state) (i : Nat) (e : Int × interval) : Prop :=
  ∃ l, s.targets[i]? = some l ∧ e ∈ l

namespace state_tree

/-- The pointer to the root of the tree. -/
def root : state_tree → Option Nat
  | null => none
  | node a _ _ => some a

/-- The addresses of the states of the tree. -/
def addrs : state_tree → Set Nat
  | null => ∅
  | node a s kid => {r | r = a ∨ ∃ i e, is_edge s i e ∧ r ∈ (kid i e.1).addrs}

/-- No state occurs twice in the tree. -/
def wf : state_tree → Prop
  | null => True
  | node a s kid =>
    (∀ i e, is_edge s i e → a ∉ (kid i e.1).addrs ∧ (kid i e.1).wf) ∧
    (∀ i e i' e', is_edge s i e → is_edge s i' e' → (i, e.1) ≠ (i', e'.1) →
      Disjoint (kid i e.1).addrs (kid i' e'.1).addrs)

/-- The tree has fewer than `n` levels. -/
def fits : state_tree → Nat → Prop
  | null, _ => True
  | node _ s kid, n => ∃ m, n = m + 1 ∧ ∀ i e, is_edge s i e → (kid i e.1).fits m

end state_tree

/-- The heap holds the tree `t` at the pointer `p`: every node is the object at its address,
and the target of every interval is the root of the corresponding child. -/
def rep (A : timed_automaton) : Option Nat → state_tree → Prop
  | p, state_tree.null => p = none
  | p, state_tree.node a s kid =>
    p = some a ∧ A.mem a = some s ∧ ∀ i e, is_edge s i e → rep A e.2.to_ (kid i e.1)

/-- A state in the unsplit initial shape: one interval with key `MAX_TIME` per symbol. -/
def timed_state.unsplit (g : globals) (s : timed_state) : Prop :=
  s.targets.length = g.MAX_SYMBOL ∧
    ∀ i, i < g.MAX_SYMBOL → ∃ I, s.targets[i]? = some [(g.MAX_TIME, I)]

/-- The first interval of the partition for the symbol `i`. -/
def timed_state.iv (s : timed_state) (i : Nat) : interval :=
  match s.targets[i]? with
  | some ((_, I) :: _) => I
  | _ => interval.new 0 0

/-- The successors of the tails of a list. -/
def nexts (P : List timed_tail) : List timed_tail :=
  P.filterMap timed_tail.next_tail

/-- The tree below an interval with the tails `P` is a prefix tree in the initial shape:
every state is unsplit, a non-empty interval has a target, and the successor of every tail
of an interval is stored in the target of the interval, under its own symbol. -/
def state_tree.placed (g : globals) : state_tree → List timed_tail → Prop
  | state_tree.null, P => P = []
  | state_tree.node _ s kid, P =>
    s.unsplit g ∧ (∀ x ∈ nexts P, x.get_symbol < g.MAX_SYMBOL) ∧
    (∀ x, (nexts P).count x ≤ (s.iv x.get_symbol).tails.count x) ∧
    ∀ i, i < g.MAX_SYMBOL → (kid i g.MAX_TIME).placed g (s.iv i).tails

/-- Deleting every tail of a list from the statistics. -/
def del_counts (g : globals) (s : state_statistics) (ts : List timed_tail) :
    state_statistics :=
  ts.foldl (state_statistics.del_count g) s

/-- The result of `recurse_split`: the tree `t` below the old target is divided, along the
successors of the tails `X` of the new interval, into the tree `tn` below the new target and
the rest `t'` below the old target; the statistics of the old target lose the counts of the
successors and those of the new target count them. For every symbol, when no successor has
this symbol the child stays; when all tails of the old interval move, the new state takes
over the child; otherwise the child is divided in the same way. -/
def split_rel (g : globals) : state_tree → List timed_tail → state_tree → state_tree → Prop
  | state_tree.null, _, _, _ => False
  | state_tree.node a sT kid, X, tn, t' =>
    ∃ n sN kidN sT' kid', tn = state_tree.node n sN kidN ∧ t' = state_tree.node a sT' kid' ∧
      sN.unsplit g ∧ sT'.unsplit g ∧ sT'.stat = del_counts g sT.stat (nexts X) ∧
      sN.stat = add_counts g (state_statistics.new g) (nexts X) ∧
      ∀ i, i < g.MAX_SYMBOL →
        (∀ x, (sN.iv i).tails.count x = if x.get_symbol = i then (nexts X).count x else 0) ∧
        (∀ x, (sT'.iv i).tails.count x + (sN.iv i).tails.count x = (sT.iv i).tails.count x) ∧
        (sT'.iv i).begin = (sT.iv i).begin ∧ (sT'.iv i).end_ = (sT.iv i).end_ ∧
        (sT'.iv i).num_marked = (sT.iv i).num_marked ∧
        (sT'.iv i).undo_to = (sT.iv i).undo_to ∧
        (sT'.iv i).undo_tails = (sT.iv i).undo_tails ∧
        (if (sN.iv i).tails = [] then
          kidN i g.MAX_TIME = state_tree.null ∧ kid' i g.MAX_TIME = kid i g.MAX_TIME ∧
            (sT'.iv i).to_ = (sT.iv i).to_ ∧ (sN.iv i).to_ = none
        else if (sT'.iv i).tails = [] then
          kidN i g.MAX_TIME = kid i g.MAX_TIME ∧ kid' i g.MAX_TIME = state_tree.null ∧
            (sN.iv i).to_ = (sT.iv i).to_ ∧ (sT'.iv i).to_ = none
        else
          (sT'.iv i).to_ = (sT.iv i).to_ ∧
            split_rel g (kid i g.MAX_TIME) (sN.iv i).tails (kidN i g.MAX_TIME)
              (kid' i g.MAX_TIME))

/-- The interval of the old target after `recurse_un_split` has moved the tails of the
interval `n` of the new target back into it. -/
def merged_iv (n t : interval) : interval :=
  { t with tails := insert_tails t.tails n.tails
           to_ := if n.tails ≠ [] ∧ t.tails = [] then n.to_ else t.to_ }

/-- The old target after `recurse_un_split`. -/
def merge_state (g : globals) (sN sT : timed_state) : timed_state :=
  { targets := (List.range g.MAX_SYMBOL).map
      (fun i => [(g.MAX_TIME, merged_iv (sN.iv i) (sT.iv i))])
    stat := (List.range g.MAX_SYMBOL).reverse.foldl
      (fun st i => add_counts g st (sN.iv i).tails) sT.stat }

/-- The tree below the old target after `recurse_un_split`. -/
def merge_tree (g : globals) : state_tree → state_tree → state_tree
  | state_tree.null, t' => t'
  | state_tree.node _ sN kidN, t' =>
    match t' with
    | state_tree.null => state_tree.null
    | state_tree.node a sT kid' =>
      state_tree.node a (merge_state g sN sT) (fun i k =>
        if (sN.iv i).tails = [] then kid' i k
        else if (sT.iv i).tails = [] then kidN i k
        else merge_tree g (kidN i k) (kid' i k))

/-- The two trees can be merged by `recurse_un_split`: the states are in the initial shape,
and where both intervals of a symbol hold tails both have a target. -/
def mergeable (g : globals) : state_tree → state_tree → Prop
  | state_tree.null, _ => False
  | state_tree.node _ sN kidN, t' =>
    ∃ a sT kid', t' = state_tree.node a sT kid' ∧ sN.unsplit g ∧ sT.unsplit g ∧
      ∀ i, i < g.MAX_SYMBOL → (sN.iv i).tails ≠ [] → (sT.iv i).tails ≠ [] →
        mergeable g (kidN i g.MAX_TIME) (kid' i g.MAX_TIME)

/-! ### Equality of states up to the order of the tails -/

/-- Two intervals agree in every field, their tails as multisets. -/
def interval_equiv (a b : interval) : Prop :=
  a.begin = b.begin ∧ a.end_ = b.end_ ∧ a.tails.Perm b.tails ∧ a.to_ = b.to_ ∧
    a.num_marked = b.num_marked

/-- Two partitions have the same keys and equivalent intervals. -/
def interval_set_equiv (a b : interval_set) : Prop :=
  List.Forall₂ (fun x y => x.1 = y.1 ∧ interval_equiv x.2 y.2) a b

/-- Two states have the same statistics and equivalent partitions. -/
def state_equiv (a b : timed_state) : Prop :=
  a.stat = b.stat ∧ List.Forall₂ interval_set_equiv a.targets b.targets

/-- Two heap cells are both empty or hold equivalent states. -/
def cell_equiv : Option timed_state → Option timed_state → Prop
  | none, none => True
  | some a, some b => state_equiv a b
  | _, _ => False

/-- Two trees have the same addresses and, up to the order of the tails, the same states. -/
def tree_equiv : state_tree → state_tree → Prop
  | state_tree.null, t' => t' = state_tree.null
  | state_tree.node a s kid, t' =>
    ∃ s' kid', t' = state_tree.node a s' kid' ∧ state_equiv s s' ∧
      ∀ i e, is_edge s i e → tree_equiv (kid i e.1) (kid' i e.1)

/-! ### Moving tails between states in the initial shape -/

/-- The state after a successful `del_tail(tail)` in the initial shape. -/
def timed_state.take (g : globals) (s : timed_state) (tail : timed_tail) : timed_state :=
  { targets := (s.update tail.get_symbol g.MAX_TIME
      (fun i => { i with tails := i.tails.erase tail })).targets
    stat := s.stat.del_count g tail }

/-- The state after a successful `add_tail(tail)` in the initial shape. -/
def timed_state.put (g : globals) (s : timed_state) (tail : timed_tail) : timed_state :=
  { targets := (s.update tail.get_symbol g.MAX_TIME
      (fun i => { i with tails := add_tail_to_set i.tails tail })).targets
    stat := s.stat.add_count g tail }

/-- The old target after the first loop of `recurse_split`. -/
def timed_state.takes (g : globals) (s : timed_state) (ts : List timed_tail) : timed_state :=
  ts.foldl (timed_state.take g) s

/-- The new target after the first loop of `recurse_split`. -/
def timed_state.puts (g : globals) (s : timed_state) (ts : List timed_tail) : timed_state :=
  ts.foldl (timed_state.put g) s

/-! ### The heap after `recurse_split` -/

/-- The heap `B` is the heap `A` after a computation that wrote the states of `S` and
allocated further states only. -/
def heap_frame (A B : timed_automaton) (S : Set Nat) : Prop :=
  (∀ r, r ∉ S → r < A.next → B.mem r = A.mem r) ∧ A.next ≤ B.next ∧
    B.states = A.states ∧ B.marker = A.marker ∧ B.root = A.root

/-- The heap `B` after `recurse_split` was called in the heap `A` with a new interval that
holds the tails `X` and points to the fresh state `n`, and with the root of the tree `t` as
old target. -/
def split_post (g : globals) (A B : timed_automaton) (n : Nat) (t : state_tree)
    (X : List timed_tail) : Prop :=
  ∃ tn t', rep B (some n) tn ∧ rep B t.root t' ∧ split_rel g t X tn t' ∧
    tn.wf ∧ t'.wf ∧ Disjoint tn.addrs t'.addrs ∧
    (∀ r, r ∈ tn.addrs → r = n ∨ r ∈ t.addrs ∨ (A.next ≤ r ∧ r < B.next)) ∧
    (∀ r, r ∈ t'.addrs → r ∈ t.addrs) ∧
    heap_frame A B ({n} ∪ t.addrs)

/-- The state of one symbol after its round of the loop over the symbols in `recurse_split`:
`c` is the child of the old target before the call, `cn` and `co` are the children of the
new and the old target now, `iT0` is the interval of the old target before the call, `iN1`
and `iT1` are the two intervals after the first loop, `iN` and `iT` the two intervals now. -/
def split_done (g : globals) (lo hi : Nat) (B : timed_automaton) (c cn co : state_tree)
    (iT0 iN1 iT1 iN iT : interval) : Prop :=
  rep B iN.to_ cn ∧ rep B iT.to_ co ∧ cn.wf ∧ co.wf ∧ Disjoint cn.addrs co.addrs ∧
    (∀ r, r ∈ cn.addrs → r ∈ c.addrs ∨ (lo ≤ r ∧ r < hi)) ∧
    (∀ r, r ∈ co.addrs → r ∈ c.addrs) ∧
    (if iN1.tails = [] then
      cn = state_tree.null ∧ co = c ∧ iT.to_ = iT0.to_ ∧ iN.to_ = none
    else if iT1.tails = [] then
      cn = c ∧ co = state_tree.null ∧ iN.to_ = iT0.to_ ∧ iT.to_ = none
    else iT.to_ = iT0.to_ ∧ split_rel g c iN1.tails cn co)

/-- The invariant of the loop over the symbols in `recurse_split` before the round of the
symbol `k`: `A` is the heap at the call, `a` and `n` are the old and the new target, `sT` and
`kid` the old target and its children at the call, `sN1` and `sT1` the new and the old target
after the first loop. -/
def split_inv (g : globals) (A : timed_automaton) (a n : Nat) (sT : timed_state)
    (kid : Nat → Int → state_tree) (sN1 sT1 : timed_state) (k : Nat)
    (B : timed_automaton) : Prop :=
  ∃ (sN sT' : timed_state) (kidN kid' : Nat → Int → state_tree),
    B.mem n = some sN ∧ B.mem a = some sT' ∧ sN.unsplit g ∧ sT'.unsplit g ∧
    sN.stat = sN1.stat ∧ sT'.stat = sT1.stat ∧
    (∀ i, i < g.MAX_SYMBOL → sN.iv i = { sN1.iv i with to_ := (sN.iv i).to_ } ∧
      sT'.iv i = { sT1.iv i with to_ := (sT'.iv i).to_ }) ∧
    (∀ i, i < g.MAX_SYMBOL → k ≤ i → (sN.iv i).to_ = none ∧
      (sT'.iv i).to_ = (sT.iv i).to_ ∧ rep B (sT.iv i).to_ (kid i g.MAX_TIME)) ∧
    (∀ i, i < k → split_done g A.next B.next B (kid i g.MAX_TIME) (kidN i g.MAX_TIME)
      (kid' i g.MAX_TIME) (sT.iv i) (sN1.iv i) (sT1.iv i) (sN.iv i) (sT'.iv i)) ∧
    (∀ i j, i < k → j < k → i ≠ j →
      Disjoint (kidN i g.MAX_TIME).addrs (kidN j g.MAX_TIME).addrs) ∧
    heap_frame A B ({n} ∪ (state_tree.node a sT kid).addrs)

/-- The specification of `recurse_split` for calls with the recursion bound `fuel`: called
with a new interval that points to a fresh empty state, and with the root of a prefix tree
that holds the successors of the tails of the new interval, it returns and divides the
tree. -/
def recurse_split_ok (g : globals) (fuel : Nat) : Prop :=
  ∀ (A : timed_automaton) (new_in : interval_ptr) (ni : interval) (n : Nat) (a : Nat)
    (sT : timed_state) (kid : Nat → Int → state_tree),
    A.read new_in = some ni → ni.to_ = some n → A.mem n = some (timed_state.new g) →
    n < A.next → n ∉ (state_tree.node a sT kid).addrs →
    (∀ r, r ∈ (state_tree.node a sT kid).addrs → r < A.next) →
    rep A (some a) (state_tree.node a sT kid) → (state_tree.node a sT kid).wf →
    (state_tree.node a sT kid).fits fuel → (state_tree.node a sT kid).placed g ni.tails →
    ∃ B, recurse_split g fuel A new_in (some a) = some B ∧
      split_post g A B n (state_tree.node a sT kid) ni.tails

/-! ### The heap after `recurse_un_split` -/

/-- The child for the symbol `i` of the old target after `recurse_un_split`. -/
def merged_kid (g : globals) (sN sT : timed_state) (kidN kid' : Nat → Int → state_tree)
    (i : Nat) : state_tree :=
  if (sN.iv i).tails = [] then kid' i g.MAX_TIME
  else if (sT.iv i).tails = [] then kidN i g.MAX_TIME
  else merge_tree g (kidN i g.MAX_TIME) (kid' i g.MAX_TIME)

/-- The specification of `recurse_un_split` for calls with the recursion bound `fuel`: called
with a new interval that points to the root of a tree `tn`, and with the root of a tree `t'`
as old target, it returns and leaves the merged tree below the old target. -/
def recurse_un_split_ok (g : globals) (fuel : Nat) : Prop :=
  ∀ (B : timed_automaton) (new_in : interval_ptr) (ni : interval) (n : Nat)
    (sN : timed_state) (kidN : Nat → Int → state_tree) (a : Nat) (sT : timed_state)
    (kid' : Nat → Int → state_tree),
    B.read new_in = some ni → ni.to_ = some n →
    rep B (some n) (state_tree.node n sN kidN) → rep B (some a) (state_tree.node a sT kid') →
    mergeable g (state_tree.node n sN kidN) (state_tree.node a sT kid') →
    (state_tree.node n sN kidN).wf → (state_tree.node a sT kid').wf →
    Disjoint (state_tree.node n sN kidN).addrs (state_tree.node a sT kid').addrs →
    (state_tree.node n sN kidN).fits fuel →
    ∃ B', recurse_un_split g fuel B new_in (some a) = some B' ∧
      rep B' (some a) (merge_tree g (state_tree.node n sN kidN) (state_tree.node a sT kid')) ∧
      (∀ r, r ∉ (state_tree.node n sN kidN).addrs → r ∉ (state_tree.node a sT kid').addrs →
        B'.mem r = B.mem r) ∧
      B'.next = B.next ∧ B'.states = B.states ∧ B'.marker = B.marker ∧ B'.root = B.root

/-- The invariant of the first loop over the symbols in `recurse_un_split`, which runs from
the last symbol to the first, when the symbols from `k` on are done: `B0` is the heap at the
call, `n` and `a` are the new and the old target, `sN`, `kidN`, `sT` and `kid'` the two
states and their children at the call. -/
def un_split_inv (g : globals) (B0 : timed_automaton) (n a : Nat) (sN sT : timed_state)
    (kidN kid' : Nat → Int → state_tree) (k : Nat) (B : timed_automaton) : Prop :=
  ∃ (sNc sTc : timed_state),
    B.mem n = some sNc ∧ B.mem a = some sTc ∧ sNc.unsplit g ∧ sTc.unsplit g ∧
    sNc.stat = sN.stat ∧ sTc.stat = sT.stat ∧
    (∀ i, i < g.MAX_SYMBOL → sNc.iv i = { sN.iv i with to_ := (sNc.iv i).to_ } ∧
      sTc.iv i = { sT.iv i with to_ := (sTc.iv i).to_ }) ∧
    (∀ i, i < k → (sNc.iv i).to_ = (sN.iv i).to_ ∧ (sTc.iv i).to_ = (sT.iv i).to_ ∧
      rep B (sN.iv i).to_ (kidN i g.MAX_TIME) ∧ rep B (sT.iv i).to_ (kid' i g.MAX_TIME)) ∧
    (∀ i, k ≤ i → i < g.MAX_SYMBOL →
      (sTc.iv i).to_ = (merged_iv (sN.iv i) (sT.iv i)).to_ ∧
      rep B (sTc.iv i).to_ (merged_kid g sN sT kidN kid' i)) ∧
    (∀ r, r ∉ (state_tree.node n sN kidN).addrs → r ∉ (state_tree.node a sT kid').addrs →
      B.mem r = B0.mem r) ∧
    B.next = B0.next ∧ B.states = B0.states ∧ B.marker = B0.marker ∧ B.root = B0.root

/-- The old target after one round of the second loop over the symbols in
`recurse_un_split`, when the interval of the new target holds the tails `ts i`. -/
def back_step (g : globals) (ts : Nat → tail_set) (s : timed_state) (i : Nat) : timed_state :=
  { targets := (s.update i g.MAX_TIME
      (fun x => { x with tails := insert_tails x.tails (ts i) })).targets
    stat := add_counts g s.stat (ts i) }

/-- The new target after one round of the second loop over the symbols in
`recurse_un_split`. -/
def back_step_new (g : globals) (ts : Nat → tail_set) (s : timed_state) (i : Nat) :
    timed_state :=
  { s with stat := del_counts g s.stat (ts i) }

/-- The tails `ts i` of the symbols below `k`, the last symbol first. -/
def collect (ts : Nat → tail_set) : Nat → tail_set
  | 0 => []
  | k + 1 => ts k ++ collect ts k

/-! ### The partition of the state that is split -/

/-- The new interval `[begin, time]` of `split_set`, with the tails up to `time`. -/
def new_half (i : interval) (time : Int) : interval :=
  { interval.new i.begin time with tails := tails_upto i.tails time }

/-- The interval `i` after `split_set` has shrunk it to `[time + 1, end]`. -/
def old_half (i : interval) (time : Int) : interval :=
  { i with tails := tails_after i.tails time, begin := time + 1 }

/-- A partition with the two intervals `x` and `y`, keyed `time` and `k`, between the
intervals `pre` and `post`. -/
def around (pre post : interval_set) (time k : Int) (x y : interval) : interval_set :=
  pre ++ (time, x) :: (k, y) :: post

/-! ### Marked trees -/

/-- The tail `x` and its successors; the first argument bounds their number. -/
def chain_from : Nat → timed_tail → List timed_tail
  | 0, x => [x]
  | n + 1, x => x :: (match x.next_tail with
    | none => []
    | some nx => chain_from n nx)

/-- The tail `x` and its successors. -/
def chain (x : timed_tail) : List timed_tail := chain_from x.rest.length x

/-- A state in the initial shape after the tails `Y`, which it holds, have been marked. -/
def mark_state (g : globals) (s : timed_state) (Y : List timed_tail) : timed_state :=
  { targets := (List.range g.MAX_SYMBOL).map (fun i =>
      [(g.MAX_TIME, { s.iv i with num_marked := (s.iv i).num_marked +
        ((Y.filter (fun y => y.get_symbol = i)).length : Int) })])
    stat := Y.foldl (state_statistics.mark g) s.stat }

/-- A tree after the tails `Y`, which its root holds, and all their successors have been
marked. -/
def mark_tree (g : globals) : state_tree → List timed_tail → state_tree
  | state_tree.null, _ => state_tree.null
  | state_tree.node a s kid, Y =>
    state_tree.node a (mark_state g s Y) (fun i k =>
      mark_tree g (kid i k) (nexts (Y.filter (fun y => y.get_symbol = i))))

/-- The state with the partition `pre ++ (k, i) :: post` for `symbol` after the tails `Y` of
the interval `i` have been marked. -/
def mark_top (g : globals) (s : timed_state) (symbol : Nat) (pre post : interval_set)
    (k : Int) (i : interval) (Y : List timed_tail) : timed_state :=
  ({ s with stat := Y.foldl (state_statistics.mark g) s.stat } : timed_state).set_intervals
    symbol (pre ++ (k, { i with num_marked := i.num_marked + (Y.length : Int) }) :: post)

/-! ### Two small automata -/

/-- A colored root whose only interval holds the first tails of the words `(0, 1)` and
`(0, 5)` and has no target. Neither tail has a successor. -/
def null_target_automaton : timed_automaton :=
  { mem := fun q =>
      if q = 0 then
        some { targets := [[(10, { interval.new 0 10 with
                 tails := [⟨0, 0, [(0, 1), (2, 1)]⟩, ⟨1, 0, [(0, 5), (2, 5)]⟩] })]]
               stat := { total_counts := 2, symbol_counts := [2], time_counts := [1, 1, 0, 0],
                         total_marks := 0, symbol_marks := [0], time_marks := [0, 0, 0, 0] } }
      else none
    next := 1
    states := [0]
    root := 0
    marker := fun _ => false }

/-- The words `(0, 1) (0, 3)` and `(0, 5) (0, 2)` of the second example. -/
def example_words : List (List (Nat × Int)) := [[(0, 1), (0, 3)], [(0, 5), (0, 2)]]

/-- The root of the prefix tree of `example_words`. -/
def example_root : timed_state :=
  { targets := [[(10, { interval.new 0 10 with
      tails := [⟨0, 0, [(0, 1), (0, 3), (2, 4)]⟩, ⟨1, 0, [(0, 5), (0, 2), (2, 7)]⟩]
      to_ := some 1 })]]
    stat := { total_counts := 2, symbol_counts := [2], time_counts := [1, 1, 0, 0],
              total_marks := 0, symbol_marks := [0], time_marks := [0, 0, 0, 0] } }

/-- The state below the root. -/
def example_child : timed_state :=
  { targets := [[(10, { interval.new 0 10 with
      tails := [⟨1, 1, [(0, 2), (2, 7)]⟩, ⟨0, 1, [(0, 3), (2, 4)]⟩]
      to_ := some 2 })]]
    stat := { total_counts := 2, symbol_counts := [2], time_counts := [1, 1, 0, 0],
              total_marks := 0, symbol_marks := [0], time_marks := [0, 0, 0, 0] } }

/-- The prefix tree of `example_words`: the root and two tree states. -/
def example_tree : timed_automaton :=
  { mem := fun q =>
      if q = 0 then some example_root
      else if q = 1 then some example_child
      else if q = 2 then some (timed_state.new example_globals)
      else none
    next := 3
    states := [0]
    root := 0
    marker := fun _ => false }

/-- The tree below the interval of the root of `example_tree`. -/
def example_state_tree : state_tree :=
  state_tree.node 1 example_child (fun _ _ =>
    state_tree.node 2 (timed_state.new example_globals) (fun _ _ => state_tree.null))

/-- The heap `A2` agrees with the heap `A` on all states that exist in `A`, up to the order
of the tails, and has the same colored states and the same markers. -/
def restored (A A2 : timed_automaton) : Prop :=
  (∀ r, r < A.next → cell_equiv (A.mem r) (A2.mem r)) ∧ A2.states = A.states ∧
    A2.marker = A.marker ∧ A2.root = A.root

end RTI


namespace RTI

/-! ## The search (`searcher.h`, `searcher.cpp`) -/

/-- The class `refinement`: `state` and `target` are indices into the vector of colored
states; the target code `-1` stands for a split and `-2` for a new colored state. -/
structure refinement where
  state : Int
  target : Int
  symbol : Int
  time : Int
  deriving DecidableEq, Repr

/-- `refinement_set`: a `multimap<double, refinement, greater<double> >`, as the list of its
entries in iteration order (descending key, equal keys in insertion order). -/
abbrev refinement_set := List (ℚ × refinement)

/-- `multimap::insert` into a `refinement_set`: the new entry is placed behind every entry
whose key is not less. -/
def insert_refinement : refinement_set → ℚ × refinement → refinement_set
  | [], e => [e]
  | x :: xs, e => if x.1 < e.1 then e :: x :: xs else x :: insert_refinement xs e

/-- `refinement::refine()`. -/
def refinement.refine (g : globals) (fuel : Nat) (A : timed_automaton) (r : refinement) :
    Option timed_automaton :=
  (A.get_state r.state.toNat).bind (fun st =>
    if r.target > -1 then
      point g fuel A st r.symbol.toNat r.time (A.get_state r.target.toNat)
    else if r.target = -1 then split g fuel A st r.symbol.toNat r.time
    else
      (A.interval_at (some st) r.symbol.toNat r.time).bind (fun (_, i) =>
        i.get_target.map A.add_state))

/-- `refinement::undo_refine()`. -/
def refinement.undo_refine (g : globals) (fuel : Nat) (A : timed_automaton)
    (r : refinement) : Option timed_automaton :=
  (A.get_state r.state.toNat).bind (fun st =>
    if r.target > -1 then
      undo_point g fuel A st r.symbol.toNat r.time (A.get_state r.target.toNat)
    else if r.target = -1 then undo_split g fuel A st r.symbol.toNat r.time
    else
      (A.interval_at (some st) r.symbol.toNat r.time).bind (fun (_, i) =>
        i.get_target.map A.del_state))

/-- The variables `in`, `state`, `symbol` and `max_size` of `get_best_refinements`. -/
structure selection where
  in_ : Option interval_ptr
  state : Int
  symbol : Int
  max_size : Int
  deriving DecidableEq, Repr

/-- The body of the innermost loop of the selection in `get_best_refinements`, for the
interval `e` of the colored state number `i`, at address `st`, and the symbol `s`. When the
comparison `inter->get_tails().size() > max_size` is reached, `max_size` is the size of an
interval, which the conversion to `size_t` does not change. -/
def select_interval (A : timed_automaton) (st i s : Nat) (sel : selection)
    (e : Int × interval) : selection :=
  if A.contains_state e.2.get_target ∨ e.2.is_empty then sel
  else if sel.max_size = -1 ∨ (e.2.tails.length : Int) > sel.max_size then
    { in_ := some ⟨st, s, e.1⟩, state := i, symbol := s, max_size := e.2.tails.length }
  else sel

/-- The loop over the intervals of one symbol in the selection. -/
def select_symbol (A : timed_automaton) (st i : Nat) (sel : selection) (s : Nat) :
    Option selection :=
  ((A.mem st).bind (fun x => x.get_intervals s)).map
    (fun l => l.foldl (select_interval A st i s) sel)

/-- The loop over the symbols of one colored state in the selection. -/
def select_state (g : globals) (A : timed_automaton) (sel : selection) (i : Nat) :
    Option selection :=
  (A.get_state i).bind (fun st =>
    (List.range g.MAX_SYMBOL).foldlM (select_symbol A st i) sel)

/-- The first loop nest of `get_best_refinements`: the selection of the interval `in`. -/
def select (g : globals) (A : timed_automaton) : Option selection :=
  (List.range A.num_states).foldlM (select_state g A)
    { in_ := none, state := 0, symbol := -1, max_size := -1 }

/-- The body of the loop over the candidate targets in `get_best_refinements`: the merge of
the target of `in` with the colored state number `i` is scored and, unless the score is
`-1.0`, inserted into the merge set. -/
def add_merge (g : globals) (P : p_values) (fuel : Nat) (in_ : interval_ptr)
    (state symbol : Nat) (acc : refinement_set × timed_automaton) (i : Nat) :
    Option (refinement_set × timed_automaton) :=
  (acc.2.get_state i).bind (fun target =>
    if target ≠ acc.2.root then
      (acc.2.get_state state).bind (fun st =>
        (acc.2.read in_).bind (fun i1 =>
          (test_point g P fuel acc.2 st symbol i1.end_ (some target)).bind (fun (A1, score) =>
            if score ≠ -1 then
              (A1.read in_).map (fun i2 =>
                (insert_refinement acc.1 (score, ⟨state, i, symbol, i2.end_⟩), A1))
            else some (acc.1, A1))))
    else some acc)

/-- The state of the loop over the tails in `get_best_refinements`: the split set, the
automaton and the variable `time`. -/
structure split_loop where
  splits : refinement_set
  A : timed_automaton
  time : Int

/-- The body of the loop over the tails of `in` in `get_best_refinements`: when the time of
the tail is larger than `time`, the split at `time` is scored and, unless the score is
`-1.0`, inserted into the split set. -/
def add_split (g : globals) (P : p_values) (fuel : Nat) (state symbol : Nat)
    (acc : split_loop) (tail : timed_tail) : Option split_loop :=
  if acc.time < tail.get_time_value then
    (acc.A.get_state state).bind (fun st =>
      (test_split g P fuel acc.A st symbol acc.time).map (fun (A1, score) =>
        { splits := if score ≠ -1 then
            insert_refinement acc.splits (score, ⟨state, -1, symbol, acc.time⟩)
            else acc.splits
          A := A1
          time := tail.get_time_value }))
  else some acc

/-- The part of `get_best_refinements` behind the selection, for the selected interval
`in_` of the colored state number `state` and the symbol `symbol`. -/
def score_refinements (g : globals) (P : p_values) (fuel : Nat) (A : timed_automaton)
    (in_ : interval_ptr) (state symbol : Nat) :
    Option (refinement_set × refinement_set × timed_automaton) :=
  if !check_consistency g A then none
  else
    ((List.range A.num_states).foldlM (add_merge g P fuel in_ state symbol) ([], A)).bind
      (fun (merges, A1) =>
        if !check_consistency g A1 then none
        else
          (A1.read in_).bind (fun i =>
            let merges1 := insert_refinement merges (P.SIGNIFICANCE, ⟨state, -2, symbol, i.end_⟩)
            (i.tails.head?).bind (fun first =>
              (i.tails.foldlM (add_split g P fuel state symbol)
                  { splits := [], A := A1, time := first.get_time_value }).bind (fun r =>
                (r.A.get_state state).bind (fun st =>
                  (clear_marked g r.A (some st) in_).bind (fun A3 =>
                    if !check_consistency g A3 then none
                    else some (merges1, r.splits, A3)))))))

/-- `get_best_refinements()`: the merge set, the split set and the automaton at return. The
comparison `in->get_tails().size() < 2 * MIN_DATA` is one of `size_t` values. -/
def get_best_refinements (g : globals) (P : p_values) (fuel : Nat) (A : timed_automaton) :
    Option (refinement_set × refinement_set × timed_automaton) :=
  if !check_consistency g A then none
  else
    (select g A).bind (fun sel =>
      match sel.in_ with
      | none => some ([], [], A)
      | some in_ =>
        (A.read in_).bind (fun i =>
          if (i.tails.length : Int) < (2 * g.MIN_DATA) % 2 ^ 64 then some ([], [], A)
          else score_refinements g P fuel A in_ sel.state.toNat sel.symbol.toNat))

/-- The refinement that `greedy` applies, and later undoes, for the merge set `first` and
the split set `second` when not both are empty: the last entry of the split set when its
key is below `SIGNIFICANCE`, else the first entry of the merge set. -/
def greedy_choice (P : p_values) (first second : refinement_set) : Option refinement :=
  if second ≠ [] then
    second.getLast?.bind (fun e =>
      if e.1 < P.SIGNIFICANCE then some e.2 else first.head?.map Prod.snd)
  else first.head?.map Prod.snd

end RTI


namespace RTI

/-! ## Notions for the properties of the search -/

/-- The keys of a refinement set descend along the list. -/
def descending (s : refinement_set) : Prop :=
  s.Pairwise (fun a b => b.1 ≤ a.1)

/-- The globals of the examples with `MIN_DATA = 1`. -/
def small_globals : globals := { example_globals with MIN_DATA := 1 }

/-- Constant p-values for the examples. -/
def example_p_values : p_values :=
  { SIGNIFICANCE := 1, point := fun _ => 0, split := fun _ => 0 }

end RTI


namespace RTI

/-! ## Notions for the properties of `pre_split` and `un_pre_split` -/

/-- An interval together with the tree below it. -/
abbrev piece := interval × state_tree

/-- The right one of two neighbouring intervals, with the tree below it, after `undo_split`
has merged the left one `x` into it. -/
def merge_piece (g : globals) (x y : piece) : piece :=
  ({ merged_iv x.1 y.1 with begin := x.1.begin },
    if x.1.tails = [] then y.2 else if y.1.tails = [] then x.2 else merge_tree g x.2 y.2)

/-- Two intervals with their trees agree up to the order of the tails. -/
def piece_equiv (x y : piece) : Prop :=
  interval_equiv x.1 y.1 ∧ tree_equiv x.2 y.2

/-- The interval and the tree that are left when the splits between the intervals of a
partition are undone from left to right, as the loop of `un_pre_split` does. -/
def merge_pieces (g : globals) : List piece → piece
  | [] => (interval.new 0 0, state_tree.null)
  | c :: cs => cs.foldl (merge_piece g) c

/-- The tree after `un_pre_split`: below every state the splits are undone, then the splits
of the state itself. -/
def flatten (g : globals) : state_tree → state_tree
  | state_tree.null => state_tree.null
  | state_tree.node a s kid =>
    state_tree.node a
      { targets := (List.range g.MAX_SYMBOL).map (fun i =>
          [(g.MAX_TIME, (merge_pieces g (((s.targets[i]?).getD []).map
            (fun e => (e.2, flatten g (kid i e.1))))).1)])
        stat := s.stat }
      (fun i _ => (merge_pieces g (((s.targets[i]?).getD []).map
        (fun e => (e.2, flatten g (kid i e.1))))).2)

/-- The two pieces `l` and `r` that `split` makes of the piece `c` at `time`: the halves of
the interval and, when both hold tails, the two parts of the tree; when one half is empty
the other one keeps the tree. -/
def split_piece (g : globals) (c : piece) (time : Int) (l r : piece) : Prop :=
  l.1 = { new_half c.1 time with to_ := l.2.root } ∧
  r.1 = { old_half c.1 time with to_ := r.2.root } ∧
  (if tails_upto c.1.tails time = [] then l.2 = state_tree.null ∧ r.2 = c.2
   else if tails_after c.1.tails time = [] then l.2 = c.2 ∧ r.2 = state_tree.null
   else split_rel g c.2 (tails_upto c.1.tails time) l.2 r.2)

/-- The pieces `pre_split` makes of the piece `c` when it splits at the times `es` in turn,
each time the last piece. -/
def split_chain (g : globals) : piece → List Int → List piece → Prop
  | c, [], out => out = [c]
  | c, e :: es, out =>
    ∃ l r rest, split_piece g c e l r ∧ split_chain g r es rest ∧ out = l :: rest

/-- All tails of the intervals of a partition. -/
def all_tails : interval_set → List timed_tail
  | [] => []
  | e :: l => e.2.tails ++ all_tails l

/-- The tree below an interval with the tails `P` is a prefix tree on which `pre_split` has
run: the partitions of its states are covers, and the successor of every tail of an interval
is stored in the target of the interval, in the partition of its symbol. -/
def pre_placed (g : globals) : state_tree → List timed_tail → Prop
  | state_tree.null, P => P = []
  | state_tree.node _ s kid, P =>
    s.targets.length = g.MAX_SYMBOL ∧
    (∀ i, i < g.MAX_SYMBOL → ∃ l, s.targets[i]? = some l ∧ partition_ok g l) ∧
    (∀ x ∈ nexts P, x.get_symbol < g.MAX_SYMBOL) ∧
    (∀ x l, s.targets[x.get_symbol]? = some l → (nexts P).count x ≤ (all_tails l).count x) ∧
    ∀ i e, is_edge s i e → pre_placed g (kid i e.1) e.2.tails

/-- Every state of the heap has `MAX_SYMBOL` partitions, each a cover of
`[MIN_TIME, MAX_TIME]`. -/
def heap_ok (g : globals) (A : timed_automaton) : Prop :=
  ∀ r s, A.mem r = some s → s.targets.length = g.MAX_SYMBOL ∧ ∀ l ∈ s.targets, partition_ok g l

/-- The set `N` of addresses is closed under the targets of the intervals: every target of
an interval of a state of `N` is a state of `N`. -/
def closed (A : timed_automaton) (N : Set Nat) : Prop :=
  ∀ n, n ∈ N → ∃ sn, A.mem n = some sn ∧
    ∀ i e, is_edge sn i e → ∀ n', e.2.to_ = some n' → n' ∈ N

/-- The tree below `old_target` after `pre_split` matches the states below `new_target`, the
state at `n`: wherever `recurse_test_merge` descends, the partitions of the two states have
the same number of intervals. -/
def matched (g : globals) (A : timed_automaton) : state_tree → Nat → Prop
  | state_tree.null, _ => True
  | state_tree.node _ s kid, n =>
    ∃ sn, A.mem n = some sn ∧
      ∀ i, i < g.MAX_SYMBOL → ∃ (l ln : interval_set),
        s.targets[i]? = some l ∧ sn.targets[i]? = some ln ∧
        l.length = ln.length ∧
        ∀ (j : Nat) (e en : Int × interval), l[j]? = some e → ln[j]? = some en →
          ∀ n', en.2.to_ = some n' →
          matched g A (kid i e.1) n'

/-- The tree below `old_target` after `pre_split` is aligned with the states below
`new_target`, the state at `n`: for every symbol the partitions of the two states have the
same sequence of intervals `[begin, end]`, and so have the states below every pair of
corresponding intervals whose targets are both not null. -/
def aligned (g : globals) (A : timed_automaton) : state_tree → Nat → Prop
  | state_tree.null, _ => True
  | state_tree.node _ s kid, n =>
    ∃ sn, A.mem n = some sn ∧
      ∀ i, i < g.MAX_SYMBOL → ∃ (l ln : interval_set),
        s.targets[i]? = some l ∧ sn.targets[i]? = some ln ∧
        l.map (fun e => (e.2.begin, e.2.end_)) = ln.map (fun e => (e.2.begin, e.2.end_)) ∧
        ∀ (j : Nat) (e en : Int × interval), l[j]? = some e → ln[j]? = some en →
          ∀ n', en.2.to_ = some n' →
          aligned g A (kid i e.1) n'

/-- The number of times the tail `x` is stored in the states of a tree. -/
def tree_count (x : timed_tail) : state_tree → Nat
  | state_tree.null => 0
  | state_tree.node _ s kid =>
    ((List.range s.targets.length).map (fun i =>
      (((s.targets[i]?).getD []).map
        (fun e => e.2.tails.count x + tree_count x (kid i e.1))).sum)).sum

/-- All tails that a state stores, in the intervals of all its partitions. -/
def state_tails (s : timed_state) : List timed_tail :=
  (s.targets.map all_tails).flatten

/-- The tree below an interval with the tails `P` is an exact prefix tree in the initial
shape: every state is unsplit, it stores the successors of the tails of the interval that
points to it, each under its own symbol, and nothing else, and its statistics are the counts
of the tails it stores; an interval without tails has no target. -/
def exact_tree (g : globals) : state_tree → List timed_tail → Prop
  | state_tree.null, P => P = []
  | state_tree.node _ s kid, P =>
    s.unsplit g ∧ (∀ x ∈ nexts P, x.get_symbol < g.MAX_SYMBOL) ∧
    (∀ i, i < g.MAX_SYMBOL → ∀ x,
      (s.iv i).tails.count x = if x.get_symbol = i then (nexts P).count x else 0) ∧
    s.stat = add_counts g (state_statistics.new g) (state_tails s) ∧
    ∀ i, i < g.MAX_SYMBOL → exact_tree g (kid i g.MAX_TIME) (s.iv i).tails

/-- The heap `B` in a loop over the intervals of the state `s` at `a`, which handles the
tree below each interval in turn: `A` is the heap at loop entry, `kid` are the trees then,
`done` tells the intervals that are handled, `Post` relates the tree below an interval before
and after, and `J` is an invariant of the heap. -/
def traverse_inv (a : Nat) (s : timed_state) (kid : Nat → Int → state_tree)
    (A : timed_automaton) (J : timed_automaton → Prop)
    (Post : Nat → Int × interval → state_tree → state_tree → Prop)
    (done : Nat → Int × interval → Prop) (B : timed_automaton) : Prop :=
  ∃ kidc : Nat → Int → state_tree,
    rep B (some a) (state_tree.node a s kidc) ∧ (state_tree.node a s kidc).wf ∧
    (∀ i e, is_edge s i e → done i e → Post i e (kid i e.1) (kidc i e.1)) ∧
    (∀ i e, is_edge s i e → ¬ done i e → kidc i e.1 = kid i e.1) ∧
    (∀ r, r ∈ (state_tree.node a s kidc).addrs →
      r ∈ (state_tree.node a s kid).addrs ∨ (A.next ≤ r ∧ r < B.next)) ∧
    (∀ r, r ∉ (state_tree.node a s kid).addrs → r < A.next → B.mem r = A.mem r) ∧
    A.next ≤ B.next ∧ B.states = A.states ∧ B.marker = A.marker ∧ B.root = A.root ∧ J B

/-- The heap `B` in a loop over the symbols that changes, for one symbol after the other, the
partition of the state at `a` and the trees below its intervals, before the round of the
symbol `i`: `A` is the heap at loop entry, `s0` and `kid0` are the state and the trees then,
`Q` describes the partition and the trees of a symbol that is done, and `J` is an invariant
of the heap. -/
def symbol_inv (g : globals) (a : Nat) (s0 : timed_state) (kid0 : Nat → Int → state_tree)
    (A : timed_automaton) (J : timed_automaton → Prop)
    (Q : Nat → interval_set → (Int → state_tree) → Prop) (i : Nat) (B : timed_automaton) :
    Prop :=
  ∃ (sB : timed_state) (kidc : Nat → Int → state_tree),
    rep B (some a) (state_tree.node a sB kidc) ∧ (state_tree.node a sB kidc).wf ∧
    sB.targets.length = g.MAX_SYMBOL ∧ sB.stat = s0.stat ∧
    (∀ i', i ≤ i' → sB.targets[i']? = s0.targets[i']? ∧ ∀ k, kidc i' k = kid0 i' k) ∧
    (∀ i', i' < i → i' < g.MAX_SYMBOL → ∃ l', sB.targets[i']? = some l' ∧ Q i' l' (kidc i')) ∧
    (∀ i' e, is_edge sB i' e → ∀ r, r ∈ (kidc i' e.1).addrs →
      (∃ e0, is_edge s0 i' e0 ∧ r ∈ (kid0 i' e0.1).addrs) ∨ (A.next ≤ r ∧ r < B.next)) ∧
    (∀ r, r ∉ (state_tree.node a s0 kid0).addrs → r < A.next → B.mem r = A.mem r) ∧
    A.next ≤ B.next ∧ B.states = A.states ∧ B.marker = A.marker ∧ B.root = A.root ∧ J B

/-- The tree of the piece with the end `k` in a list of pieces. -/
def piece_tree (pieces : List piece) (k : Int) : state_tree :=
  match pieces.find? (fun c => decide (c.1.end_ = k)) with
  | some c => c.2
  | none => state_tree.null

/-- The heap invariant of the loops of `un_pre_split`: nothing is allocated. -/
def same_next (A B : timed_automaton) : Prop :=
  B.next = A.next ∧ ∀ r, A.next ≤ r → B.mem r = A.mem r

/-- The heap invariant of the loops of `pre_split`: the partitions are covers, and the states
of `N`, the side of the new target, are as in `A`. -/
def new_side_kept (g : globals) (A : timed_automaton) (N : Set Nat) (B : timed_automaton) :
    Prop :=
  heap_ok g B ∧ ∀ n, n ∈ N → B.mem n = A.mem n

end RTI


namespace RTI

/-! ## Notions for the properties of `get_best_refinements` -/

/-- The heap `B` after a step from `A`: the partitions are covers when they were before, and
the list of the colored states and the root are the same. -/
def kept (g : globals) (A B : timed_automaton) : Prop :=
  (heap_ok g A → heap_ok g B) ∧ B.states = A.states ∧ B.root = A.root

/-- The p-values that `test_point` returns for the colored states with the numbers `js` other
than the root, tested in turn as new targets of the interval that contains `time` in the
partition for `symbol` of the state at `p`: with each p-value the number of its state, and
the automaton behind the last test. -/
def merge_scores (g : globals) (P : p_values) (fuel : Nat) (p symbol : Nat) (time : Int) :
    timed_automaton → List Nat → Option (List (Nat × ℚ) × timed_automaton)
  | A, [] => some ([], A)
  | A, j :: js =>
    (A.get_state j).bind (fun target =>
      if target ≠ A.root then
        (test_point g P fuel A p symbol time (some target)).bind (fun (A1, score) =>
          (merge_scores g P fuel p symbol time A1 js).map
            (fun (rs, B) => ((j, score) :: rs, B)))
      else merge_scores g P fuel p symbol time A js)

/-- The merge refinement of the interval with the end `time` for `symbol` of the colored
state number `state` with the p-value and the target of `r`. -/
def merge_entry (state symbol : Nat) (time : Int) (r : Nat × ℚ) : ℚ × refinement :=
  (r.2, ⟨state, r.1, symbol, time⟩)

/-- The surroundings of the interval `i` with the key `k` in the partition for `symbol` of
the state at `p`, as they are when `get_best_refinements` has selected it: the partitions of
the heap are covers; the target of the interval is the root `o` of the prefix tree `t` of
unsplit states, in which every non-empty interval has a target that holds the successors of
its tails; and `N` is a set of states apart from the tree that holds the colored states and
is closed under the targets of all intervals but `i`. -/
structure tree_below (g : globals) (fuel : Nat) (A : timed_automaton) (p symbol : Nat)
    (k : Int) (i : interval) (o : Nat) (t : state_tree) (N : Set Nat) : Prop where
  ok : heap_ok g A
  entry : ∃ s l, A.mem p = some s ∧ s.targets[symbol]? = some l ∧ (k, i) ∈ l
  target : i.to_ = some o
  tree : rep A (some o) t
  wf : t.wf
  placed : t.placed g i.tails
  fits : t.fits fuel
  apart : p ∉ t.addrs
  old : ∀ r, r ∈ t.addrs → r < A.next
  lt : p < A.next
  colored : ∀ r, r ∈ A.states → r ∈ N
  side : ∀ r, r ∈ N → r ∉ t.addrs ∧ r < A.next
  shut : ∀ r, r ∈ N → ∃ sr, A.mem r = some sr ∧
    ∀ i' e, is_edge sr i' e → (r, i', e.1) ≠ (p, symbol, k) →
      ∀ n', e.2.to_ = some n' → n' ∈ N

/-- One call of `test_split` in `get_best_refinements`, for the time `t`: the split is
scored and, unless the score is `-1.0`, inserted into the split set. -/
def split_step (g : globals) (P : p_values) (fuel : Nat) (state symbol : Nat)
    (acc : refinement_set × timed_automaton) (t : Int) :
    Option (refinement_set × timed_automaton) :=
  (acc.2.get_state state).bind (fun st =>
    (test_split g P fuel acc.2 st symbol t).map (fun (A1, score) =>
      (if score ≠ -1 then insert_refinement acc.1 (score, ⟨state, -1, symbol, t⟩)
        else acc.1, A1)))

/-- The times at which the loop over the tails in `get_best_refinements` calls
`test_split`, in call order, when the loop starts with the variable `time`. -/
def call_times : Int → List timed_tail → List Int
  | _, [] => []
  | time, x :: xs =>
    if time < x.get_time_value then time :: call_times x.get_time_value xs
    else call_times time xs

/-- An interval that `get_best_refinements` may select: the number and the address of its
colored state, the symbol, and the entry of the partition. -/
structure candidate where
  number : Nat
  state : Nat
  symbol : Nat
  key : Int
  iv : interval

/-- The intervals among which `get_best_refinements` selects, in the order of the state
numbers, the symbols and the partitions: the non-empty intervals of the colored states
whose target is not colored. -/
def candidates (g : globals) (A : timed_automaton) : List candidate :=
  (List.range A.num_states).flatMap (fun i =>
    match A.get_state i with
    | none => []
    | some st =>
      (List.range g.MAX_SYMBOL).flatMap (fun s =>
        ((((A.mem st).bind (fun x => x.get_intervals s)).getD []).filter
          (fun e => !(A.contains_state e.2.get_target) && !e.2.is_empty)).map
          (fun e => ⟨i, st, s, e.1, e.2⟩)))

/-- The selection after the candidate `c` has been compared. -/
def pick (sel : selection) (c : candidate) : selection :=
  if sel.max_size = -1 ∨ (c.iv.tails.length : Int) > sel.max_size then
    { in_ := some ⟨c.state, c.symbol, c.key⟩, state := c.number, symbol := c.symbol,
      max_size := c.iv.tails.length }
  else sel

/-- The selection `sel` holds the first one of the candidates `L` with the most tails;
without candidates it is the initial one. -/
def first_largest (L : List candidate) (sel : selection) : Prop :=
  (L = [] ∧ sel = { in_ := none, state := 0, symbol := -1, max_size := -1 }) ∨
    ∃ (n : Nat) (c : candidate), L[n]? = some c ∧
      sel = { in_ := some ⟨c.state, c.symbol, c.key⟩, state := c.number, symbol := c.symbol,
              max_size := c.iv.tails.length } ∧
      (∀ c', c' ∈ L → c'.iv.tails.length ≤ c.iv.tails.length) ∧
      ∀ (m : Nat) (c' : candidate), m < n → L[m]? = some c' →
        c'.iv.tails.length < c.iv.tails.length

/-- The prefix tree of `example_words` with the state below the root colored. -/
def colored_example : timed_automaton := { example_tree with states := [0, 1] }

/-- Twenty copies of the word `(0, 1) (0, 1)`. -/
def twenty_words : List (List (Nat × Int)) := List.replicate 20 [(0, 1), (0, 1)]

end RTI


namespace RTI

/-! ## The elementary tests (`statistics.cpp`) -/

/-- The floating-point functions that `statistics.cpp` takes from the C library and from GSL
(`log`, `gsl_cdf_chisq_Q`) and its constants `MAX_P_VALUE` and `MIN_P_VALUE`. They are
parameters of the model; a `double` is a rational number, so the arithmetic of the scorers is
exact and a division by zero has the value zero. -/
structure numerics where
  log : ℚ → ℚ
  chisq_Q : ℚ → ℚ → ℚ
  MAX_P_VALUE : ℚ
  MIN_P_VALUE : ℚ

/-- `calculate_chi2_value`. -/
def calculate_chi2_value (g : globals) (first second total1 total2 : ℚ) : ℚ :=
  let total := first + second
  let expected1 := (total1 * total) / (total1 + total2)
  let expected2 := (total2 * total) / (total1 + total2)
  let top1 := first - expected1
  let top2 := second - expected2
  if first < g.MIN_DATA ∨ second < g.MIN_DATA then
    let top1 := (if top1 < 0 then -top1 else top1) - 1 / 2
    let top2 := (if top2 < 0 then -top2 else top2) - 1 / 2
    ((top1 * top1) / expected1) + ((top2 * top2) / expected2)
  else ((top1 * top1) / expected1) + ((top2 * top2) / expected2)

/-- The running accumulators of the two consensus tests: the variables `sum_z_values`,
`num_tests`, `ml_ratio` and `ml_parameters` of `statistics.cpp`. -/
structure accumulators where
  sum_z_values : ℚ
  num_tests : ℚ
  ml_ratio : ℚ
  ml_parameters : Int
  deriving DecidableEq, Repr

/-- `initialize_consensus_test`. -/
def initialize_consensus_test (acc : accumulators) : accumulators :=
  { acc with sum_z_values := 0, num_tests := 0 }

/-- `add_to_consensus_test`. -/
def add_to_consensus_test (N : numerics) (acc : accumulators) (p_value : ℚ) : accumulators :=
  let p_value := if p_value = 1 then N.MAX_P_VALUE else p_value
  { acc with sum_z_values := acc.sum_z_values + -2 * N.log p_value
             num_tests := acc.num_tests + 1 }

/-- `calculate_consensus_test`. -/
def calculate_consensus_test (N : numerics) (acc : accumulators) : ℚ :=
  if acc.num_tests = 0 then -1 else N.chisq_Q acc.sum_z_values (2 * acc.num_tests)

/-- `initialize_likelihood_test`. -/
def initialize_likelihood_test (acc : accumulators) : accumulators :=
  { acc with ml_ratio := 0, ml_parameters := 0 }

/-- `add_to_likelihood_test`. -/
def add_to_likelihood_test (acc : accumulators) (ratio : ℚ) (parameters : Int) :
    accumulators :=
  { acc with ml_ratio := acc.ml_ratio + ratio
             ml_parameters := acc.ml_parameters + parameters }

/-- `calculate_likelihood_test`. -/
def calculate_likelihood_test (N : numerics) (acc : accumulators) : ℚ :=
  if acc.ml_ratio = 0 ∧ acc.ml_parameters = 0 then -1
  else N.chisq_Q (-2 * acc.ml_ratio) acc.ml_parameters

/-- The pooling loop of the scorers over the `n` categories of the arrays `old` and `new`:
the variables `old_pool` and `new_pool` behind the loop. -/
def pool_counts (g : globals) (old new : List Int) (n : Nat) : Option (Int × Int) :=
  (List.range n).foldlM (fun (acc : Int × Int) (i : Nat) =>
    (old[i]?).bind (fun a =>
      (new[i]?).map (fun b =>
        if a < g.MIN_DATA ∧ b < g.MIN_DATA then (acc.1 + a, acc.2 + b) else acc))) (0, 0)

/-- The variables of a chi-squared scorer in front of its final test. -/
structure chi2_sums where
  total_old : Int
  total_new : Int
  old_pool : Int
  new_pool : Int
  chi2_value : ℚ
  chi2_dof : ℚ
  deriving DecidableEq, Repr

/-- The loop of a chi-squared scorer over the categories that are not pooled: the variables
`chi2_value` and `chi2_dof` behind the loop. -/
def chi2_terms (g : globals) (old new : List Int) (n : Nat) (total_old total_new : Int) :
    Option (ℚ × ℚ) :=
  (List.range n).foldlM (fun (acc : ℚ × ℚ) (i : Nat) =>
    (old[i]?).bind (fun a =>
      (new[i]?).map (fun b =>
        if a < g.MIN_DATA ∧ b < g.MIN_DATA then acc
        else (acc.1 + calculate_chi2_value g a b total_old total_new, acc.2 + 1)))) (0, -1)

/-- The body that the four chi-squared scorers share, from the pooling loop to the term of
the rest bucket, on the arrays `old` and `new` of `n` categories and the totals of the two
sides. The four functions of `statistics.cpp` differ in these arguments only. -/
def chi2_test (g : globals) (old new : List Int) (n : Nat) (total_old total_new : Int) :
    Option chi2_sums :=
  (pool_counts g old new n).bind (fun pool =>
    let s : chi2_sums :=
      if pool.1 < g.MIN_DATA ∧ pool.2 < g.MIN_DATA then
        { total_old := total_old - pool.1, total_new := total_new - pool.2, old_pool := 0,
          new_pool := 0, chi2_value := 0, chi2_dof := -1 }
      else
        { total_old := total_old, total_new := total_new, old_pool := pool.1,
          new_pool := pool.2, chi2_value := 0, chi2_dof := -1 }
    (chi2_terms g old new n s.total_old s.total_new).map (fun r =>
      if s.old_pool > g.MIN_DATA ∨ s.new_pool > g.MIN_DATA then
        { s with
          chi2_value :=
            r.1 + calculate_chi2_value g s.old_pool s.new_pool s.total_old s.total_new
          chi2_dof := r.2 + 1 }
      else { s with chi2_value := r.1, chi2_dof := r.2 }))

/-- The end of a chi-squared scorer, "testing and adding to consensus test": the value
returned and the accumulators. -/
def chi2_finish (N : numerics) (acc : accumulators) (s : chi2_sums) : ℚ × accumulators :=
  if s.chi2_dof ≥ 1 then
    let p_value := N.chisq_Q s.chi2_value s.chi2_dof
    let p_value := if p_value < N.MIN_P_VALUE then N.MIN_P_VALUE else p_value
    (p_value, add_to_consensus_test N acc p_value)
  else (-1, acc)

/-- `calculate_chi2_score(old_target, new_target)`: the symbol distributions of two states.
A pointer to a state is given by the statistics object of the state, `none` is the null
pointer. -/
def calculate_chi2_score (g : globals) (N : numerics) (acc : accumulators)
    (old_target new_target : Option state_statistics) : Option (ℚ × accumulators) :=
  match old_target, new_target with
  | some o, some n =>
    if o.total_counts < g.MIN_DATA ∨ n.total_counts < g.MIN_DATA then some (-1, acc)
    else
      (chi2_test g o.symbol_counts n.symbol_counts g.MAX_SYMBOL o.total_counts
        n.total_counts).map (chi2_finish N acc)
  | _, _ => some (-1, acc)

/-- `calculate_chi2_score(target)`: the symbol counts of a state against its symbol marks. -/
def calculate_chi2_score_marks (g : globals) (N : numerics) (acc : accumulators)
    (target : Option state_statistics) : Option (ℚ × accumulators) :=
  match target with
  | some t =>
    if t.total_counts < g.MIN_DATA ∨ t.total_marks < g.MIN_DATA then some (-1, acc)
    else
      (chi2_test g t.symbol_counts t.symbol_marks g.MAX_SYMBOL t.total_counts
        t.total_marks).map (chi2_finish N acc)
  | none => some (-1, acc)

/-- `calculate_chi2_score_time(old_target, new_target)`: the time distributions of two
states. -/
def calculate_chi2_score_time (g : globals) (N : numerics) (acc : accumulators)
    (old_target new_target : Option state_statistics) : Option (ℚ × accumulators) :=
  match old_target, new_target with
  | some o, some n =>
    if o.total_counts < g.MIN_DATA ∨ n.total_counts < g.MIN_DATA then some (-1, acc)
    else
      (chi2_test g o.time_counts n.time_counts NUM_HISTOGRAM_BARS o.total_counts
        n.total_counts).map (chi2_finish N acc)
  | _, _ => some (-1, acc)

/-- `calculate_chi2_score_time(target)`: the time counts of a state against its time
marks. -/
def calculate_chi2_score_time_marks (g : globals) (N : numerics) (acc : accumulators)
    (target : Option state_statistics) : Option (ℚ × accumulators) :=
  match target with
  | some t =>
    if t.total_counts < g.MIN_DATA ∨ t.total_marks < g.MIN_DATA then some (-1, acc)
    else
      (chi2_test g t.time_counts t.time_marks NUM_HISTOGRAM_BARS t.total_counts
        t.total_marks).map (chi2_finish N acc)
  | none => some (-1, acc)

/-- The four updates of `ratio` for one category with the counts `a` and `b`. -/
def likelihood_term (N : numerics) (ratio : ℚ) (a b total_old total_new : Int) : ℚ :=
  let top_probability := ((a + b : Int) : ℚ) / ((total_old + total_new : Int) : ℚ)
  let bottom_probability1 := if a ≠ 0 then (a : ℚ) / (total_old : ℚ) else 1
  let bottom_probability2 := if b ≠ 0 then (b : ℚ) / (total_new : ℚ) else 1
  ratio + (a : ℚ) * N.log top_probability - (a : ℚ) * N.log bottom_probability1
    + (b : ℚ) * N.log top_probability - (b : ℚ) * N.log bottom_probability2

/-- The variables of a likelihood-ratio scorer in front of its final test. -/
structure likelihood_sums where
  total_old : Int
  total_new : Int
  old_pool : Int
  new_pool : Int
  extra_parameters : Int
  ratio : ℚ
  deriving DecidableEq, Repr

/-- The loop of a likelihood-ratio scorer over the categories that are not pooled: the
variables `extra_parameters` and `ratio` behind the loop. -/
def likelihood_terms (g : globals) (N : numerics) (old new : List Int) (n : Nat)
    (total_old total_new : Int) : Option (Int × ℚ) :=
  (List.range n).foldlM (fun (acc : Int × ℚ) (i : Nat) =>
    (old[i]?).bind (fun a =>
      (new[i]?).map (fun b =>
        if a < g.MIN_DATA ∧ b < g.MIN_DATA then acc
        else (acc.1 + 1, likelihood_term N acc.2 a b total_old total_new)))) (0, 0)

/-- The body that the four likelihood-ratio scorers share, from the pooling loop to the
term of the rest bucket. -/
def likelihood_test (g : globals) (N : numerics) (old new : List Int) (n : Nat)
    (total_old total_new : Int) : Option likelihood_sums :=
  (pool_counts g old new n).bind (fun pool =>
    let s : likelihood_sums :=
      if pool.1 < g.MIN_DATA ∨ pool.2 < g.MIN_DATA then
        { total_old := total_old - pool.1, total_new := total_new - pool.2, old_pool := 0,
          new_pool := 0, extra_parameters := 0, ratio := 0 }
      else
        { total_old := total_old, total_new := total_new, old_pool := pool.1,
          new_pool := pool.2, extra_parameters := 0, ratio := 0 }
    (likelihood_terms g N old new n s.total_old s.total_new).map (fun r =>
      if s.old_pool > g.MIN_DATA ∨ s.new_pool > g.MIN_DATA then
        { s with
          extra_parameters := r.1 + 1
          ratio := likelihood_term N r.2 s.old_pool s.new_pool s.total_old s.total_new }
      else { s with extra_parameters := r.1, ratio := r.2 }))

/-- The end of a likelihood-ratio scorer: the pair returned and the accumulators. -/
def likelihood_finish (acc : accumulators) (s : likelihood_sums) :
    (Int × ℚ) × accumulators :=
  if s.extra_parameters > 0 then
    ((s.extra_parameters, s.ratio), add_to_likelihood_test acc s.ratio s.extra_parameters)
  else ((0, 0), acc)

/-- `get_likelihood_ratio(old_target, new_target)`. The function dereferences its arguments
without a test. -/
def get_likelihood_ratio (g : globals) (N : numerics) (acc : accumulators)
    (old_target new_target : Option state_statistics) :
    Option ((Int × ℚ) × accumulators) :=
  match old_target, new_target with
  | some o, some n =>
    if o.total_counts < g.MIN_DATA ∨ n.total_counts < g.MIN_DATA then some ((0, 0), acc)
    else
      (likelihood_test g N o.symbol_counts n.symbol_counts g.MAX_SYMBOL o.total_counts
        n.total_counts).map (likelihood_finish acc)
  | _, _ => none

/-- `get_likelihood_ratio_time(old_target, new_target)`. -/
def get_likelihood_ratio_time (g : globals) (N : numerics) (acc : accumulators)
    (old_target new_target : Option state_statistics) :
    Option ((Int × ℚ) × accumulators) :=
  match old_target, new_target with
  | some o, some n =>
    if o.total_counts < g.MIN_DATA ∨ n.total_counts < g.MIN_DATA then some ((0, 0), acc)
    else
      (likelihood_test g N o.time_counts n.time_counts NUM_HISTOGRAM_BARS o.total_counts
        n.total_counts).map (likelihood_finish acc)
  | _, _ => none

/-- `get_likelihood_ratio(target)`: the symbol counts of a state against its symbol
marks. -/
def get_likelihood_ratio_marks (g : globals) (N : numerics) (acc : accumulators)
    (target : Option state_statistics) : Option ((Int × ℚ) × accumulators) :=
  match target with
  | some t =>
    if t.total_counts < g.MIN_DATA ∨ t.total_marks < g.MIN_DATA then some ((0, 0), acc)
    else
      (likelihood_test g N t.symbol_counts t.symbol_marks g.MAX_SYMBOL t.total_counts
        t.total_marks).map (likelihood_finish acc)
  | none => none

/-- `get_likelihood_ratio_time(target)`: the time counts of a state against its time
marks. -/
def get_likelihood_ratio_time_marks (g : globals) (N : numerics) (acc : accumulators)
    (target : Option state_statistics) : Option ((Int × ℚ) × accumulators) :=
  match target with
  | some t =>
    if t.total_counts < g.MIN_DATA ∨ t.total_marks < g.MIN_DATA then some ((0, 0), acc)
    else
      (likelihood_test g N t.time_counts t.time_marks NUM_HISTOGRAM_BARS t.total_counts
        t.total_marks).map (likelihood_finish acc)
  | none => none

/-! ### The rest bucket, in the words of the specification -/

/-- The pairs of counts of the categories that are below `MIN_DATA` on both sides. -/
def pooled_categories (g : globals) (old new : List Int) : List (Int × Int) :=
  (old.zip new).filter (fun p => decide (p.1 < g.MIN_DATA ∧ p.2 < g.MIN_DATA))

/-- The pairs of counts of the categories that survive: at least `MIN_DATA` on one side. -/
def surviving_categories (g : globals) (old new : List Int) : List (Int × Int) :=
  (old.zip new).filter (fun p => !decide (p.1 < g.MIN_DATA ∧ p.2 < g.MIN_DATA))

/-- The rule of the rest bucket in a chi-squared scorer with the result `s`, for the arrays
`old` and `new` and the totals `total_old` and `total_new`: the bucket, with the sums `po`
and `pn`, leaves the totals exactly when both sums are below `MIN_DATA`, it adds one term
and one degree of freedom exactly when one of the sums is above `MIN_DATA`, and the degrees
of freedom are the number of the terms minus one. -/
def bucket_rule (g : globals) (old new : List Int) (total_old total_new : Int)
    (s : chi2_sums) : Prop :=
  let po := ((pooled_categories g old new).map Prod.fst).sum
  let pn := ((pooled_categories g old new).map Prod.snd).sum
  let terms := ((surviving_categories g old new).map
    (fun p => calculate_chi2_value g p.1 p.2 s.total_old s.total_new)).sum
  ((po < g.MIN_DATA ∧ pn < g.MIN_DATA) →
      s.total_old = total_old - po ∧ s.total_new = total_new - pn) ∧
    (¬ (po < g.MIN_DATA ∧ pn < g.MIN_DATA) →
      s.total_old = total_old ∧ s.total_new = total_new) ∧
    ((g.MIN_DATA < po ∨ g.MIN_DATA < pn) →
      s.chi2_value = terms + calculate_chi2_value g po pn s.total_old s.total_new ∧
        s.chi2_dof = ((surviving_categories g old new).length + 1 : ℚ) - 1) ∧
    (¬ (g.MIN_DATA < po ∨ g.MIN_DATA < pn) →
      s.chi2_value = terms ∧
        s.chi2_dof = ((surviving_categories g old new).length : ℚ) - 1)

/-- The four arrays of a statistics object have the sizes the constructor gives them. -/
def state_statistics.sized (g : globals) (s : state_statistics) : Prop :=
  s.symbol_counts.length = g.MAX_SYMBOL ∧ s.time_counts.length = NUM_HISTOGRAM_BARS ∧
    s.symbol_marks.length = g.MAX_SYMBOL ∧ s.time_marks.length = NUM_HISTOGRAM_BARS

/-- Constant numerical functions for the examples. -/
def example_numerics : numerics :=
  { log := fun _ => 0, chisq_Q := fun _ _ => 1 / 2, MAX_P_VALUE := 1, MIN_P_VALUE := 0 }

/-- Accumulators as `initialize_consensus_test` and `initialize_likelihood_test` leave
them. -/
def zero_accumulators : accumulators :=
  { sum_z_values := 0, num_tests := 0, ml_ratio := 0, ml_parameters := 0 }

/-- A configuration with three symbols and `MIN_DATA = 10`. -/
def three_symbol_globals : globals := { example_globals with MAX_SYMBOL := 3 }

/-- The statistics of a state with the symbol counts `5, 5, 20`. -/
def example_old_stat : state_statistics :=
  { total_counts := 30, symbol_counts := [5, 5, 20], time_counts := [30, 0, 0, 0],
    total_marks := 0, symbol_marks := [0, 0, 0], time_marks := [0, 0, 0, 0] }

/-- The statistics of a state with the symbol counts `3, 3, 20`. -/
def example_new_stat : state_statistics :=
  { total_counts := 26, symbol_counts := [3, 3, 20], time_counts := [26, 0, 0, 0],
    total_marks := 0, symbol_marks := [0, 0, 0], time_marks := [0, 0, 0, 0] }

/-! ## Reading the corpus (`timed_data.cpp`) -/

/-- The values of the global variables of `timed_data.cpp` and `statistics.cpp` at program
start. -/
def initial_globals : globals :=
  { MAX_SYMBOL := 2, MIN_TIME := 0, MAX_TIME := 1000000, TIME_IQR25 := 0, TIME_IQR50 := 0,
    TIME_IQR75 := 0, MIN_DATA := 10 }

/-- The class `timed_input`: the alphabet in the order of first occurrence and the words as
sequences of symbol numbers and delays (the sentinel entries are added by `first_tail`). -/
structure timed_input where
  alphabet : List Char
  words : List (List (Nat × Int))
  num_words : Nat
  alph_size : Nat
  deriving DecidableEq, Repr

/-- `set<int>::insert`, the set as the ascending list of its elements. -/
def set_insert (x : Int) : List Int → List Int
  | [] => [x]
  | y :: ys => if x < y then x :: y :: ys else if x = y then y :: ys else y :: set_insert x ys

/-- The state of the reading loops of the constructor: the alphabet found so far and the
set `time_points`. -/
structure reader where
  alphabet : List Char
  time_points : List Int
  deriving DecidableEq, Repr

/-- The body of the inner loop of the constructor for the pair `c`, `time`: the delay enters
`time_points`, the character is looked up in the alphabet and appended when it is new; the
assertion `current_alphabet_size <= MAX_SYMBOL` fails when there are too many characters. -/
def read_pair (alph_size : Nat) (acc : reader × List (Nat × Int)) (p : Char × Int) :
    Option (reader × List (Nat × Int)) :=
  let time_points := set_insert p.2 acc.1.time_points
  match acc.1.alphabet.indexOf? p.1 with
  | some i => some (⟨acc.1.alphabet, time_points⟩, acc.2 ++ [(i, p.2)])
  | none =>
    if acc.1.alphabet.length + 1 ≤ alph_size then
      some (⟨acc.1.alphabet ++ [p.1], time_points⟩, acc.2 ++ [(acc.1.alphabet.length, p.2)])
    else none

/-- The body of the outer loop of the constructor for one line of the file. -/
def read_word (alph_size : Nat) (acc : reader × List (List (Nat × Int)))
    (line : List (Char × Int)) : Option (reader × List (List (Nat × Int))) :=
  (line.foldlM (read_pair alph_size) (acc.1, [])).map (fun r => (r.1, acc.2 ++ [r.2]))

/-- The state of the last loop of the constructor: the globals, `time_sup` and `number`. -/
structure quantile_loop where
  g : globals
  time_sup : Int
  number : Nat
  deriving DecidableEq, Repr

/-- The body of the last loop of the constructor for the element `x` of `time_points`. -/
def set_quantile (iq25 iq50 iq75 : Nat) (acc : quantile_loop) (x : Int) : quantile_loop :=
  let g1 := if acc.number = iq25 then { acc.g with TIME_IQR25 := x } else acc.g
  let g2 := if acc.number = iq50 then { g1 with TIME_IQR50 := x } else g1
  let g3 := if acc.number = iq75 then { g2 with TIME_IQR75 := x } else g2
  { g := g3, time_sup := if x > acc.time_sup then x else acc.time_sup,
    number := acc.number + 1 }

/-- The end of the constructor: the thresholds and `MAX_TIME` from `time_points`. The
conversions `(int)(size / 4.0)`, `(int)(size / 2.0)` and `(int)(size * 3.0 / 4.0)` round
down. -/
def set_quantiles (g : globals) (time_points : List Int) : globals :=
  let r := time_points.foldl
    (set_quantile (time_points.length / 4) (time_points.length / 2)
      (time_points.length * 3 / 4)) { g := g, time_sup := -1, number := 0 }
  { r.g with MAX_TIME := r.time_sup }

/-- The constructor `timed_input::timed_input(istream&)` on a file with the alphabet size
`alph_size` and the lines `lines`, one word per line, each a sequence of pairs of a
character and a delay; `num_words` is the number of the lines. The result is the object and
the globals as the constructor leaves them. -/
def timed_input.new (g : globals) (alph_size : Nat) (lines : List (List (Char × Int))) :
    Option (timed_input × globals) :=
  (lines.foldlM (read_word alph_size) (⟨[], []⟩, [])).map (fun r =>
    ({ alphabet := r.1.alphabet, words := r.2, num_words := lines.length,
       alph_size := alph_size },
     set_quantiles { g with MAX_SYMBOL := alph_size } r.1.time_points))

/-- The corpus of the forty words `a t` with `t` from 1 to 40. -/
def forty_delays : List (List (Char × Int)) :=
  (List.range 40).map (fun (t : Nat) => [('a', ((t + 1 : Nat) : Int))])

/-- The corpus of twenty words `a 0` followed by twenty words `b 0`. -/
def two_branches : List (List (Char × Int)) :=
  List.replicate 20 [('a', 0)] ++ List.replicate 20 [('b', 0)]

/-! ## The size of the automaton (`timed_automaton.cpp`, `searcher.cpp`) -/

/-- The variables `result`, `prev_state` and `first` of `get_size`. -/
structure size_loop where
  result : Int
  prev_state : Option Nat
  first : Bool
  deriving DecidableEq, Repr

/-- The body of the innermost loop of `get_size` for the interval `e`. -/
def count_interval (acc : size_loop) (e : Int × interval) : size_loop :=
  if !acc.first && decide (e.2.get_target = acc.prev_state) then acc
  else { result := acc.result + 1, prev_state := e.2.get_target, first := false }

/-- The loop of `get_size` over the symbols of the state `s`. -/
def count_state (g : globals) (s : timed_state) (result : Int) : Option Int :=
  (List.range g.MAX_SYMBOL).foldlM (fun (result : Int) (sy : Nat) =>
    (s.get_intervals sy).map (fun l =>
      (l.foldl count_interval { result := result, prev_state := none, first := true }).result))
    result

/-- `timed_automaton::get_size()`. -/
def timed_automaton.get_size (g : globals) (A : timed_automaton) : Option Int :=
  A.states.foldlM (fun (result : Int) (st : Nat) =>
    (A.mem st).bind (fun s => count_state g s result)) 0

/-- `calculate_parameters()`. -/
def calculate_parameters (g : globals) (A : timed_automaton) : Option Int :=
  (A.get_size g).map (fun size => (((NUM_HISTOGRAM_BARS : Int) - 1) * A.num_states) + size)

/-- The number of maximal runs of equal neighbours in a sequence of target pointers. -/
def target_runs : List (Option Nat) → Nat
  | [] => 0
  | [_] => 1
  | a :: b :: l => (if a = b then 0 else 1) + target_runs (b :: l)

/-- The sum, over every colored state and every symbol, of the number of maximal runs of
intervals with the same target in the partition. -/
def transition_count (A : timed_automaton) : Nat :=
  (A.states.map (fun st =>
    match A.mem st with
    | some s => (s.targets.map (fun l => target_runs (l.map (fun e => e.2.get_target)))).sum
    | none => 0)).sum

/-! ## Best-first search (`searcher.cpp`) -/

/-- `refinement_list`: a `list<refinement>`. -/
abbrev refinement_list := List refinement

/-- The queue `Q`: a `priority_queue` of pairs of a score and a refinement sequence, as the
list of its entries. -/
abbrev queue := List (ℚ × refinement_list)

/-- `refinement_list_compare`. -/
def refinement_list_compare (a b : ℚ × refinement_list) : Bool := decide (a.1 < b.1)

/-- `Q.push`. -/
def Q_push (Q : queue) (x : ℚ × refinement_list) : queue := Q ++ [x]

/-- The entry that `Q.top()` returns and the entries that stay behind `Q.pop()`. A
`priority_queue` with the comparison `comp` returns an entry `x` such that `comp(x, y)`
holds for no entry `y`; which one of several such entries it returns is not laid down, here
it is the first one of the list. -/
def Q_take : queue → Option ((ℚ × refinement_list) × queue)
  | [] => none
  | x :: rest =>
    match Q_take rest with
    | none => some (x, [])
    | some (y, rest1) =>
      if refinement_list_compare x y then some (y, x :: rest1) else some (x, rest)

/-- `Q.top()`. -/
def Q_top (Q : queue) : Option (ℚ × refinement_list) := (Q_take Q).map Prod.fst

/-- `Q.pop()`. -/
def Q_pop (Q : queue) : Option queue := (Q_take Q).map Prod.snd

/-- The constant `max_points_to_search`. -/
def max_points_to_search : Nat := 10

/-- The constant `max_splits_to_search`. -/
def max_splits_to_search : Nat := 10

/-- The loop of `bestfirst` over the split set from `rbegin()` on: `rest` is what the
iterator has not visited yet. -/
def search_splits (P : p_values) :
    List (ℚ × refinement) → Nat → refinement_set → refinement_set
  | [], _, new_refinements => new_refinements
  | it :: rest, num_splits, new_refinements =>
    let new_refinements1 :=
      if it.1 < P.SIGNIFICANCE then insert_refinement new_refinements it else new_refinements
    if num_splits + 1 = max_splits_to_search then new_refinements1
    else search_splits P rest (num_splits + 1) new_refinements1

/-- The loop of `bestfirst` over the merge set from `begin()` on. -/
def search_points (P : p_values) :
    List (ℚ × refinement) → Nat → refinement_set → refinement_set
  | [], _, new_refinements => new_refinements
  | it :: rest, num_points, new_refinements =>
    let new_refinements1 :=
      if it.1 ≥ P.SIGNIFICANCE then insert_refinement new_refinements it else new_refinements
    if num_points + 1 = max_points_to_search then new_refinements1
    else search_points P rest (num_points + 1) new_refinements1

/-- The set `new_refinements` that `bestfirst` builds from the merge set `first` and the
split set `second` of a result of `get_best_refinements`. -/
def new_refinements (P : p_values) (first second : refinement_set) : refinement_set :=
  let s := search_splits P second.reverse 0 []
  if s = [] then search_points P first 0 s else s

/-- The values of `calculate_aic()` and `calculate_aic_without_default()`, which are sums of
logarithms, for an automaton. They are parameters of the model. -/
structure aic_values where
  aic : timed_automaton → ℚ
  aic_without_default : timed_automaton → ℚ

/-- The global variables of `searcher.cpp` and the automaton `TA`. -/
structure search where
  TA : timed_automaton
  Q : queue
  current_refinements : refinement_list
  best_solution : ℚ
  NODES : Int

/-- The conversion of a `double` to `int`, which drops the fraction. -/
def double_to_int (x : ℚ) : Int := if 0 ≤ x then ⌊x⌋ else ⌈x⌉

/-- `greedy()`: the value returned and the variables at return. The recursion is bounded by
the first argument. -/
def greedy (g : globals) (P : p_values) (V : aic_values) (fuel : Nat) :
    Nat → search → Option (Int × search)
  | 0, _ => none
  | k + 1, s =>
    (get_best_refinements g P fuel s.TA).bind (fun (first, second, A1) =>
      if first = [] ∧ second = [] then
        let aic := V.aic A1
        some (double_to_int aic,
          { s with
            TA := A1
            NODES := s.NODES + 1
            best_solution :=
              if s.best_solution = -1 ∨ aic < s.best_solution then aic
              else s.best_solution })
      else if !check_consistency g A1 then none
      else
        (greedy_choice P first second).bind (fun r =>
          (r.refine g fuel A1).bind (fun A2 =>
            if !check_consistency g A2 then none
            else
              (greedy g P V fuel k { s with TA := A2, NODES := s.NODES + 1 }).bind
                (fun (result, s1) =>
                  (r.undo_refine g fuel s1.TA).map (fun A3 =>
                    (result, { s1 with TA := A3 }))))))

/-- The way down of `greedy()`: the results of the successive calls of
`get_best_refinements`, each followed by the refinement that `greedy` applies, up to the
automaton for which both sets are empty, and this automaton. -/
def greedy_descent (g : globals) (P : p_values) (fuel : Nat) :
    Nat → timed_automaton → Option (List (refinement_set × refinement_set) × timed_automaton)
  | 0, _ => none
  | k + 1, A =>
    (get_best_refinements g P fuel A).bind (fun (first, second, A1) =>
      if first = [] ∧ second = [] then some ([(first, second)], A1)
      else if !check_consistency g A1 then none
      else
        (greedy_choice P first second).bind (fun r =>
          (r.refine g fuel A1).bind (fun A2 =>
            if !check_consistency g A2 then none
            else
              (greedy_descent g P fuel k A2).map (fun (calls, leaf) =>
                ((first, second) :: calls, leaf)))))

/-- The body of the loop of `add_merges_to_q` for the entry `it` of the set. -/
def add_merge_to_q (g : globals) (P : p_values) (V : aic_values) (fuel k : Nat) (s : search)
    (it : ℚ × refinement) : Option search :=
  if !check_consistency g s.TA then none
  else
    (it.2.refine g fuel s.TA).bind (fun A1 =>
      (greedy g P V fuel k { s with TA := A1 }).bind (fun (score, s1) =>
        (it.2.undo_refine g fuel s1.TA).map (fun A2 =>
          { s1 with
            TA := A2
            Q := Q_push s1.Q ((score : ℚ), s1.current_refinements ++ [it.2]) })))

/-- `add_merges_to_q`. -/
def add_merges_to_q (g : globals) (P : p_values) (V : aic_values) (fuel k : Nat) (s : search)
    (refinements : refinement_set) : Option search :=
  refinements.foldlM (add_merge_to_q g P V fuel k) s

/-- `change_refinement_list`: the current sequence is undone from its end, the new one is
applied from its start and becomes the current one. -/
def change_refinement_list (g : globals) (fuel : Nat) (s : search)
    (new_list : refinement_list) : Option search :=
  (s.current_refinements.reverse.foldlM
      (fun (A : timed_automaton) (r : refinement) => r.undo_refine g fuel A) s.TA).bind
    (fun A1 =>
      (new_list.foldlM (fun (A : timed_automaton) (r : refinement) => r.refine g fuel A)
          A1).map
        (fun A2 => { s with TA := A2, current_refinements := new_list }))

/-- The first statements of the body of the loop of `bestfirst`: the top of the queue is
read, the automaton is moved to its sequence and the entry is removed from the queue. -/
def bestfirst_take (g : globals) (fuel : Nat) (s : search) : Option search :=
  (Q_top s.Q).bind (fun next_refinements =>
    (change_refinement_list g fuel { s with NODES := s.NODES + 1 }
        next_refinements.2).bind (fun s1 =>
      (Q_pop s1.Q).map (fun Q1 => { s1 with Q := Q1 })))

/-- The body of the loop of `bestfirst`. -/
def bestfirst_step (g : globals) (P : p_values) (V : aic_values) (fuel k : Nat) (s : search) :
    Option search :=
  (bestfirst_take g fuel s).bind (fun s1 =>
    let aic := V.aic_without_default s1.TA
    if s1.best_solution ≠ -1 ∧ aic > s1.best_solution then some s1
    else
      (get_best_refinements g P fuel s1.TA).bind (fun (first, second, A1) =>
        let n := new_refinements P first second
        if n = [] then some { s1 with TA := A1 }
        else add_merges_to_q g P V fuel k { s1 with TA := A1 } n))

/-- `bestfirst()` from the loop on; the number of iterations is bounded by the first
argument. -/
def bestfirst_loop (g : globals) (P : p_values) (V : aic_values) (fuel k : Nat) :
    Nat → search → Option search
  | 0, _ => none
  | n + 1, s =>
    if s.Q = [] then some s
    else (bestfirst_step g P V fuel k s).bind (bestfirst_loop g P V fuel k n)

/-- `bestfirst()`. -/
def bestfirst (g : globals) (P : p_values) (V : aic_values) (fuel k n : Nat)
    (A : timed_automaton) : Option search :=
  (get_best_refinements g P fuel A).bind (fun (first, second, A1) =>
    (add_merges_to_q g P V fuel k
        { TA := A1, Q := [], current_refinements := [], best_solution := -1, NODES := 0 }
        (new_refinements P first second)).bind
      (bestfirst_loop g P V fuel k n))

/-- The start of `main`: the constructor of `timed_input` on the corpus and the constructor
of `timed_automaton` on the input, which builds the prefix tree; the result is the globals
and the automaton `TA`. -/
def automaton_of_corpus (alph_size : Nat) (lines : List (List (Char × Int))) (fuel : Nat) :
    Option (globals × timed_automaton) :=
  (timed_input.new initial_globals alph_size lines).bind (fun r =>
    (tree_of_input r.2 fuel r.1.words).map (fun A => (r.2, A)))

/-- What the example of the two branches observes of an automaton: the colored list, the
targets of the transitions of the root for the first and the second symbol at the delay 0,
and the symbol counts of the root. -/
def two_branches_view (A : timed_automaton) :
    List Nat × Option (Option Nat) × Option (Option Nat) × Option (List Int) :=
  (A.states, (A.interval_at (some A.root) 0 0).map (fun e => e.2.to_),
    (A.interval_at (some A.root) 1 0).map (fun e => e.2.to_),
    (A.mem A.root).map (fun s => s.stat.symbol_counts))

/-- P-values for the examples with the default `SIGNIFICANCE = 0.05`. -/
def default_p_values : p_values :=
  { SIGNIFICANCE := 1 / 20, point := fun _ => 1, split := fun _ => 1 }

/-- A queue with two sequences for the automaton `example_tree`: the color refinement with
the score 1 and the split at the time 1 with the score 2. -/
def example_search : search :=
  { TA := example_tree
    Q := [(1, [⟨0, -2, 0, 10⟩]), (2, [⟨0, -1, 0, 1⟩])]
    current_refinements := []
    best_solution := -1
    NODES := 0 }

end RTI


namespace RTI

/-! ## Notions for the properties of the marks -/

/-- The intervals `i` and `j` agree in everything but the number of marked tails. -/
def interval_same (i j : interval) : Prop :=
  j.begin = i.begin ∧ j.end_ = i.end_ ∧ j.tails = i.tails ∧ j.to_ = i.to_ ∧
    j.undo_tails = i.undo_tails ∧ j.undo_to = i.undo_to

/-- The partitions `l` and `m` have the same keys and agree, entry by entry, in everything
but the numbers of marked tails. -/
def partition_same (l m : interval_set) : Prop :=
  List.Forall₂ (fun (a b : Int × interval) => a.1 = b.1 ∧ interval_same a.2 b.2) l m

/-- The states `s` and `u` agree in everything but the statistics and the numbers of marked
tails. -/
def state_same (s u : timed_state) : Prop :=
  List.Forall₂ partition_same s.targets u.targets

/-- The automata `A` and `B` have the same states at the same addresses, with the same
partitions, tails and targets, and the same colored list; they may differ in the
statistics, the numbers of marked tails and the markers. -/
def heap_same (A B : timed_automaton) : Prop :=
  (∀ q, (A.mem q = none ∧ B.mem q = none) ∨
    ∃ s u, A.mem q = some s ∧ B.mem q = some u ∧ state_same s u) ∧
  B.next = A.next ∧ B.states = A.states ∧ B.root = A.root

/-- The state `s` after the tail `x`, stored in its interval with the key `key` for
`symbol`, has been marked: `stat->mark(tail)` and `in->add_marked()`. -/
def mark_entry (g : globals) (s : timed_state) (symbol : Nat) (key : Int) (x : timed_tail) :
    timed_state :=
  ({ s with stat := s.stat.mark g x } : timed_state).update symbol key
    (fun i => { i with num_marked := i.num_marked + 1 })

/-- The automaton after the tail `x`, stored in the interval `r`, has been marked: the
three updates of one call of `mark` that does not return at once. -/
def mark_one (g : globals) (A : timed_automaton) (r : interval_ptr) (x : timed_tail) :
    timed_automaton :=
  { A with
    mem := fun q =>
      if q = r.state then (A.mem q).map (fun s => mark_entry g s r.symbol r.key x)
      else A.mem q
    marker := fun t => if t = x then true else A.marker t }

/-- The intervals that hold the tail `x` and its successors, when `x` is stored in the
interval `r`: the successor of a tail is looked up in the target of its interval. The
result is `none` when an interval or a target is missing; the first argument bounds the
length of the chain. -/
def holders (A : timed_automaton) :
    Nat → interval_ptr → timed_tail → Option (List (interval_ptr × timed_tail))
  | 0, _, _ => none
  | n + 1, r, x =>
    (A.read r).bind (fun i =>
      match x.next_tail with
      | none => some [(r, x)]
      | some nt =>
        (A.interval_at i.to_ nt.get_symbol nt.get_time_value).bind (fun e =>
          (holders A n e.1 nt).map (fun path => (r, x) :: path)))

/-- The automaton after the tails of `path` have been marked, each in its interval. -/
def mark_all (g : globals) (A : timed_automaton) (path : List (interval_ptr × timed_tail)) :
    timed_automaton :=
  path.foldl (fun B e => mark_one g B e.1 e.2) A

/-- The tails that `test_split` marks for the split time `time` in the interval `r` with
the tails `tails`, each with the interval that holds it: the tails up to `time` and their
successors. The result is `none` when a successor is not stored along the targets. -/
def split_marks (A : timed_automaton) (r : interval_ptr) (time : Int) :
    List timed_tail → Option (List (interval_ptr × timed_tail))
  | [] => some []
  | x :: xs =>
    if x.get_time_value ≤ time then
      (holders A (x.rest.length + 1) r x).bind (fun path =>
        (split_marks A r time xs).map (fun M => path ++ M))
    else split_marks A r time xs

end RTI


namespace RTI

/-! ## Definitions for the properties of `point`, the scorers and the scores -/

/-- The interval of the root of `null_target_automaton`. -/
def null_target_interval : interval :=
  { interval.new 0 10 with tails := [⟨0, 0, [(0, 1), (2, 1)]⟩, ⟨1, 0, [(0, 5), (2, 5)]⟩] }

/-- The root of `null_target_automaton`. -/
def null_target_root : timed_state :=
  { targets := [[(10, null_target_interval)]]
    stat := { total_counts := 2, symbol_counts := [2], time_counts := [1, 1, 0, 0],
              total_marks := 0, symbol_marks := [0], time_marks := [0, 0, 0, 0] } }

/-! ### The rest bucket of the likelihood-ratio scorers, in the words of the specification -/

/-- The rule of the rest bucket in a likelihood-ratio scorer with the result `s`, for the
arrays `old` and `new` and the totals `total_old` and `total_new`: the bucket, with the sums
`po` and `pn`, is subtracted from both totals and reset to zero exactly when one of the sums
is below `MIN_DATA`; it adds one term and one parameter exactly when both sums are at least
`MIN_DATA` and one of them is above `MIN_DATA`; the other terms and parameters are those of
the categories that are not pooled. -/
def likelihood_bucket_rule (g : globals) (N : numerics) (old new : List Int)
    (total_old total_new : Int) (s : likelihood_sums) : Prop :=
  let po := ((pooled_categories g old new).map Prod.fst).sum
  let pn := ((pooled_categories g old new).map Prod.snd).sum
  let terms := (surviving_categories g old new).foldl
    (fun r p => likelihood_term N r p.1 p.2 s.total_old s.total_new) 0
  ((po < g.MIN_DATA ∨ pn < g.MIN_DATA) →
      s.total_old = total_old - po ∧ s.total_new = total_new - pn ∧
        s.old_pool = 0 ∧ s.new_pool = 0) ∧
    (¬ (po < g.MIN_DATA ∨ pn < g.MIN_DATA) →
      s.total_old = total_old ∧ s.total_new = total_new ∧ s.old_pool = po ∧ s.new_pool = pn) ∧
    ((g.MIN_DATA ≤ po ∧ g.MIN_DATA ≤ pn ∧ (g.MIN_DATA < po ∨ g.MIN_DATA < pn)) →
      s.ratio = likelihood_term N terms po pn s.total_old s.total_new ∧
        s.extra_parameters = ((surviving_categories g old new).length : Int) + 1) ∧
    (¬ (g.MIN_DATA ≤ po ∧ g.MIN_DATA ≤ pn ∧ (g.MIN_DATA < po ∨ g.MIN_DATA < pn)) →
      s.ratio = terms ∧
        s.extra_parameters = ((surviving_categories g old new).length : Int))

/-! ### The divisors of `calculate_chi2_value` -/

/-- The values `expected1` and `expected2` of `calculate_chi2_value`, by which it divides;
both are quotients by `total1 + total2`. -/
def chi2_expected (first second total1 total2 : ℚ) : ℚ × ℚ :=
  let total := first + second
  ((total1 * total) / (total1 + total2), (total2 * total) / (total1 + total2))

/-- The call `calculate_chi2_value(first, second, total1, total2)` divides by positive
numbers only. -/
def chi2_call_safe (first second total1 total2 : Int) : Prop :=
  0 < first + second ∧ 1 ≤ total1 ∧ 1 ≤ total2 ∧ (0 : ℚ) < (total1 : ℚ) + (total2 : ℚ) ∧
    0 < (chi2_expected first second total1 total2).1 ∧
    0 < (chi2_expected first second total1 total2).2

/-- The calls of `calculate_chi2_value` in a run of a chi-squared scorer with the result
`s` on the arrays `old` and `new` divide by positive numbers only: the calls for the
categories that are not pooled, and the call for the rest bucket when one of its sums is
above `MIN_DATA`. -/
def chi2_calls_safe (g : globals) (old new : List Int) (s : chi2_sums) : Prop :=
  let po := ((pooled_categories g old new).map Prod.fst).sum
  let pn := ((pooled_categories g old new).map Prod.snd).sum
  1 ≤ s.total_old ∧ 1 ≤ s.total_new ∧
    (∀ p, p ∈ surviving_categories g old new → chi2_call_safe p.1 p.2 s.total_old s.total_new) ∧
    ((g.MIN_DATA < po ∨ g.MIN_DATA < pn) → chi2_call_safe po pn s.total_old s.total_new)

/-- No counter of the statistics object is negative. -/
def state_statistics.nonneg (s : state_statistics) : Prop :=
  (∀ x, x ∈ s.symbol_counts → 0 ≤ x) ∧ (∀ x, x ∈ s.time_counts → 0 ≤ x) ∧
    (∀ x, x ∈ s.symbol_marks → 0 ≤ x) ∧ (∀ x, x ∈ s.time_marks → 0 ≤ x)

/-! ## The score of an automaton (`searcher.cpp`) -/

/-- A value of type `double` in `calculate_aic`: a number, or `none` for a value that is not
a finite number (an infinity or the value "not a number"), as a division by zero or the
logarithm of a number that is not positive yields it. Arithmetic on such a value yields such
a value again. Rounding is not modelled. -/
abbrev double_value := Option ℚ

/-- The sum of two values of type `double`. -/
def double_add (x y : double_value) : double_value :=
  y.bind (fun b => x.map (fun a => a + b))

/-- The product of two values of type `double`. -/
def double_mul (x y : double_value) : double_value :=
  y.bind (fun b => x.map (fun a => a * b))

/-- The quotient `((double) a) / ((double) b)` of two `int` values: with `b = 0` it is an
infinity or, for `0 / 0`, not a number. -/
def double_div (a b : Int) : double_value :=
  if b = 0 then none else some ((a : ℚ) / (b : ℚ))

/-- The test `x != 0` on the quotient `x` of `a` by `b`: an infinity and the value "not a
number" differ from zero, and a quotient by a divisor other than zero is zero exactly when
`a` is. -/
def quotient_ne_zero (a b : Int) : Bool :=
  decide (b = 0) || decide (a ≠ 0)

/-- The value `log(x)` for the quotient `x` of `a` by `b`: a number when the quotient is a
positive number, else an infinity or not a number. -/
def quotient_log (N : numerics) (a b : Int) : double_value :=
  if b ≠ 0 ∧ 0 < a * b then some (N.log ((a : ℚ) / (b : ℚ))) else none

/-- The variables `result` and `num_tests` of `calculate_aic`. -/
structure aic_sums where
  result : double_value
  num_tests : double_value

/-- The statements of `calculate_aic` for one probability, the quotient of `count` by
`total`: the test `prob != 0` and, when it holds, the two updates; `tests` is the count that
is added to `num_tests`, read only then. -/
def aic_count_term (N : numerics) (acc : aic_sums) (count total : Int)
    (tests : Option Int) : Option aic_sums :=
  if quotient_ne_zero count total then
    tests.map (fun c =>
      { result := double_add acc.result
          (double_mul (quotient_log N count total) (some (count : ℚ)))
        num_tests := double_add acc.num_tests (some ((c : ℚ) / 2)) })
  else some acc

/-- The body of the loop over the tails of an interval in `calculate_aic`. -/
def aic_tail_term (default_log : double_value) (acc : aic_sums) (tail : timed_tail) :
    aic_sums :=
  if tail.next_tail.isSome then
    { result := double_add acc.result
        (double_mul default_log (some (((tail.get_length : Int) - 1 : Int) : ℚ)))
      num_tests := double_add acc.num_tests (some (((tail.get_length : Int) - 1 : Int) : ℚ)) }
  else acc

/-- The body of the loop over the intervals in `calculate_aic`. -/
def aic_interval_term (A : timed_automaton) (default_log : double_value) (acc : aic_sums)
    (e : Int × interval) : aic_sums :=
  if A.contains_state e.2.get_target || e.2.is_empty then acc
  else e.2.tails.foldl (aic_tail_term default_log) acc

/-- The body of the loop over the colored states in `calculate_aic` (`with_default`) and in
`calculate_aic_without_default`, which has no loop over the intervals. In the loop over the
histogram bars the update of `num_tests` reads `symbol_counts[t]`. -/
def aic_state (g : globals) (N : numerics) (A : timed_automaton) (with_default : Bool)
    (default_log : double_value) (acc : aic_sums) (i : Nat) : Option aic_sums :=
  (A.get_state i).bind (fun p =>
    (A.mem p).bind (fun st =>
      ((List.range g.MAX_SYMBOL).foldlM (fun (acc : aic_sums) (s : Nat) =>
          (st.stat.symbol_counts[s]?).bind (fun c =>
            (aic_count_term N acc c st.stat.total_counts (some c)).bind (fun acc1 =>
              if with_default then
                (st.get_intervals s).map (fun l =>
                  l.foldl (aic_interval_term A default_log) acc1)
              else some acc1))) acc).bind (fun acc2 =>
        (List.range NUM_HISTOGRAM_BARS).foldlM (fun (acc : aic_sums) (t : Nat) =>
          (st.stat.time_counts[t]?).bind (fun c =>
            aic_count_term N acc c st.stat.total_counts (st.stat.symbol_counts[t]?)))
          acc2)))

/-- The last statement of both functions:
`(2.0 * ((double)calculate_parameters())) - (2.0 * result)`. -/
def aic_finish (g : globals) (A : timed_automaton) (acc : aic_sums) : Option double_value :=
  (calculate_parameters g A).map (fun k => acc.result.map (fun r => 2 * (k : ℚ) - 2 * r))

/-- `calculate_aic()`: the outer `none` stands for a read through a null pointer or outside
an array, the inner one for a result that is not a finite number. -/
def calculate_aic (g : globals) (N : numerics) (A : timed_automaton) :
    Option double_value :=
  ((List.range A.num_states).foldlM
      (aic_state g N A true (quotient_log N 1 ((NUM_HISTOGRAM_BARS : Int) + g.MAX_SYMBOL)))
      { result := some 0, num_tests := some 0 }).bind (aic_finish g A)

/-- `calculate_aic_without_default()`. -/
def calculate_aic_without_default (g : globals) (N : numerics) (A : timed_automaton) :
    Option double_value :=
  ((List.range A.num_states).foldlM (aic_state g N A false none)
      { result := some 0, num_tests := some 0 }).bind (aic_finish g A)

/-- The tails that `test_split` marks in `example_tree` for the split time 5, each with the
interval that holds it: the two tails of the interval of the root and their successors. -/
def example_marks : List (interval_ptr × timed_tail) :=
  [(⟨0, 0, 10⟩, ⟨0, 0, [(0, 1), (0, 3), (2, 4)]⟩), (⟨1, 0, 10⟩, ⟨0, 1, [(0, 3), (2, 4)]⟩),
    (⟨0, 0, 10⟩, ⟨1, 0, [(0, 5), (0, 2), (2, 7)]⟩), (⟨1, 0, 10⟩, ⟨1, 1, [(0, 2), (2, 7)]⟩)]

/-- The interval of the root of `example_tree`. -/
def example_root_interval : interval :=
  { interval.new 0 10 with
    tails := [⟨0, 0, [(0, 1), (0, 3), (2, 4)]⟩, ⟨1, 0, [(0, 5), (0, 2), (2, 7)]⟩]
    to_ := some 1 }

/-- Every state of the heap `A` is a state of the heap `B`; every partition of it is in `B`
its partition for the same symbol, with the same keys; and every tail that the partition
stores in `A` it stores in `B`. -/
def tails_kept (A B : timed_automaton) : Prop :=
  ∀ (q : Nat) (s : timed_state), A.mem q = some s →
    ∃ (u : timed_state), B.mem q = some u ∧
      ∀ (j : Nat) (l : interval_set), s.targets[j]? = some l →
        ∃ (m : interval_set), u.targets[j]? = some m ∧ m.map Prod.fst = l.map Prod.fst ∧
          ∀ x, x ∈ all_tails l → x ∈ all_tails m

/-- The corpus of the two words `a 0 a 0` and `b 0 a 0`. -/
def two_paths : List (List (Char × Int)) := [[('a', 0), ('a', 0)], [('b', 0), ('a', 0)]]

end RTI


namespace RTI

/-! ### A heap for `pre_split` -/

/-- The colored root of `split_root_example`: its partition has the intervals `[0, 4]` and
`[5, 10]`; the first one points back to the root, the second one has no target. -/
def split_root : timed_state :=
  { targets := [[(4, { interval.new 0 4 with to_ := some 0 }), (10, interval.new 5 10)]]
    stat := state_statistics.new example_globals }

/-- The heap of `example_tree` with `split_root` as root: the states 1 and 2 are the prefix
tree of `example_words`, to which no interval points any more. -/
def split_root_example : timed_automaton :=
  { example_tree with
    mem := fun q => if q = 0 then some split_root else example_tree.mem q }

end RTI


namespace RTI

/-! ### The calls of `recurse_merge` -/

/-- A heap together with the list of the calls `recurse_merge(old_target, new_target)` made
so far, each as the pair of its arguments. -/
abbrev visits := timed_automaton × List (Nat × Nat)

/-- `timed_state::recurse_merge(old_target, new_target)` with a record of its calls: the
heap is computed as by `recurse_merge`, and the list holds the pair of the arguments of the
call itself followed by those of the calls of the recursion, in the order they are made. -/
def recurse_merge_visits (g : globals) :
    Nat → timed_automaton → Option Nat → Option Nat → Option visits
  | 0, _, _, _ => none
  | _, _, none, _ => none
  | _, _, _, none => none
  | fuel + 1, A, some old_target, some new_target =>
    (List.range g.MAX_SYMBOL).foldlM (fun (c : visits) (i : Nat) =>
      (num_intervals c.1 old_target i).bind (fun n =>
        (List.range n).foldlM (fun (c : visits) (j : Nat) =>
          (nth_entry c.1 old_target i j).bind (fun (old_ptr, old_in) =>
            (nth_entry c.1 new_target i j).bind (fun (new_ptr, new_in) =>
              if old_in.end_ ≠ new_in.end_ ∨ old_in.begin ≠ new_in.begin then none
              else if !old_in.is_empty then
                (if !new_in.is_empty then
                  (recurse_merge_visits g fuel c.1 old_in.to_ new_in.to_).map
                    (fun r => (r.1, c.2 ++ r.2))
                else
                  ((c.1.write new_ptr (fun x => { x with to_ := old_in.to_ })).bind (fun A1 =>
                    A1.write old_ptr (fun x => { x with to_ := none }))).map
                      (fun A2 => (A2, c.2))).bind (fun c2 =>
                  (c2.1.read old_ptr).bind (fun old_in2 =>
                    (c2.1.write new_ptr (fun x =>
                        { x with tails := insert_tails x.tails old_in2.tails })).bind (fun A3 =>
                      (A3.update_stat (some new_target)
                        (fun s => add_counts g s old_in2.tails)).map (fun A4 => (A4, c2.2)))))
              else some c))) c)) (A, [(old_target, new_target)])

/-- One round of the inner loop of `recurse_merge_visits`, for the entries at position `j` in
the partitions for the symbol `i`; `rec` is the function that is called in the recursion. -/
def merge_round (rec : timed_automaton → Option Nat → Option Nat → Option visits)
    (g : globals) (old_target new_target i : Nat) (c : visits) (j : Nat) : Option visits :=
  (nth_entry c.1 old_target i j).bind (fun (old_ptr, old_in) =>
    (nth_entry c.1 new_target i j).bind (fun (new_ptr, new_in) =>
      if old_in.end_ ≠ new_in.end_ ∨ old_in.begin ≠ new_in.begin then none
      else if !old_in.is_empty then
        (if !new_in.is_empty then
          (rec c.1 old_in.to_ new_in.to_).map (fun r => (r.1, c.2 ++ r.2))
        else
          ((c.1.write new_ptr (fun x => { x with to_ := old_in.to_ })).bind (fun A1 =>
            A1.write old_ptr (fun x => { x with to_ := none }))).map
              (fun A2 => (A2, c.2))).bind (fun c2 =>
          (c2.1.read old_ptr).bind (fun old_in2 =>
            (c2.1.write new_ptr (fun x =>
                { x with tails := insert_tails x.tails old_in2.tails })).bind (fun A3 =>
              (A3.update_stat (some new_target)
                (fun s => add_counts g s old_in2.tails)).map (fun A4 => (A4, c2.2)))))
      else some c))

/-- No state occurs twice in a list of calls, neither as old nor as new target. -/
def visited_once (V : List (Nat × Nat)) : Prop :=
  (V.map Prod.fst ++ V.map Prod.snd).Nodup

/-- The entry of the partition of the old target after `recurse_merge` has handled it
together with the entry `en` of the new target: its target is null when the new interval has
taken it over. -/
def old_entry_after (eo en : Int × interval) : Int × interval :=
  if eo.2.tails = [] then eo
  else if en.2.tails = [] then (eo.1, { eo.2 with to_ := none })
  else eo

/-- The entry of the partition of the new target after `recurse_merge` has handled it
together with the entry `eo` of the old target: it has got the tails of the old interval
and, when it was empty, its target. -/
def new_entry_after (eo en : Int × interval) : Int × interval :=
  if eo.2.tails = [] then en
  else (en.1, { en.2 with tails := insert_tails en.2.tails eo.2.tails
                          to_ := if en.2.tails = [] then eo.2.to_ else en.2.to_ })

/-- The partitions `lo'` and `ln'` of the old and the new target for one symbol when the
inner loop of `recurse_merge` has handled the first `j` pairs of entries of the partitions
`lo` and `ln`. -/
structure merged_upto (j : Nat) (lo ln lo' ln' : interval_set) : Prop where
  keys_old : lo'.map Prod.fst = lo.map Prod.fst
  keys_new : ln'.map Prod.fst = ln.map Prod.fst
  done : ∀ (j' : Nat) (eo en : Int × interval), j' < j → lo[j']? = some eo →
    ln[j']? = some en →
    lo'[j']? = some (old_entry_after eo en) ∧ ln'[j']? = some (new_entry_after eo en)
  rest : ∀ (j' : Nat), j ≤ j' → lo'[j']? = lo[j']? ∧ ln'[j']? = ln[j']?

/-- The old target `so'` and the new target `sn'` when the inner loop of `recurse_merge`
for the symbol `i` has handled the first `j` pairs of entries: `so` and `sn` are the two
states at the entry of the loop, `lo` and `ln` their partitions for the symbol `i`. -/
structure rounds_done (g : globals) (i j : Nat) (lo ln : interval_set)
    (so sn so' sn' : timed_state) : Prop where
  stat_old : so'.stat = so.stat
  stat_new : sn'.stat = add_counts g sn.stat (all_tails (lo.take j))
  len_old : so'.targets.length = so.targets.length
  len_new : sn'.targets.length = sn.targets.length
  others : ∀ (i' : Nat), i' ≠ i →
    so'.targets[i']? = so.targets[i']? ∧ sn'.targets[i']? = sn.targets[i']?
  here : ∃ lo' ln', so'.targets[i]? = some lo' ∧ sn'.targets[i]? = some ln' ∧
    merged_upto j lo ln lo' ln'

/-- The old target `so'` and the new target `sn'` when the outer loop of `recurse_merge`
has handled the symbols below `i`: `so` and `sn` are the two states at the call. -/
structure symbols_done (g : globals) (i : Nat) (so sn so' sn' : timed_state) : Prop where
  stat_old : so'.stat = so.stat
  stat_new : sn'.stat = add_counts g sn.stat ((so.targets.take i).map all_tails).flatten
  len_old : so'.targets.length = so.targets.length
  len_new : sn'.targets.length = sn.targets.length
  rest : ∀ (i' : Nat), i ≤ i' →
    so'.targets[i']? = so.targets[i']? ∧ sn'.targets[i']? = sn.targets[i']?
  done : ∀ (i' : Nat) (lo ln : interval_set), i' < i → so.targets[i']? = some lo →
    sn.targets[i']? = some ln →
    ∃ lo' ln', so'.targets[i']? = some lo' ∧ sn'.targets[i']? = some ln' ∧
      merged_upto lo.length lo ln lo' ln'

/-! ### A heap for `recurse_merge` -/

/-- A state whose only interval holds the first tail of the word `(0, 4)` and points to the
state 4. -/
def merge_new_state : timed_state :=
  { targets := [[(10, { interval.new 0 10 with
      tails := [⟨2, 0, [(0, 4), (2, 4)]⟩]
      to_ := some 4 })]]
    stat := { total_counts := 1, symbol_counts := [1], time_counts := [0, 1, 0, 0],
              total_marks := 0, symbol_marks := [0], time_marks := [0, 0, 0, 0] } }

/-- The heap of `example_tree` with two more states: `merge_new_state` at 3 and an empty
state at 4. -/
def merge_example : timed_automaton :=
  { example_tree with
    mem := fun q =>
      if q = 3 then some merge_new_state
      else if q = 4 then some (timed_state.new example_globals)
      else example_tree.mem q
    next := 5 }

end RTI


namespace RTI

/-! ## Notions for the return of `get_best_refinements` -/

/-- The state `s` after the mark of the tail `x`, stored in its interval with the key `key`
for `symbol`, has been taken away: `stat->unmark(tail)` and `in->del_marked()`. -/
def unmark_entry (g : globals) (s : timed_state) (symbol : Nat) (key : Int) (x : timed_tail) :
    timed_state :=
  ({ s with stat := s.stat.unmark g x } : timed_state).update symbol key
    (fun i => { i with num_marked := i.num_marked - 1 })

/-- The automaton after the mark of the tail `x`, stored in the interval `r`, has been taken
away: the three updates of one call of `un_mark` that does not return at once. -/
def un_mark_one (g : globals) (A : timed_automaton) (r : interval_ptr) (x : timed_tail) :
    timed_automaton :=
  { A with
    mem := fun q =>
      if q = r.state then (A.mem q).map (fun s => unmark_entry g s r.symbol r.key x)
      else A.mem q
    marker := fun t => if t = x then false else A.marker t }

/-- The automaton after the marks of the tails of `path` have been taken away, each in its
interval. -/
def un_mark_all (g : globals) (A : timed_automaton)
    (path : List (interval_ptr × timed_tail)) : timed_automaton :=
  path.foldl (fun B e => un_mark_one g B e.1 e.2) A

/-- The invariant of the loop over the tails in `get_best_refinements`: the variable `time`
lies within the bounds of the selected interval, and the heap is the one that the marking
loop of `test_split` leaves for a time that is not larger. -/
def split_loop_inv (g : globals) (A : timed_automaton) (p symbol : Nat) (k : Int)
    (i : interval) (acc : split_loop) : Prop :=
  i.begin ≤ acc.time ∧ acc.time ≤ i.end_ ∧
    ∃ u, u ≤ acc.time ∧ i.tails.foldlM (mark_upto g p ⟨p, symbol, k⟩ u) A = some acc.A

/-- Every state of the heap `A` is a state of the heap `B`, up to the order of the tails,
and the colored states and the markers are the same. -/
def heap_equiv (A B : timed_automaton) : Prop :=
  (∀ q s, A.mem q = some s → ∃ s', B.mem q = some s' ∧ state_equiv s s') ∧
    B.states = A.states ∧ B.marker = A.marker

/-! ### A prefix tree with two colored states -/

/-- The words `(0, 1) (0, 3) (0, 2)` and `(0, 5) (0, 2) (0, 4)` of the third example. -/
def long_words : List (List (Nat × Int)) :=
  [[(0, 1), (0, 3), (0, 2)], [(0, 5), (0, 2), (0, 4)]]

/-- The root of the prefix tree of `long_words`. -/
def long_root : timed_state :=
  { targets := [[(10, { interval.new 0 10 with
      tails := [⟨0, 0, [(0, 1), (0, 3), (0, 2), (2, 6)]⟩,
        ⟨1, 0, [(0, 5), (0, 2), (0, 4), (2, 11)]⟩]
      to_ := some 1 })]]
    stat := { total_counts := 2, symbol_counts := [2], time_counts := [1, 1, 0, 0],
              total_marks := 0, symbol_marks := [0], time_marks := [0, 0, 0, 0] } }

/-- The interval of the state below the root of the prefix tree of `long_words`. -/
def long_child_interval : interval :=
  { interval.new 0 10 with
    tails := [⟨1, 1, [(0, 2), (0, 4), (2, 11)]⟩, ⟨0, 1, [(0, 3), (0, 2), (2, 6)]⟩]
    to_ := some 2 }

/-- The state below the root of the prefix tree of `long_words`. -/
def long_child : timed_state :=
  { targets := [[(10, long_child_interval)]]
    stat := { total_counts := 2, symbol_counts := [2], time_counts := [1, 1, 0, 0],
              total_marks := 0, symbol_marks := [0], time_marks := [0, 0, 0, 0] } }

/-- The state two levels below the root of the prefix tree of `long_words`. -/
def long_grandchild : timed_state :=
  { targets := [[(10, { interval.new 0 10 with
      tails := [⟨0, 2, [(0, 2), (2, 6)]⟩, ⟨1, 2, [(0, 4), (2, 11)]⟩]
      to_ := some 3 })]]
    stat := { total_counts := 2, symbol_counts := [2], time_counts := [1, 1, 0, 0],
              total_marks := 0, symbol_marks := [0], time_marks := [0, 0, 0, 0] } }

/-- The prefix tree of `long_words` after the state below the root has been colored: the
colored states 0 and 1 and the tree states 2 and 3. -/
def long_tree : timed_automaton :=
  { mem := fun q =>
      if q = 0 then some long_root
      else if q = 1 then some long_child
      else if q = 2 then some long_grandchild
      else if q = 3 then some (timed_state.new example_globals)
      else none
    next := 4
    states := [0, 1]
    root := 0
    marker := fun _ => false }

/-- The tree below the interval of the state 1 of `long_tree`. -/
def long_state_tree : state_tree :=
  state_tree.node 2 long_grandchild (fun _ _ =>
    state_tree.node 3 (timed_state.new example_globals) (fun _ _ => state_tree.null))

end RTI


namespace RTI

/-! ## Notions for the return of `recurse_merge` -/

/-- The calls of the recursion of `recurse_merge` for the pair `e` of corresponding entries
of the partitions of the old and the new target: the recursion is called on the two targets
when both intervals hold tails; `calls` gives the calls of one call of `recurse_merge`. -/
def pair_calls (calls : Nat → Nat → List (Nat × Nat))
    (e : (Int × interval) × (Int × interval)) : List (Nat × Nat) :=
  if e.1.2.tails ≠ [] ∧ e.2.2.tails ≠ [] then
    match e.1.2.to_, e.2.2.to_ with
    | some o, some n => calls o n
    | _, _ => []
  else []

/-- The calls of the recursion in a call of `recurse_merge` on the old target `so` and the
new target `sn`, in the order of the symbols and of the entries of the partitions. -/
def state_calls (g : globals) (calls : Nat → Nat → List (Nat × Nat)) (so sn : timed_state) :
    List (Nat × Nat) :=
  (List.range g.MAX_SYMBOL).flatMap (fun i =>
    (List.zip ((so.targets[i]?).getD []) ((sn.targets[i]?).getD [])).flatMap
      (pair_calls calls))

/-- The calls of `recurse_merge(old_target, new_target)` on the states at `o` and `n`, each
as the pair of its arguments and in the order they are made, read off the heap `A` at the
call: the call itself and, for every pair of corresponding intervals that both hold tails,
the calls of the recursion on their targets. The first argument bounds the depth. -/
def merge_calls (g : globals) : Nat → timed_automaton → Nat → Nat → List (Nat × Nat)
  | 0, _, _, _ => []
  | fuel + 1, A, o, n =>
    (o, n) :: (match A.mem o, A.mem n with
      | some so, some sn => state_calls g (merge_calls g fuel A) so sn
      | _, _ => [])

/-- The states at `o` and `n` are aligned for `recurse_merge`, down to the depth `fuel`: both
exist and have `MAX_SYMBOL` partitions, each with distinct keys; for every symbol their
partitions have the same sequence of intervals `[begin, end]`; and for every pair of
corresponding intervals that both hold tails, both have a target and the two targets are
aligned in the same way. -/
def merge_aligned (g : globals) : Nat → timed_automaton → Nat → Nat → Prop
  | 0, _, _, _ => False
  | fuel + 1, A, o, n =>
    ∃ so sn, A.mem o = some so ∧ A.mem n = some sn ∧
      so.targets.length = g.MAX_SYMBOL ∧ sn.targets.length = g.MAX_SYMBOL ∧
      (∀ (i : Nat) (l : interval_set), so.targets[i]? = some l → (l.map Prod.fst).Nodup) ∧
      (∀ (i : Nat) (l : interval_set), sn.targets[i]? = some l → (l.map Prod.fst).Nodup) ∧
      ∀ (i : Nat) (lo ln : interval_set), so.targets[i]? = some lo →
        sn.targets[i]? = some ln →
        lo.map (fun e => (e.2.begin, e.2.end_)) = ln.map (fun e => (e.2.begin, e.2.end_)) ∧
        ∀ (j : Nat) (eo en : Int × interval), lo[j]? = some eo → ln[j]? = some en →
          eo.2.tails ≠ [] → en.2.tails ≠ [] →
          ∃ o' n', eo.2.to_ = some o' ∧ en.2.to_ = some n' ∧ merge_aligned g fuel A o' n'

/-- No tail of the state `s` counts as marked: the counters of marks of its statistics and
the numbers of marked tails of its intervals are all zero. -/
def state_unmarked (s : timed_state) : Prop :=
  s.stat.total_marks = 0 ∧ (∀ x, x ∈ s.stat.symbol_marks → x = 0) ∧
    (∀ x, x ∈ s.stat.time_marks → x = 0) ∧
    ∀ l, l ∈ s.targets → ∀ e, e ∈ l → e.2.num_marked = 0

end RTI


namespace RTI

/-! ### Tail sets -/

theorem add_tail_to_set_perm (ts : tail_set) (x : timed_tail) :
    (add_tail_to_set ts x).Perm (x :: ts) := by
  induction ts with
  | nil => simp [add_tail_to_set]
  | cons y ys ih =>
    simp only [add_tail_to_set]
    split
    · exact List.Perm.refl _
    · exact (List.Perm.cons y ih).trans (List.Perm.swap x y ys)

theorem insert_tails_perm (ts range : tail_set) :
    (insert_tails ts range).Perm (range ++ ts) := by
  induction range generalizing ts with
  | nil => simp [insert_tails]
  | cons x xs ih =>
    have h1 := ih (add_tail_to_set ts x)
    have h2 : (xs ++ add_tail_to_set ts x).Perm (xs ++ x :: ts) :=
      List.Perm.append_left xs (add_tail_to_set_perm ts x)
    have h3 : (xs ++ x :: ts).Perm (x :: xs ++ ts) := by
      simp
    simpa [insert_tails] using (h1.trans h2).trans h3

theorem mem_add_tail_to_set {ts : tail_set} {x y : timed_tail} :
    y ∈ add_tail_to_set ts x ↔ y = x ∨ y ∈ ts := by
  rw [(add_tail_to_set_perm ts x).mem_iff]; simp

theorem mem_insert_tails {ts range : tail_set} {y : timed_tail} :
    y ∈ insert_tails ts range ↔ y ∈ range ∨ y ∈ ts := by
  rw [(insert_tails_perm ts range).mem_iff]; simp

theorem add_tail_to_set_sorted {ts : tail_set} (x : timed_tail) (h : tails_sorted ts) :
    tails_sorted (add_tail_to_set ts x) := by
  induction ts with
  | nil => simp [add_tail_to_set, tails_sorted]
  | cons y ys ih =>
    unfold tails_sorted at h ih ⊢
    rw [List.pairwise_cons] at h
    simp only [add_tail_to_set]
    split
    · rename_i hlt
      rw [List.pairwise_cons]
      refine ⟨?_, List.pairwise_cons.2 h⟩
      intro z hz
      rcases List.mem_cons.1 hz with rfl | hz
      · exact le_of_lt hlt
      · exact le_trans (le_of_lt hlt) (h.1 z hz)
    · rename_i hge
      rw [List.pairwise_cons]
      refine ⟨?_, ih h.2⟩
      intro z hz
      rcases mem_add_tail_to_set.1 hz with rfl | hz
      · exact not_lt.1 hge
      · exact h.1 z hz

theorem insert_tails_sorted {ts : tail_set} (range : tail_set) (h : tails_sorted ts) :
    tails_sorted (insert_tails ts range) := by
  induction range generalizing ts with
  | nil => simpa [insert_tails] using h
  | cons x xs ih => simpa [insert_tails] using ih (add_tail_to_set_sorted x h)

theorem tails_upto_eq_filter {ts : tail_set} (time : Int) (h : tails_sorted ts) :
    tails_upto ts time = ts.filter (fun x => decide (x.get_time_value ≤ time)) := by
  induction ts with
  | nil => rfl
  | cons y ys ih =>
    unfold tails_sorted at h ih
    rw [List.pairwise_cons] at h
    unfold tails_upto at ih ⊢
    by_cases hy : y.get_time_value ≤ time
    · simp [List.takeWhile_cons, List.filter_cons, hy, ih h.2]
    · have : ∀ z ∈ ys, ¬ z.get_time_value ≤ time := fun z hz hz' =>
        hy (le_trans (h.1 z hz) hz')
      simp only [List.takeWhile_cons, List.filter_cons, hy, decide_False]
      symm
      simpa [List.filter_eq_nil_iff] using this

theorem tails_after_eq_filter {ts : tail_set} (time : Int) (h : tails_sorted ts) :
    tails_after ts time = ts.filter (fun x => decide (time < x.get_time_value)) := by
  induction ts with
  | nil => rfl
  | cons y ys ih =>
    unfold tails_sorted at h ih
    rw [List.pairwise_cons] at h
    unfold tails_after at ih ⊢
    by_cases hy : y.get_time_value ≤ time
    · have hy' : ¬ time < y.get_time_value := not_lt.2 hy
      simp [List.dropWhile_cons, List.filter_cons, hy, hy', ih h.2]
    · have hy' : time < y.get_time_value := not_le.1 hy
      have : ∀ z ∈ ys, time < z.get_time_value := fun z hz =>
        lt_of_lt_of_le hy' (h.1 z hz)
      simp only [List.dropWhile_cons, List.filter_cons, hy, hy', decide_False, decide_True]
      simp only [Bool.false_eq_true, ↓reduceIte, List.cons.injEq, true_and]
      symm
      simpa [List.filter_eq_self] using this

theorem tails_upto_append_after (ts : tail_set) (time : Int) :
    tails_upto ts time ++ tails_after ts time = ts := by
  simp [tails_upto, tails_after]

end RTI


namespace RTI

/-! ### Lookup in a partition -/

theorem tail_cover_begin_gt {pe hi : Int} {s : interval_set} (h : tail_cover pe s hi) :
    ∀ e ∈ s, pe < e.2.begin ∧ pe < e.2.end_ ∧ e.1 = e.2.end_ ∧ e.2.end_ ≤ hi := by
  induction s generalizing pe with
  | nil => intro e he; cases he
  | cons x rest ih =>
    obtain ⟨k, i⟩ := x
    obtain ⟨h1, h2, h3, h4⟩ := h
    have hle : i.end_ ≤ hi := by
      cases rest with
      | nil => exact le_of_eq h4
      | cons y ys =>
        have := (ih h4 y (List.mem_cons_self _ _)).2.2.2
        have h5 := (ih h4 y (List.mem_cons_self _ _)).2.1
        omega
    intro e he
    rcases List.mem_cons.1 he with rfl | he
    · exact ⟨by simp only; omega, h3, h2, hle⟩
    · obtain ⟨a, b, c, d⟩ := ih h4 e he
      exact ⟨by omega, by omega, c, d⟩

theorem tail_cover_le {pe hi : Int} {s : interval_set} (h : tail_cover pe s hi) : pe ≤ hi := by
  cases s with
  | nil => exact le_of_eq h
  | cons x rest =>
    have := tail_cover_begin_gt h x (List.mem_cons_self _ _)
    omega

theorem lower_bound_tail_cover {pe hi t : Int} {s : interval_set} (h : tail_cover pe s hi)
    (h1 : pe < t) (h2 : t ≤ hi) :
    ∃ e, lower_bound s t = some e ∧ e ∈ s ∧ e.2.begin ≤ t ∧ t ≤ e.2.end_ ∧
      ∀ e' ∈ s, e'.2.begin ≤ t → t ≤ e'.2.end_ → e' = e := by
  induction s generalizing pe with
  | nil => exact absurd h (by simp only [tail_cover]; omega)
  | cons x rest ih =>
    obtain ⟨k, i⟩ := x
    obtain ⟨hb, hk, hlt, hrest⟩ := h
    by_cases htk : t ≤ k
    · refine ⟨(k, i), by simp [lower_bound, htk], List.mem_cons_self _ _, by simp only; omega,
        by simp only; omega, ?_⟩
      intro e' he' hb' he''
      rcases List.mem_cons.1 he' with rfl | he'
      · rfl
      · have := (tail_cover_begin_gt hrest e' he').1
        omega
    · obtain ⟨e, he1, he2, he3, he4, he5⟩ := ih hrest (by omega)
      refine ⟨e, by simp [lower_bound, htk, he1], List.mem_cons_of_mem _ he2, he3, he4, ?_⟩
      intro e' he' hb' he''
      rcases List.mem_cons.1 he' with rfl | he'
      · simp only at he''; omega
      · exact he5 e' he' hb' he''

theorem lower_bound_partition {g : globals} {t : Int} {s : interval_set}
    (h : partition_ok g s) (h1 : g.MIN_TIME ≤ t) (h2 : t ≤ g.MAX_TIME) :
    ∃ e, lower_bound s t = some e ∧ e ∈ s ∧ e.2.begin ≤ t ∧ t ≤ e.2.end_ ∧
      ∀ e' ∈ s, e'.2.begin ≤ t → t ≤ e'.2.end_ → e' = e := by
  cases s with
  | nil => exact absurd h (by simp [partition_ok])
  | cons x rest =>
    obtain ⟨k, i⟩ := x
    obtain ⟨hb, hk, _, hrest⟩ := h
    by_cases htk : t ≤ k
    · refine ⟨(k, i), by simp [lower_bound, htk], List.mem_cons_self _ _, by simp only; omega,
        by simp only; omega, ?_⟩
      intro e' he' hb' he''
      rcases List.mem_cons.1 he' with rfl | he'
      · rfl
      · have := (tail_cover_begin_gt hrest e' he').1
        omega
    · obtain ⟨e, he1, he2, he3, he4, he5⟩ := lower_bound_tail_cover hrest (by omega) h2
      refine ⟨e, by simp [lower_bound, htk, he1], List.mem_cons_of_mem _ he2, he3, he4, ?_⟩
      intro e' he' hb' he''
      rcases List.mem_cons.1 he' with rfl | he'
      · simp only at he''; omega
      · exact he5 e' he' hb' he''

/-- The keys of a partition are the ends of its intervals and increase strictly. -/
theorem partition_ok_keys {g : globals} {s : interval_set} (h : partition_ok g s) :
    (∀ e ∈ s, e.1 = e.2.end_ ∧ e.2.end_ ≤ g.MAX_TIME) ∧
      (s.map Prod.fst).Pairwise (fun a b => a < b) := by
  have aux : ∀ (pe hi : Int) (s : interval_set), tail_cover pe s hi →
      (s.map Prod.fst).Pairwise (fun a b => a < b) := by
    intro pe hi s
    induction s generalizing pe with
    | nil => intro _; simp
    | cons x rest ih =>
      obtain ⟨k, i⟩ := x
      intro ⟨_, hk, _, hrest⟩
      simp only [List.map_cons, List.pairwise_cons]
      refine ⟨?_, ih _ hrest⟩
      intro a ha
      obtain ⟨e, he, rfl⟩ := List.mem_map.1 ha
      have := tail_cover_begin_gt hrest e he
      omega
  cases s with
  | nil => exact absurd h (by simp [partition_ok])
  | cons x rest =>
    obtain ⟨k, i⟩ := x
    obtain ⟨hb, hk, _, hrest⟩ := h
    have hle := tail_cover_le hrest
    constructor
    · intro e he
      rcases List.mem_cons.1 he with rfl | he
      · exact ⟨hk, hle⟩
      · have := tail_cover_begin_gt hrest e he
        exact ⟨this.2.2.1, this.2.2.2⟩
    · simp only [List.map_cons, List.pairwise_cons]
      refine ⟨?_, aux _ _ _ hrest⟩
      intro a ha
      obtain ⟨e, he, rfl⟩ := List.mem_map.1 ha
      have := tail_cover_begin_gt hrest e he
      omega

theorem lower_bound_of_key {s : interval_set}
    (hs : (s.map Prod.fst).Pairwise (fun a b => a < b)) :
    ∀ e ∈ s, lower_bound s e.1 = some e := by
  induction s with
  | nil => intro e he; cases he
  | cons x rest ih =>
    obtain ⟨k, i⟩ := x
    simp only [List.map_cons, List.pairwise_cons] at hs
    intro e he
    rcases List.mem_cons.1 he with rfl | he
    · simp [lower_bound]
    · have : k < e.1 := hs.1 _ (List.mem_map_of_mem _ he)
      have hn : ¬ e.1 ≤ k := by omega
      simp [lower_bound, hn, ih hs.2 e he]

theorem lower_bound_none_of_gt {s : interval_set} {t : Int} (h : ∀ e ∈ s, e.1 < t) :
    lower_bound s t = none := by
  induction s with
  | nil => rfl
  | cons x rest ih =>
    obtain ⟨k, i⟩ := x
    have hk : ¬ t ≤ k := by have := h (k, i) (List.mem_cons_self _ _); simp only at this; omega
    simp [lower_bound, hk, ih (fun e he => h e (List.mem_cons_of_mem _ he))]

/-- C6: in a contiguous cover of `[MIN_TIME, MAX_TIME]` keyed by end, for every `t` in that
range `get_interval_from_set` returns the one interval whose `[begin, end]` contains `t`;
it returns the interval ending at `t` when `t` is the end of an interval; and for `t` beyond
the last end it returns the rightmost interval. -/
theorem get_interval_from_set_spec (g : globals) (s : interval_set) (t : Int)
    (hs : partition_ok g s) :
    (g.MIN_TIME ≤ t → t ≤ g.MAX_TIME →
      ∃ e, e ∈ s ∧ get_interval_from_set s t = some e.2 ∧ e.2.begin ≤ t ∧ t ≤ e.2.end_ ∧
        ∀ e' ∈ s, e'.2.begin ≤ t → t ≤ e'.2.end_ → e' = e) ∧
    (∀ e ∈ s, e.2.end_ = t → get_interval_from_set s t = some e.2) ∧
    (g.MAX_TIME < t → get_interval_from_set s t = s.getLast?.map Prod.snd) := by
  refine ⟨?_, ?_, ?_⟩
  · intro h1 h2
    obtain ⟨e, he1, he2, he3, he4, he5⟩ := lower_bound_partition hs h1 h2
    exact ⟨e, he2, by simp [get_interval_from_set, find_interval, he1], he3, he4, he5⟩
  · intro e he het
    have hk := (partition_ok_keys hs).1 e he
    have := lower_bound_of_key (partition_ok_keys hs).2 e he
    rw [hk.1, het] at this
    simp [get_interval_from_set, find_interval, this]
  · intro ht
    have : lower_bound s t = none := lower_bound_none_of_gt (fun e he => by
      have := (partition_ok_keys hs).1 e he
      omega)
    simp [get_interval_from_set, find_interval, this]

/-- The witness of C6: in the partition `[0, 4], [5, 10]` the lookup of 4 returns the
interval that ends at 4. -/
theorem get_interval_from_set_spec_witness :
    get_interval_from_set [((4 : Int), interval.new 0 4), ((10 : Int), interval.new 5 10)] 4
      = some (interval.new 0 4) :=
  (get_interval_from_set_spec example_globals
    [((4 : Int), interval.new 0 4), ((10 : Int), interval.new 5 10)] 4 (by decide)).2.1
    ((4 : Int), interval.new 0 4) (by simp) rfl

end RTI


namespace RTI

/-! ### `split_set` and `undo_split_set` -/

theorem split_set_tail_cover {pe hi t : Int} {s : interval_set} {e : Int × interval}
    (h : tail_cover pe s hi) (he : e ∈ s) (hso : tails_sorted e.2.tails)
    (hb : e.2.begin ≤ t) (hlt : t < e.2.end_) :
    ∃ pre post, s = pre ++ e :: post ∧
      split_set s t = some (pre ++ (t, left_half e.2 t) :: (e.1, right_half e.2 t) :: post) := by
  induction s generalizing pe with
  | nil => cases he
  | cons x rest ih =>
    obtain ⟨k, i⟩ := x
    obtain ⟨h1, h2, h3, h4⟩ := h
    rcases List.mem_cons.1 he with rfl | he
    · refine ⟨[], rest, rfl, ?_⟩
      simp only at hb hlt hso
      have hk : t ≤ k := by omega
      have hne : k ≠ t := by omega
      simp [split_set, hk, hb, hlt, hne, left_half, right_half, interval.new,
        tails_upto_eq_filter t hso, tails_after_eq_filter t hso]
    · have hgt := (tail_cover_begin_gt h4 e he).1
      obtain ⟨pre, post, hs, hsp⟩ := ih h4 he
      have hk : ¬ t ≤ k := by omega
      exact ⟨(k, i) :: pre, post, by simp [hs], by simp [split_set, hk, hsp]⟩

/-- C7: in a valid partition, when the interval `I = [b, e]` that contains `t` has
`b ≤ t < e`, `split_set` replaces `I` by the new interval `[b, t]`, which holds exactly the
tails of `I` with time `≤ t`, has a null target and no marks, followed by `I` itself shrunk
to `[t + 1, e]`, which holds exactly the tails with time `> t` and keeps its target; all
other intervals are unchanged. -/
theorem split_set_spec (g : globals) (s : interval_set) (t : Int) (e : Int × interval)
    (hs : partition_valid g s) (he : e ∈ s) (hb : e.2.begin ≤ t) (hlt : t < e.2.end_) :
    ∃ pre post, s = pre ++ e :: post ∧
      split_set s t = some (pre ++ (t, left_half e.2 t) :: (e.1, right_half e.2 t) :: post) ∧
      (left_half e.2 t).begin = e.2.begin ∧ (left_half e.2 t).end_ = t ∧
      (left_half e.2 t).to_ = none ∧ (left_half e.2 t).num_marked = 0 ∧
      (∀ x, x ∈ (left_half e.2 t).tails ↔ x ∈ e.2.tails ∧ x.get_time_value ≤ t) ∧
      (right_half e.2 t).begin = t + 1 ∧ (right_half e.2 t).end_ = e.2.end_ ∧
      (right_half e.2 t).to_ = e.2.to_ ∧
      (∀ x, x ∈ (right_half e.2 t).tails ↔ x ∈ e.2.tails ∧ t < x.get_time_value) ∧
      ((left_half e.2 t).tails ++ (right_half e.2 t).tails).Perm e.2.tails := by
  have hso := (hs.2 e he).1
  have hperm : ((left_half e.2 t).tails ++ (right_half e.2 t).tails).Perm e.2.tails := by
    have h := tails_upto_append_after e.2.tails t
    rw [tails_upto_eq_filter t hso, tails_after_eq_filter t hso] at h
    simp only [left_half, right_half]
    rw [h]
  have hmem : (∀ x, x ∈ (left_half e.2 t).tails ↔ x ∈ e.2.tails ∧ x.get_time_value ≤ t) ∧
      (∀ x, x ∈ (right_half e.2 t).tails ↔ x ∈ e.2.tails ∧ t < x.get_time_value) := by
    constructor <;> intro x <;> simp [left_half, right_half, List.mem_filter]
  cases s with
  | nil => cases he
  | cons x rest =>
    obtain ⟨k, i⟩ := x
    obtain ⟨⟨h1, h2, h3, h4⟩, _⟩ := hs
    have key : ∃ pre post, (k, i) :: rest = pre ++ e :: post ∧
        split_set ((k, i) :: rest) t
          = some (pre ++ (t, left_half e.2 t) :: (e.1, right_half e.2 t) :: post) := by
      rcases List.mem_cons.1 he with rfl | he
      · refine ⟨[], rest, rfl, ?_⟩
        simp only at hb hlt hso
        have hk : t ≤ k := by omega
        have hne : k ≠ t := by omega
        simp [split_set, hk, hb, hlt, hne, left_half, right_half, interval.new,
          tails_upto_eq_filter t hso, tails_after_eq_filter t hso]
      · have hgt := (tail_cover_begin_gt h4 e he).1
        obtain ⟨pre, post, hs', hsp⟩ := split_set_tail_cover h4 he hso hb hlt
        have hk : ¬ t ≤ k := by omega
        exact ⟨(k, i) :: pre, post, by simp [hs'], by simp [split_set, hk, hsp]⟩
    obtain ⟨pre, post, h5, h6⟩ := key
    exact ⟨pre, post, h5, h6, rfl, rfl, rfl, rfl, hmem.1, rfl, rfl, rfl, hmem.2, hperm⟩

/-- The witness of C7: the unsplit partition `[0, 10]` with tails at the times 1, 5 and 7 is
split at 4. -/
theorem split_set_spec_witness :
    ∃ pre post,
      [((10 : Int), { interval.new 0 10 with
          tails := [⟨0, 0, [(0, 1), (1, 1)]⟩, ⟨1, 0, [(0, 5), (1, 5)]⟩, ⟨2, 0, [(0, 7), (1, 7)]⟩],
          to_ := some 1 })]
        = pre ++ ((10 : Int), { interval.new 0 10 with
          tails := [⟨0, 0, [(0, 1), (1, 1)]⟩, ⟨1, 0, [(0, 5), (1, 5)]⟩, ⟨2, 0, [(0, 7), (1, 7)]⟩],
          to_ := some 1 }) :: post ∧
      split_set [((10 : Int), { interval.new 0 10 with
          tails := [⟨0, 0, [(0, 1), (1, 1)]⟩, ⟨1, 0, [(0, 5), (1, 5)]⟩, ⟨2, 0, [(0, 7), (1, 7)]⟩],
          to_ := some 1 })] 4
        = some (pre ++
          ((4 : Int), { interval.new 0 4 with tails := [⟨0, 0, [(0, 1), (1, 1)]⟩] }) ::
          ((10 : Int), { interval.new 5 10 with
            tails := [⟨1, 0, [(0, 5), (1, 5)]⟩, ⟨2, 0, [(0, 7), (1, 7)]⟩], to_ := some 1 }) ::
          post) := by
  obtain ⟨pre, post, h1, h2, _⟩ := split_set_spec
    { MAX_SYMBOL := 1, MIN_TIME := 0, MAX_TIME := 10, TIME_IQR25 := 2, TIME_IQR50 := 5,
      TIME_IQR75 := 7, MIN_DATA := 10 }
    [((10 : Int), { interval.new 0 10 with
          tails := [⟨0, 0, [(0, 1), (1, 1)]⟩, ⟨1, 0, [(0, 5), (1, 5)]⟩, ⟨2, 0, [(0, 7), (1, 7)]⟩],
          to_ := some 1 })] 4
    ((10 : Int), { interval.new 0 10 with
          tails := [⟨0, 0, [(0, 1), (1, 1)]⟩, ⟨1, 0, [(0, 5), (1, 5)]⟩, ⟨2, 0, [(0, 7), (1, 7)]⟩],
          to_ := some 1 })
    ⟨by decide, by
      intro e he
      simp only [List.mem_singleton] at he
      subst he
      refine ⟨by simp [tails_sorted, interval.new, timed_tail.get_time_value], ?_⟩
      intro x hx
      simp only [interval.new, List.mem_cons, List.mem_singleton, List.not_mem_nil,
        or_false] at hx
      rcases hx with rfl | rfl | rfl <;> simp [timed_tail.get_time_value, interval.new]⟩
    (by simp) (by decide) (by decide)
  exact ⟨pre, post, h1, h2⟩

/-- C8: `split_set` fails on its asserts exactly when the lower-bound lookup of `t` finds no
interval or finds one that does not satisfy `begin ≤ t < end`; the asserts precede every
write, so nothing has changed when it fails. In a valid partition this rejects every `t`
that is the end of an interval and every `t` beyond the last end. -/
theorem split_set_fails_iff (g : globals) (s : interval_set) (t : Int) :
    (split_set s t = none ↔
      ¬ ∃ e, lower_bound s t = some e ∧ e.2.begin ≤ t ∧ t < e.2.end_) ∧
    (partition_ok g s → (∀ e ∈ s, e.2.end_ = t → split_set s t = none) ∧
      (g.MAX_TIME < t → split_set s t = none)) := by
  have hiff : ∀ s : interval_set, split_set s t = none ↔
      ¬ ∃ e, lower_bound s t = some e ∧ e.2.begin ≤ t ∧ t < e.2.end_ := by
    intro s
    induction s with
    | nil => simp [split_set, lower_bound]
    | cons x rest ih =>
      obtain ⟨k, i⟩ := x
      by_cases hk : t ≤ k
      · by_cases hc : i.begin ≤ t ∧ t < i.end_
        · have : split_set ((k, i) :: rest) t ≠ none := by
            simp only [split_set, hk, hc, and_self, ↓reduceIte]
            split <;> simp
          simp only [this, false_iff, not_not]
          exact ⟨(k, i), by simp [lower_bound, hk], hc.1, hc.2⟩
        · have : split_set ((k, i) :: rest) t = none := by
            simp [split_set, hk, hc]
          simp only [this, true_iff]
          rintro ⟨e, he, h1, h2⟩
          simp only [lower_bound, hk, ↓reduceIte, Option.some.injEq] at he
          subst he
          exact hc ⟨h1, h2⟩
      · simp only [split_set, hk, ↓reduceIte, Option.map_eq_none', lower_bound]
        exact ih
  refine ⟨hiff s, ?_⟩
  intro hs
  constructor
  · intro e he het
    rw [hiff]
    rintro ⟨e', he', _, h2⟩
    have hk := (partition_ok_keys hs).1 e he
    have := lower_bound_of_key (partition_ok_keys hs).2 e he
    rw [hk.1, het] at this
    rw [this] at he'
    cases he'
    omega
  · intro ht
    rw [hiff]
    rintro ⟨e', he', _, _⟩
    have : lower_bound s t = none := lower_bound_none_of_gt (fun e he => by
      have := (partition_ok_keys hs).1 e he
      omega)
    rw [this] at he'
    cases he'

/-- The witness of C8: in the partition `[0, 4], [5, 10]` the splits at 4, at 10 and at 11
are rejected. -/
theorem split_set_fails_iff_witness :
    split_set [((4 : Int), interval.new 0 4), ((10 : Int), interval.new 5 10)] 4 = none ∧
    split_set [((4 : Int), interval.new 0 4), ((10 : Int), interval.new 5 10)] 10 = none ∧
    split_set [((4 : Int), interval.new 0 4), ((10 : Int), interval.new 5 10)] 11 = none := by
  refine ⟨?_, ?_, ?_⟩
  · exact ((split_set_fails_iff
      { MAX_SYMBOL := 1, MIN_TIME := 0, MAX_TIME := 10, TIME_IQR25 := 2,
        TIME_IQR50 := 5, TIME_IQR75 := 7, MIN_DATA := 10 }
      [((4 : Int), interval.new 0 4), ((10 : Int), interval.new 5 10)] 4).2 (by decide)).1
      ((4 : Int), interval.new 0 4) (by simp) rfl
  · exact ((split_set_fails_iff
      { MAX_SYMBOL := 1, MIN_TIME := 0, MAX_TIME := 10, TIME_IQR25 := 2,
        TIME_IQR50 := 5, TIME_IQR75 := 7, MIN_DATA := 10 }
      [((4 : Int), interval.new 0 4), ((10 : Int), interval.new 5 10)] 10).2 (by decide)).1
      ((10 : Int), interval.new 5 10) (by simp) rfl
  · exact ((split_set_fails_iff
      { MAX_SYMBOL := 1, MIN_TIME := 0, MAX_TIME := 10, TIME_IQR25 := 2,
        TIME_IQR50 := 5, TIME_IQR75 := 7, MIN_DATA := 10 }
      [((4 : Int), interval.new 0 4), ((10 : Int), interval.new 5 10)] 11).2 (by decide)).2
      (by decide)

end RTI


namespace RTI

theorem undo_split_set_cons_ne (x y : Int × interval) (rest : interval_set) (t : Int)
    (hk : x.1 ≠ t) :
    undo_split_set (x :: y :: rest) t
      = (undo_split_set (y :: rest) t).map (fun r => x :: r) := by
  obtain ⟨k, i⟩ := x
  obtain ⟨k2, i2⟩ := y
  simp only at hk
  rw [undo_split_set]
  simp [hk]

theorem undo_split_set_at {t : Int} (pre post : interval_set) (l r : Int × interval)
    (hl : l.1 = t)
    (hs : ((pre ++ l :: r :: post).map Prod.fst).Pairwise (fun a b => a < b)) :
    undo_split_set (pre ++ l :: r :: post) t = some (pre ++ (r.1, merged l.2 r.2) :: post) := by
  induction pre with
  | nil =>
    obtain ⟨kl, il⟩ := l
    obtain ⟨kr, ir⟩ := r
    simp only at hl
    simp [undo_split_set, hl, merged]
  | cons x pre ih =>
    simp only [List.cons_append, List.map_cons, List.pairwise_cons] at hs
    have hk : x.1 ≠ t := by
      have := hs.1 l.1 (by simp)
      omega
    have hrec := ih hs.2
    cases pre with
    | nil =>
      simp only [List.nil_append] at hrec
      simp only [List.cons_append, List.nil_append]
      rw [undo_split_set_cons_ne x l (r :: post) t hk, hrec]; rfl
    | cons y ys =>
      simp only [List.cons_append] at hrec
      simp only [List.cons_append]
      rw [undo_split_set_cons_ne x y _ t hk, hrec]; rfl

/-- C9: in a valid partition that contains an interval `L` ending at `t` with a right
neighbour `R`, `undo_split_set` removes `L` and gives `R` the begin of `L` and the tails of
both (as multisets, the union); the end, the target, the mark counter and the undo slots of
`R` stay as they are, and so does every other interval. -/
theorem undo_split_set_spec (g : globals) (pre post : interval_set) (l r : Int × interval)
    (t : Int) (hs : partition_ok g (pre ++ l :: r :: post)) (hl : l.2.end_ = t) :
    undo_split_set (pre ++ l :: r :: post) t = some (pre ++ (r.1, merged l.2 r.2) :: post) ∧
      (merged l.2 r.2).begin = l.2.begin ∧ (merged l.2 r.2).end_ = r.2.end_ ∧
      (merged l.2 r.2).to_ = r.2.to_ ∧ (merged l.2 r.2).num_marked = r.2.num_marked ∧
      (merged l.2 r.2).undo_to = r.2.undo_to ∧ (merged l.2 r.2).undo_tails = r.2.undo_tails ∧
      (merged l.2 r.2).tails.Perm (l.2.tails ++ r.2.tails) := by
  have hk := (partition_ok_keys hs).1 l (by simp)
  refine ⟨undo_split_set_at pre post l r (by omega) (partition_ok_keys hs).2,
    rfl, rfl, rfl, rfl, rfl, rfl, ?_⟩
  exact insert_tails_perm r.2.tails l.2.tails

/-- The witness of C9: the split at 4 of the partition `[0, 4], [5, 10]` is undone. -/
theorem undo_split_set_spec_witness :
    undo_split_set ([] ++
        ((4 : Int), { interval.new 0 4 with tails := [⟨0, 0, [(0, 1), (1, 1)]⟩] }) ::
        ((10 : Int), { interval.new 5 10 with
            tails := [⟨1, 0, [(0, 5), (1, 5)]⟩], to_ := some 1 }) :: []) 4
      = some ([] ++ ((10 : Int), merged
          { interval.new 0 4 with tails := [⟨0, 0, [(0, 1), (1, 1)]⟩] }
          { interval.new 5 10 with tails := [⟨1, 0, [(0, 5), (1, 5)]⟩], to_ := some 1 }) :: []) :=
  (undo_split_set_spec
    { MAX_SYMBOL := 1, MIN_TIME := 0, MAX_TIME := 10, TIME_IQR25 := 2, TIME_IQR50 := 5,
      TIME_IQR75 := 7, MIN_DATA := 10 }
    [] []
    ((4 : Int), { interval.new 0 4 with tails := [⟨0, 0, [(0, 1), (1, 1)]⟩] })
    ((10 : Int), { interval.new 5 10 with tails := [⟨1, 0, [(0, 5), (1, 5)]⟩], to_ := some 1 })
    4 (by decide) rfl).1

/-! ### Preservation of the partition invariants -/

theorem create_interval_set_valid (g : globals) : partition_valid g (create_interval_set g) := by
  refine ⟨⟨rfl, rfl, by simp, rfl⟩, ?_⟩
  intro e he
  simp only [create_interval_set, List.mem_singleton] at he
  subst he
  exact ⟨by simp [tails_sorted, interval.new], by simp [interval.new]⟩

theorem tails_sorted_sublist {a b : tail_set} (h : a.Sublist b) (hb : tails_sorted b) :
    tails_sorted a :=
  List.Pairwise.sublist h hb

theorem split_halves_ok {i : interval} (t : Int) (hi : interval_ok i) :
    interval_ok { interval.new i.begin t with tails := tails_upto i.tails t } ∧
    interval_ok { i with tails := tails_after i.tails t, begin := t + 1 } := by
  obtain ⟨hso, hbd⟩ := hi
  constructor
  · refine ⟨tails_sorted_sublist (List.takeWhile_sublist _) hso, ?_⟩
    intro x hx
    simp only [interval.new] at hx ⊢
    rw [tails_upto_eq_filter t hso, List.mem_filter] at hx
    exact ⟨(hbd x hx.1).1, by simpa using hx.2⟩
  · refine ⟨tails_sorted_sublist (List.dropWhile_sublist _) hso, ?_⟩
    intro x hx
    simp only at hx ⊢
    rw [tails_after_eq_filter t hso, List.mem_filter] at hx
    have : t < x.get_time_value := by simpa using hx.2
    exact ⟨by omega, (hbd x hx.1).2⟩

theorem split_set_tail_cover_valid {pe hi t : Int} {s s' : interval_set}
    (h : tail_cover pe s hi) (hv : ∀ e ∈ s, interval_ok e.2) (hsp : split_set s t = some s') :
    tail_cover pe s' hi ∧ (∀ e ∈ s', interval_ok e.2) ∧ s' ≠ [] := by
  induction s generalizing pe s' with
  | nil => simp [split_set] at hsp
  | cons x rest ih =>
    obtain ⟨k, i⟩ := x
    obtain ⟨h1, h2, h3, h4⟩ := h
    simp only [split_set] at hsp
    by_cases hk : t ≤ k
    · simp only [hk, ↓reduceIte] at hsp
      by_cases hc : i.begin ≤ t ∧ t < i.end_
      · have hne : k ≠ t := by omega
        simp only [hc, and_self, ↓reduceIte, hne, Option.some.injEq] at hsp
        subst hsp
        have hh := split_halves_ok t (hv (k, i) (List.mem_cons_self _ _))
        refine ⟨⟨h1, rfl, by simp only [interval.new]; omega, rfl, h2, hc.2, h4⟩, ?_, by simp⟩
        intro e he
        rcases List.mem_cons.1 he with rfl | he
        · exact hh.1
        · rcases List.mem_cons.1 he with rfl | he
          · exact hh.2
          · exact hv e (List.mem_cons_of_mem _ he)
      · simp [hc] at hsp
    · simp only [hk, ↓reduceIte, Option.map_eq_some'] at hsp
      obtain ⟨r, hr, rfl⟩ := hsp
      obtain ⟨a, b, _⟩ := ih h4 (fun e he => hv e (List.mem_cons_of_mem _ he)) hr
      refine ⟨⟨h1, h2, h3, a⟩, ?_, by simp⟩
      intro e he
      rcases List.mem_cons.1 he with rfl | he
      · exact hv _ (List.mem_cons_self _ _)
      · exact b e he

theorem split_set_valid {g : globals} {t : Int} {s s' : interval_set}
    (hs : partition_valid g s) (hsp : split_set s t = some s') : partition_valid g s' := by
  obtain ⟨hok, hv⟩ := hs
  cases s with
  | nil => simp [split_set] at hsp
  | cons x rest =>
    obtain ⟨k, i⟩ := x
    obtain ⟨h1, h2, h3, h4⟩ := hok
    simp only [split_set] at hsp
    by_cases hk : t ≤ k
    · simp only [hk, ↓reduceIte] at hsp
      by_cases hc : i.begin ≤ t ∧ t < i.end_
      · have hne : k ≠ t := by omega
        simp only [hc, and_self, ↓reduceIte, hne, Option.some.injEq] at hsp
        subst hsp
        have hh := split_halves_ok t (hv (k, i) (List.mem_cons_self _ _))
        refine ⟨⟨h1, rfl, fun _ => by simp only [interval.new]; omega,
          rfl, h2, hc.2, h4⟩, ?_⟩
        intro e he
        rcases List.mem_cons.1 he with rfl | he
        · exact hh.1
        · rcases List.mem_cons.1 he with rfl | he
          · exact hh.2
          · exact hv e (List.mem_cons_of_mem _ he)
      · simp [hc] at hsp
    · simp only [hk, ↓reduceIte, Option.map_eq_some'] at hsp
      obtain ⟨r, hr, rfl⟩ := hsp
      obtain ⟨a, b, c⟩ := split_set_tail_cover_valid h4
        (fun e he => hv e (List.mem_cons_of_mem _ he)) hr
      have hrest : rest ≠ [] := by
        rintro rfl
        simp [split_set] at hr
      refine ⟨⟨h1, h2, fun _ => h3 hrest, a⟩, ?_⟩
      intro e he
      rcases List.mem_cons.1 he with rfl | he
      · exact hv _ (List.mem_cons_self _ _)
      · exact b e he

theorem merged_ok {l r : interval} (hl : interval_ok l) (hr : interval_ok r)
    (hlr : r.begin = l.end_ + 1) (hle : l.begin ≤ l.end_ + 1) (hlt : l.end_ < r.end_) :
    interval_ok { r with tails := insert_tails r.tails l.tails, begin := l.begin } := by
  refine ⟨insert_tails_sorted _ hr.1, ?_⟩
  intro x hx
  simp only at hx ⊢
  rcases mem_insert_tails.1 hx with hx | hx
  · have := hl.2 x hx
    exact ⟨this.1, by omega⟩
  · have := hr.2 x hx
    exact ⟨by omega, this.2⟩

theorem undo_split_set_tail_cover_valid {pe hi t : Int} {s s' : interval_set}
    (h : tail_cover pe s hi) (hv : ∀ e ∈ s, interval_ok e.2)
    (hsp : undo_split_set s t = some s') :
    tail_cover pe s' hi ∧ (∀ e ∈ s', interval_ok e.2) ∧ s' ≠ [] := by
  induction s generalizing pe s' with
  | nil => simp [undo_split_set] at hsp
  | cons x rest ih =>
    cases rest with
    | nil => simp [undo_split_set] at hsp
    | cons y rest =>
      obtain ⟨k, old⟩ := x
      obtain ⟨k2, i⟩ := y
      obtain ⟨h1, h2, h3, h4, h5, h6, h7⟩ := h
      rw [undo_split_set] at hsp
      by_cases hk : k = t
      · simp only [hk, ↓reduceIte, Option.some.injEq] at hsp
        subst hsp
        refine ⟨⟨h1, h5, by show pe < i.end_; omega, h7⟩, ?_, by simp⟩
        intro e he
        rcases List.mem_cons.1 he with rfl | he
        · exact merged_ok (hv _ (List.mem_cons_self _ _))
            (hv _ (List.mem_cons_of_mem _ (List.mem_cons_self _ _))) h4 (by omega) h6
        · exact hv e (List.mem_cons_of_mem _ (List.mem_cons_of_mem _ he))
      · simp only [hk, ↓reduceIte, Option.map_eq_some'] at hsp
        obtain ⟨r, hr, rfl⟩ := hsp
        have hc : tail_cover old.end_ ((k2, i) :: rest) hi := ⟨h4, h5, h6, h7⟩
        obtain ⟨a, b, c⟩ := ih hc (fun e he => hv e (List.mem_cons_of_mem _ he)) hr
        refine ⟨⟨h1, h2, h3, a⟩, ?_, by simp⟩
        intro e he
        rcases List.mem_cons.1 he with rfl | he
        · exact hv _ (List.mem_cons_self _ _)
        · exact b e he

theorem undo_split_set_valid {g : globals} {t : Int} {s s' : interval_set}
    (hs : partition_valid g s) (hsp : undo_split_set s t = some s') :
    partition_valid g s' := by
  obtain ⟨hok, hv⟩ := hs
  cases s with
  | nil => simp [undo_split_set] at hsp
  | cons x rest =>
    cases rest with
    | nil => simp [undo_split_set] at hsp
    | cons y rest =>
      obtain ⟨k, old⟩ := x
      obtain ⟨k2, i⟩ := y
      obtain ⟨h1, h2, h3, h4, h5, h6, h7⟩ := hok
      have h3' := h3 (by simp)
      rw [undo_split_set] at hsp
      by_cases hk : k = t
      · simp only [hk, ↓reduceIte, Option.some.injEq] at hsp
        subst hsp
        refine ⟨⟨h1, h5, fun _ => by simp only; omega, h7⟩, ?_⟩
        intro e he
        rcases List.mem_cons.1 he with rfl | he
        · exact merged_ok (hv _ (List.mem_cons_self _ _))
            (hv _ (List.mem_cons_of_mem _ (List.mem_cons_self _ _))) h4 (by omega) h6
        · exact hv e (List.mem_cons_of_mem _ (List.mem_cons_of_mem _ he))
      · simp only [hk, ↓reduceIte, Option.map_eq_some'] at hsp
        obtain ⟨r, hr, rfl⟩ := hsp
        have hc : tail_cover old.end_ ((k2, i) :: rest) g.MAX_TIME := ⟨h4, h5, h6, h7⟩
        obtain ⟨a, b, c⟩ := undo_split_set_tail_cover_valid hc
          (fun e he => hv e (List.mem_cons_of_mem _ he)) hr
        refine ⟨⟨h1, h2, fun _ => h3', a⟩, ?_⟩
        intro e he
        rcases List.mem_cons.1 he with rfl | he
        · exact hv _ (List.mem_cons_self _ _)
        · exact b e he

/-! ### Writing through an interval pointer -/

theorem mem_update_interval {l : interval_set} {key : Int} {f : interval → interval}
    {e : Int × interval} (he : e ∈ update_interval l key f) :
    e ∈ l ∨ ∃ i, (key, i) ∈ l ∧ e = (key, f i) := by
  induction l with
  | nil => cases he
  | cons x rest ih =>
    obtain ⟨k, i⟩ := x
    simp only [update_interval] at he
    by_cases hk : k = key
    · simp only [hk, ↓reduceIte, List.mem_cons] at he
      rcases he with rfl | he
      · exact Or.inr ⟨i, by simp [hk], rfl⟩
      · exact Or.inl (List.mem_cons_of_mem _ he)
    · simp only [hk, ↓reduceIte, List.mem_cons] at he
      rcases he with rfl | he
      · exact Or.inl (List.mem_cons_self _ _)
      · rcases ih he with h | ⟨i', h1, h2⟩
        · exact Or.inl (List.mem_cons_of_mem _ h)
        · exact Or.inr ⟨i', List.mem_cons_of_mem _ h1, h2⟩

theorem update_interval_tail_cover {pe hi key : Int} {l : interval_set}
    {f : interval → interval} (hb : ∀ i, (f i).begin = i.begin) (he : ∀ i, (f i).end_ = i.end_)
    (h : tail_cover pe l hi) : tail_cover pe (update_interval l key f) hi := by
  induction l generalizing pe with
  | nil => exact h
  | cons x rest ih =>
    obtain ⟨k, i⟩ := x
    obtain ⟨h1, h2, h3, h4⟩ := h
    simp only [update_interval]
    by_cases hk : k = key
    · simp only [hk, ↓reduceIte]
      exact ⟨by rw [hb]; exact h1, by rw [he, ← hk]; exact h2, by rw [he]; exact h3,
        by rw [he]; exact h4⟩
    · simp only [hk, ↓reduceIte]
      exact ⟨h1, h2, h3, ih h4⟩

theorem update_interval_eq_nil {key : Int} {l : interval_set} {f : interval → interval} :
    update_interval l key f = [] ↔ l = [] := by
  cases l with
  | nil => simp [update_interval]
  | cons x rest =>
    obtain ⟨k, i⟩ := x
    simp only [update_interval]
    split <;> simp

theorem update_interval_partition_ok {g : globals} {key : Int} {l : interval_set}
    {f : interval → interval} (hb : ∀ i, (f i).begin = i.begin) (he : ∀ i, (f i).end_ = i.end_)
    (h : partition_ok g l) : partition_ok g (update_interval l key f) := by
  cases l with
  | nil => exact h
  | cons x rest =>
    obtain ⟨k, i⟩ := x
    obtain ⟨h1, h2, h3, h4⟩ := h
    simp only [update_interval]
    by_cases hk : k = key
    · simp only [hk, ↓reduceIte]
      exact ⟨by rw [hb]; exact h1, by rw [he, ← hk]; exact h2, by rw [he]; exact h3,
        by rw [he]; exact h4⟩
    · simp only [hk, ↓reduceIte]
      refine ⟨h1, h2, ?_, update_interval_tail_cover hb he h4⟩
      intro hne
      exact h3 (fun h => hne (update_interval_eq_nil.2 h))

theorem mem_unique_key {l : interval_set}
    (hs : (l.map Prod.fst).Pairwise (fun a b => a < b)) {k : Int} {i j : interval}
    (hi : (k, i) ∈ l) (hj : (k, j) ∈ l) : i = j := by
  induction l with
  | nil => cases hi
  | cons x rest ih =>
    simp only [List.map_cons, List.pairwise_cons] at hs
    rcases List.mem_cons.1 hi with h1 | h1
    · rcases List.mem_cons.1 hj with h2 | h2
      · rw [← h1] at h2
        cases h2
        rfl
      · have := hs.1 _ (List.mem_map_of_mem Prod.fst h2)
        rw [← h1] at this
        simp at this
    · rcases List.mem_cons.1 hj with h2 | h2
      · have := hs.1 _ (List.mem_map_of_mem Prod.fst h1)
        rw [← h2] at this
        simp at this
      · exact ih hs.2 h1 h2

theorem add_tail_interval_valid {g : globals} {l : interval_set} {tail : timed_tail}
    {e : Int × interval} (hl : partition_valid g l) (he : e ∈ l)
    (hb : e.2.begin ≤ tail.get_time_value) (hle : tail.get_time_value ≤ e.2.end_) :
    partition_valid g
      (update_interval l e.1 (fun i => { i with tails := add_tail_to_set i.tails tail })) := by
  refine ⟨update_interval_partition_ok (fun _ => rfl) (fun _ => rfl) hl.1, ?_⟩
  intro e' he'
  rcases mem_update_interval he' with h | ⟨i, h1, rfl⟩
  · exact hl.2 e' h
  · have hi : i = e.2 := mem_unique_key (partition_ok_keys hl.1).2 h1 he
    subst hi
    obtain ⟨hso, hbd⟩ := hl.2 e he
    refine ⟨add_tail_to_set_sorted tail hso, ?_⟩
    intro x hx
    rcases mem_add_tail_to_set.1 hx with rfl | hx
    · exact ⟨hb, hle⟩
    · exact hbd x hx

/-- `timed_state::add_tail` of a tail whose time lies in `[MIN_TIME, MAX_TIME]` and whose
symbol is below the size of `targets` returns, and keeps every partition of the state valid. -/
theorem add_tail_valid {g : globals} {s : timed_state} {tail : timed_tail}
    (hs : ∀ l ∈ s.targets, partition_valid g l)
    (h1 : g.MIN_TIME ≤ tail.get_time_value) (h2 : tail.get_time_value ≤ g.MAX_TIME)
    (hsym : tail.get_symbol < s.targets.length) :
    ∃ s', s.add_tail g tail = some s' ∧ ∀ l ∈ s'.targets, partition_valid g l := by
  have hget : s.targets[tail.get_symbol]? = some (s.targets[tail.get_symbol]) :=
    List.getElem?_eq_getElem hsym
  have hl := hs _ (List.getElem_mem hsym)
  obtain ⟨e, he1, he2, he3, he4, _⟩ := lower_bound_partition hl.1 h1 h2
  have hfind : s.find tail.get_symbol tail.get_time_value = some e := by
    simp [timed_state.find, timed_state.get_intervals, hget, find_interval, he1]
  have hadd : s.add_tail g tail = some
      { targets := (s.update tail.get_symbol e.1
          (fun i => { i with tails := add_tail_to_set i.tails tail })).targets
        stat := s.stat.add_count g tail } := by
    simp only [timed_state.add_tail, hfind]
  refine ⟨_, hadd, ?_⟩
  intro l hl'
  simp only [timed_state.update, hget] at hl'
  rcases List.mem_or_eq_of_mem_set hl' with h | h
  · exact hs l h
  · rw [h]
    exact add_tail_interval_valid hl he2 he3 he4

theorem new_state_valid (g : globals) : ∀ l ∈ (timed_state.new g).targets, partition_valid g l := by
  intro l hl
  rw [List.eq_of_mem_replicate hl]
  exact create_interval_set_valid g

/-- C10: the partition invariants (a contiguous, non-overlapping cover of
`[MIN_TIME, MAX_TIME]` keyed and ordered by end, every stored tail within the bounds of its
interval) hold for the partition `create_interval_set` builds, hence for a new state, and
are preserved by `split_set`, by `undo_split_set` and by `timed_state::add_tail` of a tail
whose time lies in `[MIN_TIME, MAX_TIME]`; `add_tail` returns whenever the symbol of the tail
is an index of `targets`. -/
theorem partition_invariants_preserved (g : globals) (s : interval_set) (t : Int)
    (st : timed_state) (tail : timed_tail) (hs : partition_valid g s)
    (hst : ∀ l ∈ st.targets, partition_valid g l)
    (h1 : g.MIN_TIME ≤ tail.get_time_value) (h2 : tail.get_time_value ≤ g.MAX_TIME) :
    partition_valid g (create_interval_set g) ∧
    (∀ l ∈ (timed_state.new g).targets, partition_valid g l) ∧
    (∀ s', split_set s t = some s' → partition_valid g s') ∧
    (∀ s', undo_split_set s t = some s' → partition_valid g s') ∧
    (∀ st', st.add_tail g tail = some st' → ∀ l ∈ st'.targets, partition_valid g l) ∧
    (tail.get_symbol < st.targets.length → ∃ st', st.add_tail g tail = some st') := by
  refine ⟨create_interval_set_valid g, new_state_valid g, fun s' h => split_set_valid hs h,
    fun s' h => undo_split_set_valid hs h, ?_, ?_⟩
  · intro st' hadd
    have hsym : tail.get_symbol < st.targets.length := by
      by_contra hcon
      have : st.targets[tail.get_symbol]? = none := List.getElem?_eq_none (by omega)
      simp [timed_state.add_tail, timed_state.find, timed_state.get_intervals, this] at hadd
    obtain ⟨st'', h3, h4⟩ := add_tail_valid hst h1 h2 hsym
    rw [h3] at hadd
    cases hadd
    exact h4
  · intro hsym
    obtain ⟨st', h3, _⟩ := add_tail_valid hst h1 h2 hsym
    exact ⟨st', h3⟩

/-- The witness of C10: the split at 4 of the partition of a new state is a valid partition,
and a tail with time 5 can be added to a new state. -/
theorem partition_invariants_preserved_witness :
    partition_valid example_globals
      [((4 : Int), interval.new 0 4), ((10 : Int), interval.new 5 10)] ∧
    ∃ st', (timed_state.new example_globals).add_tail example_globals
      ⟨0, 0, [(0, 5), (1, 5)]⟩ = some st' :=
  have h := partition_invariants_preserved example_globals
    (create_interval_set example_globals) 4 (timed_state.new example_globals)
    ⟨0, 0, [(0, 5), (1, 5)]⟩ (create_interval_set_valid example_globals)
    (new_state_valid example_globals) (by decide) (by decide)
  ⟨h.2.2.1 _ (by decide), h.2.2.2.2.2 (by decide)⟩

end RTI


namespace RTI

/-! ## The heap -/

namespace timed_automaton

@[simp] theorem store_mem (A : timed_automaton) (p : Nat) (s : timed_state) (q : Nat) :
    (A.store p s).mem q = if q = p then some s else A.mem q := rfl

@[simp] theorem store_next (A : timed_automaton) (p : Nat) (s : timed_state) :
    (A.store p s).next = A.next := rfl

@[simp] theorem store_states (A : timed_automaton) (p : Nat) (s : timed_state) :
    (A.store p s).states = A.states := rfl

@[simp] theorem store_marker (A : timed_automaton) (p : Nat) (s : timed_state) :
    (A.store p s).marker = A.marker := rfl

@[simp] theorem alloc_fst (g : globals) (A : timed_automaton) : (A.alloc g).1 = A.next := rfl

@[simp] theorem alloc_mem (g : globals) (A : timed_automaton) (q : Nat) :
    (A.alloc g).2.mem q = if q = A.next then some (timed_state.new g) else A.mem q := rfl

@[simp] theorem alloc_next (g : globals) (A : timed_automaton) :
    (A.alloc g).2.next = A.next + 1 := rfl

@[simp] theorem alloc_states (g : globals) (A : timed_automaton) :
    (A.alloc g).2.states = A.states := rfl

@[simp] theorem alloc_marker (g : globals) (A : timed_automaton) :
    (A.alloc g).2.marker = A.marker := rfl

@[simp] theorem free_mem (A : timed_automaton) (p q : Nat) :
    (A.free (some p)).mem q = if q = p then none else A.mem q := rfl

@[simp] theorem free_next (A : timed_automaton) (p : Option Nat) :
    (A.free p).next = A.next := by cases p <;> rfl

@[simp] theorem free_states (A : timed_automaton) (p : Option Nat) :
    (A.free p).states = A.states := by cases p <;> rfl

@[simp] theorem free_marker (A : timed_automaton) (p : Option Nat) :
    (A.free p).marker = A.marker := by cases p <;> rfl

@[simp] theorem free_none (A : timed_automaton) : A.free none = A := rfl

end timed_automaton

/-! ### States in the initial shape -/

theorem find_interval_single (k : Int) (I : interval) (time : Int) :
    find_interval [(k, I)] time = some (k, I) := by
  simp only [find_interval, lower_bound]
  split <;> rename_i h
  · split at h
    · exact h.symm
    · cases h
  · rfl

namespace timed_state

theorem unsplit_targets {g : globals} {s : timed_state} (h : s.unsplit g) {i : Nat}
    (hi : i < g.MAX_SYMBOL) : s.targets[i]? = some [(g.MAX_TIME, s.iv i)] := by
  obtain ⟨I, hI⟩ := h.2 i hi
  simp [iv, hI]

theorem unsplit_is_edge {g : globals} {s : timed_state} (h : s.unsplit g) {i : Nat}
    {e : Int × interval} : is_edge s i e ↔ i < g.MAX_SYMBOL ∧ e = (g.MAX_TIME, s.iv i) := by
  constructor
  · rintro ⟨l, hl, he⟩
    have hi : i < g.MAX_SYMBOL := by
      rw [← h.1]
      exact (List.getElem?_eq_some.1 hl).1
    rw [unsplit_targets h hi] at hl
    cases hl
    exact ⟨hi, by simpa using he⟩
  · rintro ⟨hi, rfl⟩
    exact ⟨_, unsplit_targets h hi, by simp⟩

theorem unsplit_find {g : globals} {s : timed_state} (h : s.unsplit g) {i : Nat}
    (hi : i < g.MAX_SYMBOL) (time : Int) : s.find i time = some (g.MAX_TIME, s.iv i) := by
  simp [find, get_intervals, unsplit_targets h hi, find_interval_single]

theorem unsplit_update_targets {g : globals} {s : timed_state} (h : s.unsplit g) {i : Nat}
    (hi : i < g.MAX_SYMBOL) (f : interval → interval) :
    (s.update i g.MAX_TIME f).targets = s.targets.set i [(g.MAX_TIME, f (s.iv i))] := by
  simp [update, unsplit_targets h hi, update_interval]

theorem unsplit_update {g : globals} {s : timed_state} (h : s.unsplit g) {i : Nat}
    (hi : i < g.MAX_SYMBOL) (f : interval → interval) :
    (s.update i g.MAX_TIME f).unsplit g := by
  rw [unsplit, unsplit_update_targets h hi]
  refine ⟨by simpa using h.1, ?_⟩
  intro j hj
  by_cases hij : i = j
  · subst hij
    exact ⟨_, List.getElem?_set_self (by rw [h.1]; exact hi)⟩
  · rw [List.getElem?_set_ne hij]
    exact h.2 j hj

theorem unsplit_update_iv {g : globals} {s : timed_state} (h : s.unsplit g) {i : Nat}
    (hi : i < g.MAX_SYMBOL) (f : interval → interval) (j : Nat) :
    (s.update i g.MAX_TIME f).iv j = if j = i then f (s.iv i) else s.iv j := by
  rw [iv, unsplit_update_targets h hi]
  by_cases hij : i = j
  · subst hij
    rw [List.getElem?_set_self (by rw [h.1]; exact hi)]
    simp
  · rw [List.getElem?_set_ne hij]
    have : ¬ j = i := fun h => hij h.symm
    simp [this, iv]

@[simp] theorem update_stat (s : timed_state) (i : Nat) (k : Int) (f : interval → interval) :
    (s.update i k f).stat = s.stat := by
  unfold update
  split <;> rfl

theorem unsplit_with_stat {g : globals} {s : timed_state} (h : s.unsplit g)
    (st : state_statistics) : ({ s with stat := st } : timed_state).unsplit g := h

@[simp] theorem with_stat_iv (s : timed_state) (st : state_statistics) (i : Nat) :
    ({ s with stat := st } : timed_state).iv i = s.iv i := rfl

theorem unsplit_ext {g : globals} {s s' : timed_state} (h : s.unsplit g) (h' : s'.unsplit g)
    (hst : s.stat = s'.stat) (hiv : ∀ i, i < g.MAX_SYMBOL → s.iv i = s'.iv i) : s = s' := by
  have ht : s.targets = s'.targets := by
    apply List.ext_getElem?
    intro i
    by_cases hi : i < g.MAX_SYMBOL
    · rw [unsplit_targets h hi, unsplit_targets h' hi, hiv i hi]
    · rw [List.getElem?_eq_none (by rw [h.1]; omega),
        List.getElem?_eq_none (by rw [h'.1]; omega)]
  cases s
  cases s'
  simp only at ht hst
  rw [ht, hst]

theorem new_unsplit (g : globals) : (timed_state.new g).unsplit g := by
  refine ⟨by simp [timed_state.new], ?_⟩
  intro i hi
  refine ⟨interval.new g.MIN_TIME g.MAX_TIME, ?_⟩
  simp [timed_state.new, create_interval_set, hi]

theorem new_iv (g : globals) {i : Nat} (hi : i < g.MAX_SYMBOL) :
    (timed_state.new g).iv i = interval.new g.MIN_TIME g.MAX_TIME := by
  simp [iv, timed_state.new, create_interval_set, hi]

end timed_state

/-! ### Reading and writing the intervals of a state in the initial shape -/

theorem interval_at_unsplit {g : globals} {A : timed_automaton} {a : Nat} {s : timed_state}
    (hm : A.mem a = some s) (h : s.unsplit g) {i : Nat} (hi : i < g.MAX_SYMBOL) (time : Int) :
    A.interval_at (some a) i time = some (⟨a, i, g.MAX_TIME⟩, s.iv i) := by
  simp [timed_automaton.interval_at, hm, timed_state.unsplit_find h hi]

theorem read_unsplit {g : globals} {A : timed_automaton} {a : Nat} {s : timed_state}
    (hm : A.mem a = some s) (h : s.unsplit g) {i : Nat} (hi : i < g.MAX_SYMBOL) :
    A.read ⟨a, i, g.MAX_TIME⟩ = some (s.iv i) := by
  simp [timed_automaton.read, hm, timed_state.get_intervals, timed_state.unsplit_targets h hi]

theorem write_eq {A : timed_automaton} {a : Nat} {s : timed_state} (hm : A.mem a = some s)
    (i : Nat) (k : Int) (f : interval → interval) :
    A.write ⟨a, i, k⟩ f = some (A.store a (s.update i k f)) := by
  simp [timed_automaton.write, hm]

theorem update_stat_eq {A : timed_automaton} {a : Nat} {s : timed_state}
    (hm : A.mem a = some s) (f : state_statistics → state_statistics) :
    A.update_stat (some a) f = some (A.store a { s with stat := f s.stat }) := by
  simp [timed_automaton.update_stat, hm]

/-! ### The representation of a tree -/

theorem rep_root {A : timed_automaton} {p : Option Nat} {t : state_tree} (h : rep A p t) :
    p = t.root := by
  cases t with
  | null => exact h
  | node a s kid => exact h.1

theorem rep_frame {A B : timed_automaton} {p : Option Nat} {t : state_tree}
    (h : rep A p t) (hf : ∀ r, r ∈ t.addrs → B.mem r = A.mem r) : rep B p t := by
  induction t generalizing p with
  | null => exact h
  | node a s kid ih =>
    obtain ⟨h1, h2, h3⟩ := h
    refine ⟨h1, ?_, ?_⟩
    · rw [hf a (Or.inl rfl)]
      exact h2
    · intro i e he
      exact ih i e.1 (h3 i e he) (fun r hr => hf r (Or.inr ⟨i, e, he, hr⟩))

theorem rep_null {A : timed_automaton} {t : state_tree} (h : rep A none t) :
    t = state_tree.null := by
  cases t with
  | null => rfl
  | node a s kid => exact absurd h.1 (by simp)

theorem rep_some {A : timed_automaton} {a : Nat} {t : state_tree} (h : rep A (some a) t) :
    ∃ s kid, t = state_tree.node a s kid ∧ A.mem a = some s ∧
      ∀ i e, is_edge s i e → rep A e.2.to_ (kid i e.1) := by
  cases t with
  | null => exact absurd h (by simp [rep])
  | node b s kid =>
    obtain ⟨h1, h2, h3⟩ := h
    cases h1
    exact ⟨s, kid, rfl, h2, h3⟩

end RTI


namespace RTI

/-! ### The counters -/

theorem bump_bump_cancel (l : List Int) (i : Nat) (d : Int) : bump (bump l i d) i (-d) = l := by
  induction l generalizing i with
  | nil => rfl
  | cons x xs ih =>
    cases i with
    | zero => simp [bump]
    | succ i => simp [bump, ih]

theorem bump_comm (l : List Int) (i j : Nat) (d e : Int) :
    bump (bump l i d) j e = bump (bump l j e) i d := by
  induction l generalizing i j with
  | nil => rfl
  | cons x xs ih =>
    cases i with
    | zero =>
      cases j with
      | zero => simp only [bump]; rw [add_right_comm]
      | succ j => simp [bump]
    | succ i =>
      cases j with
      | zero => simp [bump]
      | succ j => simp [bump, ih]

namespace state_statistics

theorem del_add_count (g : globals) (s : state_statistics) (t : timed_tail) :
    del_count g (add_count g s t) t = s := by
  cases s
  simp only [add_count, del_count]
  have h1 := fun l i => bump_bump_cancel l i (1 : Int)
  simp [h1]

theorem add_del_count (g : globals) (s : state_statistics) (t : timed_tail) :
    add_count g (del_count g s t) t = s := by
  cases s
  simp only [add_count, del_count]
  have h1 := fun l i => bump_bump_cancel l i (-1 : Int)
  simp only [neg_neg] at h1
  simp [h1]

theorem add_count_comm (g : globals) (s : state_statistics) (t u : timed_tail) :
    add_count g (add_count g s t) u = add_count g (add_count g s u) t := by
  cases s
  simp only [add_count]
  rw [bump_comm _ t.get_symbol, bump_comm _ (get_bar g t.get_time_value)]

theorem del_count_comm (g : globals) (s : state_statistics) (t u : timed_tail) :
    del_count g (del_count g s t) u = del_count g (del_count g s u) t := by
  cases s
  simp only [del_count]
  rw [bump_comm _ t.get_symbol, bump_comm _ (get_bar g t.get_time_value)]

theorem add_del_count_comm (g : globals) (s : state_statistics) (t u : timed_tail) :
    add_count g (del_count g s t) u = del_count g (add_count g s u) t := by
  cases s
  simp only [add_count, del_count]
  rw [bump_comm _ t.get_symbol, bump_comm _ (get_bar g t.get_time_value)]
  congr 1
  omega

end state_statistics

theorem add_counts_perm (g : globals) (s : state_statistics) {l l' : List timed_tail}
    (h : l.Perm l') : add_counts g s l = add_counts g s l' :=
  List.Perm.foldl_eq' h (fun x _ y _ z => state_statistics.add_count_comm g z x y) s

theorem del_counts_perm (g : globals) (s : state_statistics) {l l' : List timed_tail}
    (h : l.Perm l') : del_counts g s l = del_counts g s l' :=
  List.Perm.foldl_eq' h (fun x _ y _ z => state_statistics.del_count_comm g z x y) s

theorem add_counts_append (g : globals) (s : state_statistics) (l l' : List timed_tail) :
    add_counts g s (l ++ l') = add_counts g (add_counts g s l) l' := by
  simp [add_counts]

theorem add_counts_del_count (g : globals) (s : state_statistics) (t : timed_tail)
    (l : List timed_tail) :
    add_counts g (s.del_count g t) l = (add_counts g s l).del_count g t := by
  induction l generalizing s with
  | nil => rfl
  | cons x xs ih =>
    simp only [add_counts, List.foldl_cons] at ih ⊢
    rw [state_statistics.add_del_count_comm, ih]

theorem add_counts_del_counts (g : globals) (s : state_statistics) (l : List timed_tail) :
    add_counts g (del_counts g s l) l = s := by
  induction l generalizing s with
  | nil => rfl
  | cons x xs ih =>
    have h1 : del_counts g s (x :: xs) = del_counts g (s.del_count g x) xs := rfl
    have h2 : add_counts g (del_counts g (s.del_count g x) xs) (x :: xs)
        = add_counts g ((del_counts g (s.del_count g x) xs).add_count g x) xs := rfl
    rw [h1, h2]
    have h3 : ∀ (s' : state_statistics),
        add_counts g (s'.add_count g x) xs = (add_counts g s' xs).add_count g x := by
      intro s'
      have := add_counts_perm g s' (@List.perm_append_comm _ [x] xs)
      simpa [add_counts] using this
    rw [h3, ih, state_statistics.add_del_count]

theorem add_counts_del_counts_perm (g : globals) (s : state_statistics)
    {l l' : List timed_tail} (h : l.Perm l') : add_counts g (del_counts g s l) l' = s := by
  rw [← add_counts_perm g _ h, add_counts_del_counts]

/-! ### `add_tail` and `del_tail` in the initial shape -/

namespace timed_state

theorem add_tail_unsplit {g : globals} {s : timed_state} (h : s.unsplit g) {tail : timed_tail}
    (hs : tail.get_symbol < g.MAX_SYMBOL) : s.add_tail g tail = some (s.put g tail) := by
  simp only [add_tail, unsplit_find h hs, put]

theorem del_tail_unsplit {g : globals} {s : timed_state} (h : s.unsplit g) {tail : timed_tail}
    (hs : tail.get_symbol < g.MAX_SYMBOL) (hm : tail ∈ (s.iv tail.get_symbol).tails) :
    s.del_tail g tail = some (s.take g tail) := by
  simp only [del_tail, unsplit_find h hs, del_tail_from_set, hm, ↓reduceIte, take]
  rw [unsplit_update_targets h hs, unsplit_update_targets h hs]

theorem put_unsplit {g : globals} {s : timed_state} (h : s.unsplit g) {tail : timed_tail}
    (hs : tail.get_symbol < g.MAX_SYMBOL) : (s.put g tail).unsplit g :=
  unsplit_update h hs _

theorem take_unsplit {g : globals} {s : timed_state} (h : s.unsplit g) {tail : timed_tail}
    (hs : tail.get_symbol < g.MAX_SYMBOL) : (s.take g tail).unsplit g :=
  unsplit_update h hs _

theorem put_iv {g : globals} {s : timed_state} (h : s.unsplit g) {tail : timed_tail}
    (hs : tail.get_symbol < g.MAX_SYMBOL) (j : Nat) :
    (s.put g tail).iv j = if j = tail.get_symbol
      then { s.iv j with tails := add_tail_to_set (s.iv j).tails tail } else s.iv j := by
  have := unsplit_update_iv h hs
    (fun i => { i with tails := add_tail_to_set i.tails tail }) j
  simp only [put]
  rw [show ∀ (t : List interval_set) (st : state_statistics),
    ({ targets := t, stat := st } : timed_state).iv j
      = ({ targets := t, stat := s.stat } : timed_state).iv j from fun _ _ => rfl]
  split
  · rename_i hj
    subst hj
    simpa using this
  · rename_i hj
    simpa [hj] using this

theorem take_iv {g : globals} {s : timed_state} (h : s.unsplit g) {tail : timed_tail}
    (hs : tail.get_symbol < g.MAX_SYMBOL) (j : Nat) :
    (s.take g tail).iv j = if j = tail.get_symbol
      then { s.iv j with tails := (s.iv j).tails.erase tail } else s.iv j := by
  have := unsplit_update_iv h hs (fun i => { i with tails := i.tails.erase tail }) j
  simp only [take]
  rw [show ∀ (t : List interval_set) (st : state_statistics),
    ({ targets := t, stat := st } : timed_state).iv j
      = ({ targets := t, stat := s.stat } : timed_state).iv j from fun _ _ => rfl]
  split
  · rename_i hj
    subst hj
    simpa using this
  · rename_i hj
    simpa [hj] using this

end timed_state

end RTI


namespace RTI

/-! ### The first loop of `recurse_split` -/

theorem count_add_tail_to_set (l : tail_set) (t x : timed_tail) :
    (add_tail_to_set l t).count x = l.count x + if t = x then 1 else 0 := by
  rw [(add_tail_to_set_perm l t).count_eq, List.count_cons]
  simp

theorem count_insert_tails (l r : tail_set) (x : timed_tail) :
    (insert_tails l r).count x = l.count x + r.count x := by
  rw [(insert_tails_perm l r).count_eq, List.count_append, Nat.add_comm]

theorem count_erase_tail (l : tail_set) (t x : timed_tail) :
    (l.erase t).count x = l.count x - if t = x then 1 else 0 := by
  rw [List.count_erase]
  simp

theorem nexts_cons (x : timed_tail) (X : List timed_tail) :
    nexts (x :: X) = match x.next_tail with
      | none => nexts X
      | some nx => nx :: nexts X := by
  simp only [nexts, List.filterMap_cons]
  split <;> simp_all

namespace timed_state

theorem puts_spec {g : globals} (L : List timed_tail) {s : timed_state} (h : s.unsplit g)
    (hs : ∀ x ∈ L, x.get_symbol < g.MAX_SYMBOL) :
    (s.puts g L).unsplit g ∧ (s.puts g L).stat = add_counts g s.stat L ∧
      ∀ j, ∃ ts, (s.puts g L).iv j = { s.iv j with tails := ts } ∧
        ∀ x, ts.count x = (s.iv j).tails.count x + if x.get_symbol = j then L.count x else 0 := by
  induction L generalizing s with
  | nil =>
    refine ⟨h, rfl, fun j => ⟨(s.iv j).tails, rfl, fun x => ?_⟩⟩
    simp
  | cons t L ih =>
    have ht := hs t (List.mem_cons_self _ _)
    obtain ⟨h1, h2, h3⟩ := ih (put_unsplit h ht) (fun x hx => hs x (List.mem_cons_of_mem _ hx))
    refine ⟨h1, ?_, ?_⟩
    · exact h2
    · intro j
      obtain ⟨ts, hts, hc⟩ := h3 j
      refine ⟨ts, ?_, ?_⟩
      · show ((s.put g t).puts g L).iv j = _
        rw [hts, put_iv h ht]
        split <;> rfl
      · intro x
        rw [hc, put_iv h ht, List.count_cons]
        by_cases hj : j = t.get_symbol
        · subst hj
          simp only [↓reduceIte, count_add_tail_to_set, beq_iff_eq]
          by_cases hx : t = x
          · subst hx
            simp
            omega
          · simp [hx]
        · simp only [hj, ↓reduceIte, beq_iff_eq]
          by_cases hx : t = x
          · subst hx
            have : ¬ t.get_symbol = j := fun h => hj h.symm
            simp [this]
          · simp [hx]

theorem takes_spec {g : globals} (L : List timed_tail) {s : timed_state} (h : s.unsplit g)
    (hs : ∀ x ∈ L, x.get_symbol < g.MAX_SYMBOL)
    (hc : ∀ x, L.count x ≤ (s.iv x.get_symbol).tails.count x) :
    (s.takes g L).unsplit g ∧ (s.takes g L).stat = del_counts g s.stat L ∧
      ∀ j, ∃ ts, (s.takes g L).iv j = { s.iv j with tails := ts } ∧
        ∀ x, ts.count x + (if x.get_symbol = j then L.count x else 0)
          = (s.iv j).tails.count x := by
  induction L generalizing s with
  | nil =>
    refine ⟨h, rfl, fun j => ⟨(s.iv j).tails, rfl, fun x => ?_⟩⟩
    simp
  | cons t L ih =>
    have ht := hs t (List.mem_cons_self _ _)
    have hc' : ∀ x, L.count x ≤ ((s.take g t).iv x.get_symbol).tails.count x := by
      intro x
      have := hc x
      rw [List.count_cons] at this
      rw [take_iv h ht]
      by_cases hx : t = x
      · subst hx
        simp only [↓reduceIte, count_erase_tail]
        simp at this
        omega
      · by_cases hj : x.get_symbol = t.get_symbol
        · simp only [hj, ↓reduceIte, count_erase_tail, hx]
          simp [hx] at this
          rw [hj] at this
          omega
        · simp only [hj, ↓reduceIte]
          simp [hx] at this
          exact this
    obtain ⟨h1, h2, h3⟩ := ih (take_unsplit h ht)
      (fun x hx => hs x (List.mem_cons_of_mem _ hx)) hc'
    refine ⟨h1, h2, ?_⟩
    intro j
    obtain ⟨ts, hts, hcs⟩ := h3 j
    refine ⟨ts, ?_, ?_⟩
    · show ((s.take g t).takes g L).iv j = _
      rw [hts, take_iv h ht]
      split <;> rfl
    · intro x
      have h4 := hcs x
      rw [take_iv h ht] at h4
      have h5 := hc x
      rw [List.count_cons] at h5 ⊢
      by_cases hj : j = t.get_symbol
      · subst hj
        simp only [↓reduceIte, count_erase_tail] at h4
        by_cases hx : t = x
        · subst hx
          simp only [↓reduceIte, beq_self_eq_true] at h4 h5 ⊢
          omega
        · simp only [hx, ↓reduceIte, beq_iff_eq, Nat.sub_zero, Nat.add_zero] at h4 h5 ⊢
          exact h4
      · simp only [hj, ↓reduceIte] at h4
        by_cases hx : t = x
        · subst hx
          have hne : ¬ t.get_symbol = j := fun h => hj h.symm
          simp only [hne, ↓reduceIte] at h4 ⊢
          exact h4
        · simp only [hx, ↓reduceIte, beq_iff_eq, Nat.add_zero] at h4 h5 ⊢
          exact h4

end timed_state

theorem move_next_tails_spec {g : globals} (X : List timed_tail) {A : timed_automaton}
    {T N : Nat} {sT sN : timed_state} (hT : A.mem T = some sT) (hN : A.mem N = some sN)
    (hne : T ≠ N) (hsT : sT.unsplit g) (hsN : sN.unsplit g)
    (hs : ∀ x ∈ nexts X, x.get_symbol < g.MAX_SYMBOL)
    (hc : ∀ x, (nexts X).count x ≤ (sT.iv x.get_symbol).tails.count x) :
    ∃ A1, move_next_tails g (some T) (some N) A X = some A1 ∧
      A1.mem T = some (sT.takes g (nexts X)) ∧ A1.mem N = some (sN.puts g (nexts X)) ∧
      (∀ r, r ≠ T → r ≠ N → A1.mem r = A.mem r) ∧ A1.next = A.next ∧
      A1.states = A.states ∧ A1.marker = A.marker ∧ A1.root = A.root := by
  induction X generalizing A sT sN with
  | nil => exact ⟨A, rfl, hT, hN, fun _ _ _ => rfl, rfl, rfl, rfl, rfl⟩
  | cons x X ih =>
    rw [nexts_cons] at hs hc
    simp only [move_next_tails]
    cases hx : x.next_tail with
    | none =>
      simp only [hx] at hs hc
      obtain ⟨A1, h1, h2, h3, h4⟩ := ih hT hN hsT hsN hs hc
      refine ⟨A1, h1, ?_, ?_, h4⟩
      · rw [nexts_cons, hx]; exact h2
      · rw [nexts_cons, hx]; exact h3
    | some nx =>
      simp only [hx] at hs hc
      have hnx := hs nx (List.mem_cons_self _ _)
      have hmem : nx ∈ (sT.iv nx.get_symbol).tails := by
        have := hc nx
        rw [List.count_cons_self] at this
        exact List.count_pos_iff.1 (by omega)
      have hdel : A.del_tail g (some T) nx = some (A.store T (sT.take g nx)) := by
        simp [timed_automaton.del_tail, hT, timed_state.del_tail_unsplit hsT hnx hmem]
      have hN' : (A.store T (sT.take g nx)).mem N = some sN := by
        rw [timed_automaton.store_mem, if_neg (fun h => hne h.symm)]
        exact hN
      have hadd : (A.store T (sT.take g nx)).add_tail g (some N) nx
          = some ((A.store T (sT.take g nx)).store N (sN.put g nx)) := by
        unfold timed_automaton.add_tail
        simp only [hN', Option.some_bind, timed_state.add_tail_unsplit hsN hnx, Option.map_some']
      have hc' : ∀ y, (nexts X).count y ≤ ((sT.take g nx).iv y.get_symbol).tails.count y := by
        intro y
        have := hc y
        rw [List.count_cons] at this
        rw [timed_state.take_iv hsT hnx]
        by_cases hy : nx = y
        · subst hy
          simp only [↓reduceIte, count_erase_tail]
          simp at this
          omega
        · by_cases hj : y.get_symbol = nx.get_symbol
          · simp only [hj, ↓reduceIte, count_erase_tail, hy]
            simp [hy] at this
            rw [hj] at this
            omega
          · simp only [hj, ↓reduceIte]
            simp [hy] at this
            exact this
      obtain ⟨A1, h1, h2, h3, h4, h5, h6, h7⟩ :=
        @ih ((A.store T (sT.take g nx)).store N (sN.put g nx)) (sT.take g nx) (sN.put g nx)
          (by simp [hne]) (by simp) (timed_state.take_unsplit hsT hnx)
          (timed_state.put_unsplit hsN hnx)
          (fun y hy => hs y (List.mem_cons_of_mem _ hy)) hc'
      refine ⟨A1, ?_, ?_, ?_, ?_, h5, h6, h7⟩
      · simp only [hdel, hadd, Option.bind_some, Option.some_bind]
        exact h1
      · rw [nexts_cons, hx]; exact h2
      · rw [nexts_cons, hx]; exact h3
      · intro r hrT hrN
        rw [h4 r hrT hrN]
        simp [hrT, hrN]

end RTI


namespace RTI

/-! ### Loops over the symbols -/

theorem foldlM_range_inv {α : Type} (f : α → Nat → Option α) (Inv : Nat → α → Prop) (n : Nat)
    (a0 : α) (h0 : Inv 0 a0)
    (hstep : ∀ k a, k < n → Inv k a → ∃ b, f a k = some b ∧ Inv (k + 1) b) :
    ∃ b, (List.range n).foldlM f a0 = some b ∧ Inv n b := by
  induction n with
  | zero => exact ⟨a0, rfl, h0⟩
  | succ n ih =>
    obtain ⟨b, hb, hI⟩ := ih (fun k a hk => hstep k a (Nat.lt_succ_of_lt hk))
    obtain ⟨c, hc, hJ⟩ := hstep n b (Nat.lt_succ_self n) hI
    refine ⟨c, ?_, hJ⟩
    rw [List.range_succ, List.foldlM_append, hb]
    simp [hc]

theorem foldlM_range_reverse_inv {α : Type} (f : α → Nat → Option α) (Inv : Nat → α → Prop)
    (n : Nat) (a0 : α) (h0 : Inv n a0)
    (hstep : ∀ k a, k < n → Inv (k + 1) a → ∃ b, f a k = some b ∧ Inv k b) :
    ∃ b, (List.range n).reverse.foldlM f a0 = some b ∧ Inv 0 b := by
  induction n generalizing a0 with
  | zero => exact ⟨a0, rfl, h0⟩
  | succ n ih =>
    obtain ⟨b, hb, hI⟩ := hstep n a0 (Nat.lt_succ_self n) h0
    obtain ⟨c, hc, hJ⟩ := ih b hI (fun k a hk => hstep k a (Nat.lt_succ_of_lt hk))
    refine ⟨c, ?_, hJ⟩
    rw [List.range_succ, List.reverse_append, List.reverse_singleton, List.singleton_append,
      List.foldlM_cons, hb]
    exact hc

/-! ### Trees whose root is in the initial shape -/

theorem rep_unsplit {g : globals} {A : timed_automaton} {p : Option Nat} {a : Nat}
    {s : timed_state} {kid : Nat → Int → state_tree} (h : s.unsplit g) :
    rep A p (state_tree.node a s kid) ↔ p = some a ∧ A.mem a = some s ∧
      ∀ i, i < g.MAX_SYMBOL → rep A (s.iv i).to_ (kid i g.MAX_TIME) := by
  simp only [rep]
  constructor
  · rintro ⟨h1, h2, h3⟩
    exact ⟨h1, h2, fun i hi => h3 i (g.MAX_TIME, s.iv i)
      ((timed_state.unsplit_is_edge h).2 ⟨hi, rfl⟩)⟩
  · rintro ⟨h1, h2, h3⟩
    refine ⟨h1, h2, fun i e he => ?_⟩
    obtain ⟨hi, rfl⟩ := (timed_state.unsplit_is_edge h).1 he
    exact h3 i hi

theorem mem_addrs_unsplit {g : globals} {a : Nat} {s : timed_state}
    {kid : Nat → Int → state_tree} (h : s.unsplit g) {r : Nat} :
    r ∈ (state_tree.node a s kid).addrs ↔
      r = a ∨ ∃ i, i < g.MAX_SYMBOL ∧ r ∈ (kid i g.MAX_TIME).addrs := by
  simp only [state_tree.addrs, Set.mem_setOf_eq]
  constructor
  · rintro (h1 | ⟨i, e, he, hr⟩)
    · exact Or.inl h1
    · obtain ⟨hi, rfl⟩ := (timed_state.unsplit_is_edge h).1 he
      exact Or.inr ⟨i, hi, hr⟩
  · rintro (h1 | ⟨i, hi, hr⟩)
    · exact Or.inl h1
    · exact Or.inr ⟨i, (g.MAX_TIME, s.iv i), (timed_state.unsplit_is_edge h).2 ⟨hi, rfl⟩, hr⟩

theorem wf_unsplit {g : globals} {a : Nat} {s : timed_state}
    {kid : Nat → Int → state_tree} (h : s.unsplit g) :
    (state_tree.node a s kid).wf ↔
      (∀ i, i < g.MAX_SYMBOL → a ∉ (kid i g.MAX_TIME).addrs ∧ (kid i g.MAX_TIME).wf) ∧
      ∀ i j, i < g.MAX_SYMBOL → j < g.MAX_SYMBOL → i ≠ j →
        Disjoint (kid i g.MAX_TIME).addrs (kid j g.MAX_TIME).addrs := by
  simp only [state_tree.wf]
  constructor
  · rintro ⟨h1, h2⟩
    refine ⟨fun i hi => h1 i (g.MAX_TIME, s.iv i)
      ((timed_state.unsplit_is_edge h).2 ⟨hi, rfl⟩), fun i j hi hj hij => ?_⟩
    exact h2 i (g.MAX_TIME, s.iv i) j (g.MAX_TIME, s.iv j)
      ((timed_state.unsplit_is_edge h).2 ⟨hi, rfl⟩)
      ((timed_state.unsplit_is_edge h).2 ⟨hj, rfl⟩) (by simp [hij])
  · rintro ⟨h1, h2⟩
    refine ⟨fun i e he => ?_, fun i e j e' he he' hne => ?_⟩
    · obtain ⟨hi, rfl⟩ := (timed_state.unsplit_is_edge h).1 he
      exact h1 i hi
    · obtain ⟨hi, rfl⟩ := (timed_state.unsplit_is_edge h).1 he
      obtain ⟨hj, rfl⟩ := (timed_state.unsplit_is_edge h).1 he'
      exact h2 i j hi hj (fun hij => hne (by simp [hij]))

theorem fits_unsplit {g : globals} {a : Nat} {s : timed_state}
    {kid : Nat → Int → state_tree} (h : s.unsplit g) {n : Nat} :
    (state_tree.node a s kid).fits n ↔
      ∃ m, n = m + 1 ∧ ∀ i, i < g.MAX_SYMBOL → (kid i g.MAX_TIME).fits m := by
  simp only [state_tree.fits]
  constructor
  · rintro ⟨m, hm, h1⟩
    exact ⟨m, hm, fun i hi => h1 i (g.MAX_TIME, s.iv i)
      ((timed_state.unsplit_is_edge h).2 ⟨hi, rfl⟩)⟩
  · rintro ⟨m, hm, h1⟩
    refine ⟨m, hm, fun i e he => ?_⟩
    obtain ⟨hi, rfl⟩ := (timed_state.unsplit_is_edge h).1 he
    exact h1 i hi

theorem fits_mono {t : state_tree} {n m : Nat} (h : t.fits n) (hnm : n ≤ m) : t.fits m := by
  induction t generalizing n m with
  | null => trivial
  | node a s kid ih =>
    obtain ⟨k, hk, h1⟩ := h
    obtain ⟨m', rfl⟩ : ∃ m', m = m' + 1 := ⟨m - 1, by omega⟩
    exact ⟨m', rfl, fun i e he => ih i e.1 (h1 i e he) (by omega)⟩

/-! ### Prefix trees -/

theorem nexts_count_le {X P : List timed_tail} (h : ∀ x, X.count x ≤ P.count x)
    (y : timed_tail) : (nexts X).count y ≤ (nexts P).count y := by
  obtain ⟨l, hl, hs⟩ : List.Subperm X P := List.subperm_ext_iff.2 (fun x _ => h x)
  have h1 : (nexts X).count y = (nexts l).count y :=
    ((hl.filterMap timed_tail.next_tail).count_eq y).symm
  rw [h1]
  exact (hs.filterMap timed_tail.next_tail).count_le y

theorem placed_node {g : globals} {t : state_tree} {P : List timed_tail}
    (h : t.placed g P) (hP : P ≠ []) : ∃ a s kid, t = state_tree.node a s kid := by
  cases t with
  | null => exact absurd h hP
  | node a s kid => exact ⟨a, s, kid, rfl⟩

theorem placed_mono {g : globals} {a : Nat} {s : timed_state} {kid : Nat → Int → state_tree}
    {X P : List timed_tail} (h : (state_tree.node a s kid).placed g P)
    (hXP : ∀ x, X.count x ≤ P.count x) : (state_tree.node a s kid).placed g X := by
  obtain ⟨h1, h2, h3, h4⟩ := h
  refine ⟨h1, fun x hx => h2 x ?_, fun x => le_trans (nexts_count_le hXP x) (h3 x), h4⟩
  have := nexts_count_le hXP x
  have hpos : 0 < (nexts X).count x := List.count_pos_iff.2 hx
  exact List.count_pos_iff.1 (by omega)

end RTI


namespace RTI

/-! ### The loop over the symbols in `recurse_split` -/

theorem kid_addrs_subset {g : globals} {a : Nat} {s : timed_state}
    {kid : Nat → Int → state_tree} (h : s.unsplit g) {i : Nat} (hi : i < g.MAX_SYMBOL)
    {r : Nat} (hr : r ∈ (kid i g.MAX_TIME).addrs) : r ∈ (state_tree.node a s kid).addrs :=
  (mem_addrs_unsplit h).2 (Or.inr ⟨i, hi, hr⟩)

theorem root_mem_addrs (a : Nat) (s : timed_state) (kid : Nat → Int → state_tree) :
    a ∈ (state_tree.node a s kid).addrs := Or.inl rfl

theorem split_done_frame {g : globals} {lo hi hi' : Nat} {B B' : timed_automaton}
    {c cn co : state_tree} {iT0 iN1 iT1 iN iT : interval}
    (h : split_done g lo hi B c cn co iT0 iN1 iT1 iN iT) (hhi : hi ≤ hi')
    (hf : ∀ r, (r ∈ c.addrs ∨ (lo ≤ r ∧ r < hi)) → B'.mem r = B.mem r) :
    split_done g lo hi' B' c cn co iT0 iN1 iT1 iN iT := by
  obtain ⟨h1, h2, h3, h4, h5, h6, h7, h8⟩ := h
  refine ⟨rep_frame h1 (fun r hr => hf r (h6 r hr)),
    rep_frame h2 (fun r hr => hf r (Or.inl (h7 r hr))), h3, h4, h5, ?_, h7, h8⟩
  intro r hr
  rcases h6 r hr with h | ⟨h, h'⟩
  · exact Or.inl h
  · exact Or.inr ⟨h, lt_of_lt_of_le h' hhi⟩

theorem split_done_lo {g : globals} {lo lo' hi : Nat} {B : timed_automaton}
    {c cn co : state_tree} {iT0 iN1 iT1 iN iT : interval}
    (h : split_done g lo hi B c cn co iT0 iN1 iT1 iN iT) (hlo : lo' ≤ lo) :
    split_done g lo' hi B c cn co iT0 iN1 iT1 iN iT := by
  obtain ⟨h1, h2, h3, h4, h5, h6, h7, h8⟩ := h
  refine ⟨h1, h2, h3, h4, h5, ?_, h7, h8⟩
  intro r hr
  rcases h6 r hr with h | ⟨h, h'⟩
  · exact Or.inl h
  · exact Or.inr ⟨le_trans hlo h, h'⟩

theorem split_inv_step {g : globals} {A B B' : timed_automaton} {a n k : Nat}
    {sT sN1 sT1 sN sT' : timed_state} {kid kidN kid' : Nat → Int → state_tree}
    (sN2 sT2 : timed_state) (cn co : state_tree)
    (hsT : sT.unsplit g) (hwf : (state_tree.node a sT kid).wf) (hnA : n < A.next)
    (hnt : n ∉ (state_tree.node a sT kid).addrs)
    (hlt : ∀ r, r ∈ (state_tree.node a sT kid).addrs → r < A.next)
    (hk : k < g.MAX_SYMBOL)
    (i7 : ∀ i, i < g.MAX_SYMBOL → sN.iv i = { sN1.iv i with to_ := (sN.iv i).to_ } ∧
      sT'.iv i = { sT1.iv i with to_ := (sT'.iv i).to_ })
    (i8 : ∀ i, i < g.MAX_SYMBOL → k ≤ i → (sN.iv i).to_ = none ∧
      (sT'.iv i).to_ = (sT.iv i).to_ ∧ rep B (sT.iv i).to_ (kid i g.MAX_TIME))
    (i9 : ∀ i, i < k → split_done g A.next B.next B (kid i g.MAX_TIME) (kidN i g.MAX_TIME)
      (kid' i g.MAX_TIME) (sT.iv i) (sN1.iv i) (sT1.iv i) (sN.iv i) (sT'.iv i))
    (i10 : ∀ i j, i < k → j < k → i ≠ j →
      Disjoint (kidN i g.MAX_TIME).addrs (kidN j g.MAX_TIME).addrs)
    (i11 : heap_frame A B ({n} ∪ (state_tree.node a sT kid).addrs))
    (i5 : sN.stat = sN1.stat) (i6 : sT'.stat = sT1.stat)
    (hmN : B'.mem n = some sN2) (hmT : B'.mem a = some sT2) (huN : sN2.unsplit g)
    (huT : sT2.unsplit g) (hstN : sN2.stat = sN.stat) (hstT : sT2.stat = sT'.stat)
    (hothN : ∀ i, i < g.MAX_SYMBOL → i ≠ k → sN2.iv i = sN.iv i)
    (hothT : ∀ i, i < g.MAX_SYMBOL → i ≠ k → sT2.iv i = sT'.iv i)
    (hfr : ∀ r, r < B.next → r ≠ n → r ≠ a → r ∉ (kid k g.MAX_TIME).addrs →
      B'.mem r = B.mem r)
    (hnext : B.next ≤ B'.next) (hst : B'.states = B.states) (hmk : B'.marker = B.marker)
    (hrt : B'.root = B.root)
    (hkN : sN2.iv k = { sN1.iv k with to_ := (sN2.iv k).to_ })
    (hkT : sT2.iv k = { sT1.iv k with to_ := (sT2.iv k).to_ })
    (hdone : split_done g B.next B'.next B' (kid k g.MAX_TIME) cn co (sT.iv k) (sN1.iv k)
      (sT1.iv k) (sN2.iv k) (sT2.iv k)) :
    split_inv g A a n sT kid sN1 sT1 (k + 1) B' := by
  obtain ⟨f1, f2, f3, f4, f5⟩ := i11
  have hwf' := (wf_unsplit hsT).1 hwf
  have hsub : ∀ i, i < g.MAX_SYMBOL → ∀ r, r ∈ (kid i g.MAX_TIME).addrs →
      r < A.next ∧ r ≠ n ∧ r ≠ a := by
    intro i hi r hr
    have hr' : r ∈ (state_tree.node a sT kid).addrs := kid_addrs_subset hsT hi hr
    refine ⟨hlt r hr', fun h => hnt (h ▸ hr'), fun h => (hwf'.1 i hi).1 (h ▸ hr)⟩
  have ha : a < A.next := hlt a (root_mem_addrs a sT kid)
  -- the states of the other symbols are not touched
  have hkeep : ∀ i, i < g.MAX_SYMBOL → i ≠ k → ∀ r,
      (r ∈ (kid i g.MAX_TIME).addrs ∨ (A.next ≤ r ∧ r < B.next)) → B'.mem r = B.mem r := by
    intro i hi hik r hr
    rcases hr with hr | ⟨hr1, hr2⟩
    · obtain ⟨h1, h2, h3⟩ := hsub i hi r hr
      refine hfr r (by omega) h2 h3 (fun h => ?_)
      exact Set.disjoint_left.1 (hwf'.2 i k hi hk hik) hr h
    · refine hfr r hr2 (by omega) (by omega) (fun h => ?_)
      have := (hsub k hk r h).1
      omega
  refine ⟨sN2, sT2, fun i e => if i = k then cn else kidN i e,
    fun i e => if i = k then co else kid' i e, hmN, hmT, huN, huT, hstN.trans i5,
    hstT.trans i6, ?_, ?_, ?_, ?_, ?_⟩
  · intro i hi
    by_cases hik : i = k
    · subst hik
      exact ⟨hkN, hkT⟩
    · rw [hothN i hi hik, hothT i hi hik]
      exact i7 i hi
  · intro i hi hki
    have hik : i ≠ k := by omega
    obtain ⟨h1, h2, h3⟩ := i8 i hi (by omega)
    rw [hothN i hi hik, hothT i hi hik]
    exact ⟨h1, h2, rep_frame h3 (fun r hr => hkeep i hi hik r (Or.inl hr))⟩
  · intro i hi
    by_cases hik : i = k
    · subst hik
      simp only [↓reduceIte]
      exact split_done_lo hdone f2
    · have hi' : i < k := by omega
      simp only [hik, ↓reduceIte]
      rw [hothN i (by omega) hik, hothT i (by omega) hik]
      exact split_done_frame (i9 i hi') hnext (hkeep i (by omega) hik)
  · intro i j hi hj hij
    have hnew : ∀ j, j < k → Disjoint cn.addrs (kidN j g.MAX_TIME).addrs := by
      intro j hj
      rw [Set.disjoint_left]
      intro r hr hr'
      obtain ⟨-, -, -, -, -, h6, -, -⟩ := hdone
      obtain ⟨-, -, -, -, -, h6', -, -⟩ := i9 j hj
      rcases h6 r hr with h | ⟨h, -⟩ <;> rcases h6' r hr' with h' | ⟨h', h''⟩
      · exact Set.disjoint_left.1 (hwf'.2 k j hk (by omega) (by omega)) h h'
      · have := (hsub k hk r h).1
        omega
      · have := (hsub j (by omega) r h').1
        omega
      · omega
    by_cases hik : i = k
    · subst hik
      have hjk : j ≠ i := fun h => hij h.symm
      simp only [↓reduceIte, hjk]
      exact hnew j (by omega)
    · by_cases hjk : j = k
      · subst hjk
        simp only [↓reduceIte, hik]
        exact (hnew i (by omega)).symm
      · simp only [hik, hjk, ↓reduceIte]
        exact i10 i j (by omega) (by omega) hij
  · refine ⟨?_, le_trans f2 hnext, hst.trans f3, hmk.trans f4, hrt.trans f5⟩
    intro r hr hrA
    have hrn : r ≠ n := fun h => hr (Or.inl h)
    have hrt : r ∉ (state_tree.node a sT kid).addrs := fun h => hr (Or.inr h)
    rw [← f1 r hr hrA]
    exact hfr r (by omega) hrn (fun h => hrt (h ▸ root_mem_addrs a sT kid))
      (fun h => hrt (kid_addrs_subset hsT hk h))

end RTI


namespace RTI

theorem is_empty_iff (i : interval) : i.is_empty = true ↔ i.tails = [] := by
  simp [interval.is_empty, List.isEmpty_iff]

theorem split_symbol_skip {g : globals}
    {recurse : timed_automaton → interval_ptr → Option Nat → Option timed_automaton}
    {B : timed_automaton} {n : Nat} {sN : timed_state} {k : Nat} (old : Option Nat)
    (hN : B.mem n = some sN) (hu : sN.unsplit g) (hk : k < g.MAX_SYMBOL)
    (he : (sN.iv k).tails = []) :
    split_symbol g recurse (some n) old B k = some B := by
  simp [split_symbol, interval_at_unsplit hN hu hk, interval.is_empty, he]

theorem split_symbol_take {g : globals}
    {recurse : timed_automaton → interval_ptr → Option Nat → Option timed_automaton}
    {B : timed_automaton} {n a : Nat} {sN sT : timed_state} {k : Nat}
    (hN : B.mem n = some sN) (hT : B.mem a = some sT) (hna : a ≠ n) (hu : sN.unsplit g)
    (hu' : sT.unsplit g) (hk : k < g.MAX_SYMBOL) (he : (sN.iv k).tails ≠ [])
    (he' : (sT.iv k).tails = []) :
    split_symbol g recurse (some n) (some a) B k =
      some ((B.store n (sN.update k g.MAX_TIME (fun x => { x with to_ := (sT.iv k).to_ }))).store
        a (sT.update k g.MAX_TIME (fun x => { x with to_ := none }))) := by
  have h1 : (B.store n (sN.update k g.MAX_TIME
      (fun x => { x with to_ := (sT.iv k).to_ }))).mem a = some sT := by
    rw [timed_automaton.store_mem, if_neg hna]
    exact hT
  simp [split_symbol, interval_at_unsplit hN hu hk, interval_at_unsplit hT hu' hk,
    interval.is_empty, he, he', write_eq hN, write_eq h1]

theorem split_symbol_rec {g : globals}
    {recurse : timed_automaton → interval_ptr → Option Nat → Option timed_automaton}
    {B : timed_automaton} {n a : Nat} {sN sT : timed_state} {k : Nat}
    (hN : B.mem n = some sN) (hT : B.mem a = some sT) (hnn : n ≠ B.next) (hu : sN.unsplit g)
    (hu' : sT.unsplit g) (hk : k < g.MAX_SYMBOL) (he : (sN.iv k).tails ≠ [])
    (he' : (sT.iv k).tails ≠ []) :
    split_symbol g recurse (some n) (some a) B k =
      recurse ((B.alloc g).2.store n (sN.update k g.MAX_TIME
        (fun x => { x with to_ := some B.next }))) ⟨n, k, g.MAX_TIME⟩ (sT.iv k).to_ := by
  have h1 : (B.alloc g).2.mem n = some sN := by
    rw [timed_automaton.alloc_mem, if_neg hnn]
    exact hN
  simp [split_symbol, interval_at_unsplit hN hu hk, interval_at_unsplit hT hu' hk,
    interval.is_empty, he, he', write_eq h1]

end RTI


namespace RTI

theorem with_to_eq (i j : interval) (o : Option Nat) (h : i = { j with to_ := i.to_ }) :
    ({ i with to_ := o } : interval) = { j with to_ := o } := by
  rw [h]

theorem split_symbol_step {g : globals} {fuel : Nat} {A B : timed_automaton} {a n k : Nat}
    {sT sN1 sT1 : timed_state} {kid : Nat → Int → state_tree}
    (ih : recurse_split_ok g fuel)
    (hsT : sT.unsplit g) (hwf : (state_tree.node a sT kid).wf) (hnA : n < A.next)
    (hnt : n ∉ (state_tree.node a sT kid).addrs)
    (hlt : ∀ r, r ∈ (state_tree.node a sT kid).addrs → r < A.next)
    (hk : k < g.MAX_SYMBOL)
    (hfit : ∀ i, i < g.MAX_SYMBOL → (kid i g.MAX_TIME).fits fuel)
    (hpl : ∀ i, i < g.MAX_SYMBOL → (kid i g.MAX_TIME).placed g (sT.iv i).tails)
    (hle : ∀ i, i < g.MAX_SYMBOL → ∀ x, (sN1.iv i).tails.count x ≤ (sT.iv i).tails.count x)
    (hinv : split_inv g A a n sT kid sN1 sT1 k B) :
    ∃ B', split_symbol g (recurse_split g fuel) (some n) (some a) B k = some B' ∧
      split_inv g A a n sT kid sN1 sT1 (k + 1) B' := by
  obtain ⟨sN, sT', kidN, kid', i1, i2, i3, i4, i5, i6, i7, i8, i9, i10, i11⟩ := hinv
  have hwf' := (wf_unsplit hsT).1 hwf
  have hsub : ∀ r, r ∈ (kid k g.MAX_TIME).addrs → r < A.next ∧ r ≠ n ∧ r ≠ a := by
    intro r hr
    have hr' : r ∈ (state_tree.node a sT kid).addrs := kid_addrs_subset hsT hk hr
    exact ⟨hlt r hr', fun h => hnt (h ▸ hr'), fun h => (hwf'.1 k hk).1 (h ▸ hr)⟩
  have ha : a < A.next := hlt a (root_mem_addrs a sT kid)
  have han : a ≠ n := fun h => hnt (h ▸ root_mem_addrs a sT kid)
  have hAB : A.next ≤ B.next := i11.2.1
  obtain ⟨j1, j2, j3⟩ := i8 k hk (le_refl k)
  have hNt : (sN.iv k).tails = (sN1.iv k).tails := by
    have h := (i7 k hk).1
    rw [h]
  have hTt : (sT'.iv k).tails = (sT1.iv k).tails := by
    have h := (i7 k hk).2
    rw [h]
  by_cases he : (sN1.iv k).tails = []
  · -- no tail of this symbol has moved
    refine ⟨B, split_symbol_skip (some a) i1 i3 hk (hNt.trans he), ?_⟩
    refine split_inv_step sN sT' state_tree.null (kid k g.MAX_TIME)
      hsT hwf hnA hnt hlt hk i7 i8 i9 i10 i11 i5 i6 i1 i2 i3 i4 rfl rfl
      (fun _ _ _ => rfl) (fun _ _ _ => rfl) (fun _ _ _ _ _ => rfl) (le_refl _) rfl rfl rfl
      (i7 k hk).1 (i7 k hk).2 ?_
    refine ⟨?_, ?_, trivial, (hwf'.1 k hk).2, ?_, ?_, fun r hr => hr, ?_⟩
    · rw [j1]; rfl
    · rw [j2]; exact j3
    · simp [state_tree.addrs]
    · intro r hr
      exact absurd hr (by simp [state_tree.addrs])
    · rw [if_pos he]
      exact ⟨rfl, rfl, j2, j1⟩
  · by_cases he' : (sT1.iv k).tails = []
    · -- all tails of this symbol have moved: the new target takes the child over
      refine ⟨_, split_symbol_take i1 i2 han i3 i4 hk (fun h => he (hNt ▸ h))
        (hTt.trans he'), ?_⟩
      refine split_inv_step
        (sN.update k g.MAX_TIME (fun x => { x with to_ := (sT'.iv k).to_ }))
        (sT'.update k g.MAX_TIME (fun x => { x with to_ := none }))
        (kid k g.MAX_TIME) state_tree.null
        hsT hwf hnA hnt hlt hk i7 i8 i9 i10 i11 i5 i6
        ?_ ?_ (timed_state.unsplit_update i3 hk _) (timed_state.unsplit_update i4 hk _)
        (by simp) (by simp) ?_ ?_ ?_ (le_refl _) rfl rfl rfl ?_ ?_ ?_
      · simp [han.symm]
      · simp
      · intro i _ hik
        rw [timed_state.unsplit_update_iv i3 hk, if_neg hik]
      · intro i _ hik
        rw [timed_state.unsplit_update_iv i4 hk, if_neg hik]
      · intro r _ hrn hra _
        simp [hrn, hra]
      · rw [timed_state.unsplit_update_iv i3 hk, if_pos rfl]
        exact with_to_eq _ _ _ (i7 k hk).1
      · rw [timed_state.unsplit_update_iv i4 hk, if_pos rfl]
        exact with_to_eq _ _ _ (i7 k hk).2
      · rw [timed_state.unsplit_update_iv i3 hk, if_pos rfl,
          timed_state.unsplit_update_iv i4 hk, if_pos rfl]
        refine ⟨?_, rfl, (hwf'.1 k hk).2, trivial, ?_, fun r hr => Or.inl hr, ?_, ?_⟩
        · show rep _ (sT'.iv k).to_ _
          rw [j2]
          refine rep_frame j3 (fun r hr => ?_)
          obtain ⟨-, h2, h3⟩ := hsub r hr
          simp [h2, h3]
        · simp [state_tree.addrs]
        · intro r hr
          exact absurd hr (by simp [state_tree.addrs])
        · rw [if_neg he, if_pos he']
          exact ⟨rfl, rfl, j2, rfl⟩
    · -- both intervals hold tails: a new state, and the recursive call
      have hne1 : (sN.iv k).tails ≠ [] := fun h => he (hNt ▸ h)
      have hne2 : (sT'.iv k).tails ≠ [] := fun h => he' (hTt ▸ h)
      have hnn : n ≠ B.next := by omega
      have hP : (sT.iv k).tails ≠ [] := by
        intro h
        apply he
        apply List.eq_nil_iff_forall_not_mem.2
        intro x hx
        have := hle k hk x
        rw [h, List.count_nil] at this
        exact absurd (List.count_pos_iff.2 hx) (by omega)
      obtain ⟨c, sc, kc, hc⟩ := placed_node (hpl k hk) hP
      rw [split_symbol_rec i1 i2 hnn i3 i4 hk hne1 hne2, j2]
      have hroot : (sT.iv k).to_ = some c := by
        have := rep_root j3
        rw [hc] at this
        exact this
      rw [hroot]
      let sN2 := sN.update k g.MAX_TIME (fun x => { x with to_ := some B.next })
      have hu2 : sN2.unsplit g := timed_state.unsplit_update i3 hk _
      have hiv2 : sN2.iv k = { sN.iv k with to_ := some B.next } := by
        rw [timed_state.unsplit_update_iv i3 hk, if_pos rfl]
      have hm3 : ((B.alloc g).2.store n sN2).mem n = some sN2 := by simp
      have hfr3 : ∀ r, r ≠ n → r ≠ B.next → ((B.alloc g).2.store n sN2).mem r = B.mem r := by
        intro r h1 h2
        simp [h1, h2]
      have hlt3 : ∀ r, r ∈ (state_tree.node c sc kc).addrs → r < A.next ∧ r ≠ n ∧ r ≠ a := by
        intro r hr
        exact hsub r (hc ▸ hr)
      obtain ⟨B', hB', tn, t', p1, p2, p3, p4, p5, p6, p7, p8, q1, q2, q3, q4, q5⟩ :=
        ih ((B.alloc g).2.store n sN2) ⟨n, k, g.MAX_TIME⟩ (sN2.iv k) B.next c sc kc
          (read_unsplit hm3 hu2 hk) (by rw [hiv2]) (by simp [hnn.symm])
          (by simp) (fun h => by have := (hlt3 _ h).1; omega)
          (fun r hr => by have := (hlt3 r hr).1; simp; omega)
          (by
            rw [← hc, ← hroot]
            refine rep_frame j3 (fun r hr => ?_)
            obtain ⟨h1, h2, -⟩ := hsub r hr
            exact hfr3 r h2 (by omega))
          (hc ▸ (hwf'.1 k hk).2) (hc ▸ hfit k hk)
          (by
            rw [hiv2]
            show (state_tree.node c sc kc).placed g (sN.iv k).tails
            rw [hNt]
            exact placed_mono (hc ▸ hpl k hk) (hle k hk))
      refine ⟨B', hB', ?_⟩
      have hnext3 : ((B.alloc g).2.store n sN2).next = B.next + 1 := by simp
      have hfrB : ∀ r, r < B.next → r ≠ n → r ∉ (kid k g.MAX_TIME).addrs →
          B'.mem r = B.mem r := by
        intro r h1 h2 h3
        rw [q1 r (fun h => ?_) (by rw [hnext3]; omega)]
        · exact hfr3 r h2 (by omega)
        · rcases h with h | h
          · have : r = B.next := h
            omega
          · exact h3 (hc ▸ h)
      refine split_inv_step sN2 sT' tn t' hsT hwf hnA hnt hlt hk i7 i8 i9 i10 i11 i5 i6
        ?_ ?_ hu2 i4 (by simp [sN2]) rfl ?_ (fun _ _ _ => rfl) ?_
        (by rw [hnext3] at q2; omega) ?_ ?_ ?_ ?_ (i7 k hk).2 ?_
      · rw [q1 n (fun h => ?_) (by rw [hnext3]; omega)]
        · exact hm3
        · rcases h with h | h
          · exact hnn h
          · exact (hlt3 n h).2.1 rfl
      · rw [hfrB a (by omega) han (hwf'.1 k hk).1]
        exact i2
      · intro i _ hik
        rw [timed_state.unsplit_update_iv i3 hk, if_neg hik]
      · intro r h1 h2 _ h4
        exact hfrB r h1 h2 h4
      · rw [q3]; rfl
      · rw [q4]; rfl
      · rw [q5]; rfl
      · rw [hiv2]
        exact with_to_eq _ _ _ (i7 k hk).1
      · rw [hiv2] at p3 ⊢
        refine ⟨p1, ?_, p4, p5, p6, ?_, ?_, ?_⟩
        · rw [j2, hroot]
          exact p2
        · intro r hr
          rcases p7 r hr with h | h | ⟨h, h'⟩
          · exact Or.inr ⟨by omega, by rw [hnext3] at q2; omega⟩
          · exact Or.inl (hc ▸ h)
          · exact Or.inr ⟨by rw [hnext3] at h; omega, h'⟩
        · intro r hr
          exact hc ▸ p8 r hr
        · rw [if_neg he, if_neg he']
          refine ⟨j2, ?_⟩
          rw [hc, ← hNt]
          exact p3

end RTI


namespace RTI

theorem split_inv_post {g : globals} {A B : timed_automaton} {a n : Nat}
    {sT sN1 sT1 : timed_state} {kid : Nat → Int → state_tree} {X : List timed_tail}
    (hsT : sT.unsplit g) (hwf : (state_tree.node a sT kid).wf) (hnA : n < A.next)
    (hnt : n ∉ (state_tree.node a sT kid).addrs)
    (hlt : ∀ r, r ∈ (state_tree.node a sT kid).addrs → r < A.next)
    (hst : sT1.stat = del_counts g sT.stat (nexts X))
    (hstN : sN1.stat = add_counts g (state_statistics.new g) (nexts X))
    (hT1 : ∀ j, ∃ ts, sT1.iv j = { sT.iv j with tails := ts } ∧
      ∀ x, ts.count x + (if x.get_symbol = j then (nexts X).count x else 0)
        = (sT.iv j).tails.count x)
    (hN1 : ∀ j, j < g.MAX_SYMBOL → ∀ x, (sN1.iv j).tails.count x
      = if x.get_symbol = j then (nexts X).count x else 0)
    (hinv : split_inv g A a n sT kid sN1 sT1 g.MAX_SYMBOL B) :
    split_post g A B n (state_tree.node a sT kid) X := by
  obtain ⟨sN, sT', kidN, kid', i1, i2, i3, i4, i5, i6, i7, i8, i9, i10, i11⟩ := hinv
  have hwf' := (wf_unsplit hsT).1 hwf
  have hsub : ∀ i, i < g.MAX_SYMBOL → ∀ r, r ∈ (kid i g.MAX_TIME).addrs →
      r < A.next ∧ r ≠ n ∧ r ≠ a := by
    intro i hi r hr
    have hr' : r ∈ (state_tree.node a sT kid).addrs := kid_addrs_subset hsT hi hr
    exact ⟨hlt r hr', fun h => hnt (h ▸ hr'), fun h => (hwf'.1 i hi).1 (h ▸ hr)⟩
  have ha : a < A.next := hlt a (root_mem_addrs a sT kid)
  have han : a ≠ n := fun h => hnt (h ▸ root_mem_addrs a sT kid)
  have hNt : ∀ i, i < g.MAX_SYMBOL → (sN.iv i).tails = (sN1.iv i).tails := by
    intro i hi
    have h := (i7 i hi).1
    rw [h]
  have hTt : ∀ i, i < g.MAX_SYMBOL → (sT'.iv i).tails = (sT1.iv i).tails := by
    intro i hi
    have h := (i7 i hi).2
    rw [h]
  -- where the addresses of the children are
  have bN : ∀ i, i < g.MAX_SYMBOL → ∀ r, r ∈ (kidN i g.MAX_TIME).addrs →
      r ∈ (kid i g.MAX_TIME).addrs ∨ (A.next ≤ r ∧ r < B.next) :=
    fun i hi => (i9 i hi).2.2.2.2.2.1
  have bT : ∀ i, i < g.MAX_SYMBOL → ∀ r, r ∈ (kid' i g.MAX_TIME).addrs →
      r ∈ (kid i g.MAX_TIME).addrs := fun i hi => (i9 i hi).2.2.2.2.2.2.1
  refine ⟨state_tree.node n sN kidN, state_tree.node a sT' kid', ?_, ?_, ?_, ?_, ?_, ?_, ?_,
    ?_, i11⟩
  · exact (rep_unsplit i3).2 ⟨rfl, i1, fun i hi => (i9 i hi).1⟩
  · exact (rep_unsplit i4).2 ⟨rfl, i2, fun i hi => (i9 i hi).2.1⟩
  · refine ⟨n, sN, kidN, sT', kid', rfl, rfl, i3, i4, i6.trans hst, i5.trans hstN,
      fun i hi => ?_⟩
    obtain ⟨ts, hts, hcnt⟩ := hT1 i
    have hT' := (i7 i hi).2
    rw [hts] at hT'
    have e1 : ∀ x, (sN.iv i).tails.count x
        = if x.get_symbol = i then (nexts X).count x else 0 := by
      intro x
      rw [hNt i hi]
      exact hN1 i hi x
    have e2 : (sT'.iv i).tails = ts := by rw [hT']
    refine ⟨e1, ?_, by rw [hT'], by rw [hT'], by rw [hT'], by rw [hT'], by rw [hT'], ?_⟩
    · intro x
      rw [e1 x, e2]
      exact hcnt x
    · have h8 := (i9 i hi).2.2.2.2.2.2.2
      rw [hNt i hi, hTt i hi]
      exact h8
  · refine (wf_unsplit i3).2 ⟨fun i hi => ⟨fun h => ?_, (i9 i hi).2.2.1⟩, fun i j hi hj hij =>
      i10 i j hi hj hij⟩
    rcases bN i hi n h with h | ⟨h, -⟩
    · exact (hsub i hi n h).2.1 rfl
    · omega
  · refine (wf_unsplit i4).2 ⟨fun i hi => ⟨fun h => ?_, (i9 i hi).2.2.2.1⟩, fun i j hi hj hij =>
      ?_⟩
    · exact (hsub i hi a (bT i hi a h)).2.2 rfl
    · rw [Set.disjoint_left]
      intro r hr hr'
      exact Set.disjoint_left.1 (hwf'.2 i j hi hj hij) (bT i hi r hr) (bT j hj r hr')
  · rw [Set.disjoint_left]
    intro r hr hr'
    rcases (mem_addrs_unsplit i3).1 hr with h | ⟨i, hi, h⟩ <;>
      rcases (mem_addrs_unsplit i4).1 hr' with h' | ⟨j, hj, h'⟩
    · exact han (h'.symm.trans h)
    · exact (hsub j hj r (bT j hj r h')).2.1 h
    · rcases bN i hi r h with h1 | ⟨h1, -⟩
      · exact (hsub i hi r h1).2.2 h'
      · omega
    · by_cases hij : i = j
      · subst hij
        exact Set.disjoint_left.1 (i9 i hi).2.2.2.2.1 h h'
      · rcases bN i hi r h with h1 | ⟨h1, -⟩
        · exact Set.disjoint_left.1 (hwf'.2 i j hi hj hij) h1 (bT j hj r h')
        · have := (hsub j hj r (bT j hj r h')).1
          omega
  · intro r hr
    rcases (mem_addrs_unsplit i3).1 hr with h | ⟨i, hi, h⟩
    · exact Or.inl h
    · rcases bN i hi r h with h1 | h1
      · exact Or.inr (Or.inl (kid_addrs_subset hsT hi h1))
      · exact Or.inr (Or.inr h1)
  · intro r hr
    rcases (mem_addrs_unsplit i4).1 hr with h | ⟨i, hi, h⟩
    · exact h ▸ root_mem_addrs a sT kid
    · exact kid_addrs_subset hsT hi (bT i hi r h)

theorem recurse_split_spec (g : globals) (fuel : Nat) : recurse_split_ok g fuel := by
  induction fuel with
  | zero =>
    intro A new_in ni n a sT kid _ _ _ _ _ _ _ _ hfit _
    obtain ⟨m, hm, _⟩ := hfit
    omega
  | succ fuel ih =>
    intro A new_in ni n a sT kid hread hto hN hnA hnt hlt hrep hwf hfit hpl
    obtain ⟨hsT, hs, hc, hkids⟩ := hpl
    obtain ⟨-, hT, hreps⟩ := (rep_unsplit hsT).1 hrep
    obtain ⟨m, hm, hfits⟩ := (fits_unsplit hsT).1 hfit
    obtain rfl : fuel = m := by omega
    have hwf' := (wf_unsplit hsT).1 hwf
    have han : a ≠ n := fun h => hnt (h ▸ root_mem_addrs a sT kid)
    obtain ⟨A1, hA1, m1, m2, m3, m4, m5, m6, m7⟩ :=
      move_next_tails_spec ni.tails hT hN han hsT (timed_state.new_unsplit g) hs hc
    obtain ⟨t1, t2, t3⟩ := timed_state.takes_spec (nexts ni.tails) hsT hs hc
    obtain ⟨u1, u2, u3⟩ := timed_state.puts_spec (nexts ni.tails) (timed_state.new_unsplit g) hs
    have hN1 : ∀ j, j < g.MAX_SYMBOL → ∀ x,
        (((timed_state.new g).puts g (nexts ni.tails)).iv j).tails.count x
          = if x.get_symbol = j then (nexts ni.tails).count x else 0 := by
      intro j hj x
      obtain ⟨ts, hts, hcnt⟩ := u3 j
      rw [hts]
      show ts.count x = _
      rw [hcnt x, timed_state.new_iv g hj]
      simp [interval.new]
    have hle : ∀ i, i < g.MAX_SYMBOL → ∀ x,
        (((timed_state.new g).puts g (nexts ni.tails)).iv i).tails.count x
          ≤ (sT.iv i).tails.count x := by
      intro i hi x
      rw [hN1 i hi x]
      split
      · rename_i h
        rw [← h]
        exact hc x
      · exact Nat.zero_le _
    have hinv0 : split_inv g A a n sT kid ((timed_state.new g).puts g (nexts ni.tails))
        (sT.takes g (nexts ni.tails)) 0 A1 := by
      refine ⟨_, _, fun _ _ => state_tree.null, fun _ _ => state_tree.null, m2, m1, u1, t1,
        rfl, rfl, fun i _ => ⟨rfl, rfl⟩, fun i hi _ => ⟨?_, ?_, ?_⟩,
        fun i hi => absurd hi (Nat.not_lt_zero i),
        fun i j hi => absurd hi (Nat.not_lt_zero i), ?_, ?_, m5, m6, m7⟩
      · obtain ⟨ts, hts, -⟩ := u3 i
        rw [hts, timed_state.new_iv g hi]
        rfl
      · obtain ⟨ts, hts, -⟩ := t3 i
        rw [hts]
      · refine rep_frame (hreps i hi) (fun r hr => m3 r (fun h => ?_) (fun h => ?_))
        · exact (hwf'.1 i hi).1 (h ▸ hr)
        · exact hnt (h ▸ kid_addrs_subset hsT hi hr)
      · intro r hr _
        exact m3 r (fun h => hr (Or.inr (h ▸ root_mem_addrs a sT kid)))
          (fun h => hr (Or.inl h))
      · exact le_of_eq m4.symm
    obtain ⟨B, hB, hinv⟩ := foldlM_range_inv
      (split_symbol g (recurse_split g fuel) (some n) (some a))
      (split_inv g A a n sT kid ((timed_state.new g).puts g (nexts ni.tails))
        (sT.takes g (nexts ni.tails))) g.MAX_SYMBOL A1 hinv0
      (fun k B hk hI => split_symbol_step ih hsT hwf hnA hnt hlt hk hfits hkids hle hI)
    refine ⟨B, ?_, split_inv_post hsT hwf hnA hnt hlt t2 u2 t3 hN1 hinv⟩
    simp only [recurse_split, hread, Option.some_bind, interval.get_target, hto, hA1]
    exact hB

end RTI


namespace RTI

/-! ### The merged tree -/

theorem merge_tree_node (g : globals) (n : Nat) (sN : timed_state)
    (kidN : Nat → Int → state_tree) (a : Nat) (sT : timed_state)
    (kid' : Nat → Int → state_tree) :
    merge_tree g (state_tree.node n sN kidN) (state_tree.node a sT kid') =
      state_tree.node a (merge_state g sN sT) (fun i k =>
        if (sN.iv i).tails = [] then kid' i k
        else if (sT.iv i).tails = [] then kidN i k
        else merge_tree g (kidN i k) (kid' i k)) := by
  simp only [merge_tree]

theorem merge_state_unsplit (g : globals) (sN sT : timed_state) :
    (merge_state g sN sT).unsplit g := by
  refine ⟨by simp [merge_state], fun i hi => ⟨merged_iv (sN.iv i) (sT.iv i), ?_⟩⟩
  simp [merge_state, hi]

theorem merge_state_iv (g : globals) (sN sT : timed_state) {i : Nat} (hi : i < g.MAX_SYMBOL) :
    (merge_state g sN sT).iv i = merged_iv (sN.iv i) (sT.iv i) := by
  simp [timed_state.iv, merge_state, hi]

theorem merge_addrs {g : globals} (tn : state_tree) :
    ∀ (t' : state_tree) (r : Nat), mergeable g tn t' → r ∈ (merge_tree g tn t').addrs →
      r ∈ t'.addrs ∨ ∃ n sN kidN, tn = state_tree.node n sN kidN ∧
        ∃ i, i < g.MAX_SYMBOL ∧ r ∈ (kidN i g.MAX_TIME).addrs := by
  induction tn with
  | null =>
    intro t' r hm
    exact absurd hm (by simp [mergeable])
  | node n sN kidN ih =>
    intro t' r hm hr
    obtain ⟨a, sT, kid', rfl, huN, huT, hkids⟩ := hm
    rw [merge_tree_node] at hr
    rcases (mem_addrs_unsplit (merge_state_unsplit g sN sT)).1 hr with h | ⟨i, hi, h⟩
    · exact Or.inl (h ▸ root_mem_addrs a sT kid')
    · by_cases h1 : (sN.iv i).tails = []
      · rw [if_pos h1] at h
        exact Or.inl (kid_addrs_subset huT hi h)
      · rw [if_neg h1] at h
        by_cases h2 : (sT.iv i).tails = []
        · rw [if_pos h2] at h
          exact Or.inr ⟨n, sN, kidN, rfl, i, hi, h⟩
        · rw [if_neg h2] at h
          have hm' := hkids i hi h1 h2
          rcases ih i g.MAX_TIME _ r hm' h with h3 | ⟨n2, s2, k2, h3, j, hj, h4⟩
          · exact Or.inl (kid_addrs_subset huT hi h3)
          · refine Or.inr ⟨n, sN, kidN, rfl, i, hi, ?_⟩
            rw [h3] at hm' ⊢
            obtain ⟨_, _, _, _, hu2, _, _⟩ := hm'
            exact kid_addrs_subset hu2 hj h4

theorem merged_kid_addrs {g : globals} {n a : Nat} {sN sT : timed_state}
    {kidN kid' : Nat → Int → state_tree}
    (hm : mergeable g (state_tree.node n sN kidN) (state_tree.node a sT kid')) {i : Nat}
    (hi : i < g.MAX_SYMBOL) {r : Nat} (hr : r ∈ (merged_kid g sN sT kidN kid' i).addrs) :
    r ∈ (kidN i g.MAX_TIME).addrs ∨ r ∈ (kid' i g.MAX_TIME).addrs := by
  obtain ⟨a', sT', kid'', he, huN, huT, hkids⟩ := hm
  obtain ⟨rfl, rfl, rfl⟩ : a = a' ∧ sT = sT' ∧ kid' = kid'' := by
    simpa using he
  unfold merged_kid at hr
  by_cases h1 : (sN.iv i).tails = []
  · rw [if_pos h1] at hr
    exact Or.inr hr
  · rw [if_neg h1] at hr
    by_cases h2 : (sT.iv i).tails = []
    · rw [if_pos h2] at hr
      exact Or.inl hr
    · rw [if_neg h2] at hr
      have hm' := hkids i hi h1 h2
      rcases merge_addrs _ _ r hm' hr with h3 | ⟨n2, s2, k2, h3, j, hj, h4⟩
      · exact Or.inr h3
      · left
        rw [h3] at hm' ⊢
        obtain ⟨_, _, _, _, hu2, _, _⟩ := hm'
        exact kid_addrs_subset hu2 hj h4

theorem merge_root_not_mem {g : globals} {n a : Nat} {sN sT : timed_state}
    {kidN kid' : Nat → Int → state_tree}
    (hm : mergeable g (state_tree.node n sN kidN) (state_tree.node a sT kid'))
    (hwf : (state_tree.node n sN kidN).wf)
    (hd : Disjoint (state_tree.node n sN kidN).addrs (state_tree.node a sT kid').addrs) :
    n ∉ (merge_tree g (state_tree.node n sN kidN) (state_tree.node a sT kid')).addrs := by
  intro h
  have huN : sN.unsplit g := by
    obtain ⟨_, _, _, _, hu, _, _⟩ := hm
    exact hu
  rcases merge_addrs _ _ n hm h with h1 | ⟨n2, s2, k2, h3, j, hj, h4⟩
  · exact Set.disjoint_left.1 hd (root_mem_addrs n sN kidN) h1
  · obtain ⟨rfl, rfl, rfl⟩ : n = n2 ∧ sN = s2 ∧ kidN = k2 := by
      simpa using h3
    exact ((wf_unsplit huN).1 hwf).1 j hj |>.1 h4

end RTI


namespace RTI

/-! ### The first loop over the symbols in `recurse_un_split` -/

theorem un_split_symbol_skip {g : globals}
    {recurse : timed_automaton → interval_ptr → Option Nat → Option timed_automaton}
    {B : timed_automaton} {n : Nat} {sN : timed_state} {k : Nat} (old : Option Nat)
    (hN : B.mem n = some sN) (hu : sN.unsplit g) (hk : k < g.MAX_SYMBOL)
    (he : (sN.iv k).tails = []) :
    un_split_symbol g recurse (some n) old B k = some B := by
  simp [un_split_symbol, interval_at_unsplit hN hu hk, interval.is_empty, he]

theorem un_split_symbol_give {g : globals}
    {recurse : timed_automaton → interval_ptr → Option Nat → Option timed_automaton}
    {B : timed_automaton} {n a : Nat} {sN sT : timed_state} {k : Nat}
    (hN : B.mem n = some sN) (hT : B.mem a = some sT) (hna : n ≠ a) (hu : sN.unsplit g)
    (hu' : sT.unsplit g) (hk : k < g.MAX_SYMBOL) (he : (sN.iv k).tails ≠ [])
    (he' : (sT.iv k).tails = []) :
    un_split_symbol g recurse (some n) (some a) B k =
      some ((B.store a (sT.update k g.MAX_TIME (fun x => { x with to_ := (sN.iv k).to_ }))).store
        n (sN.update k g.MAX_TIME (fun x => { x with to_ := none }))) := by
  have h1 : (B.store a (sT.update k g.MAX_TIME
      (fun x => { x with to_ := (sN.iv k).to_ }))).mem n = some sN := by
    rw [timed_automaton.store_mem, if_neg hna]
    exact hN
  simp [un_split_symbol, interval_at_unsplit hN hu hk, interval_at_unsplit hT hu' hk,
    interval.is_empty, he, he', write_eq hT, write_eq h1]

theorem un_split_symbol_rec {g : globals}
    {recurse : timed_automaton → interval_ptr → Option Nat → Option timed_automaton}
    {B : timed_automaton} {n a : Nat} {sN sT : timed_state} {k : Nat}
    (hN : B.mem n = some sN) (hT : B.mem a = some sT) (hu : sN.unsplit g)
    (hu' : sT.unsplit g) (hk : k < g.MAX_SYMBOL) (he : (sN.iv k).tails ≠ [])
    (he' : (sT.iv k).tails ≠ []) :
    un_split_symbol g recurse (some n) (some a) B k =
      (recurse B ⟨n, k, g.MAX_TIME⟩ (sT.iv k).to_).bind (fun A1 =>
        (A1.read ⟨n, k, g.MAX_TIME⟩).map (fun x => A1.free x.to_)) := by
  simp [un_split_symbol, interval_at_unsplit hN hu hk, interval_at_unsplit hT hu' hk,
    interval.is_empty, he, he']

theorem kids_apart_root {g : globals} {n a : Nat} {sN sT : timed_state}
    {kidN kid' : Nat → Int → state_tree} (huN : sN.unsplit g) (huT : sT.unsplit g)
    (hwN : (state_tree.node n sN kidN).wf) (hwT : (state_tree.node a sT kid').wf)
    (hd : Disjoint (state_tree.node n sN kidN).addrs (state_tree.node a sT kid').addrs)
    {i : Nat} (hi : i < g.MAX_SYMBOL) {r : Nat}
    (hr : r ∈ (kidN i g.MAX_TIME).addrs ∨ r ∈ (kid' i g.MAX_TIME).addrs) :
    r ≠ n ∧ r ≠ a := by
  have hd' := Set.disjoint_left.1 hd
  rcases hr with hr | hr
  · refine ⟨fun h => ((wf_unsplit huN).1 hwN).1 i hi |>.1 (h ▸ hr), fun h => ?_⟩
    exact hd' (kid_addrs_subset huN hi hr) (h ▸ root_mem_addrs a sT kid')
  · refine ⟨fun h => ?_, fun h => ((wf_unsplit huT).1 hwT).1 i hi |>.1 (h ▸ hr)⟩
    exact hd' (h ▸ root_mem_addrs n sN kidN) (kid_addrs_subset huT hi hr)

theorem kids_apart {g : globals} {n a : Nat} {sN sT : timed_state}
    {kidN kid' : Nat → Int → state_tree} (huN : sN.unsplit g) (huT : sT.unsplit g)
    (hwN : (state_tree.node n sN kidN).wf) (hwT : (state_tree.node a sT kid').wf)
    (hd : Disjoint (state_tree.node n sN kidN).addrs (state_tree.node a sT kid').addrs)
    {i k : Nat} (hi : i < g.MAX_SYMBOL) (hk : k < g.MAX_SYMBOL) (hik : i ≠ k) {r : Nat}
    (hr : r ∈ (kidN i g.MAX_TIME).addrs ∨ r ∈ (kid' i g.MAX_TIME).addrs) :
    r ∉ (kidN k g.MAX_TIME).addrs ∧ r ∉ (kid' k g.MAX_TIME).addrs := by
  have hd' := Set.disjoint_left.1 hd
  rcases hr with hr | hr
  · refine ⟨fun h => ?_, fun h => ?_⟩
    · exact Set.disjoint_left.1 (((wf_unsplit huN).1 hwN).2 i k hi hk hik) hr h
    · exact hd' (kid_addrs_subset huN hi hr) (kid_addrs_subset huT hk h)
  · refine ⟨fun h => ?_, fun h => ?_⟩
    · exact hd' (kid_addrs_subset huN hk h) (kid_addrs_subset huT hi hr)
    · exact Set.disjoint_left.1 (((wf_unsplit huT).1 hwT).2 i k hi hk hik) hr h

theorem un_split_inv_step {g : globals} {B0 B B' : timed_automaton} {n a k : Nat}
    {sN sT sNc sTc : timed_state} {kidN kid' : Nat → Int → state_tree}
    (sN2 sT2 : timed_state)
    (hm : mergeable g (state_tree.node n sN kidN) (state_tree.node a sT kid'))
    (huN : sN.unsplit g) (huT : sT.unsplit g)
    (hwN : (state_tree.node n sN kidN).wf) (hwT : (state_tree.node a sT kid').wf)
    (hd : Disjoint (state_tree.node n sN kidN).addrs (state_tree.node a sT kid').addrs)
    (hk : k < g.MAX_SYMBOL)
    (i5 : sNc.stat = sN.stat) (i6 : sTc.stat = sT.stat)
    (i7 : ∀ i, i < g.MAX_SYMBOL → sNc.iv i = { sN.iv i with to_ := (sNc.iv i).to_ } ∧
      sTc.iv i = { sT.iv i with to_ := (sTc.iv i).to_ })
    (i8 : ∀ i, i < k + 1 → (sNc.iv i).to_ = (sN.iv i).to_ ∧ (sTc.iv i).to_ = (sT.iv i).to_ ∧
      rep B (sN.iv i).to_ (kidN i g.MAX_TIME) ∧ rep B (sT.iv i).to_ (kid' i g.MAX_TIME))
    (i9 : ∀ i, k + 1 ≤ i → i < g.MAX_SYMBOL →
      (sTc.iv i).to_ = (merged_iv (sN.iv i) (sT.iv i)).to_ ∧
      rep B (sTc.iv i).to_ (merged_kid g sN sT kidN kid' i))
    (i10 : ∀ r, r ∉ (state_tree.node n sN kidN).addrs →
      r ∉ (state_tree.node a sT kid').addrs → B.mem r = B0.mem r)
    (i11 : B.next = B0.next ∧ B.states = B0.states ∧ B.marker = B0.marker ∧ B.root = B0.root)
    (hmN : B'.mem n = some sN2) (hmT : B'.mem a = some sT2) (hu2N : sN2.unsplit g)
    (hu2T : sT2.unsplit g) (hstN : sN2.stat = sNc.stat) (hstT : sT2.stat = sTc.stat)
    (hothN : ∀ i, i < g.MAX_SYMBOL → i ≠ k → sN2.iv i = sNc.iv i)
    (hothT : ∀ i, i < g.MAX_SYMBOL → i ≠ k → sT2.iv i = sTc.iv i)
    (hfr : ∀ r, r ≠ n → r ≠ a → r ∉ (kidN k g.MAX_TIME).addrs →
      r ∉ (kid' k g.MAX_TIME).addrs → B'.mem r = B.mem r)
    (hnext : B'.next = B.next) (hst : B'.states = B.states) (hmk : B'.marker = B.marker)
    (hrt : B'.root = B.root)
    (hkN : sN2.iv k = { sN.iv k with to_ := (sN2.iv k).to_ })
    (hkT : sT2.iv k = { sT.iv k with to_ := (sT2.iv k).to_ })
    (hdone : (sT2.iv k).to_ = (merged_iv (sN.iv k) (sT.iv k)).to_ ∧
      rep B' (sT2.iv k).to_ (merged_kid g sN sT kidN kid' k)) :
    un_split_inv g B0 n a sN sT kidN kid' k B' := by
  have hkeep : ∀ i, i < g.MAX_SYMBOL → i ≠ k → ∀ r,
      (r ∈ (kidN i g.MAX_TIME).addrs ∨ r ∈ (kid' i g.MAX_TIME).addrs) →
      B'.mem r = B.mem r := by
    intro i hi hik r hr
    obtain ⟨h1, h2⟩ := kids_apart_root huN huT hwN hwT hd hi hr
    obtain ⟨h3, h4⟩ := kids_apart huN huT hwN hwT hd hi hk hik hr
    exact hfr r h1 h2 h3 h4
  refine ⟨sN2, sT2, hmN, hmT, hu2N, hu2T, hstN.trans i5, hstT.trans i6, ?_, ?_, ?_, ?_,
    hnext.trans i11.1, hst.trans i11.2.1, hmk.trans i11.2.2.1, hrt.trans i11.2.2.2⟩
  · intro i hi
    by_cases hik : i = k
    · subst hik
      exact ⟨hkN, hkT⟩
    · rw [hothN i hi hik, hothT i hi hik]
      exact i7 i hi
  · intro i hi
    have hik : i ≠ k := by omega
    have hi' : i < g.MAX_SYMBOL := by omega
    obtain ⟨h1, h2, h3, h4⟩ := i8 i (by omega)
    rw [hothN i hi' hik, hothT i hi' hik]
    exact ⟨h1, h2, rep_frame h3 (fun r hr => hkeep i hi' hik r (Or.inl hr)),
      rep_frame h4 (fun r hr => hkeep i hi' hik r (Or.inr hr))⟩
  · intro i hki hi
    by_cases hik : i = k
    · subst hik
      exact hdone
    · obtain ⟨h1, h2⟩ := i9 i (by omega) hi
      rw [hothT i hi hik]
      exact ⟨h1, rep_frame h2 (fun r hr => hkeep i hi hik r (merged_kid_addrs hm hi hr))⟩
  · intro r hrN hrT
    rw [← i10 r hrN hrT]
    exact hfr r (fun h => hrN (h ▸ root_mem_addrs n sN kidN))
      (fun h => hrT (h ▸ root_mem_addrs a sT kid'))
      (fun h => hrN (kid_addrs_subset huN hk h)) (fun h => hrT (kid_addrs_subset huT hk h))

end RTI


namespace RTI

theorem mergeable_node {g : globals} {tn t' : state_tree} (h : mergeable g tn t') :
    ∃ n sN kidN a sT kid', tn = state_tree.node n sN kidN ∧ t' = state_tree.node a sT kid' := by
  cases tn with
  | null => exact absurd h (by simp [mergeable])
  | node n sN kidN =>
    obtain ⟨a, sT, kid', h1, -⟩ := h
    exact ⟨n, sN, kidN, a, sT, kid', rfl, h1⟩

theorem un_split_symbol_step {g : globals} {fuel : Nat} {B0 B : timed_automaton} {n a k : Nat}
    {sN sT : timed_state} {kidN kid' : Nat → Int → state_tree}
    (ih : recurse_un_split_ok g fuel)
    (hm : mergeable g (state_tree.node n sN kidN) (state_tree.node a sT kid'))
    (huN : sN.unsplit g) (huT : sT.unsplit g)
    (hwN : (state_tree.node n sN kidN).wf) (hwT : (state_tree.node a sT kid').wf)
    (hd : Disjoint (state_tree.node n sN kidN).addrs (state_tree.node a sT kid').addrs)
    (hk : k < g.MAX_SYMBOL)
    (hfit : ∀ i, i < g.MAX_SYMBOL → (kidN i g.MAX_TIME).fits fuel)
    (hinv : un_split_inv g B0 n a sN sT kidN kid' (k + 1) B) :
    ∃ B', un_split_symbol g (recurse_un_split g fuel) (some n) (some a) B k = some B' ∧
      un_split_inv g B0 n a sN sT kidN kid' k B' := by
  obtain ⟨sNc, sTc, i1, i2, i3, i4, i5, i6, i7, i8, i9, i10, i11⟩ := hinv
  have hna : n ≠ a := fun h =>
    Set.disjoint_left.1 hd (root_mem_addrs n sN kidN) (h ▸ root_mem_addrs a sT kid')
  obtain ⟨j1, j2, j3, j4⟩ := i8 k (Nat.lt_succ_self k)
  have hNt : (sNc.iv k).tails = (sN.iv k).tails := by
    have h := (i7 k hk).1
    rw [h]
  have hTt : (sTc.iv k).tails = (sT.iv k).tails := by
    have h := (i7 k hk).2
    rw [h]
  have hroot : ∀ r, (r ∈ (kidN k g.MAX_TIME).addrs ∨ r ∈ (kid' k g.MAX_TIME).addrs) →
      r ≠ n ∧ r ≠ a := fun r hr => kids_apart_root huN huT hwN hwT hd hk hr
  by_cases he : (sN.iv k).tails = []
  · refine ⟨B, un_split_symbol_skip (some a) i1 i3 hk (hNt.trans he), ?_⟩
    refine un_split_inv_step sNc sTc hm huN huT hwN hwT hd hk i5 i6 i7 i8 i9 i10 i11 i1 i2 i3 i4
      rfl rfl (fun _ _ _ => rfl) (fun _ _ _ => rfl) (fun _ _ _ _ _ => rfl) rfl rfl rfl rfl
      (i7 k hk).1 (i7 k hk).2 ⟨?_, ?_⟩
    · rw [j2]
      simp [merged_iv, he]
    · rw [j2]
      unfold merged_kid
      rw [if_pos he]
      exact j4
  · by_cases he' : (sT.iv k).tails = []
    · refine ⟨_, un_split_symbol_give i1 i2 hna i3 i4 hk (fun h => he (hNt ▸ h))
        (hTt.trans he'), ?_⟩
      refine un_split_inv_step
        (sNc.update k g.MAX_TIME (fun x => { x with to_ := none }))
        (sTc.update k g.MAX_TIME (fun x => { x with to_ := (sNc.iv k).to_ }))
        hm huN huT hwN hwT hd hk i5 i6 i7 i8 i9 i10 i11
        ?_ ?_ (timed_state.unsplit_update i3 hk _) (timed_state.unsplit_update i4 hk _)
        (by simp) (by simp) ?_ ?_ ?_ rfl rfl rfl rfl ?_ ?_ ?_
      · simp
      · simp [hna.symm]
      · intro i _ hik
        rw [timed_state.unsplit_update_iv i3 hk, if_neg hik]
      · intro i _ hik
        rw [timed_state.unsplit_update_iv i4 hk, if_neg hik]
      · intro r hrn hra _ _
        simp [hrn, hra]
      · rw [timed_state.unsplit_update_iv i3 hk, if_pos rfl]
        exact with_to_eq _ _ _ (i7 k hk).1
      · rw [timed_state.unsplit_update_iv i4 hk, if_pos rfl]
        exact with_to_eq _ _ _ (i7 k hk).2
      · rw [timed_state.unsplit_update_iv i4 hk, if_pos rfl]
        refine ⟨?_, ?_⟩
        · show (sNc.iv k).to_ = _
          rw [j1]
          simp [merged_iv, he, he']
        · show rep _ (sNc.iv k).to_ _
          rw [j1]
          unfold merged_kid
          rw [if_neg he, if_pos he']
          refine rep_frame j3 (fun r hr => ?_)
          obtain ⟨h1, h2⟩ := hroot r (Or.inl hr)
          simp [h1, h2]
    · -- both intervals hold tails: the recursive call, then the new child is deleted
      have hmk : mergeable g (kidN k g.MAX_TIME) (kid' k g.MAX_TIME) := by
        obtain ⟨a', sT', kid'', h1, _, _, h2⟩ := hm
        obtain ⟨rfl, rfl, rfl⟩ : a = a' ∧ sT = sT' ∧ kid' = kid'' := by
          simpa using h1
        exact h2 k hk he he'
      obtain ⟨n', sN', kN', a', sT', kT', hcN, hcT⟩ := mergeable_node hmk
      have hrN : (sN.iv k).to_ = some n' := by
        have := rep_root j3
        rw [hcN] at this
        exact this
      have hrT : (sT.iv k).to_ = some a' := by
        have := rep_root j4
        rw [hcT] at this
        exact this
      have hwN' := ((wf_unsplit huN).1 hwN).1 k hk
      have hwT' := ((wf_unsplit huT).1 hwT).1 k hk
      have hdk : Disjoint (kidN k g.MAX_TIME).addrs (kid' k g.MAX_TIME).addrs := by
        rw [Set.disjoint_left]
        intro r hr hr'
        exact Set.disjoint_left.1 hd (kid_addrs_subset huN hk hr) (kid_addrs_subset huT hk hr')
      rw [un_split_symbol_rec i1 i2 i3 i4 hk (fun h => he (hNt ▸ h)) (fun h => he' (hTt ▸ h)),
        j2, hrT]
      obtain ⟨B1, hB1, r1, r2, r3, r4, r5, r6⟩ :=
        ih B ⟨n, k, g.MAX_TIME⟩ (sNc.iv k) n' sN' kN' a' sT' kT'
          (read_unsplit i1 i3 hk) (j1.trans hrN) (by rw [← hcN, ← hrN]; exact j3)
          (by rw [← hcT, ← hrT]; exact j4) (by rw [← hcN, ← hcT]; exact hmk)
          (hcN ▸ hwN'.2) (hcT ▸ hwT'.2) (by rw [← hcN, ← hcT]; exact hdk) (hcN ▸ hfit k hk)
      have hn'k : n' ∈ (kidN k g.MAX_TIME).addrs := by
        rw [hcN]
        exact root_mem_addrs n' sN' kN'
      have hnn' : n ≠ n' := fun h => (hroot n' (Or.inl hn'k)).1 h.symm
      have han' : a ≠ n' := fun h => (hroot n' (Or.inl hn'k)).2 h.symm
      have hB1n : B1.mem n = some sNc := by
        rw [r2 n (fun h => hwN'.1 (hcN ▸ h))
          (fun h => (hroot n (Or.inr (hcT ▸ h))).1 rfl)]
        exact i1
      have hB1a : B1.mem a = some sTc := by
        rw [r2 a (fun h => (hroot a (Or.inl (hcN ▸ h))).2 rfl) (fun h => hwT'.1 (hcT ▸ h))]
        exact i2
      refine ⟨B1.free (some n'), ?_, ?_⟩
      · rw [hB1]
        simp only [Option.some_bind, read_unsplit hB1n i3 hk, Option.map_some', j1, hrN]
      · refine un_split_inv_step sNc sTc hm huN huT hwN hwT hd hk i5 i6 i7 i8 i9 i10 i11
          ?_ ?_ i3 i4 rfl rfl (fun _ _ _ => rfl) (fun _ _ _ => rfl) ?_
          (by rw [timed_automaton.free_next]; exact r3)
          (by rw [timed_automaton.free_states]; exact r4)
          (by rw [timed_automaton.free_marker]; exact r5) (by exact r6)
          (i7 k hk).1 (i7 k hk).2 ⟨?_, ?_⟩
        · rw [timed_automaton.free_mem, if_neg hnn']
          exact hB1n
        · rw [timed_automaton.free_mem, if_neg han']
          exact hB1a
        · intro r _ _ h3 h4
          have hrn' : r ≠ n' := fun h => h3 (by rw [h]; exact hn'k)
          rw [timed_automaton.free_mem, if_neg hrn']
          exact r2 r (fun h => h3 (hcN ▸ h)) (fun h => h4 (hcT ▸ h))
        · rw [j2]
          simp [merged_iv, he']
        · rw [j2, hrT]
          unfold merged_kid
          rw [if_neg he, if_neg he', hcN, hcT]
          refine rep_frame r1 (fun r hr => ?_)
          rw [timed_automaton.free_mem, if_neg]
          intro h
          subst h
          exact merge_root_not_mem (by rw [← hcN, ← hcT]; exact hmk) (hcN ▸ hwN'.2)
            (by rw [← hcN, ← hcT]; exact hdk) hr

end RTI


namespace RTI

/-! ### The second loop over the symbols in `recurse_un_split` -/

theorem move_counts_spec {g : globals} (ts : List timed_tail) {A : timed_automaton}
    {a n : Nat} {sT sN : timed_state} (hT : A.mem a = some sT) (hN : A.mem n = some sN)
    (hne : a ≠ n) :
    ∃ A1, move_counts g (some a) (some n) A ts = some A1 ∧
      A1.mem a = some { sT with stat := add_counts g sT.stat ts } ∧
      A1.mem n = some { sN with stat := del_counts g sN.stat ts } ∧
      (∀ r, r ≠ a → r ≠ n → A1.mem r = A.mem r) ∧ A1.next = A.next ∧
      A1.states = A.states ∧ A1.marker = A.marker ∧ A1.root = A.root := by
  induction ts generalizing A sT sN with
  | nil => exact ⟨A, rfl, hT, hN, fun _ _ _ => rfl, rfl, rfl, rfl, rfl⟩
  | cons x ts ih =>
    have h1 : (A.store a { sT with stat := sT.stat.add_count g x }).mem n = some sN := by
      rw [timed_automaton.store_mem, if_neg hne.symm]
      exact hN
    obtain ⟨A1, e1, e2, e3, e4, e5, e6, e7, e8⟩ :=
      @ih ((A.store a { sT with stat := sT.stat.add_count g x }).store n
          { sN with stat := sN.stat.del_count g x })
        { sT with stat := sT.stat.add_count g x } { sN with stat := sN.stat.del_count g x }
        (by simp [hne]) (by simp)
    refine ⟨A1, ?_, e2, e3, ?_, e5, e6, e7, e8⟩
    · simp only [move_counts, update_stat_eq hT, Option.some_bind, update_stat_eq h1]
      exact e1
    · intro r hra hrn
      rw [e4 r hra hrn]
      simp [hra, hrn]

theorem back_step_unsplit {g : globals} (ts : Nat → tail_set) {s : timed_state}
    (h : s.unsplit g) {i : Nat} (hi : i < g.MAX_SYMBOL) : (back_step g ts s i).unsplit g :=
  timed_state.unsplit_update h hi _

theorem back_step_iv {g : globals} (ts : Nat → tail_set) {s : timed_state}
    (h : s.unsplit g) {i : Nat} (hi : i < g.MAX_SYMBOL) (j : Nat) :
    (back_step g ts s i).iv j = if j = i
      then { s.iv i with tails := insert_tails (s.iv i).tails (ts i) } else s.iv j :=
  timed_state.unsplit_update_iv h hi _ j

theorem move_back_symbol_spec {g : globals} {A : timed_automaton} {a n : Nat}
    {sT sN : timed_state} (hT : A.mem a = some sT) (hN : A.mem n = some sN) (hne : a ≠ n)
    (huT : sT.unsplit g) (huN : sN.unsplit g) {k : Nat} (hk : k < g.MAX_SYMBOL) :
    ∃ A1, move_back_symbol g (some n) (some a) A k = some A1 ∧
      A1.mem a = some (back_step g (fun i => (sN.iv i).tails) sT k) ∧
      A1.mem n = some { sN with stat := del_counts g sN.stat (sN.iv k).tails } ∧
      (∀ r, r ≠ a → r ≠ n → A1.mem r = A.mem r) ∧ A1.next = A.next ∧
      A1.states = A.states ∧ A1.marker = A.marker ∧ A1.root = A.root := by
  have h1 : (A.store a (sT.update k g.MAX_TIME
      (fun x => { x with tails := insert_tails x.tails (sN.iv k).tails }))).mem n
        = some sN := by
    rw [timed_automaton.store_mem, if_neg hne.symm]
    exact hN
  obtain ⟨A1, e1, e2, e3, e4, e5, e6, e7, e8⟩ :=
    move_counts_spec (sN.iv k).tails
      (timed_automaton.store_mem A a _ a |>.trans (if_pos rfl)) h1 hne
  refine ⟨A1, ?_, ?_, e3, ?_, e5, e6, e7, e8⟩
  · simp only [move_back_symbol, interval_at_unsplit hN huN hk, Option.some_bind,
      interval_at_unsplit hT huT hk, write_eq hT]
    exact e1
  · rw [e2]
    simp only [back_step, timed_state.update_stat]
  · intro r hra hrn
    rw [e4 r hra hrn]
    simp [hra]

theorem move_back_loop {g : globals} {a n : Nat} (hne : a ≠ n) (ts : Nat → tail_set)
    (L : List Nat) (hL : ∀ i, i ∈ L → i < g.MAX_SYMBOL) :
    ∀ (A : timed_automaton) (sT sN : timed_state), A.mem a = some sT → A.mem n = some sN →
      sT.unsplit g → sN.unsplit g → (∀ i, (sN.iv i).tails = ts i) →
      ∃ A1, L.foldlM (move_back_symbol g (some n) (some a)) A = some A1 ∧
        A1.mem a = some (L.foldl (back_step g ts) sT) ∧
        (∀ r, r ≠ a → r ≠ n → A1.mem r = A.mem r) ∧ A1.next = A.next ∧
        A1.states = A.states ∧ A1.marker = A.marker ∧ A1.root = A.root := by
  induction L with
  | nil =>
    intro A sT sN hT _ _ _ _
    exact ⟨A, rfl, hT, fun _ _ _ => rfl, rfl, rfl, rfl, rfl⟩
  | cons k L ih =>
    intro A sT sN hT hN huT huN hts
    have hk := hL k (List.mem_cons_self _ _)
    obtain ⟨A1, e1, e2, e3, e4, e5, e6, e7, e8⟩ := move_back_symbol_spec hT hN hne huT huN hk
    have hfun : (fun i => (sN.iv i).tails) = ts := funext hts
    rw [hfun] at e2
    obtain ⟨A2, f1, f2, f4, f5, f6, f7, f8⟩ :=
      ih (fun i hi => hL i (List.mem_cons_of_mem _ hi)) A1 _ _ e2 e3
        (back_step_unsplit ts huT hk) huN hts
    refine ⟨A2, ?_, f2, fun r hra hrn => (f4 r hra hrn).trans (e4 r hra hrn), f5.trans e5,
      f6.trans e6, f7.trans e7, f8.trans e8⟩
    rw [List.foldlM_cons, e1]
    exact f1

theorem back_fold_unsplit {g : globals} (ts : Nat → tail_set) (L : List Nat)
    (hL : ∀ i, i ∈ L → i < g.MAX_SYMBOL) {s : timed_state} (h : s.unsplit g) :
    (L.foldl (back_step g ts) s).unsplit g := by
  induction L generalizing s with
  | nil => exact h
  | cons k L ih =>
    exact ih (fun i hi => hL i (List.mem_cons_of_mem _ hi))
      (back_step_unsplit ts h (hL k (List.mem_cons_self _ _)))

theorem back_fold_stat {g : globals} (ts : Nat → tail_set) (L : List Nat) (s : timed_state) :
    (L.foldl (back_step g ts) s).stat = L.foldl (fun st i => add_counts g st (ts i)) s.stat := by
  induction L generalizing s with
  | nil => rfl
  | cons k L ih =>
    rw [List.foldl_cons, List.foldl_cons, ih]
    rfl

theorem back_fold_iv {g : globals} (ts : Nat → tail_set) (L : List Nat)
    (hL : ∀ i, i ∈ L → i < g.MAX_SYMBOL) (hnd : L.Nodup) {s : timed_state} (h : s.unsplit g)
    (j : Nat) :
    (L.foldl (back_step g ts) s).iv j = if j ∈ L
      then { s.iv j with tails := insert_tails (s.iv j).tails (ts j) } else s.iv j := by
  induction L generalizing s with
  | nil => simp
  | cons k L ih =>
    have hk := hL k (List.mem_cons_self _ _)
    obtain ⟨hkL, hnd'⟩ := List.nodup_cons.1 hnd
    rw [List.foldl_cons, ih (fun i hi => hL i (List.mem_cons_of_mem _ hi)) hnd'
      (back_step_unsplit ts h hk), back_step_iv ts h hk]
    by_cases hjk : j = k
    · subst hjk
      simp [hkL]
    · simp [hjk]

end RTI


namespace RTI

theorem back_fold_eq_merge {g : globals} {sN sT sTc : timed_state} (huT : sT.unsplit g)
    (huc : sTc.unsplit g) (hst : sTc.stat = sT.stat)
    (hiv : ∀ i, i < g.MAX_SYMBOL → sTc.iv i = { sT.iv i with to_ := (sTc.iv i).to_ })
    (hto : ∀ i, i < g.MAX_SYMBOL → (sTc.iv i).to_ = (merged_iv (sN.iv i) (sT.iv i)).to_) :
    (List.range g.MAX_SYMBOL).reverse.foldl (back_step g (fun i => (sN.iv i).tails)) sTc
      = merge_state g sN sT := by
  have hL : ∀ i, i ∈ (List.range g.MAX_SYMBOL).reverse → i < g.MAX_SYMBOL := by
    intro i hi
    simpa using hi
  refine timed_state.unsplit_ext (back_fold_unsplit _ _ hL huc) (merge_state_unsplit g sN sT)
    ?_ ?_
  · rw [back_fold_stat, hst]
    rfl
  · intro i hi
    rw [back_fold_iv _ _ hL (List.nodup_reverse.2 (List.nodup_range _)) huc,
      if_pos (by simpa using hi), merge_state_iv g sN sT hi]
    have h := hiv i hi
    have h2 := hto i hi
    generalize sTc.iv i = c at h h2
    rw [h]
    simp only [merged_iv] at h2 ⊢
    rw [h2]

theorem recurse_un_split_spec (g : globals) (fuel : Nat) : recurse_un_split_ok g fuel := by
  induction fuel with
  | zero =>
    intro B new_in ni n sN kidN a sT kid' _ _ _ _ _ _ _ _ hfit
    obtain ⟨m, hm, _⟩ := hfit
    omega
  | succ fuel ih =>
    intro B new_in ni n sN kidN a sT kid' hread hto hrN hrT hm hwN hwT hd hfit
    obtain ⟨a', sT', kid'', he, huN, huT, hkids⟩ := id hm
    obtain ⟨rfl, rfl, rfl⟩ : a = a' ∧ sT = sT' ∧ kid' = kid'' := by
      simpa using he
    obtain ⟨-, hmN, hrepN⟩ := (rep_unsplit huN).1 hrN
    obtain ⟨-, hmT, hrepT⟩ := (rep_unsplit huT).1 hrT
    obtain ⟨m, hm', hfits⟩ := (fits_unsplit huN).1 hfit
    obtain rfl : fuel = m := by omega
    have hna : n ≠ a := fun h =>
      Set.disjoint_left.1 hd (root_mem_addrs n sN kidN) (h ▸ root_mem_addrs a sT kid')
    have hinv0 : un_split_inv g B n a sN sT kidN kid' g.MAX_SYMBOL B :=
      ⟨sN, sT, hmN, hmT, huN, huT, rfl, rfl, fun i _ => ⟨rfl, rfl⟩,
        fun i hi => ⟨rfl, rfl, hrepN i hi, hrepT i hi⟩,
        fun i h1 h2 => absurd h2 (by omega), fun _ _ _ => rfl, rfl, rfl, rfl, rfl⟩
    obtain ⟨B1, hB1, hinv⟩ := foldlM_range_reverse_inv
      (un_split_symbol g (recurse_un_split g fuel) (some n) (some a))
      (un_split_inv g B n a sN sT kidN kid') g.MAX_SYMBOL B hinv0
      (fun k C hk hI => un_split_symbol_step ih hm huN huT hwN hwT hd hk hfits hI)
    obtain ⟨sNc, sTc, i1, i2, i3, i4, i5, i6, i7, i8, i9, i10, i11, i12, i13, i14⟩ := hinv
    have hts : ∀ i, (sNc.iv i).tails = (sN.iv i).tails := by
      intro i
      by_cases hi : i < g.MAX_SYMBOL
      · have h := (i7 i hi).1
        rw [h]
      · have h1 : sNc.targets[i]? = none := by
          rw [List.getElem?_eq_none]
          rw [i3.1]
          omega
        have h2 : sN.targets[i]? = none := by
          rw [List.getElem?_eq_none]
          rw [huN.1]
          omega
        simp [timed_state.iv, h1, h2]
    have hL : ∀ i, i ∈ (List.range g.MAX_SYMBOL).reverse → i < g.MAX_SYMBOL := by
      intro i hi
      simpa using hi
    obtain ⟨B2, hB2, k1, k2, k3, k4, k5, k6⟩ :=
      move_back_loop hna.symm (fun i => (sN.iv i).tails) _ hL B1 sTc sNc i2 i1 i4 i3 hts
    rw [back_fold_eq_merge huT i4 i6 (fun i hi => (i7 i hi).2)
      (fun i hi => (i9 i (Nat.zero_le i) hi).1)] at k1
    refine ⟨B2, ?_, ?_, ?_, k3.trans i11, k4.trans i12, k5.trans i13, k6.trans i14⟩
    · simp only [recurse_un_split, hread, Option.some_bind, interval.get_target, hto, hB1]
      exact hB2
    · rw [merge_tree_node]
      refine (rep_unsplit (merge_state_unsplit g sN sT)).2 ⟨rfl, k1, fun i hi => ?_⟩
      obtain ⟨h1, h2⟩ := i9 i (Nat.zero_le i) hi
      rw [merge_state_iv g sN sT hi, ← h1]
      refine rep_frame h2 (fun r hr => ?_)
      obtain ⟨h3, h4⟩ := kids_apart_root huN huT hwN hwT hd hi (merged_kid_addrs hm hi hr)
      exact k2 r h4 h3
    · intro r hrN' hrT'
      rw [k2 r (fun h => hrT' (h ▸ root_mem_addrs a sT kid'))
        (fun h => hrN' (h ▸ root_mem_addrs n sN kidN))]
      exact i10 r hrN' hrT'

end RTI


namespace RTI

/-! ### Dividing a tree and merging the parts gives the tree back -/

theorem interval_equiv_refl (a : interval) : interval_equiv a a :=
  ⟨rfl, rfl, List.Perm.refl _, rfl, rfl⟩

theorem interval_set_equiv_refl (l : interval_set) : interval_set_equiv l l :=
  List.forall₂_same.2 (fun x _ => ⟨rfl, interval_equiv_refl x.2⟩)

theorem state_equiv_refl (s : timed_state) : state_equiv s s :=
  ⟨rfl, List.forall₂_same.2 (fun x _ => interval_set_equiv_refl x)⟩

theorem tree_equiv_refl (t : state_tree) : tree_equiv t t := by
  induction t with
  | null => rfl
  | node a s kid ih => exact ⟨s, kid, rfl, state_equiv_refl s, fun i e _ => ih i e.1⟩

theorem unsplit_targets_eq_map {g : globals} {s : timed_state} (h : s.unsplit g) :
    s.targets = (List.range g.MAX_SYMBOL).map (fun i => [(g.MAX_TIME, s.iv i)]) := by
  apply List.ext_getElem?
  intro i
  by_cases hi : i < g.MAX_SYMBOL
  · rw [timed_state.unsplit_targets h hi]
    simp [hi]
  · rw [List.getElem?_eq_none (by rw [h.1]; omega), List.getElem?_eq_none (by simp; omega)]

theorem state_equiv_unsplit {g : globals} {s s' : timed_state} (h : s.unsplit g)
    (h' : s'.unsplit g) (hst : s.stat = s'.stat)
    (hiv : ∀ i, i < g.MAX_SYMBOL → interval_equiv (s.iv i) (s'.iv i)) : state_equiv s s' := by
  refine ⟨hst, ?_⟩
  rw [unsplit_targets_eq_map h, unsplit_targets_eq_map h', List.forall₂_map_left_iff,
    List.forall₂_map_right_iff, List.forall₂_same]
  intro i hi
  exact List.Forall₂.cons ⟨rfl, hiv i (List.mem_range.1 hi)⟩ List.Forall₂.nil

theorem collect_fold (g : globals) (ts : Nat → tail_set) (k : Nat) (s : state_statistics) :
    (List.range k).reverse.foldl (fun st i => add_counts g st (ts i)) s
      = add_counts g s (collect ts k) := by
  induction k generalizing s with
  | zero => rfl
  | succ k ih =>
    rw [List.range_succ, List.reverse_append, List.reverse_singleton, List.singleton_append,
      List.foldl_cons, ih, collect, add_counts_append]

theorem collect_count (ts : Nat → tail_set) (c : timed_tail → Nat) (k : Nat)
    (h : ∀ i, i < k → ∀ x, (ts i).count x = if x.get_symbol = i then c x else 0)
    (x : timed_tail) : (collect ts k).count x = if x.get_symbol < k then c x else 0 := by
  induction k with
  | zero => simp [collect]
  | succ k ih =>
    rw [collect, List.count_append, ih (fun i hi => h i (Nat.lt_succ_of_lt hi)),
      h k (Nat.lt_succ_self k)]
    by_cases h1 : x.get_symbol = k
    · have h2 : ¬ x.get_symbol < k := by omega
      have h3 : x.get_symbol < k + 1 := by omega
      simp [h1, h2, h3]
    · by_cases h2 : x.get_symbol < k
      · have h3 : x.get_symbol < k + 1 := by omega
        simp [h1, h2, h3]
      · have h3 : ¬ x.get_symbol < k + 1 := by omega
        simp [h1, h2, h3]

theorem split_rel_roundtrip {g : globals} (t : state_tree) :
    ∀ (X : List timed_tail) (tn t' : state_tree), t.placed g X → split_rel g t X tn t' →
      mergeable g tn t' ∧ tree_equiv t (merge_tree g tn t') ∧ ∀ m, t.fits m → tn.fits m := by
  induction t with
  | null =>
    intro X tn t' _ h
    exact absurd h (by simp [split_rel])
  | node a sT kid ih =>
    intro X tn t' hpl h
    obtain ⟨hsT, hs, hc, hkids⟩ := hpl
    obtain ⟨n, sN, kidN, sT', kid', rfl, rfl, huN, huT', hst, -, hsym⟩ := h
    -- the recursive calls
    have hrec : ∀ i, i < g.MAX_SYMBOL → (sN.iv i).tails ≠ [] → (sT'.iv i).tails ≠ [] →
        mergeable g (kidN i g.MAX_TIME) (kid' i g.MAX_TIME) ∧
        tree_equiv (kid i g.MAX_TIME)
          (merge_tree g (kidN i g.MAX_TIME) (kid' i g.MAX_TIME)) ∧
        ∀ m, (kid i g.MAX_TIME).fits m → (kidN i g.MAX_TIME).fits m := by
      intro i hi h1 h2
      obtain ⟨e1, e2, -, -, -, -, -, e8⟩ := hsym i hi
      rw [if_neg h1, if_neg h2] at e8
      have hP : (sT.iv i).tails ≠ [] := by
        intro h
        apply h1
        apply List.eq_nil_iff_forall_not_mem.2
        intro x hx
        have := e2 x
        rw [h, List.count_nil] at this
        exact absurd (List.count_pos_iff.2 hx) (by omega)
      obtain ⟨c, sc, kc, hcn⟩ := placed_node (hkids i hi) hP
      refine ih i g.MAX_TIME _ _ _ ?_ e8.2
      rw [hcn]
      refine placed_mono (hcn ▸ hkids i hi) (fun x => ?_)
      have := e2 x
      omega
    refine ⟨⟨a, sT', kid', rfl, huN, huT', fun i hi h1 h2 => (hrec i hi h1 h2).1⟩, ?_, ?_⟩
    · rw [merge_tree_node]
      refine ⟨_, _, rfl, state_equiv_unsplit hsT (merge_state_unsplit g sN sT') ?_ ?_, ?_⟩
      · -- the statistics
        show sT.stat = (List.range g.MAX_SYMBOL).reverse.foldl
          (fun st i => add_counts g st (sN.iv i).tails) sT'.stat
        rw [collect_fold g (fun i => (sN.iv i).tails), hst]
        refine (add_counts_del_counts_perm g sT.stat ?_).symm
        rw [List.perm_iff_count]
        intro x
        rw [collect_count (fun i => (sN.iv i).tails) (fun x => (nexts X).count x)
          g.MAX_SYMBOL (fun i hi => (hsym i hi).1)]
        split
        · rfl
        · rename_i hx
          by_contra hne
          have : x ∈ nexts X := List.count_pos_iff.1 (by omega)
          exact hx (hs x this)
      · intro i hi
        obtain ⟨e1, e2, e3, e4, e5, e6, e7, e8⟩ := hsym i hi
        rw [merge_state_iv g sN sT' hi]
        refine ⟨e3.symm, e4.symm, ?_, ?_, e5.symm⟩
        · rw [List.perm_iff_count]
          intro x
          show _ = (insert_tails _ _).count x
          rw [count_insert_tails]
          exact (e2 x).symm
        · show _ = if _ then _ else _
          by_cases h1 : (sN.iv i).tails = []
          · rw [if_pos h1] at e8
            simp [h1, e8.2.2.1]
          · rw [if_neg h1] at e8
            by_cases h2 : (sT'.iv i).tails = []
            · rw [if_pos h2] at e8
              simp [h1, h2, e8.2.2.1]
            · rw [if_neg h2] at e8
              simp [h2, e8.1]
      · intro i e he
        obtain ⟨hi, rfl⟩ := (timed_state.unsplit_is_edge hsT).1 he
        obtain ⟨-, -, -, -, -, -, -, e8⟩ := hsym i hi
        show tree_equiv (kid i g.MAX_TIME) (if _ then _ else _)
        by_cases h1 : (sN.iv i).tails = []
        · rw [if_pos h1] at e8 ⊢
          rw [e8.2.1]
          exact tree_equiv_refl _
        · rw [if_neg h1] at e8 ⊢
          by_cases h2 : (sT'.iv i).tails = []
          · rw [if_pos h2] at e8 ⊢
            rw [e8.1]
            exact tree_equiv_refl _
          · rw [if_neg h2]
            exact (hrec i hi h1 h2).2.1
    · intro m hm
      obtain ⟨m', rfl, hf⟩ := (fits_unsplit hsT).1 hm
      refine (fits_unsplit huN).2 ⟨m', rfl, fun i hi => ?_⟩
      obtain ⟨-, -, -, -, -, -, -, e8⟩ := hsym i hi
      by_cases h1 : (sN.iv i).tails = []
      · rw [if_pos h1] at e8
        rw [e8.1]
        trivial
      · rw [if_neg h1] at e8
        by_cases h2 : (sT'.iv i).tails = []
        · rw [if_pos h2] at e8
          rw [e8.1]
          exact hf i hi
        · exact (hrec i hi h1 h2).2.2 m' (hf i hi)

end RTI


namespace RTI

/-! ### A partition around one of its intervals -/

theorem lower_bound_split {l : interval_set} {t : Int} {e : Int × interval}
    (h : lower_bound l t = some e) :
    ∃ pre post, l = pre ++ e :: post ∧ (∀ x, x ∈ pre → x.1 < t) ∧ t ≤ e.1 := by
  induction l with
  | nil => simp [lower_bound] at h
  | cons x xs ih =>
    obtain ⟨k, i⟩ := x
    simp only [lower_bound] at h
    split at h
    · rename_i hle
      cases h
      exact ⟨[], xs, rfl, fun _ hx => absurd hx (List.not_mem_nil _), hle⟩
    · rename_i hlt
      obtain ⟨pre, post, h1, h2, h3⟩ := ih h
      refine ⟨(k, i) :: pre, post, by rw [h1]; rfl, ?_, h3⟩
      intro y hy
      rcases List.mem_cons.1 hy with rfl | hy
      · exact not_le.1 hlt
      · exact h2 y hy

theorem lower_bound_at (pre post : interval_set) (e : Int × interval) (t : Int)
    (hpre : ∀ x, x ∈ pre → x.1 < t) (he : t ≤ e.1) :
    lower_bound (pre ++ e :: post) t = some e := by
  induction pre with
  | nil =>
    obtain ⟨k, i⟩ := e
    simp only [List.nil_append, lower_bound, if_pos he]
  | cons x xs ih =>
    obtain ⟨k, i⟩ := x
    have hk : ¬ t ≤ k := not_le.2 (hpre (k, i) (List.mem_cons_self _ _))
    simp only [List.cons_append, lower_bound, if_neg hk]
    exact ih (fun y hy => hpre y (List.mem_cons_of_mem _ hy))

theorem find_interval_at (pre post : interval_set) (e : Int × interval) (t : Int)
    (hpre : ∀ x, x ∈ pre → x.1 < t) (he : t ≤ e.1) :
    find_interval (pre ++ e :: post) t = some e := by
  simp only [find_interval, lower_bound_at pre post e t hpre he]

theorem split_set_at (pre post : interval_set) (k : Int) (i : interval) (t : Int)
    (hpre : ∀ x, x ∈ pre → x.1 < t) (hk : t < k) (hb : i.begin ≤ t) (he : t < i.end_) :
    split_set (pre ++ (k, i) :: post) t
      = some (around pre post t k (new_half i t) (old_half i t)) := by
  induction pre with
  | nil =>
    have h1 : t ≤ k := le_of_lt hk
    have h2 : k ≠ t := ne_of_gt hk
    simp only [List.nil_append, split_set, if_pos h1, hb, he, and_self, ↓reduceIte, if_neg h2,
      around, new_half, old_half]
  | cons x xs ih =>
    obtain ⟨k', i'⟩ := x
    have hk' : ¬ t ≤ k' := not_le.2 (hpre (k', i') (List.mem_cons_self _ _))
    rw [List.cons_append, split_set, if_neg hk',
      ih (fun y hy => hpre y (List.mem_cons_of_mem _ hy))]
    rfl

theorem update_interval_at (pre post : interval_set) (k : Int) (i : interval)
    (f : interval → interval) (hpre : ∀ x, x ∈ pre → x.1 ≠ k) :
    update_interval (pre ++ (k, i) :: post) k f = pre ++ (k, f i) :: post := by
  induction pre with
  | nil => simp only [List.nil_append, update_interval, ↓reduceIte]
  | cons x xs ih =>
    obtain ⟨k', i'⟩ := x
    have hk' : k' ≠ k := hpre (k', i') (List.mem_cons_self _ _)
    rw [List.cons_append, update_interval, if_neg hk',
      ih (fun y hy => hpre y (List.mem_cons_of_mem _ hy))]
    rfl

theorem find_key_at (pre post : interval_set) (k : Int) (i : interval)
    (hpre : ∀ x, x ∈ pre → x.1 ≠ k) :
    (pre ++ (k, i) :: post).find? (fun e => e.1 == k) = some (k, i) := by
  induction pre with
  | nil => simp
  | cons x xs ih =>
    have hk' : x.1 ≠ k := hpre x (List.mem_cons_self _ _)
    rw [List.cons_append, List.find?_cons_of_neg _ (by simpa using hk')]
    exact ih (fun y hy => hpre y (List.mem_cons_of_mem _ hy))

theorem undo_split_set_around (pre post : interval_set) (t k : Int) (a b : interval)
    (hpre : ∀ x, x ∈ pre → x.1 ≠ t) :
    undo_split_set (pre ++ (t, a) :: (k, b) :: post) t = some (pre ++
      (k, { b with tails := insert_tails b.tails a.tails, begin := a.begin }) :: post) := by
  induction pre with
  | nil => simp only [List.nil_append, undo_split_set, ↓reduceIte]
  | cons x xs ih =>
    have hk' : x.1 ≠ t := hpre x (List.mem_cons_self _ _)
    have ih' := ih (fun y hy => hpre y (List.mem_cons_of_mem _ hy))
    cases xs with
    | nil =>
      rw [List.cons_append, List.nil_append, undo_split_set_cons_ne x _ _ t hk']
      rw [List.nil_append] at ih'
      rw [ih']
      rfl
    | cons y ys =>
      rw [List.cons_append, List.cons_append, undo_split_set_cons_ne x _ _ t hk']
      rw [List.cons_append] at ih'
      rw [ih']
      rfl

/-! ### The state whose partition is split -/

namespace timed_state

theorem set_intervals_get (s : timed_state) {symbol : Nat} (l : interval_set)
    (h : symbol < s.targets.length) : (s.set_intervals symbol l).targets[symbol]? = some l := by
  simp [set_intervals, h]

theorem set_intervals_set (s : timed_state) (symbol : Nat) (l l' : interval_set) :
    (s.set_intervals symbol l).set_intervals symbol l' = s.set_intervals symbol l' := by
  simp [set_intervals]

theorem set_intervals_update (s : timed_state) {symbol : Nat} (l : interval_set)
    (h : symbol < s.targets.length) (key : Int) (f : interval → interval) :
    (s.set_intervals symbol l).update symbol key f
      = s.set_intervals symbol (update_interval l key f) := by
  unfold update
  rw [set_intervals_get s l h]
  simp [set_intervals]

theorem set_intervals_find (s : timed_state) {symbol : Nat} (l : interval_set)
    (h : symbol < s.targets.length) (t : Int) :
    (s.set_intervals symbol l).find symbol t = find_interval l t := by
  simp [find, get_intervals, set_intervals_get s l h]

theorem set_intervals_self (s : timed_state) {symbol : Nat} {l : interval_set}
    (h : s.targets[symbol]? = some l) : s.set_intervals symbol l = s := by
  cases s with
  | mk targets stat =>
    simp only [set_intervals]
    congr 1
    apply List.ext_getElem?
    intro j
    by_cases hj : j = symbol
    · subst hj
      have hlt : j < targets.length := (List.getElem?_eq_some.1 h).1
      rw [List.getElem?_set_self hlt]
      exact h.symm
    · rw [List.getElem?_set_ne (fun h' => hj h'.symm)]

end timed_state

theorem interval_at_set {A : timed_automaton} {p : Nat} {s : timed_state} {symbol : Nat}
    {l : interval_set} (hm : A.mem p = some (s.set_intervals symbol l))
    (h : symbol < s.targets.length) {t : Int} {e : Int × interval}
    (hf : find_interval l t = some e) :
    A.interval_at (some p) symbol t = some (⟨p, symbol, e.1⟩, e.2) := by
  simp [timed_automaton.interval_at, hm, timed_state.set_intervals_find s l h, hf]

theorem read_set {A : timed_automaton} {p : Nat} {s : timed_state} {symbol : Nat}
    {l : interval_set} (hm : A.mem p = some (s.set_intervals symbol l))
    (h : symbol < s.targets.length) {k : Int} {i : interval}
    (hf : l.find? (fun e => e.1 == k) = some (k, i)) :
    A.read ⟨p, symbol, k⟩ = some i := by
  simp [timed_automaton.read, hm, timed_state.get_intervals,
    timed_state.set_intervals_get s l h, hf]

theorem write_set {A : timed_automaton} {p : Nat} {s : timed_state} {symbol : Nat}
    {l : interval_set} (hm : A.mem p = some (s.set_intervals symbol l))
    (h : symbol < s.targets.length) (k : Int) (f : interval → interval) :
    A.write ⟨p, symbol, k⟩ f
      = some (A.store p (s.set_intervals symbol (update_interval l k f))) := by
  rw [write_eq hm, timed_state.set_intervals_update s l h]

end RTI


namespace RTI

theorem lower_bound_eq_none {l : interval_set} {t : Int} (h : lower_bound l t = none) :
    ∀ e, e ∈ l → e.1 < t := by
  induction l with
  | nil => exact fun e he => absurd he (List.not_mem_nil _)
  | cons x xs ih =>
    obtain ⟨k, i⟩ := x
    simp only [lower_bound] at h
    split at h
    · cases h
    · rename_i hk
      intro e he
      rcases List.mem_cons.1 he with rfl | he
      · exact not_le.1 hk
      · exact ih h e he

theorem find_interval_decomp {g : globals} {l : interval_set} {time k : Int} {i : interval}
    (hok : partition_ok g l) (hf : find_interval l time = some (k, i)) (he : time < i.end_) :
    ∃ pre post, l = pre ++ (k, i) :: post ∧ (∀ x, x ∈ pre → x.1 < time) ∧ time < k := by
  have hkeys := (partition_ok_keys hok).1
  unfold find_interval at hf
  cases hlb : lower_bound l time with
  | none =>
    rw [hlb] at hf
    have hmem : (k, i) ∈ l := List.mem_of_getLast?_eq_some hf
    have h1 := lower_bound_eq_none hlb (k, i) hmem
    have h2 := (hkeys (k, i) hmem).1
    simp only at h1 h2
    omega
  | some e =>
    rw [hlb] at hf
    cases hf
    obtain ⟨pre, post, h1, h2, h3⟩ := lower_bound_split hlb
    refine ⟨pre, post, h1, h2, ?_⟩
    have hmem : (k, i) ∈ l := by
      rw [h1]
      simp
    have h4 := (hkeys (k, i) hmem).1
    simp only at h3 h4
    omega

/-- The facts about a partition `around pre post time k x y` that the two operations
use. -/
theorem two_at (pre post : interval_set) (time k : Int) (x y : interval)
    (hpre : ∀ e, e ∈ pre → e.1 < time) (hk : time < k) :
    find_interval (around pre post time k x y) time = some (time, x) ∧
    find_interval (around pre post time k x y) (time + 1) = some (k, y) ∧
    (around pre post time k x y).find? (fun e => e.1 == time) = some (time, x) ∧
    (around pre post time k x y).find? (fun e => e.1 == k) = some (k, y) ∧
    (∀ f, update_interval (around pre post time k x y) time f
      = around pre post time k (f x) y) ∧
    (∀ f, update_interval (around pre post time k x y) k f
      = around pre post time k x (f y)) ∧
    undo_split_set (around pre post time k x y) time = some (pre ++
      (k, { y with tails := insert_tails y.tails x.tails, begin := x.begin }) :: post) := by
  have hne : ∀ e, e ∈ pre → e.1 ≠ time := fun e he => ne_of_lt (hpre e he)
  have hassoc : ∀ (x : interval) (r : interval_set), pre ++ (time, x) :: r
      = (pre ++ [(time, x)]) ++ r := by
    intro x r
    simp
  have hpre' : ∀ e, e ∈ pre ++ [(time, x)] → e.1 < time + 1 := by
    intro e he
    rcases List.mem_append.1 he with h | h
    · have := hpre e h
      omega
    · rw [List.mem_singleton.1 h]
      simp
  have hne' : ∀ e, e ∈ pre ++ [(time, x)] → e.1 ≠ k := by
    intro e he
    have := hpre' e he
    omega
  unfold around
  refine ⟨find_interval_at pre _ (time, x) time hpre (le_refl _), ?_,
    find_key_at pre _ time x hne, ?_, fun f => update_interval_at pre _ time x f hne, ?_,
    undo_split_set_around pre post time k x y hne⟩
  · rw [hassoc]
    exact find_interval_at _ post (k, y) (time + 1) hpre' (by simp only; omega)
  · rw [hassoc]
    exact find_key_at _ post k y hne'
  · intro f
    rw [hassoc, update_interval_at _ post k y f hne']
    simp

theorem forall₂_set {α : Type} {R : α → α → Prop} (hR : ∀ x, R x x) {a b : α} (hab : R a b)
    (ts : List α) (n : Nat) : List.Forall₂ R (ts.set n a) (ts.set n b) := by
  induction ts generalizing n with
  | nil => exact List.Forall₂.nil
  | cons t ts ih =>
    cases n with
    | zero => exact List.Forall₂.cons hab (List.forall₂_same.2 (fun x _ => hR x))
    | succ n => exact List.Forall₂.cons (hR t) (ih n)

theorem state_equiv_set {s : timed_state} {symbol : Nat} {l l' : interval_set}
    (h : s.targets[symbol]? = some l) (hl : interval_set_equiv l l') :
    state_equiv s (s.set_intervals symbol l') := by
  refine ⟨rfl, ?_⟩
  have h1 : s.targets = s.targets.set symbol l :=
    congrArg timed_state.targets (timed_state.set_intervals_self s h).symm
  conv_lhs => rw [h1]
  exact forall₂_set interval_set_equiv_refl hl _ _

theorem cell_equiv_refl (c : Option timed_state) : cell_equiv c c := by
  cases c with
  | none => trivial
  | some s => exact state_equiv_refl s

theorem rep_mem {A : timed_automaton} {p : Option Nat} {t : state_tree} (h : rep A p t)
    {r : Nat} (hr : r ∈ t.addrs) : ∃ s, A.mem r = some s := by
  induction t generalizing p with
  | null => exact absurd hr (by simp [state_tree.addrs])
  | node a s kid ih =>
    obtain ⟨-, h2, h3⟩ := h
    rcases hr with hr | ⟨i, e, he, hr⟩
    · exact ⟨s, hr ▸ h2⟩
    · exact ih i e.1 (h3 i e he) hr

theorem rep_equiv_cells {A B : timed_automaton} {p : Option Nat} {t t2 : state_tree}
    (hA : rep A p t) (hB : rep B p t2) (he : tree_equiv t t2) {r : Nat} (hr : r ∈ t.addrs) :
    cell_equiv (A.mem r) (B.mem r) := by
  induction t generalizing p t2 with
  | null => exact absurd hr (by simp [state_tree.addrs])
  | node a s kid ih =>
    obtain ⟨s', kid', rfl, hs, hk⟩ := he
    obtain ⟨-, h2, h3⟩ := hA
    obtain ⟨-, h2', h3'⟩ := hB
    rcases hr with hr | ⟨i, e, hedge, hr⟩
    · have hr' : r = a := hr
      rw [hr', h2, h2']
      exact hs
    · obtain ⟨l, hl, hel⟩ := hedge
      -- the corresponding interval of the other state
      obtain ⟨_, hF⟩ := hs
      obtain ⟨l', hl', hll'⟩ : ∃ l', s'.targets[i]? = some l' ∧ interval_set_equiv l l' := by
        have hi : i < s.targets.length := (List.getElem?_eq_some.1 hl).1
        have hlen := hF.length_eq
        have hi' : i < s'.targets.length := by omega
        refine ⟨s'.targets[i], List.getElem?_eq_getElem hi', ?_⟩
        have := List.Forall₂.get hF hi hi'
        simp only [List.get_eq_getElem] at this
        rw [(List.getElem?_eq_some.1 hl).2.symm]
        exact this
      obtain ⟨e', he', hkey, hiv⟩ : ∃ e', e' ∈ l' ∧ e.1 = e'.1 ∧ interval_equiv e.2 e'.2 := by
        obtain ⟨j, hj, hje⟩ := List.getElem_of_mem hel
        have hlen := hll'.length_eq
        have hj' : j < l'.length := by omega
        refine ⟨l'[j], List.getElem_mem hj', ?_⟩
        have := List.Forall₂.get hll' hj hj'
        simp only [List.get_eq_getElem] at this
        rw [← hje]
        exact this
      have hrA := h3 i e ⟨l, hl, hel⟩
      have hrB := h3' i e' ⟨l', hl', he'⟩
      rw [← hkey, ← hiv.2.2.2.1] at hrB
      exact ih i e.1 hrA hrB (hk i e ⟨l, hl, hel⟩) hr

end RTI


namespace RTI

/-! ### `split` and `undo_split` on a state with any partition -/

theorem mem_store_self (A : timed_automaton) (p : Nat) (s : timed_state) :
    (A.store p s).mem p = some s := by
  simp

theorem ite_nonempty {α : Type} (i : interval) (a b : α) :
    (if (!i.is_empty) = true then a else b) = if i.tails = [] then b else a := by
  unfold interval.is_empty
  cases i.tails <;> simp

theorem split_eval {g : globals} {fuel : Nat} {A : timed_automaton} {p : Nat}
    {s : timed_state} {symbol : Nat} {pre post : interval_set} {k time : Int} {i : interval}
    (hp : A.mem p = some s) (hl : s.targets[symbol]? = some (pre ++ (k, i) :: post))
    (hpre : ∀ e, e ∈ pre → e.1 < time) (hk : time < k) (hb : i.begin ≤ time)
    (he : time < i.end_) (hpA : p ≠ A.next) :
    split g fuel A p symbol time =
      if tails_upto i.tails time = [] then
        some (A.store p (s.set_intervals symbol
          (around pre post time k (new_half i time) (old_half i time))))
      else if tails_after i.tails time = [] then
        some (((A.store p (s.set_intervals symbol
          (around pre post time k (new_half i time) (old_half i time)))).store p
          (s.set_intervals symbol (around pre post time k
            { new_half i time with to_ := i.to_ } (old_half i time)))).store p
          (s.set_intervals symbol (around pre post time k
            { new_half i time with to_ := i.to_ } { old_half i time with to_ := none })))
      else
        recurse_split g fuel
          (((A.store p (s.set_intervals symbol
            (around pre post time k (new_half i time) (old_half i time)))).alloc g).2.store p
            (s.set_intervals symbol (around pre post time k
              { new_half i time with to_ := some A.next } (old_half i time))))
          ⟨p, symbol, time⟩ i.to_ := by
  have hsym : symbol < s.targets.length := (List.getElem?_eq_some.1 hl).1
  have hp' : A.mem p = some (s.set_intervals symbol (pre ++ (k, i) :: post)) := by
    rw [timed_state.set_intervals_self s hl]
    exact hp
  obtain ⟨t1, t2, t3, t4, t5, t6, t7⟩ := two_at pre post time k
    (new_half i time) (old_half i time) hpre hk
  have hm1 := mem_store_self A p (s.set_intervals symbol
    (around pre post time k (new_half i time) (old_half i time)))
  have hkt : ¬ time = k := ne_of_lt hk
  have hnt : (new_half i time).tails = tails_upto i.tails time := rfl
  have hot : (old_half i time).tails = tails_after i.tails time := rfl
  have hoto : (old_half i time).to_ = i.to_ := rfl
  have hnto : (new_half i time).to_ = none := rfl
  unfold split
  rw [interval_at_set hp' hsym (find_interval_at pre post (k, i) time hpre (le_of_lt hk))]
  simp only [Option.some_bind, hp, timed_state.get_intervals, hl,
    split_set_at pre post k i time hpre hk hb he, interval_at_set hm1 hsym t1,
    read_set hm1 hsym t4]
  simp only [interval_ptr.mk.injEq, true_and, hkt, interval.get_target, hnto,
    ne_eq, not_true_eq_false, or_self, ↓reduceIte, ite_nonempty, hnt, hot, hoto]
  by_cases h1 : tails_upto i.tails time = []
  · rw [if_pos h1, if_pos h1]
  · rw [if_neg h1, if_neg h1]
    by_cases h2 : tails_after i.tails time = []
    · rw [if_pos h2, if_pos h2, write_set hm1 hsym, t5]
      simp only [Option.some_bind]
      rw [write_set (mem_store_self _ _ _) hsym,
        (two_at pre post time k { new_half i time with to_ := i.to_ } (old_half i time)
          hpre hk).2.2.2.2.2.1]
      rfl
    · rw [if_neg h2, if_neg h2]
      have hm2 : ((A.store p (s.set_intervals symbol
          (around pre post time k (new_half i time) (old_half i time)))).alloc g).2.mem p
          = some (s.set_intervals symbol
            (around pre post time k (new_half i time) (old_half i time))) := by
        rw [timed_automaton.alloc_mem, timed_automaton.store_next, if_neg hpA]
        exact hm1
      simp only [timed_automaton.alloc_fst, timed_automaton.store_next]
      rw [write_set hm2 hsym, t5]
      simp only [Option.some_bind]
      rfl

theorem undo_split_eval {g : globals} {fuel : Nat} {B : timed_automaton} {p : Nat}
    {s : timed_state} {symbol : Nat} {pre post : interval_set} {k time : Int} {x y : interval}
    (hp : B.mem p = some (s.set_intervals symbol (around pre post time k x y)))
    (hsym : symbol < s.targets.length) (hpre : ∀ e, e ∈ pre → e.1 < time) (hk : time < k) :
    undo_split g fuel B p symbol time =
      (if x.tails = [] then some B
        else if y.tails = [] then
          some ((B.store p (s.set_intervals symbol
            (around pre post time k x { y with to_ := x.to_ }))).store p
            (s.set_intervals symbol
              (around pre post time k { x with to_ := none } { y with to_ := x.to_ })))
        else
          (recurse_un_split g fuel B ⟨p, symbol, time⟩ y.to_).bind (fun A1 =>
            (A1.read ⟨p, symbol, time⟩).map (fun z => A1.free z.to_))).bind
        (fun A2 => (A2.mem p).bind (fun s' => (s'.get_intervals symbol).bind (fun l =>
          (undo_split_set l time).map (fun l' => A2.store p (s'.set_intervals symbol l'))))) := by
  obtain ⟨t1, t2, t3, t4, t5, t6, t7⟩ := two_at pre post time k x y hpre hk
  unfold undo_split
  simp only [interval_at_set hp hsym t2, Option.some_bind, interval_at_set hp hsym t1,
    ite_nonempty, interval.get_target]
  congr 1
  by_cases h1 : x.tails = []
  · rw [if_pos h1, if_pos h1]
  · rw [if_neg h1, if_neg h1]
    by_cases h2 : y.tails = []
    · rw [if_pos h2, if_pos h2, write_set hp hsym, t6]
      simp only [Option.some_bind]
      rw [write_set (mem_store_self _ _ _) hsym,
        (two_at pre post time k x { y with to_ := x.to_ } hpre hk).2.2.2.2.1]
    · rw [if_neg h2, if_neg h2]

theorem undo_split_finish {A2 : timed_automaton} {p : Nat} {s : timed_state} {symbol : Nat}
    {pre post : interval_set} {k time : Int} {x y : interval}
    (hp : A2.mem p = some (s.set_intervals symbol (around pre post time k x y)))
    (hsym : symbol < s.targets.length) (hpre : ∀ e, e ∈ pre → e.1 < time) (hk : time < k) :
    ((A2.mem p).bind (fun s' => (s'.get_intervals symbol).bind (fun l =>
      (undo_split_set l time).map (fun l' => A2.store p (s'.set_intervals symbol l')))))
      = some (A2.store p (s.set_intervals symbol (pre ++
        (k, { y with tails := insert_tails y.tails x.tails, begin := x.begin }) :: post))) := by
  obtain ⟨t1, t2, t3, t4, t5, t6, t7⟩ := two_at pre post time k x y hpre hk
  rw [hp]
  simp only [Option.some_bind, timed_state.get_intervals,
    timed_state.set_intervals_get s _ hsym, t7, Option.map_some',
    timed_state.set_intervals_set]

end RTI


namespace RTI

theorem final_equiv (pre post : interval_set) (k : Int) (i : interval) (time : Int)
    {x y : interval} (hxb : x.begin = i.begin) (hxt : x.tails = tails_upto i.tails time)
    (hyt : y.tails = tails_after i.tails time) (hye : y.end_ = i.end_) (hyo : y.to_ = i.to_)
    (hym : y.num_marked = i.num_marked) :
    interval_set_equiv (pre ++ (k, i) :: post)
      (pre ++ (k, { y with tails := insert_tails y.tails x.tails, begin := x.begin }) ::
        post) := by
  refine List.rel_append (interval_set_equiv_refl pre)
    (List.Forall₂.cons ⟨rfl, ?_⟩ (interval_set_equiv_refl post))
  refine ⟨hxb.symm, hye.symm, ?_, hyo.symm, hym.symm⟩
  show i.tails.Perm (insert_tails y.tails x.tails)
  refine List.Perm.symm ((insert_tails_perm _ _).trans ?_)
  rw [hxt, hyt, tails_upto_append_after]

theorem tails_upto_count_le (ts : tail_set) (time : Int) (x : timed_tail) :
    (tails_upto ts time).count x ≤ ts.count x :=
  (List.takeWhile_sublist _).count_le x
theorem restored_of_store {A A2 : timed_automaton} {p : Nat} {s s2 : timed_state}
    (hp : A.mem p = some s) (hs : state_equiv s s2)
    (hm : ∀ r, r ≠ p → r < A.next → cell_equiv (A.mem r) (A2.mem r))
    (hst : A2.states = A.states) (hmk : A2.marker = A.marker) (hrt : A2.root = A.root) :
    restored A (A2.store p s2) := by
  refine ⟨fun r hr => ?_, hst, hmk, hrt⟩
  by_cases hrp : r = p
  · subst hrp
    rw [hp, mem_store_self]
    exact hs
  · rw [timed_automaton.store_mem, if_neg hrp]
    exact hm r hrp hr

theorem split_undo_split_left_empty {g : globals} {fuel : Nat} {A : timed_automaton}
    {p : Nat} {s : timed_state} {symbol : Nat} {pre post : interval_set} {k time : Int}
    {i : interval} (hp : A.mem p = some s)
    (hl : s.targets[symbol]? = some (pre ++ (k, i) :: post))
    (hpre : ∀ e, e ∈ pre → e.1 < time) (hk : time < k) (hb : i.begin ≤ time)
    (he : time < i.end_) (hpA : p ≠ A.next) (h1 : tails_upto i.tails time = []) :
    ∃ A1 A2, split g fuel A p symbol time = some A1 ∧
      undo_split g fuel A1 p symbol time = some A2 ∧ restored A A2 := by
  have hsym : symbol < s.targets.length := (List.getElem?_eq_some.1 hl).1
  refine ⟨_, _, by rw [split_eval hp hl hpre hk hb he hpA, if_pos h1], by
    rw [undo_split_eval (mem_store_self _ _ _) hsym hpre hk,
      if_pos (show (new_half i time).tails = [] from h1), Option.some_bind,
      undo_split_finish (mem_store_self _ _ _) hsym hpre hk], ?_⟩
  refine restored_of_store hp (state_equiv_set hl
    (final_equiv pre post k i time (by rfl) (by rfl) (by rfl) (by rfl) (by rfl) (by rfl)))
    (fun r hrp _ => ?_) rfl rfl rfl
  rw [timed_automaton.store_mem, if_neg hrp]
  exact cell_equiv_refl _

theorem split_undo_split_right_empty {g : globals} {fuel : Nat} {A : timed_automaton}
    {p : Nat} {s : timed_state} {symbol : Nat} {pre post : interval_set} {k time : Int}
    {i : interval} (hp : A.mem p = some s)
    (hl : s.targets[symbol]? = some (pre ++ (k, i) :: post))
    (hpre : ∀ e, e ∈ pre → e.1 < time) (hk : time < k) (hb : i.begin ≤ time)
    (he : time < i.end_) (hpA : p ≠ A.next) (h1 : tails_upto i.tails time ≠ [])
    (h2 : tails_after i.tails time = []) :
    ∃ A1 A2, split g fuel A p symbol time = some A1 ∧
      undo_split g fuel A1 p symbol time = some A2 ∧ restored A A2 := by
  have hsym : symbol < s.targets.length := (List.getElem?_eq_some.1 hl).1
  refine ⟨_, _, by rw [split_eval hp hl hpre hk hb he hpA, if_neg h1, if_pos h2], by
    rw [undo_split_eval (mem_store_self _ _ _) hsym hpre hk,
      if_neg (show ({ new_half i time with to_ := i.to_ } : interval).tails ≠ [] from h1),
      if_pos (show ({ old_half i time with to_ := none } : interval).tails = [] from h2),
      Option.some_bind, undo_split_finish (mem_store_self _ _ _) hsym hpre hk], ?_⟩
  refine restored_of_store hp (state_equiv_set hl
    (final_equiv pre post k i time (by rfl) (by rfl) (by rfl) (by rfl) (by rfl) (by rfl)))
    (fun r hrp _ => ?_) rfl rfl rfl
  simp only [timed_automaton.store_mem, if_neg hrp]
  exact cell_equiv_refl _

end RTI


namespace RTI

theorem split_rel_node {g : globals} {t tn t' : state_tree} {X : List timed_tail}
    (h : split_rel g t X tn t') :
    ∃ a sT kid n sN kidN sT' kid', t = state_tree.node a sT kid ∧
      tn = state_tree.node n sN kidN ∧ t' = state_tree.node a sT' kid' := by
  cases t with
  | null => exact absurd h (by simp [split_rel])
  | node a sT kid =>
    obtain ⟨n, sN, kidN, sT', kid', h1, h2, -⟩ := h
    exact ⟨a, sT, kid, n, sN, kidN, sT', kid', rfl, h1, h2⟩

theorem split_undo_split_both {g : globals} {fuel : Nat} {A : timed_automaton}
    {p : Nat} {s : timed_state} {symbol : Nat} {pre post : interval_set} {k time : Int}
    {i : interval} {t : state_tree} (hp : A.mem p = some s)
    (hl : s.targets[symbol]? = some (pre ++ (k, i) :: post))
    (hpre : ∀ e, e ∈ pre → e.1 < time) (hk : time < k) (hb : i.begin ≤ time)
    (he : time < i.end_) (hfresh : ∀ r, A.next ≤ r → A.mem r = none)
    (h1 : tails_upto i.tails time ≠ []) (h2 : tails_after i.tails time ≠ [])
    (hrep : rep A i.to_ t) (hwf : t.wf) (hpl : t.placed g i.tails) (hfit : t.fits fuel)
    (hpt : p ∉ t.addrs) :
    ∃ A1 A2, split g fuel A p symbol time = some A1 ∧
      undo_split g fuel A1 p symbol time = some A2 ∧ restored A A2 := by
  have hsym : symbol < s.targets.length := (List.getElem?_eq_some.1 hl).1
  have hlt : ∀ r, A.mem r ≠ none → r < A.next := by
    intro r hr
    by_contra hlt
    exact hr (hfresh r (by omega))
  have hpA : p < A.next := hlt p (by rw [hp]; simp)
  have hi : i.tails ≠ [] := by
    intro h
    apply h1
    simp [tails_upto, h]
  obtain ⟨a, sT, kid, rfl⟩ := placed_node hpl hi
  have hia : i.to_ = some a := rep_root hrep
  have htl : ∀ r, r ∈ (state_tree.node a sT kid).addrs → r < A.next := by
    intro r hr
    obtain ⟨s', hs'⟩ := rep_mem hrep hr
    exact hlt r (by rw [hs']; simp)
  -- the heap in which `recurse_split` is called
  obtain ⟨t1, t2, t3, t4, t5, t6, t7⟩ := two_at pre post time k
    ({ new_half i time with to_ := some A.next } : interval) (old_half i time) hpre hk
  have hsplit : split g fuel A p symbol time = _ :=
    split_eval hp hl hpre hk hb he (ne_of_lt hpA)
  rw [if_neg h1, if_neg h2, hia] at hsplit
  generalize hA3 : ((A.store p (s.set_intervals symbol
      (around pre post time k (new_half i time) (old_half i time)))).alloc g).2.store p
      (s.set_intervals symbol (around pre post time k
        { new_half i time with to_ := some A.next } (old_half i time))) = A3 at hsplit
  have hA3p : A3.mem p = some (s.set_intervals symbol (around pre post time k
      { new_half i time with to_ := some A.next } (old_half i time))) := by
    rw [← hA3]
    exact mem_store_self _ _ _
  have hA3n : A3.mem A.next = some (timed_state.new g) := by
    rw [← hA3]
    simp [(ne_of_lt hpA).symm]
  have hA3r : ∀ r, r ≠ p → r ≠ A.next → A3.mem r = A.mem r := by
    intro r h h'
    rw [← hA3]
    simp [h, h']
  have hA3next : A3.next = A.next + 1 := by
    rw [← hA3]
    simp
  have hA3st : A3.states = A.states ∧ A3.marker = A.marker ∧ A3.root = A.root := by
    rw [← hA3]
    exact ⟨rfl, rfl, rfl⟩
  have hplX : (state_tree.node a sT kid).placed g (tails_upto i.tails time) :=
    placed_mono hpl (tails_upto_count_le i.tails time)
  obtain ⟨B, hB, tn, t', p1, p2, p3, p4, p5, p6, p7, p8, q1, q2, q3, q4, q5⟩ :=
    recurse_split_spec g fuel A3 ⟨p, symbol, time⟩
      ({ new_half i time with to_ := some A.next } : interval) A.next a sT kid
      (read_set hA3p hsym t3) rfl hA3n (by omega)
      (fun h => by have := htl _ h; omega) (fun r hr => by have := htl r hr; omega)
      (rep_frame (hia ▸ hrep) (fun r hr => hA3r r (fun h => hpt (h ▸ hr))
        (fun h => by have := htl r hr; omega)))
      hwf hfit hplX
  obtain ⟨hmg, hteq, hfits⟩ := split_rel_roundtrip _ _ _ _ hplX p3
  obtain ⟨a', sT0, kid0, n, sN, kidN, sT', kid', e1, rfl, rfl⟩ := split_rel_node p3
  obtain rfl : A.next = n := by
    have := rep_root p1
    simp only [state_tree.root, Option.some.injEq] at this
    exact this
  obtain ⟨rfl, -⟩ : a = a' ∧ True := by
    have := rep_root p2
    simp only [state_tree.root, Option.some.injEq] at this
    exact ⟨this, trivial⟩
  -- the state that is split is not touched by the two recursions
  have hpN : p ∉ (state_tree.node A.next sN kidN).addrs := by
    intro h
    rcases p7 p h with h | h | ⟨h, -⟩
    · omega
    · exact hpt h
    · omega
  have hpT : p ∉ (state_tree.node a sT' kid').addrs := fun h => hpt (p8 p h)
  have hBp : B.mem p = some (s.set_intervals symbol (around pre post time k
      { new_half i time with to_ := some A.next } (old_half i time))) := by
    rw [q1 p (fun h => ?_) (by omega)]
    · exact hA3p
    · rcases h with h | h
      · have : p = A.next := h
        omega
      · exact hpt h
  obtain ⟨B1, hB1, r1, r2, r3, r4, r5, r6⟩ :=
    recurse_un_split_spec g fuel B ⟨p, symbol, time⟩
      ({ new_half i time with to_ := some A.next } : interval) A.next sN kidN a sT' kid'
      (read_set hBp hsym t3) rfl p1 p2 hmg p4 p5 p6 (hfits fuel hfit)
  have hB1p : B1.mem p = some (s.set_intervals symbol (around pre post time k
      { new_half i time with to_ := some A.next } (old_half i time))) := by
    rw [r2 p hpN hpT]
    exact hBp
  have hB2p : (B1.free (some A.next)).mem p = some (s.set_intervals symbol
      (around pre post time k { new_half i time with to_ := some A.next }
        (old_half i time))) := by
    rw [timed_automaton.free_mem, if_neg (ne_of_lt hpA)]
    exact hB1p
  refine ⟨B, _, hsplit.trans hB, by
    rw [undo_split_eval hBp hsym hpre hk,
      if_neg (show ({ new_half i time with to_ := some A.next } : interval).tails ≠ []
        from h1),
      if_neg (show (old_half i time).tails ≠ [] from h2),
      show (old_half i time).to_ = some a from hia, hB1]
    simp only [Option.some_bind, read_set hB1p hsym t3, Option.map_some']
    rw [undo_split_finish hB2p hsym hpre hk], ?_⟩
  refine restored_of_store hp (state_equiv_set hl
    (final_equiv pre post k i time (by rfl) (by rfl) (by rfl) (by rfl) (by rfl) (by rfl)))
    (fun r hrp hr => ?_) ?_ ?_ ?_
  · rw [timed_automaton.free_mem, if_neg (ne_of_lt hr)]
    by_cases hrt : r ∈ (state_tree.node a sT kid).addrs
    · exact rep_equiv_cells (hia ▸ hrep) r1 hteq hrt
    · have hrN : r ∉ (state_tree.node A.next sN kidN).addrs := by
        intro h
        rcases p7 r h with h | h | ⟨h, -⟩
        · omega
        · exact hrt h
        · omega
      rw [r2 r hrN (fun h => hrt (p8 r h)), q1 r (fun h => ?_) (by omega),
        hA3r r hrp (ne_of_lt hr)]
      · exact cell_equiv_refl _
      · rcases h with h | h
        · have : r = A.next := h
          omega
        · exact hrt h
  · rw [timed_automaton.free_states, r4, q3]
    exact hA3st.1
  · rw [timed_automaton.free_marker, r5, q4]
    exact hA3st.2.1
  · show (B1.free (some A.next)).root = A.root
    simp only [timed_automaton.free]
    rw [r6, q5]
    exact hA3st.2.2

end RTI


namespace RTI

/-! ### The example tree -/

theorem example_child_unsplit : example_child.unsplit example_globals := by
  refine ⟨rfl, fun i hi => ?_⟩
  have : i = 0 := by
    have : example_globals.MAX_SYMBOL = 1 := rfl
    omega
  subst this
  exact ⟨_, rfl⟩

theorem example_tree_fresh : ∀ r, example_tree.next ≤ r → example_tree.mem r = none := by
  intro r hr
  have h3 : example_tree.next = 3 := rfl
  have h0 : r ≠ 0 := by omega
  have h1 : r ≠ 1 := by omega
  have h2 : r ≠ 2 := by omega
  simp [example_tree, h0, h1, h2]

theorem example_tree_rep : rep example_tree (some 1) example_state_tree := by
  refine (rep_unsplit example_child_unsplit).2 ⟨rfl, rfl, fun i hi => ?_⟩
  have : i = 0 := by
    have : example_globals.MAX_SYMBOL = 1 := rfl
    omega
  subst this
  refine (rep_unsplit (timed_state.new_unsplit example_globals)).2 ⟨rfl, rfl, fun j hj => ?_⟩
  rw [timed_state.new_iv example_globals hj]
  rfl

theorem example_tree_wf : example_state_tree.wf := by
  refine (wf_unsplit example_child_unsplit).2 ⟨fun i _ => ⟨?_, ?_⟩, fun i j hi hj hij => ?_⟩
  · intro h
    rcases (mem_addrs_unsplit (timed_state.new_unsplit example_globals)).1 h with h | ⟨_, _, h⟩
    · cases h
    · exact h
  · refine (wf_unsplit (timed_state.new_unsplit example_globals)).2
      ⟨fun _ _ => ⟨fun h => h, trivial⟩, fun _ _ _ _ _ => ?_⟩
    simp [state_tree.addrs]
  · have : example_globals.MAX_SYMBOL = 1 := rfl
    omega

theorem example_tree_placed :
    example_state_tree.placed example_globals
      [⟨0, 0, [(0, 1), (0, 3), (2, 4)]⟩, ⟨1, 0, [(0, 5), (0, 2), (2, 7)]⟩] := by
  refine ⟨example_child_unsplit, by decide, fun x => ?_, fun i hi => ?_⟩
  · have h1 : nexts [(⟨0, 0, [(0, 1), (0, 3), (2, 4)]⟩ : timed_tail),
        ⟨1, 0, [(0, 5), (0, 2), (2, 7)]⟩]
        = [⟨0, 1, [(0, 3), (2, 4)]⟩, ⟨1, 1, [(0, 2), (2, 7)]⟩] := by decide
    rw [h1]
    by_cases hx : x.get_symbol = 0
    · rw [hx]
      exact le_of_eq ((List.Perm.swap _ _ _).count_eq x)
    · have h2 : x ≠ ⟨0, 1, [(0, 3), (2, 4)]⟩ := fun h => hx (by rw [h]; rfl)
      have h3 : x ≠ ⟨1, 1, [(0, 2), (2, 7)]⟩ := fun h => hx (by rw [h]; rfl)
      simp [List.count_cons, h2.symm, h3.symm]
  · have : i = 0 := by
      have : example_globals.MAX_SYMBOL = 1 := rfl
      omega
    subst this
    refine ⟨timed_state.new_unsplit example_globals, by decide, fun x => ?_, fun j hj => ?_⟩
    · have h1 : nexts (example_child.iv 0).tails = [] := by decide
      rw [h1]
      simp
    · rw [timed_state.new_iv example_globals hj]
      rfl

theorem example_tree_fits : example_state_tree.fits 2 :=
  (fits_unsplit example_child_unsplit).2 ⟨1, rfl, fun _ _ =>
    (fits_unsplit (timed_state.new_unsplit example_globals)).2 ⟨0, rfl, fun _ _ => trivial⟩⟩

theorem example_tree_root_not_mem : 0 ∉ example_state_tree.addrs := by
  intro h
  rcases (mem_addrs_unsplit example_child_unsplit).1 h with h | ⟨_, _, h⟩
  · cases h
  · rcases (mem_addrs_unsplit (timed_state.new_unsplit example_globals)).1 h with h | ⟨_, _, h⟩
    · cases h
    · exact h

/-! ### C2 -/

/-- C2, amended: let the state `s` at the address `p` have a partition (a contiguous cover
keyed by end) for the symbol `a`, let `[b, e]` be its interval containing `t` with
`b ≤ t < e`, and, in case tails of the interval lie on both sides of `t`, let the target of
the interval be the root of a prefix tree of unsplit states in which every non-empty
interval has a target that holds the successors of its tails. Then `split(a, t)` returns,
`undo_split(a, t)` returns after it, and afterwards every state that existed before (`s`,
the states of the subtree and all others) has its interval boundaries, tail multisets,
targets, marks and statistics counters back; the colored states and the markers are the
same. -/
theorem split_undo_split_roundtrip (g : globals) (fuel : Nat) (A : timed_automaton) (p : Nat)
    (s : timed_state) (symbol : Nat) (time : Int) (l : interval_set) (k : Int) (i : interval)
    (hp : A.mem p = some s) (hl : s.targets[symbol]? = some l) (hok : partition_ok g l)
    (hf : find_interval l time = some (k, i)) (hb : i.begin ≤ time) (he : time < i.end_)
    (hfresh : ∀ r, A.next ≤ r → A.mem r = none)
    (htree : tails_upto i.tails time ≠ [] → tails_after i.tails time ≠ [] →
      ∃ t, rep A i.to_ t ∧ t.wf ∧ t.placed g i.tails ∧ t.fits fuel ∧ p ∉ t.addrs) :
    ∃ A1 A2, split g fuel A p symbol time = some A1 ∧
      undo_split g fuel A1 p symbol time = some A2 ∧
      (∀ r, r < A.next → cell_equiv (A.mem r) (A2.mem r)) ∧ A2.states = A.states ∧
      A2.marker = A.marker ∧ A2.root = A.root := by
  obtain ⟨pre, post, rfl, hpre, hk⟩ := find_interval_decomp hok hf he
  have hpA : p ≠ A.next := by
    intro h
    have := hfresh p (le_of_eq h.symm)
    rw [hp] at this
    cases this
  by_cases h1 : tails_upto i.tails time = []
  · exact split_undo_split_left_empty hp hl hpre hk hb he hpA h1
  · by_cases h2 : tails_after i.tails time = []
    · exact split_undo_split_right_empty hp hl hpre hk hb he hpA h1 h2
    · obtain ⟨t, t1, t2, t3, t4, t5⟩ := htree h1 h2
      exact split_undo_split_both hp hl hpre hk hb he hfresh h1 h2 t1 t2 t3 t4 t5

/-- The witness of C2: in the prefix tree of the words `(0, 1) (0, 3)` and `(0, 5) (0, 2)`
the interval of the root is split at 2 with a tail on either side, and the split is
undone. -/
theorem split_undo_split_roundtrip_witness :
    ∃ A1 A2, split example_globals 2 example_tree 0 0 2 = some A1 ∧
      undo_split example_globals 2 A1 0 0 2 = some A2 ∧
      (∀ r, r < example_tree.next → cell_equiv (example_tree.mem r) (A2.mem r)) ∧
      A2.states = example_tree.states ∧ A2.marker = example_tree.marker ∧
      A2.root = example_tree.root :=
  split_undo_split_roundtrip example_globals 2 example_tree 0 example_root 0 2
    [(10, { interval.new 0 10 with
      tails := [⟨0, 0, [(0, 1), (0, 3), (2, 4)]⟩, ⟨1, 0, [(0, 5), (0, 2), (2, 7)]⟩]
      to_ := some 1 })] 10
    { interval.new 0 10 with
      tails := [⟨0, 0, [(0, 1), (0, 3), (2, 4)]⟩, ⟨1, 0, [(0, 5), (0, 2), (2, 7)]⟩]
      to_ := some 1 }
    rfl rfl (by decide) (by decide) (by decide) (by decide) example_tree_fresh
    (fun _ _ => ⟨example_state_tree, example_tree_rep, example_tree_wf, example_tree_placed,
      example_tree_fits, example_tree_root_not_mem⟩)

/-- The counterexample to C2 as stated: the automaton `null_target_automaton` passes
`check_consistency`, its partition is the single interval `[0, 10]`, which contains 2 and
has a null target and a tail on either side of 2. `split(0, 2)` returns, and `undo_split(0, 2)`
after it dereferences the null old target in the second loop of `recurse_un_split`, whatever
the recursion bound: nothing is restored. -/
theorem split_undo_split_null_target :
    check_consistency example_globals null_target_automaton = true ∧
    partition_ok example_globals [(10, { interval.new 0 10 with
      tails := [⟨0, 0, [(0, 1), (2, 1)]⟩, ⟨1, 0, [(0, 5), (2, 5)]⟩] })] ∧
    null_target_automaton.interval_at (some 0) 0 2 = some (⟨0, 0, 10⟩,
      { interval.new 0 10 with
        tails := [⟨0, 0, [(0, 1), (2, 1)]⟩, ⟨1, 0, [(0, 5), (2, 5)]⟩] }) ∧
    (split example_globals 5 null_target_automaton 0 0 2).isSome = true ∧
    ((split example_globals 5 null_target_automaton 0 0 2).bind
      (fun A1 => undo_split example_globals 5 A1 0 0 2)).isNone = true ∧
    ∀ fuel, ((split example_globals fuel null_target_automaton 0 0 2).bind
      (fun A1 => undo_split example_globals fuel A1 0 0 2)).isNone = true := by
  refine ⟨by decide, by decide, by decide, by decide, by decide, fun fuel => ?_⟩
  cases fuel with
  | zero => rfl
  | succ n => rfl

end RTI


namespace RTI

/-! ### Marks in the statistics -/

namespace state_statistics

theorem unmark_mark (g : globals) (s : state_statistics) (t : timed_tail) :
    unmark g (mark g s t) t = s := by
  cases s
  simp only [mark, unmark]
  have h1 := fun l i => bump_bump_cancel l i (1 : Int)
  have h2 := fun l i => bump_bump_cancel l i (-1 : Int)
  simp only [neg_neg] at h2
  simp [h1, h2]

theorem mark_comm (g : globals) (s : state_statistics) (t u : timed_tail) :
    mark g (mark g s t) u = mark g (mark g s u) t := by
  cases s
  simp only [mark]
  rw [bump_comm _ t.get_symbol, bump_comm _ (get_bar g t.get_time_value),
    bump_comm _ t.get_symbol, bump_comm _ (get_bar g t.get_time_value)]

theorem foldl_mark_comm (g : globals) (s : state_statistics) (t : timed_tail)
    (l : List timed_tail) : l.foldl (mark g) (mark g s t) = mark g (l.foldl (mark g) s) t := by
  induction l generalizing s with
  | nil => rfl
  | cons x xs ih =>
    rw [List.foldl_cons, List.foldl_cons, mark_comm, ih]

theorem unmark_foldl_mark (g : globals) (s : state_statistics) (t : timed_tail)
    (l : List timed_tail) : unmark g ((t :: l).foldl (mark g) s) t = l.foldl (mark g) s := by
  rw [List.foldl_cons, foldl_mark_comm, unmark_mark]

end state_statistics

/-! ### The successors of a tail -/

theorem next_tail_length {x nx : timed_tail} (h : x.next_tail = some nx) :
    nx.rest.length + 1 = x.rest.length ∧ nx.word = x.word ∧ nx.index = x.index + 1 := by
  unfold timed_tail.next_tail at h
  split at h
  · rename_i heq
    cases h
    simp [heq]
  · cases h

theorem chain_from_eq (n m : Nat) (x : timed_tail) (hn : x.rest.length ≤ n)
    (hm : x.rest.length ≤ m) : chain_from n x = chain_from m x := by
  induction n generalizing m x with
  | zero =>
    have h0 : x.rest.length = 0 := by omega
    have hx : x.next_tail = none := by
      unfold timed_tail.next_tail
      split
      · rename_i h
        rw [h] at h0
        simp at h0
      · rfl
    cases m with
    | zero => rfl
    | succ m => simp [chain_from, hx]
  | succ n ih =>
    cases m with
    | zero =>
      have h0 : x.rest.length = 0 := by omega
      have hx : x.next_tail = none := by
        unfold timed_tail.next_tail
        split
        · rename_i h
          rw [h] at h0
          simp at h0
        · rfl
      simp [chain_from, hx]
    | succ m =>
      simp only [chain_from]
      cases hx : x.next_tail with
      | none => rfl
      | some nx =>
        have := (next_tail_length hx).1
        simp only
        rw [ih m nx (by omega) (by omega)]

theorem chain_none {x : timed_tail} (h : x.next_tail = none) : chain x = [x] := by
  unfold chain
  cases hl : x.rest.length with
  | zero => rfl
  | succ n => simp [chain_from, h]

theorem chain_some {x nx : timed_tail} (h : x.next_tail = some nx) :
    chain x = x :: chain nx := by
  have hl := (next_tail_length h).1
  unfold chain
  rw [← hl]
  simp only [chain_from, h]

theorem chain_word {x z : timed_tail} (h : z ∈ chain x) : z.word = x.word := by
  generalize hn : x.rest.length = n
  induction n generalizing x with
  | zero =>
    have hx : x.next_tail = none := by
      unfold timed_tail.next_tail
      split
      · rename_i h'
        rw [h'] at hn
        simp at hn
      · rfl
    rw [chain_none hx] at h
    rw [List.mem_singleton.1 h]
  | succ n ih =>
    cases hx : x.next_tail with
    | none =>
      rw [chain_none hx] at h
      rw [List.mem_singleton.1 h]
    | some nx =>
      rw [chain_some hx] at h
      obtain ⟨h1, h2, -⟩ := next_tail_length hx
      rcases List.mem_cons.1 h with h | h
      · rw [h]
      · rw [ih h (by omega), h2]

theorem chain_index {x z : timed_tail} (h : z ∈ chain x) :
    z = x ∨ x.index < z.index := by
  generalize hn : x.rest.length = n
  induction n generalizing x with
  | zero =>
    have hx : x.next_tail = none := by
      unfold timed_tail.next_tail
      split
      · rename_i h'
        rw [h'] at hn
        simp at hn
      · rfl
    rw [chain_none hx] at h
    exact Or.inl (List.mem_singleton.1 h)
  | succ n ih =>
    cases hx : x.next_tail with
    | none =>
      rw [chain_none hx] at h
      exact Or.inl (List.mem_singleton.1 h)
    | some nx =>
      rw [chain_some hx] at h
      obtain ⟨h1, -, h3⟩ := next_tail_length hx
      rcases List.mem_cons.1 h with h | h
      · exact Or.inl h
      · rcases ih h (by omega) with h' | h'
        · right
          rw [h', h3]
          omega
        · right
          omega

theorem mem_chain_self (x : timed_tail) : x ∈ chain x := by
  cases hx : x.next_tail with
  | none => rw [chain_none hx]; simp
  | some nx => rw [chain_some hx]; simp

end RTI


namespace RTI

/-! ### Refinement sets -/

theorem foldlM_inv {α β : Type} (f : α → β → Option α) (Inv : α → Prop) (l : List β)
    (a0 b : α) (h0 : Inv a0) (hstep : ∀ a x c, x ∈ l → Inv a → f a x = some c → Inv c)
    (h : l.foldlM f a0 = some b) : Inv b := by
  induction l generalizing a0 with
  | nil =>
    simp only [List.foldlM_nil, pure, Option.some.injEq] at h
    rw [← h]
    exact h0
  | cons x xs ih =>
    rw [List.foldlM_cons] at h
    cases hx : f a0 x with
    | none => rw [hx] at h; cases h
    | some c =>
      rw [hx] at h
      exact ih c (hstep a0 x c (List.mem_cons_self _ _) h0 hx)
        (fun a y d hy => hstep a y d (List.mem_cons_of_mem _ hy)) h

theorem mem_insert_refinement (s : refinement_set) (e x : ℚ × refinement) :
    x ∈ insert_refinement s e ↔ x = e ∨ x ∈ s := by
  induction s with
  | nil => simp [insert_refinement]
  | cons y ys ih =>
    simp only [insert_refinement]
    split
    · simp
    · simp only [List.mem_cons, ih]
      tauto

theorem insert_refinement_ne_nil (s : refinement_set) (e : ℚ × refinement) :
    insert_refinement s e ≠ [] := by
  cases s with
  | nil => simp [insert_refinement]
  | cons y ys =>
    simp only [insert_refinement]
    split <;> simp

theorem insert_refinement_descending (s : refinement_set) (e : ℚ × refinement)
    (h : descending s) : descending (insert_refinement s e) := by
  induction s with
  | nil => simp [insert_refinement, descending]
  | cons y ys ih =>
    unfold descending at h ih ⊢
    rw [List.pairwise_cons] at h
    simp only [insert_refinement]
    split
    · rename_i hlt
      rw [List.pairwise_cons, List.pairwise_cons]
      refine ⟨?_, h.1, h.2⟩
      intro x hx
      rcases List.mem_cons.1 hx with hx | hx
      · rw [hx]; exact le_of_lt hlt
      · exact le_trans (h.1 x hx) (le_of_lt hlt)
    · rename_i hlt
      rw [List.pairwise_cons]
      refine ⟨?_, ih h.2⟩
      intro x hx
      rcases (mem_insert_refinement ys e x).1 hx with hx | hx
      · rw [hx]; exact not_lt.1 hlt
      · exact h.1 x hx

theorem descending_head_max (s : refinement_set) (x : ℚ × refinement) (h : descending s)
    (hx : s.head? = some x) : ∀ e ∈ s, e.1 ≤ x.1 := by
  cases s with
  | nil => cases hx
  | cons y ys =>
    simp only [List.head?_cons, Option.some.injEq] at hx
    subst hx
    unfold descending at h
    rw [List.pairwise_cons] at h
    intro e he
    rcases List.mem_cons.1 he with he | he
    · rw [he]
    · exact h.1 e he

theorem descending_last_min (s : refinement_set) (x : ℚ × refinement) (h : descending s)
    (hx : s.getLast? = some x) : ∀ e ∈ s, x.1 ≤ e.1 := by
  induction s with
  | nil => cases hx
  | cons y ys ih =>
    unfold descending at h ih
    rw [List.pairwise_cons] at h
    cases ys with
    | nil =>
      simp only [List.getLast?_singleton, Option.some.injEq] at hx
      subst hx
      intro e he
      rw [List.mem_singleton.1 he]
    | cons z zs =>
      rw [List.getLast?_cons_cons] at hx
      intro e he
      rcases List.mem_cons.1 he with he | he
      · rw [he]
        exact h.1 x (List.mem_of_getLast?_eq_some hx)
      · exact ih h.2 hx e he

theorem head_insert_refinement (s : refinement_set) (e : ℚ × refinement) :
    (insert_refinement s e).head? =
      match s.head? with
      | none => some e
      | some x => if x.1 < e.1 then some e else some x := by
  cases s with
  | nil => rfl
  | cons y ys =>
    simp only [insert_refinement, List.head?_cons]
    split <;> rfl

end RTI


namespace RTI

/-! ### The shape of the result of `get_best_refinements` -/

theorem add_merge_inv (g : globals) (P : p_values) (fuel : Nat) (in_ : interval_ptr)
    (state symbol : Nat) (acc c : refinement_set × timed_automaton) (i : Nat)
    (h : add_merge g P fuel in_ state symbol acc i = some c)
    (hd : descending acc.1)
    (hm : ∀ x ∈ acc.1, 0 ≤ x.2.target ∧ x.2.state = state ∧ x.2.symbol = symbol) :
    descending c.1 ∧
      ∀ x ∈ c.1, 0 ≤ x.2.target ∧ x.2.state = state ∧ x.2.symbol = symbol := by
  unfold add_merge at h
  obtain ⟨target, -, h⟩ := Option.bind_eq_some.1 h
  split at h
  · obtain ⟨st, -, h⟩ := Option.bind_eq_some.1 h
    obtain ⟨i1, -, h⟩ := Option.bind_eq_some.1 h
    obtain ⟨⟨A1, score⟩, -, h⟩ := Option.bind_eq_some.1 h
    simp only at h
    split at h
    · obtain ⟨i2, -, h⟩ := Option.map_eq_some'.1 h
      rw [← h]
      refine ⟨insert_refinement_descending _ _ hd, ?_⟩
      intro x hx
      rcases (mem_insert_refinement _ _ _).1 hx with hx | hx
      · rw [hx]
        exact ⟨Int.ofNat_nonneg i, rfl, rfl⟩
      · exact hm x hx
    · simp only [Option.some.injEq] at h
      rw [← h]
      exact ⟨hd, hm⟩
  · simp only [Option.some.injEq] at h
    rw [← h]
    exact ⟨hd, hm⟩

theorem add_split_inv (g : globals) (P : p_values) (fuel : Nat) (state symbol : Nat)
    (acc c : split_loop) (tail : timed_tail)
    (h : add_split g P fuel state symbol acc tail = some c)
    (hd : descending acc.splits)
    (hm : ∀ x ∈ acc.splits, x.2.target = -1 ∧ x.2.state = state ∧ x.2.symbol = symbol) :
    descending c.splits ∧
      ∀ x ∈ c.splits, x.2.target = -1 ∧ x.2.state = state ∧ x.2.symbol = symbol := by
  unfold add_split at h
  split at h
  · obtain ⟨st, -, h⟩ := Option.bind_eq_some.1 h
    obtain ⟨⟨A1, score⟩, -, h⟩ := Option.map_eq_some'.1 h
    rw [← h]
    simp only
    split
    · refine ⟨insert_refinement_descending _ _ hd, ?_⟩
      intro x hx
      rcases (mem_insert_refinement _ _ _).1 hx with hx | hx
      · rw [hx]
        exact ⟨rfl, rfl, rfl⟩
      · exact hm x hx
    · exact ⟨hd, hm⟩
  · simp only [Option.some.injEq] at h
    rw [← h]
    exact ⟨hd, hm⟩

theorem score_refinements_shape (g : globals) (P : p_values) (fuel : Nat)
    (A : timed_automaton) (in_ : interval_ptr) (state symbol : Nat)
    (first second : refinement_set) (A' : timed_automaton)
    (h : score_refinements g P fuel A in_ state symbol = some (first, second, A')) :
    ∃ merges e, first = insert_refinement merges (P.SIGNIFICANCE, ⟨state, -2, symbol, e⟩) ∧
      descending merges ∧
      (∀ x ∈ merges, 0 ≤ x.2.target ∧ x.2.state = state ∧ x.2.symbol = symbol) ∧
      descending second ∧
      ∀ x ∈ second, x.2.target = -1 ∧ x.2.state = state ∧ x.2.symbol = symbol := by
  unfold score_refinements at h
  split at h
  · cases h
  obtain ⟨⟨merges, A1⟩, hm, h⟩ := Option.bind_eq_some.1 h
  simp only at h
  split at h
  · cases h
  obtain ⟨i, -, h⟩ := Option.bind_eq_some.1 h
  obtain ⟨t0, -, h⟩ := Option.bind_eq_some.1 h
  obtain ⟨r, hr, h⟩ := Option.bind_eq_some.1 h
  obtain ⟨st, -, h⟩ := Option.bind_eq_some.1 h
  obtain ⟨A3, -, h⟩ := Option.bind_eq_some.1 h
  split at h
  · cases h
  simp only [Option.some.injEq, Prod.mk.injEq] at h
  obtain ⟨h1, h2, -⟩ := h
  have hI := foldlM_inv (add_merge g P fuel in_ state symbol)
    (fun acc => descending acc.1 ∧
      ∀ x ∈ acc.1, 0 ≤ x.2.target ∧ x.2.state = state ∧ x.2.symbol = symbol)
    (List.range A.num_states) ([], A) (merges, A1)
    ⟨List.Pairwise.nil, fun x hx => absurd hx (List.not_mem_nil x)⟩
    (fun a x c _ ha hc => add_merge_inv g P fuel in_ state symbol a c x hc ha.1 ha.2) hm
  have hJ := foldlM_inv (add_split g P fuel state symbol)
    (fun acc => descending acc.splits ∧
      ∀ x ∈ acc.splits, x.2.target = -1 ∧ x.2.state = state ∧ x.2.symbol = symbol)
    i.tails { splits := [], A := A1, time := t0.get_time_value } r
    ⟨List.Pairwise.nil, fun x hx => absurd hx (List.not_mem_nil x)⟩
    (fun a x c _ ha hc => add_split_inv g P fuel state symbol a c x hc ha.1 ha.2) hr
  refine ⟨merges, i.end_, h1.symm, hI.1, hI.2, ?_, ?_⟩
  · rw [← h2]; exact hJ.1
  · rw [← h2]; exact hJ.2

theorem get_best_refinements_shape (g : globals) (P : p_values) (fuel : Nat)
    (A : timed_automaton) (first second : refinement_set) (A' : timed_automaton)
    (h : get_best_refinements g P fuel A = some (first, second, A')) :
    (first = [] ∧ second = []) ∨
      ∃ in_ state symbol,
        score_refinements g P fuel A in_ state symbol = some (first, second, A') := by
  unfold get_best_refinements at h
  split at h
  · cases h
  obtain ⟨sel, -, h⟩ := Option.bind_eq_some.1 h
  split at h
  · simp only [Option.some.injEq, Prod.mk.injEq] at h
    exact Or.inl ⟨h.1.symm, h.2.1.symm⟩
  · obtain ⟨i, -, h⟩ := Option.bind_eq_some.1 h
    split at h
    · simp only [Option.some.injEq, Prod.mk.injEq] at h
      exact Or.inl ⟨h.1.symm, h.2.1.symm⟩
    · exact Or.inr ⟨_, _, _, h⟩

end RTI


namespace RTI

/-! ### The choice of `greedy` -/

theorem merge_set_head (P : p_values) (merges : refinement_set) (c : refinement)
    (hc : c.target = -2) (hd : descending merges) (hm : ∀ x ∈ merges, 0 ≤ x.2.target) :
    ∃ k r, (insert_refinement merges (P.SIGNIFICANCE, c)).head? = some (k, r) ∧
      ((∃ e ∈ insert_refinement merges (P.SIGNIFICANCE, c),
          0 ≤ e.2.target ∧ P.SIGNIFICANCE ≤ e.1) → 0 ≤ r.target ∧ P.SIGNIFICANCE ≤ k) ∧
      (¬ (∃ e ∈ insert_refinement merges (P.SIGNIFICANCE, c),
          0 ≤ e.2.target ∧ P.SIGNIFICANCE ≤ e.1) → r = c ∧ k = P.SIGNIFICANCE) := by
  have hmem : ∀ e ∈ insert_refinement merges (P.SIGNIFICANCE, c), 0 ≤ e.2.target →
      e ∈ merges := by
    intro e he ht
    rcases (mem_insert_refinement _ _ _).1 he with he | he
    · rw [he] at ht
      simp only [hc] at ht
      omega
    · exact he
  rw [head_insert_refinement]
  cases hh : merges.head? with
  | none =>
    have hnil : merges = [] := by
      cases merges with
      | nil => rfl
      | cons y ys => cases hh
    refine ⟨P.SIGNIFICANCE, c, rfl, ?_, fun _ => ⟨rfl, rfl⟩⟩
    rintro ⟨e, he, ht, -⟩
    have := hmem e he ht
    rw [hnil] at this
    cases this
  | some x =>
    simp only
    by_cases hx : x.1 < P.SIGNIFICANCE
    · rw [if_pos hx]
      refine ⟨P.SIGNIFICANCE, c, rfl, ?_, fun _ => ⟨rfl, rfl⟩⟩
      rintro ⟨e, he, ht, hk⟩
      have h1 := descending_head_max merges x hd hh e (hmem e he ht)
      exact absurd (lt_of_le_of_lt (le_trans hk h1) hx) (lt_irrefl _)
    · rw [if_neg hx]
      have hxm : x ∈ merges := List.mem_of_mem_head? hh
      refine ⟨x.1, x.2, rfl, fun _ => ⟨hm x hxm, not_lt.1 hx⟩, ?_⟩
      intro hno
      exact absurd ⟨x, (mem_insert_refinement _ _ _).2 (Or.inr hxm), hm x hxm, not_lt.1 hx⟩ hno

/-- The rule of the choice of `greedy`: when `get_best_refinements` returns a result that is not
empty, `greedy` applies
the split with the smallest p-value if the split set holds a p-value below `SIGNIFICANCE`;
otherwise it applies the first entry of the merge set, whose key is the largest of the set,
and this entry is a merge when a merge has a p-value of at least `SIGNIFICANCE` and the
color refinement, keyed by `SIGNIFICANCE`, when none has. -/
theorem greedy_choice_rule (g : globals) (P : p_values) (fuel : Nat) (A : timed_automaton)
    (first second : refinement_set) (A' : timed_automaton)
    (h : get_best_refinements g P fuel A = some (first, second, A'))
    (hne : ¬ (first = [] ∧ second = [])) :
    ∃ k r, greedy_choice P first second = some r ∧
      ((∃ e ∈ second, e.1 < P.SIGNIFICANCE) →
        (k, r) ∈ second ∧ r.target = -1 ∧ k < P.SIGNIFICANCE ∧ ∀ e ∈ second, k ≤ e.1) ∧
      (¬ (∃ e ∈ second, e.1 < P.SIGNIFICANCE) →
        first.head? = some (k, r) ∧ (∀ e ∈ first, e.1 ≤ k) ∧
        ((∃ e ∈ first, 0 ≤ e.2.target ∧ P.SIGNIFICANCE ≤ e.1) →
          0 ≤ r.target ∧ P.SIGNIFICANCE ≤ k) ∧
        (¬ (∃ e ∈ first, 0 ≤ e.2.target ∧ P.SIGNIFICANCE ≤ e.1) →
          r.target = -2 ∧ k = P.SIGNIFICANCE)) := by
  rcases get_best_refinements_shape g P fuel A first second A' h with h0 | ⟨in_, st, sy, hs⟩
  · exact absurd h0 hne
  obtain ⟨merges, e0, hfirst, hd, hm, hd2, hm2⟩ :=
    score_refinements_shape g P fuel A in_ st sy first second A' hs
  have hdf : descending first := by
    rw [hfirst]; exact insert_refinement_descending _ _ hd
  by_cases hsp : ∃ e ∈ second, e.1 < P.SIGNIFICANCE
  · obtain ⟨e, he, hlt⟩ := hsp
    have hnil : second ≠ [] := List.ne_nil_of_mem he
    obtain ⟨x, hx⟩ : ∃ x, second.getLast? = some x := by
      cases hl : second.getLast? with
      | none => exact absurd (List.getLast?_eq_none_iff.1 hl) hnil
      | some x => exact ⟨x, rfl⟩
    have hmin := descending_last_min second x hd2 hx
    have hxlt : x.1 < P.SIGNIFICANCE := lt_of_le_of_lt (hmin e he) hlt
    have hxm : x ∈ second := List.mem_of_getLast?_eq_some hx
    refine ⟨x.1, x.2, ?_, fun _ => ⟨hxm, (hm2 x hxm).1, hxlt, hmin⟩, ?_⟩
    · unfold greedy_choice
      rw [if_pos hnil, hx]
      simp only [Option.some_bind, if_pos hxlt]
    · intro hno
      exact absurd ⟨e, he, hlt⟩ hno
  · obtain ⟨k, r, hh, h1, h2⟩ := merge_set_head P merges ⟨st, -2, sy, e0⟩ rfl hd
      (fun x hx => (hm x hx).1)
    rw [← hfirst] at hh h1 h2
    refine ⟨k, r, ?_, fun hyes => absurd hyes hsp, fun _ => ⟨hh, ?_, h1, ?_⟩⟩
    · unfold greedy_choice
      by_cases hnil : second ≠ []
      · rw [if_pos hnil]
        obtain ⟨x, hx⟩ : ∃ x, second.getLast? = some x := by
          cases hl : second.getLast? with
          | none => exact absurd (List.getLast?_eq_none_iff.1 hl) hnil
          | some x => exact ⟨x, rfl⟩
        have hxm : x ∈ second := List.mem_of_getLast?_eq_some hx
        have hxn : ¬ x.1 < P.SIGNIFICANCE := fun hlt => hsp ⟨x, hxm, hlt⟩
        rw [hx]
        simp only [Option.some_bind, if_neg hxn, hh, Option.map_some']
      · rw [if_neg hnil, hh]
        rfl
    · exact descending_head_max first (k, r) hdf hh
    · intro hno
      obtain ⟨hr, hk⟩ := h2 hno
      exact ⟨by rw [hr], hk⟩

/-- An instance of the rule of the choice: for the prefix tree of the words `(0, 1) (0, 3)` and
`(0, 5) (0, 2)`, with `MIN_DATA = 1` and constant p-values, `get_best_refinements` returns
the color refinement and the split at 1, whose p-value `0` is below `SIGNIFICANCE = 1`, and
`greedy` applies this split. -/
theorem greedy_choice_rule_witness :
    ∃ A', get_best_refinements small_globals example_p_values 5 example_tree
        = some ([(1, ⟨0, -2, 0, 10⟩)], [(0, ⟨0, -1, 0, 1⟩)], A') ∧
      ¬ (([(1, ⟨0, -2, 0, 10⟩)] : refinement_set) = [] ∧
        ([(0, ⟨0, -1, 0, 1⟩)] : refinement_set) = []) ∧
      ∃ k r, greedy_choice example_p_values [(1, ⟨0, -2, 0, 10⟩)] [(0, ⟨0, -1, 0, 1⟩)]
        = some r ∧ (k, r) ∈ [((0 : ℚ), (⟨0, -1, 0, 1⟩ : refinement))] := by
  refine ⟨_, rfl, by simp, ?_⟩
  obtain ⟨k, r, h1, h2, -⟩ := greedy_choice_rule small_globals example_p_values 5 example_tree
    [(1, ⟨0, -2, 0, 10⟩)] [(0, ⟨0, -1, 0, 1⟩)] _ rfl (by simp)
  exact ⟨k, r, h1, (h2 ⟨_, List.mem_singleton.2 rfl, by norm_num [example_p_values]⟩).1⟩

end RTI


namespace RTI

/-! ### Equivalence of trees up to the order of the tails -/

theorem interval_equiv_symm {a b : interval} (h : interval_equiv a b) : interval_equiv b a :=
  ⟨h.1.symm, h.2.1.symm, h.2.2.1.symm, h.2.2.2.1.symm, h.2.2.2.2.symm⟩

theorem interval_equiv_trans {a b c : interval} (h : interval_equiv a b)
    (h' : interval_equiv b c) : interval_equiv a c :=
  ⟨h.1.trans h'.1, h.2.1.trans h'.2.1, h.2.2.1.trans h'.2.2.1, h.2.2.2.1.trans h'.2.2.2.1,
    h.2.2.2.2.trans h'.2.2.2.2⟩

theorem interval_set_equiv_symm {a b : interval_set} (h : interval_set_equiv a b) :
    interval_set_equiv b a := by
  unfold interval_set_equiv at h ⊢
  induction h with
  | nil => exact List.Forall₂.nil
  | cons h1 _ ih => exact List.Forall₂.cons ⟨h1.1.symm, interval_equiv_symm h1.2⟩ ih

theorem interval_set_equiv_trans {a b c : interval_set} (h : interval_set_equiv a b)
    (h' : interval_set_equiv b c) : interval_set_equiv a c := by
  unfold interval_set_equiv at h h' ⊢
  induction h generalizing c with
  | nil => cases h'; exact List.Forall₂.nil
  | cons h1 _ ih =>
    cases h' with
    | cons h2 h3 =>
      exact List.Forall₂.cons ⟨h1.1.trans h2.1, interval_equiv_trans h1.2 h2.2⟩ (ih h3)

theorem forall₂_symm_aux {α : Type} {R : α → α → Prop} (hR : ∀ x y, R x y → R y x)
    {a b : List α} (h : List.Forall₂ R a b) : List.Forall₂ R b a := by
  induction h with
  | nil => exact List.Forall₂.nil
  | cons h1 _ ih => exact List.Forall₂.cons (hR _ _ h1) ih

theorem state_equiv_symm {a b : timed_state} (h : state_equiv a b) : state_equiv b a :=
  ⟨h.1.symm, @forall₂_symm_aux _ interval_set_equiv
    (fun _ _ h1 => interval_set_equiv_symm h1) _ _ h.2⟩

theorem forall₂_trans_aux {α : Type} {R : α → α → Prop}
    (hR : ∀ x y z, R x y → R y z → R x z) {a b c : List α}
    (h : List.Forall₂ R a b) (h' : List.Forall₂ R b c) : List.Forall₂ R a c := by
  induction h generalizing c with
  | nil => cases h'; exact List.Forall₂.nil
  | cons h1 _ ih =>
    cases h' with
    | cons h2 h3 => exact List.Forall₂.cons (hR _ _ _ h1 h2) (ih h3)

theorem state_equiv_trans {a b c : timed_state} (h : state_equiv a b) (h' : state_equiv b c) :
    state_equiv a c :=
  ⟨h.1.trans h'.1, @forall₂_trans_aux _ interval_set_equiv
    (fun _ _ _ h1 h2 => interval_set_equiv_trans h1 h2) _ _ _ h.2 h'.2⟩

theorem state_equiv_targets {s s' : timed_state} (h : state_equiv s s') {i : Nat}
    {l : interval_set} (hl : s.targets[i]? = some l) :
    ∃ l', s'.targets[i]? = some l' ∧ interval_set_equiv l l' := by
  obtain ⟨_, hF⟩ := h
  have hi : i < s.targets.length := (List.getElem?_eq_some.1 hl).1
  have hlen := hF.length_eq
  have hi' : i < s'.targets.length := by omega
  refine ⟨s'.targets[i], List.getElem?_eq_getElem hi', ?_⟩
  have := List.Forall₂.get hF hi hi'
  simp only [List.get_eq_getElem] at this
  rw [(List.getElem?_eq_some.1 hl).2.symm]
  exact this

theorem is_edge_equiv {s s' : timed_state} (h : state_equiv s s') {i : Nat}
    {e : Int × interval} (he : is_edge s i e) :
    ∃ e', is_edge s' i e' ∧ e.1 = e'.1 ∧ interval_equiv e.2 e'.2 := by
  obtain ⟨l, hl, hel⟩ := he
  obtain ⟨l', hl', hll'⟩ := state_equiv_targets h hl
  obtain ⟨j, hj, hje⟩ := List.getElem_of_mem hel
  have hlen := hll'.length_eq
  have hj' : j < l'.length := by omega
  refine ⟨l'[j], ⟨l', hl', List.getElem_mem hj'⟩, ?_⟩
  have := List.Forall₂.get hll' hj hj'
  simp only [List.get_eq_getElem] at this
  rw [← hje]
  exact this

theorem state_equiv_iv {s s' : timed_state} (h : state_equiv s s') (i : Nat) :
    interval_equiv (s.iv i) (s'.iv i) := by
  unfold timed_state.iv
  cases hl : s.targets[i]? with
  | none =>
    have hlen := h.2.length_eq
    have : s'.targets[i]? = none := by
      rw [List.getElem?_eq_none_iff] at hl ⊢
      omega
    rw [this]
    exact interval_equiv_refl _
  | some l =>
    obtain ⟨l', hl', hll'⟩ := state_equiv_targets h hl
    rw [hl']
    cases hll' with
    | nil => exact interval_equiv_refl _
    | cons h1 _ => exact h1.2

theorem unsplit_equiv {g : globals} {s s' : timed_state} (h : state_equiv s s')
    (hu : s.unsplit g) : s'.unsplit g := by
  refine ⟨by rw [← h.2.length_eq]; exact hu.1, ?_⟩
  intro i hi
  obtain ⟨I, hI⟩ := hu.2 i hi
  obtain ⟨l', hl', hll'⟩ := state_equiv_targets h hI
  cases hll' with
  | cons h1 h2 =>
    cases h2
    rename_i b
    refine ⟨b.2, ?_⟩
    rw [hl']
    have : b.1 = g.MAX_TIME := h1.1.symm
    rw [← this]

theorem tree_equiv_symm {t t' : state_tree} (h : tree_equiv t t') : tree_equiv t' t := by
  induction t generalizing t' with
  | null =>
    have : t' = state_tree.null := h
    rw [this]
    rfl
  | node a s kid ih =>
    obtain ⟨s', kid', rfl, hs, hk⟩ := h
    refine ⟨s, kid, rfl, state_equiv_symm hs, ?_⟩
    intro i e' he'
    obtain ⟨e, he, hkey, -⟩ := is_edge_equiv (state_equiv_symm hs) he'
    rw [hkey]
    exact ih i e.1 (hk i e he)

theorem tree_equiv_trans {t t' t'' : state_tree} (h : tree_equiv t t')
    (h' : tree_equiv t' t'') : tree_equiv t t'' := by
  induction t generalizing t' t'' with
  | null =>
    have : t' = state_tree.null := h
    rw [this] at h'
    exact h'
  | node a s kid ih =>
    obtain ⟨s', kid', rfl, hs, hk⟩ := h
    obtain ⟨s'', kid'', rfl, hs', hk'⟩ := h'
    refine ⟨s'', kid'', rfl, state_equiv_trans hs hs', ?_⟩
    intro i e he
    obtain ⟨e', he', hkey, -⟩ := is_edge_equiv hs he
    have := hk' i e' he'
    rw [← hkey] at this
    exact ih i e.1 (hk i e he) this

theorem addrs_equiv {t t' : state_tree} (h : tree_equiv t t') : t.addrs = t'.addrs := by
  induction t generalizing t' with
  | null =>
    have : t' = state_tree.null := h
    rw [this]
  | node a s kid ih =>
    obtain ⟨s', kid', rfl, hs, hk⟩ := h
    ext r
    simp only [state_tree.addrs, Set.mem_setOf_eq]
    constructor
    · rintro (hr | ⟨i, e, he, hr⟩)
      · exact Or.inl hr
      · obtain ⟨e', he', hkey, -⟩ := is_edge_equiv hs he
        refine Or.inr ⟨i, e', he', ?_⟩
        rw [← hkey, ← ih i e.1 (hk i e he)]
        exact hr
    · rintro (hr | ⟨i, e', he', hr⟩)
      · exact Or.inl hr
      · obtain ⟨e, he, hkey, -⟩ := is_edge_equiv (state_equiv_symm hs) he'
        refine Or.inr ⟨i, e, he, ?_⟩
        rw [ih i e.1 (hk i e he), ← hkey]
        exact hr

theorem root_equiv {t t' : state_tree} (h : tree_equiv t t') : t.root = t'.root := by
  cases t with
  | null =>
    have : t' = state_tree.null := h
    rw [this]
  | node a s kid =>
    obtain ⟨s', kid', rfl, -, -⟩ := h
    rfl

theorem wf_equiv {t t' : state_tree} (h : tree_equiv t t') (hw : t.wf) : t'.wf := by
  induction t generalizing t' with
  | null =>
    have : t' = state_tree.null := h
    rw [this]
    trivial
  | node a s kid ih =>
    obtain ⟨s', kid', rfl, hs, hk⟩ := h
    obtain ⟨h1, h2⟩ := hw
    refine ⟨?_, ?_⟩
    · intro i e' he'
      obtain ⟨e, he, hkey, -⟩ := is_edge_equiv (state_equiv_symm hs) he'
      have hke : tree_equiv (kid i e'.1) (kid' i e'.1) := by
        rw [hkey]; exact hk i e he
      have h1e := h1 i e he
      rw [← hkey] at h1e
      rw [← addrs_equiv hke]
      exact ⟨h1e.1, ih i e'.1 hke h1e.2⟩
    · intro i e1' j e2' he1' he2' hne
      obtain ⟨e1, he1, hkey1, -⟩ := is_edge_equiv (state_equiv_symm hs) he1'
      obtain ⟨e2, he2, hkey2, -⟩ := is_edge_equiv (state_equiv_symm hs) he2'
      have hk1 : tree_equiv (kid i e1'.1) (kid' i e1'.1) := by
        rw [hkey1]; exact hk i e1 he1
      have hk2 : tree_equiv (kid j e2'.1) (kid' j e2'.1) := by
        rw [hkey2]; exact hk j e2 he2
      rw [← addrs_equiv hk1, ← addrs_equiv hk2]
      have := h2 i e1 j e2 he1 he2 (by rw [← hkey1, ← hkey2]; exact hne)
      rw [← hkey1, ← hkey2] at this
      exact this

theorem fits_equiv {t t' : state_tree} (h : tree_equiv t t') {n : Nat} (hf : t.fits n) :
    t'.fits n := by
  induction t generalizing t' n with
  | null =>
    have : t' = state_tree.null := h
    rw [this]
    trivial
  | node a s kid ih =>
    obtain ⟨s', kid', rfl, hs, hk⟩ := h
    obtain ⟨m, hm, hf⟩ := hf
    refine ⟨m, hm, ?_⟩
    intro i e' he'
    obtain ⟨e, he, hkey, -⟩ := is_edge_equiv (state_equiv_symm hs) he'
    have hke : tree_equiv (kid i e'.1) (kid' i e'.1) := by
      rw [hkey]; exact hk i e he
    have hfe := hf i e he
    rw [← hkey] at hfe
    exact ih i e'.1 hke hfe

theorem placed_equiv {g : globals} {t t' : state_tree} (h : tree_equiv t t')
    {P : List timed_tail} (hp : t.placed g P) : t'.placed g P := by
  induction t generalizing t' P with
  | null =>
    have : t' = state_tree.null := h
    rw [this]
    exact hp
  | node a s kid ih =>
    obtain ⟨s', kid', rfl, hs, hk⟩ := h
    obtain ⟨h1, h2, h3, h4⟩ := hp
    refine ⟨unsplit_equiv hs h1, h2, ?_, ?_⟩
    · intro x
      rw [← (state_equiv_iv hs x.get_symbol).2.2.1.count_eq]
      exact h3 x
    · intro i hi
      have he : is_edge s i (g.MAX_TIME, s.iv i) := (timed_state.unsplit_is_edge h1).2 ⟨hi, rfl⟩
      have := ih i g.MAX_TIME (hk i _ he) (h4 i hi)
      cases hk' : kid' i g.MAX_TIME with
      | null =>
        rw [hk'] at this
        have h0 : (s.iv i).tails = [] := this
        show (s'.iv i).tails = []
        have hp := (state_equiv_iv hs i).2.2.1
        rw [h0] at hp
        exact hp.symm.eq_nil
      | node b sb kb =>
        rw [hk'] at this
        exact placed_mono this (fun x => by
          rw [(state_equiv_iv hs i).2.2.1.count_eq])

end RTI


namespace RTI

/-! ### Merging prefix trees -/

theorem insert_tails_nil (t : tail_set) : insert_tails t [] = t := rfl

theorem insert_tails_eq_nil {t r : tail_set} : insert_tails t r = [] ↔ t = [] ∧ r = [] := by
  constructor
  · intro h
    have hp := insert_tails_perm t r
    rw [h] at hp
    have := hp.symm.eq_nil
    exact ⟨(List.append_eq_nil.1 this).2, (List.append_eq_nil.1 this).1⟩
  · rintro ⟨rfl, rfl⟩
    rfl

theorem nexts_append (X Y : List timed_tail) : nexts (X ++ Y) = nexts X ++ nexts Y := by
  simp [nexts, List.filterMap_append]

theorem placed_congr {g : globals} {t : state_tree} {P X : List timed_tail}
    (h : t.placed g P) (hXP : ∀ x, X.count x = P.count x) : t.placed g X := by
  cases t with
  | null =>
    have hP : P = [] := h
    show X = []
    rw [hP] at hXP
    exact List.eq_nil_iff_forall_not_mem.2 (fun x hx => by
      have := hXP x
      have hpos : 0 < X.count x := List.count_pos_iff.2 hx
      rw [List.count_nil] at this
      omega)
  | node a s kid => exact placed_mono h (fun x => le_of_eq (hXP x))

theorem placed_mergeable {g : globals} (tn : state_tree) :
    ∀ (t' : state_tree) (X Y : List timed_tail), tn.placed g X → t'.placed g Y →
      tn ≠ state_tree.null → t' ≠ state_tree.null → mergeable g tn t' := by
  induction tn with
  | null => intro t' X Y _ _ h; exact absurd rfl h
  | node n sN kidN ih =>
    intro t' X Y hX hY _ ht'
    cases t' with
    | null => exact absurd rfl ht'
    | node a sT kid' =>
      refine ⟨a, sT, kid', rfl, hX.1, hY.1, ?_⟩
      intro i hi h1 h2
      have kN := hX.2.2.2 i hi
      have kT := hY.2.2.2 i hi
      obtain ⟨_, _, _, e1⟩ := placed_node kN h1
      obtain ⟨_, _, _, e2⟩ := placed_node kT h2
      exact ih i g.MAX_TIME _ _ _ kN kT (by rw [e1]; simp) (by rw [e2]; simp)

theorem merge_tree_ne_null {g : globals} {tn t' : state_tree} (h1 : tn ≠ state_tree.null)
    (h2 : t' ≠ state_tree.null) : merge_tree g tn t' ≠ state_tree.null := by
  cases tn with
  | null => exact absurd rfl h1
  | node n sN kidN =>
    cases t' with
    | null => exact absurd rfl h2
    | node a sT kid' =>
      rw [merge_tree_node]
      simp

theorem placed_ne_null {g : globals} {t : state_tree} {P : List timed_tail}
    (h : t.placed g P) (hP : P ≠ []) : t ≠ state_tree.null := by
  obtain ⟨_, _, _, e⟩ := placed_node h hP
  rw [e]
  simp

theorem placed_merge {g : globals} (tn : state_tree) :
    ∀ (t' : state_tree) (X Y : List timed_tail), tn.placed g X → t'.placed g Y →
      tn ≠ state_tree.null → t' ≠ state_tree.null →
      (merge_tree g tn t').placed g (X ++ Y) := by
  induction tn with
  | null => intro t' X Y _ _ h; exact absurd rfl h
  | node n sN kidN ih =>
    intro t' X Y hX hY _ ht'
    cases t' with
    | null => exact absurd rfl ht'
    | node a sT kid' =>
      rw [merge_tree_node]
      have hsym : ∀ x ∈ nexts (X ++ Y), x.get_symbol < g.MAX_SYMBOL := by
        intro x hx
        rw [nexts_append] at hx
        rcases List.mem_append.1 hx with hx | hx
        · exact hX.2.1 x hx
        · exact hY.2.1 x hx
      refine ⟨merge_state_unsplit g sN sT, hsym, ?_, ?_⟩
      · intro x
        by_cases hx : x ∈ nexts (X ++ Y)
        · rw [merge_state_iv g sN sT (hsym x hx)]
          simp only [merged_iv, count_insert_tails, nexts_append, List.count_append]
          have := hX.2.2.1 x
          have := hY.2.2.1 x
          omega
        · rw [List.count_eq_zero_of_not_mem hx]
          exact Nat.zero_le _
      · intro i hi
        rw [merge_state_iv g sN sT hi]
        simp only [merged_iv]
        have kN := hX.2.2.2 i hi
        have kT := hY.2.2.2 i hi
        by_cases h1 : (sN.iv i).tails = []
        · rw [if_pos h1, h1, insert_tails_nil]
          exact kT
        · rw [if_neg h1]
          by_cases h2 : (sT.iv i).tails = []
          · rw [if_pos h2, h2]
            exact placed_congr kN (fun x => by rw [count_insert_tails]; simp)
          · rw [if_neg h2]
            exact placed_congr
              (ih i g.MAX_TIME _ _ _ kN kT (placed_ne_null kN h1) (placed_ne_null kT h2))
              (fun x => by rw [count_insert_tails, List.count_append]; omega)

theorem merge_fits {g : globals} (tn : state_tree) :
    ∀ (t' : state_tree) (m : Nat), mergeable g tn t' → tn.fits m → t'.fits m →
      (merge_tree g tn t').fits m := by
  induction tn with
  | null => intro t' m h; exact absurd h (by simp [mergeable])
  | node n sN kidN ih =>
    intro t' m hm hN hT
    obtain ⟨a, sT, kid', rfl, huN, huT, hk⟩ := hm
    rw [merge_tree_node]
    obtain ⟨m1, e1, f1⟩ := hN
    obtain ⟨m2, e2, f2⟩ := hT
    have e12 : m1 = m2 := by omega
    subst e12
    refine ⟨m1, e1, ?_⟩
    intro i e he
    obtain ⟨hi, rfl⟩ := (timed_state.unsplit_is_edge (merge_state_unsplit g sN sT)).1 he
    simp only
    have fN := f1 i _ ((timed_state.unsplit_is_edge huN).2 ⟨hi, rfl⟩)
    have fT := f2 i _ ((timed_state.unsplit_is_edge huT).2 ⟨hi, rfl⟩)
    by_cases h1 : (sN.iv i).tails = []
    · rw [if_pos h1]; exact fT
    · rw [if_neg h1]
      by_cases h2 : (sT.iv i).tails = []
      · rw [if_pos h2]; exact fN
      · rw [if_neg h2]
        exact ih i g.MAX_TIME _ _ (hk i hi h1 h2) fN fT

theorem merge_wf {g : globals} (tn : state_tree) :
    ∀ (t' : state_tree), mergeable g tn t' → tn.wf → t'.wf → Disjoint tn.addrs t'.addrs →
      (merge_tree g tn t').wf := by
  induction tn with
  | null => intro t' h; exact absurd h (by simp [mergeable])
  | node n sN kidN ih =>
    intro t' hm hN hT hd
    have hm' := hm
    obtain ⟨a, sT, kid', rfl, huN, huT, hk⟩ := hm
    rw [merge_tree_node]
    have eN : ∀ i, i < g.MAX_SYMBOL → is_edge sN i (g.MAX_TIME, sN.iv i) :=
      fun i hi => (timed_state.unsplit_is_edge huN).2 ⟨hi, rfl⟩
    have eT : ∀ i, i < g.MAX_SYMBOL → is_edge sT i (g.MAX_TIME, sT.iv i) :=
      fun i hi => (timed_state.unsplit_is_edge huT).2 ⟨hi, rfl⟩
    have sub : ∀ i, i < g.MAX_SYMBOL → ∀ r,
        r ∈ (if (sN.iv i).tails = [] then kid' i g.MAX_TIME
          else if (sT.iv i).tails = [] then kidN i g.MAX_TIME
          else merge_tree g (kidN i g.MAX_TIME) (kid' i g.MAX_TIME)).addrs →
        r ∈ (kidN i g.MAX_TIME).addrs ∨ r ∈ (kid' i g.MAX_TIME).addrs := by
      intro i hi r hr
      exact merged_kid_addrs hm' hi hr
    have inN : ∀ i, i < g.MAX_SYMBOL → ∀ r, r ∈ (kidN i g.MAX_TIME).addrs →
        r ∈ (state_tree.node n sN kidN).addrs :=
      fun i hi r hr => Or.inr ⟨i, _, eN i hi, hr⟩
    have inT : ∀ i, i < g.MAX_SYMBOL → ∀ r, r ∈ (kid' i g.MAX_TIME).addrs →
        r ∈ (state_tree.node a sT kid').addrs :=
      fun i hi r hr => Or.inr ⟨i, _, eT i hi, hr⟩
    have haT : a ∈ (state_tree.node a sT kid').addrs := Or.inl rfl
    refine ⟨?_, ?_⟩
    · intro i e he
      obtain ⟨hi, rfl⟩ := (timed_state.unsplit_is_edge (merge_state_unsplit g sN sT)).1 he
      simp only
      refine ⟨?_, ?_⟩
      · intro hr
        rcases sub i hi a hr with hr | hr
        · exact Set.disjoint_left.1 hd (inN i hi a hr) haT
        · exact (hT.1 i _ (eT i hi)).1 hr
      · by_cases h1 : (sN.iv i).tails = []
        · rw [if_pos h1]; exact (hT.1 i _ (eT i hi)).2
        · rw [if_neg h1]
          by_cases h2 : (sT.iv i).tails = []
          · rw [if_pos h2]; exact (hN.1 i _ (eN i hi)).2
          · rw [if_neg h2]
            refine ih i g.MAX_TIME _ (hk i hi h1 h2) (hN.1 i _ (eN i hi)).2
              (hT.1 i _ (eT i hi)).2 ?_
            exact Set.disjoint_left.2 (fun r hr hr' =>
              Set.disjoint_left.1 hd (inN i hi r hr) (inT i hi r hr'))
    · intro i e j e' he he' hne
      obtain ⟨hi, rfl⟩ := (timed_state.unsplit_is_edge (merge_state_unsplit g sN sT)).1 he
      obtain ⟨hj, rfl⟩ := (timed_state.unsplit_is_edge (merge_state_unsplit g sN sT)).1 he'
      have hij : i ≠ j := fun h => hne (by rw [h])
      simp only
      refine Set.disjoint_left.2 (fun r hr hr' => ?_)
      rcases sub i hi r hr with hr | hr <;> rcases sub j hj r hr' with hr' | hr'
      · exact Set.disjoint_left.1 (hN.2 i _ j _ (eN i hi) (eN j hj)
          (fun h => hij (Prod.mk.inj h).1)) hr hr'
      · exact Set.disjoint_left.1 hd (inN i hi r hr) (inT j hj r hr')
      · exact Set.disjoint_left.1 hd (inN j hj r hr') (inT i hi r hr)
      · exact Set.disjoint_left.1 (hT.2 i _ j _ (eT i hi) (eT j hj)
          (fun h => hij (Prod.mk.inj h).1)) hr hr'

end RTI


namespace RTI

/-! ### Merging is a congruence and associative, up to the order of the tails -/

theorem perm_eq_nil_iff {l l' : List timed_tail} (h : l.Perm l') : l = [] ↔ l' = [] := by
  constructor
  · intro e
    rw [e] at h
    exact h.symm.eq_nil
  · intro e
    rw [e] at h
    exact h.eq_nil

theorem merge_state_stat (g : globals) (sN sT : timed_state) :
    (merge_state g sN sT).stat
      = add_counts g sT.stat (collect (fun i => (sN.iv i).tails) g.MAX_SYMBOL) := by
  rw [← collect_fold]
  rfl

theorem collect_perm (ts ts' : Nat → tail_set) (k : Nat)
    (h : ∀ i, i < k → (ts i).Perm (ts' i)) : (collect ts k).Perm (collect ts' k) := by
  induction k with
  | zero => exact List.Perm.refl _
  | succ k ih =>
    rw [collect, collect]
    exact List.Perm.append (h k (Nat.lt_succ_self k)) (ih (fun i hi => h i (Nat.lt_succ_of_lt hi)))

theorem collect_append_perm (ts ts' : Nat → tail_set) (k : Nat) :
    (collect (fun i => ts i ++ ts' i) k).Perm (collect ts k ++ collect ts' k) := by
  induction k with
  | zero => exact List.Perm.refl _
  | succ k ih =>
    rw [collect, collect, collect]
    have h1 : ((ts k ++ ts' k) ++ collect (fun i => ts i ++ ts' i) k).Perm
        ((ts k ++ ts' k) ++ (collect ts k ++ collect ts' k)) := List.Perm.append_left _ ih
    refine h1.trans ?_
    rw [List.append_assoc, List.append_assoc]
    refine List.Perm.append_left _ ?_
    rw [← List.append_assoc, ← List.append_assoc]
    exact List.Perm.append_right _ List.perm_append_comm

theorem merged_iv_equiv {n t n2 t2 : interval} (hn : interval_equiv n n2)
    (ht : interval_equiv t t2) : interval_equiv (merged_iv n t) (merged_iv n2 t2) := by
  refine ⟨ht.1, ht.2.1, ?_, ?_, ht.2.2.2.2⟩
  · exact (insert_tails_perm _ _).trans
      ((List.Perm.append hn.2.2.1 ht.2.2.1).trans (insert_tails_perm _ _).symm)
  · simp only [merged_iv]
    have e1 := perm_eq_nil_iff hn.2.2.1
    have e2 := perm_eq_nil_iff ht.2.2.1
    rw [hn.2.2.2.1, ht.2.2.2.1]
    have e1' : n2.tails = [] ↔ n.tails = [] := e1.symm
    have e2' : t2.tails = [] ↔ t.tails = [] := e2.symm
    simp only [ne_eq, e1', e2']

theorem merge_state_equiv {g : globals} {sN sT sN2 sT2 : timed_state}
    (hN : state_equiv sN sN2) (hT : state_equiv sT sT2) :
    state_equiv (merge_state g sN sT) (merge_state g sN2 sT2) := by
  refine state_equiv_unsplit (merge_state_unsplit g sN sT) (merge_state_unsplit g sN2 sT2) ?_ ?_
  · rw [merge_state_stat, merge_state_stat, hT.1]
    exact add_counts_perm g _ (collect_perm _ _ _ (fun i _ => (state_equiv_iv hN i).2.2.1))
  · intro i hi
    rw [merge_state_iv g sN sT hi, merge_state_iv g sN2 sT2 hi]
    exact merged_iv_equiv (state_equiv_iv hN i) (state_equiv_iv hT i)

theorem merge_congr {g : globals} (tn : state_tree) :
    ∀ (t' tn2 t'2 : state_tree), mergeable g tn t' → tree_equiv tn tn2 → tree_equiv t' t'2 →
      tree_equiv (merge_tree g tn t') (merge_tree g tn2 t'2) := by
  induction tn with
  | null => intro t' _ _ h; exact absurd h (by simp [mergeable])
  | node n sN kidN ih =>
    intro t' tn2 t'2 hm hN hT
    obtain ⟨a, sT, kid', rfl, huN, huT, hk⟩ := hm
    obtain ⟨sN2, kidN2, rfl, hsN, hkN⟩ := hN
    obtain ⟨sT2, kid'2, rfl, hsT, hkT⟩ := hT
    rw [merge_tree_node, merge_tree_node]
    refine ⟨_, _, rfl, merge_state_equiv hsN hsT, ?_⟩
    intro i e he
    obtain ⟨hi, rfl⟩ := (timed_state.unsplit_is_edge (merge_state_unsplit g sN sT)).1 he
    simp only
    have e1 := perm_eq_nil_iff (state_equiv_iv hsN i).2.2.1
    have e2 := perm_eq_nil_iff (state_equiv_iv hsT i).2.2.1
    have kN := hkN i _ ((timed_state.unsplit_is_edge huN).2 ⟨hi, rfl⟩)
    have kT := hkT i _ ((timed_state.unsplit_is_edge huT).2 ⟨hi, rfl⟩)
    by_cases h1 : (sN.iv i).tails = []
    · rw [if_pos h1, if_pos (e1.1 h1)]
      exact kT
    · rw [if_neg h1, if_neg (mt e1.2 h1)]
      by_cases h2 : (sT.iv i).tails = []
      · rw [if_pos h2, if_pos (e2.1 h2)]
        exact kN
      · rw [if_neg h2, if_neg (mt e2.2 h2)]
        exact ih i g.MAX_TIME _ _ _ (hk i hi h1 h2) kN kT

theorem mergeable_equiv {g : globals} (tn : state_tree) :
    ∀ (t' tn2 t'2 : state_tree), mergeable g tn t' → tree_equiv tn tn2 → tree_equiv t' t'2 →
      mergeable g tn2 t'2 := by
  induction tn with
  | null => intro t' _ _ h; exact absurd h (by simp [mergeable])
  | node n sN kidN ih =>
    intro t' tn2 t'2 hm hN hT
    obtain ⟨a, sT, kid', rfl, huN, huT, hk⟩ := hm
    obtain ⟨sN2, kidN2, rfl, hsN, hkN⟩ := hN
    obtain ⟨sT2, kid'2, rfl, hsT, hkT⟩ := hT
    refine ⟨a, sT2, kid'2, rfl, unsplit_equiv hsN huN, unsplit_equiv hsT huT, ?_⟩
    intro i hi h1 h2
    have e1 := perm_eq_nil_iff (state_equiv_iv hsN i).2.2.1
    have e2 := perm_eq_nil_iff (state_equiv_iv hsT i).2.2.1
    have kN := hkN i _ ((timed_state.unsplit_is_edge huN).2 ⟨hi, rfl⟩)
    have kT := hkT i _ ((timed_state.unsplit_is_edge huT).2 ⟨hi, rfl⟩)
    exact ih i g.MAX_TIME _ _ _ (hk i hi (mt e1.1 h1) (mt e2.1 h2)) kN kT

theorem merged_iv_assoc (a b c : interval) :
    interval_equiv (merged_iv (merged_iv a b) c) (merged_iv a (merged_iv b c)) := by
  refine ⟨rfl, rfl, ?_, ?_, rfl⟩
  · simp only [merged_iv]
    refine (insert_tails_perm _ _).trans ?_
    refine ((List.Perm.append_right _ (insert_tails_perm _ _)).trans ?_)
    refine List.Perm.trans ?_ (insert_tails_perm _ _).symm
    rw [List.append_assoc]
    exact List.Perm.append_left _ (insert_tails_perm _ _).symm
  · simp only [merged_iv, insert_tails_eq_nil, ne_eq, not_and]
    by_cases ha : a.tails = [] <;> by_cases hb : b.tails = [] <;>
      by_cases hc : c.tails = [] <;> simp [ha, hb, hc]

theorem merge_state_assoc (g : globals) (sA sB sC : timed_state) :
    state_equiv (merge_state g (merge_state g sA sB) sC)
      (merge_state g sA (merge_state g sB sC)) := by
  refine state_equiv_unsplit (merge_state_unsplit g _ _) (merge_state_unsplit g _ _) ?_ ?_
  · rw [merge_state_stat, merge_state_stat, merge_state_stat, ← add_counts_append]
    refine add_counts_perm g _ ?_
    have h1 : (collect (fun i => ((merge_state g sA sB).iv i).tails) g.MAX_SYMBOL).Perm
        (collect (fun i => (sA.iv i).tails ++ (sB.iv i).tails) g.MAX_SYMBOL) := by
      refine collect_perm _ _ _ (fun i hi => ?_)
      rw [merge_state_iv g sA sB hi]
      exact insert_tails_perm _ _
    exact (h1.trans (collect_append_perm _ _ _)).trans List.perm_append_comm
  · intro i hi
    rw [merge_state_iv g _ _ hi, merge_state_iv g _ _ hi, merge_state_iv g _ _ hi,
      merge_state_iv g _ _ hi]
    exact merged_iv_assoc _ _ _

theorem merge_assoc {g : globals} (ta : state_tree) :
    ∀ (tb tc : state_tree) (X Y Z : List timed_tail), ta.placed g X → tb.placed g Y →
      tc.placed g Z → ta ≠ state_tree.null → tb ≠ state_tree.null → tc ≠ state_tree.null →
      tree_equiv (merge_tree g (merge_tree g ta tb) tc)
        (merge_tree g ta (merge_tree g tb tc)) := by
  induction ta with
  | null => intro _ _ _ _ _ _ _ _ h; exact absurd rfl h
  | node a sA kA ih =>
    intro tb tc X Y Z hX hY hZ _ hb hc
    cases tb with
    | null => exact absurd rfl hb
    | node b sB kB =>
      cases tc with
      | null => exact absurd rfl hc
      | node c sC kC =>
        rw [merge_tree_node, merge_tree_node, merge_tree_node, merge_tree_node]
        refine ⟨_, _, rfl, merge_state_assoc g sA sB sC, ?_⟩
        intro i e he
        obtain ⟨hi, rfl⟩ := (timed_state.unsplit_is_edge (merge_state_unsplit g _ _)).1 he
        simp only
        rw [merge_state_iv g sA sB hi, merge_state_iv g sB sC hi]
        simp only [merged_iv, insert_tails_eq_nil]
        have pA := hX.2.2.2 i hi
        have pB := hY.2.2.2 i hi
        have pC := hZ.2.2.2 i hi
        by_cases h1 : (sA.iv i).tails = [] <;> by_cases h2 : (sB.iv i).tails = [] <;>
          by_cases h3 : (sC.iv i).tails = [] <;> simp only [h1, h2, h3, and_self, and_true,
            and_false, true_and, false_and, if_true, if_false]
        all_goals first
          | exact tree_equiv_refl _
          | exact ih i g.MAX_TIME _ _ _ _ _ pA pB pC (placed_ne_null pA h1)
              (placed_ne_null pB h2) (placed_ne_null pC h3)

end RTI


namespace RTI

/-! ### The parts of a divided prefix tree are prefix trees -/

theorem nexts_perm {P Q : List timed_tail} (h : P.Perm Q) : (nexts P).Perm (nexts Q) :=
  List.Perm.filterMap _ h

theorem nexts_count_add {P P' X : List timed_tail}
    (h : ∀ x, P'.count x + X.count x = P.count x) (x : timed_tail) :
    (nexts P').count x + (nexts X).count x = (nexts P).count x := by
  have hp : P.Perm (P' ++ X) := by
    rw [List.perm_iff_count]
    intro y
    rw [List.count_append, h y]
  rw [(nexts_perm hp).count_eq, nexts_append, List.count_append]

theorem split_rel_placed {g : globals} (t : state_tree) :
    ∀ (X P P' : List timed_tail) (tn t' : state_tree), t.placed g P →
      (∀ x, P'.count x + X.count x = P.count x) → split_rel g t X tn t' →
      tn.placed g X ∧ t'.placed g P' ∧ ∀ m, t.fits m → t'.fits m := by
  induction t with
  | null => intro X P P' tn t' _ _ h; exact absurd h (by simp [split_rel])
  | node a sT kid ih =>
    intro X P P' tn t' hpl hc hs
    obtain ⟨n, sN, kidN, sT', kid', rfl, rfl, huN, huT', hstat, -, hsym⟩ := hs
    obtain ⟨huT, hP1, hP2, hP3⟩ := hpl
    have hn := nexts_count_add hc
    have hXs : ∀ x ∈ nexts X, x.get_symbol < g.MAX_SYMBOL := by
      intro x hx
      refine hP1 x (List.count_pos_iff.1 ?_)
      have := hn x
      have hpos : 0 < (nexts X).count x := List.count_pos_iff.2 hx
      omega
    have hPs : ∀ x ∈ nexts P', x.get_symbol < g.MAX_SYMBOL := by
      intro x hx
      refine hP1 x (List.count_pos_iff.1 ?_)
      have := hn x
      have hpos : 0 < (nexts P').count x := List.count_pos_iff.2 hx
      omega
    refine ⟨⟨huN, hXs, ?_, ?_⟩, ⟨huT', hPs, ?_, ?_⟩, ?_⟩
    · intro x
      by_cases hx : x ∈ nexts X
      · obtain ⟨c1, -⟩ := hsym x.get_symbol (hXs x hx)
        rw [c1 x]
        simp
      · rw [List.count_eq_zero_of_not_mem hx]
        exact Nat.zero_le _
    · intro i hi
      obtain ⟨c1, c2, -, -, -, -, -, c3⟩ := hsym i hi
      by_cases h1 : (sN.iv i).tails = []
      · rw [if_pos h1] at c3
        rw [c3.1, h1]
        rfl
      · rw [if_neg h1] at c3
        by_cases h2 : (sT'.iv i).tails = []
        · rw [if_pos h2] at c3
          rw [c3.1]
          refine placed_congr (hP3 i hi) (fun x => ?_)
          have := c2 x
          rw [h2] at this
          simpa using this
        · rw [if_neg h2] at c3
          exact (ih i g.MAX_TIME _ _ _ _ _ (hP3 i hi) c2 c3.2).1
    · intro x
      by_cases hx : x ∈ nexts P'
      · obtain ⟨c1, c2, -⟩ := hsym x.get_symbol (hPs x hx)
        have h1 := c1 x
        have h2 := c2 x
        have h3 := hP2 x
        have h4 := hn x
        simp only [↓reduceIte] at h1
        omega
      · rw [List.count_eq_zero_of_not_mem hx]
        exact Nat.zero_le _
    · intro i hi
      obtain ⟨c1, c2, -, -, -, -, -, c3⟩ := hsym i hi
      by_cases h1 : (sN.iv i).tails = []
      · rw [if_pos h1] at c3
        rw [c3.2.1]
        refine placed_congr (hP3 i hi) (fun x => ?_)
        have := c2 x
        rw [h1] at this
        simpa using this
      · rw [if_neg h1] at c3
        by_cases h2 : (sT'.iv i).tails = []
        · rw [if_pos h2] at c3
          rw [c3.2.1, h2]
          rfl
        · rw [if_neg h2] at c3
          exact (ih i g.MAX_TIME _ _ _ _ _ (hP3 i hi) c2 c3.2).2.1
    · intro m hm
      obtain ⟨m1, e1, f1⟩ := hm
      refine ⟨m1, e1, ?_⟩
      intro i e he
      obtain ⟨hi, rfl⟩ := (timed_state.unsplit_is_edge huT').1 he
      have fT := f1 i _ ((timed_state.unsplit_is_edge huT).2 ⟨hi, rfl⟩)
      obtain ⟨c1, c2, -, -, -, -, -, c3⟩ := hsym i hi
      simp only
      by_cases h1 : (sN.iv i).tails = []
      · rw [if_pos h1] at c3
        rw [c3.2.1]
        exact fT
      · rw [if_neg h1] at c3
        by_cases h2 : (sT'.iv i).tails = []
        · rw [if_pos h2] at c3
          rw [c3.2.1]
          trivial
        · rw [if_neg h2] at c3
          exact (ih i g.MAX_TIME _ _ _ _ _ (hP3 i hi) c2 c3.2).2.2 m1 fT

end RTI


namespace RTI

/-! ### `split` on an interval with a prefix tree below it -/

theorem split_piece_placed {g : globals} {i : interval} {t : state_tree} {time : Int}
    {l r : piece} (h : split_piece g (i, t) time l r) (hpl : t.placed g i.tails) :
    l.2.placed g l.1.tails ∧ r.2.placed g r.1.tails ∧
      (∀ m, t.fits m → l.2.fits m ∧ r.2.fits m) ∧
      (l.1.tails = [] → l.2 = state_tree.null) ∧
      ((i.tails = [] → t = state_tree.null) → r.1.tails = [] → r.2 = state_tree.null) := by
  obtain ⟨h1, h2, h3⟩ := h
  have hl : l.1.tails = tails_upto i.tails time := by rw [h1]; rfl
  have hr : r.1.tails = tails_after i.tails time := by rw [h2]; rfl
  have happ := tails_upto_append_after i.tails time
  have hcnt : ∀ x, (tails_after i.tails time).count x + (tails_upto i.tails time).count x
      = i.tails.count x := by
    intro x
    conv_rhs => rw [← happ]
    rw [List.count_append]
    omega
  simp only at h3
  rw [hl, hr]
  by_cases e1 : tails_upto i.tails time = []
  · rw [if_pos e1] at h3
    rw [h3.1, h3.2, e1]
    refine ⟨rfl, ?_, fun m hm => ⟨trivial, hm⟩, fun _ => rfl, ?_⟩
    · refine placed_congr hpl (fun x => ?_)
      have := hcnt x
      rw [e1] at this
      simpa using this
    · intro hemp e2
      apply hemp
      rw [← happ, e1, e2]
      rfl
  · rw [if_neg e1] at h3
    by_cases e2 : tails_after i.tails time = []
    · rw [if_pos e2] at h3
      rw [h3.1, h3.2, e2]
      refine ⟨?_, rfl, fun m hm => ⟨hm, trivial⟩, fun h => absurd h e1, fun _ _ => rfl⟩
      refine placed_congr hpl (fun x => ?_)
      have := hcnt x
      rw [e2] at this
      simpa using this
    · rw [if_neg e2] at h3
      obtain ⟨p1, p2, p3⟩ := split_rel_placed t _ _ _ _ _ hpl hcnt h3
      have hpX : t.placed g (tails_upto i.tails time) := by
        cases t with
        | null => exact absurd h3 (by simp [split_rel])
        | node a s kid => exact placed_mono hpl (tails_upto_count_le i.tails time)
      obtain ⟨-, -, p4⟩ := split_rel_roundtrip t _ _ _ hpX h3
      exact ⟨p1, p2, fun m hm => ⟨p4 m hm, p3 m hm⟩, fun h => absurd h e1,
        fun _ h => absurd h e2⟩

theorem split_spec {g : globals} {fuel : Nat} {A : timed_automaton} {p : Nat}
    {s : timed_state} {symbol : Nat} {pre post : interval_set} {k time : Int} {i : interval}
    {t : state_tree} (hp : A.mem p = some s)
    (hl : s.targets[symbol]? = some (pre ++ (k, i) :: post))
    (hpre : ∀ e, e ∈ pre → e.1 < time) (hk : time < k) (hb : i.begin ≤ time)
    (he : time < i.end_) (hpn : p < A.next) (hrep : rep A i.to_ t) (hwf : t.wf)
    (hpl : t.placed g i.tails) (hfit : t.fits fuel) (hpt : p ∉ t.addrs)
    (hlt : ∀ r, r ∈ t.addrs → r < A.next) :
    ∃ (A1 : timed_automaton) (l r : piece), split g fuel A p symbol time = some A1 ∧
      A1.mem p = some (s.set_intervals symbol (around pre post time k l.1 r.1)) ∧
      split_piece g (i, t) time l r ∧
      rep A1 l.1.to_ l.2 ∧ rep A1 r.1.to_ r.2 ∧ l.2.wf ∧ r.2.wf ∧
      Disjoint l.2.addrs r.2.addrs ∧
      (∀ x, x ∈ l.2.addrs → x ∈ t.addrs ∨ (A.next ≤ x ∧ x < A1.next)) ∧
      (∀ x, x ∈ r.2.addrs → x ∈ t.addrs) ∧
      (∀ x, x ≠ p → x ∉ t.addrs → x < A.next → A1.mem x = A.mem x) ∧
      A.next ≤ A1.next ∧ A1.states = A.states ∧ A1.marker = A.marker ∧
      A1.root = A.root ∧
      (tails_upto i.tails time ≠ [] → tails_after i.tails time ≠ [] →
        l.2.root = some A.next) := by
  have hsym : symbol < s.targets.length := (List.getElem?_eq_some.1 hl).1
  have hroot : i.to_ = t.root := rep_root hrep
  have hsplit : split g fuel A p symbol time = _ :=
    split_eval hp hl hpre hk hb he (ne_of_lt hpn)
  by_cases h1 : tails_upto i.tails time = []
  · rw [if_pos h1] at hsplit
    refine ⟨_, (new_half i time, state_tree.null), ({ old_half i time with to_ := t.root }, t),
      hsplit, ?_, ⟨rfl, rfl, ?_⟩, rfl, ?_, trivial, hwf, ?_, ?_, fun x hx => hx, ?_,
      le_refl _, rfl, rfl, rfl, fun h => absurd h1 h⟩
    · rw [mem_store_self, ← hroot]
      rfl
    · simp only [if_pos h1, and_self]
    · refine rep_frame (hroot ▸ hrep) (fun r hr => ?_)
      have hrp : r ≠ p := fun h => hpt (h ▸ hr)
      rw [timed_automaton.store_mem, if_neg hrp]
    · exact Set.disjoint_left.2 (fun x hx => absurd hx (by simp [state_tree.addrs]))
    · intro x hx
      exact absurd hx (by simp [state_tree.addrs])
    · intro x hxp _ _
      rw [timed_automaton.store_mem, if_neg hxp]
  · rw [if_neg h1] at hsplit
    by_cases h2 : tails_after i.tails time = []
    · rw [if_pos h2] at hsplit
      refine ⟨_, ({ new_half i time with to_ := t.root }, t),
        ({ old_half i time with to_ := none }, state_tree.null),
        hsplit, ?_, ⟨rfl, rfl, ?_⟩, ?_, rfl, hwf, trivial, ?_, fun x hx => Or.inl hx, ?_, ?_,
        le_refl _, rfl, rfl, rfl, fun _ h => absurd h2 h⟩
      · rw [mem_store_self, ← hroot]
      · simp only [if_neg h1, if_pos h2, and_self]
      · refine rep_frame (hroot ▸ hrep) (fun r hr => ?_)
        have hrp : r ≠ p := fun h => hpt (h ▸ hr)
        simp only [timed_automaton.store_mem, if_neg hrp]
      · exact Set.disjoint_right.2 (fun x hx => absurd hx (by simp [state_tree.addrs]))
      · intro x hx
        exact absurd hx (by simp [state_tree.addrs])
      · intro x hxp _ _
        simp only [timed_automaton.store_mem, if_neg hxp]
    · rw [if_neg h2] at hsplit
      have hi : i.tails ≠ [] := by
        intro h
        apply h1
        simp [tails_upto, h]
      obtain ⟨a, sT, kid, rfl⟩ := placed_node hpl hi
      have hia : i.to_ = some a := hroot
      obtain ⟨t1, t2, t3, t4, t5, t6, t7⟩ := two_at pre post time k
        ({ new_half i time with to_ := some A.next } : interval) (old_half i time) hpre hk
      rw [hia] at hsplit
      generalize hA3 : ((A.store p (s.set_intervals symbol
          (around pre post time k (new_half i time) (old_half i time)))).alloc g).2.store p
          (s.set_intervals symbol (around pre post time k
            { new_half i time with to_ := some A.next } (old_half i time))) = A3 at hsplit
      have hA3p : A3.mem p = some (s.set_intervals symbol (around pre post time k
          { new_half i time with to_ := some A.next } (old_half i time))) := by
        rw [← hA3]
        exact mem_store_self _ _ _
      have hA3n : A3.mem A.next = some (timed_state.new g) := by
        rw [← hA3]
        simp [(ne_of_lt hpn).symm]
      have hA3r : ∀ r, r ≠ p → r ≠ A.next → A3.mem r = A.mem r := by
        intro r h h'
        rw [← hA3]
        simp [h, h']
      have hA3next : A3.next = A.next + 1 := by
        rw [← hA3]
        simp
      have hA3st : A3.states = A.states ∧ A3.marker = A.marker ∧ A3.root = A.root := by
        rw [← hA3]
        exact ⟨rfl, rfl, rfl⟩
      have hplX : (state_tree.node a sT kid).placed g (tails_upto i.tails time) :=
        placed_mono hpl (tails_upto_count_le i.tails time)
      obtain ⟨B, hB, tn, t', p1, p2, p3, p4, p5, p6, p7, p8, q1, q2, q3, q4, q5⟩ :=
        recurse_split_spec g fuel A3 ⟨p, symbol, time⟩
          ({ new_half i time with to_ := some A.next } : interval) A.next a sT kid
          (read_set hA3p hsym t3) rfl hA3n (by omega)
          (fun h => by have := hlt _ h; omega) (fun r hr => by have := hlt r hr; omega)
          (rep_frame (hia ▸ hrep) (fun r hr => hA3r r (fun h => hpt (h ▸ hr))
            (fun h => by have := hlt r hr; omega)))
          hwf hfit hplX
      have hBp : B.mem p = some (s.set_intervals symbol (around pre post time k
          { new_half i time with to_ := some A.next } (old_half i time))) := by
        rw [q1 p (fun h => ?_) (by omega)]
        · exact hA3p
        · rcases h with h | h
          · have : p = A.next := h
            omega
          · exact hpt h
      have hrn : tn.root = some A.next := (rep_root p1).symm
      have hrt : t'.root = some a := (rep_root p2).symm
      refine ⟨B, ({ new_half i time with to_ := some A.next }, tn),
        ({ old_half i time with to_ := some a }, t'), hsplit.trans hB, ?_, ⟨?_, ?_, ?_⟩,
        p1, p2, p4, p5, p6, ?_, p8, ?_, ?_, ?_, ?_, ?_, fun _ _ => hrn⟩
      · rw [hBp, ← hia]
        rfl
      · simp only [hrn]
      · simp only [hrt]
      · simp only [if_neg h1, if_neg h2]
        exact p3
      · intro x hx
        rcases p7 x hx with h | h | h
        · exact Or.inr ⟨le_of_eq h.symm, by rw [h]; omega⟩
        · exact Or.inl h
        · exact Or.inr ⟨by omega, h.2⟩
      · intro x hxp hxt hxn
        rw [q1 x (fun h => ?_) (by omega), hA3r x hxp (ne_of_lt hxn)]
        rcases h with h | h
        · have : x = A.next := h
          omega
        · exact hxt h
      · omega
      · rw [q3]; exact hA3st.1
      · rw [q4]; exact hA3st.2.1
      · rw [q5]; exact hA3st.2.2

end RTI


namespace RTI

/-! ### C13: the targets of the two halves after `split` -/

/-- C13: after `split(symbol, time)` on the state at `p`, whose partition for `symbol` is a
cover with the interval `i` around `time` (`i.begin ≤ time < i.end`), the interval at `time`
is the new left half `[i.begin, time]` with the tails up to `time`, the interval at
`time + 1` is the right half `[time + 1, i.end]` with the other tails, and: if the left half
is empty its target is null and the right half keeps the target of `i`; if the left half
holds tails and the right half is empty the left half has the target of `i` and the right
half the null target; if both hold tails the right half keeps the target of `i` and the
target of the left half is a state at an address where no state existed before the call.
When both halves hold tails, a prefix tree is assumed below `i`. -/
theorem split_targets_spec (g : globals) (fuel : Nat) (A : timed_automaton) (p : Nat)
    (s : timed_state) (symbol : Nat) (time : Int) (l : interval_set) (k : Int) (i : interval)
    (hp : A.mem p = some s) (hl : s.targets[symbol]? = some l) (hok : partition_ok g l)
    (hf : find_interval l time = some (k, i)) (hb : i.begin ≤ time) (he : time < i.end_)
    (hfresh : ∀ r, A.next ≤ r → A.mem r = none)
    (htree : tails_upto i.tails time ≠ [] → tails_after i.tails time ≠ [] →
      ∃ t, rep A i.to_ t ∧ t.wf ∧ t.placed g i.tails ∧ t.fits fuel ∧ p ∉ t.addrs) :
    ∃ A1 left right, split g fuel A p symbol time = some A1 ∧
      A1.interval_at (some p) symbol time = some (⟨p, symbol, time⟩, left) ∧
      A1.interval_at (some p) symbol (time + 1) = some (⟨p, symbol, k⟩, right) ∧
      left.begin = i.begin ∧ left.end_ = time ∧ right.begin = time + 1 ∧
      right.end_ = i.end_ ∧ left.tails = tails_upto i.tails time ∧
      right.tails = tails_after i.tails time ∧
      (left.tails = [] → left.to_ = none ∧ right.to_ = i.to_) ∧
      (left.tails ≠ [] → right.tails = [] → left.to_ = i.to_ ∧ right.to_ = none) ∧
      (left.tails ≠ [] → right.tails ≠ [] → right.to_ = i.to_ ∧
        ∃ n, left.to_ = some n ∧ A.mem n = none ∧ (A1.mem n).isSome = true) := by
  obtain ⟨pre, post, rfl, hpre, hk⟩ := find_interval_decomp hok hf he
  have hsym : symbol < s.targets.length := (List.getElem?_eq_some.1 hl).1
  have hlt : ∀ r, A.mem r ≠ none → r < A.next := by
    intro r hr
    by_contra hlt
    exact hr (hfresh r (by omega))
  have hpn : p < A.next := hlt p (by rw [hp]; simp)
  have hsplit : split g fuel A p symbol time = _ :=
    split_eval hp hl hpre hk hb he (ne_of_lt hpn)
  by_cases h1 : tails_upto i.tails time = []
  · rw [if_pos h1] at hsplit
    obtain ⟨t1, t2, -⟩ := two_at pre post time k (new_half i time) (old_half i time) hpre hk
    refine ⟨_, new_half i time, old_half i time, hsplit,
      interval_at_set (mem_store_self _ _ _) hsym t1,
      interval_at_set (mem_store_self _ _ _) hsym t2, rfl, rfl, rfl, rfl, rfl, rfl,
      fun _ => ⟨rfl, rfl⟩, fun h => absurd h1 h, fun h => absurd h1 h⟩
  · rw [if_neg h1] at hsplit
    by_cases h2 : tails_after i.tails time = []
    · rw [if_pos h2] at hsplit
      obtain ⟨t1, t2, -⟩ := two_at pre post time k
        ({ new_half i time with to_ := i.to_ } : interval)
        ({ old_half i time with to_ := none } : interval) hpre hk
      refine ⟨_, { new_half i time with to_ := i.to_ }, { old_half i time with to_ := none },
        hsplit, interval_at_set (mem_store_self _ _ _) hsym t1,
        interval_at_set (mem_store_self _ _ _) hsym t2, rfl, rfl, rfl, rfl, rfl, rfl,
        fun h => absurd h h1, fun _ _ => ⟨rfl, rfl⟩, fun _ h => absurd h2 h⟩
    · obtain ⟨t, r1, r2, r3, r4, r5⟩ := htree h1 h2
      have htl : ∀ r, r ∈ t.addrs → r < A.next := by
        intro r hr
        obtain ⟨s', hs'⟩ := rep_mem r1 hr
        exact hlt r (by rw [hs']; simp)
      obtain ⟨A1, lp, rp, q1, q2, ⟨q3, q4, q5⟩, q6, q7, -, -, -, -, -, -, -, -, -, -, q8⟩ :=
        split_spec hp hl hpre hk hb he hpn r1 r2 r3 r4 r5 htl
      obtain ⟨t1, t2, -⟩ := two_at pre post time k lp.1 rp.1 hpre hk
      simp only [if_neg h1, if_neg h2] at q5
      have hn := q8 h1 h2
      obtain ⟨a, sT, kid, n, sN, kidN, sT', kid', e1, e2, e3⟩ := split_rel_node q5
      have hrt : rp.2.root = i.to_ := by
        rw [e3, rep_root r1, e1]
        rfl
      have hl1 : lp.1.tails = tails_upto i.tails time := by rw [q3]; rfl
      have hr1 : rp.1.tails = tails_after i.tails time := by rw [q4]; rfl
      refine ⟨A1, lp.1, rp.1, q1, interval_at_set q2 hsym t1, interval_at_set q2 hsym t2,
        by rw [q3]; rfl, by rw [q3]; rfl, by rw [q4]; rfl, by rw [q4]; rfl, hl1, hr1,
        fun h => absurd (hl1 ▸ h) h1, fun _ h => absurd (hr1 ▸ h) h2,
        fun _ _ => ⟨by rw [q4]; exact hrt, A.next, by rw [q3]; exact hn,
          hfresh _ (le_refl _), ?_⟩⟩
      rw [q3] at q6
      simp only [hn] at q6
      obtain ⟨s', hs'⟩ := rep_mem q6 (by
        rw [e2] at hn ⊢
        simp only [state_tree.root, Option.some.injEq] at hn
        rw [hn]
        exact Or.inl rfl : A.next ∈ lp.2.addrs)
      rw [hs']
      rfl

/-- The witness of C13: in the prefix tree of the words `(0, 1) (0, 3)` and `(0, 5) (0, 2)`
the interval of the root is split at 2, with a tail on either side. -/
theorem split_targets_spec_witness :
    ∃ A1 left right, split example_globals 2 example_tree 0 0 2 = some A1 ∧
      A1.interval_at (some 0) 0 2 = some (⟨0, 0, 2⟩, left) ∧
      A1.interval_at (some 0) 0 (2 + 1) = some (⟨0, 0, 10⟩, right) ∧
      left.begin = 0 ∧ left.end_ = 2 ∧ right.begin = 2 + 1 ∧
      right.end_ = 10 ∧ left.tails = [⟨0, 0, [(0, 1), (0, 3), (2, 4)]⟩] ∧
      right.tails = [⟨1, 0, [(0, 5), (0, 2), (2, 7)]⟩] ∧
      (left.tails = [] → left.to_ = none ∧ right.to_ = some 1) ∧
      (left.tails ≠ [] → right.tails = [] → left.to_ = some 1 ∧ right.to_ = none) ∧
      (left.tails ≠ [] → right.tails ≠ [] → right.to_ = some 1 ∧
        ∃ n, left.to_ = some n ∧ example_tree.mem n = none ∧ (A1.mem n).isSome = true) :=
  split_targets_spec example_globals 2 example_tree 0 example_root 0 2
    [(10, { interval.new 0 10 with
      tails := [⟨0, 0, [(0, 1), (0, 3), (2, 4)]⟩, ⟨1, 0, [(0, 5), (0, 2), (2, 7)]⟩]
      to_ := some 1 })] 10
    { interval.new 0 10 with
      tails := [⟨0, 0, [(0, 1), (0, 3), (2, 4)]⟩, ⟨1, 0, [(0, 5), (0, 2), (2, 7)]⟩]
      to_ := some 1 }
    rfl rfl (by decide) (by decide) (by decide) (by decide) example_tree_fresh
    (fun _ _ => ⟨example_state_tree, example_tree_rep, example_tree_wf, example_tree_placed,
      example_tree_fits, example_tree_root_not_mem⟩)

end RTI


namespace RTI

/-! ### `undo_split` on two neighbouring intervals with prefix trees below them -/

theorem merge_piece_addrs {g : globals} {x y : interval} {tx ty : state_tree}
    (hpx : tx.placed g x.tails) (hpy : ty.placed g y.tails) {r : Nat}
    (hr : r ∈ (merge_piece g (x, tx) (y, ty)).2.addrs) : r ∈ tx.addrs ∨ r ∈ ty.addrs := by
  simp only [merge_piece] at hr
  by_cases h1 : x.tails = []
  · rw [if_pos h1] at hr
    exact Or.inr hr
  · rw [if_neg h1] at hr
    by_cases h2 : y.tails = []
    · rw [if_pos h2] at hr
      exact Or.inl hr
    · rw [if_neg h2] at hr
      have hm := placed_mergeable tx ty _ _ hpx hpy (placed_ne_null hpx h1)
        (placed_ne_null hpy h2)
      rcases merge_addrs tx ty r hm hr with h | ⟨n, sN, kidN, rfl, i, hi, h⟩
      · exact Or.inr h
      · obtain ⟨_, _, _, _, huN, _⟩ := hm
        exact Or.inl (Or.inr ⟨i, _, (timed_state.unsplit_is_edge huN).2 ⟨hi, rfl⟩, h⟩)

theorem undo_split_spec {g : globals} {fuel : Nat} {B : timed_automaton} {p : Nat}
    {s : timed_state} {symbol : Nat} {pre post : interval_set} {k time : Int} {x y : interval}
    {tx ty : state_tree}
    (hp : B.mem p = some (s.set_intervals symbol (around pre post time k x y)))
    (hsym : symbol < s.targets.length) (hpre : ∀ e, e ∈ pre → e.1 < time) (hk : time < k)
    (hx : rep B x.to_ tx) (hy : rep B y.to_ ty) (hpx : tx.placed g x.tails)
    (hpy : ty.placed g y.tails) (hwx : tx.wf) (hwy : ty.wf)
    (hd : Disjoint tx.addrs ty.addrs) (hptx : p ∉ tx.addrs) (hpty : p ∉ ty.addrs)
    (hfx : tx.fits fuel) :
    ∃ B', undo_split g fuel B p symbol time = some B' ∧
      B'.mem p = some (s.set_intervals symbol
        (pre ++ (k, (merge_piece g (x, tx) (y, ty)).1) :: post)) ∧
      rep B' (merge_piece g (x, tx) (y, ty)).1.to_ (merge_piece g (x, tx) (y, ty)).2 ∧
      (∀ r, r ≠ p → r ∉ tx.addrs → r ∉ ty.addrs → B'.mem r = B.mem r) ∧
      B'.next = B.next ∧ B'.states = B.states ∧ B'.marker = B.marker ∧ B'.root = B.root := by
  have hundo : undo_split g fuel B p symbol time = _ := undo_split_eval hp hsym hpre hk
  obtain ⟨t1, t2, t3, t4, t5, t6, t7⟩ := two_at pre post time k x y hpre hk
  by_cases h1 : x.tails = []
  · rw [if_pos h1, Option.some_bind, undo_split_finish hp hsym hpre hk] at hundo
    have e1 : (merge_piece g (x, tx) (y, ty)).1
        = { y with tails := insert_tails y.tails x.tails, begin := x.begin } := by
      simp [merge_piece, merged_iv, h1]
    have e2 : (merge_piece g (x, tx) (y, ty)).2 = ty := by
      simp [merge_piece, h1]
    rw [e1, e2]
    refine ⟨_, hundo, mem_store_self _ _ _, ?_, ?_, rfl, rfl, rfl, rfl⟩
    · refine rep_frame hy (fun r hr => ?_)
      have hrp : r ≠ p := fun h => hpty (h ▸ hr)
      rw [timed_automaton.store_mem, if_neg hrp]
    · intro r hrp _ _
      rw [timed_automaton.store_mem, if_neg hrp]
  · rw [if_neg h1] at hundo
    by_cases h2 : y.tails = []
    · rw [if_pos h2, Option.some_bind,
        undo_split_finish (mem_store_self _ _ _) hsym hpre hk] at hundo
      have e1 : (merge_piece g (x, tx) (y, ty)).1
          = { ({ y with to_ := x.to_ } : interval) with
              tails := insert_tails ({ y with to_ := x.to_ } : interval).tails
                ({ x with to_ := none } : interval).tails
              begin := ({ x with to_ := none } : interval).begin } := by
        simp [merge_piece, merged_iv, h1, h2]
      have e2 : (merge_piece g (x, tx) (y, ty)).2 = tx := by
        simp [merge_piece, h1, h2]
      rw [e1, e2]
      refine ⟨_, hundo, mem_store_self _ _ _, ?_, ?_, rfl, rfl, rfl, rfl⟩
      · refine rep_frame hx (fun r hr => ?_)
        have hrp : r ≠ p := fun h => hptx (h ▸ hr)
        simp only [timed_automaton.store_mem, if_neg hrp]
      · intro r hrp _ _
        simp only [timed_automaton.store_mem, if_neg hrp]
    · rw [if_neg h2] at hundo
      obtain ⟨n, sN, kidN, rfl⟩ := placed_node hpx h1
      obtain ⟨a, sT, kid', rfl⟩ := placed_node hpy h2
      have hxn : x.to_ = some n := rep_root hx
      have hya : y.to_ = some a := rep_root hy
      have hm := placed_mergeable _ _ _ _ hpx hpy (by simp) (by simp)
      obtain ⟨B1, hB1, r1, r2, r3, r4, r5, r6⟩ :=
        recurse_un_split_spec g fuel B ⟨p, symbol, time⟩ x n sN kidN a sT kid'
          (read_set hp hsym t3) hxn (hxn ▸ hx) (hya ▸ hy) hm hwx hwy hd hfx
      have hB1p : B1.mem p = some (s.set_intervals symbol (around pre post time k x y)) := by
        rw [r2 p hptx hpty]
        exact hp
      have hpn : p ≠ n := fun h => hptx (h ▸ Or.inl rfl)
      have hB2p : (B1.free (some n)).mem p
          = some (s.set_intervals symbol (around pre post time k x y)) := by
        rw [timed_automaton.free_mem, if_neg hpn]
        exact hB1p
      rw [hya, hB1] at hundo
      simp only [Option.some_bind, read_set hB1p hsym t3, Option.map_some', hxn] at hundo
      rw [undo_split_finish hB2p hsym hpre hk] at hundo
      have e1 : (merge_piece g (x, state_tree.node n sN kidN) (y, state_tree.node a sT kid')).1
          = { y with tails := insert_tails y.tails x.tails, begin := x.begin } := by
        simp [merge_piece, merged_iv, h2]
      have e2 : (merge_piece g (x, state_tree.node n sN kidN)
          (y, state_tree.node a sT kid')).2
          = merge_tree g (state_tree.node n sN kidN) (state_tree.node a sT kid') := by
        simp only [merge_piece, if_neg h1, if_neg h2]
      have hnm := merge_root_not_mem hm hwx hd
      rw [e1, e2]
      refine ⟨_, hundo, mem_store_self _ _ _, ?_, ?_, ?_, ?_, ?_, ?_⟩
      · show rep _ y.to_ _
        rw [hya]
        refine rep_frame r1 (fun r hr => ?_)
        have hrp : r ≠ p := by
          intro h
          rw [h] at hr
          have := @merge_piece_addrs g x y _ _ hpx hpy _ (by rw [e2]; exact hr)
          rcases this with h | h
          · exact hptx h
          · exact hpty h
        have hrn : r ≠ n := fun h => hnm (h ▸ hr)
        rw [timed_automaton.store_mem, if_neg hrp, timed_automaton.free_mem, if_neg hrn]
      · intro r hrp hrx hry
        have hrn : r ≠ n := fun h => hrx (h ▸ Or.inl rfl)
        rw [timed_automaton.store_mem, if_neg hrp, timed_automaton.free_mem, if_neg hrn]
        exact r2 r hrx hry
      · rw [timed_automaton.store_next, timed_automaton.free_next, r3]
      · rw [timed_automaton.store_states, timed_automaton.free_states, r4]
      · show (B1.free (some n)).marker = B.marker
        rw [timed_automaton.free_marker, r5]
      · show (B1.free (some n)).root = B.root
        simp only [timed_automaton.free]
        exact r6

end RTI


namespace RTI

/-! ### Merging intervals with their trees -/

theorem merge_piece_tails (g : globals) (x y : piece) :
    (merge_piece g x y).1.tails = insert_tails y.1.tails x.1.tails := rfl

theorem merge_piece_tails_eq_nil (g : globals) (x y : piece) :
    (merge_piece g x y).1.tails = [] ↔ x.1.tails = [] ∧ y.1.tails = [] := by
  rw [merge_piece_tails, insert_tails_eq_nil]
  tauto

theorem merge_piece_placed {g : globals} {x y : piece} (hx : x.2.placed g x.1.tails)
    (hy : y.2.placed g y.1.tails) :
    (merge_piece g x y).2.placed g (merge_piece g x y).1.tails := by
  rw [merge_piece_tails]
  simp only [merge_piece]
  by_cases h1 : x.1.tails = []
  · rw [if_pos h1, h1, insert_tails_nil]
    exact hy
  · rw [if_neg h1]
    by_cases h2 : y.1.tails = []
    · rw [if_pos h2, h2]
      exact placed_congr hx (fun z => by rw [count_insert_tails]; simp)
    · rw [if_neg h2]
      exact placed_congr
        (placed_merge _ _ _ _ hx hy (placed_ne_null hx h1) (placed_ne_null hy h2))
        (fun z => by rw [count_insert_tails, List.count_append]; omega)

theorem merge_piece_wf {g : globals} {x y : piece} (hx : x.2.placed g x.1.tails)
    (hy : y.2.placed g y.1.tails) (hwx : x.2.wf) (hwy : y.2.wf)
    (hd : Disjoint x.2.addrs y.2.addrs) : (merge_piece g x y).2.wf := by
  simp only [merge_piece]
  by_cases h1 : x.1.tails = []
  · rw [if_pos h1]; exact hwy
  · rw [if_neg h1]
    by_cases h2 : y.1.tails = []
    · rw [if_pos h2]; exact hwx
    · rw [if_neg h2]
      exact merge_wf _ _ (placed_mergeable _ _ _ _ hx hy (placed_ne_null hx h1)
        (placed_ne_null hy h2)) hwx hwy hd

theorem merge_piece_fits {g : globals} {x y : piece} (hx : x.2.placed g x.1.tails)
    (hy : y.2.placed g y.1.tails) {m : Nat} (hfx : x.2.fits m) (hfy : y.2.fits m) :
    (merge_piece g x y).2.fits m := by
  simp only [merge_piece]
  by_cases h1 : x.1.tails = []
  · rw [if_pos h1]; exact hfy
  · rw [if_neg h1]
    by_cases h2 : y.1.tails = []
    · rw [if_pos h2]; exact hfx
    · rw [if_neg h2]
      exact merge_fits _ _ _ (placed_mergeable _ _ _ _ hx hy (placed_ne_null hx h1)
        (placed_ne_null hy h2)) hfx hfy

theorem merge_piece_root {g : globals} {x y : piece} (hx : x.1.to_ = x.2.root)
    (hy : y.1.to_ = y.2.root) (hpx : x.2.placed g x.1.tails) (hpy : y.2.placed g y.1.tails) :
    (merge_piece g x y).1.to_ = (merge_piece g x y).2.root := by
  simp only [merge_piece, merged_iv]
  by_cases h1 : x.1.tails = []
  · simp only [h1, ne_eq, not_true_eq_false, false_and, if_false, if_true]
    exact hy
  · by_cases h2 : y.1.tails = []
    · simp only [h1, h2, ne_eq, not_false_eq_true, and_self, if_true, if_false]
      exact hx
    · simp only [h1, h2, ne_eq, not_false_eq_true, and_false, if_false]
      obtain ⟨n, sN, kidN, e1⟩ := placed_node hpx h1
      obtain ⟨a, sT, kid', e2⟩ := placed_node hpy h2
      rw [hy, e1, e2, merge_tree_node]
      rfl

theorem merge_piece_equiv {g : globals} {x y x' y' : piece} (hx : piece_equiv x x')
    (hy : piece_equiv y y') (hpx : x.2.placed g x.1.tails) (hpy : y.2.placed g y.1.tails) :
    piece_equiv (merge_piece g x y) (merge_piece g x' y') := by
  have e1 := perm_eq_nil_iff hx.1.2.2.1
  have e2 := perm_eq_nil_iff hy.1.2.2.1
  refine ⟨?_, ?_⟩
  · have := merged_iv_equiv hx.1 hy.1
    exact ⟨hx.1.1, this.2.1, this.2.2.1, this.2.2.2.1, this.2.2.2.2⟩
  · simp only [merge_piece]
    by_cases h1 : x.1.tails = []
    · rw [if_pos h1, if_pos (e1.1 h1)]
      exact hy.2
    · rw [if_neg h1, if_neg (mt e1.2 h1)]
      by_cases h2 : y.1.tails = []
      · rw [if_pos h2, if_pos (e2.1 h2)]
        exact hx.2
      · rw [if_neg h2, if_neg (mt e2.2 h2)]
        exact merge_congr _ _ _ _ (placed_mergeable _ _ _ _ hpx hpy (placed_ne_null hpx h1)
          (placed_ne_null hpy h2)) hx.2 hy.2

theorem merge_piece_assoc {g : globals} {x y z : piece} (hpx : x.2.placed g x.1.tails)
    (hpy : y.2.placed g y.1.tails) (hpz : z.2.placed g z.1.tails) :
    piece_equiv (merge_piece g (merge_piece g x y) z)
      (merge_piece g x (merge_piece g y z)) := by
  refine ⟨?_, ?_⟩
  · have := merged_iv_assoc x.1 y.1 z.1
    exact ⟨rfl, this.2.1, this.2.2.1, this.2.2.2.1, this.2.2.2.2⟩
  · have e1 := merge_piece_tails_eq_nil g x y
    have e2 := merge_piece_tails_eq_nil g y z
    simp only [merge_piece] at e1 e2 ⊢
    simp only [e1, e2]
    by_cases h1 : x.1.tails = [] <;> by_cases h2 : y.1.tails = [] <;>
      by_cases h3 : z.1.tails = [] <;> simp only [h1, h2, h3, and_self, and_true,
        and_false, true_and, false_and, if_true, if_false]
    all_goals first
      | exact tree_equiv_refl _
      | exact merge_assoc _ _ _ _ _ _ hpx hpy hpz (placed_ne_null hpx h1)
          (placed_ne_null hpy h2) (placed_ne_null hpz h3)

theorem piece_equiv_refl (x : piece) : piece_equiv x x :=
  ⟨interval_equiv_refl _, tree_equiv_refl _⟩

theorem piece_equiv_symm {x y : piece} (h : piece_equiv x y) : piece_equiv y x :=
  ⟨interval_equiv_symm h.1, tree_equiv_symm h.2⟩

theorem piece_equiv_trans {x y z : piece} (h : piece_equiv x y) (h' : piece_equiv y z) :
    piece_equiv x z :=
  ⟨interval_equiv_trans h.1 h'.1, tree_equiv_trans h.2 h'.2⟩

theorem piece_equiv_placed {g : globals} {x y : piece} (h : piece_equiv x y)
    (hp : x.2.placed g x.1.tails) : y.2.placed g y.1.tails :=
  placed_congr (placed_equiv h.2 hp) (fun z => (h.1.2.2.1.count_eq z).symm)

theorem split_piece_roundtrip {g : globals} {i : interval} {t : state_tree} {time : Int}
    {l r : piece} (h : split_piece g (i, t) time l r) (hpl : t.placed g i.tails)
    (hroot : i.to_ = t.root) : piece_equiv (i, t) (merge_piece g l r) := by
  obtain ⟨h1, h2, h3⟩ := h
  have hl : l.1.tails = tails_upto i.tails time := by rw [h1]; rfl
  have hr : r.1.tails = tails_after i.tails time := by rw [h2]; rfl
  have happ := tails_upto_append_after i.tails time
  simp only at h3
  have htails : i.tails.Perm (insert_tails r.1.tails l.1.tails) := by
    refine List.Perm.symm ((insert_tails_perm _ _).trans ?_)
    rw [hl, hr, happ]
  have hb : i.begin = l.1.begin := by rw [h1]; rfl
  have he : i.end_ = r.1.end_ := by rw [h2]; rfl
  have hm : i.num_marked = r.1.num_marked := by rw [h2]; rfl
  have hlt : l.1.to_ = l.2.root := by rw [h1]
  have hrt : r.1.to_ = r.2.root := by rw [h2]
  simp only [piece_equiv, merge_piece, merged_iv, interval_equiv]
  rw [hl, hr]
  by_cases e1 : tails_upto i.tails time = []
  · rw [if_pos e1] at h3
    simp only [e1, ne_eq, not_true_eq_false, false_and, if_false, if_true]
    refine ⟨⟨hb, he, ?_, ?_, hm⟩, ?_⟩
    · rw [← e1, ← hl, ← hr]; exact htails
    · rw [hrt, h3.2]; exact hroot
    · rw [h3.2]; exact tree_equiv_refl _
  · rw [if_neg e1] at h3
    by_cases e2 : tails_after i.tails time = []
    · rw [if_pos e2] at h3
      simp only [e1, e2, ne_eq, not_false_eq_true, and_self, if_true, if_false]
      refine ⟨⟨hb, he, ?_, ?_, hm⟩, ?_⟩
      · have := htails
        rw [hl, hr, e2] at this
        exact this
      · rw [hlt, h3.1]; exact hroot
      · rw [h3.1]; exact tree_equiv_refl _
    · rw [if_neg e2] at h3
      simp only [e1, e2, ne_eq, not_false_eq_true, and_false, if_false]
      have hpX : t.placed g (tails_upto i.tails time) := by
        cases t with
        | null => exact absurd h3 (by simp [split_rel])
        | node a s kid => exact placed_mono hpl (tails_upto_count_le i.tails time)
      obtain ⟨-, p2, -⟩ := split_rel_roundtrip t _ _ _ hpX h3
      refine ⟨⟨hb, he, ?_, ?_, hm⟩, p2⟩
      · have := htails
        rw [hl, hr] at this
        exact this
      · rw [hrt, hroot, root_equiv p2]
        obtain ⟨a, sT, kid, n, sN, kidN, sT', kid', q1, q2, q3⟩ := split_rel_node h3
        rw [q2, q3, merge_tree_node]
        rfl

end RTI


namespace RTI

/-! ### Undoing a chain of splits from left to right -/

theorem merge_pieces_cons_cons (g : globals) (x y : piece) (rest : List piece) :
    merge_pieces g (x :: y :: rest) = merge_pieces g (merge_piece g x y :: rest) := rfl

theorem merge_pieces_single (g : globals) (x : piece) : merge_pieces g [x] = x := rfl

theorem merge_pieces_placed {g : globals} (cs : List piece) :
    ∀ (c : piece), (∀ x ∈ c :: cs, x.2.placed g x.1.tails) →
      (merge_pieces g (c :: cs)).2.placed g (merge_pieces g (c :: cs)).1.tails := by
  induction cs with
  | nil => intro c h; exact h c (List.mem_singleton.2 rfl)
  | cons y ys ih =>
    intro c h
    rw [merge_pieces_cons_cons]
    refine ih _ (fun x hx => ?_)
    rcases List.mem_cons.1 hx with hx | hx
    · rw [hx]
      exact merge_piece_placed (h c (List.mem_cons_self _ _))
        (h y (List.mem_cons_of_mem _ (List.mem_cons_self _ _)))
    · exact h x (List.mem_cons_of_mem _ (List.mem_cons_of_mem _ hx))

theorem merge_pieces_equiv {g : globals} (cs : List piece) :
    ∀ (c c' : piece) (cs' : List piece), piece_equiv c c' →
      List.Forall₂ piece_equiv cs cs' → (∀ x ∈ c :: cs, x.2.placed g x.1.tails) →
      piece_equiv (merge_pieces g (c :: cs)) (merge_pieces g (c' :: cs')) := by
  induction cs with
  | nil =>
    intro c c' cs' hc h _
    cases h
    exact hc
  | cons y ys ih =>
    intro c c' cs' hc h hp
    cases h with
    | cons hy hys =>
      rw [merge_pieces_cons_cons, merge_pieces_cons_cons]
      have pc := hp c (List.mem_cons_self _ _)
      have py := hp y (List.mem_cons_of_mem _ (List.mem_cons_self _ _))
      refine ih _ _ _ (merge_piece_equiv hc hy pc py) hys (fun x hx => ?_)
      rcases List.mem_cons.1 hx with hx | hx
      · rw [hx]
        exact merge_piece_placed pc py
      · exact hp x (List.mem_cons_of_mem _ (List.mem_cons_of_mem _ hx))

theorem merge_pieces_assoc {g : globals} (rest : List piece) :
    ∀ (x y : piece), (∀ c ∈ x :: y :: rest, c.2.placed g c.1.tails) →
      piece_equiv (merge_pieces g (x :: y :: rest))
        (merge_piece g x (merge_pieces g (y :: rest))) := by
  induction rest with
  | nil => intro x y _; exact piece_equiv_refl _
  | cons z zs ih =>
    intro x y hp
    have px := hp x (List.mem_cons_self _ _)
    have py := hp y (List.mem_cons_of_mem _ (List.mem_cons_self _ _))
    have hzs : ∀ c ∈ z :: zs, c.2.placed g c.1.tails :=
      fun c hc => hp c (List.mem_cons_of_mem _ (List.mem_cons_of_mem _ hc))
    have pz := hzs z (List.mem_cons_self _ _)
    have pxy := @merge_piece_placed g _ _ px py
    have pZ := merge_pieces_placed zs z hzs
    rw [merge_pieces_cons_cons]
    have h1 := ih (merge_piece g x y) z (fun c hc => by
      rcases List.mem_cons.1 hc with hc | hc
      · rw [hc]; exact pxy
      · exact hzs c hc)
    have h2 := @merge_piece_assoc g _ _ _ px py pZ
    have h3 := ih y z (fun c hc => by
      rcases List.mem_cons.1 hc with hc | hc
      · rw [hc]; exact py
      · exact hzs c hc)
    exact piece_equiv_trans h1 (piece_equiv_trans h2
      (merge_piece_equiv (piece_equiv_refl x) (piece_equiv_symm h3) px
        (merge_piece_placed py pZ)))

theorem split_chain_ne_nil {g : globals} {c : piece} {es : List Int} {out : List piece}
    (h : split_chain g c es out) : out ≠ [] := by
  cases es with
  | nil =>
    have : out = [c] := h
    rw [this]
    simp
  | cons e es =>
    obtain ⟨l, r, rest, -, -, rfl⟩ := h
    simp

theorem split_chain_roundtrip {g : globals} (es : List Int) :
    ∀ (c : piece) (out : List piece), split_chain g c es out → c.2.placed g c.1.tails →
      c.1.to_ = c.2.root →
      piece_equiv c (merge_pieces g out) ∧ ∀ x ∈ out, x.2.placed g x.1.tails := by
  induction es with
  | nil =>
    intro c out h hp _
    have : out = [c] := h
    rw [this]
    exact ⟨piece_equiv_refl _, fun x hx => by rw [List.mem_singleton.1 hx]; exact hp⟩
  | cons e es ih =>
    intro c out h hp hroot
    obtain ⟨l, r, rest, h1, h2, rfl⟩ := h
    obtain ⟨pl, pr, -⟩ := @split_piece_placed g c.1 c.2 _ _ _ h1 hp
    have hr : r.1.to_ = r.2.root := by rw [h1.2.1]
    obtain ⟨q1, q2⟩ := ih r rest h2 pr hr
    have hall : ∀ x ∈ l :: rest, x.2.placed g x.1.tails := by
      intro x hx
      rcases List.mem_cons.1 hx with hx | hx
      · rw [hx]; exact pl
      · exact q2 x hx
    refine ⟨?_, hall⟩
    have h3 := @split_piece_roundtrip g c.1 c.2 _ _ _ h1 hp hroot
    have h4 := @merge_piece_equiv g _ _ _ _ (piece_equiv_refl l) q1 pl pr
    obtain ⟨y, ys, rfl⟩ := List.exists_cons_of_ne_nil (split_chain_ne_nil h2)
    exact piece_equiv_trans h3 (piece_equiv_trans h4
      (piece_equiv_symm (merge_pieces_assoc ys l y hall)))

end RTI


namespace RTI

/-! ### The partitions stay covers -/

theorem mem_of_getElem?_some {α : Type} {l : List α} {i : Nat} {a : α}
    (h : l[i]? = some a) : a ∈ l := by
  obtain ⟨hi, ha⟩ := List.getElem?_eq_some.1 h
  rw [← ha]
  exact List.getElem_mem hi

theorem state_ok_set {g : globals} {s : timed_state} {symbol : Nat} {l : interval_set}
    (hs : s.targets.length = g.MAX_SYMBOL ∧ ∀ x ∈ s.targets, partition_ok g x)
    (hl : partition_ok g l) :
    (s.set_intervals symbol l).targets.length = g.MAX_SYMBOL ∧
      ∀ x ∈ (s.set_intervals symbol l).targets, partition_ok g x := by
  refine ⟨by simp [timed_state.set_intervals, hs.1], ?_⟩
  intro x hx
  simp only [timed_state.set_intervals] at hx
  rcases List.mem_or_eq_of_mem_set hx with h | h
  · exact hs.2 x h
  · rw [h]; exact hl

theorem state_ok_update {g : globals} {s : timed_state} {symbol : Nat} {key : Int}
    {f : interval → interval} (hb : ∀ i, (f i).begin = i.begin)
    (he : ∀ i, (f i).end_ = i.end_)
    (hs : s.targets.length = g.MAX_SYMBOL ∧ ∀ x ∈ s.targets, partition_ok g x) :
    (s.update symbol key f).targets.length = g.MAX_SYMBOL ∧
      ∀ x ∈ (s.update symbol key f).targets, partition_ok g x := by
  unfold timed_state.update
  cases hl : s.targets[symbol]? with
  | none => exact hs
  | some l =>
    simp only
    refine ⟨by simp [hs.1], ?_⟩
    intro x hx
    rcases List.mem_or_eq_of_mem_set hx with h | h
    · exact hs.2 x h
    · rw [h]
      exact update_interval_partition_ok hb he
        (hs.2 l (mem_of_getElem?_some hl))

theorem heap_ok_store {g : globals} {A : timed_automaton} {p : Nat} {s : timed_state}
    (h : heap_ok g A)
    (hs : s.targets.length = g.MAX_SYMBOL ∧ ∀ x ∈ s.targets, partition_ok g x) :
    heap_ok g (A.store p s) := by
  intro r s' hr
  rw [timed_automaton.store_mem] at hr
  split at hr
  · cases hr; exact hs
  · exact h r s' hr

theorem heap_ok_write {g : globals} {A B : timed_automaton} {r : interval_ptr}
    {f : interval → interval} (h : heap_ok g A) (hw : A.write r f = some B)
    (hb : ∀ i, (f i).begin = i.begin) (he : ∀ i, (f i).end_ = i.end_) :
    heap_ok g B := by
  unfold timed_automaton.write at hw
  obtain ⟨s, hs, hB⟩ := Option.map_eq_some'.1 hw
  rw [← hB]
  exact heap_ok_store h (state_ok_update hb he (h _ s hs))

theorem heap_ok_update_stat {g : globals} {A B : timed_automaton} {p : Option Nat}
    {f : state_statistics → state_statistics} (h : heap_ok g A)
    (hw : A.update_stat p f = some B) : heap_ok g B := by
  unfold timed_automaton.update_stat at hw
  cases p with
  | none => cases hw
  | some q =>
    obtain ⟨s, hs, hB⟩ := Option.map_eq_some'.1 hw
    rw [← hB]
    exact heap_ok_store h (h _ s hs)

theorem heap_ok_add_tail {g : globals} {A B : timed_automaton} {p : Option Nat}
    {tail : timed_tail} (h : heap_ok g A) (hw : A.add_tail g p tail = some B) :
    heap_ok g B := by
  unfold timed_automaton.add_tail at hw
  cases p with
  | none => cases hw
  | some q =>
    obtain ⟨s', hs', hB⟩ := Option.map_eq_some'.1 hw
    obtain ⟨s, hs, hadd⟩ := Option.bind_eq_some.1 hs'
    rw [← hB]
    refine heap_ok_store h ?_
    unfold timed_state.add_tail at hadd
    split at hadd
    · cases hadd
    · cases hadd
      exact state_ok_update (fun _ => rfl) (fun _ => rfl) (h _ s hs)

theorem heap_ok_del_tail {g : globals} {A B : timed_automaton} {p : Option Nat}
    {tail : timed_tail} (h : heap_ok g A) (hw : A.del_tail g p tail = some B) :
    heap_ok g B := by
  unfold timed_automaton.del_tail at hw
  cases p with
  | none => cases hw
  | some q =>
    obtain ⟨s', hs', hB⟩ := Option.map_eq_some'.1 hw
    obtain ⟨s, hs, hdel⟩ := Option.bind_eq_some.1 hs'
    rw [← hB]
    refine heap_ok_store h ?_
    unfold timed_state.del_tail at hdel
    split at hdel
    · cases hdel
    · split at hdel
      · cases hdel
      · cases hdel
        exact state_ok_update (fun _ => rfl) (fun _ => rfl) (h _ s hs)

theorem heap_ok_alloc {g : globals} {A : timed_automaton} (h : heap_ok g A) :
    heap_ok g (A.alloc g).2 := by
  intro r s hr
  simp only [timed_automaton.alloc] at hr
  split at hr
  · cases hr
    exact ⟨by simp [timed_state.new], fun l hl => (new_state_valid g l hl).1⟩
  · exact h r s hr

theorem heap_ok_move_next_tails {g : globals} {o n : Option Nat} (X : List timed_tail) :
    ∀ {A B : timed_automaton}, heap_ok g A → move_next_tails g o n A X = some B →
      heap_ok g B := by
  induction X with
  | nil =>
    intro A B h hw
    simp only [move_next_tails, Option.some.injEq] at hw
    rw [← hw]; exact h
  | cons x X ih =>
    intro A B h hw
    simp only [move_next_tails] at hw
    split at hw
    · exact ih h hw
    · obtain ⟨A1, h1, hw⟩ := Option.bind_eq_some.1 hw
      obtain ⟨A2, h2, hw⟩ := Option.bind_eq_some.1 hw
      exact ih (heap_ok_add_tail (heap_ok_del_tail h h1) h2) hw

theorem heap_ok_split_symbol {g : globals}
    {recurse : timed_automaton → interval_ptr → Option Nat → Option timed_automaton}
    (hrec : ∀ A B ptr o, heap_ok g A → recurse A ptr o = some B → heap_ok g B)
    {n o : Option Nat} {A B : timed_automaton} {i : Nat} (h : heap_ok g A)
    (hw : split_symbol g recurse n o A i = some B) : heap_ok g B := by
  unfold split_symbol at hw
  obtain ⟨⟨ptr, nni⟩, -, hw⟩ := Option.bind_eq_some.1 hw
  simp only at hw
  split at hw
  · obtain ⟨⟨ptr2, noi⟩, -, hw⟩ := Option.bind_eq_some.1 hw
    simp only at hw
    split at hw
    · obtain ⟨A3, h3, hw⟩ := Option.bind_eq_some.1 hw
      exact hrec _ _ _ _ (heap_ok_write (heap_ok_alloc h) h3 (fun _ => rfl) (fun _ => rfl)) hw
    · obtain ⟨A2, h2, hw⟩ := Option.bind_eq_some.1 hw
      exact heap_ok_write (heap_ok_write h h2 (fun _ => rfl) (fun _ => rfl)) hw
        (fun _ => rfl) (fun _ => rfl)
  · simp only [Option.some.injEq] at hw
    rw [← hw]; exact h

theorem heap_ok_recurse_split {g : globals} (fuel : Nat) :
    ∀ (A B : timed_automaton) (ptr : interval_ptr) (o : Option Nat), heap_ok g A →
      recurse_split g fuel A ptr o = some B → heap_ok g B := by
  induction fuel with
  | zero => intro A B ptr o _ hw; cases hw
  | succ fuel ih =>
    intro A B ptr o h hw
    simp only [recurse_split] at hw
    obtain ⟨ni, -, hw⟩ := Option.bind_eq_some.1 hw
    obtain ⟨A1, h1, hw⟩ := Option.bind_eq_some.1 hw
    exact foldlM_inv _ (heap_ok g) _ _ _ (heap_ok_move_next_tails _ h h1)
      (fun a x c _ ha hc => heap_ok_split_symbol ih ha hc) hw

theorem tail_cover_split_set {pe hi t : Int} {s s' : interval_set} (h : tail_cover pe s hi)
    (hsp : split_set s t = some s') : tail_cover pe s' hi := by
  induction s generalizing pe s' with
  | nil => cases hsp
  | cons e rest ih =>
    obtain ⟨k, i⟩ := e
    obtain ⟨h1, h2, h3, h4⟩ := h
    simp only [split_set] at hsp
    split at hsp
    · split at hsp
      · rename_i hb
        split at hsp
        · rename_i hkt
          exfalso
          have := hb.2
          omega
        · simp only [Option.some.injEq] at hsp
          rw [← hsp]
          exact ⟨h1, rfl, by have := hb.1; show pe < t; omega,
            rfl, h2, by show t < i.end_; exact hb.2, h4⟩
      · cases hsp
    · obtain ⟨r, hr, hs'⟩ := Option.map_eq_some'.1 hsp
      rw [← hs']
      exact ⟨h1, h2, h3, ih h4 hr⟩

theorem partition_ok_split_set {g : globals} {t : Int} {s s' : interval_set}
    (h : partition_ok g s) (hsp : split_set s t = some s') : partition_ok g s' := by
  cases s with
  | nil => cases hsp
  | cons e rest =>
    obtain ⟨k, i⟩ := e
    obtain ⟨h1, h2, h3, h4⟩ := h
    simp only [split_set] at hsp
    split at hsp
    · split at hsp
      · rename_i hb
        split at hsp
        · rename_i hkt
          exfalso
          have := hb.2
          omega
        · simp only [Option.some.injEq] at hsp
          rw [← hsp]
          exact ⟨h1, rfl, fun _ => by show g.MIN_TIME ≤ t; have := hb.1; omega,
            rfl, h2, by show t < i.end_; exact hb.2, h4⟩
      · cases hsp
    · obtain ⟨r, hr, hs'⟩ := Option.map_eq_some'.1 hsp
      rw [← hs']
      have hne : rest ≠ [] := by
        intro he
        rw [he] at hr
        cases hr
      refine ⟨h1, h2, fun _ => h3 hne, tail_cover_split_set h4 hr⟩

theorem heap_ok_split {g : globals} {fuel : Nat} {A B : timed_automaton} {p symbol : Nat}
    {time : Int} (h : heap_ok g A) (hw : split g fuel A p symbol time = some B) :
    heap_ok g B := by
  unfold split at hw
  obtain ⟨⟨in_, i0⟩, -, hw⟩ := Option.bind_eq_some.1 hw
  obtain ⟨s, hs, hw⟩ := Option.bind_eq_some.1 hw
  obtain ⟨l, hl, hw⟩ := Option.bind_eq_some.1 hw
  obtain ⟨l', hl', hw⟩ := Option.bind_eq_some.1 hw
  simp only at hw
  obtain ⟨⟨new_in, ni⟩, -, hw⟩ := Option.bind_eq_some.1 hw
  simp only at hw
  have h1 : heap_ok g (A.store p (s.set_intervals symbol l')) :=
    heap_ok_store h (state_ok_set (h _ s hs)
      (partition_ok_split_set ((h _ s hs).2 l (mem_of_getElem?_some hl)) hl'))
  split at hw
  · cases hw
  · obtain ⟨i, -, hw⟩ := Option.bind_eq_some.1 hw
    split at hw
    · split at hw
      · obtain ⟨A3, h3, hw⟩ := Option.bind_eq_some.1 hw
        exact heap_ok_recurse_split fuel _ _ _ _
          (heap_ok_write (heap_ok_alloc h1) h3 (fun _ => rfl) (fun _ => rfl)) hw
      · obtain ⟨A2, h2, hw⟩ := Option.bind_eq_some.1 hw
        exact heap_ok_write (heap_ok_write h1 h2 (fun _ => rfl) (fun _ => rfl)) hw
          (fun _ => rfl) (fun _ => rfl)
    · simp only [Option.some.injEq] at hw
      rw [← hw]; exact h1

end RTI


namespace RTI

/-! ### A loop over the intervals of a state that handles the tree below each -/

theorem traverse_inv_congr {a : Nat} {s : timed_state} {kid : Nat → Int → state_tree}
    {A : timed_automaton} {J : timed_automaton → Prop}
    {Post : Nat → Int × interval → state_tree → state_tree → Prop}
    {done done' : Nat → Int × interval → Prop} {B : timed_automaton}
    (h : ∀ i e, is_edge s i e → (done i e ↔ done' i e))
    (hT : traverse_inv a s kid A J Post done B) : traverse_inv a s kid A J Post done' B := by
  obtain ⟨kidc, h1, h2, h3, h4, h5⟩ := hT
  exact ⟨kidc, h1, h2, fun i e he hd => h3 i e he ((h i e he).2 hd),
    fun i e he hd => h4 i e he (fun hd' => hd ((h i e he).1 hd')), h5⟩

theorem traverse_step {a : Nat} {s : timed_state} {kid : Nat → Int → state_tree}
    {A : timed_automaton} {J : timed_automaton → Prop}
    {Pre : Nat → Int × interval → state_tree → Prop}
    {Post : Nat → Int × interval → state_tree → state_tree → Prop}
    {F : timed_automaton → Nat → Nat → Option timed_automaton}
    (hkeys : ∀ i e e', is_edge s i e → is_edge s i e' → e.1 = e'.1 → e = e')
    (hstep : ∀ (B : timed_automaton) (i j : Nat) (l : interval_set) (e : Int × interval)
      (c : state_tree), J B → B.mem a = some s → s.targets[i]? = some l → l[j]? = some e →
      rep B e.2.to_ c → Pre i e c → c.wf → a ∉ c.addrs → (∀ r, r ∈ c.addrs → r < B.next) →
      A.next ≤ B.next →
      ∃ B' c', F B i j = some B' ∧ rep B' e.2.to_ c' ∧ Post i e c c' ∧ c'.wf ∧
        (∀ r, r ∈ c'.addrs → r ∈ c.addrs ∨ (B.next ≤ r ∧ r < B'.next)) ∧
        (∀ r, r ∉ c.addrs → r < B.next → B'.mem r = B.mem r) ∧ B.next ≤ B'.next ∧
        B'.states = B.states ∧ B'.marker = B.marker ∧ B'.root = B.root ∧ J B')
    (hpre : ∀ i e, is_edge s i e → Pre i e (kid i e.1))
    (hlt : ∀ r, r ∈ (state_tree.node a s kid).addrs → r < A.next)
    {done : Nat → Int × interval → Prop} {B : timed_automaton}
    (hT : traverse_inv a s kid A J Post done B) {i j : Nat} {l : interval_set}
    {e : Int × interval} (hl : s.targets[i]? = some l) (hj : l[j]? = some e)
    (hnd : ¬ done i e) :
    ∃ B', F B i j = some B' ∧
      traverse_inv a s kid A J Post (fun i' e' => done i' e' ∨ (i' = i ∧ e' = e)) B' := by
  obtain ⟨kidc, h1, h2, h3, h4, h5, h6, h7, h8, h9, h10, hJ⟩ := hT
  have hedge : is_edge s i e := ⟨l, hl, mem_of_getElem?_some hj⟩
  have hc : kidc i e.1 = kid i e.1 := h4 i e hedge hnd
  obtain ⟨-, hBa, hkids⟩ := h1
  have haA : a < A.next := hlt a (Or.inl rfl)
  have hltB : ∀ r, r ∈ (state_tree.node a s kidc).addrs → r < B.next := by
    intro r hr
    rcases h5 r hr with h | h
    · have := hlt r h; omega
    · exact h.2
  have hcB : ∀ r, r ∈ (kidc i e.1).addrs → r < B.next :=
    fun r hr => hltB r (Or.inr ⟨i, e, hedge, hr⟩)
  obtain ⟨B', c', s1, s2, s3, s4, s5, s6, s7, s8, s9, s10, s11⟩ :=
    hstep B i j l e (kidc i e.1) hJ hBa hl hj (hkids i e hedge)
      (by rw [hc]; exact hpre i e hedge) (h2.1 i e hedge).2 (h2.1 i e hedge).1 hcB h7
  have hkid' : ∀ i' (e' : Int × interval), is_edge s i' e' → ¬ (i' = i ∧ e' = e) →
      ¬ (i' = i ∧ e'.1 = e.1) := by
    intro i' e' he' hne ⟨h, hk⟩
    subst h
    exact hne ⟨rfl, hkeys _ _ _ he' hedge hk⟩
  have hother : ∀ i' (e' : Int × interval), is_edge s i' e' → ¬ (i' = i ∧ e' = e) →
      Disjoint (kidc i' e'.1).addrs (kidc i e.1).addrs := by
    intro i' e' he' hne
    refine h2.2 i' e' i e he' hedge (fun h => ?_)
    have := Prod.mk.inj h
    exact hkid' i' e' he' hne ⟨this.1, this.2⟩
  refine ⟨B', s1, fun i' k => if i' = i ∧ k = e.1 then c' else kidc i' k, ?_, ?_, ?_, ?_, ?_,
    ?_, by omega, by rw [s8, h8], by rw [s9, h9], by rw [s10, h10], s11⟩
  · refine ⟨rfl, ?_, ?_⟩
    · rw [s6 a (h2.1 i e hedge).1 (by omega)]
      exact hBa
    · intro i' e' he'
      by_cases hie : i' = i ∧ e' = e
      · obtain ⟨rfl, rfl⟩ := hie
        simp only [and_self, if_true]
        exact s2
      · simp only [if_neg (hkid' i' e' he' hie)]
        refine rep_frame (hkids i' e' he') (fun r hr => ?_)
        exact s6 r (fun h => Set.disjoint_left.1 (hother i' e' he' hie) hr h)
          (hltB r (Or.inr ⟨i', e', he', hr⟩))
  · refine ⟨?_, ?_⟩
    · intro i' e' he'
      by_cases hie : i' = i ∧ e' = e
      · obtain ⟨rfl, rfl⟩ := hie
        simp only [and_self, if_true]
        refine ⟨fun h => ?_, s4⟩
        rcases s5 a h with h | h
        · exact (h2.1 i' e' hedge).1 h
        · omega
      · simp only [if_neg (hkid' i' e' he' hie)]
        exact h2.1 i' e' he'
    · intro i1 e1 i2 e2 he1 he2 hne
      by_cases hie1 : i1 = i ∧ e1 = e
      · obtain ⟨rfl, rfl⟩ := hie1
        have hie2 : ¬ (i2 = i1 ∧ e2 = e1) := by
          rintro ⟨rfl, rfl⟩
          exact hne rfl
        simp only [and_self, if_true, if_neg (hkid' i2 e2 he2 hie2)]
        refine Set.disjoint_left.2 (fun r hr hr' => ?_)
        rcases s5 r hr with h | h
        · exact Set.disjoint_left.1 (hother i2 e2 he2 hie2) hr' h
        · have := hltB r (Or.inr ⟨i2, e2, he2, hr'⟩)
          omega
      · simp only [if_neg (hkid' i1 e1 he1 hie1)]
        by_cases hie2 : i2 = i ∧ e2 = e
        · obtain ⟨rfl, rfl⟩ := hie2
          simp only [and_self, if_true]
          refine Set.disjoint_left.2 (fun r hr hr' => ?_)
          rcases s5 r hr' with h | h
          · exact Set.disjoint_left.1 (hother i1 e1 he1 hie1) hr h
          · have := hltB r (Or.inr ⟨i1, e1, he1, hr⟩)
            omega
        · simp only [if_neg (hkid' i2 e2 he2 hie2)]
          exact h2.2 i1 e1 i2 e2 he1 he2 hne
  · intro i' e' he' hd
    by_cases hie : i' = i ∧ e' = e
    · obtain ⟨rfl, rfl⟩ := hie
      simp only [and_self, if_true]
      rw [← hc]
      exact s3
    · simp only [if_neg (hkid' i' e' he' hie)]
      rcases hd with hd | hd
      · exact h3 i' e' he' hd
      · exact absurd hd hie
  · intro i' e' he' hd
    have hie : ¬ (i' = i ∧ e' = e) := fun h => hd (Or.inr h)
    simp only [if_neg (hkid' i' e' he' hie)]
    exact h4 i' e' he' (fun h => hd (Or.inl h))
  · intro r hr
    rcases hr with hr | ⟨i', e', he', hr⟩
    · exact Or.inl (Or.inl hr)
    · by_cases hie : i' = i ∧ e' = e
      · obtain ⟨rfl, rfl⟩ := hie
        simp only [and_self, if_true] at hr
        rcases s5 r hr with h | h
        · rcases h5 r (Or.inr ⟨i', e', he', h⟩) with h' | h'
          · exact Or.inl h'
          · exact Or.inr ⟨h'.1, by omega⟩
        · exact Or.inr ⟨by omega, h.2⟩
      · simp only [if_neg (hkid' i' e' he' hie)] at hr
        rcases h5 r (Or.inr ⟨i', e', he', hr⟩) with h' | h'
        · exact Or.inl h'
        · exact Or.inr ⟨h'.1, by omega⟩
  · intro r hr hrA
    rw [s6 r (fun h => ?_) (by omega)]
    · exact h6 r hr hrA
    · rcases h5 r (Or.inr ⟨i, e, hedge, h⟩) with h' | h'
      · exact hr h'
      · omega

theorem keys_unique {s : timed_state}
    (hnodup : ∀ (i : Nat) (l : interval_set), s.targets[i]? = some l →
      (l.map Prod.fst).Nodup) :
    ∀ i e e', is_edge s i e → is_edge s i e' → e.1 = e'.1 → e = e' := by
  intro i e e' ⟨l, hl, he⟩ ⟨l', hl', he'⟩ hk
  rw [hl] at hl'
  cases hl'
  exact List.inj_on_of_nodup_map (hnodup i l hl) he he' hk

theorem traverse_kids {g : globals} {a : Nat} {s : timed_state} {kid : Nat → Int → state_tree}
    {A : timed_automaton} {J : timed_automaton → Prop}
    {Pre : Nat → Int × interval → state_tree → Prop}
    {Post : Nat → Int × interval → state_tree → state_tree → Prop}
    {F : timed_automaton → Nat → Nat → Option timed_automaton}
    (hlen : s.targets.length = g.MAX_SYMBOL)
    (hnodup : ∀ (i : Nat) (l : interval_set), s.targets[i]? = some l →
      (l.map Prod.fst).Nodup)
    (hstep : ∀ (B : timed_automaton) (i j : Nat) (l : interval_set) (e : Int × interval)
      (c : state_tree), J B → B.mem a = some s → s.targets[i]? = some l → l[j]? = some e →
      rep B e.2.to_ c → Pre i e c → c.wf → a ∉ c.addrs → (∀ r, r ∈ c.addrs → r < B.next) →
      A.next ≤ B.next →
      ∃ B' c', F B i j = some B' ∧ rep B' e.2.to_ c' ∧ Post i e c c' ∧ c'.wf ∧
        (∀ r, r ∈ c'.addrs → r ∈ c.addrs ∨ (B.next ≤ r ∧ r < B'.next)) ∧
        (∀ r, r ∉ c.addrs → r < B.next → B'.mem r = B.mem r) ∧ B.next ≤ B'.next ∧
        B'.states = B.states ∧ B'.marker = B.marker ∧ B'.root = B.root ∧ J B')
    (hrep : rep A (some a) (state_tree.node a s kid)) (hwf : (state_tree.node a s kid).wf)
    (hpre : ∀ i e, is_edge s i e → Pre i e (kid i e.1))
    (hlt : ∀ r, r ∈ (state_tree.node a s kid).addrs → r < A.next) (hJ : J A) :
    ∃ B, (List.range g.MAX_SYMBOL).foldlM (fun (A : timed_automaton) (i : Nat) =>
        (num_intervals A a i).bind (fun n =>
          (List.range n).foldlM (fun (A : timed_automaton) (j : Nat) => F A i j) A)) A
        = some B ∧
      traverse_inv a s kid A J Post (fun _ _ => True) B := by
  have hkeys := keys_unique hnodup
  have h0 : traverse_inv a s kid A J Post (fun i' _ => i' < 0) A :=
    ⟨kid, hrep, hwf, fun i e _ h => absurd h (Nat.not_lt_zero _), fun _ _ _ _ => rfl,
      fun r hr => Or.inl hr, fun _ _ _ => rfl, le_refl _, rfl, rfl, rfl, hJ⟩
  obtain ⟨B, hB, hI⟩ := foldlM_range_inv
    (fun (A : timed_automaton) (i : Nat) =>
      (num_intervals A a i).bind (fun n =>
        (List.range n).foldlM (fun (A : timed_automaton) (j : Nat) => F A i j) A))
    (fun i B => traverse_inv a s kid A J Post (fun i' _ => i' < i) B) g.MAX_SYMBOL A h0
    (fun i B hi hT => by
      obtain ⟨l, hl⟩ : ∃ l, s.targets[i]? = some l :=
        ⟨s.targets[i], List.getElem?_eq_getElem (by omega)⟩
      have hBa : B.mem a = some s := by
        obtain ⟨kidc, h1, -⟩ := hT
        exact h1.2.1
      have hnum : num_intervals B a i = some l.length := by
        simp [num_intervals, hBa, timed_state.get_intervals, hl]
      have hlnd : l.Nodup := List.Nodup.of_map _ (hnodup i l hl)
      obtain ⟨B', hB', hI'⟩ := foldlM_range_inv (fun (A : timed_automaton) (j : Nat) => F A i j)
        (fun j B => traverse_inv a s kid A J Post
          (fun i' e' => i' < i ∨ (i' = i ∧ ∃ j', j' < j ∧ l[j']? = some e')) B) l.length B
        (traverse_inv_congr (fun i' e' _ => by
          constructor
          · intro h; exact Or.inl h
          · rintro (h | ⟨-, j', hj', -⟩)
            · exact h
            · exact absurd hj' (Nat.not_lt_zero _)) hT)
        (fun j B1 hj hT1 => by
          obtain ⟨e, he⟩ : ∃ e, l[j]? = some e := ⟨l[j], List.getElem?_eq_getElem hj⟩
          have hnd : ¬ (i < i ∨ (i = i ∧ ∃ j', j' < j ∧ l[j']? = some e)) := by
            rintro (h | ⟨-, j', hj', hje⟩)
            · exact Nat.lt_irrefl _ h
            · have h1 := (List.getElem?_eq_some.1 hje).2
              have h2 := (List.getElem?_eq_some.1 he).2
              have := (List.Nodup.getElem_inj_iff hlnd).1 (h1.trans h2.symm)
              omega
          obtain ⟨B2, hB2, hT2⟩ := traverse_step hkeys hstep hpre hlt hT1 hl he hnd
          refine ⟨B2, hB2, traverse_inv_congr (fun i' e' _ => ?_) hT2⟩
          constructor
          · rintro ((h | ⟨h, j', hj', hje⟩) | ⟨h, rfl⟩)
            · exact Or.inl h
            · exact Or.inr ⟨h, j', by omega, hje⟩
            · exact Or.inr ⟨h, j, by omega, he⟩
          · rintro (h | ⟨h, j', hj', hje⟩)
            · exact Or.inl (Or.inl h)
            · by_cases hjj : j' = j
              · subst hjj
                rw [he] at hje
                cases hje
                exact Or.inr ⟨h, rfl⟩
              · exact Or.inl (Or.inr ⟨h, j', by omega, hje⟩))
      refine ⟨B', by simp only [hnum, Option.some_bind]; exact hB', traverse_inv_congr (fun i' e' he' => ?_) hI'⟩
      constructor
      · rintro (h | ⟨h, -⟩)
        · omega
        · omega
      · intro h
        by_cases hii : i' = i
        · subst hii
          obtain ⟨l', hl', hel'⟩ := he'
          rw [hl] at hl'
          cases hl'
          obtain ⟨j', hj', hje⟩ := List.getElem_of_mem hel'
          exact Or.inr ⟨rfl, j', hj', by rw [List.getElem?_eq_getElem hj', hje]⟩
        · exact Or.inl (by omega))
  refine ⟨B, hB, traverse_inv_congr (fun i' e' he' => ?_) hI⟩
  obtain ⟨l', hl', -⟩ := he'
  have := (List.getElem?_eq_some.1 hl').1
  constructor
  · intro _; trivial
  · intro _; omega

end RTI


namespace RTI

/-! ### A loop over the symbols that changes the partitions of a state -/

theorem is_edge_set {s : timed_state} {i : Nat} {l : interval_set} (hi : i < s.targets.length)
    (i' : Nat) (e : Int × interval) :
    is_edge (s.set_intervals i l) i' e ↔ (i' = i ∧ e ∈ l) ∨ (i' ≠ i ∧ is_edge s i' e) := by
  unfold is_edge
  by_cases h : i' = i
  · subst h
    simp only [timed_state.set_intervals_get s l hi, Option.some.injEq, exists_eq_left',
      true_and, ne_eq, not_true_eq_false, false_and, or_false]
  · have : (s.set_intervals i l).targets[i']? = s.targets[i']? := by
      simp only [timed_state.set_intervals]
      rw [List.getElem?_set_ne (fun h' => h h'.symm)]
    rw [this]
    simp [h]

theorem per_symbol {g : globals} {a : Nat} {s0 : timed_state} {kid0 : Nat → Int → state_tree}
    {A : timed_automaton} {J : timed_automaton → Prop}
    {Q : Nat → interval_set → (Int → state_tree) → Prop}
    {G : timed_automaton → Nat → Option timed_automaton}
    (hstep : ∀ (B : timed_automaton) (i : Nat) (sB : timed_state), i < g.MAX_SYMBOL → J B →
      B.mem a = some sB → sB.targets[i]? = s0.targets[i]? →
      sB.targets.length = g.MAX_SYMBOL →
      (∀ e, is_edge s0 i e → rep B e.2.to_ (kid0 i e.1)) → A.next ≤ B.next →
      ∃ (B' : timed_automaton) (l' : interval_set) (kid' : Int → state_tree),
        G B i = some B' ∧ B'.mem a = some (sB.set_intervals i l') ∧
        (∀ e, e ∈ l' → rep B' e.2.to_ (kid' e.1) ∧ (kid' e.1).wf ∧ a ∉ (kid' e.1).addrs) ∧
        (∀ e e', e ∈ l' → e' ∈ l' → e.1 ≠ e'.1 → Disjoint (kid' e.1).addrs (kid' e'.1).addrs) ∧
        (∀ e, e ∈ l' → ∀ r, r ∈ (kid' e.1).addrs →
          (∃ e0, is_edge s0 i e0 ∧ r ∈ (kid0 i e0.1).addrs) ∨ (B.next ≤ r ∧ r < B'.next)) ∧
        Q i l' kid' ∧
        (∀ r, r ≠ a → (¬ ∃ e0, is_edge s0 i e0 ∧ r ∈ (kid0 i e0.1).addrs) → r < B.next →
          B'.mem r = B.mem r) ∧
        B.next ≤ B'.next ∧ B'.states = B.states ∧ B'.marker = B.marker ∧
        B'.root = B.root ∧ J B')
    (hrep : rep A (some a) (state_tree.node a s0 kid0))
    (hwf : (state_tree.node a s0 kid0).wf) (hlen : s0.targets.length = g.MAX_SYMBOL)
    (hlt : ∀ r, r ∈ (state_tree.node a s0 kid0).addrs → r < A.next) (hJ : J A) :
    ∃ B, (List.range g.MAX_SYMBOL).foldlM G A = some B ∧
      symbol_inv g a s0 kid0 A J Q g.MAX_SYMBOL B := by
  have h0 : symbol_inv g a s0 kid0 A J Q 0 A :=
    ⟨s0, kid0, hrep, hwf, hlen, rfl, fun _ _ => ⟨rfl, fun _ => rfl⟩,
      fun i' h => absurd h (Nat.not_lt_zero _),
      fun i' e he r hr => Or.inl ⟨e, he, hr⟩, fun _ _ _ => rfl, le_refl _, rfl, rfl, rfl, hJ⟩
  refine foldlM_range_inv G (fun i B => symbol_inv g a s0 kid0 A J Q i B) g.MAX_SYMBOL A h0
    (fun i B hi hT => ?_)
  obtain ⟨sB, kidc, h1, h2, h3, h4, h5, h6, h7, h8, h9, h10, h11, h12, hJB⟩ := hT
  obtain ⟨-, hBa, hkids⟩ := h1
  have haA : a < A.next := hlt a (Or.inl rfl)
  have hsi := (h5 i (le_refl _)).1
  have hki := (h5 i (le_refl _)).2
  have hedge_i : ∀ e, is_edge sB i e ↔ is_edge s0 i e := by
    intro e
    unfold is_edge
    rw [hsi]
  have hltB : ∀ i' e, is_edge sB i' e → ∀ r, r ∈ (kidc i' e.1).addrs → r < B.next := by
    intro i' e he r hr
    rcases h7 i' e he r hr with ⟨e0, he0, h⟩ | h
    · have := hlt r (Or.inr ⟨i', e0, he0, h⟩); omega
    · exact h.2
  obtain ⟨B', l', kid', s1, s2, s3, s4, s5, s6, s7, s8, s9, s10, s11, s12⟩ :=
    hstep B i sB hi hJB hBa hsi h3
      (fun e he => by rw [← hki]; exact hkids i e ((hedge_i e).2 he)) h9
  have hiB : i < sB.targets.length := by omega
  -- the trees of the other symbols are apart from the trees of the symbol `i`
  have hapart : ∀ i' e, i' ≠ i → is_edge sB i' e → ∀ r, r ∈ (kidc i' e.1).addrs →
      ¬ ∃ e0, is_edge s0 i e0 ∧ r ∈ (kid0 i e0.1).addrs := by
    intro i' e hne he r hr ⟨e0, he0, hr0⟩
    rcases h7 i' e he r hr with ⟨e1, he1, h⟩ | h
    · exact Set.disjoint_left.1 (hwf.2 i' e1 i e0 he1 he0
        (fun h' => hne (Prod.mk.inj h').1)) h hr0
    · have := hlt r (Or.inr ⟨i, e0, he0, hr0⟩); omega
  refine ⟨B', s1, sB.set_intervals i l', fun i' k => if i' = i then kid' k else kidc i' k,
    ⟨rfl, s2, ?_⟩, ⟨?_, ?_⟩, by simp [timed_state.set_intervals, h3], h4, ?_, ?_, ?_, ?_,
    by omega, by rw [s9, h10], by rw [s10, h11], by rw [s11, h12], s12⟩
  · intro i' e he
    rcases (is_edge_set hiB i' e).1 he with ⟨rfl, hel⟩ | ⟨hne, hes⟩
    · simp only [if_true]
      exact (s3 e hel).1
    · simp only [if_neg hne]
      refine rep_frame (hkids i' e hes) (fun r hr => ?_)
      exact s7 r (fun h => (h2.1 i' e hes).1 (h ▸ hr)) (hapart i' e hne hes r hr)
        (hltB i' e hes r hr)
  · intro i' e he
    rcases (is_edge_set hiB i' e).1 he with ⟨rfl, hel⟩ | ⟨hne, hes⟩
    · simp only [if_true]
      exact ⟨(s3 e hel).2.2, (s3 e hel).2.1⟩
    · simp only [if_neg hne]
      exact h2.1 i' e hes
  · intro i1 e1 i2 e2 he1 he2 hne
    rcases (is_edge_set hiB i1 e1).1 he1 with ⟨rfl, hel1⟩ | ⟨hne1, hes1⟩
    · rcases (is_edge_set hiB i2 e2).1 he2 with ⟨rfl, hel2⟩ | ⟨hne2, hes2⟩
      · simp only [if_true]
        exact s4 e1 e2 hel1 hel2 (fun h => hne (by rw [h]))
      · simp only [if_true, if_neg hne2]
        refine Set.disjoint_left.2 (fun r hr hr' => ?_)
        rcases s5 e1 hel1 r hr with h | h
        · exact hapart i2 e2 hne2 hes2 r hr' h
        · have := hltB i2 e2 hes2 r hr'; omega
    · rcases (is_edge_set hiB i2 e2).1 he2 with ⟨rfl, hel2⟩ | ⟨hne2, hes2⟩
      · simp only [if_true, if_neg hne1]
        refine Set.disjoint_left.2 (fun r hr hr' => ?_)
        rcases s5 e2 hel2 r hr' with h | h
        · exact hapart i1 e1 hne1 hes1 r hr h
        · have := hltB i1 e1 hes1 r hr; omega
      · simp only [if_neg hne1, if_neg hne2]
        exact h2.2 i1 e1 i2 e2 hes1 hes2 hne
  · intro i' hi'
    have hne : i' ≠ i := by omega
    refine ⟨?_, fun k => by simp only [if_neg hne]; exact (h5 i' (by omega)).2 k⟩
    rw [← (h5 i' (by omega)).1]
    simp only [timed_state.set_intervals]
    rw [List.getElem?_set_ne (fun h' => hne h'.symm)]
  · intro i' hi' hi'M
    by_cases hii : i' = i
    · subst hii
      refine ⟨l', timed_state.set_intervals_get sB l' hiB, ?_⟩
      have : (fun k => if i' = i' then kid' k else kidc i' k) = kid' := by
        funext k
        simp
      simp only [this]
      exact s6
    · obtain ⟨l1, hl1, hQ⟩ := h6 i' (by omega) hi'M
      refine ⟨l1, ?_, ?_⟩
      · rw [← hl1]
        simp only [timed_state.set_intervals]
        rw [List.getElem?_set_ne (fun h' => hii h'.symm)]
      · have : (fun k => if i' = i then kid' k else kidc i' k) = kidc i' := by
          funext k
          simp [hii]
        simp only [this]
        exact hQ
  · intro i' e he r hr
    rcases (is_edge_set hiB i' e).1 he with ⟨rfl, hel⟩ | ⟨hne, hes⟩
    · simp only [if_true] at hr
      rcases s5 e hel r hr with h | h
      · exact Or.inl h
      · exact Or.inr ⟨by omega, h.2⟩
    · simp only [if_neg hne] at hr
      rcases h7 i' e hes r hr with h | h
      · exact Or.inl h
      · exact Or.inr ⟨h.1, by omega⟩
  · intro r hr hrA
    rw [s7 r (fun h => hr (h ▸ Or.inl rfl)) (fun ⟨e0, he0, h⟩ => hr (Or.inr ⟨i, e0, he0, h⟩))
      (by omega)]
    exact h8 r hr hrA

end RTI


namespace RTI

/-! ### The splits of `pre_split` for one symbol -/

theorem around_nil (pre : interval_set) (time k : Int) (x y : interval) :
    around pre [] time k x y = (pre ++ [(time, x)]) ++ [(k, y)] := by
  simp [around]

theorem split_chain_spec {g : globals} {fuel : Nat} {a i : Nat} (es : List Int) :
    ∀ (B : timed_automaton) (sC : timed_state) (pre : interval_set) (Ic : interval)
      (tc : state_tree), B.mem a = some sC →
      sC.targets[i]? = some (pre ++ [(g.MAX_TIME, Ic)]) →
      (∀ e, e ∈ pre → ∀ t, t ∈ es → e.1 < t) → es.Pairwise (fun x y => x < y) →
      (∀ t, t ∈ es → Ic.begin ≤ t ∧ t < g.MAX_TIME) → Ic.end_ = g.MAX_TIME →
      a < B.next → rep B Ic.to_ tc → tc.wf → tc.placed g Ic.tails → tc.fits fuel →
      a ∉ tc.addrs → (∀ r, r ∈ tc.addrs → r < B.next) → heap_ok g B →
      ∃ (B' : timed_automaton) (pieces : List piece),
        es.foldlM (fun (A : timed_automaton) (e : Int) => split g fuel A a i e) B = some B' ∧
        split_chain g (Ic, tc) es pieces ∧
        B'.mem a = some (sC.set_intervals i
          (pre ++ pieces.map (fun c => (c.1.end_, c.1)))) ∧
        (∀ c, c ∈ pieces → rep B' c.1.to_ c.2 ∧ c.2.wf ∧ a ∉ c.2.addrs ∧ c.2.fits fuel ∧
          ∀ r, r ∈ c.2.addrs → r ∈ tc.addrs ∨ (B.next ≤ r ∧ r < B'.next)) ∧
        pieces.Pairwise (fun c c' => Disjoint c.2.addrs c'.2.addrs) ∧
        (∀ r, r ≠ a → r ∉ tc.addrs → r < B.next → B'.mem r = B.mem r) ∧
        B.next ≤ B'.next ∧ B'.states = B.states ∧ B'.marker = B.marker ∧
        B'.root = B.root ∧ heap_ok g B' := by
  induction es with
  | nil =>
    intro B sC pre Ic tc hB hl _ _ _ hend haB hrep hwf hpl hfit hat hlt hok
    refine ⟨B, [(Ic, tc)], rfl, rfl, ?_, ?_, List.pairwise_singleton _ _,
      fun _ _ _ _ => rfl, le_refl _, rfl, rfl, rfl, hok⟩
    · simp only [List.map_cons, List.map_nil, hend]
      rw [timed_state.set_intervals_self sC hl]
      exact hB
    · intro c hc
      rw [List.mem_singleton.1 hc]
      exact ⟨hrep, hwf, hat, hfit, fun r hr => Or.inl hr⟩
  | cons e es ih =>
    intro B sC pre Ic tc hB hl hpre hsorted hbound hend haB hrep hwf hpl hfit hat hlt hok
    have hsym : i < sC.targets.length := (List.getElem?_eq_some.1 hl).1
    have hbe := hbound e (List.mem_cons_self _ _)
    obtain ⟨A1, l, r, q1, q2, q3, q4, q5, q6, q7, q8, q9, q10, q11, q12, q13, q14, q15, -⟩ :=
      @split_spec g fuel _ _ _ _ _ _ _ _ _ _ hB hl (fun x hx => hpre x hx e (List.mem_cons_self _ _))
        hbe.2 hbe.1 (by rw [hend]; exact hbe.2) haB hrep hwf hpl hfit hat hlt
    obtain ⟨pl, pr, pf, -⟩ := @split_piece_placed g Ic tc _ _ _ q3 hpl
    have hok1 : heap_ok g A1 := heap_ok_split hok q1
    have hle : l.1.end_ = e := by rw [q3.1]; rfl
    have hrb : r.1.begin = e + 1 := by rw [q3.2.1]; rfl
    have hre : r.1.end_ = g.MAX_TIME := by rw [q3.2.1]; exact hend
    rw [around_nil] at q2
    obtain ⟨B', pieces, p1, p2, p3, p4, p5, p6, p7, p8, p9, p10, p11⟩ :=
      ih A1 (sC.set_intervals i ((pre ++ [(e, l.1)]) ++ [(g.MAX_TIME, r.1)]))
        (pre ++ [(e, l.1)]) r.1 r.2 q2
        (timed_state.set_intervals_get sC _ hsym)
        (fun x hx t ht => by
          rcases List.mem_append.1 hx with hx | hx
          · exact hpre x hx t (List.mem_cons_of_mem _ ht)
          · rw [List.mem_singleton.1 hx]
            exact (List.pairwise_cons.1 hsorted).1 t ht)
        (List.pairwise_cons.1 hsorted).2
        (fun t ht => ⟨by
          have := (List.pairwise_cons.1 hsorted).1 t ht
          omega, (hbound t (List.mem_cons_of_mem _ ht)).2⟩)
        hre (by omega) q5 q7 pr (pf fuel hfit).2 (fun h => hat (q10 a h))
        (fun x hx => by have := hlt x (q10 x hx); omega) hok1
    have hlA1 : ∀ x, x ∈ l.2.addrs → x < A1.next := by
      intro x hx
      rcases q9 x hx with h | h
      · have := hlt x h; omega
      · exact h.2
    have hal : a ∉ l.2.addrs := by
      intro h
      rcases q9 a h with h | h
      · exact hat h
      · omega
    refine ⟨B', l :: pieces, ?_, ⟨l, r, pieces, q3, p2, rfl⟩, ?_, ?_, ?_, ?_, by omega,
      by rw [p8, q13], by rw [p9, q14], by rw [p10, q15], p11⟩
    · rw [List.foldlM_cons, q1]
      exact p1
    · rw [p3, timed_state.set_intervals_set]
      simp only [List.map_cons, List.append_assoc, List.singleton_append, hle]
    · intro c hc
      rcases List.mem_cons.1 hc with hc | hc
      · rw [hc]
        refine ⟨?_, q6, hal, (pf fuel hfit).1, fun x hx => ?_⟩
        · refine rep_frame q4 (fun x hx => ?_)
          exact p6 x (fun h => hal (h ▸ hx))
            (fun h => Set.disjoint_left.1 q8 hx h) (hlA1 x hx)
        · rcases q9 x hx with h | h
          · exact Or.inl h
          · exact Or.inr ⟨h.1, by omega⟩
      · obtain ⟨c1, c2, c3, c4, c5⟩ := p4 c hc
        refine ⟨c1, c2, c3, c4, fun x hx => ?_⟩
        rcases c5 x hx with h | h
        · exact Or.inl (q10 x h)
        · exact Or.inr ⟨by omega, h.2⟩
    · refine List.pairwise_cons.2 ⟨fun c hc => ?_, p5⟩
      refine Set.disjoint_left.2 (fun x hx hx' => ?_)
      rcases (p4 c hc).2.2.2.2 x hx' with h | h
      · exact Set.disjoint_left.1 q8 hx h
      · have := hlA1 x hx; omega
    · intro x hxa hxt hxB
      rw [p6 x hxa (fun h => hxt (q10 x h)) (by omega)]
      exact q11 x hxa hxt hxB

end RTI


namespace RTI

/-! ### The pieces of a chain of splits and the partition that prescribes them -/

theorem pairwise_lt_nodup {l : List Int} (h : l.Pairwise (fun a b => a < b)) : l.Nodup :=
  h.imp (fun hab => ne_of_lt hab)

theorem piece_tree_mem {pieces : List piece}
    (hk : (pieces.map (fun c => c.1.end_)).Nodup) {c : piece} (hc : c ∈ pieces) :
    piece_tree pieces c.1.end_ = c.2 := by
  induction pieces with
  | nil => cases hc
  | cons d ds ih =>
    rw [List.map_cons, List.nodup_cons] at hk
    unfold piece_tree
    rw [List.find?_cons]
    by_cases hd : d.1.end_ = c.1.end_
    · simp only [hd, decide_True]
      rcases List.mem_cons.1 hc with h | h
      · rw [h]
      · exfalso
        apply hk.1
        rw [hd]
        exact List.mem_map_of_mem _ h
    · simp only [hd, decide_False]
      rcases List.mem_cons.1 hc with h | h
      · exact absurd (by rw [h]) hd
      · exact ih hk.2 h

theorem split_points_cons (g : globals) (e : Int × interval) (l : interval_set) :
    split_points g (e :: l)
      = if e.2.end_ ≠ g.MAX_TIME then e.2.end_ :: split_points g l else split_points g l := by
  simp only [split_points, List.map_cons, List.filter_cons]
  split <;> simp_all

theorem tail_cover_points {g : globals} {pe : Int} {s : interval_set}
    (h : tail_cover pe s g.MAX_TIME) :
    (split_points g s).Pairwise (fun a b => a < b) ∧
      ∀ t, t ∈ split_points g s → pe < t ∧ t < g.MAX_TIME := by
  induction s generalizing pe with
  | nil => exact ⟨List.Pairwise.nil, fun t ht => absurd ht (List.not_mem_nil t)⟩
  | cons e rest ih =>
    obtain ⟨k, i⟩ := e
    obtain ⟨h1, h2, h3, h4⟩ := h
    obtain ⟨q1, q2⟩ := ih h4
    have hle := tail_cover_le h4
    rw [split_points_cons]
    by_cases he : i.end_ = g.MAX_TIME
    · simp only [he, ne_eq, not_true_eq_false, if_false]
      refine ⟨q1, fun t ht => ?_⟩
      have := q2 t ht
      omega
    · simp only [ne_eq, he, not_false_eq_true, if_true]
      refine ⟨List.pairwise_cons.2 ⟨fun t ht => (q2 t ht).1, q1⟩, fun t ht => ?_⟩
      rcases List.mem_cons.1 ht with ht | ht
      · rw [ht]; omega
      · have := q2 t ht
        omega

theorem partition_points {g : globals} {s : interval_set} (h : partition_ok g s) :
    (split_points g s).Pairwise (fun a b => a < b) ∧
      ∀ t, t ∈ split_points g s → g.MIN_TIME ≤ t ∧ t < g.MAX_TIME := by
  cases s with
  | nil => exact absurd h (by simp [partition_ok])
  | cons e rest =>
    obtain ⟨k, i⟩ := e
    obtain ⟨h1, h2, h3, h4⟩ := h
    obtain ⟨q1, q2⟩ := tail_cover_points h4
    have hle := tail_cover_le h4
    rw [split_points_cons]
    by_cases he : i.end_ = g.MAX_TIME
    · simp only [he, ne_eq, not_true_eq_false, if_false]
      refine ⟨q1, fun t ht => ?_⟩
      have hne : rest ≠ [] := by
        intro h0
        rw [h0] at ht
        exact absurd ht (List.not_mem_nil t)
      have := q2 t ht
      have := h3 hne
      omega
    · simp only [ne_eq, he, not_false_eq_true, if_true]
      have hne : rest ≠ [] := by
        intro h0
        rw [h0] at h4
        exact he h4
      have := h3 hne
      refine ⟨List.pairwise_cons.2 ⟨fun t ht => (q2 t ht).1, q1⟩, fun t ht => ?_⟩
      rcases List.mem_cons.1 ht with ht | ht
      · rw [ht]; omega
      · have := q2 t ht
        omega

theorem split_chain_match {g : globals} (rest : interval_set) :
    ∀ (c : piece) (k : Int) (i : interval) (pieces : List piece),
      i.begin = c.1.begin → tail_cover i.end_ rest g.MAX_TIME → c.1.end_ = g.MAX_TIME →
      split_chain g c (split_points g ((k, i) :: rest)) pieces →
      List.Forall₂ (fun (p : piece) (e : Int × interval) =>
        p.1.end_ = e.2.end_ ∧ p.1.begin = e.2.begin) pieces ((k, i) :: rest) := by
  induction rest with
  | nil =>
    intro c k i pieces hb htc hce h
    have he : i.end_ = g.MAX_TIME := htc
    rw [split_points_cons] at h
    simp only [he, ne_eq, not_true_eq_false, if_false, split_points, List.map_nil,
      List.filter_nil] at h
    have : pieces = [c] := h
    rw [this]
    exact List.Forall₂.cons ⟨by rw [hce, he], hb.symm⟩ List.Forall₂.nil
  | cons e2 rest ih =>
    intro c k i pieces hb htc hce h
    obtain ⟨k2, i2⟩ := e2
    obtain ⟨h1, h2, h3, h4⟩ := htc
    have hle := tail_cover_le h4
    have he : i.end_ ≠ g.MAX_TIME := by omega
    rw [split_points_cons] at h
    simp only [ne_eq, he, not_false_eq_true, if_true] at h
    obtain ⟨l, r, pieces', q1, q2, rfl⟩ := h
    have hl1 : l.1.end_ = i.end_ := by rw [q1.1]; rfl
    have hl2 : l.1.begin = c.1.begin := by rw [q1.1]; rfl
    have hr1 : r.1.begin = i.end_ + 1 := by rw [q1.2.1]; rfl
    have hr2 : r.1.end_ = c.1.end_ := by rw [q1.2.1]; rfl
    exact List.Forall₂.cons ⟨hl1, by rw [hl2, hb]⟩
      (ih r k2 i2 pieces' (by rw [h1, hr1]) h4 (by rw [hr2, hce]) q2)

theorem split_chain_count {g : globals} (es : List Int) :
    ∀ (c : piece) (pieces : List piece), split_chain g c es pieces → ∀ x,
      (all_tails (pieces.map (fun c => (c.1.end_, c.1)))).count x = c.1.tails.count x := by
  induction es with
  | nil =>
    intro c pieces h x
    have : pieces = [c] := h
    rw [this]
    simp [all_tails]
  | cons e es ih =>
    intro c pieces h x
    obtain ⟨l, r, pieces', q1, q2, rfl⟩ := h
    have hl : l.1.tails = tails_upto c.1.tails e := by rw [q1.1]; rfl
    have hr : r.1.tails = tails_after c.1.tails e := by rw [q1.2.1]; rfl
    simp only [List.map_cons, all_tails, List.count_append]
    rw [ih r pieces' q2 x, hl, hr, ← List.count_append, tails_upto_append_after]

end RTI


namespace RTI

/-! ### The tree after `un_pre_split` -/

theorem merge_pieces_count (g : globals) (cs : List piece) :
    ∀ (c : piece) (x : timed_tail),
      (merge_pieces g (c :: cs)).1.tails.count x
        = ((c :: cs).map (fun d => d.1.tails.count x)).sum := by
  induction cs with
  | nil => intro c x; simp [merge_pieces]
  | cons y ys ih =>
    intro c x
    rw [merge_pieces_cons_cons, ih]
    simp only [List.map_cons, List.sum_cons, merge_piece_tails, count_insert_tails]
    omega

theorem all_tails_count (l : interval_set) (x : timed_tail) :
    (all_tails l).count x = (l.map (fun e => e.2.tails.count x)).sum := by
  induction l with
  | nil => rfl
  | cons e l ih => simp [all_tails, ih]

theorem merge_pieces_ok {g : globals} (cs : List piece) :
    ∀ (c : piece) (m : Nat), (∀ x ∈ c :: cs, x.2.placed g x.1.tails ∧ x.2.wf ∧ x.2.fits m) →
      (c :: cs).Pairwise (fun x y => Disjoint x.2.addrs y.2.addrs) →
      (merge_pieces g (c :: cs)).2.wf ∧ (merge_pieces g (c :: cs)).2.fits m ∧
        ∀ r, r ∈ (merge_pieces g (c :: cs)).2.addrs → ∃ x, x ∈ c :: cs ∧ r ∈ x.2.addrs := by
  induction cs with
  | nil =>
    intro c m h _
    have hc := h c (List.mem_singleton.2 rfl)
    exact ⟨hc.2.1, hc.2.2, fun r hr => ⟨c, List.mem_singleton.2 rfl, hr⟩⟩
  | cons y ys ih =>
    intro c m h hd
    have hc := h c (List.mem_cons_self _ _)
    have hy := h y (List.mem_cons_of_mem _ (List.mem_cons_self _ _))
    obtain ⟨hd1, hd2⟩ := List.pairwise_cons.1 hd
    obtain ⟨hd3, hd4⟩ := List.pairwise_cons.1 hd2
    rw [merge_pieces_cons_cons]
    have hcy : Disjoint c.2.addrs y.2.addrs := hd1 y (List.mem_cons_self _ _)
    have hsub : ∀ r, r ∈ (merge_piece g c y).2.addrs → r ∈ c.2.addrs ∨ r ∈ y.2.addrs :=
      fun r hr => merge_piece_addrs hc.1 hy.1 hr
    obtain ⟨q1, q2, q3⟩ := ih (merge_piece g c y) m (fun x hx => by
        rcases List.mem_cons.1 hx with hx | hx
        · rw [hx]
          exact ⟨merge_piece_placed hc.1 hy.1, merge_piece_wf hc.1 hy.1 hc.2.1 hy.2.1 hcy,
            merge_piece_fits hc.1 hy.1 hc.2.2 hy.2.2⟩
        · exact h x (List.mem_cons_of_mem _ (List.mem_cons_of_mem _ hx)))
      (List.pairwise_cons.2 ⟨fun z hz => Set.disjoint_left.2 (fun r hr hr' => by
        rcases hsub r hr with h1 | h1
        · exact Set.disjoint_left.1 (hd1 z (List.mem_cons_of_mem _ hz)) h1 hr'
        · exact Set.disjoint_left.1 (hd3 z hz) h1 hr'), hd4⟩)
    refine ⟨q1, q2, fun r hr => ?_⟩
    obtain ⟨x, hx, hrx⟩ := q3 r hr
    rcases List.mem_cons.1 hx with hx | hx
    · rw [hx] at hrx
      rcases hsub r hrx with h1 | h1
      · exact ⟨c, List.mem_cons_self _ _, h1⟩
      · exact ⟨y, List.mem_cons_of_mem _ (List.mem_cons_self _ _), h1⟩
    · exact ⟨x, List.mem_cons_of_mem _ (List.mem_cons_of_mem _ hx), hrx⟩

/-- The pieces below the partition of the symbol `i` of a state, with flattened trees. -/
theorem flatten_node (g : globals) (a : Nat) (s : timed_state)
    (kid : Nat → Int → state_tree) :
    flatten g (state_tree.node a s kid) =
      state_tree.node a
        { targets := (List.range g.MAX_SYMBOL).map (fun i =>
            [(g.MAX_TIME, (merge_pieces g (((s.targets[i]?).getD []).map
              (fun e => (e.2, flatten g (kid i e.1))))).1)])
          stat := s.stat }
        (fun i _ => (merge_pieces g (((s.targets[i]?).getD []).map
          (fun e => (e.2, flatten g (kid i e.1))))).2) := by
  simp only [flatten]

theorem flat_state_unsplit (g : globals) (stat : state_statistics) (f : Nat → interval) :
    ({ targets := (List.range g.MAX_SYMBOL).map (fun i => [(g.MAX_TIME, f i)])
       stat := stat } : timed_state).unsplit g := by
  refine ⟨by simp, fun i hi => ⟨f i, ?_⟩⟩
  simp [hi]

theorem flat_state_iv (g : globals) (stat : state_statistics) (f : Nat → interval) {i : Nat}
    (hi : i < g.MAX_SYMBOL) :
    ({ targets := (List.range g.MAX_SYMBOL).map (fun i => [(g.MAX_TIME, f i)])
       stat := stat } : timed_state).iv i = f i := by
  simp [timed_state.iv, hi]

theorem flatten_placed_equiv {g : globals} (t : state_tree) :
    ∀ (P : List timed_tail), t.placed g P → tree_equiv t (flatten g t) := by
  induction t with
  | null => intro P _; rfl
  | node a s kid ih =>
    intro P hp
    obtain ⟨hu, -, -, hk⟩ := hp
    rw [flatten_node]
    refine ⟨_, _, rfl, ?_, ?_⟩
    · refine state_equiv_unsplit hu (flat_state_unsplit g _ _) rfl (fun i hi => ?_)
      rw [flat_state_iv g _ _ hi, timed_state.unsplit_targets hu hi]
      simp only [Option.getD_some, List.map_cons, List.map_nil, merge_pieces_single]
      exact interval_equiv_refl _
    · intro i e he
      obtain ⟨hi, rfl⟩ := (timed_state.unsplit_is_edge hu).1 he
      simp only
      rw [timed_state.unsplit_targets hu hi]
      simp only [Option.getD_some, List.map_cons, List.map_nil, merge_pieces_single]
      exact ih i g.MAX_TIME _ (hk i hi)

theorem placed_pre_placed {g : globals} (t : state_tree) :
    ∀ (B : timed_automaton) (p : Option Nat) (P : List timed_tail), rep B p t →
      heap_ok g B → t.placed g P → pre_placed g t P := by
  induction t with
  | null => intro B p P _ _ hp; exact hp
  | node a s kid ih =>
    intro B p P hrep hok hp
    obtain ⟨hu, h1, h2, hk⟩ := hp
    obtain ⟨-, hm, hkids⟩ := hrep
    have hs := hok a s hm
    refine ⟨hs.1, fun i hi => ?_, h1, fun x l hl => ?_, fun i e he => ?_⟩
    · obtain ⟨I, hI⟩ := hu.2 i hi
      exact ⟨_, hI, hs.2 _ (mem_of_getElem?_some hI)⟩
    · have hx : x.get_symbol < g.MAX_SYMBOL := by
        rw [← hs.1]
        exact (List.getElem?_eq_some.1 hl).1
      rw [timed_state.unsplit_targets hu hx] at hl
      cases hl
      simp only [all_tails, List.append_nil]
      exact h2 x
    · obtain ⟨hi, rfl⟩ := (timed_state.unsplit_is_edge hu).1 he
      exact ih i g.MAX_TIME B _ _ (hkids i _ he) hok (hk i hi)

end RTI


namespace RTI

/-! ### The flattened tree is a prefix tree -/

theorem pieces_of_partition {g : globals} {s : timed_state} {kid : Nat → Int → state_tree}
    {f : state_tree → state_tree} {i : Nat} {l : interval_set} {m : Nat}
    (hl : s.targets[i]? = some l) (hok : partition_ok g l)
    (hwf : ∀ i e i' e', is_edge s i e → is_edge s i' e' → (i, e.1) ≠ (i', e'.1) →
      Disjoint (kid i e.1).addrs (kid i' e'.1).addrs)
    (hf : ∀ e, e ∈ l → (f (kid i e.1)).placed g e.2.tails ∧ (f (kid i e.1)).wf ∧
      (f (kid i e.1)).fits m ∧ ∀ r, r ∈ (f (kid i e.1)).addrs → r ∈ (kid i e.1).addrs) :
    ∃ c cs, l.map (fun e => (e.2, f (kid i e.1))) = c :: cs ∧
      (∀ x ∈ c :: cs, x.2.placed g x.1.tails ∧ x.2.wf ∧ x.2.fits m) ∧
      (c :: cs).Pairwise (fun x y => Disjoint x.2.addrs y.2.addrs) ∧
      ∀ x, x ∈ c :: cs → ∀ r, r ∈ x.2.addrs → ∃ e, e ∈ l ∧ r ∈ (kid i e.1).addrs := by
  have hne : l.map (fun e => ((e.2, f (kid i e.1)) : piece)) ≠ [] := by
    cases l with
    | nil => exact absurd hok (by simp [partition_ok])
    | cons e l => simp
  obtain ⟨c, cs, hc⟩ := List.exists_cons_of_ne_nil hne
  refine ⟨c, cs, hc, ?_, ?_, ?_⟩
  · intro x hx
    rw [← hc] at hx
    obtain ⟨e, he, rfl⟩ := List.mem_map.1 hx
    exact ⟨(hf e he).1, (hf e he).2.1, (hf e he).2.2.1⟩
  · rw [← hc, List.pairwise_map]
    have hkeys := (partition_ok_keys hok).2
    rw [List.pairwise_map] at hkeys
    refine List.Pairwise.imp_of_mem (fun {e e'} he he' hlt => ?_) hkeys
    refine Set.disjoint_left.2 (fun r hr hr' => ?_)
    have hne' : (i, e.1) ≠ (i, e'.1) := by
      intro h
      have := (Prod.mk.inj h).2
      omega
    exact Set.disjoint_left.1 (hwf i e i e' ⟨l, hl, he⟩ ⟨l, hl, he'⟩ hne')
      ((hf e he).2.2.2 r hr) ((hf e' he').2.2.2 r hr')
  · intro x hx r hr
    rw [← hc] at hx
    obtain ⟨e, he, rfl⟩ := List.mem_map.1 hx
    exact ⟨e, he, (hf e he).2.2.2 r hr⟩

theorem flatten_ok {g : globals} (t : state_tree) :
    ∀ (P : List timed_tail) (m : Nat), pre_placed g t P → t.wf → t.fits m →
      (flatten g t).placed g P ∧ (flatten g t).wf ∧ (flatten g t).fits m ∧
        ∀ r, r ∈ (flatten g t).addrs → r ∈ t.addrs := by
  induction t with
  | null => intro P m hp _ _; exact ⟨hp, trivial, trivial, fun r hr => hr⟩
  | node a s kid ih =>
    intro P m hp hwf hfit
    obtain ⟨hlen, hpart, hsym, hcount, hkids⟩ := hp
    obtain ⟨m', rfl, hfk⟩ := hfit
    have hcells : ∀ i, i < g.MAX_SYMBOL → ∃ l c cs, s.targets[i]? = some l ∧
        l.map (fun e => (e.2, flatten g (kid i e.1))) = c :: cs ∧
        (∀ x ∈ c :: cs, x.2.placed g x.1.tails ∧ x.2.wf ∧ x.2.fits m') ∧
        (c :: cs).Pairwise (fun x y => Disjoint x.2.addrs y.2.addrs) ∧
        ∀ x, x ∈ c :: cs → ∀ r, r ∈ x.2.addrs → ∃ e, e ∈ l ∧ r ∈ (kid i e.1).addrs := by
      intro i hi
      obtain ⟨l, hl, hok⟩ := hpart i hi
      obtain ⟨c, cs, q1, q2, q3, q4⟩ := @pieces_of_partition g _ _ (flatten g) _ _ m' hl hok
        hwf.2 (fun e he => by
          have hedge : is_edge s i e := ⟨l, hl, he⟩
          exact ih i e.1 _ _ (hkids i e hedge) (hwf.1 i e hedge).2 (hfk i e hedge))
      exact ⟨l, c, cs, hl, q1, q2, q3, q4⟩
    rw [flatten_node]
    have hu := flat_state_unsplit g s.stat (fun i => (merge_pieces g
      (((s.targets[i]?).getD []).map (fun e => (e.2, flatten g (kid i e.1))))).1)
    have hsub : ∀ i, i < g.MAX_SYMBOL → ∀ r,
        r ∈ (merge_pieces g (((s.targets[i]?).getD []).map
          (fun e => (e.2, flatten g (kid i e.1))))).2.addrs →
        ∃ e, is_edge s i e ∧ r ∈ (kid i e.1).addrs := by
      intro i hi r hr
      obtain ⟨l, c, cs, hl, q1, q2, q3, q4⟩ := hcells i hi
      rw [hl, Option.getD_some, q1] at hr
      obtain ⟨x, hx, hrx⟩ := (merge_pieces_ok cs c m' q2 q3).2.2 r hr
      obtain ⟨e, he, hre⟩ := q4 x hx r hrx
      exact ⟨e, ⟨l, hl, he⟩, hre⟩
    refine ⟨⟨hu, hsym, ?_, ?_⟩, ⟨?_, ?_⟩, ⟨m', rfl, ?_⟩, ?_⟩
    · intro x
      by_cases hx : x ∈ nexts P
      · have hxs := hsym x hx
        obtain ⟨l, c, cs, hl, q1, q2, q3, q4⟩ := hcells x.get_symbol hxs
        rw [flat_state_iv g _ _ hxs, hl, Option.getD_some, q1, merge_pieces_count, ← q1,
          List.map_map]
        have := hcount x l hl
        rw [all_tails_count] at this
        exact this
      · rw [List.count_eq_zero_of_not_mem hx]
        exact Nat.zero_le _
    · intro i hi
      obtain ⟨l, c, cs, hl, q1, q2, q3, q4⟩ := hcells i hi
      rw [flat_state_iv g _ _ hi]
      simp only [hl, Option.getD_some, q1]
      exact merge_pieces_placed cs c (fun x hx => (q2 x hx).1)
    · intro i e he
      obtain ⟨hi, rfl⟩ := (timed_state.unsplit_is_edge hu).1 he
      obtain ⟨l, c, cs, hl, q1, q2, q3, q4⟩ := hcells i hi
      refine ⟨fun h => ?_, ?_⟩
      · obtain ⟨e, hedge, hr⟩ := hsub i hi a h
        exact (hwf.1 i e hedge).1 hr
      · simp only [hl, Option.getD_some, q1]
        exact (merge_pieces_ok cs c m' q2 q3).1
    · intro i e j e' he he' hne
      obtain ⟨hi, rfl⟩ := (timed_state.unsplit_is_edge hu).1 he
      obtain ⟨hj, rfl⟩ := (timed_state.unsplit_is_edge hu).1 he'
      have hij : i ≠ j := fun h => hne (by rw [h])
      refine Set.disjoint_left.2 (fun r hr hr' => ?_)
      obtain ⟨e1, hedge1, hr1⟩ := hsub i hi r hr
      obtain ⟨e2, hedge2, hr2⟩ := hsub j hj r hr'
      exact Set.disjoint_left.1 (hwf.2 i e1 j e2 hedge1 hedge2
        (fun h => hij (Prod.mk.inj h).1)) hr1 hr2
    · intro i e he
      obtain ⟨hi, rfl⟩ := (timed_state.unsplit_is_edge hu).1 he
      obtain ⟨l, c, cs, hl, q1, q2, q3, q4⟩ := hcells i hi
      simp only [hl, Option.getD_some, q1]
      exact (merge_pieces_ok cs c m' q2 q3).2.1
    · intro r hr
      rcases hr with hr | ⟨i, e, he, hr⟩
      · exact Or.inl hr
      · obtain ⟨hi, rfl⟩ := (timed_state.unsplit_is_edge hu).1 he
        obtain ⟨e1, hedge1, hr1⟩ := hsub i hi r hr
        exact Or.inr ⟨i, e1, hedge1, hr1⟩

end RTI


namespace RTI

/-! ### The loop of `un_pre_split` that undoes the splits of one symbol -/

theorem nth_entry_zero {A : timed_automaton} {a i : Nat} {s : timed_state} {e : Int × interval}
    {rest : interval_set} (hm : A.mem a = some s) (hl : s.targets[i]? = some (e :: rest)) :
    nth_entry A a i 0 = some (⟨a, i, e.1⟩, e.2) := by
  simp [nth_entry, hm, timed_state.get_intervals, hl]

theorem undo_first_splits_spec {g : globals} {fuel : Nat} {a i : Nat} (rest : interval_set) :
    ∀ (B : timed_automaton) (sC : timed_state) (k0 : Int) (x : interval) (tx : state_tree)
      (T : Int → state_tree) (n : Nat), B.mem a = some sC →
      sC.targets[i]? = some ((k0, x) :: rest) → k0 = x.end_ →
      tail_cover x.end_ rest g.MAX_TIME → rest.length ≤ n → rep B x.to_ tx →
      (∀ e, e ∈ rest → rep B e.2.to_ (T e.1)) →
      (∀ c, c ∈ (x, tx) :: rest.map (fun e => (e.2, T e.1)) →
        c.2.placed g c.1.tails ∧ c.2.wf ∧ c.2.fits fuel ∧ a ∉ c.2.addrs) →
      ((x, tx) :: rest.map (fun e => (e.2, T e.1))).Pairwise
        (fun c c' => Disjoint c.2.addrs c'.2.addrs) →
      ∃ B', undo_first_splits g fuel a i n B = some B' ∧
        B'.mem a = some (sC.set_intervals i [(g.MAX_TIME,
          (merge_pieces g ((x, tx) :: rest.map (fun e => (e.2, T e.1)))).1)]) ∧
        rep B' (merge_pieces g ((x, tx) :: rest.map (fun e => (e.2, T e.1)))).1.to_
          (merge_pieces g ((x, tx) :: rest.map (fun e => (e.2, T e.1)))).2 ∧
        (∀ r, r ≠ a → (∀ c, c ∈ (x, tx) :: rest.map (fun e => (e.2, T e.1)) →
          r ∉ c.2.addrs) → B'.mem r = B.mem r) ∧
        B'.next = B.next ∧ B'.states = B.states ∧ B'.marker = B.marker ∧
        B'.root = B.root := by
  induction rest with
  | nil =>
    intro B sC k0 x tx T n hB hl hk htc _ hx _ _ _
    have he : x.end_ = g.MAX_TIME := htc
    have hnth := nth_entry_zero hB hl
    refine ⟨B, ?_, ?_, hx, fun _ _ _ => rfl, rfl, rfl, rfl, rfl⟩
    · cases n with
      | zero => simp [undo_first_splits, hnth, he, hk]
      | succ n => simp [undo_first_splits, hnth, he, hk]
    · simp only [List.map_nil, merge_pieces_single]
      rw [← he, ← hk, timed_state.set_intervals_self sC hl]
      exact hB
  | cons e1 rest ih =>
    intro B sC k0 x tx T n hB hl hk htc hn hx hrest hall hd
    obtain ⟨k1, y⟩ := e1
    obtain ⟨h1, h2, h3, h4⟩ := htc
    have hle := tail_cover_le h4
    have hne : x.end_ ≠ g.MAX_TIME := by omega
    have hsym : i < sC.targets.length := (List.getElem?_eq_some.1 hl).1
    have hnth := nth_entry_zero hB hl
    obtain ⟨n', rfl⟩ : ∃ n', n = n' + 1 := ⟨n - 1, by simp at hn; omega⟩
    have hy := hrest (k1, y) (List.mem_cons_self _ _)
    simp only [List.map_cons] at hall hd ⊢
    have ax := hall (x, tx) (List.mem_cons_self _ _)
    have ay := hall (y, T k1) (List.mem_cons_of_mem _ (List.mem_cons_self _ _))
    obtain ⟨hd1, hd2⟩ := List.pairwise_cons.1 hd
    obtain ⟨hd3, hd4⟩ := List.pairwise_cons.1 hd2
    have hp : B.mem a = some (sC.set_intervals i (around [] rest x.end_ k1 x y)) := by
      rw [hB]
      congr 1
      symm
      apply timed_state.set_intervals_self sC
      rw [hl, hk]
      rfl
    obtain ⟨B1, q1, q2, q3, q4, q5, q6, q7, q8⟩ :=
      @undo_split_spec g fuel _ _ _ _ _ _ _ _ _ _ _ _ hp hsym (fun e he => absurd he (List.not_mem_nil e))
        (by omega) hx hy ax.1 ay.1 ax.2.1 ay.2.1 (hd1 _ (List.mem_cons_self _ _))
        ax.2.2.2 ay.2.2.2 ax.2.2.1
    simp only [List.nil_append] at q2
    have hsub : ∀ r, r ∈ (merge_piece g (x, tx) (y, T k1)).2.addrs →
        r ∈ tx.addrs ∨ r ∈ (T k1).addrs := fun r hr => merge_piece_addrs ax.1 ay.1 hr
    obtain ⟨B', p1, p2, p3, p4, p5, p6, p7, p8⟩ :=
      ih B1 (sC.set_intervals i ((k1, (merge_piece g (x, tx) (y, T k1)).1) :: rest)) k1
        (merge_piece g (x, tx) (y, T k1)).1 (merge_piece g (x, tx) (y, T k1)).2 T n' q2
        (timed_state.set_intervals_get sC _ hsym) h2 h4 (by simp at hn; omega) q3
        (fun e he => by
          refine rep_frame (hrest e (List.mem_cons_of_mem _ he)) (fun r hr => ?_)
          have hc := List.mem_map_of_mem (fun e => ((e.2, T e.1) : piece)) he
          have ae := hall _ (List.mem_cons_of_mem _ (List.mem_cons_of_mem _ hc))
          exact q4 r (fun h => ae.2.2.2 (h ▸ hr))
            (fun h => Set.disjoint_left.1 (hd1 _ (List.mem_cons_of_mem _ hc)) h hr)
            (fun h => Set.disjoint_left.1 (hd3 _ hc) h hr))
        (fun c hc => by
          rcases List.mem_cons.1 hc with hc | hc
          · rw [hc]
            refine ⟨merge_piece_placed ax.1 ay.1,
              merge_piece_wf ax.1 ay.1 ax.2.1 ay.2.1 (hd1 _ (List.mem_cons_self _ _)),
              merge_piece_fits ax.1 ay.1 ax.2.2.1 ay.2.2.1, fun h => ?_⟩
            rcases hsub a h with h | h
            · exact ax.2.2.2 h
            · exact ay.2.2.2 h
          · exact hall c (List.mem_cons_of_mem _ (List.mem_cons_of_mem _ hc)))
        (List.pairwise_cons.2 ⟨fun z hz => Set.disjoint_left.2 (fun r hr hr' => by
          rcases hsub r hr with h | h
          · exact Set.disjoint_left.1 (hd1 z (List.mem_cons_of_mem _ hz)) h hr'
          · exact Set.disjoint_left.1 (hd3 z hz) h hr'), hd4⟩)
    rw [merge_pieces_cons_cons]
    refine ⟨B', ?_, ?_, p3, ?_, by rw [p5, q5], by rw [p6, q6], by rw [p7, q7],
      by rw [p8, q8]⟩
    · simp only [undo_first_splits, hnth, Option.some_bind, ne_eq, hne, not_false_eq_true,
        if_true, q1]
      exact p1
    · rw [p2, timed_state.set_intervals_set]
    · intro r hra hr
      rw [p4 r hra (fun c hc => ?_)]
      · exact q4 r hra (hr _ (List.mem_cons_self _ _))
          (hr _ (List.mem_cons_of_mem _ (List.mem_cons_self _ _)))
      · rcases List.mem_cons.1 hc with hc | hc
        · rw [hc]
          intro h
          rcases hsub r h with h | h
          · exact hr _ (List.mem_cons_self _ _) h
          · exact hr _ (List.mem_cons_of_mem _ (List.mem_cons_self _ _)) h
        · exact hr c (List.mem_cons_of_mem _ (List.mem_cons_of_mem _ hc))

end RTI


namespace RTI

/-! ### `un_pre_split` on the heap -/

theorem nth_entry_at {A : timed_automaton} {a i j : Nat} {s : timed_state} {l : interval_set}
    {e : Int × interval} (hm : A.mem a = some s) (hl : s.targets[i]? = some l)
    (hj : l[j]? = some e) : nth_entry A a i j = some (⟨a, i, e.1⟩, e.2) := by
  simp [nth_entry, hm, timed_state.get_intervals, hl, hj]

theorem num_intervals_at {A : timed_automaton} {a i : Nat} {s : timed_state} {l : interval_set}
    (hm : A.mem a = some s) (hl : s.targets[i]? = some l) :
    num_intervals A a i = some l.length := by
  simp [num_intervals, hm, timed_state.get_intervals, hl]

theorem partition_nodup {g : globals} {l : interval_set} (h : partition_ok g l) :
    (l.map Prod.fst).Nodup :=
  pairwise_lt_nodup (partition_ok_keys h).2

theorem flatten_null (g : globals) : flatten g state_tree.null = state_tree.null := by
  simp only [flatten]

theorem un_pre_split_spec {g : globals} :
    ∀ (fuel : Nat) (A : timed_automaton) (a : Nat) (t : state_tree) (P : List timed_tail),
      rep A (some a) t → t.wf → pre_placed g t P → t.fits fuel →
      (∀ r, r ∈ t.addrs → r < A.next) →
      ∃ A', un_pre_split g fuel A a = some A' ∧ rep A' (some a) (flatten g t) ∧
        (∀ r, r ∉ t.addrs → A'.mem r = A.mem r) ∧ A'.next = A.next ∧
        A'.states = A.states ∧ A'.marker = A.marker ∧ A'.root = A.root := by
  intro fuel
  induction fuel with
  | zero =>
    intro A a t P hrep _ _ hfit _
    obtain ⟨s, kid, rfl, -, -⟩ := rep_some hrep
    obtain ⟨k, hk, -⟩ := hfit
    omega
  | succ fuel ih =>
    intro A a t P hrep hwf hpp hfit hlt
    obtain ⟨s, kid, rfl, hA, hkids⟩ := rep_some hrep
    obtain ⟨hlen, hparts, -, -, hpk⟩ := hpp
    obtain ⟨k, hk, hfk⟩ := hfit
    have hk' : k = fuel := by omega
    subst hk'
    have haA : a < A.next := hlt a (Or.inl rfl)
    have hnodup : ∀ (i : Nat) (l : interval_set), s.targets[i]? = some l →
        (l.map Prod.fst).Nodup := by
      intro i l hl
      have hi : i < g.MAX_SYMBOL := by
        rw [← hlen]; exact (List.getElem?_eq_some.1 hl).1
      obtain ⟨l', hl', hok⟩ := hparts i hi
      rw [hl] at hl'
      cases hl'
      exact partition_nodup hok
    -- the trees below the intervals
    have hflat : ∀ i e, is_edge s i e →
        (flatten g (kid i e.1)).placed g e.2.tails ∧ (flatten g (kid i e.1)).wf ∧
          (flatten g (kid i e.1)).fits k ∧
          ∀ r, r ∈ (flatten g (kid i e.1)).addrs → r ∈ (kid i e.1).addrs :=
      fun i e he => flatten_ok (kid i e.1) e.2.tails k (hpk i e he) (hwf.1 i e he).2
        (hfk i e he)
    obtain ⟨B1, hB1, kidc, h1, h2, h3, -, h5, h6, -, h8, h9, h10, hJ1⟩ :=
      @traverse_kids g a s kid A (same_next A)
        (fun _ e c => pre_placed g c e.2.tails ∧ c.fits k)
        (fun _ _ c c' => c' = flatten g c)
        (fun B i j => (nth_entry B a i j).bind (fun x =>
          match x.2.to_ with
          | some o => un_pre_split g k B o
          | none => some B))
        hlen hnodup
        (fun B i j l e c hJ hBa hl hj hrc hPre hwc hac hltc hAB => by
          have hnth := nth_entry_at hBa hl hj
          cases c with
          | null =>
            have hto : e.2.to_ = none := hrc
            refine ⟨B, state_tree.null, ?_, hrc, (flatten_null g).symm, trivial,
              fun r hr => Or.inl hr, fun _ _ _ => rfl, le_refl _, rfl, rfl, rfl, hJ⟩
            simp only [hnth, Option.some_bind, hto]
          | node a' s' kid' =>
            have hto : e.2.to_ = some a' := hrc.1
            rw [hto] at hrc
            obtain ⟨B', q1, q2, q3, q4, q5, q6, q7⟩ :=
              ih B a' (state_tree.node a' s' kid') e.2.tails hrc hwc hPre.1 hPre.2 hltc
            have hfo := flatten_ok (state_tree.node a' s' kid') e.2.tails k hPre.1 hwc hPre.2
            refine ⟨B', flatten g (state_tree.node a' s' kid'), ?_, by rw [hto]; exact q2, rfl,
              hfo.2.1, fun r hr => Or.inl (hfo.2.2.2 r hr), fun r hr _ => q3 r hr,
              by omega, q5, q6, q7, ?_⟩
            · simp only [hnth, Option.some_bind, hto]
              exact q1
            · refine ⟨by rw [q4, hJ.1], fun r hr => ?_⟩
              rw [q3 r (fun h => by have := hltc r h; have := hJ.1; omega)]
              exact hJ.2 r hr)
        hrep hwf (fun i e he => ⟨hpk i e he, hfk i e he⟩) hlt ⟨rfl, fun _ _ => rfl⟩
    have hkc : ∀ i e, is_edge s i e → kidc i e.1 = flatten g (kid i e.1) :=
      fun i e he => h3 i e he trivial
    have hlt1 : ∀ r, r ∈ (state_tree.node a s kidc).addrs → r < B1.next := by
      intro r hr
      rcases h5 r hr with h | h
      · rw [hJ1.1]; exact hlt r h
      · have := hJ1.1; omega
    have hsub : ∀ r, r ∈ (state_tree.node a s kidc).addrs →
        r ∈ (state_tree.node a s kid).addrs := by
      intro r hr
      rcases h5 r hr with h | h
      · exact h
      · have := hJ1.1; omega
    -- the splits of the state itself
    obtain ⟨B2, hB2, sB, kid2, p1, -, p3, p4, -, p6, -, p8, -, p10, p11, p12, pJ⟩ :=
      @per_symbol g a s kidc B1 (same_next A)
        (fun i l' kid' =>
          l' = [(g.MAX_TIME, (merge_pieces g (((s.targets[i]?).getD []).map
            (fun e => (e.2, flatten g (kid i e.1))))).1)] ∧
          ∀ k', kid' k' = (merge_pieces g (((s.targets[i]?).getD []).map
            (fun e => (e.2, flatten g (kid i e.1))))).2)
        (fun B i => (num_intervals B a i).bind (fun n =>
          undo_first_splits g (k + 1) a i n B))
        (fun B i sB hi hJ hBa hsi hlenB hreps hAB => by
          obtain ⟨l, hl, hok⟩ := hparts i hi
          have hlB : sB.targets[i]? = some l := by rw [hsi, hl]
          have hnum := num_intervals_at hBa hlB
          obtain ⟨c, cs, q1, q2, q3, -⟩ :=
            @pieces_of_partition g s kid (flatten g) i l k hl hok hwf.2
              (fun e he => hflat i e ⟨l, hl, he⟩)
          have hmem : ∀ z, z ∈ c :: cs → ∃ e, e ∈ l ∧ z = (e.2, flatten g (kid i e.1)) := by
            intro z hz
            rw [← q1] at hz
            obtain ⟨e, he, rfl⟩ := List.mem_map.1 hz
            exact ⟨e, he, rfl⟩
          have hzin : ∀ z, z ∈ c :: cs → ∀ r, r ∈ z.2.addrs →
              ∃ e0, is_edge s i e0 ∧ r ∈ (kidc i e0.1).addrs := by
            intro z hz r hr
            obtain ⟨e, he, rfl⟩ := hmem z hz
            refine ⟨e, ⟨l, hl, he⟩, ?_⟩
            rw [hkc i e ⟨l, hl, he⟩]
            exact hr
          have hza : ∀ z, z ∈ c :: cs → a ∉ z.2.addrs := by
            intro z hz ha
            obtain ⟨e0, he0, h⟩ := hzin z hz a ha
            exact (h2.1 i e0 he0).1 h
          cases l with
          | nil => exact absurd hok (by simp [partition_ok])
          | cons e0 rest =>
            obtain ⟨k0, x⟩ := e0
            obtain ⟨-, o2, -, o4⟩ := hok
            simp only [List.map_cons, List.cons.injEq] at q1
            obtain ⟨rfl, rfl⟩ := q1
            have hmo := merge_pieces_ok _ _ k q2 q3
            obtain ⟨B', r1, r2, r3, r4, r5, r6, r7, r8⟩ :=
              @undo_first_splits_spec g (k + 1) a i rest B sB k0 x (flatten g (kid i k0))
                (fun k' => flatten g (kid i k')) (rest.length + 1) hBa hlB o2 o4
                (by omega)
                (by
                  have := hreps (k0, x) ⟨_, hl, List.mem_cons_self _ _⟩
                  rw [hkc i (k0, x) ⟨_, hl, List.mem_cons_self _ _⟩] at this
                  exact this)
                (fun e he => by
                  have := hreps e ⟨_, hl, List.mem_cons_of_mem _ he⟩
                  rw [hkc i e ⟨_, hl, List.mem_cons_of_mem _ he⟩] at this
                  exact this)
                (fun z hz => ⟨(q2 z hz).1, (q2 z hz).2.1, fits_mono (q2 z hz).2.2 (by omega),
                  hza z hz⟩)
                q3
            have hMeq : ((s.targets[i]?).getD []).map
                (fun e => ((e.2, flatten g (kid i e.1)) : piece)) =
                (x, flatten g (kid i k0)) ::
                  rest.map (fun e => ((e.2, flatten g (kid i e.1)) : piece)) := by
              rw [hl]
              rfl
            refine ⟨B', [(g.MAX_TIME, (merge_pieces g ((x, flatten g (kid i k0)) ::
                rest.map (fun e => ((e.2, flatten g (kid i e.1)) : piece)))).1)],
              fun _ => (merge_pieces g ((x, flatten g (kid i k0)) ::
                rest.map (fun e => ((e.2, flatten g (kid i e.1)) : piece)))).2,
              ?_, r2, ?_, ?_, ?_, ⟨?_, ?_⟩, ?_, by omega,
              r6, r7, r8, ?_⟩
            · simp only [hnum, Option.some_bind, List.length_cons]
              exact r1
            · intro e he
              rw [List.mem_singleton.1 he]
              refine ⟨r3, hmo.1, fun ha => ?_⟩
              obtain ⟨z, hz, hza'⟩ := hmo.2.2 a ha
              exact hza z hz hza'
            · intro e e' he he' hne
              rw [List.mem_singleton.1 he, List.mem_singleton.1 he'] at hne
              exact absurd rfl hne
            · intro e _ r hr
              obtain ⟨z, hz, hzr⟩ := hmo.2.2 r hr
              exact Or.inl (hzin z hz r hzr)
            · rw [hMeq]
            · intro _
              rw [hMeq]
            · intro r hra hr _
              exact r4 r hra (fun z hz hzr => hr (hzin z hz r hzr))
            · refine ⟨by rw [r5, hJ.1], fun r hr => ?_⟩
              rw [r4 r (by omega) (fun z hz hzr => ?_)]
              · exact hJ.2 r hr
              · obtain ⟨e0, he0, h⟩ := hzin z hz r hzr
                have := hlt1 r (Or.inr ⟨i, e0, he0, h⟩)
                have := hJ1.1
                omega)
        h1 h2 hlen hlt1 hJ1
    refine ⟨B2, ?_, ?_, ?_, pJ.1, by rw [p10, h8], by rw [p11, h9], by rw [p12, h10]⟩
    · have e : un_pre_split g (k + 1) A a =
          ((List.range g.MAX_SYMBOL).foldlM (fun (A : timed_automaton) (i : Nat) =>
            (num_intervals A a i).bind (fun n =>
              (List.range n).foldlM (fun (A : timed_automaton) (j : Nat) =>
                (nth_entry A a i j).bind (fun x =>
                  match x.2.to_ with
                  | some o => un_pre_split g k A o
                  | none => some A)) A)) A).bind (fun A1 =>
          (List.range g.MAX_SYMBOL).foldlM (fun (A : timed_automaton) (i : Nat) =>
            (num_intervals A a i).bind (fun n =>
              undo_first_splits g (k + 1) a i n A)) A1) := rfl
      rw [e, hB1, Option.some_bind, hB2]
    · rw [flatten_node]
      obtain ⟨-, hm2, hk2⟩ := p1
      have hsB : sB = timed_state.mk ((List.range g.MAX_SYMBOL).map (fun i =>
            [(g.MAX_TIME, (merge_pieces g (((s.targets[i]?).getD []).map
              (fun e => (e.2, flatten g (kid i e.1))))).1)])) s.stat := by
        obtain ⟨tg, st⟩ := sB
        simp only at p3 p4 p6
        simp only [timed_state.mk.injEq]
        refine ⟨List.ext_getElem? (fun i => ?_), p4⟩
        by_cases hi : i < g.MAX_SYMBOL
        · obtain ⟨l', hl', hq, -⟩ := p6 i hi hi
          rw [hl', hq]
          simp [hi]
        · rw [List.getElem?_eq_none (by omega), List.getElem?_eq_none (by simp; omega)]
      refine ⟨rfl, by rw [hm2, hsB], fun i e he => ?_⟩
      rw [← hsB] at he
      have hi : i < g.MAX_SYMBOL := by
        obtain ⟨l, hl, -⟩ := he
        rw [← p3]
        exact (List.getElem?_eq_some.1 hl).1
      obtain ⟨l', -, -, hq⟩ := p6 i hi hi
      have hke := hk2 i e he
      rw [hq e.1] at hke
      exact hke
    · intro r hr
      by_cases hrA : r < A.next
      · rw [p8 r (fun h => hr (hsub r h)) (by rw [hJ1.1]; exact hrA)]
        exact h6 r hr hrA
      · exact pJ.2 r (by omega)

end RTI


namespace RTI

/-! ### Support for `pre_split` -/

theorem split_chain_fits {g : globals} (es : List Int) :
    ∀ (c : piece) (out : List piece) (m : Nat), split_chain g c es out →
      c.2.placed g c.1.tails → c.2.fits m → ∀ x ∈ out, x.2.fits m := by
  induction es with
  | nil =>
    intro c out m h _ hf x hx
    have : out = [c] := h
    rw [this] at hx
    rw [List.mem_singleton.1 hx]
    exact hf
  | cons e es ih =>
    intro c out m h hp hf x hx
    obtain ⟨l, r, rest, h1, h2, rfl⟩ := h
    obtain ⟨-, pr, pf, -⟩ := @split_piece_placed g c.1 c.2 _ _ _ h1 hp
    rcases List.mem_cons.1 hx with hx | hx
    · rw [hx]
      exact (pf m hf).1
    · exact ih r rest m h2 pr (pf m hf).2 x hx

theorem closed_congr {A B : timed_automaton} {N : Set Nat} (hc : closed A N)
    (hN : ∀ n, n ∈ N → B.mem n = A.mem n) : closed B N := by
  intro n hn
  obtain ⟨sn, h1, h2⟩ := hc n hn
  exact ⟨sn, by rw [hN n hn, h1], h2⟩

theorem matched_congr {g : globals} {A B : timed_automaton} {N : Set Nat} (hc : closed A N)
    (hN : ∀ n, n ∈ N → B.mem n = A.mem n) (t : state_tree) :
    ∀ n, n ∈ N → matched g A t n → matched g B t n := by
  induction t with
  | null => intro _ _ _; trivial
  | node a s kid ih =>
    intro n hn ⟨sn, h1, h2⟩
    refine ⟨sn, by rw [hN n hn, h1], fun i hi => ?_⟩
    obtain ⟨l, ln, q1, q2, q3, q4⟩ := h2 i hi
    refine ⟨l, ln, q1, q2, q3, fun j e en he hen n' hn' => ?_⟩
    obtain ⟨sn', h1', h3⟩ := hc n hn
    rw [h1] at h1'
    cases h1'
    exact ih i e.1 n' (h3 i en ⟨ln, q2, mem_of_getElem?_some hen⟩ n' hn')
      (q4 j e en he hen n' hn')

theorem forall₂_getElem? {α β : Type} {R : α → β → Prop} {l : List α} {l' : List β}
    (h : List.Forall₂ R l l') {j : Nat} {x : α} (hx : l[j]? = some x) :
    ∃ y, l'[j]? = some y ∧ R x y := by
  induction h generalizing j with
  | nil => simp at hx
  | cons hab _ ih =>
    cases j with
    | zero =>
      simp only [List.getElem?_cons_zero, Option.some.injEq] at hx
      subst hx
      exact ⟨_, List.getElem?_cons_zero, hab⟩
    | succ j =>
      simp only [List.getElem?_cons_succ] at hx ⊢
      exact ih hx

theorem forall₂_getElem?_both {α β : Type} {R : α → β → Prop} {l : List α} {l' : List β}
    (h : List.Forall₂ R l l') {j : Nat} {x : α} {y : β} (hx : l[j]? = some x)
    (hy : l'[j]? = some y) : R x y := by
  obtain ⟨y', hy', hr⟩ := forall₂_getElem? h hx
  rw [hy] at hy'
  cases hy'
  exact hr

theorem ends_unique {g : globals} {l : interval_set} (hok : partition_ok g l)
    {e e' : Int × interval} (he : e ∈ l) (he' : e' ∈ l) (h : e.2.end_ = e'.2.end_) :
    e = e' := by
  have hk := partition_ok_keys hok
  refine List.inj_on_of_nodup_map (pairwise_lt_nodup hk.2) he he' ?_
  rw [(hk.1 e he).1, (hk.1 e' he').1]
  exact h

theorem heap_ok_partition {g : globals} {A : timed_automaton} {r : Nat} {s : timed_state}
    (h : heap_ok g A) (hm : A.mem r = some s) {i : Nat} (hi : i < g.MAX_SYMBOL) :
    ∃ l, s.targets[i]? = some l ∧ partition_ok g l := by
  obtain ⟨h1, h2⟩ := h r s hm
  have hi' : i < s.targets.length := by omega
  exact ⟨s.targets[i], List.getElem?_eq_getElem hi', h2 _ (List.getElem_mem _)⟩

theorem split_chain_pieces_match {g : globals} {c : piece} {ln : interval_set}
    {pieces : List piece} (hok : partition_ok g ln) (hb : c.1.begin = g.MIN_TIME)
    (he : c.1.end_ = g.MAX_TIME) (h : split_chain g c (split_points g ln) pieces) :
    List.Forall₂ (fun (p : piece) (e : Int × interval) =>
      p.1.end_ = e.2.end_ ∧ p.1.begin = e.2.begin) pieces ln := by
  cases ln with
  | nil => exact absurd hok (by simp [partition_ok])
  | cons e rest =>
    obtain ⟨k, i⟩ := e
    obtain ⟨h1, -, -, h4⟩ := hok
    exact split_chain_match rest c k i pieces (by rw [h1, hb]) h4 he h

/-! ### Aligned trees, and the tails stored in a tree -/

theorem aligned_congr {g : globals} {A B : timed_automaton} {N : Set Nat} (hc : closed A N)
    (hN : ∀ n, n ∈ N → B.mem n = A.mem n) (t : state_tree) :
    ∀ n, n ∈ N → aligned g A t n → aligned g B t n := by
  induction t with
  | null => intro _ _ _; trivial
  | node a s kid ih =>
    intro n hn ⟨sn, h1, h2⟩
    refine ⟨sn, by rw [hN n hn, h1], fun i hi => ?_⟩
    obtain ⟨l, ln, q1, q2, q3, q4⟩ := h2 i hi
    refine ⟨l, ln, q1, q2, q3, fun j e en he hen n' hn' => ?_⟩
    obtain ⟨sn', h1', h3⟩ := hc n hn
    rw [h1] at h1'
    cases h1'
    exact ih i e.1 n' (h3 i en ⟨ln, q2, mem_of_getElem?_some hen⟩ n' hn')
      (q4 j e en he hen n' hn')

theorem aligned_matched {g : globals} {A : timed_automaton} (t : state_tree) :
    ∀ n, aligned g A t n → matched g A t n := by
  induction t with
  | null => intro _ _; trivial
  | node a s kid ih =>
    intro n ⟨sn, h1, h2⟩
    refine ⟨sn, h1, fun i hi => ?_⟩
    obtain ⟨l, ln, q1, q2, q3, q4⟩ := h2 i hi
    refine ⟨l, ln, q1, q2, ?_, fun j e en he hen n' hn' =>
      ih i e.1 n' (q4 j e en he hen n' hn')⟩
    have := congrArg List.length q3
    simpa using this

theorem tree_count_node (x : timed_tail) (a : Nat) (s : timed_state)
    (kid : Nat → Int → state_tree) :
    tree_count x (state_tree.node a s kid) =
      ((List.range s.targets.length).map (fun i =>
        (((s.targets[i]?).getD []).map
          (fun e => e.2.tails.count x + tree_count x (kid i e.1))).sum)).sum := by
  rw [tree_count]

theorem tree_count_unsplit {g : globals} {a : Nat} {s : timed_state}
    {kid : Nat → Int → state_tree} (h : s.unsplit g) (x : timed_tail) :
    tree_count x (state_tree.node a s kid) =
      ((List.range g.MAX_SYMBOL).map (fun i =>
        (s.iv i).tails.count x + tree_count x (kid i g.MAX_TIME))).sum := by
  rw [tree_count_node, h.1]
  congr 1
  apply List.map_congr_left
  intro i hi
  rw [timed_state.unsplit_targets h (List.mem_range.1 hi)]
  simp

theorem sum_range_add (n : Nat) (f f' h : Nat → Nat) (H : ∀ i, i < n → f i + f' i = h i) :
    ((List.range n).map f).sum + ((List.range n).map f').sum = ((List.range n).map h).sum := by
  rw [← List.sum_map_add]
  congr 1
  apply List.map_congr_left
  intro i hi
  exact H i (List.mem_range.1 hi)

theorem split_rel_count {g : globals} (x : timed_tail) (t : state_tree) :
    ∀ (X : List timed_tail) (tn t' : state_tree), t.placed g X → split_rel g t X tn t' →
      tree_count x tn + tree_count x t' = tree_count x t := by
  induction t with
  | null =>
    intro X tn t' _ h
    exact absurd h (by simp [split_rel])
  | node a sT kid ih =>
    intro X tn t' hpl h
    obtain ⟨hsT, hs, hc, hkids⟩ := hpl
    obtain ⟨n, sN, kidN, sT', kid', rfl, rfl, huN, huT', -, -, hsym⟩ := h
    rw [tree_count_unsplit huN, tree_count_unsplit huT', tree_count_unsplit hsT]
    apply sum_range_add
    intro i hi
    obtain ⟨e1, e2, -, -, -, -, -, e8⟩ := hsym i hi
    have hx := e2 x
    by_cases h1 : (sN.iv i).tails = []
    · rw [if_pos h1] at e8
      rw [e8.1, e8.2.1]
      simp only [tree_count]
      omega
    · rw [if_neg h1] at e8
      by_cases h2 : (sT'.iv i).tails = []
      · rw [if_pos h2] at e8
        rw [e8.1, e8.2.1]
        simp only [tree_count]
        omega
      · rw [if_neg h2] at e8
        have hP : (sT.iv i).tails ≠ [] := by
          intro h
          apply h1
          apply List.eq_nil_iff_forall_not_mem.2
          intro y hy
          have := e2 y
          rw [h, List.count_nil] at this
          exact absurd (List.count_pos_iff.2 hy) (by omega)
        obtain ⟨c, sc, kc, hcn⟩ := placed_node (hkids i hi) hP
        have hrec := ih i g.MAX_TIME _ _ _ (by
          rw [hcn]
          refine placed_mono (hcn ▸ hkids i hi) (fun y => ?_)
          have := e2 y
          omega) e8.2
        omega

theorem split_piece_count {g : globals} {c l r : piece} {time : Int}
    (h : split_piece g c time l r) (hpl : c.2.placed g c.1.tails) (x : timed_tail) :
    (l.1.tails.count x + tree_count x l.2) + (r.1.tails.count x + tree_count x r.2)
      = c.1.tails.count x + tree_count x c.2 := by
  obtain ⟨h1, h2, h3⟩ := h
  have hl : l.1.tails = tails_upto c.1.tails time := by rw [h1]; rfl
  have hr : r.1.tails = tails_after c.1.tails time := by rw [h2]; rfl
  have hcnt : (tails_upto c.1.tails time).count x + (tails_after c.1.tails time).count x
      = c.1.tails.count x := by
    conv_rhs => rw [← tails_upto_append_after c.1.tails time]
    rw [List.count_append]
  rw [hl, hr]
  by_cases e1 : tails_upto c.1.tails time = []
  · rw [if_pos e1] at h3
    rw [h3.1, h3.2]
    simp only [tree_count]
    omega
  · rw [if_neg e1] at h3
    by_cases e2 : tails_after c.1.tails time = []
    · rw [if_pos e2] at h3
      rw [h3.1, h3.2]
      simp only [tree_count]
      omega
    · rw [if_neg e2] at h3
      have hpX : c.2.placed g (tails_upto c.1.tails time) := by
        cases hc : c.2 with
        | null => rw [hc] at h3; exact absurd h3 (by simp [split_rel])
        | node a s kid =>
          rw [hc] at hpl
          exact placed_mono hpl (tails_upto_count_le c.1.tails time)
      have := split_rel_count x c.2 _ _ _ hpX h3
      omega

theorem split_chain_tree_count {g : globals} (x : timed_tail) (es : List Int) :
    ∀ (c : piece) (out : List piece), split_chain g c es out → c.2.placed g c.1.tails →
      (out.map (fun p => p.1.tails.count x + tree_count x p.2)).sum
        = c.1.tails.count x + tree_count x c.2 := by
  induction es with
  | nil =>
    intro c out h _
    simp only [split_chain] at h
    rw [h]
    simp
  | cons e es ih =>
    intro c out h hpl
    obtain ⟨l, r, rest, h1, h2, rfl⟩ := h
    have hr := (split_piece_placed h1 hpl).2.1
    rw [List.map_cons, List.sum_cons, ih r rest h2 hr]
    exact split_piece_count h1 hpl x

theorem forall₂_map_eq {α β γ : Type} {R : α → β → Prop} {f : α → γ} {f' : β → γ}
    {l : List α} {l' : List β} (h : List.Forall₂ R l l') (hR : ∀ a b, R a b → f a = f' b) :
    l.map f = l'.map f' := by
  induction h with
  | nil => rfl
  | cons hab _ ih => rw [List.map_cons, List.map_cons, hR _ _ hab, ih]

end RTI


namespace RTI

/-! ### `pre_split` on the heap -/

theorem pre_split_spec {g : globals} {N : Set Nat} :
    ∀ (fuel : Nat) (A : timed_automaton) (o n : Nat) (t : state_tree) (P : List timed_tail),
      rep A (some o) t → t.wf → t.placed g P → t.fits fuel →
      (∀ r, r ∈ t.addrs → r < A.next) → heap_ok g A → n ∈ N → closed A N →
      (∀ r, r ∈ N → r ∉ t.addrs ∧ r < A.next) →
      ∃ (A' : timed_automaton) (t2 : state_tree), pre_split g fuel A o n = some A' ∧
        rep A' (some o) t2 ∧ t2.wf ∧ pre_placed g t2 P ∧ t2.fits fuel ∧
        tree_equiv t (flatten g t2) ∧ aligned g A' t2 n ∧ heap_ok g A' ∧
        (∀ r, r ∈ t2.addrs → r ∈ t.addrs ∨ (A.next ≤ r ∧ r < A'.next)) ∧
        (∀ r, r ∉ t.addrs → r < A.next → A'.mem r = A.mem r) ∧ A.next ≤ A'.next ∧
        A'.states = A.states ∧ A'.marker = A.marker ∧ A'.root = A.root ∧
        ∀ x, tree_count x t2 = tree_count x t := by
  intro fuel
  induction fuel with
  | zero =>
    intro A o n t P hrep _ _ hfit
    obtain ⟨s, kid, rfl, -, -⟩ := rep_some hrep
    obtain ⟨k, hk, -⟩ := hfit
    omega
  | succ fuel ih =>
    intro A o n t P hrep hwf hpl hfit hlt hok hn hcl hN
    obtain ⟨s, kid, rfl, hA, hkids⟩ := rep_some hrep
    obtain ⟨hu, hP1, hP2, hpk⟩ := hpl
    obtain ⟨k, hk, hfk⟩ := hfit
    have hk' : k = fuel := by omega
    subst hk'
    obtain ⟨sn, hsn, hsnN⟩ := hcl n hn
    have hoA : o < A.next := hlt o (Or.inl rfl)
    have hoN : o ∉ N := fun h => (hN o h).1 (Or.inl rfl)
    have hedge : ∀ i, i < g.MAX_SYMBOL → is_edge s i (g.MAX_TIME, s.iv i) :=
      fun i hi => ⟨_, timed_state.unsplit_targets hu hi, List.mem_singleton.2 rfl⟩
    have hbounds : ∀ i, i < g.MAX_SYMBOL →
        (s.iv i).begin = g.MIN_TIME ∧ (s.iv i).end_ = g.MAX_TIME := by
      intro i hi
      obtain ⟨l, hl, hokl⟩ := heap_ok_partition hok hA hi
      rw [timed_state.unsplit_targets hu hi] at hl
      cases hl
      exact ⟨hokl.1, hokl.2.1.symm⟩
    -- the splits of the state itself
    obtain ⟨B1, hB1, sB, kidc, p1, p2, p3, p4, -, p6, p7, p8, p9, p10, p11, p12, pJ⟩ :=
      @per_symbol g o s kid A (new_side_kept g A N)
        (fun i l' kid' => ∃ (ln : interval_set) (pieces : List piece),
          sn.targets[i]? = some ln ∧ partition_ok g ln ∧
          split_chain g (s.iv i, kid i g.MAX_TIME) (split_points g ln) pieces ∧
          l' = pieces.map (fun c => (c.1.end_, c.1)) ∧
          ∀ c, c ∈ pieces → kid' c.1.end_ = c.2)
        (fun B i => (nth_entry B o i 0).bind (fun x =>
          if x.1.key ≠ g.MAX_TIME then none
          else (B.mem n).bind (fun sn => (sn.get_intervals i).bind (fun ln =>
            (split_points g ln).foldlM (fun (A : timed_automaton) (e : Int) =>
              split g (k + 1) A o i e) B))))
        (fun B i sB hi hJ hBo hsi hlenB hreps hAB => by
          have hl : s.targets[i]? = some [(g.MAX_TIME, s.iv i)] :=
            timed_state.unsplit_targets hu hi
          have hlB : sB.targets[i]? = some [(g.MAX_TIME, s.iv i)] := by rw [hsi, hl]
          have hnth := nth_entry_zero hBo hlB
          obtain ⟨ln, hln, hokn⟩ := heap_ok_partition hok hsn hi
          have hBn : B.mem n = some sn := by rw [hJ.2 n hn, hsn]
          have hpts := partition_points hokn
          have hb := hbounds i hi
          obtain ⟨B', pieces, q1, q2, q3, q4, q5, q6, q7, q8, q9, q10, q11⟩ :=
            @split_chain_spec g (k + 1) o i (split_points g ln) B sB [] (s.iv i)
              (kid i g.MAX_TIME) hBo hlB (fun e he => absurd he (List.not_mem_nil e)) hpts.1
              (fun t ht => ⟨by rw [hb.1]; exact (hpts.2 t ht).1, (hpts.2 t ht).2⟩) hb.2
              (by omega) (hreps _ (hedge i hi)) (hwf.1 i _ (hedge i hi)).2 (hpk i hi)
              (fits_mono (hfk i _ (hedge i hi)) (by omega)) (hwf.1 i _ (hedge i hi)).1
              (fun r hr => by have := hlt r (Or.inr ⟨i, _, hedge i hi, hr⟩); omega) hJ.1
          simp only [List.nil_append] at q3
          have hl'ok : partition_ok g (pieces.map (fun c => (c.1.end_, c.1))) := by
            obtain ⟨l', hl', hok'⟩ := heap_ok_partition q11 q3 hi
            rw [timed_state.set_intervals_get sB _ (by omega)] at hl'
            cases hl'
            exact hok'
          have hnd : (pieces.map (fun c => c.1.end_)).Nodup := by
            have := partition_nodup hl'ok
            rw [List.map_map] at this
            exact this
          refine ⟨B', pieces.map (fun c => (c.1.end_, c.1)), piece_tree pieces, ?_, q3, ?_, ?_,
            ?_, ⟨ln, pieces, hln, hokn, q2, rfl, fun c hc => piece_tree_mem hnd hc⟩, ?_, q7,
            q8, q9, q10, q11, ?_⟩
          · simp only [hnth, Option.some_bind, ne_eq, not_true_eq_false, if_false, hBn,
              timed_state.get_intervals, hln]
            exact q1
          · intro e he
            obtain ⟨c, hc, rfl⟩ := List.mem_map.1 he
            simp only
            rw [piece_tree_mem hnd hc]
            exact ⟨(q4 c hc).1, (q4 c hc).2.1, (q4 c hc).2.2.1⟩
          · intro e e' he he' hne
            obtain ⟨c, hc, rfl⟩ := List.mem_map.1 he
            obtain ⟨c', hc', rfl⟩ := List.mem_map.1 he'
            simp only
            rw [piece_tree_mem hnd hc, piece_tree_mem hnd hc']
            exact q5.forall (fun _ _ h => h.symm) hc hc' (fun h => hne (by rw [h]))
          · intro e he r hr
            obtain ⟨c, hc, rfl⟩ := List.mem_map.1 he
            simp only at hr
            rw [piece_tree_mem hnd hc] at hr
            rcases (q4 c hc).2.2.2.2 r hr with h | h
            · exact Or.inl ⟨_, hedge i hi, h⟩
            · exact Or.inr h
          · intro r hro hr hrB
            exact q6 r hro (fun h => hr ⟨_, hedge i hi, h⟩) hrB
          · intro n' hn'
            rw [q6 n' (fun h => hoN (h ▸ hn'))
              (fun h => (hN n' hn').1 (Or.inr ⟨i, _, hedge i hi, h⟩))
              (by have := (hN n' hn').2; omega)]
            exact hJ.2 n' hn')
        hrep hwf hu.1 hlt ⟨hok, fun _ _ => rfl⟩
    have hBo : B1.mem o = some sB := p1.2.1
    have hQ : ∀ i, i < g.MAX_SYMBOL → ∃ (ln : interval_set) (pieces : List piece),
        sB.targets[i]? = some (pieces.map (fun c => (c.1.end_, c.1))) ∧
        sn.targets[i]? = some ln ∧ partition_ok g ln ∧
        split_chain g (s.iv i, kid i g.MAX_TIME) (split_points g ln) pieces ∧
        (∀ c, c ∈ pieces → kidc i c.1.end_ = c.2) ∧
        List.Forall₂ (fun (p : piece) (e : Int × interval) =>
          p.1.end_ = e.2.end_ ∧ p.1.begin = e.2.begin) pieces ln := by
      intro i hi
      obtain ⟨l', hl', ln, pieces, h1, h2, h3, rfl, h5⟩ := p6 i hi hi
      exact ⟨ln, pieces, hl', h1, h2, h3, h5,
        split_chain_pieces_match h2 (hbounds i hi).1 (hbounds i hi).2 h3⟩
    have hnodupB : ∀ (i : Nat) (l : interval_set), sB.targets[i]? = some l →
        (l.map Prod.fst).Nodup := by
      intro i l hl
      have hi : i < g.MAX_SYMBOL := by
        rw [← p3]; exact (List.getElem?_eq_some.1 hl).1
      obtain ⟨l', hl', hokl⟩ := heap_ok_partition pJ.1 hBo hi
      rw [hl] at hl'
      cases hl'
      exact partition_nodup hokl
    have hedgeB : ∀ i e, is_edge sB i e → i < g.MAX_SYMBOL := by
      intro i e ⟨l, hl, _⟩
      rw [← p3]
      exact (List.getElem?_eq_some.1 hl).1
    have hpre2 : ∀ i e, is_edge sB i e →
        (kidc i e.1).placed g e.2.tails ∧ (kidc i e.1).fits k ∧
          ∀ r, r ∈ (kidc i e.1).addrs → r ∉ N := by
      intro i e he
      have hi := hedgeB i e he
      obtain ⟨ln, pieces, h1, h2, h3, h4, h5, -⟩ := hQ i hi
      obtain ⟨l, hl, hel⟩ := he
      rw [h1] at hl
      cases hl
      obtain ⟨c, hc, rfl⟩ := List.mem_map.1 hel
      simp only
      rw [h5 c hc]
      have hrt := split_chain_roundtrip _ _ _ h4 (hpk i hi) (rep_root (hkids i _ (hedge i hi)))
      refine ⟨hrt.2 c hc, split_chain_fits _ _ _ k h4 (hpk i hi) (hfk i _ (hedge i hi)) c hc,
        fun r hr hrN => ?_⟩
      have hr' : r ∈ (kidc i (c.1.end_, c.1).1).addrs := by
        simp only
        rw [h5 c hc]
        exact hr
      rcases p7 i (c.1.end_, c.1) ⟨_, h1, hel⟩ r hr' with ⟨e0, he0, h⟩ | h
      · exact (hN r hrN).1 (Or.inr ⟨i, e0, he0, h⟩)
      · have := (hN r hrN).2
        omega
    have hlt1 : ∀ r, r ∈ (state_tree.node o sB kidc).addrs → r < B1.next := by
      intro r hr
      rcases hr with rfl | ⟨i, e, he, hr⟩
      · omega
      · rcases p7 i e he r hr with ⟨e0, he0, h⟩ | h
        · have := hlt r (Or.inr ⟨i, e0, he0, h⟩)
          omega
        · exact h.2
    -- the states below
    obtain ⟨B2, hB2, kid2, t1, t2, t3, -, t5, t6, t7, t8, t9, t10, tJ⟩ :=
      @traverse_kids g o sB kidc B1 (new_side_kept g A N)
        (fun _ e c => c.placed g e.2.tails ∧ c.fits k ∧ ∀ r, r ∈ c.addrs → r ∉ N)
        (fun i e c c' => pre_placed g c' e.2.tails ∧ tree_equiv c (flatten g c') ∧
          c'.fits k ∧
          (∀ en, en ∈ (sn.targets[i]?).getD [] → en.2.end_ = e.2.end_ →
            ∀ n', en.2.to_ = some n' → aligned g A c' n') ∧
          ∀ x, tree_count x c' = tree_count x c)
        (fun B i j => (nth_entry B o i j).bind (fun x =>
          (nth_entry B n i j).bind (fun y =>
            if x.2.end_ ≠ y.2.end_ ∨ x.2.begin ≠ y.2.begin then none
            else
              match x.2.to_, y.2.to_ with
              | some o', some n' => pre_split g k B o' n'
              | _, _ => some B)))
        p3 hnodupB
        (fun B i j l e c hJ hBo' hl hj hrc hPre hwc hoc hltc hAB => by
          have hi : i < g.MAX_SYMBOL := by
            rw [← p3]; exact (List.getElem?_eq_some.1 hl).1
          obtain ⟨ln, pieces, h1, h2, h3, h4, h5, h6⟩ := hQ i hi
          rw [hl] at h1
          cases h1
          have hBn : B.mem n = some sn := by rw [hJ.2 n hn, hsn]
          have hnthO := nth_entry_at hBo' hl hj
          rw [List.getElem?_map] at hj
          obtain ⟨c0, hc0, rfl⟩ := Option.map_eq_some'.1 hj
          obtain ⟨y, hy, hye, hyb⟩ := forall₂_getElem? h6 hc0
          have hnthN := nth_entry_at hBn h2 hy
          have hyin : y ∈ ln := mem_of_getElem?_some hy
          have hen : ∀ en, en ∈ (sn.targets[i]?).getD [] → en.2.end_ = c0.1.end_ →
              en = y := by
            intro en hen hend
            rw [h2] at hen
            exact ends_unique h3 hen hyin (by rw [hend, hye])
          simp only at hrc hPre ⊢
          have hstay : (c0.1.to_ = none ∨ y.2.to_ = none) →
              (match c0.1.to_, y.2.to_ with
                | some o', some n' => pre_split g k B o' n'
                | _, _ => some B) = some B →
              ∃ B' c', ((nth_entry B o i j).bind (fun x =>
                (nth_entry B n i j).bind (fun y =>
                  if x.2.end_ ≠ y.2.end_ ∨ x.2.begin ≠ y.2.begin then none
                  else
                    match x.2.to_, y.2.to_ with
                    | some o', some n' => pre_split g k B o' n'
                    | _, _ => some B))) = some B' ∧ rep B' c0.1.to_ c' ∧
                (pre_placed g c' c0.1.tails ∧ tree_equiv c (flatten g c') ∧ c'.fits k ∧
                  (∀ en, en ∈ (sn.targets[i]?).getD [] → en.2.end_ = c0.1.end_ →
                    ∀ n', en.2.to_ = some n' → aligned g A c' n') ∧
                  ∀ x, tree_count x c' = tree_count x c) ∧ c'.wf ∧
                (∀ r, r ∈ c'.addrs → r ∈ c.addrs ∨ (B.next ≤ r ∧ r < B'.next)) ∧
                (∀ r, r ∉ c.addrs → r < B.next → B'.mem r = B.mem r) ∧ B.next ≤ B'.next ∧
                B'.states = B.states ∧ B'.marker = B.marker ∧ B'.root = B.root ∧
                new_side_kept g A N B' := by
            intro hnone hm
            refine ⟨B, c, ?_, hrc, ⟨placed_pre_placed c B _ _ hrc hJ.1 hPre.1,
              flatten_placed_equiv c _ hPre.1, hPre.2.1, fun en hen' hend n' hn' => ?_,
              fun _ => rfl⟩, hwc,
              fun r hr => Or.inl hr, fun _ _ _ => rfl, le_refl _, rfl, rfl, rfl, hJ⟩
            · simp only [hnthO, hnthN, Option.some_bind, hye, hyb, ne_eq, not_true_eq_false,
                or_self, if_false]
              exact hm
            · rw [hen en hen' hend] at hn'
              rcases hnone with h | h
              · rw [h] at hrc
                rw [rep_null hrc]
                trivial
              · rw [h] at hn'
                cases hn'
          rcases Option.eq_none_or_eq_some c0.1.to_ with hto | ⟨o', hto⟩
          · exact hstay (Or.inl hto) (by rw [hto])
          rcases Option.eq_none_or_eq_some y.2.to_ with htn | ⟨n', htn⟩
          · exact hstay (Or.inr htn) (by rw [hto, htn])
          have hn'N : n' ∈ N := hsnN i y ⟨ln, h2, hyin⟩ n' htn
          rw [hto] at hrc
          obtain ⟨B', c', q1, q2, q3, q4, q5, q6, q7, q8, q9, q10, q11, q12, q13, q14, q15⟩ :=
            ih B o' n' c c0.1.tails hrc hwc hPre.1 hPre.2.1 hltc hJ.1 hn'N
              (closed_congr hcl hJ.2)
              (fun r hr => ⟨fun h => hPre.2.2 r h hr, by have := (hN r hr).2; omega⟩)
          have hJ' : new_side_kept g A N B' := by
            refine ⟨q8, fun n'' hn'' => ?_⟩
            rw [q10 n'' (fun h => hPre.2.2 n'' h hn'') (by have := (hN n'' hn'').2; omega)]
            exact hJ.2 n'' hn''
          refine ⟨B', c', ?_, by rw [hto]; exact q2,
            ⟨q4, q6, q5, fun en hen' hend n'' hn'' => ?_, q15⟩, q3, q9, q10,
            q11, q12, q13, q14, hJ'⟩
          · simp only [hnthO, hnthN, Option.some_bind, hye, hyb, ne_eq, not_true_eq_false,
              or_self, if_false, hto, htn]
            exact q1
          · rw [hen en hen' hend, htn] at hn''
            cases hn''
            exact aligned_congr (closed_congr hcl hJ'.2) (fun m hm => (hJ'.2 m hm).symm) c' n'
              hn'N q7)
        p1 p2 hpre2 hlt1 pJ
    have hpe : ∀ i, i < g.MAX_SYMBOL →
        piece_equiv (s.iv i, kid i g.MAX_TIME)
          (merge_pieces g (((sB.targets[i]?).getD []).map
            (fun e => (e.2, flatten g (kid2 i e.1))))) := by
      intro i hi
      obtain ⟨ln, pieces, h1, h2, h3, h4, h5, -⟩ := hQ i hi
      obtain ⟨r1, r2⟩ :=
        split_chain_roundtrip _ _ _ h4 (hpk i hi) (rep_root (hkids i _ (hedge i hi)))
      rw [h1]
      simp only [Option.getD_some, List.map_map]
      have hx : ∀ x, x ∈ pieces → piece_equiv x
          (((fun (e : Int × interval) => ((e.2, flatten g (kid2 i e.1)) : piece)) ∘
            (fun (c : piece) => (c.1.end_, c.1))) x) := by
        intro x hx
        refine ⟨interval_equiv_refl _, ?_⟩
        have := (t3 i (x.1.end_, x.1) ⟨_, h1, List.mem_map_of_mem _ hx⟩ trivial).2.1
        simp only at this
        rw [h5 x hx] at this
        exact this
      cases pieces with
      | nil => exact absurd rfl (split_chain_ne_nil h4)
      | cons c cs =>
        refine piece_equiv_trans r1 ?_
        rw [List.map_cons]
        exact merge_pieces_equiv cs c _ _ (hx c (List.mem_cons_self _ _))
          (List.forall₂_map_right_iff.2
            (List.forall₂_same.2 (fun x hx' => hx x (List.mem_cons_of_mem _ hx')))) r2
    refine ⟨B2, state_tree.node o sB kid2, ?_, t1, t2, ?_,
      ⟨k, rfl, fun i e he => (t3 i e he trivial).2.2.1⟩, ?_, ?_, tJ.1, ?_, ?_, by omega,
      by rw [t8, p10], by rw [t9, p11], by rw [t10, p12], ?_⟩
    · have e : pre_split g (k + 1) A o n =
          ((List.range g.MAX_SYMBOL).foldlM (fun (A : timed_automaton) (i : Nat) =>
            (nth_entry A o i 0).bind (fun x =>
              if x.1.key ≠ g.MAX_TIME then none
              else (A.mem n).bind (fun sn => (sn.get_intervals i).bind (fun ln =>
                (split_points g ln).foldlM (fun (A : timed_automaton) (e : Int) =>
                  split g (k + 1) A o i e) A)))) A).bind (fun A1 =>
          (List.range g.MAX_SYMBOL).foldlM (fun (A : timed_automaton) (i : Nat) =>
            (num_intervals A o i).bind (fun m =>
              (List.range m).foldlM (fun (A : timed_automaton) (j : Nat) =>
                (nth_entry A o i j).bind (fun x =>
                  (nth_entry A n i j).bind (fun y =>
                    if x.2.end_ ≠ y.2.end_ ∨ x.2.begin ≠ y.2.begin then none
                    else
                      match x.2.to_, y.2.to_ with
                      | some o', some n' => pre_split g k A o' n'
                      | _, _ => some A))) A)) A1) := rfl
      rw [e, hB1, Option.some_bind, hB2]
    · refine ⟨p3, fun i hi => heap_ok_partition tJ.1 t1.2.1 hi, hP1, fun x l hl => ?_,
        fun i e he => (t3 i e he trivial).1⟩
      have hx : x.get_symbol < g.MAX_SYMBOL := by
        rw [← p3]; exact (List.getElem?_eq_some.1 hl).1
      obtain ⟨ln, pieces, h1, h2, h3, h4, h5, -⟩ := hQ x.get_symbol hx
      rw [hl] at h1
      cases h1
      rw [split_chain_count _ _ _ h4 x]
      exact hP2 x
    · rw [flatten_node]
      refine ⟨_, _, rfl, ?_, ?_⟩
      · refine state_equiv_unsplit hu (flat_state_unsplit g _ _) p4.symm (fun i hi => ?_)
        rw [flat_state_iv g _ _ hi]
        exact (hpe i hi).1
      · intro i e he
        obtain ⟨hi, rfl⟩ := (timed_state.unsplit_is_edge hu).1 he
        exact (hpe i hi).2
    · refine ⟨sn, by rw [tJ.2 n hn, hsn], fun i hi => ?_⟩
      obtain ⟨ln, pieces, h1, h2, h3, h4, h5, h6⟩ := hQ i hi
      refine ⟨_, ln, h1, h2, ?_, fun j e en he hen n' hn' => ?_⟩
      · rw [List.map_map]
        exact forall₂_map_eq h6 (fun a b hab => by
          simp only [Function.comp]
          rw [hab.1, hab.2])
      have hedge' : is_edge sB i e := ⟨_, h1, mem_of_getElem?_some he⟩
      rw [List.getElem?_map] at he
      obtain ⟨c0, hc0, rfl⟩ := Option.map_eq_some'.1 he
      have hm := forall₂_getElem?_both h6 hc0 hen
      have hn'N : n' ∈ N := hsnN i en ⟨ln, h2, mem_of_getElem?_some hen⟩ n' hn'
      exact aligned_congr hcl tJ.2 _ n' hn'N
        ((t3 i _ hedge' trivial).2.2.2.1 en (by rw [h2]; exact mem_of_getElem?_some hen)
          hm.1.symm n' hn')
    · intro r hr
      rcases t5 r hr with h | h
      · rcases h with rfl | ⟨i, e, he, h⟩
        · exact Or.inl (Or.inl rfl)
        · rcases p7 i e he r h with ⟨e0, he0, h'⟩ | h'
          · exact Or.inl (Or.inr ⟨i, e0, he0, h'⟩)
          · exact Or.inr ⟨h'.1, by omega⟩
      · exact Or.inr ⟨by omega, h.2⟩
    · intro r hr hrA
      rw [t6 r (fun h => ?_) (by omega)]
      · exact p8 r hr hrA
      · rcases h with rfl | ⟨i, e, he, h⟩
        · exact hr (Or.inl rfl)
        · rcases p7 i e he r h with ⟨e0, he0, h'⟩ | h'
          · exact hr (Or.inr ⟨i, e0, he0, h'⟩)
          · omega
    · intro x
      rw [tree_count_node, p3, tree_count_unsplit hu]
      congr 1
      apply List.map_congr_left
      intro i hi'
      have hi := List.mem_range.1 hi'
      obtain ⟨ln, pieces, h1, h2, h3, h4, h5, -⟩ := hQ i hi
      rw [h1]
      simp only [Option.getD_some, List.map_map]
      rw [← split_chain_tree_count x _ _ _ h4 (hpk i hi)]
      congr 1
      apply List.map_congr_left
      intro c hc
      simp only [Function.comp]
      have := (t3 i (c.1.end_, c.1) ⟨_, h1, List.mem_map_of_mem _ hc⟩ trivial).2.2.2.2 x
      simp only at this
      rw [this, h5 c hc]

end RTI


namespace RTI

/-! ### Reading and writing the interval of a state -/

theorem lower_bound_rel {R : Int × interval → Int × interval → Prop}
    (hR : ∀ a b, R a b → a.1 = b.1) {l l' : interval_set} (h : List.Forall₂ R l l')
    (t : Int) :
    (lower_bound l t = none → lower_bound l' t = none) ∧
      ∀ e, lower_bound l t = some e → ∃ e', lower_bound l' t = some e' ∧ R e e' := by
  induction h with
  | nil => exact ⟨fun _ => rfl, fun e he => by simp [lower_bound] at he⟩
  | @cons a b as bs hab _ ih =>
    obtain ⟨k, i⟩ := a
    obtain ⟨k', i'⟩ := b
    have hk : k = k' := hR _ _ hab
    subst hk
    simp only [lower_bound]
    by_cases htk : t ≤ k
    · simp only [htk, if_true]
      refine ⟨fun h => ?_, fun e he => ?_⟩
      · cases h
      · cases he
        exact ⟨_, rfl, hab⟩
    · simp only [htk, if_false]
      exact ih

theorem getLast?_rel {α : Type} {R : α → α → Prop} {l l' : List α}
    (h : List.Forall₂ R l l') :
    ∀ e, l.getLast? = some e → ∃ e', l'.getLast? = some e' ∧ R e e' := by
  induction h with
  | nil => intro e he; simp at he
  | @cons a b as bs hab htl ih =>
    intro e he
    cases htl with
    | nil =>
      simp only [List.getLast?_singleton, Option.some.injEq] at he
      subst he
      exact ⟨b, List.getLast?_singleton _, hab⟩
    | cons hcd htl' =>
      rw [List.getLast?_cons_cons] at he ⊢
      exact ih e he

theorem find_interval_rel {R : Int × interval → Int × interval → Prop}
    (hR : ∀ a b, R a b → a.1 = b.1) {l l' : interval_set} (h : List.Forall₂ R l l')
    {t : Int} {e : Int × interval} (hf : find_interval l t = some e) :
    ∃ e', find_interval l' t = some e' ∧ R e e' := by
  unfold find_interval at hf ⊢
  have hlb := lower_bound_rel hR h t
  cases hl : lower_bound l t with
  | none =>
    rw [hl] at hf
    rw [hlb.1 hl]
    exact getLast?_rel h e hf
  | some x =>
    rw [hl] at hf
    cases hf
    obtain ⟨e', he', hr⟩ := hlb.2 _ hl
    rw [he']
    exact ⟨e', rfl, hr⟩

theorem find_interval_mem {l : interval_set} {t : Int} {e : Int × interval}
    (hf : find_interval l t = some e) : e ∈ l := by
  unfold find_interval at hf
  cases hl : lower_bound l t with
  | none =>
    rw [hl] at hf
    exact List.mem_of_getLast?_eq_some hf
  | some x =>
    rw [hl] at hf
    cases hf
    induction l with
    | nil => simp [lower_bound] at hl
    | cons y rest ih =>
      obtain ⟨k, i⟩ := y
      simp only [lower_bound] at hl
      split at hl
      · cases hl
        exact List.mem_cons_self _ _
      · exact List.mem_cons_of_mem _ (ih hl)

theorem update_interval_rel {l : interval_set} (k : Int) (f : interval → interval)
    (hnd : (l.map Prod.fst).Nodup) :
    List.Forall₂ (fun (a b : Int × interval) =>
      a.1 = b.1 ∧ (a.1 = k → b.2 = f a.2) ∧ (a.1 ≠ k → b.2 = a.2)) l
      (update_interval l k f) := by
  induction l with
  | nil => exact List.Forall₂.nil
  | cons x rest ih =>
    obtain ⟨k', i'⟩ := x
    rw [List.map_cons, List.nodup_cons] at hnd
    simp only [update_interval]
    by_cases hk : k' = k
    · simp only [hk, if_true]
      refine List.Forall₂.cons ⟨rfl, fun _ => rfl, fun h => absurd rfl h⟩
        (List.forall₂_same.2 (fun a ha => ⟨rfl, fun h => ?_, fun _ => rfl⟩))
      have hm : a.1 ∈ rest.map Prod.fst := List.mem_map_of_mem _ ha
      rw [h, ← hk] at hm
      exact absurd hm hnd.1
    · simp only [hk, if_false]
      exact List.Forall₂.cons ⟨rfl, fun h => absurd h hk, fun _ => rfl⟩ (ih hnd.2)

theorem find_interval_update {l : interval_set} {k : Int} {i : interval} {t : Int}
    (f : interval → interval) (hnd : (l.map Prod.fst).Nodup)
    (hf : find_interval l t = some (k, i)) :
    find_interval (update_interval l k f) t = some (k, f i) := by
  obtain ⟨e', he', h1, h2, -⟩ :=
    find_interval_rel (fun a b h => h.1) (update_interval_rel k f hnd) hf
  rw [he']
  congr 1
  exact Prod.ext h1.symm (h2 rfl)

theorem update_interval_twice {l : interval_set} {k : Int} {i : interval}
    (f f' : interval → interval) (hnd : (l.map Prod.fst).Nodup) (hm : (k, i) ∈ l)
    (hff : f' (f i) = i) : update_interval (update_interval l k f) k f' = l := by
  induction l with
  | nil => rfl
  | cons x rest ih =>
    obtain ⟨k', i'⟩ := x
    rw [List.map_cons, List.nodup_cons] at hnd
    by_cases hk : k' = k
    · subst hk
      rcases List.mem_cons.1 hm with h | h
      · cases h
        simp only [update_interval, if_true, hff]
      · exact absurd (List.mem_map_of_mem Prod.fst h) hnd.1
    · rcases List.mem_cons.1 hm with h | h
      · cases h
        exact absurd rfl hk
      · simp only [update_interval, hk, if_false, ih hnd.2 h]

theorem is_edge_update {s : timed_state} {symbol : Nat} {k : Int} {f : interval → interval}
    {i' : Nat} {e : Int × interval} (he : is_edge (s.update symbol k f) i' e) :
    is_edge s i' e ∨ (i' = symbol ∧ ∃ x, is_edge s symbol (k, x) ∧ e = (k, f x)) := by
  unfold timed_state.update at he
  cases hl : s.targets[symbol]? with
  | none =>
    rw [hl] at he
    exact Or.inl he
  | some l =>
    rw [hl] at he
    simp only at he
    have hs : symbol < s.targets.length := (List.getElem?_eq_some.1 hl).1
    have he' : is_edge (s.set_intervals symbol (update_interval l k f)) i' e := he
    rcases (is_edge_set hs i' e).1 he' with ⟨rfl, h⟩ | ⟨_, h⟩
    · rcases mem_update_interval h with h | ⟨x, hx, rfl⟩
      · exact Or.inl ⟨l, hl, h⟩
      · exact Or.inr ⟨rfl, x, ⟨l, hl, hx⟩, rfl⟩
    · exact Or.inl h

/-! ### `recurse_test_merge` returns -/

theorem recurse_test_merge_returns {g : globals} :
    ∀ (fuel : Nat) (A : timed_automaton) (t : state_tree) (po pn : Option Nat),
      rep A po t → t.fits fuel → (∀ n, pn = some n → matched g A t n) →
      ∃ r, recurse_test_merge g fuel A po pn = some r := by
  intro fuel
  induction fuel with
  | zero =>
    intro A t po pn hrep hfit _
    cases t with
    | null =>
      have : po = none := hrep
      subst this
      exact ⟨[], by simp [recurse_test_merge]⟩
    | node a s kid =>
      obtain ⟨k, hk, -⟩ := hfit
      omega
  | succ fuel ih =>
    intro A t po pn hrep hfit hm
    cases t with
    | null =>
      have : po = none := hrep
      subst this
      exact ⟨[], by simp [recurse_test_merge]⟩
    | node o s kid =>
      obtain ⟨rfl, hA, hkids⟩ := hrep
      cases pn with
      | none => exact ⟨[], by simp [recurse_test_merge]⟩
      | some n =>
        obtain ⟨k, hk, hfk⟩ := hfit
        have hk' : k = fuel := by omega
        subst hk'
        obtain ⟨sn, hsn, hmm⟩ := hm n rfl
        simp only [recurse_test_merge, hA, hsn, Option.some_bind]
        have hsym : ∀ (acc : List (state_statistics × state_statistics)) (i : Nat),
            i < g.MAX_SYMBOL → ∃ r,
              test_merge_symbol g (recurse_test_merge g k A) A o n acc i = some r := by
          intro acc i hi
          obtain ⟨l, ln, q1, q2, q3, q4⟩ := hmm i hi
          unfold test_merge_symbol
          rw [num_intervals_at hA q1, Option.some_bind]
          obtain ⟨r, hr, -⟩ := foldlM_range_inv
            (test_merge_interval g (recurse_test_merge g k A) A o n i)
            (fun _ _ => True) l.length acc trivial
            (fun j acc' hj _ => by
              have hj' : j < ln.length := by omega
              have he : l[j]? = some l[j] := List.getElem?_eq_getElem hj
              have hen : ln[j]? = some ln[j] := List.getElem?_eq_getElem hj'
              unfold test_merge_interval
              rw [nth_entry_at hA q1 he, nth_entry_at hsn q2 hen]
              simp only [Option.some_bind]
              split
              · exact ⟨_, rfl, trivial⟩
              · obtain ⟨r, hr⟩ := ih A (kid i l[j].1) l[j].2.to_ ln[j].2.to_
                  (hkids i _ ⟨l, q1, List.getElem_mem _⟩) (hfk i _ ⟨l, q1, List.getElem_mem _⟩)
                  (fun n' hn' => q4 j _ _ he hen n' hn')
                rw [hr]
                exact ⟨_, rfl, trivial⟩)
          exact ⟨r, hr⟩
        obtain ⟨r, hr, -⟩ := foldlM_range_inv
          (test_merge_symbol g (recurse_test_merge g k A) A o n) (fun _ _ => True)
          g.MAX_SYMBOL [(s.stat, sn.stat)] trivial
          (fun i acc hi _ => by
            obtain ⟨r, hr⟩ := hsym acc i hi
            exact ⟨r, hr, trivial⟩)
        exact ⟨r, hr⟩

end RTI


namespace RTI

/-! ### `test_point` on the heap -/

theorem set_to_twice (i : interval) (n : Option Nat) (o : Option Nat) (h : i.to_ = o) :
    { ({ i with to_ := n } : interval) with to_ := o } = i := by
  cases i
  simp only at h
  subst h
  rfl

theorem forall₂_of_mem_right {α β : Type} {R : α → β → Prop} {l : List α} {l' : List β}
    (h : List.Forall₂ R l l') {y : β} (hy : y ∈ l') : ∃ x, x ∈ l ∧ R x y := by
  induction h with
  | nil => cases hy
  | @cons a b as bs hab _ ih =>
    rcases List.mem_cons.1 hy with rfl | hy
    · exact ⟨a, List.mem_cons_self _ _, hab⟩
    · obtain ⟨x, hx, hr⟩ := ih hy
      exact ⟨x, List.mem_cons_of_mem _ hx, hr⟩

theorem is_edge_redirect {s : timed_state} {symbol : Nat} {l : interval_set} {k : Int}
    {f : interval → interval} (hl : s.targets[symbol]? = some l)
    (hnd : (l.map Prod.fst).Nodup) {i' : Nat} {e : Int × interval}
    (he : is_edge (s.set_intervals symbol (update_interval l k f)) i' e) :
    (is_edge s i' e ∧ (i', e.1) ≠ (symbol, k)) ∨ (i' = symbol ∧ e.1 = k ∧ ∃ x, e.2 = f x) := by
  have hs : symbol < s.targets.length := (List.getElem?_eq_some.1 hl).1
  rcases (is_edge_set hs i' e).1 he with ⟨rfl, h⟩ | ⟨hne, h⟩
  · obtain ⟨a, ha, h1, h2, h3⟩ := forall₂_of_mem_right (update_interval_rel k f hnd) h
    by_cases hk : a.1 = k
    · exact Or.inr ⟨rfl, by rw [← h1, hk], a.2, h2 hk⟩
    · have hae : a = e := Prod.ext h1 (h3 hk).symm
      refine Or.inl ⟨⟨l, hl, hae ▸ ha⟩, fun h => hk ?_⟩
      rw [h1]
      exact (Prod.mk.inj h).2
  · exact Or.inl ⟨h, fun h' => hne (Prod.mk.inj h').1⟩

theorem test_point_spec {g : globals} (P : p_values) {fuel : Nat} {A : timed_automaton}
    {p symbol : Nat} {time : Int} {s : timed_state} {l : interval_set} {k : Int}
    {i : interval} {o n : Nat} {t : state_tree} {N : Set Nat}
    (hp : A.mem p = some s) (hl : s.targets[symbol]? = some l)
    (hf : find_interval l time = some (k, i)) (hto : i.to_ = some o) (hok : heap_ok g A)
    (hrep : rep A (some o) t) (hwf : t.wf) (hpl : t.placed g i.tails) (hfit : t.fits fuel)
    (hpt : p ∉ t.addrs) (hlt : ∀ r, r ∈ t.addrs → r < A.next) (hpn : p < A.next)
    (hn : n ∈ N) (hN : ∀ r, r ∈ N → r ∉ t.addrs ∧ r < A.next)
    (hcl : ∀ r, r ∈ N → ∃ sr, A.mem r = some sr ∧
      ∀ i' e, is_edge sr i' e → (r, i', e.1) ≠ (p, symbol, k) →
        ∀ n', e.2.to_ = some n' → n' ∈ N) :
    ∃ (A4 : timed_automaton) (r : List (state_statistics × state_statistics))
      (t' : state_tree),
      test_point g P fuel A p symbol time (some n) = some (A4, point_score g P r) ∧
      A4.mem p = A.mem p ∧ rep A4 (some o) t' ∧ tree_equiv t t' ∧
      (∀ x, x < A.next → x ∉ t.addrs → A4.mem x = A.mem x) ∧ A.next ≤ A4.next ∧
      A4.states = A.states ∧ A4.marker = A.marker ∧ A4.root = A.root := by
  have hsym : symbol < s.targets.length := (List.getElem?_eq_some.1 hl).1
  have hlok : partition_ok g l := (hok p s hp).2 l (mem_of_getElem?_some hl)
  have hnd := partition_nodup hlok
  have hmem : (k, i) ∈ l := find_interval_mem hf
  have hot : o ∈ t.addrs := by
    obtain ⟨s0, kid0, rfl, -, -⟩ := rep_some hrep
    exact Or.inl rfl
  have hon : o ≠ n := fun h => (hN n hn).1 (h ▸ hot)
  have hat : A.interval_at (some p) symbol time = some (⟨p, symbol, k⟩, i) := by
    simp [timed_automaton.interval_at, hp, timed_state.find, timed_state.get_intervals, hl, hf]
  -- the interval points to the candidate
  have hs1 : s.update symbol k (fun x => { x with to_ := some n }) =
      s.set_intervals symbol (update_interval l k (fun x => { x with to_ := some n })) := by
    have := timed_state.set_intervals_update s l hsym k (fun x => { x with to_ := some n })
    rw [timed_state.set_intervals_self s hl] at this
    exact this
  have hw : A.write ⟨p, symbol, k⟩ (fun x => { x with to_ := some n }) =
      some (A.store p (s.set_intervals symbol
        (update_interval l k (fun x => { x with to_ := some n })))) := by
    rw [write_eq hp, hs1]
  have hok1 := heap_ok_write hok hw (fun _ => rfl) (fun _ => rfl)
  have hne : ∀ r, r ∈ t.addrs → r ≠ p := fun r hr h => hpt (h ▸ hr)
  have hrep1 : rep (A.store p (s.set_intervals symbol
      (update_interval l k (fun x => { x with to_ := some n })))) (some o) t :=
    rep_frame hrep (fun r hr => by rw [timed_automaton.store_mem, if_neg (hne r hr)])
  have hcl1 : closed (A.store p (s.set_intervals symbol
      (update_interval l k (fun x => { x with to_ := some n })))) N := by
    intro r hr
    obtain ⟨sr, hsr, hedges⟩ := hcl r hr
    by_cases hrp : r = p
    · subst hrp
      rw [hp] at hsr
      cases hsr
      refine ⟨_, mem_store_self _ _ _, fun i' e he n' hn' => ?_⟩
      rcases is_edge_redirect hl hnd he with ⟨h1, h2⟩ | ⟨-, -, x, hx⟩
      · exact hedges i' e h1 (fun h => h2 (by
          have := Prod.mk.inj h
          exact this.2)) n' hn'
      · rw [hx] at hn'
        cases hn'
        exact hn
    · refine ⟨sr, by rw [timed_automaton.store_mem, if_neg hrp]; exact hsr,
        fun i' e he n' hn' => hedges i' e he (fun h => hrp (Prod.mk.inj h).1) n' hn'⟩
  obtain ⟨A2, t2, q1, q2, q3, q4, q5, q6, q7, q8, q9, q10, q11, q12, q13, q14, -⟩ :=
    pre_split_spec fuel _ o n t i.tails hrep1 hwf hpl hfit hlt hok1 hn hcl1 hN
  simp only [timed_automaton.store_next] at q9 q10 q11
  obtain ⟨r, hr⟩ := recurse_test_merge_returns fuel A2 t2 (some o) (some n) q2 q5
    (fun n' h => by cases h; exact aligned_matched _ _ q7)
  have hlt2 : ∀ x, x ∈ t2.addrs → x < A2.next := by
    intro x hx
    rcases q9 x hx with h | h
    · have := hlt x h; omega
    · exact h.2
  have hpt2 : p ∉ t2.addrs := by
    intro h
    rcases q9 p h with h | h
    · exact hpt h
    · omega
  obtain ⟨A3, u1, u2, u3, u4, u5, u6, u7⟩ :=
    un_pre_split_spec fuel A2 o t2 i.tails q2 q3 q4 q5 hlt2
  have hfo := flatten_ok t2 i.tails fuel q4 q3 q5
  have h3p : A3.mem p = some (s.set_intervals symbol
      (update_interval l k (fun x => { x with to_ := some n }))) := by
    rw [u3 p hpt2, q10 p hpt hpn, mem_store_self]
  have hat3 := interval_at_set h3p hsym
    (find_interval_update (fun x => { x with to_ := some n }) hnd hf)
  have hw3 := write_set h3p hsym k (fun x => { x with to_ := some o })
  rw [update_interval_twice _ _ hnd hmem (set_to_twice i (some n) (some o) hto),
    timed_state.set_intervals_self s hl] at hw3
  refine ⟨A3.store p s, r, flatten g t2, ?_, by rw [mem_store_self, hp], ?_, q6, ?_, ?_, ?_,
    ?_, ?_⟩
  · simp only [test_point, hat, Option.some_bind, interval.get_target, hto,
      Option.some.injEq, hon, if_false, hw, q1, hr, u1, hat3, hw3, Option.map_some']
  · refine rep_frame u2 (fun x hx => ?_)
    have hxp : x ≠ p := fun h => hpt2 (h ▸ hfo.2.2.2 x hx)
    rw [timed_automaton.store_mem, if_neg hxp]
  · intro x hx hxt
    by_cases hxp : x = p
    · rw [hxp, mem_store_self, hp]
    · have hxt2 : x ∉ t2.addrs := by
        intro h
        rcases q9 x h with h | h
        · exact hxt h
        · omega
      rw [timed_automaton.store_mem, if_neg hxp, u3 x hxt2, q10 x hxt hx,
        timed_automaton.store_mem, if_neg hxp]
  · simp only [timed_automaton.store_next]
    omega
  · simp only [timed_automaton.store_states, u5, q12]
  · simp only [timed_automaton.store_marker, u6, q13]
  · show A3.root = A.root
    rw [u7, q14]
    rfl

end RTI


namespace RTI

/-! ### C3: `test_point` restores the automaton -/

theorem example_tree_heap_ok : heap_ok example_globals example_tree := by
  intro r s hr
  have h3 : example_tree.mem r =
      if r = 0 then some example_root
      else if r = 1 then some example_child
      else if r = 2 then some (timed_state.new example_globals)
      else none := rfl
  rw [h3] at hr
  split at hr
  · cases hr
    exact ⟨rfl, by decide⟩
  split at hr
  · cases hr
    exact ⟨rfl, by decide⟩
  split at hr
  · cases hr
    exact ⟨rfl, by decide⟩
  · cases hr

theorem example_tree_addrs_lt : ∀ r, r ∈ example_state_tree.addrs → r < example_tree.next := by
  intro r h
  have h3 : example_tree.next = 3 := rfl
  rcases (mem_addrs_unsplit example_child_unsplit).1 h with h | ⟨_, _, h⟩
  · omega
  · rcases (mem_addrs_unsplit (timed_state.new_unsplit example_globals)).1 h with h | ⟨_, _, h⟩
    · omega
    · cases h

theorem example_root_edge {i' : Nat} {e : Int × interval} (h : is_edge example_root i' e) :
    i' = 0 ∧ e.1 = 10 := by
  obtain ⟨l, hl, he⟩ := h
  have ht : example_root.targets = [[(10, { interval.new 0 10 with
      tails := [⟨0, 0, [(0, 1), (0, 3), (2, 4)]⟩, ⟨1, 0, [(0, 5), (0, 2), (2, 7)]⟩]
      to_ := some 1 })]] := rfl
  rw [ht] at hl
  cases i' with
  | zero =>
    simp only [List.getElem?_cons_zero, Option.some.injEq] at hl
    subst hl
    rw [List.mem_singleton] at he
    subst he
    exact ⟨rfl, rfl⟩
  | succ j => simp at hl

/-- C3: in a heap whose partitions are covers, let the interval of the state `p` for
`symbol` that contains `time` point to the root `o` of a prefix tree `t` (unsplit states,
every non-empty interval has a target that holds the successors of its tails), and let the
candidate `n` lie in a set `N` of states apart from the tree that is closed under the targets
of all intervals but the one of `p`. Then `test_point` returns, the interval is as before
(in particular its target is `o` again), every state of `N` is as before, the tree below `o`
is the tree `t` up to the order of the tails, and so is every state of the heap. -/
theorem test_point_restores (g : globals) (P : p_values) (fuel : Nat) (A : timed_automaton)
    (p symbol : Nat) (time : Int) (s : timed_state) (l : interval_set) (k : Int)
    (i : interval) (o n : Nat) (t : state_tree) (N : Set Nat)
    (hp : A.mem p = some s) (hl : s.targets[symbol]? = some l)
    (hf : find_interval l time = some (k, i)) (hto : i.to_ = some o) (hok : heap_ok g A)
    (hrep : rep A (some o) t) (hwf : t.wf) (hpl : t.placed g i.tails) (hfit : t.fits fuel)
    (hpt : p ∉ t.addrs) (hlt : ∀ r, r ∈ t.addrs → r < A.next) (hpn : p < A.next)
    (hn : n ∈ N) (hN : ∀ r, r ∈ N → r ∉ t.addrs ∧ r < A.next)
    (hcl : ∀ r, r ∈ N → ∃ sr, A.mem r = some sr ∧
      ∀ i' e, is_edge sr i' e → (r, i', e.1) ≠ (p, symbol, k) →
        ∀ n', e.2.to_ = some n' → n' ∈ N) :
    ∃ (A4 : timed_automaton) (score : ℚ),
      test_point g P fuel A p symbol time (some n) = some (A4, score) ∧
      A4.interval_at (some p) symbol time = some (⟨p, symbol, k⟩, i) ∧
      (∀ x, x ∈ N → A4.mem x = A.mem x) ∧
      (∃ t', rep A4 (some o) t' ∧ tree_equiv t t') ∧
      (∀ x, x < A.next → x ∉ t.addrs → A4.mem x = A.mem x) ∧
      restored A A4 := by
  obtain ⟨A4, r, t', h1, h2, h3, h4, h5, h6, h7, h8, h9⟩ :=
    test_point_spec P hp hl hf hto hok hrep hwf hpl hfit hpt hlt hpn hn hN hcl
  refine ⟨A4, _, h1, ?_, fun x hx => h5 x (hN x hx).2 (hN x hx).1, ⟨t', h3, h4⟩, h5,
    fun x hx => ?_, h7, h8, h9⟩
  · simp [timed_automaton.interval_at, h2, hp, timed_state.find, timed_state.get_intervals,
      hl, hf]
  · by_cases hxt : x ∈ t.addrs
    · exact rep_equiv_cells hrep h3 h4 hxt
    · rw [h5 x hx hxt]
      exact cell_equiv_refl _

/-- The witness of C3: in the prefix tree of the words `(0, 1) (0, 3)` and `(0, 5) (0, 2)`
the merge of the state below the root with the root is tested. -/
theorem test_point_restores_witness :
    ∃ (A4 : timed_automaton) (score : ℚ),
      test_point example_globals example_p_values 2 example_tree 0 0 10 (some 0)
        = some (A4, score) ∧
      A4.interval_at (some 0) 0 10 = some (⟨0, 0, 10⟩, { interval.new 0 10 with
        tails := [⟨0, 0, [(0, 1), (0, 3), (2, 4)]⟩, ⟨1, 0, [(0, 5), (0, 2), (2, 7)]⟩]
        to_ := some 1 }) ∧
      (∀ x, x ∈ ({0} : Set Nat) → A4.mem x = example_tree.mem x) ∧
      (∃ t', rep A4 (some 1) t' ∧ tree_equiv example_state_tree t') ∧
      (∀ x, x < example_tree.next → x ∉ example_state_tree.addrs →
        A4.mem x = example_tree.mem x) ∧
      restored example_tree A4 :=
  test_point_restores example_globals example_p_values 2 example_tree 0 0 10 example_root
    [(10, { interval.new 0 10 with
      tails := [⟨0, 0, [(0, 1), (0, 3), (2, 4)]⟩, ⟨1, 0, [(0, 5), (0, 2), (2, 7)]⟩]
      to_ := some 1 })] 10
    { interval.new 0 10 with
      tails := [⟨0, 0, [(0, 1), (0, 3), (2, 4)]⟩, ⟨1, 0, [(0, 5), (0, 2), (2, 7)]⟩]
      to_ := some 1 } 1 0 example_state_tree {0}
    rfl rfl (by decide) rfl example_tree_heap_ok example_tree_rep example_tree_wf
    example_tree_placed example_tree_fits example_tree_root_not_mem example_tree_addrs_lt
    (by decide) rfl
    (fun r hr => by
      rw [Set.mem_singleton_iff.1 hr]
      exact ⟨example_tree_root_not_mem, by decide⟩)
    (fun r hr => by
      rw [Set.mem_singleton_iff.1 hr]
      refine ⟨example_root, rfl, fun i' e he hne => ?_⟩
      obtain ⟨h1, h2⟩ := example_root_edge he
      exact absurd (by rw [h1, h2]) hne)

end RTI


namespace RTI

/-! ### The steps of the engine keep the covers, the colored states and the root -/

theorem kept_refl (g : globals) (A : timed_automaton) : kept g A A := ⟨id, rfl, rfl⟩

theorem kept_trans {g : globals} {A B C : timed_automaton} (h1 : kept g A B)
    (h2 : kept g B C) : kept g A C :=
  ⟨fun h => h2.1 (h1.1 h), by rw [h2.2.1, h1.2.1], by rw [h2.2.2, h1.2.2]⟩

theorem foldlM_kept {g : globals} {β : Type} {f : timed_automaton → β → Option timed_automaton}
    (hf : ∀ a x c, f a x = some c → kept g a c) (l : List β) {A B : timed_automaton}
    (h : l.foldlM f A = some B) : kept g A B :=
  foldlM_inv f (kept g A) l A B (kept_refl g A)
    (fun a x c _ ha hc => kept_trans ha (hf a x c hc)) h

theorem write_kept {g : globals} {A B : timed_automaton} {r : interval_ptr}
    {f : interval → interval} (hw : A.write r f = some B) (hb : ∀ i, (f i).begin = i.begin)
    (he : ∀ i, (f i).end_ = i.end_) : kept g A B := by
  refine ⟨fun h => heap_ok_write h hw hb he, ?_⟩
  unfold timed_automaton.write at hw
  obtain ⟨s, -, hB⟩ := Option.map_eq_some'.1 hw
  rw [← hB]
  exact ⟨rfl, rfl⟩

theorem update_stat_kept {g : globals} {A B : timed_automaton} {p : Option Nat}
    {f : state_statistics → state_statistics} (hw : A.update_stat p f = some B) :
    kept g A B := by
  refine ⟨fun h => heap_ok_update_stat h hw, ?_⟩
  unfold timed_automaton.update_stat at hw
  cases p with
  | none => cases hw
  | some q =>
    obtain ⟨s, -, hB⟩ := Option.map_eq_some'.1 hw
    rw [← hB]
    exact ⟨rfl, rfl⟩

theorem add_tail_kept {g : globals} {A B : timed_automaton} {p : Option Nat}
    {tail : timed_tail} (hw : A.add_tail g p tail = some B) : kept g A B := by
  refine ⟨fun h => heap_ok_add_tail h hw, ?_⟩
  unfold timed_automaton.add_tail at hw
  cases p with
  | none => cases hw
  | some q =>
    obtain ⟨s, -, hB⟩ := Option.map_eq_some'.1 hw
    rw [← hB]
    exact ⟨rfl, rfl⟩

theorem del_tail_kept {g : globals} {A B : timed_automaton} {p : Option Nat}
    {tail : timed_tail} (hw : A.del_tail g p tail = some B) : kept g A B := by
  refine ⟨fun h => heap_ok_del_tail h hw, ?_⟩
  unfold timed_automaton.del_tail at hw
  cases p with
  | none => cases hw
  | some q =>
    obtain ⟨s, -, hB⟩ := Option.map_eq_some'.1 hw
    rw [← hB]
    exact ⟨rfl, rfl⟩

theorem alloc_kept (g : globals) (A : timed_automaton) : kept g A (A.alloc g).2 :=
  ⟨heap_ok_alloc, rfl, rfl⟩

theorem free_kept (g : globals) (A : timed_automaton) (p : Option Nat) :
    kept g A (A.free p) := by
  cases p with
  | none => exact kept_refl g A
  | some q =>
    refine ⟨fun h r s hr => ?_, rfl, rfl⟩
    simp only [timed_automaton.free] at hr
    split at hr
    · cases hr
    · exact h r s hr

theorem marker_kept (g : globals) (A : timed_automaton) (m : timed_tail → Bool) :
    kept g A { A with marker := m } :=
  ⟨fun h r s hr => h r s hr, rfl, rfl⟩

/-! #### `split` -/

theorem move_next_tails_kept {g : globals} {o n : Option Nat} (X : List timed_tail) :
    ∀ {A B : timed_automaton}, move_next_tails g o n A X = some B → kept g A B := by
  induction X with
  | nil =>
    intro A B hw
    simp only [move_next_tails, Option.some.injEq] at hw
    rw [← hw]; exact kept_refl g A
  | cons x X ih =>
    intro A B hw
    simp only [move_next_tails] at hw
    split at hw
    · exact ih hw
    · obtain ⟨A1, h1, hw⟩ := Option.bind_eq_some.1 hw
      obtain ⟨A2, h2, hw⟩ := Option.bind_eq_some.1 hw
      exact kept_trans (kept_trans (del_tail_kept h1) (add_tail_kept h2)) (ih hw)

theorem split_symbol_kept {g : globals}
    {recurse : timed_automaton → interval_ptr → Option Nat → Option timed_automaton}
    (hrec : ∀ A B ptr o, recurse A ptr o = some B → kept g A B)
    {n o : Option Nat} {A B : timed_automaton} {i : Nat}
    (hw : split_symbol g recurse n o A i = some B) : kept g A B := by
  unfold split_symbol at hw
  obtain ⟨⟨ptr, nni⟩, -, hw⟩ := Option.bind_eq_some.1 hw
  simp only at hw
  split at hw
  · obtain ⟨⟨ptr2, noi⟩, -, hw⟩ := Option.bind_eq_some.1 hw
    simp only at hw
    split at hw
    · obtain ⟨A3, h3, hw⟩ := Option.bind_eq_some.1 hw
      exact kept_trans (kept_trans (alloc_kept g A)
        (write_kept h3 (fun _ => rfl) (fun _ => rfl))) (hrec _ _ _ _ hw)
    · obtain ⟨A2, h2, hw⟩ := Option.bind_eq_some.1 hw
      exact kept_trans (write_kept h2 (fun _ => rfl) (fun _ => rfl))
        (write_kept hw (fun _ => rfl) (fun _ => rfl))
  · simp only [Option.some.injEq] at hw
    rw [← hw]; exact kept_refl g A

theorem recurse_split_kept {g : globals} (fuel : Nat) :
    ∀ (A B : timed_automaton) (ptr : interval_ptr) (o : Option Nat),
      recurse_split g fuel A ptr o = some B → kept g A B := by
  induction fuel with
  | zero => intro A B ptr o hw; cases hw
  | succ fuel ih =>
    intro A B ptr o hw
    simp only [recurse_split] at hw
    obtain ⟨ni, -, hw⟩ := Option.bind_eq_some.1 hw
    obtain ⟨A1, h1, hw⟩ := Option.bind_eq_some.1 hw
    exact kept_trans (move_next_tails_kept _ h1)
      (foldlM_kept (fun a x c hc => split_symbol_kept ih hc) _ hw)

theorem split_kept {g : globals} {fuel : Nat} {A B : timed_automaton} {p symbol : Nat}
    {time : Int} (hw : split g fuel A p symbol time = some B) : kept g A B := by
  refine ⟨fun h => heap_ok_split h hw, ?_⟩
  unfold split at hw
  obtain ⟨⟨in_, i0⟩, -, hw⟩ := Option.bind_eq_some.1 hw
  obtain ⟨s, hs, hw⟩ := Option.bind_eq_some.1 hw
  obtain ⟨l, hl, hw⟩ := Option.bind_eq_some.1 hw
  obtain ⟨l', hl', hw⟩ := Option.bind_eq_some.1 hw
  simp only at hw
  obtain ⟨⟨new_in, ni⟩, -, hw⟩ := Option.bind_eq_some.1 hw
  simp only at hw
  split at hw
  · cases hw
  obtain ⟨i, -, hw⟩ := Option.bind_eq_some.1 hw
  split at hw
  · split at hw
    · obtain ⟨A3, h3, hw⟩ := Option.bind_eq_some.1 hw
      have k1 := @write_kept g _ _ _ _ h3 (fun _ => rfl) (fun _ => rfl)
      have k2 := recurse_split_kept fuel _ _ _ _ hw
      exact ⟨by rw [k2.2.1, k1.2.1]; rfl, by rw [k2.2.2, k1.2.2]; rfl⟩
    · obtain ⟨A2, h2, hw⟩ := Option.bind_eq_some.1 hw
      have k1 := @write_kept g _ _ _ _ h2 (fun _ => rfl) (fun _ => rfl)
      have k2 := @write_kept g _ _ _ _ hw (fun _ => rfl) (fun _ => rfl)
      exact ⟨by rw [k2.2.1, k1.2.1]; rfl, by rw [k2.2.2, k1.2.2]; rfl⟩
  · simp only [Option.some.injEq] at hw
    rw [← hw]
    exact ⟨rfl, rfl⟩

/-! #### `undo_split` -/

theorem move_counts_kept {g : globals} {o n : Option Nat} (X : List timed_tail) :
    ∀ {A B : timed_automaton}, move_counts g o n A X = some B → kept g A B := by
  induction X with
  | nil =>
    intro A B hw
    simp only [move_counts, Option.some.injEq] at hw
    rw [← hw]; exact kept_refl g A
  | cons x X ih =>
    intro A B hw
    simp only [move_counts] at hw
    obtain ⟨A1, h1, hw⟩ := Option.bind_eq_some.1 hw
    obtain ⟨A2, h2, hw⟩ := Option.bind_eq_some.1 hw
    exact kept_trans (kept_trans (update_stat_kept h1) (update_stat_kept h2)) (ih hw)

theorem un_split_symbol_kept {g : globals}
    {recurse : timed_automaton → interval_ptr → Option Nat → Option timed_automaton}
    (hrec : ∀ A B ptr o, recurse A ptr o = some B → kept g A B)
    {n o : Option Nat} {A B : timed_automaton} {i : Nat}
    (hw : un_split_symbol g recurse n o A i = some B) : kept g A B := by
  unfold un_split_symbol at hw
  obtain ⟨⟨ptr, nni⟩, -, hw⟩ := Option.bind_eq_some.1 hw
  simp only at hw
  split at hw
  · obtain ⟨⟨ptr2, noi⟩, -, hw⟩ := Option.bind_eq_some.1 hw
    simp only at hw
    split at hw
    · obtain ⟨A1, h1, hw⟩ := Option.bind_eq_some.1 hw
      obtain ⟨x, -, hB⟩ := Option.map_eq_some'.1 hw
      rw [← hB]
      exact kept_trans (hrec _ _ _ _ h1) (free_kept g A1 x.to_)
    · obtain ⟨A1, h1, hw⟩ := Option.bind_eq_some.1 hw
      exact kept_trans (write_kept h1 (fun _ => rfl) (fun _ => rfl))
        (write_kept hw (fun _ => rfl) (fun _ => rfl))
  · simp only [Option.some.injEq] at hw
    rw [← hw]; exact kept_refl g A

theorem move_back_symbol_kept {g : globals} {n o : Option Nat} {A B : timed_automaton}
    {i : Nat} (hw : move_back_symbol g n o A i = some B) : kept g A B := by
  unfold move_back_symbol at hw
  obtain ⟨⟨ptr, nni⟩, -, hw⟩ := Option.bind_eq_some.1 hw
  obtain ⟨⟨ptr2, noi⟩, -, hw⟩ := Option.bind_eq_some.1 hw
  obtain ⟨A2, h2, hw⟩ := Option.bind_eq_some.1 hw
  exact kept_trans (write_kept h2 (fun _ => rfl) (fun _ => rfl)) (move_counts_kept _ hw)

theorem recurse_un_split_kept {g : globals} (fuel : Nat) :
    ∀ (A B : timed_automaton) (ptr : interval_ptr) (o : Option Nat),
      recurse_un_split g fuel A ptr o = some B → kept g A B := by
  induction fuel with
  | zero => intro A B ptr o hw; cases hw
  | succ fuel ih =>
    intro A B ptr o hw
    simp only [recurse_un_split] at hw
    obtain ⟨ni, -, hw⟩ := Option.bind_eq_some.1 hw
    obtain ⟨A1, h1, hw⟩ := Option.bind_eq_some.1 hw
    exact kept_trans (foldlM_kept (fun a x c hc => un_split_symbol_kept ih hc) _ h1)
      (foldlM_kept (fun a x c hc => move_back_symbol_kept hc) _ hw)

theorem tail_cover_undo_split_set {pe hi t : Int} {s s' : interval_set}
    (h : tail_cover pe s hi) (hsp : undo_split_set s t = some s') : tail_cover pe s' hi := by
  induction s generalizing pe s' with
  | nil => simp [undo_split_set] at hsp
  | cons x rest ih =>
    cases rest with
    | nil => simp [undo_split_set] at hsp
    | cons y rest =>
      obtain ⟨k, old⟩ := x
      obtain ⟨k2, i⟩ := y
      obtain ⟨h1, h2, h3, h4, h5, h6, h7⟩ := h
      rw [undo_split_set] at hsp
      by_cases hk : k = t
      · simp only [hk, if_true, Option.some.injEq] at hsp
        rw [← hsp]
        exact ⟨h1, h5, by simp only; omega, h7⟩
      · simp only [hk, if_false] at hsp
        obtain ⟨r, hr, hs'⟩ := Option.map_eq_some'.1 hsp
        rw [← hs']
        exact ⟨h1, h2, h3, ih ⟨h4, h5, h6, h7⟩ hr⟩

theorem partition_ok_undo_split_set {g : globals} {t : Int} {s s' : interval_set}
    (h : partition_ok g s) (hsp : undo_split_set s t = some s') : partition_ok g s' := by
  cases s with
  | nil => simp [undo_split_set] at hsp
  | cons x rest =>
    cases rest with
    | nil => simp [undo_split_set] at hsp
    | cons y rest =>
      obtain ⟨k, old⟩ := x
      obtain ⟨k2, i⟩ := y
      obtain ⟨h1, h2, h3, h4, h5, h6, h7⟩ := h
      have h3' := h3 (by simp)
      rw [undo_split_set] at hsp
      by_cases hk : k = t
      · simp only [hk, if_true, Option.some.injEq] at hsp
        rw [← hsp]
        exact ⟨h1, h5, fun _ => by simp only; omega, h7⟩
      · simp only [hk, if_false] at hsp
        obtain ⟨r, hr, hs'⟩ := Option.map_eq_some'.1 hsp
        rw [← hs']
        have htc0 : tail_cover old.end_ ((k2, i) :: rest) g.MAX_TIME := ⟨h4, h5, h6, h7⟩
        have htc := tail_cover_undo_split_set htc0 hr
        exact ⟨h1, h2, fun _ => h3', htc⟩

theorem undo_split_kept {g : globals} {fuel : Nat} {A B : timed_automaton} {p symbol : Nat}
    {time : Int} (hw : undo_split g fuel A p symbol time = some B) : kept g A B := by
  unfold undo_split at hw
  obtain ⟨⟨in_, i⟩, -, hw⟩ := Option.bind_eq_some.1 hw
  obtain ⟨⟨new_in, ni⟩, -, hw⟩ := Option.bind_eq_some.1 hw
  obtain ⟨A2, h2, hw⟩ := Option.bind_eq_some.1 hw
  obtain ⟨s, hs, hw⟩ := Option.bind_eq_some.1 hw
  obtain ⟨l, hl, hw⟩ := Option.bind_eq_some.1 hw
  obtain ⟨l', hl', hB⟩ := Option.map_eq_some'.1 hw
  have k2 : kept g A A2 := by
    split at h2
    · split at h2
      · obtain ⟨A1, h1, h2⟩ := Option.bind_eq_some.1 h2
        obtain ⟨x, -, hx⟩ := Option.map_eq_some'.1 h2
        rw [← hx]
        exact kept_trans (recurse_un_split_kept fuel _ _ _ _ h1) (free_kept g A1 x.to_)
      · obtain ⟨A1, h1, h2⟩ := Option.bind_eq_some.1 h2
        exact kept_trans (write_kept h1 (fun _ => rfl) (fun _ => rfl))
          (write_kept h2 (fun _ => rfl) (fun _ => rfl))
    · simp only [Option.some.injEq] at h2
      rw [← h2]; exact kept_refl g A
  refine kept_trans k2 ?_
  rw [← hB]
  refine ⟨fun h => heap_ok_store h (state_ok_set (h p s hs) ?_), rfl, rfl⟩
  unfold timed_state.get_intervals at hl
  exact partition_ok_undo_split_set ((h p s hs).2 l (mem_of_getElem?_some hl)) hl'

end RTI


namespace RTI

/-! #### `pre_split`, `un_pre_split` and the scorers -/

theorem undo_first_splits_kept {g : globals} {fuel a i : Nat} (n : Nat) :
    ∀ {A B : timed_automaton}, undo_first_splits g fuel a i n A = some B → kept g A B := by
  induction n with
  | zero =>
    intro A B hw
    simp only [undo_first_splits] at hw
    obtain ⟨⟨first, old_in⟩, -, hw⟩ := Option.bind_eq_some.1 hw
    simp only at hw
    split at hw
    · cases hw
    · split at hw
      · cases hw
      · simp only [Option.some.injEq] at hw
        rw [← hw]; exact kept_refl g A
  | succ n ih =>
    intro A B hw
    simp only [undo_first_splits] at hw
    obtain ⟨⟨first, old_in⟩, -, hw⟩ := Option.bind_eq_some.1 hw
    simp only at hw
    split at hw
    · obtain ⟨A1, h1, hw⟩ := Option.bind_eq_some.1 hw
      exact kept_trans (undo_split_kept h1) (ih hw)
    · split at hw
      · cases hw
      · simp only [Option.some.injEq] at hw
        rw [← hw]; exact kept_refl g A

theorem un_pre_split_kept {g : globals} (fuel : Nat) :
    ∀ (A B : timed_automaton) (o : Nat), un_pre_split g fuel A o = some B → kept g A B := by
  induction fuel with
  | zero => intro A B o hw; cases hw
  | succ fuel ih =>
    intro A B o hw
    simp only [un_pre_split] at hw
    obtain ⟨A1, h1, hw⟩ := Option.bind_eq_some.1 hw
    refine kept_trans (foldlM_kept (fun a i c hc => ?_) _ h1)
      (foldlM_kept (fun a i c hc => ?_) _ hw)
    · obtain ⟨n, -, hc⟩ := Option.bind_eq_some.1 hc
      refine foldlM_kept (fun a j c hc => ?_) _ hc
      obtain ⟨⟨ptr, old_in⟩, -, hc⟩ := Option.bind_eq_some.1 hc
      simp only at hc
      split at hc
      · exact ih _ _ _ hc
      · simp only [Option.some.injEq] at hc
        rw [← hc]; exact kept_refl g a
    · obtain ⟨n, -, hc⟩ := Option.bind_eq_some.1 hc
      exact undo_first_splits_kept n hc

theorem pre_split_kept {g : globals} (fuel : Nat) :
    ∀ (A B : timed_automaton) (o n : Nat), pre_split g fuel A o n = some B → kept g A B := by
  induction fuel with
  | zero => intro A B o n hw; cases hw
  | succ fuel ih =>
    intro A B o n hw
    simp only [pre_split] at hw
    obtain ⟨A1, h1, hw⟩ := Option.bind_eq_some.1 hw
    refine kept_trans (foldlM_kept (fun a i c hc => ?_) _ h1)
      (foldlM_kept (fun a i c hc => ?_) _ hw)
    · obtain ⟨⟨first, x⟩, -, hc⟩ := Option.bind_eq_some.1 hc
      simp only at hc
      split at hc
      · cases hc
      · obtain ⟨sn, -, hc⟩ := Option.bind_eq_some.1 hc
        obtain ⟨ln, -, hc⟩ := Option.bind_eq_some.1 hc
        exact foldlM_kept (fun a e c hc => split_kept hc) _ hc
    · obtain ⟨m, -, hc⟩ := Option.bind_eq_some.1 hc
      refine foldlM_kept (fun a j c hc => ?_) _ hc
      obtain ⟨⟨ptr, old_in⟩, -, hc⟩ := Option.bind_eq_some.1 hc
      obtain ⟨⟨ptr', new_in⟩, -, hc⟩ := Option.bind_eq_some.1 hc
      simp only at hc
      split at hc
      · cases hc
      · split at hc
        · exact ih _ _ _ _ hc
        · simp only [Option.some.injEq] at hc
          rw [← hc]; exact kept_refl g a

theorem test_point_kept {g : globals} {P : p_values} {fuel : Nat} {A B : timed_automaton}
    {p symbol : Nat} {time : Int} {n : Option Nat} {score : ℚ}
    (hw : test_point g P fuel A p symbol time n = some (B, score)) : kept g A B := by
  unfold test_point at hw
  obtain ⟨⟨in_, i⟩, -, hw⟩ := Option.bind_eq_some.1 hw
  simp only at hw
  split at hw
  · simp only [Option.some.injEq, Prod.mk.injEq] at hw
    rw [← hw.1]; exact kept_refl g A
  · split at hw
    · cases hw
    · obtain ⟨A1, h1, hw⟩ := Option.bind_eq_some.1 hw
      split at hw
      · cases hw
      · obtain ⟨A2, h2, hw⟩ := Option.bind_eq_some.1 hw
        obtain ⟨r, -, hw⟩ := Option.bind_eq_some.1 hw
        obtain ⟨A3, h3, hw⟩ := Option.bind_eq_some.1 hw
        obtain ⟨⟨in2, i2⟩, -, hw⟩ := Option.bind_eq_some.1 hw
        obtain ⟨A4, h4, hw⟩ := Option.map_eq_some'.1 hw
        simp only [Prod.mk.injEq] at hw
        rw [← hw.1]
        exact kept_trans (kept_trans (kept_trans (write_kept h1 (fun _ => rfl) (fun _ => rfl))
          (pre_split_kept fuel _ _ _ _ h2)) (un_pre_split_kept fuel _ _ _ h3))
          (write_kept h4 (fun _ => rfl) (fun _ => rfl))

theorem mark_chain_kept {g : globals} (n : Nat) :
    ∀ (A B : timed_automaton) (p : Option Nat) (in_ : interval_ptr) (tail : timed_tail),
      mark_chain g n A p in_ tail = some B → kept g A B := by
  induction n with
  | zero => intro A B p in_ tail hw; cases hw
  | succ n ih =>
    intro A B p in_ tail hw
    simp only [mark_chain] at hw
    split at hw
    · simp only [Option.some.injEq] at hw
      rw [← hw]; exact kept_refl g A
    · obtain ⟨A1, h1, hw⟩ := Option.bind_eq_some.1 hw
      obtain ⟨A2, h2, hw⟩ := Option.bind_eq_some.1 hw
      have k2 := kept_trans (kept_trans (update_stat_kept h1)
        (write_kept h2 (fun _ => rfl) (fun _ => rfl)))
        (marker_kept g A2 (fun t => if t = tail then true else A2.marker t))
      split at hw
      · simp only [Option.some.injEq] at hw
        rw [← hw]; exact k2
      · obtain ⟨i, -, hw⟩ := Option.bind_eq_some.1 hw
        obtain ⟨⟨next_in, ni⟩, -, hw⟩ := Option.bind_eq_some.1 hw
        exact kept_trans k2 (ih _ _ _ _ _ hw)

theorem un_mark_chain_kept {g : globals} (n : Nat) :
    ∀ (A B : timed_automaton) (p : Option Nat) (in_ : interval_ptr) (tail : timed_tail),
      un_mark_chain g n A p in_ tail = some B → kept g A B := by
  induction n with
  | zero => intro A B p in_ tail hw; cases hw
  | succ n ih =>
    intro A B p in_ tail hw
    simp only [un_mark_chain] at hw
    split at hw
    · simp only [Option.some.injEq] at hw
      rw [← hw]; exact kept_refl g A
    · obtain ⟨A1, h1, hw⟩ := Option.bind_eq_some.1 hw
      obtain ⟨A2, h2, hw⟩ := Option.bind_eq_some.1 hw
      have k2 := kept_trans (kept_trans (update_stat_kept h1)
        (write_kept h2 (fun _ => rfl) (fun _ => rfl)))
        (marker_kept g A2 (fun t => if t = tail then false else A2.marker t))
      split at hw
      · simp only [Option.some.injEq] at hw
        rw [← hw]; exact k2
      · obtain ⟨i, -, hw⟩ := Option.bind_eq_some.1 hw
        obtain ⟨⟨next_in, ni⟩, -, hw⟩ := Option.bind_eq_some.1 hw
        exact kept_trans k2 (ih _ _ _ _ _ hw)

theorem clear_marked_kept {g : globals} {A B : timed_automaton} {p : Option Nat}
    {in_ : interval_ptr} (hw : clear_marked g A p in_ = some B) : kept g A B := by
  unfold clear_marked at hw
  obtain ⟨i, -, hw⟩ := Option.bind_eq_some.1 hw
  exact foldlM_kept (fun a x c hc => un_mark_chain_kept _ _ _ _ _ _ hc) _ hw

theorem test_split_kept {g : globals} {P : p_values} {fuel : Nat} {A B : timed_automaton}
    {p symbol : Nat} {time : Int} {score : ℚ}
    (hw : test_split g P fuel A p symbol time = some (B, score)) : kept g A B := by
  unfold test_split at hw
  obtain ⟨⟨in_, i⟩, -, hw⟩ := Option.bind_eq_some.1 hw
  simp only at hw
  split at hw
  · simp only [Option.some.injEq, Prod.mk.injEq] at hw
    rw [← hw.1]; exact kept_refl g A
  · obtain ⟨A1, h1, hw⟩ := Option.bind_eq_some.1 hw
    obtain ⟨r, -, hw⟩ := Option.map_eq_some'.1 hw
    simp only [Prod.mk.injEq] at hw
    rw [← hw.1]
    refine foldlM_kept (fun a x c hc => ?_) _ h1
    unfold mark_upto at hc
    split at hc
    · exact mark_chain_kept _ _ _ _ _ _ hc
    · split at hc
      · cases hc
      · simp only [Option.some.injEq] at hc
        rw [← hc]; exact kept_refl g a

end RTI


namespace RTI

/-! ### The loop over the candidates in `get_best_refinements` -/

theorem read_end {g : globals} {A : timed_automaton} {in_ : interval_ptr} {i : interval}
    (hok : heap_ok g A) (hr : A.read in_ = some i) : i.end_ = in_.key := by
  unfold timed_automaton.read at hr
  obtain ⟨s, hs, hr⟩ := Option.bind_eq_some.1 hr
  obtain ⟨l, hl, hr⟩ := Option.bind_eq_some.1 hr
  obtain ⟨e, he, rfl⟩ := Option.map_eq_some'.1 hr
  have hk : e.1 = in_.key := by
    have := List.find?_some he
    simpa using this
  have hmem := List.mem_of_find?_eq_some he
  unfold timed_state.get_intervals at hl
  have hpo := (hok _ s hs).2 l (mem_of_getElem?_some hl)
  rw [← hk]
  exact ((partition_ok_keys hpo).1 e hmem).1.symm

theorem insert_refinement_perm (m : refinement_set) (e : ℚ × refinement) :
    (insert_refinement m e).Perm (e :: m) := by
  induction m with
  | nil => exact List.Perm.refl _
  | cons x xs ih =>
    simp only [insert_refinement]
    split
    · exact List.Perm.refl _
    · exact (List.Perm.cons x ih).trans (List.Perm.swap e x xs)

theorem foldl_insert_refinement_perm {α : Type} (f : α → ℚ × refinement) (l : List α) :
    ∀ (m : refinement_set),
      (l.foldl (fun m r => insert_refinement m (f r)) m).Perm (l.map f ++ m) := by
  induction l with
  | nil => intro m; exact List.Perm.refl _
  | cons x xs ih =>
    intro m
    simp only [List.foldl_cons, List.map_cons, List.cons_append]
    refine (ih _).trans ?_
    refine (List.Perm.append_left _ (insert_refinement_perm m (f x))).trans ?_
    exact List.perm_middle

theorem merge_fold_scores {g : globals} {P : p_values} {fuel : Nat} {in_ : interval_ptr}
    {state symbol p : Nat} (js : List Nat) :
    ∀ (acc res : refinement_set × timed_automaton), heap_ok g acc.2 →
      acc.2.get_state state = some p →
      js.foldlM (add_merge g P fuel in_ state symbol) acc = some res →
      ∃ rs, merge_scores g P fuel p symbol in_.key acc.2 js = some (rs, res.2) ∧
        res.1 = (rs.filter (fun r => decide (r.2 ≠ -1))).foldl
          (fun m r => insert_refinement m (merge_entry state symbol in_.key r)) acc.1 ∧
        rs.map Prod.fst = js.filter (fun j => decide (acc.2.get_state j ≠ some acc.2.root)) ∧
        kept g acc.2 res.2 := by
  induction js with
  | nil =>
    intro acc res _ _ h
    simp only [List.foldlM_nil, pure, Option.some.injEq] at h
    subst h
    exact ⟨[], rfl, rfl, rfl, kept_refl g _⟩
  | cons j js ih =>
    intro acc res hok hst h
    rw [List.foldlM_cons] at h
    obtain ⟨c, hc, h⟩ := Option.bind_eq_some.1 h
    unfold add_merge at hc
    obtain ⟨target, htg, hc⟩ := Option.bind_eq_some.1 hc
    by_cases hroot : target = acc.2.root
    · simp only [hroot, ne_eq, not_true_eq_false, if_false, Option.some.injEq] at hc
      subst hc
      obtain ⟨rs, h1, h2, h3, h4⟩ := ih acc res hok hst h
      refine ⟨rs, ?_, h2, ?_, h4⟩
      · simp only [merge_scores, htg, Option.some_bind, hroot, ne_eq, not_true_eq_false,
          if_false]
        exact h1
      · rw [h3, List.filter_cons]
        simp [htg, hroot]
    · simp only [ne_eq, hroot, not_false_eq_true, if_true] at hc
      obtain ⟨st, hst', hc⟩ := Option.bind_eq_some.1 hc
      rw [hst] at hst'
      cases hst'
      obtain ⟨i1, hi1, hc⟩ := Option.bind_eq_some.1 hc
      obtain ⟨⟨A1, score⟩, htp, hc⟩ := Option.bind_eq_some.1 hc
      have hk1 := @test_point_kept g _ _ _ _ _ _ _ _ _ htp
      have he1 := read_end hok hi1
      rw [he1] at htp
      have hc2 : c.2 = A1 := by
        simp only at hc
        split at hc
        · obtain ⟨i2, -, hc⟩ := Option.map_eq_some'.1 hc
          rw [← hc]
        · simp only [Option.some.injEq] at hc
          rw [← hc]
      have hc1 : c.1 = if score ≠ -1 then
          insert_refinement acc.1 (merge_entry state symbol in_.key (j, score))
          else acc.1 := by
        simp only at hc
        split at hc
        · rename_i hs
          obtain ⟨i2, hi2, hc⟩ := Option.map_eq_some'.1 hc
          rw [← hc, read_end (hk1.1 hok) hi2, if_pos hs]
          rfl
        · rename_i hs
          simp only [Option.some.injEq] at hc
          rw [← hc, if_neg hs]
      obtain ⟨rs, h1, h2, h3, h4⟩ := ih c res (by rw [hc2]; exact hk1.1 hok)
        (by rw [hc2]; unfold timed_automaton.get_state at hst ⊢; rw [hk1.2.1]; exact hst) h
      rw [hc2] at h1 h3 h4
      refine ⟨(j, score) :: rs, ?_, ?_, ?_, kept_trans hk1 h4⟩
      · simp only [merge_scores, htg, Option.some_bind, ne_eq, hroot, not_false_eq_true,
          if_true, htp, h1, Option.map_some']
      · rw [h2, hc1, List.filter_cons]
        by_cases hs : score = -1
        · simp [hs]
        · simp [hs]
      · rw [List.map_cons, h3, List.filter_cons]
        have hA : ∀ j', A1.get_state j' = acc.2.get_state j' := by
          intro j'
          unfold timed_automaton.get_state
          rw [hk1.2.1]
        simp only [hA, hk1.2.2, htg, Option.some.injEq, ne_eq, hroot, not_false_eq_true,
          decide_True, if_true]

end RTI


namespace RTI

/-! ### The candidates are tested without a change of the selected interval -/

theorem find_interval_key {g : globals} {l : interval_set} {k : Int} {i : interval}
    (hok : partition_ok g l) (hm : (k, i) ∈ l) : find_interval l k = some (k, i) := by
  unfold find_interval
  rw [lower_bound_of_key (partition_ok_keys hok).2 (k, i) hm]

theorem read_entry {g : globals} {A : timed_automaton} {p symbol : Nat} {s : timed_state}
    {l : interval_set} {k : Int} {i : interval} (hp : A.mem p = some s)
    (hl : s.targets[symbol]? = some l) (hok : partition_ok g l) (hm : (k, i) ∈ l) :
    A.read ⟨p, symbol, k⟩ = some i := by
  obtain ⟨pre, post, rfl⟩ := List.append_of_mem hm
  have hnd := partition_nodup hok
  rw [List.map_append, List.nodup_append] at hnd
  have hpre : ∀ x, x ∈ pre → x.1 ≠ k := by
    intro x hx hk
    exact hnd.2.2 (List.mem_map_of_mem Prod.fst hx) (by rw [hk]; simp)
  simp [timed_automaton.read, hp, timed_state.get_intervals, hl, find_key_at pre post k i hpre]

theorem test_point_below {g : globals} (P : p_values) {fuel : Nat} {A : timed_automaton}
    {p symbol : Nat} {k : Int} {i : interval} {o : Nat} {t : state_tree} {N : Set Nat}
    (h : tree_below g fuel A p symbol k i o t N) {n : Nat} (hn : n ∈ N) :
    ∃ (A4 : timed_automaton) (r : List (state_statistics × state_statistics))
      (t' : state_tree),
      test_point g P fuel A p symbol k (some n) = some (A4, point_score g P r) ∧
      tree_below g fuel A4 p symbol k i o t' N ∧ tree_equiv t t' ∧ A4.mem p = A.mem p ∧
      (∀ x, x < A.next → x ∉ t.addrs → A4.mem x = A.mem x) ∧ A.next ≤ A4.next ∧
      A4.states = A.states ∧ A4.marker = A.marker ∧ A4.root = A.root := by
  obtain ⟨s, l, hp, hl, hm⟩ := h.entry
  have hlok : partition_ok g l := (h.ok p s hp).2 l (mem_of_getElem?_some hl)
  obtain ⟨A4, r, t', h1, h2, h3, h4, h5, h6, h7, h8, h9⟩ :=
    test_point_spec P hp hl (find_interval_key hlok hm) h.target h.ok h.tree h.wf h.placed
      h.fits h.apart h.old h.lt hn h.side h.shut
  have hk := @test_point_kept g _ _ _ _ _ _ _ _ _ h1
  have ha := addrs_equiv h4
  refine ⟨A4, r, t', h1, ?_, h4, h2, h5, h6, h7, h8, h9⟩
  exact
    { ok := hk.1 h.ok
      entry := ⟨s, l, by rw [h2, hp], hl, hm⟩
      target := h.target
      tree := h3
      wf := wf_equiv h4 h.wf
      placed := placed_equiv h4 h.placed
      fits := fits_equiv h4 h.fits
      apart := by rw [← ha]; exact h.apart
      old := fun x hx => by
        rw [← ha] at hx
        have := h.old x hx
        omega
      lt := by have := h.lt; omega
      colored := fun x hx => h.colored x (by rw [← h7]; exact hx)
      side := fun x hx => ⟨by rw [← ha]; exact (h.side x hx).1, by
        have := (h.side x hx).2
        omega⟩
      shut := fun x hx => by
        rw [h5 x (h.side x hx).2 (h.side x hx).1]
        exact h.shut x hx }

theorem merge_fold_below {g : globals} {P : p_values} {fuel : Nat} {p symbol state : Nat}
    {k : Int} {i : interval} {o : Nat} {N : Set Nat} (js : List Nat) :
    ∀ (acc : refinement_set × timed_automaton) (t : state_tree),
      tree_below g fuel acc.2 p symbol k i o t N → acc.2.get_state state = some p →
      (∀ j, j ∈ js → j < acc.2.num_states) →
      ∃ (res : refinement_set × timed_automaton) (t' : state_tree),
        js.foldlM (add_merge g P fuel ⟨p, symbol, k⟩ state symbol) acc = some res ∧
        tree_below g fuel res.2 p symbol k i o t' N ∧ tree_equiv t t' ∧
        res.2.mem p = acc.2.mem p ∧
        (∀ x, x < acc.2.next → x ∉ t.addrs → res.2.mem x = acc.2.mem x) ∧
        acc.2.next ≤ res.2.next ∧ res.2.states = acc.2.states ∧
        res.2.marker = acc.2.marker ∧ res.2.root = acc.2.root := by
  induction js with
  | nil =>
    intro acc t h _ _
    exact ⟨acc, t, rfl, h, tree_equiv_refl t, rfl, fun _ _ _ => rfl, le_refl _, rfl, rfl, rfl⟩
  | cons j js ih =>
    intro acc t h hst hjs
    obtain ⟨s, l, hp, hl, hm⟩ := h.entry
    have hlok : partition_ok g l := (h.ok p s hp).2 l (mem_of_getElem?_some hl)
    have hread := read_entry hp hl hlok hm
    have hend : i.end_ = k := ((partition_ok_keys hlok).1 _ hm).1.symm
    have hj : j < acc.2.num_states := hjs j (List.mem_cons_self _ _)
    have htg : acc.2.get_state j = some (acc.2.states[j]) := List.getElem?_eq_getElem hj
    rw [List.foldlM_cons]
    by_cases hroot : acc.2.states[j] = acc.2.root
    · have e : add_merge g P fuel ⟨p, symbol, k⟩ state symbol acc j = some acc := by
        simp only [add_merge, htg, Option.some_bind, hroot, ne_eq, not_true_eq_false,
          if_false]
      rw [e]
      exact ih acc t h hst (fun j' hj' => hjs j' (List.mem_cons_of_mem _ hj'))
    · have hnN : acc.2.states[j] ∈ N := h.colored _ (List.getElem_mem _)
      obtain ⟨A4, r, t1, q1, q2, q3, q4, q5, q6, q7, q8, q9⟩ := test_point_below P h hnN
      obtain ⟨s4, l4, hp4, hl4, hm4⟩ := q2.entry
      have hlok4 : partition_ok g l4 := (q2.ok p s4 hp4).2 l4 (mem_of_getElem?_some hl4)
      have hread4 := read_entry hp4 hl4 hlok4 hm4
      have e : ∃ m, add_merge g P fuel ⟨p, symbol, k⟩ state symbol acc j = some (m, A4) := by
        simp only [add_merge, htg, Option.some_bind, ne_eq, hroot, not_false_eq_true, if_true,
          hst, hread, hend, q1]
        split
        · rw [hread4]
          exact ⟨_, rfl⟩
        · exact ⟨_, rfl⟩
      obtain ⟨m, e⟩ := e
      rw [e]
      obtain ⟨res, t', r1, r2, r3, r4, r5, r6, r7, r8, r9⟩ := ih (m, A4) t1 q2
        (by
          show A4.get_state state = some p
          unfold timed_automaton.get_state at hst ⊢
          rw [q7]; exact hst)
        (fun j' hj' => by
          show j' < A4.num_states
          unfold timed_automaton.num_states
          rw [q7]
          exact hjs j' (List.mem_cons_of_mem _ hj'))
      have ha := addrs_equiv q3
      refine ⟨res, t', r1, r2, tree_equiv_trans q3 r3, by rw [r4]; exact q4, ?_, ?_,
        by rw [r7]; exact q7, by rw [r8]; exact q8, by rw [r9]; exact q9⟩
      · intro x hx hxt
        rw [r5 x (by show x < A4.next; omega) (by rw [← ha]; exact hxt)]
        exact q5 x hx hxt
      · have : A4.next ≤ res.2.next := r6
        omega

end RTI


namespace RTI

/-! ### The parts of `get_best_refinements` -/

theorem get_best_refinements_parts {g : globals} {P : p_values} {fuel : Nat}
    {A A' : timed_automaton} {first second : refinement_set}
    (h : get_best_refinements g P fuel A = some (first, second, A')) :
    check_consistency g A = true ∧ ∃ sel, select g A = some sel ∧
      ((sel.in_ = none ∧ first = [] ∧ second = [] ∧ A' = A) ∨
        ∃ in_ i, sel.in_ = some in_ ∧ A.read in_ = some i ∧
          (((i.tails.length : Int) < (2 * g.MIN_DATA) % 2 ^ 64 ∧ first = [] ∧ second = [] ∧
              A' = A) ∨
            (¬ (i.tails.length : Int) < (2 * g.MIN_DATA) % 2 ^ 64 ∧
              score_refinements g P fuel A in_ sel.state.toNat sel.symbol.toNat
                = some (first, second, A')))) := by
  unfold get_best_refinements at h
  split at h
  · cases h
  rename_i hcc
  refine ⟨by simpa using hcc, ?_⟩
  obtain ⟨sel, hsel, h⟩ := Option.bind_eq_some.1 h
  refine ⟨sel, hsel, ?_⟩
  split at h
  · rename_i hin
    simp only [Option.some.injEq, Prod.mk.injEq] at h
    exact Or.inl ⟨hin, h.1.symm, h.2.1.symm, h.2.2.symm⟩
  · rename_i in_ hin
    obtain ⟨i, hi, h⟩ := Option.bind_eq_some.1 h
    refine Or.inr ⟨in_, i, hin, hi, ?_⟩
    split at h
    · rename_i hlt
      simp only [Option.some.injEq, Prod.mk.injEq] at h
      exact Or.inl ⟨hlt, h.1.symm, h.2.1.symm, h.2.2.symm⟩
    · rename_i hlt
      exact Or.inr ⟨hlt, h⟩

theorem score_refinements_parts {g : globals} {P : p_values} {fuel : Nat}
    {A A' : timed_automaton} {in_ : interval_ptr} {state symbol : Nat}
    {first second : refinement_set}
    (h : score_refinements g P fuel A in_ state symbol = some (first, second, A')) :
    ∃ (merges : refinement_set) (A1 : timed_automaton) (i1 : interval) (x0 : timed_tail)
      (r : split_loop) (st : Nat),
      (List.range A.num_states).foldlM (add_merge g P fuel in_ state symbol) ([], A)
        = some (merges, A1) ∧
      check_consistency g A1 = true ∧ A1.read in_ = some i1 ∧
      first = insert_refinement merges (P.SIGNIFICANCE, ⟨state, -2, symbol, i1.end_⟩) ∧
      i1.tails.head? = some x0 ∧
      i1.tails.foldlM (add_split g P fuel state symbol)
        { splits := [], A := A1, time := x0.get_time_value } = some r ∧
      second = r.splits ∧ r.A.get_state state = some st ∧
      clear_marked g r.A (some st) in_ = some A' ∧ check_consistency g A' = true := by
  unfold score_refinements at h
  split at h
  · cases h
  obtain ⟨⟨merges, A1⟩, hm, h⟩ := Option.bind_eq_some.1 h
  simp only at h
  split at h
  · cases h
  rename_i hcc1
  obtain ⟨i1, hi1, h⟩ := Option.bind_eq_some.1 h
  obtain ⟨x0, hx0, h⟩ := Option.bind_eq_some.1 h
  obtain ⟨r, hr, h⟩ := Option.bind_eq_some.1 h
  obtain ⟨st, hst, h⟩ := Option.bind_eq_some.1 h
  obtain ⟨A3, h3, h⟩ := Option.bind_eq_some.1 h
  split at h
  · cases h
  rename_i hcc3
  simp only [Option.some.injEq, Prod.mk.injEq] at h
  obtain ⟨h1, h2, h4⟩ := h
  subst h4
  exact ⟨merges, A1, i1, x0, r, st, hm, by simpa using hcc1, hi1, h1.symm, hx0, hr, h2.symm,
    hst, h3, by simpa using hcc3⟩

/-! ### The loop over the tails -/

theorem split_fold_calls {g : globals} {P : p_values} {fuel : Nat} {state symbol : Nat}
    (T : List timed_tail) :
    ∀ (acc : split_loop),
      (T.foldlM (add_split g P fuel state symbol) acc).map (fun r => (r.splits, r.A)) =
        (call_times acc.time T).foldlM (split_step g P fuel state symbol)
          (acc.splits, acc.A) := by
  induction T with
  | nil => intro acc; rfl
  | cons x xs ih =>
    intro acc
    rw [List.foldlM_cons]
    by_cases ht : acc.time < x.get_time_value
    · have e : add_split g P fuel state symbol acc x =
          (split_step g P fuel state symbol (acc.splits, acc.A) acc.time).map
            (fun r => { splits := r.1, A := r.2, time := x.get_time_value }) := by
        simp only [add_split, ht, if_true, split_step]
        cases acc.A.get_state state with
        | none => rfl
        | some st =>
          simp only [Option.some_bind, Option.map_map]
          rfl
      simp only [call_times, ht, if_true, List.foldlM_cons]
      rw [e]
      cases hs : split_step g P fuel state symbol (acc.splits, acc.A) acc.time with
      | none => rfl
      | some r =>
        simp only [Option.map_some', Option.some_bind]
        exact ih _
    · have e : add_split g P fuel state symbol acc x = some acc := by
        simp only [add_split, ht, if_false]
      simp only [call_times, ht, if_false]
      rw [e]
      exact ih acc

theorem call_times_spec (T : List timed_tail) :
    ∀ (time : Int), tails_sorted T → (∀ x, x ∈ T → time ≤ x.get_time_value) →
      (call_times time T).Pairwise (fun a b => a < b) ∧
      (∀ t, t ∈ call_times time T → time ≤ t) ∧
      ∀ t, t ∈ call_times time T ↔
        ((t = time ∨ ∃ x, x ∈ T ∧ x.get_time_value = t) ∧
          ∃ y, y ∈ T ∧ t < y.get_time_value) := by
  induction T with
  | nil =>
    intro time _ _
    refine ⟨List.Pairwise.nil, fun t ht => ?_, fun t => ⟨fun ht => ?_, ?_⟩⟩
    · cases ht
    · cases ht
    · rintro ⟨-, y, hy, -⟩
      cases hy
  | cons x xs ih =>
    intro time hs hle
    have hs' : tails_sorted xs := (List.pairwise_cons.1 hs).2
    have hx : ∀ y, y ∈ xs → x.get_time_value ≤ y.get_time_value := (List.pairwise_cons.1 hs).1
    have hxt := hle x (List.mem_cons_self _ _)
    by_cases ht : time < x.get_time_value
    · obtain ⟨q1, q2, q3⟩ := ih x.get_time_value hs' hx
      simp only [call_times, ht, if_true]
      refine ⟨List.pairwise_cons.2 ⟨fun b hb => by have := q2 b hb; omega, q1⟩, ?_, ?_⟩
      · intro t ht'
        rcases List.mem_cons.1 ht' with rfl | ht'
        · exact le_refl _
        · have := q2 t ht'; omega
      · intro t
        rw [List.mem_cons, q3 t]
        constructor
        · rintro (rfl | ⟨h1, y, hy, hty⟩)
          · exact ⟨Or.inl rfl, x, List.mem_cons_self _ _, ht⟩
          · refine ⟨Or.inr ?_, y, List.mem_cons_of_mem _ hy, hty⟩
            rcases h1 with rfl | ⟨z, hz, hzt⟩
            · exact ⟨x, List.mem_cons_self _ _, rfl⟩
            · exact ⟨z, List.mem_cons_of_mem _ hz, hzt⟩
        · rintro ⟨h1, y, hy, hty⟩
          rcases h1 with rfl | ⟨z, hz, hzt⟩
          · exact Or.inl rfl
          · right
            have hzx : x.get_time_value ≤ t := by
              rcases List.mem_cons.1 hz with rfl | hz
              · omega
              · have := hx z hz; omega
            have hy' : y ∈ xs := by
              rcases List.mem_cons.1 hy with rfl | hy
              · omega
              · exact hy
            refine ⟨?_, y, hy', hty⟩
            rcases List.mem_cons.1 hz with rfl | hz
            · exact Or.inl hzt.symm
            · exact Or.inr ⟨z, hz, hzt⟩
    · have hxe : x.get_time_value = time := by omega
      obtain ⟨q1, q2, q3⟩ := ih time hs' (fun y hy => hle y (List.mem_cons_of_mem _ hy))
      simp only [call_times, ht, if_false]
      refine ⟨q1, q2, fun t => ?_⟩
      rw [q3 t]
      constructor
      · rintro ⟨h1, y, hy, hty⟩
        refine ⟨?_, y, List.mem_cons_of_mem _ hy, hty⟩
        rcases h1 with rfl | ⟨z, hz, hzt⟩
        · exact Or.inl rfl
        · exact Or.inr ⟨z, List.mem_cons_of_mem _ hz, hzt⟩
      · rintro ⟨h1, y, hy, hty⟩
        have htt : time ≤ t := by
          rcases h1 with rfl | ⟨z, hz, hzt⟩
          · exact le_refl _
          · have := hle z hz; omega
        have hy' : y ∈ xs := by
          rcases List.mem_cons.1 hy with rfl | hy
          · omega
          · exact hy
        refine ⟨?_, y, hy', hty⟩
        rcases h1 with rfl | ⟨z, hz, hzt⟩
        · exact Or.inl rfl
        · rcases List.mem_cons.1 hz with rfl | hz
          · exact Or.inl (by omega)
          · exact Or.inr ⟨z, hz, hzt⟩

theorem split_steps_inv {g : globals} {P : p_values} {fuel : Nat} {state symbol : Nat}
    (ts : List Int) :
    ∀ (acc res : refinement_set × timed_automaton),
      ts.foldlM (split_step g P fuel state symbol) acc = some res →
      kept g acc.2 res.2 ∧
      ∀ x, x ∈ res.1 → x ∈ acc.1 ∨
        (x.2.state = state ∧ x.2.target = -1 ∧ x.2.symbol = symbol ∧ x.2.time ∈ ts) := by
  induction ts with
  | nil =>
    intro acc res h
    simp only [List.foldlM_nil, pure, Option.some.injEq] at h
    subst h
    exact ⟨kept_refl g _, fun x hx => Or.inl hx⟩
  | cons t ts ih =>
    intro acc res h
    rw [List.foldlM_cons] at h
    obtain ⟨c, hc, h⟩ := Option.bind_eq_some.1 h
    obtain ⟨k1, k2⟩ := ih c res h
    unfold split_step at hc
    obtain ⟨st, -, hc⟩ := Option.bind_eq_some.1 hc
    obtain ⟨⟨A1, score⟩, hts, hc⟩ := Option.map_eq_some'.1 hc
    simp only at hc
    subst hc
    refine ⟨kept_trans (test_split_kept hts) k1, fun x hx => ?_⟩
    rcases k2 x hx with h1 | ⟨h1, h2, h3, h4⟩
    · simp only at h1
      split at h1
      · rcases (mem_insert_refinement _ _ _).1 h1 with h1 | h1
        · rw [h1]
          exact Or.inr ⟨rfl, rfl, rfl, List.mem_cons_self _ _⟩
        · exact Or.inl h1
      · exact Or.inl h1
    · exact Or.inr ⟨h1, h2, h3, List.mem_cons_of_mem _ h4⟩

end RTI


namespace RTI

/-! ### The selection of the interval -/

theorem select_interval_eq_pick (A : timed_automaton) (st i s : Nat) (sel : selection)
    (e : Int × interval) :
    select_interval A st i s sel e =
      if (!(A.contains_state e.2.get_target) && !e.2.is_empty) = true then
        pick sel ⟨i, st, s, e.1, e.2⟩
      else sel := by
  unfold select_interval pick
  cases h1 : A.contains_state e.2.get_target <;> cases h2 : e.2.is_empty <;> simp

theorem select_intervals_fold (A : timed_automaton) (st i s : Nat) (l : interval_set) :
    ∀ (sel : selection), l.foldl (select_interval A st i s) sel =
      ((l.filter (fun e => !(A.contains_state e.2.get_target) && !e.2.is_empty)).map
        (fun e => (⟨i, st, s, e.1, e.2⟩ : candidate))).foldl pick sel := by
  induction l with
  | nil => intro sel; rfl
  | cons e l ih =>
    intro sel
    rw [List.foldl_cons, ih, select_interval_eq_pick, List.filter_cons]
    split
    · rw [List.map_cons, List.foldl_cons]
    · rfl

theorem foldlM_flatMap {α β γ : Type} {f : β → α → Option β} {c : α → List γ}
    {pk : β → γ → β}
    (hf : ∀ b a b', f b a = some b' → b' = (c a).foldl pk b) (l : List α) :
    ∀ (b b' : β), l.foldlM f b = some b' → b' = (l.flatMap c).foldl pk b := by
  induction l with
  | nil =>
    intro b b' h
    simp only [List.foldlM_nil, pure, Option.some.injEq] at h
    rw [← h]
    rfl
  | cons a l ih =>
    intro b b' h
    rw [List.foldlM_cons] at h
    obtain ⟨b1, h1, h⟩ := Option.bind_eq_some.1 h
    rw [List.flatMap_cons, List.foldl_append, ← hf b a b1 h1]
    exact ih b1 b' h

theorem select_eq_fold {g : globals} {A : timed_automaton} {sel : selection}
    (h : select g A = some sel) :
    sel = (candidates g A).foldl pick
      { in_ := none, state := 0, symbol := -1, max_size := -1 } := by
  unfold select at h
  unfold candidates
  refine foldlM_flatMap (fun b i b' hb => ?_) _ _ _ h
  unfold select_state at hb
  cases hst : A.get_state i with
  | none => rw [hst] at hb; cases hb
  | some st =>
    rw [hst] at hb
    simp only [Option.some_bind] at hb ⊢
    refine foldlM_flatMap (fun b s b' hb => ?_) _ _ _ hb
    unfold select_symbol at hb
    obtain ⟨l, hl, hb⟩ := Option.map_eq_some'.1 hb
    rw [hl, Option.getD_some, ← hb]
    exact select_intervals_fold A st i s l b

theorem first_largest_pick {L : List candidate} {sel : selection} (h : first_largest L sel)
    (c : candidate) : first_largest (L ++ [c]) (pick sel c) := by
  rcases h with ⟨rfl, rfl⟩ | ⟨n, d, hn, rfl, hmax, hfirst⟩
  · right
    refine ⟨0, c, by simp, by simp [pick], ?_, ?_⟩
    · intro c' hc'
      simp only [List.nil_append, List.mem_singleton] at hc'
      rw [hc']
    · intro m c' hm
      omega
  · right
    have hnL : n < L.length := (List.getElem?_eq_some.1 hn).1
    by_cases hgt : d.iv.tails.length < c.iv.tails.length
    · refine ⟨L.length, c, by simp, ?_, ?_, ?_⟩
      · have : (c.iv.tails.length : Int) > (d.iv.tails.length : Int) := by omega
        simp [pick, this]
      · intro c' hc'
        rcases List.mem_append.1 hc' with hc' | hc'
        · have := hmax c' hc'
          omega
        · rw [List.mem_singleton.1 hc']
      · intro m c' hm hc'
        rw [List.getElem?_append_left hm] at hc'
        have := hmax c' (mem_of_getElem?_some hc')
        omega
    · refine ⟨n, d, by rw [List.getElem?_append_left hnL]; exact hn, ?_, ?_, ?_⟩
      · have h1 : ¬ (c.iv.tails.length : Int) > (d.iv.tails.length : Int) := by omega
        have h2 : ¬ ((d.iv.tails.length : Int) = -1) := by omega
        simp [pick, h1, h2]
      · intro c' hc'
        rcases List.mem_append.1 hc' with hc' | hc'
        · exact hmax c' hc'
        · rw [List.mem_singleton.1 hc']
          omega
      · intro m c' hm hc'
        rw [List.getElem?_append_left (by omega)] at hc'
        exact hfirst m c' hm hc'

theorem first_largest_fold (l : List candidate) :
    ∀ (L : List candidate) (sel : selection), first_largest L sel →
      first_largest (L ++ l) (l.foldl pick sel) := by
  induction l with
  | nil => intro L sel h; simpa using h
  | cons c l ih =>
    intro L sel h
    have := ih (L ++ [c]) (pick sel c) (first_largest_pick h c)
    simpa using this

theorem select_first_largest {g : globals} {A : timed_automaton} {sel : selection}
    (h : select g A = some sel) : first_largest (candidates g A) sel := by
  rw [select_eq_fold h]
  have h0 : first_largest [] { in_ := none, state := 0, symbol := -1, max_size := -1 } :=
    Or.inl ⟨rfl, rfl⟩
  have := first_largest_fold (candidates g A) [] _ h0
  simpa using this

theorem mem_candidates {g : globals} {A : timed_automaton} {c : candidate}
    (h : c ∈ candidates g A) :
    A.get_state c.number = some c.state ∧ c.symbol < g.MAX_SYMBOL ∧
      ∃ s l, A.mem c.state = some s ∧ s.get_intervals c.symbol = some l ∧
        (c.key, c.iv) ∈ l ∧ A.contains_state c.iv.get_target = false ∧
        c.iv.is_empty = false := by
  unfold candidates at h
  obtain ⟨i, -, h⟩ := List.mem_flatMap.1 h
  rcases Option.eq_none_or_eq_some (A.get_state i) with hst | ⟨st, hst⟩
  · rw [hst] at h; cases h
  · rw [hst] at h
    obtain ⟨s, hs, h⟩ := List.mem_flatMap.1 h
    obtain ⟨e, he, rfl⟩ := List.mem_map.1 h
    obtain ⟨hel, hc⟩ := List.mem_filter.1 he
    simp only [Bool.and_eq_true, Bool.not_eq_true'] at hc
    rcases Option.eq_none_or_eq_some (A.mem st) with hm | ⟨x, hm⟩
    · rw [hm] at hel; cases hel
    rw [hm] at hel
    rcases Option.eq_none_or_eq_some (x.get_intervals s) with hl | ⟨l, hl⟩
    · rw [Option.some_bind, hl] at hel; cases hel
    rw [Option.some_bind, hl, Option.getD_some] at hel
    exact ⟨hst, List.mem_range.1 hs, x, l, hm, hl, hel, hc.1, hc.2⟩

/-! ### What `check_consistency` tells about the intervals of the colored states -/

theorem check_consistency_bounds {g : globals} {A : timed_automaton}
    (hcc : check_consistency g A = true) {st : Nat} (hst : st ∈ A.states) {s : timed_state}
    (hm : A.mem st = some s) {sy : Nat} (hsy : sy < g.MAX_SYMBOL) {l : interval_set}
    (hl : s.get_intervals sy = some l) {e : Int × interval} (he : e ∈ l) {x : timed_tail}
    (hx : x ∈ e.2.tails) :
    e.2.begin ≤ x.get_time_value ∧ x.get_time_value ≤ e.2.end_ ∧ e.2.num_marked = 0 := by
  unfold check_consistency at hcc
  rw [List.all_eq_true] at hcc
  have h1 := hcc st hst
  simp only [hm, Bool.and_eq_true, List.all_eq_true, decide_eq_true_eq] at h1
  have h2 := h1.2 sy (List.mem_range.2 hsy)
  simp only [hl, List.all_eq_true, Bool.and_eq_true, decide_eq_true_eq] at h2
  have h3 := h2 e he
  have h4 := h3.2 x hx
  exact ⟨h4.1.1.1.1, h4.1.1.1.2, h3.1⟩

end RTI


namespace RTI

/-! ### The example tree with `MIN_DATA = 1` -/

theorem partition_ok_of_globals {g g' : globals} (h1 : g.MIN_TIME = g'.MIN_TIME)
    (h2 : g.MAX_TIME = g'.MAX_TIME) {l : interval_set} (h : partition_ok g l) :
    partition_ok g' l := by
  cases l with
  | nil => exact h
  | cons e rest =>
    obtain ⟨k, i⟩ := e
    obtain ⟨q1, q2, q3, q4⟩ := h
    exact ⟨by rw [← h1]; exact q1, q2, fun hr => by rw [← h1]; exact q3 hr,
      by rw [← h2]; exact q4⟩

theorem heap_ok_of_globals {g g' : globals} (h0 : g.MAX_SYMBOL = g'.MAX_SYMBOL)
    (h1 : g.MIN_TIME = g'.MIN_TIME) (h2 : g.MAX_TIME = g'.MAX_TIME) {A : timed_automaton}
    (h : heap_ok g A) : heap_ok g' A :=
  fun r s hr => ⟨by rw [← h0]; exact (h r s hr).1,
    fun l hl => partition_ok_of_globals h1 h2 ((h r s hr).2 l hl)⟩

theorem placed_of_globals {g g' : globals} (h0 : g.MAX_SYMBOL = g'.MAX_SYMBOL)
    (h2 : g.MAX_TIME = g'.MAX_TIME) (t : state_tree) :
    ∀ (P : List timed_tail), t.placed g P → t.placed g' P := by
  induction t with
  | null => intro P h; exact h
  | node a s kid ih =>
    intro P h
    obtain ⟨q1, q2, q3, q4⟩ := h
    refine ⟨⟨by rw [← h0]; exact q1.1, fun i hi => ?_⟩, fun x hx => by rw [← h0]; exact q2 x hx,
      q3, fun i hi => ?_⟩
    · rw [← h2]
      exact q1.2 i (by rw [h0]; exact hi)
    · rw [← h2]
      exact ih i g.MAX_TIME _ (q4 i (by rw [h0]; exact hi))

theorem example_tree_below :
    tree_below small_globals 5 example_tree 0 0 10
      { interval.new 0 10 with
        tails := [⟨0, 0, [(0, 1), (0, 3), (2, 4)]⟩, ⟨1, 0, [(0, 5), (0, 2), (2, 7)]⟩]
        to_ := some 1 } 1 example_state_tree {0} :=
  { ok := heap_ok_of_globals rfl rfl rfl example_tree_heap_ok
    entry := ⟨example_root, _, rfl, rfl, List.mem_singleton.2 rfl⟩
    target := rfl
    tree := example_tree_rep
    wf := example_tree_wf
    placed := placed_of_globals rfl rfl _ _ example_tree_placed
    fits := fits_mono example_tree_fits (by decide)
    apart := example_tree_root_not_mem
    old := example_tree_addrs_lt
    lt := by decide
    colored := fun r hr => by
      have : example_tree.states = [0] := rfl
      rw [this, List.mem_singleton] at hr
      exact hr
    side := fun r hr => by
      rw [Set.mem_singleton_iff.1 hr]
      exact ⟨example_tree_root_not_mem, by decide⟩
    shut := fun r hr => by
      rw [Set.mem_singleton_iff.1 hr]
      refine ⟨example_root, rfl, fun i' e he hne => ?_⟩
      obtain ⟨h1, h2⟩ := example_root_edge he
      exact absurd (by rw [h1, h2]) hne }

end RTI


namespace RTI

/-! ### From the result of `get_best_refinements` to the selected interval -/

theorem selected_candidate {g : globals} {A : timed_automaton} {sel : selection}
    {in_ : interval_ptr} (hsel : select g A = some sel) (hin : sel.in_ = some in_) :
    ∃ c, c ∈ candidates g A ∧ in_ = ⟨c.state, c.symbol, c.key⟩ ∧ sel.state = c.number ∧
      sel.symbol = c.symbol ∧ sel.state.toNat = c.number ∧ sel.symbol.toNat = c.symbol := by
  rcases select_first_largest hsel with ⟨-, h⟩ | ⟨n, c, hn, h, -, -⟩
  · rw [h] at hin
    cases hin
  · rw [h] at hin ⊢
    simp only [Option.some.injEq] at hin
    exact ⟨c, mem_of_getElem?_some hn, hin.symm, rfl, rfl, by simp, by simp⟩

theorem read_candidate {g : globals} {A : timed_automaton} {c : candidate}
    (hok : heap_ok g A) (hc : c ∈ candidates g A) :
    A.read ⟨c.state, c.symbol, c.key⟩ = some c.iv := by
  obtain ⟨-, -, s, l, hm, hl, he, -, -⟩ := mem_candidates hc
  unfold timed_state.get_intervals at hl
  exact read_entry hm hl ((hok _ s hm).2 l (mem_of_getElem?_some hl)) he

theorem emod_two_min_data {g : globals} (hmin : 0 ≤ g.MIN_DATA ∧ 2 * g.MIN_DATA < 2 ^ 64) :
    (2 * g.MIN_DATA) % 2 ^ 64 = 2 * g.MIN_DATA :=
  Int.emod_eq_of_lt (by omega) hmin.2

theorem selected_scored {g : globals} {P : p_values} {fuel : Nat} {A A' : timed_automaton}
    {first second : refinement_set} {sel : selection} {in_ : interval_ptr} {i : interval}
    (h : get_best_refinements g P fuel A = some (first, second, A'))
    (hmin : 0 ≤ g.MIN_DATA ∧ 2 * g.MIN_DATA < 2 ^ 64) (hsel : select g A = some sel)
    (hin : sel.in_ = some in_) (hi : A.read in_ = some i)
    (hsize : 2 * g.MIN_DATA ≤ i.tails.length) :
    check_consistency g A = true ∧
      score_refinements g P fuel A in_ sel.state.toNat sel.symbol.toNat
        = some (first, second, A') := by
  obtain ⟨hcc, sel', hsel', hcase⟩ := get_best_refinements_parts h
  rw [hsel] at hsel'
  cases hsel'
  refine ⟨hcc, ?_⟩
  rcases hcase with ⟨hn, -⟩ | ⟨in_', i', hin', hi', hc⟩
  · rw [hn] at hin
    cases hin
  · rw [hin] at hin'
    cases hin'
    rw [hi] at hi'
    cases hi'
    rcases hc with ⟨hlt, -⟩ | ⟨-, hsc⟩
    · rw [emod_two_min_data hmin] at hlt
      omega
    · exact hsc

theorem merges_targets {state symbol : Nat} {time : Int} {rs : List (Nat × ℚ)}
    {merges : refinement_set}
    (h : merges = rs.foldl
      (fun m r => insert_refinement m (merge_entry state symbol time r)) []) :
    merges.Perm (rs.map (merge_entry state symbol time)) ∧
      ∀ x, x ∈ merges → 0 ≤ x.2.target := by
  have hp : merges.Perm (rs.map (merge_entry state symbol time)) := by
    rw [h]
    have := foldl_insert_refinement_perm (merge_entry state symbol time) rs []
    simpa using this
  refine ⟨hp, fun x hx => ?_⟩
  obtain ⟨r, -, rfl⟩ := List.mem_map.1 (hp.subset hx)
  exact Int.ofNat_nonneg _

theorem greedy_choice_some (P : p_values) {first second : refinement_set}
    (hf : first ≠ []) : ∃ r, greedy_choice P first second = some r := by
  obtain ⟨x, xs, rfl⟩ := List.exists_cons_of_ne_nil hf
  unfold greedy_choice
  split
  · rename_i hs
    obtain ⟨e, he⟩ : ∃ e, second.getLast? = some e := by
      cases hl : second.getLast? with
      | none => exact absurd (List.getLast?_eq_none_iff.1 hl) hs
      | some e => exact ⟨e, rfl⟩
    rw [he, Option.some_bind]
    split
    · exact ⟨_, rfl⟩
    · exact ⟨_, rfl⟩
  · exact ⟨_, rfl⟩

end RTI


namespace RTI

/-! ### The merge set holds the color refinement -/

/-- The color refinement, for a call that returns: let `get_best_refinements` return the merge set
`first` and the split set `second`
on a heap whose partitions are covers. When it has selected the interval `i` and `i` holds at
least `2 * MIN_DATA` tails, the entries of `first` with the target code `-2` are the one
color refinement of the state, the symbol and the end of `i`, keyed by `SIGNIFICANCE`. In
every case `first` is non-empty when `second` is, and `greedy`, which runs when not both sets
are empty, finds a refinement: it does not read the first element of an empty merge set. -/
theorem color_refinement_unique (g : globals) (P : p_values) (fuel : Nat)
    (A A' : timed_automaton) (first second : refinement_set)
    (h : get_best_refinements g P fuel A = some (first, second, A')) (hok : heap_ok g A)
    (hmin : 0 ≤ g.MIN_DATA ∧ 2 * g.MIN_DATA < 2 ^ 64) :
    (∀ (sel : selection) (in_ : interval_ptr) (i : interval), select g A = some sel →
      sel.in_ = some in_ → A.read in_ = some i → 2 * g.MIN_DATA ≤ i.tails.length →
      first.filter (fun x => decide (x.2.target = -2))
        = [(P.SIGNIFICANCE, ⟨sel.state, -2, sel.symbol, i.end_⟩)]) ∧
    (second ≠ [] → first ≠ []) ∧
    (¬ (first = [] ∧ second = []) → ∃ r, greedy_choice P first second = some r) := by
  have hne : second ≠ [] → first ≠ [] := by
    intro hs
    obtain ⟨-, sel, -, hcase⟩ := get_best_refinements_parts h
    rcases hcase with ⟨-, -, h2, -⟩ | ⟨in_, i, -, -, ⟨-, -, h2, -⟩ | ⟨-, hsc⟩⟩
    · exact absurd h2 hs
    · exact absurd h2 hs
    · obtain ⟨merges, A1, i1, x0, r, st, -, -, -, hf, -⟩ := score_refinements_parts hsc
      rw [hf]
      exact insert_refinement_ne_nil _ _
  refine ⟨?_, hne, fun hnb => greedy_choice_some P (fun hf => hnb ⟨hf, ?_⟩)⟩
  · intro sel in_ i hsel hin hi hsize
    obtain ⟨-, hsc⟩ := selected_scored h hmin hsel hin hi hsize
    obtain ⟨c, hc, -, hs1, hs2, hs3, hs4⟩ := selected_candidate hsel hin
    obtain ⟨merges, A1, i1, x0, r, st, hm, -, hi1, hf, -⟩ := score_refinements_parts hsc
    obtain ⟨rs, -, hmg, -, hk⟩ := merge_fold_scores _ ([], A) (merges, A1) hok
      (by rw [hs3]; exact (mem_candidates hc).1) hm
    obtain ⟨-, htg⟩ := merges_targets hmg
    have he : i1.end_ = i.end_ := by
      rw [read_end (hk.1 hok) hi1, read_end hok hi]
    have hp := (insert_refinement_perm merges
      (P.SIGNIFICANCE, ⟨(sel.state.toNat : Int), -2, (sel.symbol.toNat : Int), i1.end_⟩)).filter
      (fun x => decide (x.2.target = -2))
    rw [← hf, List.filter_cons, if_pos (by simp)] at hp
    have hnil : merges.filter (fun x => decide (x.2.target = -2)) = [] := by
      rw [List.filter_eq_nil_iff]
      intro x hx
      have := htg x hx
      simp only [decide_eq_true_eq]
      omega
    rw [hnil] at hp
    rw [List.perm_singleton.1 hp, he, hs3, hs4, hs1, hs2]
  · by_contra hs
    exact hne hs hf

/-- An instance for the color refinement: in the prefix tree of the words `(0, 1) (0, 3)` and `(0,
5) (0, 2)`,
with `MIN_DATA = 1`, the merge set is the color refinement of the interval of the root. -/
theorem color_refinement_unique_witness :
    ∃ A', get_best_refinements small_globals example_p_values 5 example_tree
        = some ([(1, ⟨0, -2, 0, 10⟩)], [(0, ⟨0, -1, 0, 1⟩)], A') ∧
      (([(0, ⟨0, -1, 0, 1⟩)] : refinement_set) ≠ [] →
        ([(1, ⟨0, -2, 0, 10⟩)] : refinement_set) ≠ []) := by
  refine ⟨_, rfl, ?_⟩
  exact (color_refinement_unique small_globals example_p_values 5 example_tree _
    [(1, ⟨0, -2, 0, 10⟩)] [(0, ⟨0, -1, 0, 1⟩)] rfl
    (heap_ok_of_globals rfl rfl rfl example_tree_heap_ok) (by decide)).2.1

end RTI


namespace RTI

/-! ### The merge refinements and their p-values -/

/-- The merge refinements, for a call that returns: let `get_best_refinements` return the merge set
`first` on a heap whose
partitions are covers, after it has selected the interval `i` with at least `2 * MIN_DATA`
tails. Then `test_point` was called once for every colored state other than the root, in the
order of the state numbers (the list `rs` of the numbers with the p-values returned), and
`first` holds, besides the color refinement, exactly one merge refinement for every such
state whose p-value is not `-1`, keyed by that p-value. No entry has the root as target, and
a state with the p-value `-1` has no entry. -/
theorem merge_refinements_scored (g : globals) (P : p_values) (fuel : Nat)
    (A A' : timed_automaton) (first second : refinement_set) (sel : selection)
    (in_ : interval_ptr) (i : interval)
    (h : get_best_refinements g P fuel A = some (first, second, A')) (hok : heap_ok g A)
    (hmin : 0 ≤ g.MIN_DATA ∧ 2 * g.MIN_DATA < 2 ^ 64) (hsel : select g A = some sel)
    (hin : sel.in_ = some in_) (hi : A.read in_ = some i)
    (hsize : 2 * g.MIN_DATA ≤ i.tails.length) :
    ∃ (rs : List (Nat × ℚ)) (A1 : timed_automaton),
      merge_scores g P fuel in_.state sel.symbol.toNat i.end_ A (List.range A.num_states)
        = some (rs, A1) ∧
      rs.map Prod.fst = (List.range A.num_states).filter
        (fun j => decide (A.get_state j ≠ some A.root)) ∧
      first.Perm ((P.SIGNIFICANCE, ⟨sel.state, -2, sel.symbol, i.end_⟩) ::
        (rs.filter (fun r => decide (r.2 ≠ -1))).map
          (merge_entry sel.state.toNat sel.symbol.toNat i.end_)) := by
  obtain ⟨-, hsc⟩ := selected_scored h hmin hsel hin hi hsize
  obtain ⟨c, hc, hin', hs1, hs2, hs3, hs4⟩ := selected_candidate hsel hin
  obtain ⟨merges, A1, i1, x0, r, st, hm, -, hi1, hf, -⟩ := score_refinements_parts hsc
  have hst : A.get_state sel.state.toNat = some in_.state := by
    rw [hs3, hin']
    exact (mem_candidates hc).1
  obtain ⟨rs, hrs, hmg, hj, hk⟩ := merge_fold_scores _ ([], A) (merges, A1) hok hst hm
  have hkey : in_.key = i.end_ := (read_end hok hi).symm
  have he : i1.end_ = i.end_ := by
    rw [read_end (hk.1 hok) hi1, read_end hok hi]
  have hsym : in_.symbol = sel.symbol.toNat := by rw [hin', hs4]
  rw [hkey] at hrs hmg
  refine ⟨rs, A1, hrs, hj, ?_⟩
  rw [hf]
  refine (insert_refinement_perm _ _).trans ?_
  rw [he, hs3, hs4, hs1, hs2]
  refine List.Perm.cons _ ?_
  have := (merges_targets hmg).1
  rw [hs3, hs4] at this
  exact this

/-- An instance for the merge refinements: in the prefix tree of the words `(0, 1) (0, 3)` and `(0,
5) (0, 2)`,
with `MIN_DATA = 1`, the only colored state is the root, no candidate is tested, and the
merge set is the color refinement. -/
theorem merge_refinements_scored_witness :
    ∃ A', get_best_refinements small_globals example_p_values 5 example_tree
        = some ([(1, ⟨0, -2, 0, 10⟩)], [(0, ⟨0, -1, 0, 1⟩)], A') ∧
      ∃ (rs : List (Nat × ℚ)) (A1 : timed_automaton),
        merge_scores small_globals example_p_values 5 0 0 10 example_tree
          (List.range example_tree.num_states) = some (rs, A1) ∧
        rs.map Prod.fst = (List.range example_tree.num_states).filter
          (fun j => decide (example_tree.get_state j ≠ some example_tree.root)) ∧
        ([(1, ⟨0, -2, 0, 10⟩)] : refinement_set).Perm
          ((example_p_values.SIGNIFICANCE, ⟨0, -2, 0, 10⟩) ::
            (rs.filter (fun r => decide (r.2 ≠ -1))).map (merge_entry 0 0 10)) := by
  refine ⟨_, rfl, ?_⟩
  exact merge_refinements_scored small_globals example_p_values 5 example_tree _
    [(1, ⟨0, -2, 0, 10⟩)] [(0, ⟨0, -1, 0, 1⟩)]
    { in_ := some ⟨0, 0, 10⟩, state := 0, symbol := 0, max_size := 2 } ⟨0, 0, 10⟩
    { interval.new 0 10 with
      tails := [⟨0, 0, [(0, 1), (0, 3), (2, 4)]⟩, ⟨1, 0, [(0, 5), (0, 2), (2, 7)]⟩]
      to_ := some 1 }
    rfl (heap_ok_of_globals rfl rfl rfl example_tree_heap_ok) (by decide) rfl rfl rfl
    (by decide)

/-- The counterexample to C18 as stated: in the prefix tree of twenty copies of the word
`(0, 1) (0, 1)` the state below the root is colored; it has the number 1 and is not the
root. `get_best_refinements` selects its interval, which holds twenty tails, and the test of
the merge with the state itself returns `-1` (the old target holds no tails, fewer than
`MIN_DATA = 10`). The merge set is the color refinement alone: it holds no merge refinement
for the colored state number 1. -/
theorem merge_refinement_missing :
    (tree_of_input example_globals 3 twenty_words).bind (fun A =>
      (refinement.refine example_globals 3 A ⟨0, -2, 0, 10⟩).bind (fun A1 =>
        (test_point example_globals example_p_values 3 A1 1 0 10 (some 1)).bind (fun r =>
          (get_best_refinements example_globals example_p_values 3 A1).map
            (fun res => (A1.states, A1.root, r.2, res.1, res.2.1)))))
      = some ([0, 1], 0, -1, [(1, ⟨1, -2, 0, 10⟩)], []) := by
  rfl

end RTI


namespace RTI

/-! ### The selected interval when the loop over the tails runs -/

theorem read_congr {A B : timed_automaton} {p : Nat} (h : B.mem p = A.mem p) (symbol : Nat)
    (k : Int) : B.read ⟨p, symbol, k⟩ = A.read ⟨p, symbol, k⟩ := by
  unfold timed_automaton.read
  rw [h]

theorem add_split_kept {g : globals} {P : p_values} {fuel : Nat} {state symbol : Nat}
    {acc c : split_loop} {x : timed_tail}
    (h : add_split g P fuel state symbol acc x = some c) : kept g acc.A c.A := by
  unfold add_split at h
  split at h
  · obtain ⟨st, -, h⟩ := Option.bind_eq_some.1 h
    obtain ⟨⟨A1, score⟩, hts, h⟩ := Option.map_eq_some'.1 h
    rw [← h]
    exact test_split_kept hts
  · simp only [Option.some.injEq] at h
    rw [← h]
    exact kept_refl g _

theorem add_split_fold_kept {g : globals} {P : p_values} {fuel : Nat} {state symbol : Nat}
    (T : List timed_tail) {acc r : split_loop}
    (h : T.foldlM (add_split g P fuel state symbol) acc = some r) : kept g acc.A r.A :=
  foldlM_inv _ (fun c => kept g acc.A c.A) T acc r (kept_refl g _)
    (fun a x c _ ha hc => kept_trans ha (add_split_kept hc)) h

theorem selected_below {g : globals} {P : p_values} {fuel : Nat} {A A' : timed_automaton}
    {first second : refinement_set} {sel : selection} {p symbol : Nat} {k : Int}
    {i : interval} {o : Nat} {t : state_tree} {N : Set Nat}
    (h : get_best_refinements g P fuel A = some (first, second, A'))
    (hmin : 0 ≤ g.MIN_DATA ∧ 2 * g.MIN_DATA < 2 ^ 64) (hsel : select g A = some sel)
    (hin : sel.in_ = some ⟨p, symbol, k⟩) (hsize : 2 * g.MIN_DATA ≤ i.tails.length)
    (hb : tree_below g fuel A p symbol k i o t N) :
    ∃ (merges : refinement_set) (A1 : timed_automaton) (t1 : state_tree) (x0 : timed_tail)
      (r : split_loop) (st : Nat),
      tree_below g fuel A1 p symbol k i o t1 N ∧ tree_equiv t t1 ∧ A1.mem p = A.mem p ∧
      (∀ x, x < A.next → x ∉ t.addrs → A1.mem x = A.mem x) ∧ A.next ≤ A1.next ∧
      A1.states = A.states ∧ A1.marker = A.marker ∧ A1.root = A.root ∧
      first = insert_refinement merges (P.SIGNIFICANCE, ⟨sel.state, -2, sel.symbol, i.end_⟩) ∧
      i.tails.head? = some x0 ∧
      i.tails.foldlM (add_split g P fuel sel.state.toNat symbol)
        { splits := [], A := A1, time := x0.get_time_value } = some r ∧
      second = r.splits ∧ A.get_state sel.state.toNat = some p ∧
      clear_marked g r.A (some p) ⟨p, symbol, k⟩ = some A' ∧
      check_consistency g A = true ∧ sel.symbol = symbol ∧ 0 ≤ sel.state ∧
      symbol < g.MAX_SYMBOL := by
  obtain ⟨s, l, hp, hl, hm⟩ := hb.entry
  have hlok : partition_ok g l := (hb.ok p s hp).2 l (mem_of_getElem?_some hl)
  have hi := read_entry hp hl hlok hm
  obtain ⟨hcc, hsc⟩ := selected_scored h hmin hsel hin hi hsize
  obtain ⟨c, hc, hin', hs1, hs2, hs3, hs4⟩ := selected_candidate hsel hin
  simp only [interval_ptr.mk.injEq] at hin'
  obtain ⟨rfl, rfl, rfl⟩ := hin'
  obtain ⟨hgs, hsy, -⟩ := mem_candidates hc
  rw [hs4] at hsc
  obtain ⟨merges, A1, i1, x0, r, st, hmf, -, hi1, hf, hx0, hr, hsec, hst, hcl, -⟩ :=
    score_refinements_parts hsc
  rw [hs3] at hmf hr hst hf
  obtain ⟨res, t1, r1, r2, r3, r4, r5, r6, r7, r8, r9⟩ :=
    @merge_fold_below g P fuel c.state c.symbol c.number c.key i o N
      (List.range A.num_states) ([], A) t hb hgs (fun j hj => List.mem_range.1 hj)
  rw [hmf] at r1
  cases r1
  have hi1' : A1.read ⟨c.state, c.symbol, c.key⟩ = some i := by
    rw [read_congr r4, hi]
  rw [hi1'] at hi1
  cases hi1
  have hst' : st = c.state := by
    have hk := add_split_fold_kept _ hr
    unfold timed_automaton.get_state at hst hgs
    simp only at hk
    rw [hk.2.1, r7, hgs] at hst
    exact (Option.some.inj hst).symm
  rw [hst'] at hcl
  refine ⟨merges, A1, t1, x0, r, c.state, r2, r3, r4, r5, r6, r7, r8, r9, ?_, hx0,
    by rw [hs3]; exact hr, hsec,
    by rw [hs3]; exact hgs, hcl, hcc, hs2, by rw [hs1]; exact Int.ofNat_nonneg _, hsy⟩
  rw [hf, hs1, hs2]

end RTI


namespace RTI

/-! ### The times at which `test_split` is called -/

/-- The calls of `test_split`, for a call that returns: let `get_best_refinements` return the split
set `second` after it has selected the
interval `i` (key `k`, partition for `symbol` of the state at `p`) with at least
`2 * MIN_DATA` tails, in the order of a multimap, above a prefix tree. Then the loop over the
tails runs on the interval as selected, and it is the sequence of the calls of `test_split`
at the times `call_times`, in this order, whose results are collected in `second`. These
times ascend strictly; they are the times of the tails of `i` but the largest; each one lies
in `[begin, end)` of `i` and has a tail of `i` at or before it and a tail behind it. Every
entry of `second` is a split of the selected state and symbol at one of these times. -/
theorem split_calls_spec (g : globals) (P : p_values) (fuel : Nat) (A A' : timed_automaton)
    (first second : refinement_set) (sel : selection) (p symbol : Nat) (k : Int)
    (i : interval) (o : Nat) (t : state_tree) (N : Set Nat)
    (h : get_best_refinements g P fuel A = some (first, second, A'))
    (hmin : 0 ≤ g.MIN_DATA ∧ 2 * g.MIN_DATA < 2 ^ 64) (hsel : select g A = some sel)
    (hin : sel.in_ = some ⟨p, symbol, k⟩) (hsize : 2 * g.MIN_DATA ≤ i.tails.length)
    (hb : tree_below g fuel A p symbol k i o t N) (hsorted : tails_sorted i.tails) :
    ∃ (x0 : timed_tail) (A1 B : timed_automaton), i.tails.head? = some x0 ∧
      A1.read ⟨p, symbol, k⟩ = some i ∧
      (call_times x0.get_time_value i.tails).foldlM
        (split_step g P fuel sel.state.toNat symbol) ([], A1) = some (second, B) ∧
      (call_times x0.get_time_value i.tails).Pairwise (fun a b => a < b) ∧
      (∀ u, u ∈ call_times x0.get_time_value i.tails ↔
        (∃ x, x ∈ i.tails ∧ x.get_time_value = u) ∧ ∃ y, y ∈ i.tails ∧ u < y.get_time_value) ∧
      (∀ u, u ∈ call_times x0.get_time_value i.tails →
        i.begin ≤ u ∧ u < i.end_ ∧ tails_upto i.tails u ≠ [] ∧ tails_after i.tails u ≠ []) ∧
      ∀ x, x ∈ second → x.2.target = -1 ∧ x.2.state = sel.state ∧ x.2.symbol = sel.symbol ∧
        x.2.time ∈ call_times x0.get_time_value i.tails := by
  obtain ⟨merges, A1, t1, x0, r, st, b1, -, hmem, -, -, hst1, -, -, -, hx0, hr, hsec, hgs, -, hcc,
    hsy, hs0, hsym⟩ := selected_below h hmin hsel hin hsize hb
  obtain ⟨s, l, hp, hl, hm⟩ := hb.entry
  have hlok : partition_ok g l := (hb.ok p s hp).2 l (mem_of_getElem?_some hl)
  obtain ⟨s1, l1, hp1, hl1, hm1⟩ := b1.entry
  have hlok1 : partition_ok g l1 := (b1.ok p s1 hp1).2 l1 (mem_of_getElem?_some hl1)
  have hcalls := @split_fold_calls g P fuel sel.state.toNat symbol i.tails
    { splits := [], A := A1, time := x0.get_time_value }
  rw [hr, Option.map_some'] at hcalls
  simp only at hcalls
  have hx0m : x0 ∈ i.tails := List.mem_of_mem_head? hx0
  have hhead : ∀ x, x ∈ i.tails → x0.get_time_value ≤ x.get_time_value := by
    intro x hx
    cases hT : i.tails with
    | nil => rw [hT] at hx; cases hx
    | cons y ys =>
      rw [hT] at hx hx0 hsorted
      simp only [List.head?_cons, Option.some.injEq] at hx0
      subst hx0
      rcases List.mem_cons.1 hx with rfl | hx
      · exact le_refl _
      · exact (List.pairwise_cons.1 hsorted).1 x hx
  obtain ⟨q1, -, q3⟩ := call_times_spec i.tails x0.get_time_value hsorted hhead
  have hmemiff : ∀ u, u ∈ call_times x0.get_time_value i.tails ↔
      (∃ x, x ∈ i.tails ∧ x.get_time_value = u) ∧ ∃ y, y ∈ i.tails ∧ u < y.get_time_value := by
    intro u
    rw [q3 u]
    constructor
    · rintro ⟨h1 | h1, h2⟩
      · exact ⟨⟨x0, hx0m, h1.symm⟩, h2⟩
      · exact ⟨h1, h2⟩
    · rintro ⟨h1, h2⟩
      exact ⟨Or.inr h1, h2⟩
  have hbounds : ∀ x, x ∈ i.tails → i.begin ≤ x.get_time_value ∧ x.get_time_value ≤ i.end_ := by
    intro x hx
    have := check_consistency_bounds hcc (mem_of_getElem?_some hgs) hp hsym
      (show s.get_intervals symbol = some l from hl) hm hx
    exact ⟨this.1, this.2.1⟩
  have hinv := split_steps_inv _ _ _ hcalls.symm
  refine ⟨x0, A1, r.A, hx0, read_entry hp1 hl1 hlok1 hm1, ?_, q1, hmemiff, ?_, ?_⟩
  · rw [← hcalls, hsec]
  · intro u hu
    obtain ⟨⟨x, hx, hxu⟩, y, hy, hyu⟩ := (hmemiff u).1 hu
    have bx := hbounds x hx
    have by' := hbounds y hy
    refine ⟨by omega, by omega, ?_, ?_⟩
    · rw [tails_upto_eq_filter u hsorted]
      exact List.ne_nil_of_mem (List.mem_filter.2 ⟨hx, by simp; omega⟩)
    · rw [tails_after_eq_filter u hsorted]
      exact List.ne_nil_of_mem (List.mem_filter.2 ⟨hy, by simp; omega⟩)
  · intro x hx
    rw [hsec] at hx
    rcases hinv.2 x hx with h1 | ⟨h1, h2, h3, h4⟩
    · cases h1
    · refine ⟨h2, ?_, by rw [h3, hsy], h4⟩
      rw [h1]
      exact Int.toNat_of_nonneg hs0

/-- An instance for the calls of `test_split`: in the prefix tree of the words `(0, 1) (0, 3)` and
`(0, 5) (0, 2)`,
with `MIN_DATA = 1`, the interval of the root holds the tails with the times 1 and 5, and
`test_split` is called at the time 1. -/
theorem split_calls_spec_witness :
    ∃ A', get_best_refinements small_globals example_p_values 5 example_tree
        = some ([(1, ⟨0, -2, 0, 10⟩)], [(0, ⟨0, -1, 0, 1⟩)], A') ∧
      ∃ (x0 : timed_tail) (A1 B : timed_automaton),
        [(⟨0, 0, [(0, 1), (0, 3), (2, 4)]⟩ : timed_tail),
          ⟨1, 0, [(0, 5), (0, 2), (2, 7)]⟩].head? = some x0 ∧
        A1.read ⟨0, 0, 10⟩ = some { interval.new 0 10 with
          tails := [⟨0, 0, [(0, 1), (0, 3), (2, 4)]⟩, ⟨1, 0, [(0, 5), (0, 2), (2, 7)]⟩]
          to_ := some 1 } ∧
        (call_times x0.get_time_value
          [⟨0, 0, [(0, 1), (0, 3), (2, 4)]⟩, ⟨1, 0, [(0, 5), (0, 2), (2, 7)]⟩]).foldlM
            (split_step small_globals example_p_values 5 0 0) ([], A1)
          = some ([(0, ⟨0, -1, 0, 1⟩)], B) := by
  refine ⟨_, rfl, ?_⟩
  obtain ⟨x0, A1, B, h1, h2, h3, -⟩ :=
    split_calls_spec small_globals example_p_values 5 example_tree _
      [(1, ⟨0, -2, 0, 10⟩)] [(0, ⟨0, -1, 0, 1⟩)]
      { in_ := some ⟨0, 0, 10⟩, state := 0, symbol := 0, max_size := 2 } 0 0 10
      { interval.new 0 10 with
        tails := [⟨0, 0, [(0, 1), (0, 3), (2, 4)]⟩, ⟨1, 0, [(0, 5), (0, 2), (2, 7)]⟩]
        to_ := some 1 } 1 example_state_tree {0}
      rfl (by decide) rfl rfl (by decide) example_tree_below
      (List.pairwise_cons.2 ⟨by decide, List.pairwise_singleton _ _⟩)
  exact ⟨x0, A1, B, h1, h2, h3⟩

end RTI


namespace RTI

/-! ### The interval that `get_best_refinements` works on -/

/-- The selection, for a call that returns: let `get_best_refinements` return on an automaton whose
partitions are in order.
The candidates are the non-empty intervals of the colored states whose target is not a
colored state (a null target is not colored), in the order of the state numbers, the
symbols and the partitions. The interval selected is the first one of the candidates with
the largest number of tails. Both sets returned are empty exactly when there is no
candidate or the selected candidate has fewer than `2 * MIN_DATA` tails; so every
refinement returned carries the state number and the symbol of the selected candidate,
which has at least `2 * MIN_DATA` tails. -/
theorem selection_spec (g : globals) (P : p_values) (fuel : Nat) (A A' : timed_automaton)
    (first second : refinement_set)
    (h : get_best_refinements g P fuel A = some (first, second, A')) (hok : heap_ok g A)
    (hmin : 0 ≤ g.MIN_DATA ∧ 2 * g.MIN_DATA < 2 ^ 64) :
    ∃ sel, select g A = some sel ∧ first_largest (candidates g A) sel ∧
      ((first = [] ∧ second = []) ↔
        (candidates g A = [] ∨
          ∃ c, c ∈ candidates g A ∧ sel.in_ = some ⟨c.state, c.symbol, c.key⟩ ∧
            (c.iv.tails.length : Int) < 2 * g.MIN_DATA)) ∧
      ∀ x, x ∈ first ∨ x ∈ second →
        ∃ c, c ∈ candidates g A ∧ sel.in_ = some ⟨c.state, c.symbol, c.key⟩ ∧
          A.read ⟨c.state, c.symbol, c.key⟩ = some c.iv ∧
          2 * g.MIN_DATA ≤ (c.iv.tails.length : Int) ∧
          x.2.state = (c.number : Int) ∧ x.2.symbol = (c.symbol : Int) := by
  obtain ⟨-, sel, hsel, hcase⟩ := get_best_refinements_parts h
  have hfl := select_first_largest hsel
  refine ⟨sel, hsel, hfl, ?_⟩
  rw [emod_two_min_data hmin] at hcase
  rcases hcase with ⟨hnone, hf, hs, -⟩ | ⟨in_, i, hin, hi, hcase⟩
  · have hnil : candidates g A = [] := by
      rcases hfl with ⟨hl, -⟩ | ⟨n, c, -, hc, -, -⟩
      · exact hl
      · rw [hc] at hnone
        cases hnone
    subst hf
    subst hs
    refine ⟨⟨fun _ => Or.inl hnil, fun _ => ⟨rfl, rfl⟩⟩, fun x hx => ?_⟩
    rcases hx with hx | hx <;> cases hx
  · obtain ⟨c, hc, hptr, hst, hsy, hstn, hsyn⟩ := selected_candidate hsel hin
    have hread := read_candidate hok hc
    have hic : i = c.iv := by
      rw [hptr, hread] at hi
      exact (Option.some.inj hi).symm
    have hin2 : sel.in_ = some ⟨c.state, c.symbol, c.key⟩ := by rw [hin, hptr]
    rcases hcase with ⟨hsmall, hf, hs, -⟩ | ⟨hbig, hscore⟩
    · subst hf
      subst hs
      refine ⟨⟨fun _ => Or.inr ⟨c, hc, hin2, by rw [← hic]; exact hsmall⟩,
        fun _ => ⟨rfl, rfl⟩⟩, fun x hx => ?_⟩
      rcases hx with hx | hx <;> cases hx
    · obtain ⟨merges, e, hf, -, hm, -, hs2⟩ :=
        score_refinements_shape g P fuel A in_ sel.state.toNat sel.symbol.toNat first
          second A' hscore
      have hbig2 : 2 * g.MIN_DATA ≤ (c.iv.tails.length : Int) := by
        rw [← hic]
        exact not_lt.1 hbig
      refine ⟨⟨fun hempty => ?_, fun hr => ?_⟩, fun x hx => ?_⟩
      · exfalso
        rw [hf] at hempty
        exact insert_refinement_ne_nil _ _ hempty.1
      · exfalso
        rcases hr with hnil | ⟨c2, hc2, hin3, hlt⟩
        · rw [hnil] at hc
          cases hc
        · have hread2 := read_candidate hok hc2
          rw [hin2] at hin3
          simp only [Option.some.injEq, interval_ptr.mk.injEq] at hin3
          rw [← hin3.1, ← hin3.2.1, ← hin3.2.2, hread] at hread2
          have heq : c.iv = c2.iv := Option.some.inj hread2
          rw [← heq] at hlt
          omega
      · refine ⟨c, hc, hin2, hread, hbig2, ?_⟩
        rcases hx with hx | hx
        · rw [hf] at hx
          rcases (mem_insert_refinement _ _ _).1 hx with rfl | hx
          · exact ⟨by simp [hstn], by simp [hsyn]⟩
          · have := hm x hx
            exact ⟨by rw [this.2.1, hstn], by rw [this.2.2, hsyn]⟩
        · have := hs2 x hx
          exact ⟨by rw [this.2.1, hstn], by rw [this.2.2, hsyn]⟩

/-- An instance of the selection: for the prefix tree `example_tree` with `MIN_DATA = 1` the only
candidate is the interval of the root, with two tails. -/
theorem selection_spec_witness :
    ∃ A', get_best_refinements small_globals example_p_values 5 example_tree
        = some ([(1, ⟨0, -2, 0, 10⟩)], [(0, ⟨0, -1, 0, 1⟩)], A') ∧
      ∃ sel, select small_globals example_tree = some sel ∧
        first_largest (candidates small_globals example_tree) sel := by
  refine ⟨_, rfl, ?_⟩
  obtain ⟨sel, h1, h2, -⟩ := selection_spec small_globals example_p_values 5 example_tree _
    [(1, ⟨0, -2, 0, 10⟩)] [(0, ⟨0, -1, 0, 1⟩)] rfl example_tree_below.ok (by decide)
  exact ⟨sel, h1, h2⟩

end RTI


namespace RTI

/-! ### C26: the histogram bin of a delay -/

/-- C26: for thresholds `TIME_IQR25 ≤ TIME_IQR50 ≤ TIME_IQR75` and every time `t`, `get_bar`
is 0 for `t ≤ TIME_IQR25`, 1 for `TIME_IQR25 < t ≤ TIME_IQR50`, 2 for
`TIME_IQR50 < t ≤ TIME_IQR75` and 3 above `TIME_IQR75`; it is monotone in `t`; every
threshold lies in the lower one of the bins it separates; and with the thresholds 10, 20
and 30 the bins of 5, 10, 11, 25 and 40 are 0, 0, 1, 2 and 3. -/
theorem get_bar_spec (g : globals) (h1 : g.TIME_IQR25 ≤ g.TIME_IQR50)
    (h2 : g.TIME_IQR50 ≤ g.TIME_IQR75) :
    (∀ t, t ≤ g.TIME_IQR25 → get_bar g t = 0) ∧
      (∀ t, g.TIME_IQR25 < t → t ≤ g.TIME_IQR50 → get_bar g t = 1) ∧
      (∀ t, g.TIME_IQR50 < t → t ≤ g.TIME_IQR75 → get_bar g t = 2) ∧
      (∀ t, g.TIME_IQR75 < t → get_bar g t = 3) ∧
      (∀ t u, t ≤ u → get_bar g t ≤ get_bar g u) ∧
      get_bar g g.TIME_IQR25 = 0 ∧ get_bar g g.TIME_IQR50 ≤ 1 ∧ get_bar g g.TIME_IQR75 ≤ 2 ∧
      get_bar g (g.TIME_IQR25 + 1) ≥ 1 ∧ get_bar g (g.TIME_IQR50 + 1) ≥ 2 ∧
      get_bar g (g.TIME_IQR75 + 1) = 3 ∧
      (g.TIME_IQR25 = 10 → g.TIME_IQR50 = 20 → g.TIME_IQR75 = 30 →
        get_bar g 5 = 0 ∧ get_bar g 10 = 0 ∧ get_bar g 11 = 1 ∧ get_bar g 25 = 2 ∧
          get_bar g 40 = 3) := by
  refine ⟨?_, ?_, ?_, ?_, ?_, ?_, ?_, ?_, ?_, ?_, ?_, ?_⟩
  · intro t ht
    simp [get_bar, ht]
  · intro t h3 h4
    simp [get_bar, not_le.2 h3, h4]
  · intro t h3 h4
    have h5 : ¬ t ≤ g.TIME_IQR25 := by omega
    simp [get_bar, h5, not_le.2 h3, h4]
  · intro t h3
    have h5 : ¬ t ≤ g.TIME_IQR25 := by omega
    have h6 : ¬ t ≤ g.TIME_IQR50 := by omega
    have h7 : ¬ t ≤ g.TIME_IQR75 := by omega
    simp [get_bar, h5, h6, h7]
  · intro t u htu
    unfold get_bar
    split_ifs <;> omega
  · simp [get_bar]
  · unfold get_bar
    split_ifs <;> omega
  · unfold get_bar
    split_ifs <;> omega
  · unfold get_bar
    split_ifs <;> omega
  · unfold get_bar
    split_ifs <;> omega
  · unfold get_bar
    split_ifs <;> omega
  · intro e1 e2 e3
    unfold get_bar
    rw [e1, e2, e3]
    decide

/-- The witness of C26: the thresholds 10, 20 and 30 of the example of the specification. -/
theorem get_bar_spec_witness :
    get_bar { example_globals with TIME_IQR25 := 10, TIME_IQR50 := 20, TIME_IQR75 := 30 } 11 = 1 ∧
      get_bar { example_globals with TIME_IQR25 := 10, TIME_IQR50 := 20, TIME_IQR75 := 30 }
        25 = 2 :=
  ⟨(get_bar_spec { example_globals with TIME_IQR25 := 10, TIME_IQR50 := 20, TIME_IQR75 := 30 }
      (by decide) (by decide)).2.1 11 (by decide) (by decide),
   (get_bar_spec { example_globals with TIME_IQR25 := 10, TIME_IQR50 := 20, TIME_IQR75 := 30 }
      (by decide) (by decide)).2.2.1 25 (by decide) (by decide)⟩

end RTI


namespace RTI

/-! ### C29: coloring a state and its inverse -/

theorem erase_last_append (l : List Nat) (s : Nat) : timed_automaton.erase_last (l ++ [s]) s = l := by
  unfold timed_automaton.erase_last
  rw [List.reverse_append, List.reverse_singleton, List.singleton_append,
    List.erase_cons_head, List.reverse_reverse]

theorem erase_last_of_not_mem (l : List Nat) (s : Nat) (h : s ∉ l) : timed_automaton.erase_last l s = l := by
  unfold timed_automaton.erase_last
  rw [List.erase_of_not_mem (by simpa using h), List.reverse_reverse]

theorem erase_last_last (l1 l2 : List Nat) (s : Nat) (h : s ∉ l2) :
    timed_automaton.erase_last (l1 ++ s :: l2) s = l1 ++ l2 := by
  unfold timed_automaton.erase_last
  rw [List.reverse_append, List.reverse_cons, List.append_assoc,
    List.erase_append_right _ (by simpa using h), List.singleton_append,
    List.erase_cons_head, List.reverse_append, List.reverse_reverse, List.reverse_reverse]

theorem del_add_state (B : timed_automaton) (s : Nat) : (B.add_state s).del_state s = B := by
  cases B
  simp only [timed_automaton.add_state, timed_automaton.del_state, erase_last_append]

theorem interval_at_add_state (A : timed_automaton) (s : Nat) (p : Option Nat) (symbol : Nat)
    (time : Int) : (A.add_state s).interval_at p symbol time = A.interval_at p symbol time :=
  rfl

/-- C29: `del_state(s)` after `add_state(s)` gives back the automaton, so the colored list;
`del_state` erases the last occurrence of `s` and nothing else (nothing at all when `s` is
not in the list). Hence a color refinement (target code below -1) that `refine` has applied
is undone by `undo_refine`: while it is applied the colored states keep their indices and
the new state is the last one, and afterwards the automaton, with the colored list, is the
one before. -/
theorem color_refinement_undone (g : globals) (fuel : Nat) (A A1 : timed_automaton)
    (r : refinement) (hr : r.target < -1) (h : r.refine g fuel A = some A1) :
    (∀ (B : timed_automaton) (s : Nat), (B.add_state s).del_state s = B) ∧
      (∀ (B : timed_automaton) (s : Nat),
        ((B.add_state s).del_state s).states = B.states) ∧
      (∀ (l1 l2 : List Nat) (s : Nat), s ∉ l2 →
        timed_automaton.erase_last (l1 ++ s :: l2) s = l1 ++ l2) ∧
      (∀ (l : List Nat) (s : Nat), s ∉ l → timed_automaton.erase_last l s = l) ∧
      (∃ t, A1 = A.add_state t ∧ A1.states = A.states ++ [t]) ∧
      (∀ i, i < A.num_states → A1.get_state i = A.get_state i) ∧
      r.undo_refine g fuel A1 = some A := by
  refine ⟨del_add_state, fun B s => by rw [del_add_state], erase_last_last,
    erase_last_of_not_mem, ?_⟩
  unfold refinement.refine at h
  obtain ⟨st, hst, h⟩ := Option.bind_eq_some.1 h
  rw [if_neg (by omega), if_neg (by omega)] at h
  obtain ⟨⟨in_, i⟩, hi, h⟩ := Option.bind_eq_some.1 h
  obtain ⟨t, ht, h⟩ := Option.map_eq_some'.1 h
  subst h
  have hidx : ∀ j, j < A.num_states → (A.add_state t).get_state j = A.get_state j := by
    intro j hj
    unfold timed_automaton.get_state timed_automaton.add_state
    exact List.getElem?_append_left hj
  have hlt : r.state.toNat < A.num_states := by
    unfold timed_automaton.get_state at hst
    exact (List.getElem?_eq_some_iff.1 hst).1
  refine ⟨⟨t, rfl, rfl⟩, hidx, ?_⟩
  unfold refinement.undo_refine
  rw [hidx _ hlt, hst, Option.some_bind, if_neg (by omega), if_neg (by omega),
    interval_at_add_state, hi, Option.some_bind]
  simp only [ht, Option.map_some', del_add_state]

/-- The witness of C29: the color refinement of the interval of the root of
`example_tree`. -/
theorem color_refinement_undone_witness :
    ∃ A1, refinement.refine example_globals 3 example_tree ⟨0, -2, 0, 10⟩ = some A1 ∧
      A1.states = [0, 1] ∧
      refinement.undo_refine example_globals 3 A1 ⟨0, -2, 0, 10⟩ = some example_tree :=
  ⟨example_tree.add_state 1, by rfl, rfl,
    (color_refinement_undone example_globals 3 example_tree (example_tree.add_state 1)
      ⟨0, -2, 0, 10⟩ (by decide) (by rfl)).2.2.2.2.2.2⟩

end RTI


namespace RTI

/-! ### C25: the chi-squared term of one category -/

theorem neg_or_self_eq_abs (x : ℚ) : (if x < 0 then -x else x) = |x| := by
  split
  · rename_i h
    exact (abs_of_neg h).symm
  · rename_i h
    exact (abs_of_nonneg (not_lt.1 h)).symm

theorem chi2_value_plain (g : globals) (a b ta tb : ℚ) (h : ¬ (a < g.MIN_DATA ∨ b < g.MIN_DATA)) :
    calculate_chi2_value g a b ta tb =
      (a - ta * (a + b) / (ta + tb)) ^ 2 / (ta * (a + b) / (ta + tb)) +
        (b - tb * (a + b) / (ta + tb)) ^ 2 / (tb * (a + b) / (ta + tb)) := by
  unfold calculate_chi2_value
  simp only [if_neg h, sq]

theorem chi2_value_yates (g : globals) (a b ta tb : ℚ) (h : a < g.MIN_DATA ∨ b < g.MIN_DATA) :
    calculate_chi2_value g a b ta tb =
      (|a - ta * (a + b) / (ta + tb)| - 1 / 2) ^ 2 / (ta * (a + b) / (ta + tb)) +
        (|b - tb * (a + b) / (ta + tb)| - 1 / 2) ^ 2 / (tb * (a + b) / (ta + tb)) := by
  unfold calculate_chi2_value
  simp only [if_pos h, sq, neg_or_self_eq_abs]

theorem chi2_value_symm (g : globals) (a b ta tb : ℚ) :
    calculate_chi2_value g a b ta tb = calculate_chi2_value g b a tb ta := by
  by_cases h : a < g.MIN_DATA ∨ b < g.MIN_DATA
  · rw [chi2_value_yates g a b ta tb h, chi2_value_yates g b a tb ta (Or.symm h),
      add_comm b a, add_comm tb ta, add_comm]
  · rw [chi2_value_plain g a b ta tb h,
      chi2_value_plain g b a tb ta (fun h1 => h (Or.symm h1)),
      add_comm b a, add_comm tb ta, add_comm]

/-- C25: in exact rational arithmetic, for positive totals `ta`, `tb` and `a + b > 0`, the
expected values `ea = ta (a + b) / (ta + tb)` and `eb = tb (a + b) / (ta + tb)` are
positive and `calculate_chi2_value(a, b, ta, tb)` is `da² / ea + db² / eb`, where `da = a - ea`
and `db = b - eb` when both `a` and `b` are at least `MIN_DATA`, and `da = |a - ea| - 1/2`
and `db = |b - eb| - 1/2` when `a` or `b` is below `MIN_DATA`; the value is not negative and
does not change when `(a, ta)` and `(b, tb)` are swapped. -/
theorem chi2_value_spec (g : globals) (a b ta tb : ℚ) (hta : 0 < ta) (htb : 0 < tb)
    (hab : 0 < a + b) :
    0 < ta * (a + b) / (ta + tb) ∧ 0 < tb * (a + b) / (ta + tb) ∧
      ((g.MIN_DATA : ℚ) ≤ a → (g.MIN_DATA : ℚ) ≤ b →
        calculate_chi2_value g a b ta tb =
          (a - ta * (a + b) / (ta + tb)) ^ 2 / (ta * (a + b) / (ta + tb)) +
            (b - tb * (a + b) / (ta + tb)) ^ 2 / (tb * (a + b) / (ta + tb))) ∧
      ((a < g.MIN_DATA ∨ b < g.MIN_DATA) →
        calculate_chi2_value g a b ta tb =
          (|a - ta * (a + b) / (ta + tb)| - 1 / 2) ^ 2 / (ta * (a + b) / (ta + tb)) +
            (|b - tb * (a + b) / (ta + tb)| - 1 / 2) ^ 2 / (tb * (a + b) / (ta + tb))) ∧
      0 ≤ calculate_chi2_value g a b ta tb ∧
      calculate_chi2_value g a b ta tb = calculate_chi2_value g b a tb ta := by
  have hea : 0 < ta * (a + b) / (ta + tb) := div_pos (mul_pos hta hab) (add_pos hta htb)
  have heb : 0 < tb * (a + b) / (ta + tb) := div_pos (mul_pos htb hab) (add_pos hta htb)
  refine ⟨hea, heb, ?_, chi2_value_yates g a b ta tb, ?_, chi2_value_symm g a b ta tb⟩
  · intro h1 h2
    exact chi2_value_plain g a b ta tb (fun h => h.elim (not_lt.2 h1) (not_lt.2 h2))
  · by_cases h : a < g.MIN_DATA ∨ b < g.MIN_DATA
    · rw [chi2_value_yates g a b ta tb h]
      exact add_nonneg (div_nonneg (sq_nonneg _) hea.le) (div_nonneg (sq_nonneg _) heb.le)
    · rw [chi2_value_plain g a b ta tb h]
      exact add_nonneg (div_nonneg (sq_nonneg _) hea.le) (div_nonneg (sq_nonneg _) heb.le)

/-- The witness of C25: the counts 5 and 15 with the totals 20 and 20 and `MIN_DATA = 10`;
the expected values are 10 and 10 and the value is `(5 - 1/2)² / 10 + (5 - 1/2)² / 10`. -/
theorem chi2_value_spec_witness :
    calculate_chi2_value example_globals 5 15 20 20 = 81 / 20 ∧
      0 ≤ calculate_chi2_value example_globals 5 15 20 20 :=
  ⟨by
    rw [((chi2_value_spec example_globals 5 15 20 20 (by norm_num) (by norm_num)
      (by norm_num)).2.2.2.1 (Or.inl (by norm_num [example_globals])))]
    norm_num [abs_of_neg, abs_of_pos],
   (chi2_value_spec example_globals 5 15 20 20 (by norm_num) (by norm_num)
      (by norm_num)).2.2.2.2.1⟩

end RTI


namespace RTI

/-! ### C28: the number of parameters -/

theorem count_fold_next (l : List (Int × interval)) :
    ∀ (r : Int) (p : Option Nat),
      (l.foldl count_interval { result := r, prev_state := p, first := false }).result =
        r + (target_runs (p :: l.map (fun e => e.2.get_target)) : Int) - 1 := by
  induction l with
  | nil =>
    intro r p
    simp [target_runs]
  | cons e l ih =>
    intro r p
    rw [List.foldl_cons]
    by_cases h : e.2.get_target = p
    · have hc : count_interval { result := r, prev_state := p, first := false } e =
          { result := r, prev_state := p, first := false } := by
        simp [count_interval, h]
      rw [hc, ih r p]
      simp [target_runs, h]
    · have hc : count_interval { result := r, prev_state := p, first := false } e =
          { result := r + 1, prev_state := e.2.get_target, first := false } := by
        simp [count_interval, h]
      rw [hc, ih (r + 1) e.2.get_target]
      have hne : ¬ p = e.2.get_target := fun h1 => h h1.symm
      simp only [List.map_cons, target_runs, if_neg hne]
      push_cast
      ring

theorem count_fold (l : List (Int × interval)) (r : Int) :
    (l.foldl count_interval { result := r, prev_state := none, first := true }).result =
      r + (target_runs (l.map (fun e => e.2.get_target)) : Int) := by
  cases l with
  | nil => simp [target_runs]
  | cons e l =>
    rw [List.foldl_cons]
    have hc : count_interval { result := r, prev_state := none, first := true } e =
        { result := r + 1, prev_state := e.2.get_target, first := false } := by
      simp [count_interval]
    rw [hc, count_fold_next l (r + 1) e.2.get_target]
    simp only [List.map_cons]
    ring

theorem foldlM_range_list {α β : Type} (f : β → α → β) (ts : List α) :
    ∀ (pre : List α) (r : β),
      (List.range' pre.length ts.length).foldlM
          (fun (r : β) (i : Nat) => ((pre ++ ts)[i]?).map (f r)) r =
        some (ts.foldl f r) := by
  induction ts with
  | nil =>
    intro pre r
    rfl
  | cons x xs ih =>
    intro pre r
    rw [List.length_cons, List.range'_succ, List.foldlM_cons]
    have h0 : (pre ++ x :: xs)[pre.length]? = some x := by
      rw [List.getElem?_append_right (le_refl _)]
      simp
    rw [h0, Option.map_some', List.foldl_cons]
    simp only [Option.bind_eq_bind, Option.some_bind]
    have := ih (pre ++ [x]) (f r x)
    simpa using this

theorem count_state_eq (g : globals) (s : timed_state) (r : Int)
    (h : s.targets.length = g.MAX_SYMBOL) :
    count_state g s r =
      some (r + ((s.targets.map (fun l => target_runs (l.map (fun e => e.2.get_target)))).sum
        : Nat)) := by
  unfold count_state timed_state.get_intervals
  have h1 := foldlM_range_list
    (fun (result : Int) (l : interval_set) =>
      (l.foldl count_interval { result := result, prev_state := none, first := true }).result)
    s.targets [] r
  rw [List.length_nil, List.nil_append, ← List.range_eq_range', h] at h1
  rw [h1]
  congr 1
  clear h1 h
  generalize s.targets = ts
  induction ts generalizing r with
  | nil => simp
  | cons l ls ih =>
    rw [List.foldl_cons, ih, count_fold]
    simp only [List.map_cons, List.sum_cons]
    push_cast
    ring

theorem get_size_fold (g : globals) (A : timed_automaton) (L : List Nat) :
    ∀ (r : Int), (∀ st, st ∈ L → ∃ s, A.mem st = some s ∧ s.targets.length = g.MAX_SYMBOL) →
      L.foldlM (fun (result : Int) (st : Nat) =>
          (A.mem st).bind (fun s => count_state g s result)) r =
        some (r + ((L.map (fun st =>
          match A.mem st with
          | some s =>
            (s.targets.map (fun l => target_runs (l.map (fun e => e.2.get_target)))).sum
          | none => 0)).sum : Nat)) := by
  induction L with
  | nil =>
    intro r _
    simp
  | cons st L ih =>
    intro r h
    obtain ⟨s, hs, hlen⟩ := h st (List.mem_cons_self _ _)
    rw [List.foldlM_cons, hs, Option.some_bind, count_state_eq g s r hlen]
    simp only [Option.bind_eq_bind, Option.some_bind]
    rw [ih _ (fun x hx => h x (List.mem_cons_of_mem _ hx))]
    simp only [List.map_cons, List.sum_cons, hs]
    push_cast
    rw [add_assoc]

theorem target_runs_single (l : interval_set) (h : ∃ e, l = [e]) :
    target_runs (l.map (fun e => e.2.get_target)) = 1 := by
  obtain ⟨e, rfl⟩ := h
  rfl

theorem unsplit_count (g : globals) (s : timed_state) (h : s.unsplit g) :
    (s.targets.map (fun l => target_runs (l.map (fun e => e.2.get_target)))).sum
      = g.MAX_SYMBOL := by
  have h1 : ∀ l, l ∈ s.targets → target_runs (l.map (fun e => e.2.get_target)) = 1 := by
    intro l hl
    obtain ⟨i, hi, rfl⟩ := List.getElem_of_mem hl
    obtain ⟨I, hI⟩ := h.2 i (h.1 ▸ hi)
    apply target_runs_single
    rw [List.getElem?_eq_getElem hi] at hI
    exact ⟨_, Option.some.inj hI⟩
  rw [List.map_congr_left h1, List.map_const', List.sum_replicate, h.1]
  simp

/-- C28: when every colored state is allocated and has its `MAX_SYMBOL` partitions,
`get_size()` returns the sum, over the colored states and the symbols, of the number of
maximal runs of neighbouring intervals with the same target pointer in the partition (the
null pointer counts as a target), and `calculate_parameters()` returns
`(NUM_HISTOGRAM_BARS - 1)` times the number of colored states plus this size. When the only
colored state is an unsplit state, this is `(NUM_HISTOGRAM_BARS - 1) + MAX_SYMBOL`. -/
theorem calculate_parameters_spec (g : globals) (A : timed_automaton)
    (h : ∀ st, st ∈ A.states → ∃ s, A.mem st = some s ∧ s.targets.length = g.MAX_SYMBOL) :
    A.get_size g = some ((transition_count A : Nat) : Int) ∧
      calculate_parameters g A =
        some (((NUM_HISTOGRAM_BARS : Int) - 1) * A.num_states + (transition_count A : Nat)) ∧
      ∀ (r : Nat) (s : timed_state), A.states = [r] → A.mem r = some s → s.unsplit g →
        calculate_parameters g A = some (((NUM_HISTOGRAM_BARS : Int) - 1) + g.MAX_SYMBOL) := by
  have h1 : A.get_size g = some ((transition_count A : Nat) : Int) := by
    unfold timed_automaton.get_size
    rw [get_size_fold g A A.states 0 h, zero_add]
    rfl
  have h2 : calculate_parameters g A =
      some (((NUM_HISTOGRAM_BARS : Int) - 1) * A.num_states + (transition_count A : Nat)) := by
    unfold calculate_parameters
    simp only [h1, Option.map_some']
  refine ⟨h1, h2, ?_⟩
  intro r s hr hs hu
  rw [h2]
  have h3 : transition_count A = g.MAX_SYMBOL := by
    unfold transition_count
    rw [hr]
    simp only [List.map_cons, List.map_nil, List.sum_cons, List.sum_nil, hs, add_zero]
    exact unsplit_count g s hu
  rw [h3]
  unfold timed_automaton.num_states
  rw [hr]
  simp

/-- The witness of C28: the prefix tree `example_tree`, whose only colored state is the
unsplit root; with one symbol the number of parameters is 4. -/
theorem calculate_parameters_spec_witness :
    calculate_parameters example_globals example_tree = some 4 ∧
      example_tree.get_size example_globals = some 1 :=
  ⟨(calculate_parameters_spec example_globals example_tree
      (by
        intro st hst
        have h0 : st = 0 := by simpa [example_tree] using hst
        subst h0
        exact ⟨example_root, rfl, rfl⟩)).2.1,
   (calculate_parameters_spec example_globals example_tree
      (by
        intro st hst
        have h0 : st = 0 := by simpa [example_tree] using hst
        subst h0
        exact ⟨example_root, rfl, rfl⟩)).1⟩

end RTI


namespace RTI

/-! ### C27: the thresholds that reading the corpus sets -/

theorem mem_set_insert (x t : Int) (l : List Int) : t ∈ set_insert x l ↔ t = x ∨ t ∈ l := by
  induction l with
  | nil => simp [set_insert]
  | cons y ys ih =>
    unfold set_insert
    split
    · simp
    · split
      · rename_i h
        subst h
        simp
      · simp only [List.mem_cons, ih]
        tauto

theorem set_insert_sorted (x : Int) (l : List Int) (h : l.Pairwise (fun a b => a < b)) :
    (set_insert x l).Pairwise (fun a b => a < b) := by
  induction l with
  | nil => simp [set_insert]
  | cons y ys ih =>
    unfold set_insert
    obtain ⟨h1, h2⟩ := List.pairwise_cons.1 h
    split
    · rename_i hxy
      refine List.pairwise_cons.2 ⟨fun b hb => ?_, h⟩
      rcases List.mem_cons.1 hb with rfl | hb
      · exact hxy
      · exact lt_trans hxy (h1 b hb)
    · split
      · exact h
      · rename_i h3 h4
        refine List.pairwise_cons.2 ⟨fun b hb => ?_, ih h2⟩
        rcases (mem_set_insert x b ys).1 hb with rfl | hb
        · omega
        · exact h1 b hb

theorem read_pair_points {alph_size : Nat} {acc r : reader × List (Nat × Int)}
    {p : Char × Int} (h : read_pair alph_size acc p = some r) :
    r.1.time_points = set_insert p.2 acc.1.time_points := by
  unfold read_pair at h
  simp only at h
  split at h
  · cases h
    rfl
  · split at h
    · cases h
      rfl
    · cases h

theorem read_pairs_points {alph_size : Nat} (line : List (Char × Int)) :
    ∀ (acc r : reader × List (Nat × Int)), line.foldlM (read_pair alph_size) acc = some r →
      acc.1.time_points.Pairwise (fun a b => a < b) →
      r.1.time_points.Pairwise (fun a b => a < b) ∧
        ∀ t, t ∈ r.1.time_points ↔ t ∈ acc.1.time_points ∨ ∃ p, p ∈ line ∧ p.2 = t := by
  induction line with
  | nil =>
    intro acc r h hs
    simp only [List.foldlM_nil, pure, Option.some.injEq] at h
    subst h
    exact ⟨hs, fun t => by simp⟩
  | cons p ps ih =>
    intro acc r h hs
    rw [List.foldlM_cons] at h
    obtain ⟨c, hc, h⟩ := Option.bind_eq_some.1 h
    have hp := read_pair_points hc
    obtain ⟨h1, h2⟩ := ih c r h (by rw [hp]; exact set_insert_sorted _ _ hs)
    refine ⟨h1, fun t => ?_⟩
    rw [h2 t, hp, mem_set_insert]
    constructor
    · rintro ((rfl | h3) | ⟨q, hq, rfl⟩)
      · exact Or.inr ⟨p, List.mem_cons_self _ _, rfl⟩
      · exact Or.inl h3
      · exact Or.inr ⟨q, List.mem_cons_of_mem _ hq, rfl⟩
    · rintro (h3 | ⟨q, hq, rfl⟩)
      · exact Or.inl (Or.inr h3)
      · rcases List.mem_cons.1 hq with rfl | hq
        · exact Or.inl (Or.inl rfl)
        · exact Or.inr ⟨q, hq, rfl⟩

theorem read_words_points {alph_size : Nat} (lines : List (List (Char × Int))) :
    ∀ (acc r : reader × List (List (Nat × Int))),
      lines.foldlM (read_word alph_size) acc = some r →
      acc.1.time_points.Pairwise (fun a b => a < b) →
      r.1.time_points.Pairwise (fun a b => a < b) ∧
        ∀ t, t ∈ r.1.time_points ↔
          t ∈ acc.1.time_points ∨ ∃ line p, line ∈ lines ∧ p ∈ line ∧ p.2 = t := by
  induction lines with
  | nil =>
    intro acc r h hs
    simp only [List.foldlM_nil, pure, Option.some.injEq] at h
    subst h
    exact ⟨hs, fun t => by simp⟩
  | cons line ls ih =>
    intro acc r h hs
    rw [List.foldlM_cons] at h
    obtain ⟨c, hc, h⟩ := Option.bind_eq_some.1 h
    unfold read_word at hc
    obtain ⟨d, hd, hc⟩ := Option.map_eq_some'.1 hc
    obtain ⟨h1, h2⟩ := read_pairs_points line _ d hd hs
    have hcd : c.1.time_points = d.1.time_points := by rw [← hc]
    obtain ⟨h3, h4⟩ := ih c r h (by rw [hcd]; exact h1)
    refine ⟨h3, fun t => ?_⟩
    rw [h4 t, hcd, h2 t]
    constructor
    · rintro ((h5 | ⟨p, hp, rfl⟩) | ⟨l, p, hl, hp, rfl⟩)
      · exact Or.inl h5
      · exact Or.inr ⟨line, p, List.mem_cons_self _ _, hp, rfl⟩
      · exact Or.inr ⟨l, p, List.mem_cons_of_mem _ hl, hp, rfl⟩
    · rintro (h5 | ⟨l, p, hl, hp, rfl⟩)
      · exact Or.inl (Or.inl h5)
      · rcases List.mem_cons.1 hl with rfl | hl
        · exact Or.inl (Or.inr ⟨p, hp, rfl⟩)
        · exact Or.inr ⟨l, p, hl, hp, rfl⟩

theorem quantile_fold (k1 k2 k3 : Nat) (F : quantile_loop → Int) (k : Nat)
    (hF : ∀ acc x, F (set_quantile k1 k2 k3 acc x) = if acc.number = k then x else F acc)
    (l : List Int) :
    ∀ (acc : quantile_loop),
      (acc.number ≤ k →
        F (l.foldl (set_quantile k1 k2 k3) acc) = l.getD (k - acc.number) (F acc)) ∧
      (k < acc.number → F (l.foldl (set_quantile k1 k2 k3) acc) = F acc) := by
  induction l with
  | nil =>
    intro acc
    simp
  | cons x xs ih =>
    intro acc
    have hn : (set_quantile k1 k2 k3 acc x).number = acc.number + 1 := rfl
    obtain ⟨i1, i2⟩ := ih (set_quantile k1 k2 k3 acc x)
    rw [List.foldl_cons]
    constructor
    · intro hle
      rcases Nat.lt_or_ge acc.number k with hlt | hge
      · rw [i1 (by rw [hn]; omega), hF, if_neg (by omega), hn]
        have hk : k - acc.number = (k - (acc.number + 1)) + 1 := by omega
        rw [hk, List.getD_cons_succ]
      · have hk : acc.number = k := by omega
        rw [i2 (by rw [hn]; omega), hF, if_pos hk, hk, Nat.sub_self, List.getD_cons_zero]
    · intro hlt
      rw [i2 (by rw [hn]; omega), hF, if_neg (by omega)]

theorem quantile_fold_sup (k1 k2 k3 : Nat) (l : List Int) :
    ∀ (acc : quantile_loop),
      (∀ t, t ∈ l → t ≤ (l.foldl (set_quantile k1 k2 k3) acc).time_sup) ∧
        acc.time_sup ≤ (l.foldl (set_quantile k1 k2 k3) acc).time_sup ∧
        ((l.foldl (set_quantile k1 k2 k3) acc).time_sup = acc.time_sup ∨
          (l.foldl (set_quantile k1 k2 k3) acc).time_sup ∈ l) := by
  induction l with
  | nil =>
    intro acc
    simp
  | cons x xs ih =>
    intro acc
    obtain ⟨i1, i2, i3⟩ := ih (set_quantile k1 k2 k3 acc x)
    have hs : (set_quantile k1 k2 k3 acc x).time_sup =
        if x > acc.time_sup then x else acc.time_sup := rfl
    rw [List.foldl_cons]
    rw [hs] at i2 i3
    refine ⟨fun t ht => ?_, ?_, ?_⟩
    · rcases List.mem_cons.1 ht with rfl | ht
      · split at i2 <;> omega
      · exact i1 t ht
    · split at i2 <;> omega
    · rcases i3 with i3 | i3
      · split at i3
        · exact Or.inr (by rw [i3]; exact List.mem_cons_self _ _)
        · exact Or.inl i3
      · exact Or.inr (List.mem_cons_of_mem _ i3)

theorem quantile_fold_rest (k1 k2 k3 : Nat) (l : List Int) :
    ∀ (acc : quantile_loop),
      (l.foldl (set_quantile k1 k2 k3) acc).g.MAX_SYMBOL = acc.g.MAX_SYMBOL ∧
        (l.foldl (set_quantile k1 k2 k3) acc).g.MIN_TIME = acc.g.MIN_TIME ∧
        (l.foldl (set_quantile k1 k2 k3) acc).g.MIN_DATA = acc.g.MIN_DATA := by
  induction l with
  | nil =>
    intro acc
    exact ⟨rfl, rfl, rfl⟩
  | cons x xs ih =>
    intro acc
    rw [List.foldl_cons]
    obtain ⟨i1, i2, i3⟩ := ih (set_quantile k1 k2 k3 acc x)
    rw [i1, i2, i3]
    unfold set_quantile
    simp only
    refine ⟨?_, ?_, ?_⟩ <;> split_ifs <;> rfl

set_option maxRecDepth 100000 in
theorem forty_delays_read :
    (timed_input.new initial_globals 1 forty_delays).map
        (fun r => (r.2.TIME_IQR25, r.2.TIME_IQR50, r.2.TIME_IQR75, r.2.MAX_TIME, r.2.MAX_SYMBOL))
      = some (11, 21, 31, 40, 1) := by
  rfl

/-- C27 (amended): when the constructor of `timed_input` returns, the set `time_points` is
the strictly ascending sequence `tp` of the distinct delays of the corpus, and the
constructor sets `TIME_IQR25`, `TIME_IQR50` and `TIME_IQR75` to the elements of `tp` at the
positions `n / 4`, `n / 2` and `3 n / 4` (rounded down, the first position being 0), where
`n` is the number of distinct delays, `MAX_TIME` to the largest delay (to -1 when no delay
is above -1) and `MAX_SYMBOL` to the alphabet size. For the corpus of the forty words `a t`
with `t` from 1 to 40 these are the thresholds 11, 21 and 31 and `MAX_TIME = 40`. -/
theorem quantiles_spec (g g1 : globals) (alph_size : Nat) (lines : List (List (Char × Int)))
    (input : timed_input) (h : timed_input.new g alph_size lines = some (input, g1)) :
    (∃ tp : List Int, tp.Pairwise (fun a b => a < b) ∧
      (∀ t, t ∈ tp ↔ ∃ line p, line ∈ lines ∧ p ∈ line ∧ p.2 = t) ∧
      g1.TIME_IQR25 = tp.getD (tp.length / 4) g.TIME_IQR25 ∧
      g1.TIME_IQR50 = tp.getD (tp.length / 2) g.TIME_IQR50 ∧
      g1.TIME_IQR75 = tp.getD (tp.length * 3 / 4) g.TIME_IQR75 ∧
      (∀ t, t ∈ tp → t ≤ g1.MAX_TIME) ∧ (g1.MAX_TIME = -1 ∨ g1.MAX_TIME ∈ tp) ∧
      g1.MAX_SYMBOL = alph_size ∧ g1.MIN_TIME = g.MIN_TIME ∧ g1.MIN_DATA = g.MIN_DATA) ∧
    (timed_input.new initial_globals 1 forty_delays).map
        (fun r => (r.2.TIME_IQR25, r.2.TIME_IQR50, r.2.TIME_IQR75, r.2.MAX_TIME, r.2.MAX_SYMBOL))
      = some (11, 21, 31, 40, 1) := by
  refine ⟨?_, forty_delays_read⟩
  unfold timed_input.new at h
  obtain ⟨r, hr, h⟩ := Option.map_eq_some'.1 h
  simp only [Prod.mk.injEq] at h
  obtain ⟨-, hg⟩ := h
  obtain ⟨hs, hm⟩ := read_words_points lines _ r hr List.Pairwise.nil
  refine ⟨r.1.time_points, hs, fun t => ?_, ?_⟩
  · rw [hm t]
    simp
  · subst hg
    unfold set_quantiles
    simp only
    have q25 := (quantile_fold (r.1.time_points.length / 4) (r.1.time_points.length / 2)
      (r.1.time_points.length * 3 / 4) (fun a => a.g.TIME_IQR25) (r.1.time_points.length / 4)
      (by
        intro acc x
        unfold set_quantile
        simp only
        split_ifs <;> rfl)
      r.1.time_points ⟨{ g with MAX_SYMBOL := alph_size }, -1, 0⟩).1 (Nat.zero_le _)
    have q50 := (quantile_fold (r.1.time_points.length / 4) (r.1.time_points.length / 2)
      (r.1.time_points.length * 3 / 4) (fun a => a.g.TIME_IQR50) (r.1.time_points.length / 2)
      (by
        intro acc x
        unfold set_quantile
        simp only
        split_ifs <;> rfl)
      r.1.time_points ⟨{ g with MAX_SYMBOL := alph_size }, -1, 0⟩).1 (Nat.zero_le _)
    have q75 := (quantile_fold (r.1.time_points.length / 4) (r.1.time_points.length / 2)
      (r.1.time_points.length * 3 / 4) (fun a => a.g.TIME_IQR75)
      (r.1.time_points.length * 3 / 4)
      (by
        intro acc x
        unfold set_quantile
        simp only
        split_ifs <;> rfl)
      r.1.time_points ⟨{ g with MAX_SYMBOL := alph_size }, -1, 0⟩).1 (Nat.zero_le _)
    obtain ⟨s1, -, s3⟩ := quantile_fold_sup (r.1.time_points.length / 4)
      (r.1.time_points.length / 2) (r.1.time_points.length * 3 / 4) r.1.time_points
      ⟨{ g with MAX_SYMBOL := alph_size }, -1, 0⟩
    obtain ⟨r1, r2, r3⟩ := quantile_fold_rest (r.1.time_points.length / 4)
      (r.1.time_points.length / 2) (r.1.time_points.length * 3 / 4) r.1.time_points
      ⟨{ g with MAX_SYMBOL := alph_size }, -1, 0⟩
    exact ⟨q25, q50, q75, s1, s3, r1, r2, r3⟩

/-- The witness of C27: a corpus of two words with the delays 3, 1 and 3. -/
theorem quantiles_spec_witness :
    ∃ g1 : globals, g1.TIME_IQR25 = 1 ∧ g1.TIME_IQR50 = 3 ∧ g1.TIME_IQR75 = 3 ∧
      ∃ tp : List Int, tp.Pairwise (fun a b => a < b) ∧
        (∀ t, t ∈ tp ↔ ∃ line p, line ∈ [[('a', (3 : Int)), ('b', 1)], [('a', 3)]] ∧
          p ∈ line ∧ p.2 = t) ∧
        g1.TIME_IQR25 = tp.getD (tp.length / 4) 0 := by
  refine ⟨⟨2, 0, 3, 1, 3, 3, 10⟩, rfl, rfl, rfl, ?_⟩
  obtain ⟨⟨tp, h1, h2, h3, -⟩, -⟩ := quantiles_spec initial_globals
    ⟨2, 0, 3, 1, 3, 3, 10⟩ 2 [[('a', 3), ('b', 1)], [('a', 3)]]
    { alphabet := ['a', 'b'], words := [[(0, 3), (1, 1)], [(0, 3)]], num_words := 2,
      alph_size := 2 } (by rfl)
  exact ⟨tp, h1, h2, h3⟩

set_option maxRecDepth 100000 in
/-- For the corpus of the forty words `a t` with `t` from 1 to 40 the constructor sets the
thresholds 11, 21 and 31, not 10, 20 and 30: the delay 11 falls into the bin 0. -/
theorem quantiles_forty_delays :
    (timed_input.new initial_globals 1 forty_delays).map
        (fun r => (r.2.TIME_IQR25, r.2.TIME_IQR50, r.2.TIME_IQR75, get_bar r.2 10,
          get_bar r.2 11))
      = some (11, 21, 31, 0, 0) := by
  rfl

end RTI


namespace RTI

/-! ### C23: the scorers below `MIN_DATA` -/

/-- C23 (amended): when the total of one of the two sides is below `MIN_DATA` (the total
counts of the two states for the merge variants, the total counts and the total marks of
the state for the split variants), each of the four chi-squared scorers returns -1 and each
of the four likelihood-ratio scorers returns the pair `(0, 0.0)`, and all eight leave the
accumulators `sum_z_values`, `num_tests`, `ml_ratio` and `ml_parameters` as they are; on
accumulators that were initialised and not changed since, `calculate_consensus_test` and
`calculate_likelihood_test` return -1. -/
theorem scorers_below_min_data (g : globals) (N : numerics) (acc : accumulators)
    (o n t : state_statistics)
    (h1 : o.total_counts < g.MIN_DATA ∨ n.total_counts < g.MIN_DATA)
    (h2 : t.total_counts < g.MIN_DATA ∨ t.total_marks < g.MIN_DATA) :
    calculate_chi2_score g N acc (some o) (some n) = some (-1, acc) ∧
      calculate_chi2_score_time g N acc (some o) (some n) = some (-1, acc) ∧
      calculate_chi2_score_marks g N acc (some t) = some (-1, acc) ∧
      calculate_chi2_score_time_marks g N acc (some t) = some (-1, acc) ∧
      get_likelihood_ratio g N acc (some o) (some n) = some ((0, 0), acc) ∧
      get_likelihood_ratio_time g N acc (some o) (some n) = some ((0, 0), acc) ∧
      get_likelihood_ratio_marks g N acc (some t) = some ((0, 0), acc) ∧
      get_likelihood_ratio_time_marks g N acc (some t) = some ((0, 0), acc) ∧
      calculate_consensus_test N (initialize_consensus_test acc) = -1 ∧
      calculate_likelihood_test N (initialize_likelihood_test acc) = -1 := by
  refine ⟨?_, ?_, ?_, ?_, ?_, ?_, ?_, ?_, ?_, ?_⟩
  · simp only [calculate_chi2_score, if_pos h1]
  · simp only [calculate_chi2_score_time, if_pos h1]
  · simp only [calculate_chi2_score_marks, if_pos h2]
  · simp only [calculate_chi2_score_time_marks, if_pos h2]
  · simp only [get_likelihood_ratio, if_pos h1]
  · simp only [get_likelihood_ratio_time, if_pos h1]
  · simp only [get_likelihood_ratio_marks, if_pos h2]
  · simp only [get_likelihood_ratio_time_marks, if_pos h2]
  · simp [calculate_consensus_test, initialize_consensus_test]
  · simp [calculate_likelihood_test, initialize_likelihood_test]

/-- The witness of C23: two states without counts and `MIN_DATA = 10`. -/
theorem scorers_below_min_data_witness :
    calculate_chi2_score example_globals example_numerics zero_accumulators
        (some (state_statistics.new example_globals))
        (some (state_statistics.new example_globals)) = some (-1, zero_accumulators) ∧
      get_likelihood_ratio_time_marks example_globals example_numerics zero_accumulators
        (some (state_statistics.new example_globals)) = some ((0, 0), zero_accumulators) :=
  ⟨(scorers_below_min_data example_globals example_numerics zero_accumulators
      (state_statistics.new example_globals) (state_statistics.new example_globals)
      (state_statistics.new example_globals) (Or.inl (by decide)) (Or.inl (by decide))).1,
   (scorers_below_min_data example_globals example_numerics zero_accumulators
      (state_statistics.new example_globals) (state_statistics.new example_globals)
      (state_statistics.new example_globals) (Or.inl (by decide))
      (Or.inl (by decide))).2.2.2.2.2.2.2.1⟩

/-- With fewer than `MIN_DATA` counts on both sides the four likelihood-ratio scorers return
the pair `(0, 0.0)`, whose components are not -1. -/
theorem likelihood_ratio_below_min_data :
    get_likelihood_ratio example_globals example_numerics zero_accumulators
        (some (state_statistics.new example_globals))
        (some (state_statistics.new example_globals)) = some ((0, 0), zero_accumulators) ∧
      get_likelihood_ratio_time example_globals example_numerics zero_accumulators
        (some (state_statistics.new example_globals))
        (some (state_statistics.new example_globals)) = some ((0, 0), zero_accumulators) ∧
      get_likelihood_ratio_marks example_globals example_numerics zero_accumulators
        (some (state_statistics.new example_globals)) = some ((0, 0), zero_accumulators) ∧
      get_likelihood_ratio_time_marks example_globals example_numerics zero_accumulators
        (some (state_statistics.new example_globals)) = some ((0, 0), zero_accumulators) :=
  ⟨rfl, rfl, rfl, rfl⟩

end RTI


namespace RTI

/-! ### C24: the rest bucket of the chi-squared scorers -/

theorem zip_getElem?_bind {γ : Type} (F : Int × Int → γ) :
    ∀ (old new : List Int) (i : Nat), old.length = new.length →
      (old[i]?).bind (fun a => (new[i]?).map (fun b => F (a, b))) = ((old.zip new)[i]?).map F := by
  intro old
  induction old with
  | nil =>
    intro new i _
    simp
  | cons a as ih =>
    intro new i h
    cases new with
    | nil => simp at h
    | cons b bs =>
      cases i with
      | zero => simp
      | succ j =>
        simp only [List.length_cons, Nat.succ.injEq, add_left_inj] at h
        simpa using ih bs j h

theorem foldlM_range_zip {β : Type} (f : β → Int × Int → β) (old new : List Int) (n : Nat)
    (h1 : old.length = n) (h2 : new.length = n) (r : β) :
    (List.range n).foldlM (fun (acc : β) (i : Nat) =>
        (old[i]?).bind (fun a => (new[i]?).map (fun b => f acc (a, b)))) r =
      some ((old.zip new).foldl f r) := by
  have hfun : (fun (acc : β) (i : Nat) =>
        (old[i]?).bind (fun a => (new[i]?).map (fun b => f acc (a, b)))) =
      (fun (acc : β) (i : Nat) => (([] ++ old.zip new)[i]?).map (f acc)) := by
    funext acc i
    rw [List.nil_append]
    exact zip_getElem?_bind (f acc) old new i (by rw [h1, h2])
  rw [hfun]
  have := foldlM_range_list f (old.zip new) [] r
  rw [List.length_nil, ← List.range_eq_range', List.length_zip, h1, h2, min_self] at this
  exact this

theorem pool_fold (g : globals) (l : List (Int × Int)) :
    ∀ (r : Int × Int),
      l.foldl (fun (acc : Int × Int) (p : Int × Int) =>
          if p.1 < g.MIN_DATA ∧ p.2 < g.MIN_DATA then (acc.1 + p.1, acc.2 + p.2) else acc) r =
        (r.1 + ((l.filter
            (fun p => decide (p.1 < g.MIN_DATA ∧ p.2 < g.MIN_DATA))).map Prod.fst).sum,
          r.2 + ((l.filter
            (fun p => decide (p.1 < g.MIN_DATA ∧ p.2 < g.MIN_DATA))).map Prod.snd).sum) := by
  induction l with
  | nil =>
    intro r
    simp
  | cons p ps ih =>
    intro r
    rw [List.foldl_cons, ih]
    by_cases h : p.1 < g.MIN_DATA ∧ p.2 < g.MIN_DATA
    · rw [if_pos h, List.filter_cons_of_pos (by simpa using h)]
      simp only [List.map_cons, List.sum_cons, add_assoc]
    · rw [if_neg h, List.filter_cons_of_neg (by simpa using h)]

theorem terms_fold (g : globals) (T : Int × Int → ℚ) (l : List (Int × Int)) :
    ∀ (r : ℚ × ℚ),
      l.foldl (fun (acc : ℚ × ℚ) (p : Int × Int) =>
          if p.1 < g.MIN_DATA ∧ p.2 < g.MIN_DATA then acc else (acc.1 + T p, acc.2 + 1)) r =
        (r.1 + ((l.filter
            (fun p => !decide (p.1 < g.MIN_DATA ∧ p.2 < g.MIN_DATA))).map T).sum,
          r.2 + ((l.filter
            (fun p => !decide (p.1 < g.MIN_DATA ∧ p.2 < g.MIN_DATA))).length : ℚ)) := by
  induction l with
  | nil =>
    intro r
    simp
  | cons p ps ih =>
    intro r
    rw [List.foldl_cons, ih]
    by_cases h : p.1 < g.MIN_DATA ∧ p.2 < g.MIN_DATA
    · rw [if_pos h, List.filter_cons_of_neg (by rw [decide_eq_true h]; simp)]
    · rw [if_neg h, List.filter_cons_of_pos (by rw [decide_eq_false h]; rfl)]
      simp only [List.map_cons, List.sum_cons, List.length_cons, add_assoc]
      push_cast
      rw [add_comm (1 : ℚ)]

theorem pool_counts_eq (g : globals) (old new : List Int) (n : Nat) (h1 : old.length = n)
    (h2 : new.length = n) :
    pool_counts g old new n =
      some (((pooled_categories g old new).map Prod.fst).sum,
        ((pooled_categories g old new).map Prod.snd).sum) := by
  unfold pool_counts
  rw [foldlM_range_zip
    (fun (acc : Int × Int) (p : Int × Int) =>
      if p.1 < g.MIN_DATA ∧ p.2 < g.MIN_DATA then (acc.1 + p.1, acc.2 + p.2) else acc)
    old new n h1 h2, pool_fold]
  simp only [zero_add]
  rfl

theorem chi2_terms_eq (g : globals) (old new : List Int) (n : Nat) (t1 t2 : Int)
    (h1 : old.length = n) (h2 : new.length = n) :
    chi2_terms g old new n t1 t2 =
      some (((surviving_categories g old new).map
          (fun p => calculate_chi2_value g p.1 p.2 t1 t2)).sum,
        ((surviving_categories g old new).length : ℚ) - 1) := by
  unfold chi2_terms
  rw [foldlM_range_zip
    (fun (acc : ℚ × ℚ) (p : Int × Int) =>
      if p.1 < g.MIN_DATA ∧ p.2 < g.MIN_DATA then acc
      else (acc.1 + calculate_chi2_value g p.1 p.2 t1 t2, acc.2 + 1))
    old new n h1 h2,
    terms_fold g (fun p => calculate_chi2_value g p.1 p.2 t1 t2)]
  simp only [zero_add]
  congr 2
  unfold surviving_categories
  ring

theorem chi2_test_rule (g : globals) (old new : List Int) (n : Nat) (t1 t2 : Int)
    (hmin : 0 ≤ g.MIN_DATA) (h1 : old.length = n) (h2 : new.length = n) :
    ∃ s, chi2_test g old new n t1 t2 = some s ∧ bucket_rule g old new t1 t2 s := by
  unfold chi2_test
  rw [pool_counts_eq g old new n h1 h2, Option.some_bind]
  simp only
  by_cases hp : ((pooled_categories g old new).map Prod.fst).sum < g.MIN_DATA ∧
      ((pooled_categories g old new).map Prod.snd).sum < g.MIN_DATA
  · rw [if_pos hp]
    simp only
    rw [chi2_terms_eq g old new n _ _ h1 h2, Option.map_some',
      if_neg (by omega)]
    refine ⟨_, rfl, ?_⟩
    unfold bucket_rule
    refine ⟨fun _ => ⟨rfl, rfl⟩, fun h => absurd hp h, fun h => ?_, fun _ => ⟨rfl, rfl⟩⟩
    omega
  · rw [if_neg hp]
    simp only
    rw [chi2_terms_eq g old new n _ _ h1 h2, Option.map_some']
    by_cases hb : ((pooled_categories g old new).map Prod.fst).sum > g.MIN_DATA ∨
        ((pooled_categories g old new).map Prod.snd).sum > g.MIN_DATA
    · rw [if_pos hb]
      refine ⟨_, rfl, ?_⟩
      unfold bucket_rule
      refine ⟨fun h => absurd h hp, fun _ => ⟨rfl, rfl⟩, fun _ => ⟨rfl, ?_⟩,
        fun h => absurd hb h⟩
      ring
    · rw [if_neg hb]
      refine ⟨_, rfl, ?_⟩
      unfold bucket_rule
      exact ⟨fun h => absurd h hp, fun _ => ⟨rfl, rfl⟩, fun h => absurd h hb,
        fun _ => ⟨rfl, rfl⟩⟩

/-- C24 (amended): in each of the four chi-squared scorers, when the arrays have their
sizes, `MIN_DATA` is not negative and both totals are at least `MIN_DATA`, the scorer runs
the final test on sums `s` that obey the rule of the rest bucket (`bucket_rule`): with the
bucket the sums of the categories whose count is below `MIN_DATA` on both sides, the bucket
is subtracted from both totals exactly when both its sums are below `MIN_DATA`; it
contributes one chi-squared term and one degree of freedom exactly when one of its sums is
above `MIN_DATA` (a bucket whose larger sum equals `MIN_DATA` is neither subtracted nor
tested); and the degrees of freedom are the number of the contributing categories, the
bucket included when it contributes, minus one. -/
theorem chi2_bucket_rule (g : globals) (N : numerics) (acc : accumulators)
    (o n t : state_statistics) (hmin : 0 ≤ g.MIN_DATA) (ho : o.sized g) (hn : n.sized g)
    (ht : t.sized g)
    (h1 : ¬ (o.total_counts < g.MIN_DATA ∨ n.total_counts < g.MIN_DATA))
    (h2 : ¬ (t.total_counts < g.MIN_DATA ∨ t.total_marks < g.MIN_DATA)) :
    (∃ s, bucket_rule g o.symbol_counts n.symbol_counts o.total_counts n.total_counts s ∧
        calculate_chi2_score g N acc (some o) (some n) = some (chi2_finish N acc s)) ∧
      (∃ s, bucket_rule g o.time_counts n.time_counts o.total_counts n.total_counts s ∧
        calculate_chi2_score_time g N acc (some o) (some n) = some (chi2_finish N acc s)) ∧
      (∃ s, bucket_rule g t.symbol_counts t.symbol_marks t.total_counts t.total_marks s ∧
        calculate_chi2_score_marks g N acc (some t) = some (chi2_finish N acc s)) ∧
      (∃ s, bucket_rule g t.time_counts t.time_marks t.total_counts t.total_marks s ∧
        calculate_chi2_score_time_marks g N acc (some t) = some (chi2_finish N acc s)) := by
  refine ⟨?_, ?_, ?_, ?_⟩
  · obtain ⟨s, hs, hr⟩ := chi2_test_rule g o.symbol_counts n.symbol_counts g.MAX_SYMBOL
      o.total_counts n.total_counts hmin ho.1 hn.1
    exact ⟨s, hr, by simp only [calculate_chi2_score, if_neg h1, hs, Option.map_some']⟩
  · obtain ⟨s, hs, hr⟩ := chi2_test_rule g o.time_counts n.time_counts NUM_HISTOGRAM_BARS
      o.total_counts n.total_counts hmin ho.2.1 hn.2.1
    exact ⟨s, hr, by simp only [calculate_chi2_score_time, if_neg h1, hs, Option.map_some']⟩
  · obtain ⟨s, hs, hr⟩ := chi2_test_rule g t.symbol_counts t.symbol_marks g.MAX_SYMBOL
      t.total_counts t.total_marks hmin ht.1 ht.2.2.1
    exact ⟨s, hr, by simp only [calculate_chi2_score_marks, if_neg h2, hs, Option.map_some']⟩
  · obtain ⟨s, hs, hr⟩ := chi2_test_rule g t.time_counts t.time_marks NUM_HISTOGRAM_BARS
      t.total_counts t.total_marks hmin ht.2.1 ht.2.2.2
    exact ⟨s, hr, by
      simp only [calculate_chi2_score_time_marks, if_neg h2, hs, Option.map_some']⟩

/-- The statistics of a state with the symbol counts `5, 5, 20` and as many marks. -/
theorem example_old_stat_sized : example_old_stat.sized three_symbol_globals :=
  ⟨rfl, rfl, rfl, rfl⟩

theorem example_new_stat_sized : example_new_stat.sized three_symbol_globals :=
  ⟨rfl, rfl, rfl, rfl⟩

/-- The witness of C24: the states with the symbol counts `5, 5, 20` and `3, 3, 20`, and a
state with 30 counts and 30 marks. -/
theorem chi2_bucket_rule_witness :
    ∃ s, bucket_rule three_symbol_globals example_old_stat.symbol_counts
        example_new_stat.symbol_counts example_old_stat.total_counts
        example_new_stat.total_counts s ∧
      calculate_chi2_score three_symbol_globals example_numerics zero_accumulators
        (some example_old_stat) (some example_new_stat)
        = some (chi2_finish example_numerics zero_accumulators s) :=
  (chi2_bucket_rule three_symbol_globals example_numerics zero_accumulators example_old_stat
    example_new_stat { example_old_stat with total_marks := 30 } (by decide)
    example_old_stat_sized example_new_stat_sized ⟨rfl, rfl, rfl, rfl⟩ (by decide)
    (by decide)).1

theorem example_chi2_test :
    chi2_test three_symbol_globals example_old_stat.symbol_counts
        example_new_stat.symbol_counts three_symbol_globals.MAX_SYMBOL
        example_old_stat.total_counts example_new_stat.total_counts =
      some { total_old := 30, total_new := 26, old_pool := 10, new_pool := 6,
             chi2_value := 0 + calculate_chi2_value three_symbol_globals 20 20 30 26,
             chi2_dof := -1 + 1 } := by
  rfl

/-- With `MIN_DATA = 10` and the symbol counts `5, 5, 20` and `3, 3, 20` the rest bucket has
the sums 10 and 6: it is not subtracted from the totals 30 and 26, and it contributes no
term and no degree of freedom, so the only term is the one of the third symbol, the degrees
of freedom are 0, and the scorer returns -1 without adding a test. -/
theorem bucket_at_min_data :
    (chi2_test three_symbol_globals [5, 5, 20] [3, 3, 20] 3 30 26).map
        (fun s => (s.total_old, s.total_new, s.old_pool, s.new_pool, s.chi2_dof,
          s.chi2_value - calculate_chi2_value three_symbol_globals 20 20 30 26))
      = some (30, 26, 10, 6, 0, 0) ∧
    calculate_chi2_score three_symbol_globals example_numerics zero_accumulators
        (some example_old_stat) (some example_new_stat) = some (-1, zero_accumulators) := by
  constructor
  · have h : chi2_test three_symbol_globals [5, 5, 20] [3, 3, 20] 3 30 26 =
        some { total_old := 30, total_new := 26, old_pool := 10, new_pool := 6,
               chi2_value := 0 + calculate_chi2_value three_symbol_globals 20 20 30 26,
               chi2_dof := -1 + 1 } := example_chi2_test
    rw [h]
    norm_num
  · unfold calculate_chi2_score
    simp only
    rw [if_neg (by decide), example_chi2_test]
    simp [chi2_finish]

end RTI


namespace RTI

/-! ### The set `new_refinements` of `bestfirst` -/

theorem search_splits_eq (P : p_values) (l : List (ℚ × refinement)) :
    ∀ (n : Nat) (acc : refinement_set), n < max_splits_to_search →
      search_splits P l n acc =
        ((l.take (max_splits_to_search - n)).filter
          (fun x => decide (x.1 < P.SIGNIFICANCE))).foldl insert_refinement acc := by
  induction l with
  | nil =>
    intro n acc _
    simp [search_splits]
  | cons it rest ih =>
    intro n acc hn
    unfold max_splits_to_search at hn
    unfold search_splits
    simp only
    have hk : max_splits_to_search - n = (max_splits_to_search - (n + 1)) + 1 := by
      unfold max_splits_to_search
      omega
    rw [hk, List.take_succ_cons]
    by_cases hlast : n + 1 = max_splits_to_search
    · rw [if_pos hlast, hlast, Nat.sub_self, List.take_zero]
      by_cases hs : it.1 < P.SIGNIFICANCE
      · rw [if_pos hs, List.filter_cons_of_pos (by simpa using hs)]
        rfl
      · rw [if_neg hs, List.filter_cons_of_neg (by simpa using hs)]
        rfl
    · rw [if_neg hlast, ih (n + 1) _ (by unfold max_splits_to_search at hlast ⊢; omega)]
      by_cases hs : it.1 < P.SIGNIFICANCE
      · rw [if_pos hs, List.filter_cons_of_pos (by simpa using hs)]
        rfl
      · rw [if_neg hs, List.filter_cons_of_neg (by simpa using hs)]

theorem search_points_eq (P : p_values) (l : List (ℚ × refinement)) :
    ∀ (n : Nat) (acc : refinement_set), n < max_points_to_search →
      search_points P l n acc =
        ((l.take (max_points_to_search - n)).filter
          (fun x => decide (x.1 ≥ P.SIGNIFICANCE))).foldl insert_refinement acc := by
  induction l with
  | nil =>
    intro n acc _
    simp [search_points]
  | cons it rest ih =>
    intro n acc hn
    unfold max_points_to_search at hn
    unfold search_points
    simp only
    have hk : max_points_to_search - n = (max_points_to_search - (n + 1)) + 1 := by
      unfold max_points_to_search
      omega
    rw [hk, List.take_succ_cons]
    by_cases hlast : n + 1 = max_points_to_search
    · rw [if_pos hlast, hlast, Nat.sub_self, List.take_zero]
      by_cases hs : it.1 ≥ P.SIGNIFICANCE
      · rw [if_pos hs, List.filter_cons_of_pos (by simpa using hs)]
        rfl
      · rw [if_neg hs, List.filter_cons_of_neg (by simpa using hs)]
        rfl
    · rw [if_neg hlast, ih (n + 1) _ (by unfold max_points_to_search at hlast ⊢; omega)]
      by_cases hs : it.1 ≥ P.SIGNIFICANCE
      · rw [if_pos hs, List.filter_cons_of_pos (by simpa using hs)]
        rfl
      · rw [if_neg hs, List.filter_cons_of_neg (by simpa using hs)]

theorem take_filter_of_closed {α : Type} (p : α → Bool) (l : List α) :
    ∀ (k : Nat), l.Pairwise (fun a b => p b = true → p a = true) →
      (l.take k).filter p = (l.filter p).take k := by
  induction l with
  | nil =>
    intro k _
    simp
  | cons x xs ih =>
    intro k h
    obtain ⟨h1, h2⟩ := List.pairwise_cons.1 h
    cases k with
    | zero => simp
    | succ k =>
      rw [List.take_succ_cons]
      by_cases hx : p x = true
      · rw [List.filter_cons_of_pos hx, List.filter_cons_of_pos hx, List.take_succ_cons,
          ih k h2]
      · have hnil : xs.filter p = [] := by
          rw [List.filter_eq_nil_iff]
          intro b hb hpb
          exact hx (h1 b hb hpb)
        have hnil2 : (xs.take k).filter p = [] := by
          rw [List.filter_eq_nil_iff]
          intro b hb hpb
          exact hx (h1 b (List.mem_of_mem_take hb) hpb)
        rw [List.filter_cons_of_neg hx, List.filter_cons_of_neg hx, hnil, hnil2]
        rfl

theorem foldl_insert_perm (l : List (ℚ × refinement)) :
    (l.foldl insert_refinement []).Perm l := by
  have := foldl_insert_refinement_perm (fun (x : ℚ × refinement) => x) l []
  simpa using this

theorem foldl_insert_descending (l : List (ℚ × refinement)) :
    ∀ (acc : refinement_set), descending acc → descending (l.foldl insert_refinement acc) := by
  induction l with
  | nil =>
    intro acc h
    exact h
  | cons x xs ih =>
    intro acc h
    exact ih _ (insert_refinement_descending acc x h)

theorem best_refinements_sets {g : globals} {P : p_values} {fuel : Nat}
    {A A' : timed_automaton} {first second : refinement_set}
    (h : get_best_refinements g P fuel A = some (first, second, A')) :
    descending first ∧ descending second ∧ (∀ x, x ∈ second → x.2.target = -1) ∧
      (∀ x, x ∈ first → x.2.target ≠ -1) ∧
      (first ≠ [] → ∃ x, x ∈ first ∧ x.1 = P.SIGNIFICANCE) := by
  rcases get_best_refinements_shape g P fuel A first second A' h with ⟨h1, h2⟩ | ⟨in_, st, sy, hs⟩
  · subst h1
    subst h2
    exact ⟨List.Pairwise.nil, List.Pairwise.nil, fun x hx => (by cases hx),
      fun x hx => (by cases hx), fun hne => absurd rfl hne⟩
  · obtain ⟨merges, e, hf, hd, hm, hd2, hs2⟩ :=
      score_refinements_shape g P fuel A in_ st sy first second A' hs
    refine ⟨(by rw [hf]; exact insert_refinement_descending _ _ hd), hd2,
      fun x hx => (hs2 x hx).1, fun x hx => ?_,
      fun _ => ⟨(P.SIGNIFICANCE, ⟨st, -2, sy, e⟩), ?_, rfl⟩⟩
    · rw [hf] at hx
      rcases (mem_insert_refinement _ _ _).1 hx with rfl | hx
      · intro h1
        simp at h1
      · have := (hm x hx).1
        omega
    · rw [hf]
      exact (mem_insert_refinement _ _ _).2 (Or.inl rfl)

/-- The set `new_refinements`: for a result `(first, second)` of `get_best_refinements`, both sets
in descending
order of the p-value, the set `new_refinements` that `bestfirst` expands has at most 10
entries, in descending order. When some split has a p-value below `SIGNIFICANCE`, its
entries are the first ones, up to 10, of the splits with a p-value below `SIGNIFICANCE` in
ascending order, so the lowest ones, and all of them are splits. When no split has a
p-value below `SIGNIFICANCE`, its entries are the first ones, up to 10, of the entries of
the merge set with a p-value of at least `SIGNIFICANCE`, so the highest ones, and none of
them is a split. It is not empty when the merge set is not empty. -/
theorem new_refinements_spec (g : globals) (P : p_values) (fuel : Nat)
    (A A' : timed_automaton) (first second : refinement_set)
    (h : get_best_refinements g P fuel A = some (first, second, A')) :
    (new_refinements P first second).length ≤ 10 ∧
      descending (new_refinements P first second) ∧
      descending first ∧ descending second ∧
      ((∃ x, x ∈ second ∧ x.1 < P.SIGNIFICANCE) →
        (new_refinements P first second).Perm
            ((second.reverse.filter (fun x => decide (x.1 < P.SIGNIFICANCE))).take 10) ∧
          ∀ x, x ∈ new_refinements P first second → x.2.target = -1) ∧
      ((∀ x, x ∈ second → ¬ x.1 < P.SIGNIFICANCE) →
        (new_refinements P first second).Perm
            ((first.filter (fun x => decide (x.1 ≥ P.SIGNIFICANCE))).take 10) ∧
          ∀ x, x ∈ new_refinements P first second → x.2.target ≠ -1) ∧
      (first ≠ [] → new_refinements P first second ≠ []) := by
  obtain ⟨hd1, hd2, ht2, ht1, hsig⟩ := best_refinements_sets h
  have hasc : second.reverse.Pairwise
      (fun a b => decide (b.1 < P.SIGNIFICANCE) = true →
        decide (a.1 < P.SIGNIFICANCE) = true) := by
    rw [List.pairwise_reverse]
    refine List.Pairwise.imp ?_ hd2
    intro a b hab hb
    simp only [decide_eq_true_eq] at hb ⊢
    exact lt_of_le_of_lt hab hb
  have hdesc : first.Pairwise
      (fun a b => decide (b.1 ≥ P.SIGNIFICANCE) = true →
        decide (a.1 ≥ P.SIGNIFICANCE) = true) := by
    refine List.Pairwise.imp ?_ hd1
    intro a b hab hb
    simp only [decide_eq_true_eq, ge_iff_le] at hb ⊢
    exact le_trans hb hab
  have hs : search_splits P second.reverse 0 [] =
      ((second.reverse.filter (fun x => decide (x.1 < P.SIGNIFICANCE))).take 10).foldl
        insert_refinement [] := by
    rw [search_splits_eq P _ 0 [] (by decide), take_filter_of_closed _ _ _ hasc]
    rfl
  have hp : search_points P first 0 [] =
      ((first.filter (fun x => decide (x.1 ≥ P.SIGNIFICANCE))).take 10).foldl
        insert_refinement [] := by
    rw [search_points_eq P _ 0 [] (by decide), take_filter_of_closed _ _ _ hdesc]
    rfl
  have hps := foldl_insert_perm
    ((second.reverse.filter (fun x => decide (x.1 < P.SIGNIFICANCE))).take 10)
  have hpp := foldl_insert_perm
    ((first.filter (fun x => decide (x.1 ≥ P.SIGNIFICANCE))).take 10)
  have hcase1 : (∃ x, x ∈ second ∧ x.1 < P.SIGNIFICANCE) →
      search_splits P second.reverse 0 [] ≠ [] ∧
        new_refinements P first second = search_splits P second.reverse 0 [] := by
    rintro ⟨x, hx, hlt⟩
    have hne : search_splits P second.reverse 0 [] ≠ [] := by
      intro h0
      rw [hs] at h0
      rw [h0] at hps
      have hnil := hps.symm.eq_nil
      have hmem : x ∈ second.reverse.filter (fun x => decide (x.1 < P.SIGNIFICANCE)) :=
        List.mem_filter.2 ⟨List.mem_reverse.2 hx, by simpa using hlt⟩
      cases hf : second.reverse.filter (fun x => decide (x.1 < P.SIGNIFICANCE)) with
      | nil => rw [hf] at hmem; cases hmem
      | cons y ys => rw [hf] at hnil; simp at hnil
    refine ⟨hne, ?_⟩
    unfold new_refinements
    simp only [if_neg hne]
  have hcase2 : (∀ x, x ∈ second → ¬ x.1 < P.SIGNIFICANCE) →
      new_refinements P first second = search_points P first 0 [] := by
    intro hall
    have h0 : search_splits P second.reverse 0 [] = [] := by
      rw [hs]
      have hf : second.reverse.filter (fun x => decide (x.1 < P.SIGNIFICANCE)) = [] := by
        rw [List.filter_eq_nil_iff]
        intro b hb
        simpa using hall b (List.mem_reverse.1 hb)
      rw [hf]
      rfl
    unfold new_refinements
    simp only [h0, if_true]
  have hcases : new_refinements P first second = search_splits P second.reverse 0 [] ∨
      new_refinements P first second = search_points P first 0 [] := by
    by_cases hex : ∃ x, x ∈ second ∧ x.1 < P.SIGNIFICANCE
    · exact Or.inl (hcase1 hex).2
    · exact Or.inr (hcase2 (fun x hx hlt => hex ⟨x, hx, hlt⟩))
  refine ⟨?_, ?_, hd1, hd2, ?_, ?_, ?_⟩
  · rcases hcases with hc | hc
    · rw [hc, hs, hps.length_eq]
      exact (List.length_take_le _ _)
    · rw [hc, hp, hpp.length_eq]
      exact (List.length_take_le _ _)
  · rcases hcases with hc | hc
    · rw [hc, hs]
      exact foldl_insert_descending _ _ List.Pairwise.nil
    · rw [hc, hp]
      exact foldl_insert_descending _ _ List.Pairwise.nil
  · intro hex
    rw [(hcase1 hex).2, hs]
    refine ⟨hps, fun x hx => ?_⟩
    have hx1 := List.mem_of_mem_take (hps.subset hx)
    exact ht2 x (List.mem_reverse.1 (List.mem_filter.1 hx1).1)
  · intro hall
    rw [hcase2 hall, hp]
    refine ⟨hpp, fun x hx => ?_⟩
    have hx1 := List.mem_of_mem_take (hpp.subset hx)
    exact ht1 x (List.mem_filter.1 hx1).1
  · intro hne
    by_cases hex : ∃ x, x ∈ second ∧ x.1 < P.SIGNIFICANCE
    · rw [(hcase1 hex).2]
      exact (hcase1 hex).1
    · rw [hcase2 (fun x hx hlt => hex ⟨x, hx, hlt⟩), hp]
      obtain ⟨x, hx, hxs⟩ := hsig hne
      have hmem : x ∈ first.filter (fun x => decide (x.1 ≥ P.SIGNIFICANCE)) :=
        List.mem_filter.2 ⟨hx, by simp [hxs]⟩
      intro h0
      rw [h0] at hpp
      have hnil := hpp.symm.eq_nil
      cases hf : first.filter (fun x => decide (x.1 ≥ P.SIGNIFICANCE)) with
      | nil => rw [hf] at hmem; cases hmem
      | cons y ys => rw [hf] at hnil; simp at hnil

/-- An instance for the set `new_refinements`: for the prefix tree `example_tree` with `MIN_DATA =
1` the split set
holds the split at the time 1 with the p-value 0, below `SIGNIFICANCE = 1`, and the
candidates are this split. -/
theorem new_refinements_spec_witness :
    ∃ A', get_best_refinements small_globals example_p_values 5 example_tree
        = some ([(1, ⟨0, -2, 0, 10⟩)], [(0, ⟨0, -1, 0, 1⟩)], A') ∧
      (new_refinements example_p_values [(1, ⟨0, -2, 0, 10⟩)] [(0, ⟨0, -1, 0, 1⟩)]).length
        ≤ 10 ∧
      new_refinements example_p_values [(1, ⟨0, -2, 0, 10⟩)] [(0, ⟨0, -1, 0, 1⟩)] ≠ [] := by
  refine ⟨_, rfl, ?_⟩
  have h := new_refinements_spec small_globals example_p_values 5 example_tree _
    [(1, ⟨0, -2, 0, 10⟩)] [(0, ⟨0, -1, 0, 1⟩)] rfl
  exact ⟨h.1, h.2.2.2.2.2.2 (by simp)⟩

end RTI


namespace RTI

/-! ### C21: the entry that `bestfirst` takes from the queue -/

theorem Q_take_spec (Q : queue) (h : Q ≠ []) :
    ∃ e rest, Q_take Q = some (e, rest) ∧ (e :: rest).Perm Q ∧ ∀ y, y ∈ Q → y.1 ≤ e.1 := by
  induction Q with
  | nil => exact absurd rfl h
  | cons x tl ih =>
    cases tl with
    | nil =>
      refine ⟨x, [], rfl, List.Perm.refl _, fun y hy => ?_⟩
      rw [List.mem_singleton.1 hy]
    | cons z zs =>
      obtain ⟨e, rest, h1, h2, h3⟩ := ih (List.cons_ne_nil z zs)
      by_cases hc : x.1 < e.1
      · refine ⟨e, x :: rest, ?_, ?_, fun y hy => ?_⟩
        · unfold Q_take
          rw [h1]
          simp [refinement_list_compare, hc]
        · exact (List.Perm.swap x e rest).trans (List.Perm.cons x h2)
        · rcases List.mem_cons.1 hy with rfl | hy
          · exact le_of_lt hc
          · exact h3 y hy
      · refine ⟨x, z :: zs, ?_, List.Perm.refl _, fun y hy => ?_⟩
        · unfold Q_take
          rw [h1]
          simp [refinement_list_compare, hc]
        · rcases List.mem_cons.1 hy with rfl | hy
          · exact le_refl _
          · exact le_trans (h3 y hy) (not_lt.1 hc)

theorem change_refinement_list_fields {g : globals} {fuel : Nat} {s s1 : search}
    {new_list : refinement_list} (h : change_refinement_list g fuel s new_list = some s1) :
    s1.current_refinements = new_list ∧ s1.Q = s.Q := by
  unfold change_refinement_list at h
  obtain ⟨A1, -, h⟩ := Option.bind_eq_some.1 h
  obtain ⟨A2, -, h⟩ := Option.map_eq_some'.1 h
  subst h
  exact ⟨rfl, rfl⟩

/-- The entry that leaves the queue: when the queue is not empty, `Q.top()` is an entry `e` of the
queue whose
score is the highest among all queued sequences (the comparison `a.first < b.first` makes
the priority queue return a greatest entry), and `Q.pop()` leaves the other entries. In the
body of the loop of `bestfirst`, which starts with `bestfirst_take`, the sequence of `e`
becomes the current one and exactly `e` leaves the queue. -/
theorem bestfirst_takes_highest (g : globals) (fuel : Nat) (s : search) (hQ : s.Q ≠ []) :
    ∃ e rest, Q_top s.Q = some e ∧ Q_pop s.Q = some rest ∧ e ∈ s.Q ∧
      (e :: rest).Perm s.Q ∧ (∀ y, y ∈ s.Q → y.1 ≤ e.1) ∧
      (∀ s1, bestfirst_take g fuel s = some s1 →
        s1.current_refinements = e.2 ∧ s1.Q = rest) ∧
      ∀ (P : p_values) (V : aic_values) (k : Nat) (s2 : search),
        bestfirst_step g P V fuel k s = some s2 →
          ∃ s1, bestfirst_take g fuel s = some s1 ∧ s1.current_refinements = e.2 ∧
            s1.Q = rest := by
  obtain ⟨e, rest, h1, h2, h3⟩ := Q_take_spec s.Q hQ
  have htop : Q_top s.Q = some e := by
    unfold Q_top
    rw [h1]
    rfl
  have hpop : Q_pop s.Q = some rest := by
    unfold Q_pop
    rw [h1]
    rfl
  have htake : ∀ s1, bestfirst_take g fuel s = some s1 →
      s1.current_refinements = e.2 ∧ s1.Q = rest := by
    intro s1 h
    unfold bestfirst_take at h
    rw [htop, Option.some_bind] at h
    obtain ⟨s0, h0, h⟩ := Option.bind_eq_some.1 h
    obtain ⟨hc, hq⟩ := change_refinement_list_fields h0
    have hq0 : s0.Q = s.Q := hq
    rw [hq0, hpop, Option.map_some'] at h
    cases h
    exact ⟨hc, rfl⟩
  refine ⟨e, rest, htop, hpop, h2.subset (List.mem_cons_self _ _), h2, h3, htake, ?_⟩
  intro P V k s2 h
  unfold bestfirst_step at h
  obtain ⟨s1, hs1, -⟩ := Option.bind_eq_some.1 h
  exact ⟨s1, hs1, htake s1 hs1⟩

/-- An instance for the entry that leaves the queue: the queue of `example_search`, with the scores
1 and 2. -/
theorem bestfirst_takes_highest_witness :
    ∃ e rest, Q_top example_search.Q = some e ∧ Q_pop example_search.Q = some rest ∧
      e ∈ example_search.Q ∧ ∀ y, y ∈ example_search.Q → y.1 ≤ e.1 := by
  obtain ⟨e, rest, h1, h2, h3, -, h5, -⟩ :=
    bestfirst_takes_highest example_globals 3 example_search (by decide)
  exact ⟨e, rest, h1, h2, h3, h5⟩

end RTI


namespace RTI

/-! ### C30: the greedy rollout on the corpus of the two branches -/

theorem greedy_descends (g : globals) (P : p_values) (V : aic_values) (fuel : Nat) :
    ∀ (k : Nat) (s s1 : search) (result : Int),
      greedy g P V fuel k s = some (result, s1) →
      ∃ calls leaf, greedy_descent g P fuel k s.TA = some (calls, leaf) ∧
        result = double_to_int (V.aic leaf) := by
  intro k
  induction k with
  | zero =>
    intro s s1 result h
    cases h
  | succ k ih =>
    intro s s1 result h
    unfold greedy at h
    unfold greedy_descent
    obtain ⟨⟨first, second, A1⟩, hg, h⟩ := Option.bind_eq_some.1 h
    rw [hg, Option.some_bind]
    simp only at h ⊢
    split at h
    · rename_i hempty
      rw [if_pos hempty]
      simp only [Option.some.injEq, Prod.mk.injEq] at h
      exact ⟨_, _, rfl, h.1.symm⟩
    · rename_i hempty
      rw [if_neg hempty]
      split at h
      · cases h
      · rename_i hcc
        rw [if_neg hcc]
        obtain ⟨r, hr, h⟩ := Option.bind_eq_some.1 h
        rw [hr, Option.some_bind]
        obtain ⟨A2, hA2, h⟩ := Option.bind_eq_some.1 h
        rw [hA2, Option.some_bind]
        split at h
        · cases h
        · rename_i hcc2
          rw [if_neg hcc2]
          obtain ⟨⟨res, s2⟩, hrec, h⟩ := Option.bind_eq_some.1 h
          obtain ⟨A3, -, h⟩ := Option.map_eq_some'.1 h
          simp only [Prod.mk.injEq] at h
          obtain ⟨calls, leaf, hd, hres⟩ := ih _ _ _ hrec
          rw [hd, Option.map_some']
          exact ⟨_, _, rfl, by rw [← h.1]; exact hres⟩

set_option maxRecDepth 1000000 in
/-- C30 (amended): for the corpus of twenty words `a 0` followed by twenty words `b 0`, read
by the constructors of `timed_input` and `timed_automaton`, and for every significance level
and every value of the p-value oracle (so for `TEST_TYPE = 2`), the way down of `greedy`
from the prefix tree makes three calls of `get_best_refinements`; each one returns an empty
split set, the first two return the color refinement of the `a`-transition and of the
`b`-transition of the root as the only entry of the merge set (no merge is offered, since
the test of the state below the `b`-transition against the colored state below the
`a`-transition has no data and returns -1), and the third returns nothing. At the end the
colored states are the root and two further states: the `a`-transition of the root points
to the one and the `b`-transition to the other one, and the symbol counts of the root are
20 and 20. The same automaton is reached when `bestfirst` has applied the first color
refinement before the descent starts. -/
theorem two_branches_rollout (P : p_values) :
    (automaton_of_corpus 2 two_branches 3).bind (fun r =>
        (greedy_descent r.1 P 3 5 r.2).map (fun d => (d.1, two_branches_view d.2)))
      = some ([([(P.SIGNIFICANCE, ⟨0, -2, 0, 0⟩)], []), ([(P.SIGNIFICANCE, ⟨0, -2, 1, 0⟩)], []),
          ([], [])], ([0, 1, 2], some (some 1), some (some 2), some [20, 20])) ∧
    (automaton_of_corpus 2 two_branches 3).bind (fun r =>
        (refinement.refine r.1 3 r.2 ⟨0, -2, 0, 0⟩).bind (fun A1 =>
          (greedy_descent r.1 P 3 5 A1).map (fun d => (d.1, two_branches_view d.2))))
      = some ([([(P.SIGNIFICANCE, ⟨0, -2, 1, 0⟩)], []), ([], [])],
          ([0, 1, 2], some (some 1), some (some 2), some [20, 20])) := by
  constructor <;> rfl

set_option maxRecDepth 1000000 in
/-- With `SIGNIFICANCE = 0.05` the greedy rollout on the corpus of the two branches ends
with three colored states; the `a`-transition of the root points to the state at the
address 1 and the `b`-transition to the state at the address 2. -/
theorem two_branches_not_merged :
    (automaton_of_corpus 2 two_branches 3).bind (fun r =>
        (greedy_descent r.1 default_p_values 3 5 r.2).map (fun d =>
          (d.1.map (fun c => c.1.map (fun e => e.2.target)), two_branches_view d.2)))
      = some ([[-2], [-2], []], ([0, 1, 2], some (some 1), some (some 2), some [20, 20])) := by
  rfl

end RTI


namespace RTI

/-! ### Automata that agree up to marks -/

theorem interval_same_refl (i : interval) : interval_same i i :=
  ⟨rfl, rfl, rfl, rfl, rfl, rfl⟩

theorem interval_same_trans {i j k : interval} (h1 : interval_same i j)
    (h2 : interval_same j k) : interval_same i k :=
  ⟨h2.1.trans h1.1, h2.2.1.trans h1.2.1, h2.2.2.1.trans h1.2.2.1,
    h2.2.2.2.1.trans h1.2.2.2.1, h2.2.2.2.2.1.trans h1.2.2.2.2.1,
    h2.2.2.2.2.2.trans h1.2.2.2.2.2⟩

theorem partition_same_refl (l : interval_set) : partition_same l l :=
  List.forall₂_same.2 (fun x _ => ⟨rfl, interval_same_refl x.2⟩)

theorem partition_same_trans {l m n : interval_set} (h1 : partition_same l m)
    (h2 : partition_same m n) : partition_same l n := by
  unfold partition_same at *
  induction h1 generalizing n with
  | nil =>
    cases h2
    exact List.Forall₂.nil
  | @cons a b as bs hab _ ih =>
    cases h2 with
    | @cons _ c _ cs hbc htl =>
      exact List.Forall₂.cons ⟨hab.1.trans hbc.1, interval_same_trans hab.2 hbc.2⟩ (ih htl)

theorem state_same_refl (s : timed_state) : state_same s s :=
  List.forall₂_same.2 (fun x _ => partition_same_refl x)

theorem state_same_trans {s u v : timed_state} (h1 : state_same s u) (h2 : state_same u v) :
    state_same s v := by
  unfold state_same at *
  generalize s.targets = a at h1
  generalize u.targets = b at h1 h2
  generalize v.targets = c at h2
  induction h1 generalizing c with
  | nil =>
    cases h2
    exact List.Forall₂.nil
  | @cons x y xs ys hxy _ ih =>
    cases h2 with
    | @cons _ z _ zs hyz htl =>
      exact List.Forall₂.cons (partition_same_trans hxy hyz) (ih _ htl)

theorem heap_same_refl (A : timed_automaton) : heap_same A A := by
  refine ⟨fun q => ?_, rfl, rfl, rfl⟩
  cases h : A.mem q with
  | none => exact Or.inl ⟨rfl, rfl⟩
  | some s => exact Or.inr ⟨s, s, rfl, rfl, state_same_refl s⟩

theorem heap_same_trans {A B C : timed_automaton} (h1 : heap_same A B) (h2 : heap_same B C) :
    heap_same A C := by
  refine ⟨fun q => ?_, h2.2.1.trans h1.2.1, h2.2.2.1.trans h1.2.2.1,
    h2.2.2.2.trans h1.2.2.2⟩
  rcases h1.1 q with ⟨ha, hb⟩ | ⟨s, u, ha, hb, hsu⟩
  · rcases h2.1 q with ⟨_, hc⟩ | ⟨u', v, hb', _, _⟩
    · exact Or.inl ⟨ha, hc⟩
    · rw [hb] at hb'
      cases hb'
  · rcases h2.1 q with ⟨hb', _⟩ | ⟨u', v, hb', hc, huv⟩
    · rw [hb] at hb'
      cases hb'
    · rw [hb] at hb'
      cases hb'
      exact Or.inr ⟨s, v, ha, hc, state_same_trans hsu huv⟩

theorem update_interval_same (l : interval_set) (k : Int) (f : interval → interval)
    (hf : ∀ i, interval_same i (f i)) : partition_same l (update_interval l k f) := by
  unfold partition_same
  induction l with
  | nil => exact List.Forall₂.nil
  | cons x rest ih =>
    obtain ⟨k', i'⟩ := x
    simp only [update_interval]
    split
    · exact List.Forall₂.cons ⟨rfl, hf i'⟩ (partition_same_refl rest)
    · exact List.Forall₂.cons ⟨rfl, interval_same_refl i'⟩ ih

theorem mark_entry_same (g : globals) (s : timed_state) (symbol : Nat) (key : Int)
    (x : timed_tail) : state_same s (mark_entry g s symbol key x) := by
  unfold mark_entry timed_state.update state_same
  simp only
  cases h : s.targets[symbol]? with
  | none => exact List.forall₂_same.2 (fun x _ => partition_same_refl x)
  | some l =>
    simp only
    have hlt : symbol < s.targets.length := by
      rcases Nat.lt_or_ge symbol s.targets.length with h1 | h1
      · exact h1
      · rw [List.getElem?_eq_none h1] at h
        cases h
    have hself : s.targets = s.targets.set symbol l := by
      have h1 := timed_state.set_intervals_self s h
      exact (congrArg timed_state.targets h1).symm
    nth_rewrite 1 [hself]
    exact forall₂_set partition_same_refl
      (update_interval_same l key (fun i => { i with num_marked := i.num_marked + 1 })
        (fun i => ⟨rfl, rfl, rfl, rfl, rfl, rfl⟩)) s.targets symbol

theorem mark_one_same (g : globals) (A : timed_automaton) (r : interval_ptr) (x : timed_tail) :
    heap_same A (mark_one g A r x) := by
  refine ⟨fun q => ?_, rfl, rfl, rfl⟩
  unfold mark_one
  simp only
  cases h : A.mem q with
  | none =>
    left
    refine ⟨rfl, ?_⟩
    split <;> rfl
  | some s =>
    right
    by_cases hq : q = r.state
    · refine ⟨s, mark_entry g s r.symbol r.key x, rfl, ?_,
        mark_entry_same g s r.symbol r.key x⟩
      rw [if_pos hq]
      rfl
    · refine ⟨s, s, rfl, ?_, state_same_refl s⟩
      rw [if_neg hq]

theorem mark_all_same (g : globals) (path : List (interval_ptr × timed_tail)) :
    ∀ (A : timed_automaton), heap_same A (mark_all g A path) := by
  induction path with
  | nil =>
    intro A
    exact heap_same_refl A
  | cons e es ih =>
    intro A
    exact heap_same_trans (mark_one_same g A e.1 e.2) (ih _)

theorem find_key_same {l m : interval_set} (h : partition_same l m) (k : Int) :
    (l.find? (fun e => e.1 == k) = none → m.find? (fun e => e.1 == k) = none) ∧
      ∀ e, l.find? (fun e => e.1 == k) = some e →
        ∃ e', m.find? (fun e => e.1 == k) = some e' ∧ e.1 = e'.1 ∧ interval_same e.2 e'.2 := by
  unfold partition_same at h
  induction h with
  | nil => exact ⟨fun _ => rfl, fun e he => by simp at he⟩
  | @cons a b as bs hab _ ih =>
    by_cases hk : a.1 = k
    · have hk2 : b.1 = k := by rw [← hab.1]; exact hk
      refine ⟨fun hn => ?_, fun e he => ?_⟩
      · simp [List.find?_cons, hk] at hn
      · simp only [List.find?_cons, hk, beq_self_eq_true, Option.some.injEq] at he
        subst he
        exact ⟨b, by simp [List.find?_cons, hk2], hab.1, hab.2⟩
    · have hk2 : ¬ b.1 = k := by rw [← hab.1]; exact hk
      have e1 : (a :: as).find? (fun e => e.1 == k) = as.find? (fun e => e.1 == k) := by
        simp [List.find?_cons, hk]
      have e2 : (b :: bs).find? (fun e => e.1 == k) = bs.find? (fun e => e.1 == k) := by
        simp [List.find?_cons, hk2]
      rw [e1, e2]
      exact ih

theorem get_intervals_same {s u : timed_state} (h : state_same s u) (symbol : Nat) :
    (s.get_intervals symbol = none → u.get_intervals symbol = none) ∧
      ∀ l, s.get_intervals symbol = some l →
        ∃ m, u.get_intervals symbol = some m ∧ partition_same l m := by
  unfold timed_state.get_intervals
  unfold state_same at h
  have hlen := h.length_eq
  refine ⟨fun hn => ?_, fun l hl => ?_⟩
  · rw [List.getElem?_eq_none_iff] at hn ⊢
    omega
  · obtain ⟨hlt, hget⟩ := List.getElem?_eq_some_iff.1 hl
    have hlt2 : symbol < u.targets.length := by omega
    refine ⟨u.targets[symbol], List.getElem?_eq_getElem hlt2, ?_⟩
    rw [← hget]
    exact List.Forall₂.get h hlt hlt2

theorem read_same {A B : timed_automaton} (h : heap_same A B) {r : interval_ptr}
    {i : interval} (hr : A.read r = some i) :
    ∃ j, B.read r = some j ∧ interval_same i j := by
  unfold timed_automaton.read at hr ⊢
  obtain ⟨s, hs, hr⟩ := Option.bind_eq_some.1 hr
  obtain ⟨l, hl, hr⟩ := Option.bind_eq_some.1 hr
  obtain ⟨e, he, rfl⟩ := Option.map_eq_some'.1 hr
  rcases h.1 r.state with ⟨ha, _⟩ | ⟨s', u, ha, hb, hsu⟩
  · rw [hs] at ha
    cases ha
  · rw [hs] at ha
    cases ha
    obtain ⟨m, hm, hlm⟩ := (get_intervals_same hsu r.symbol).2 l hl
    obtain ⟨e', he', -, hsame⟩ := (find_key_same hlm r.key).2 e he
    exact ⟨e'.2, by simp [hb, hm, he'], hsame⟩

theorem interval_at_same {A B : timed_automaton} (h : heap_same A B) {p : Option Nat}
    {symbol : Nat} {t : Int} {e : interval_ptr × interval}
    (hr : A.interval_at p symbol t = some e) :
    ∃ j, B.interval_at p symbol t = some (e.1, j) ∧ interval_same e.2 j := by
  unfold timed_automaton.interval_at at hr ⊢
  cases p with
  | none => cases hr
  | some q =>
    simp only at hr ⊢
    obtain ⟨x, hx, rfl⟩ := Option.map_eq_some'.1 hr
    obtain ⟨s, hs, hx⟩ := Option.bind_eq_some.1 hx
    unfold timed_state.find at hx
    obtain ⟨l, hl, hx⟩ := Option.bind_eq_some.1 hx
    rcases h.1 q with ⟨ha, _⟩ | ⟨s', u, ha, hb, hsu⟩
    · rw [hs] at ha
      cases ha
    · rw [hs] at ha
      cases ha
      obtain ⟨m, hm, hlm⟩ := (get_intervals_same hsu symbol).2 l hl
      obtain ⟨x', hx', hk, hsame⟩ :=
        find_interval_rel (R := fun a b => a.1 = b.1 ∧ interval_same a.2 b.2)
          (fun a b hab => hab.1) hlm hx
      refine ⟨x'.2, ?_, hsame⟩
      simp [hb, timed_state.find, hm, hx', hk]

theorem interval_at_state {A : timed_automaton} {p : Option Nat} {symbol : Nat} {t : Int}
    {e : interval_ptr × interval} (hr : A.interval_at p symbol t = some e) :
    p = some e.1.state := by
  unfold timed_automaton.interval_at at hr
  cases p with
  | none => cases hr
  | some q =>
    simp only at hr
    obtain ⟨x, -, rfl⟩ := Option.map_eq_some'.1 hr
    rfl

theorem holders_same {A B : timed_automaton} (h : heap_same A B) (n : Nat) :
    ∀ (r : interval_ptr) (x : timed_tail) (path : List (interval_ptr × timed_tail)),
      holders A n r x = some path → holders B n r x = some path := by
  induction n with
  | zero =>
    intro r x path hp
    cases hp
  | succ n ih =>
    intro r x path hp
    unfold holders at hp ⊢
    obtain ⟨i, hi, hp⟩ := Option.bind_eq_some.1 hp
    obtain ⟨j, hj, hij⟩ := read_same h hi
    rw [hj, Option.some_bind]
    cases hx : x.next_tail with
    | none =>
      rw [hx] at hp
      exact hp
    | some nt =>
      rw [hx] at hp
      simp only at hp ⊢
      obtain ⟨e, he, hp⟩ := Option.bind_eq_some.1 hp
      obtain ⟨path', hp', hp⟩ := Option.map_eq_some'.1 hp
      obtain ⟨j', hj', -⟩ := interval_at_same h he
      rw [hij.2.2.2.1, hj', Option.some_bind]
      simp only
      rw [ih _ _ _ hp', Option.map_some', hp]

theorem holders_tails (A : timed_automaton) (n : Nat) :
    ∀ (r : interval_ptr) (x : timed_tail) (path : List (interval_ptr × timed_tail)),
      holders A n r x = some path → path.map Prod.snd = chain x := by
  induction n with
  | zero =>
    intro r x path hp
    cases hp
  | succ n ih =>
    intro r x path hp
    unfold holders at hp
    obtain ⟨i, -, hp⟩ := Option.bind_eq_some.1 hp
    cases hx : x.next_tail with
    | none =>
      rw [hx] at hp
      cases hp
      rw [chain_none hx]
      rfl
    | some nt =>
      rw [hx] at hp
      simp only at hp
      obtain ⟨e, -, hp⟩ := Option.bind_eq_some.1 hp
      obtain ⟨path', hp', hp⟩ := Option.map_eq_some'.1 hp
      rw [← hp, chain_some hx, List.map_cons, ih _ _ _ hp']

end RTI


namespace RTI

/-! ### Marking a chain of tails -/

theorem update_stat_field (s : timed_state) (symbol : Nat) (key : Int)
    (f : interval → interval) : (s.update symbol key f).stat = s.stat := by
  unfold timed_state.update
  split <;> rfl

theorem mark_step (g : globals) (A : timed_automaton) (r : interval_ptr) (x : timed_tail)
    (s : timed_state) (hm : A.mem r.state = some s) :
    ∃ A1 A2, A.update_stat (some r.state) (fun st => st.mark g x) = some A1 ∧
      A1.write r (fun i => { i with num_marked := i.num_marked + 1 }) = some A2 ∧
      ({ A2 with marker := fun t => if t = x then true else A2.marker t } : timed_automaton)
        = mark_one g A r x := by
  obtain ⟨q, sy, k⟩ := r
  simp only at hm
  have hm1 : (A.store q { s with stat := s.stat.mark g x }).mem q =
      some { s with stat := s.stat.mark g x } := by
    simp [timed_automaton.store]
  refine ⟨_, _, update_stat_eq hm _, write_eq hm1 sy k _, ?_⟩
  unfold mark_one timed_automaton.store
  simp only
  congr 1
  funext q'
  by_cases hq : q' = q
  · subst hq
    simp only [if_true, hm, Option.map_some']
    rfl
  · simp only [if_neg hq]

theorem mark_chain_eq (g : globals) (n : Nat) :
    ∀ (A : timed_automaton) (r : interval_ptr) (x : timed_tail)
      (path : List (interval_ptr × timed_tail)),
      holders A n r x = some path → (∀ e, e ∈ path → A.marker e.2 = false) →
      mark_chain g n A (some r.state) r x = some (mark_all g A path) := by
  induction n with
  | zero =>
    intro A r x path hp _
    cases hp
  | succ n ih =>
    intro A r x path hp hun
    have htails := holders_tails A (n + 1) r x path hp
    unfold holders at hp
    obtain ⟨i, hi, hp⟩ := Option.bind_eq_some.1 hp
    have hx0 : A.marker x = false := by
      cases hx : x.next_tail with
      | none =>
        rw [hx] at hp
        cases hp
        exact hun (r, x) (List.mem_singleton.2 rfl)
      | some nt =>
        rw [hx] at hp
        simp only at hp
        obtain ⟨e, -, hp⟩ := Option.bind_eq_some.1 hp
        obtain ⟨path', -, hp⟩ := Option.map_eq_some'.1 hp
        rw [← hp] at hun
        exact hun (r, x) (List.mem_cons_self _ _)
    obtain ⟨s, hs, -⟩ : ∃ s, A.mem r.state = some s ∧ True := by
      unfold timed_automaton.read at hi
      obtain ⟨s, hs, -⟩ := Option.bind_eq_some.1 hi
      exact ⟨s, hs, trivial⟩
    obtain ⟨A1, A2, h1, h2, h3⟩ := mark_step g A r x s hs
    unfold mark_chain
    rw [if_neg (by rw [hx0]; simp), h1, Option.some_bind, h2, Option.some_bind]
    simp only
    rw [h3]
    have hsame := mark_one_same g A r x
    cases hx : x.next_tail with
    | none =>
      rw [hx] at hp
      cases hp
      rfl
    | some nt =>
      rw [hx] at hp
      simp only at hp ⊢
      obtain ⟨e, he, hp⟩ := Option.bind_eq_some.1 hp
      obtain ⟨path', hp', hp⟩ := Option.map_eq_some'.1 hp
      obtain ⟨j, hj, hij⟩ := read_same hsame hi
      obtain ⟨j', hj', -⟩ := interval_at_same hsame he
      rw [hj, Option.some_bind, hij.2.2.2.1, hj', Option.some_bind]
      simp only
      have hto := interval_at_state he
      rw [hto]
      have hun' : ∀ e', e' ∈ path' → (mark_one g A r x).marker e'.2 = false := by
        intro e' he'
        have hmem : e'.2 ∈ chain nt := by
          rw [← holders_tails A n e.1 nt path' hp']
          exact List.mem_map_of_mem Prod.snd he'
        have hne : e'.2 ≠ x := by
          intro heq
          have hidx := chain_index hmem
          have hnt := (next_tail_length hx).2.2
          rw [heq] at hidx
          rcases hidx with h0 | h0
          · rw [h0] at hnt
            omega
          · omega
        show (if e'.2 = x then true else A.marker e'.2) = false
        rw [if_neg hne]
        exact hun e' (by rw [← hp]; exact List.mem_cons_of_mem _ he')
      rw [ih (mark_one g A r x) e.1 nt path' (holders_same hsame n _ _ _ hp') hun', ← hp]
      rfl

theorem mark_all_marker (g : globals) (path : List (interval_ptr × timed_tail)) :
    ∀ (A : timed_automaton) (y : timed_tail),
      (mark_all g A path).marker y = (A.marker y || decide (y ∈ path.map Prod.snd)) := by
  induction path with
  | nil =>
    intro A y
    simp [mark_all]
  | cons e es ih =>
    intro A y
    have h1 : mark_all g A (e :: es) = mark_all g (mark_one g A e.1 e.2) es := rfl
    rw [h1, ih]
    have h2 : (mark_one g A e.1 e.2).marker y = if y = e.2 then true else A.marker y := rfl
    rw [h2]
    by_cases hy : y = e.2
    · simp [hy]
    · have hb : (y == e.2) = false := by simpa using hy
      simp [hy, hb]

theorem mark_all_stat (g : globals) (path : List (interval_ptr × timed_tail)) :
    ∀ (A : timed_automaton) (q : Nat) (s : timed_state), A.mem q = some s →
      ∃ u, (mark_all g A path).mem q = some u ∧
        u.stat = ((path.filter (fun e => decide (e.1.state = q))).map Prod.snd).foldl
          (state_statistics.mark g) s.stat := by
  induction path with
  | nil =>
    intro A q s hs
    exact ⟨s, hs, rfl⟩
  | cons e es ih =>
    intro A q s hs
    have h1 : mark_all g A (e :: es) = mark_all g (mark_one g A e.1 e.2) es := rfl
    rw [h1]
    by_cases hq : e.1.state = q
    · have hm : (mark_one g A e.1 e.2).mem q = some (mark_entry g s e.1.symbol e.1.key e.2) := by
        show (if q = e.1.state then (A.mem q).map _ else A.mem q) = _
        rw [if_pos hq.symm, hs]
        rfl
      obtain ⟨u, hu, hst⟩ := ih _ q _ hm
      refine ⟨u, hu, ?_⟩
      rw [hst, List.filter_cons_of_pos (by simpa using hq)]
      simp only [List.map_cons, List.foldl_cons]
      unfold mark_entry
      rw [update_stat_field]
    · have hm : (mark_one g A e.1 e.2).mem q = some s := by
        show (if q = e.1.state then (A.mem q).map _ else A.mem q) = _
        rw [if_neg (fun h => hq h.symm), hs]
      obtain ⟨u, hu, hst⟩ := ih _ q _ hm
      refine ⟨u, hu, ?_⟩
      rw [hst, List.filter_cons_of_neg (by simpa using hq)]

theorem find_key_update (l : interval_set) (k k' : Int) (f : interval → interval) :
    (update_interval l k f).find? (fun e => e.1 == k') =
      (l.find? (fun e => e.1 == k')).map (fun e => if k = k' then (e.1, f e.2) else e) := by
  induction l with
  | nil => rfl
  | cons x rest ih =>
    obtain ⟨kx, ix⟩ := x
    simp only [update_interval]
    by_cases h1 : kx = k
    · rw [if_pos h1]
      by_cases h2 : kx = k'
      · have hkk : k = k' := by rw [← h1, h2]
        rw [List.find?_cons_of_pos _ (by simpa using h2),
          List.find?_cons_of_pos _ (by simpa using h2), Option.map_some', if_pos hkk]
      · have hkk : ¬ k = k' := by rw [← h1]; exact h2
        rw [List.find?_cons_of_neg _ (by simpa using h2),
          List.find?_cons_of_neg _ (by simpa using h2)]
        simp [hkk]
    · rw [if_neg h1]
      by_cases h2 : kx = k'
      · have hkk : ¬ k = k' := by rw [← h2]; exact fun h => h1 h.symm
        rw [List.find?_cons_of_pos _ (by simpa using h2),
          List.find?_cons_of_pos _ (by simpa using h2), Option.map_some', if_neg hkk]
      · rw [List.find?_cons_of_neg _ (by simpa using h2),
          List.find?_cons_of_neg _ (by simpa using h2)]
        exact ih

theorem read_mark_one (g : globals) (A : timed_automaton) (r r' : interval_ptr)
    (x : timed_tail) (i : interval) (hr : A.read r' = some i) :
    (mark_one g A r x).read r' =
      some (if r = r' then { i with num_marked := i.num_marked + 1 } else i) := by
  obtain ⟨q, sy, k⟩ := r
  obtain ⟨q', sy', k'⟩ := r'
  unfold timed_automaton.read at hr ⊢
  simp only at hr ⊢
  obtain ⟨s, hs, hr⟩ := Option.bind_eq_some.1 hr
  obtain ⟨l, hl, hr⟩ := Option.bind_eq_some.1 hr
  obtain ⟨e, he, rfl⟩ := Option.map_eq_some'.1 hr
  by_cases hq : q' = q
  · subst hq
    have hm : (mark_one g A ⟨q', sy, k⟩ x).mem q' = some (mark_entry g s sy k x) := by
      show (if q' = q' then (A.mem q').map _ else A.mem q') = _
      rw [if_pos rfl, hs]
      rfl
    rw [hm, Option.some_bind]
    unfold mark_entry timed_state.update timed_state.get_intervals at *
    simp only
    by_cases hsy : sy = sy'
    · subst hsy
      rw [hl]
      simp only
      have hlt : sy < s.targets.length := (List.getElem?_eq_some_iff.1 hl).1
      rw [List.getElem?_set_self hlt, Option.some_bind, find_key_update, he, Option.map_some',
        Option.map_some']
      by_cases hk : k = k'
      · subst hk
        simp
      · have hne : ¬ (⟨q', sy, k⟩ : interval_ptr) = ⟨q', sy, k'⟩ := by
          intro h
          cases h
          exact hk rfl
        simp [hk, hne]
    · have hne : ¬ (⟨q', sy, k⟩ : interval_ptr) = ⟨q', sy', k'⟩ := by
        intro h
        cases h
        exact hsy rfl
      rw [if_neg hne]
      cases hsyl : s.targets[sy]? with
      | none =>
        simp only
        rw [hl, Option.some_bind, he]
        rfl
      | some l2 =>
        simp only
        rw [List.getElem?_set_ne hsy, hl, Option.some_bind, he]
        rfl
  · have hm : (mark_one g A ⟨q, sy, k⟩ x).mem q' = some s := by
      show (if q' = q then (A.mem q').map _ else A.mem q') = _
      rw [if_neg hq, hs]
    have hne : ¬ (⟨q, sy, k⟩ : interval_ptr) = ⟨q', sy', k'⟩ := by
      intro h
      cases h
      exact hq rfl
    rw [hm, Option.some_bind, hl, Option.some_bind, he, if_neg hne]
    rfl

theorem mark_all_read (g : globals) (path : List (interval_ptr × timed_tail)) :
    ∀ (A : timed_automaton) (r : interval_ptr) (i : interval), A.read r = some i →
      (mark_all g A path).read r =
        some { i with
          num_marked := i.num_marked + ((path.filter (fun e => decide (e.1 = r))).length : Int) } := by
  induction path with
  | nil =>
    intro A r i hr
    simpa [mark_all] using hr
  | cons e es ih =>
    intro A r i hr
    have h1 : mark_all g A (e :: es) = mark_all g (mark_one g A e.1 e.2) es := rfl
    rw [h1, ih _ r _ (read_mark_one g A e.1 r e.2 i hr)]
    by_cases he : e.1 = r
    · rw [if_pos he, List.filter_cons_of_pos (by simpa using he)]
      simp only [List.length_cons]
      congr 2
      push_cast
      ring
    · rw [if_neg he, List.filter_cons_of_neg (by simpa using he)]

theorem mark_counts_kept (g : globals) (s : state_statistics) (y : timed_tail) :
    (s.mark g y).total_counts + (s.mark g y).total_marks = s.total_counts + s.total_marks ∧
      (s.mark g y).total_marks = s.total_marks + 1 ∧
      (s.mark g y).symbol_counts = bump s.symbol_counts y.get_symbol (-1) ∧
      (s.mark g y).symbol_marks = bump s.symbol_marks y.get_symbol 1 ∧
      (s.mark g y).time_counts = bump s.time_counts (get_bar g y.get_time_value) (-1) ∧
      (s.mark g y).time_marks = bump s.time_marks (get_bar g y.get_time_value) 1 := by
  refine ⟨?_, rfl, rfl, rfl, rfl, rfl⟩
  unfold state_statistics.mark
  simp only
  ring

theorem bump_sum_kept (c m : List Int) (h : c.length = m.length) (k : Nat) :
    List.zipWith (fun a b => a + b) (bump c k (-1)) (bump m k 1) =
      List.zipWith (fun a b => a + b) c m := by
  induction c generalizing m k with
  | nil =>
    cases m with
    | nil => rfl
    | cons b bs => simp at h
  | cons a as ih =>
    cases m with
    | nil => simp at h
    | cons b bs =>
      simp only [List.length_cons, add_left_inj] at h
      cases k with
      | zero =>
        simp only [bump, List.zipWith_cons_cons]
        congr 1
        ring
      | succ k =>
        simp only [bump, List.zipWith_cons_cons]
        rw [ih bs h k]

end RTI


namespace RTI

/-! ### C14: marking a tail -/

/-- C14: let the tail `x` be stored in the interval `in_` and let its successors be stored
along the targets (`holders` finds the interval `e.1` that holds each tail `e.2` of the
chain), none of them marked. Then `mark(in, x)` returns; the tails it has visited are `x`
and all tails reachable from `x` by `next_tail`; afterwards exactly these tails are marked
in addition; the states, partitions, boundaries, tails and targets are as before; the
statistics of every state are the old ones after one `mark` step for every tail of the
chain that the state holds, and a step moves one unit from `total_counts`,
`symbol_counts[symbol]` and `time_counts[bar]` to the corresponding marks, so that the sum
of count and mark of every category stays; `num_marked` of every interval has grown by the
number of tails of the chain that the interval holds. Calling `mark` on a marked tail
changes nothing. -/
theorem mark_spec (g : globals) (A : timed_automaton) (in_ : interval_ptr) (x : timed_tail)
    (path : List (interval_ptr × timed_tail))
    (hpath : holders A (x.rest.length + 1) in_ x = some path)
    (hun : ∀ e, e ∈ path → A.marker e.2 = false) :
    mark g A (some in_.state) in_ x = some (mark_all g A path) ∧
      path.map Prod.snd = chain x ∧
      (∀ y, (mark_all g A path).marker y = (A.marker y || decide (y ∈ chain x))) ∧
      heap_same A (mark_all g A path) ∧
      (∀ q s, A.mem q = some s →
        ∃ u, (mark_all g A path).mem q = some u ∧
          u.stat = ((path.filter (fun e => decide (e.1.state = q))).map Prod.snd).foldl
            (state_statistics.mark g) s.stat) ∧
      (∀ r i, A.read r = some i →
        (mark_all g A path).read r =
          some { i with
            num_marked :=
              i.num_marked + ((path.filter (fun e => decide (e.1 = r))).length : Int) }) ∧
      (∀ (s : state_statistics) (y : timed_tail),
        (s.mark g y).total_counts + (s.mark g y).total_marks = s.total_counts + s.total_marks ∧
          (s.mark g y).total_marks = s.total_marks + 1 ∧
          (s.mark g y).symbol_counts = bump s.symbol_counts y.get_symbol (-1) ∧
          (s.mark g y).symbol_marks = bump s.symbol_marks y.get_symbol 1 ∧
          (s.mark g y).time_counts = bump s.time_counts (get_bar g y.get_time_value) (-1) ∧
          (s.mark g y).time_marks = bump s.time_marks (get_bar g y.get_time_value) 1) ∧
      (∀ (c m : List Int) (k : Nat), c.length = m.length →
        List.zipWith (fun a b => a + b) (bump c k (-1)) (bump m k 1) =
          List.zipWith (fun a b => a + b) c m) ∧
      ∀ (B : timed_automaton) (p : Option Nat) (r : interval_ptr), B.marker x = true →
        mark g B p r x = some B := by
  have htails := holders_tails A _ in_ x path hpath
  refine ⟨mark_chain_eq g _ A in_ x path hpath hun, htails, fun y => ?_,
    mark_all_same g path A, mark_all_stat g path A, mark_all_read g path A,
    mark_counts_kept g, fun c m k h => bump_sum_kept c m h k, fun B p r hB => ?_⟩
  · rw [mark_all_marker, htails]
  · unfold mark mark_chain
    rw [if_pos hB]

/-- The witness of C14: the first tail of the word `(0, 1) (0, 3)` in the interval of the
root of `example_tree`; its successor is held by the interval of the state below. -/
theorem mark_spec_witness :
    holders example_tree 4 ⟨0, 0, 10⟩ ⟨0, 0, [(0, 1), (0, 3), (2, 4)]⟩ =
        some [(⟨0, 0, 10⟩, ⟨0, 0, [(0, 1), (0, 3), (2, 4)]⟩),
          (⟨1, 0, 10⟩, ⟨0, 1, [(0, 3), (2, 4)]⟩)] ∧
      mark example_globals example_tree (some 0) ⟨0, 0, 10⟩ ⟨0, 0, [(0, 1), (0, 3), (2, 4)]⟩ =
        some (mark_all example_globals example_tree
          [(⟨0, 0, 10⟩, ⟨0, 0, [(0, 1), (0, 3), (2, 4)]⟩),
            (⟨1, 0, 10⟩, ⟨0, 1, [(0, 3), (2, 4)]⟩)]) :=
  ⟨by rfl,
    (mark_spec example_globals example_tree ⟨0, 0, 10⟩ ⟨0, 0, [(0, 1), (0, 3), (2, 4)]⟩
      [(⟨0, 0, 10⟩, ⟨0, 0, [(0, 1), (0, 3), (2, 4)]⟩), (⟨1, 0, 10⟩, ⟨0, 1, [(0, 3), (2, 4)]⟩)]
      (by rfl) (fun _ _ => rfl)).1⟩

end RTI


namespace RTI

/-! ### C32: `point` on an interval without a target -/

/-- C32 (amended): when the interval `i` that contains `time` in the partition for `symbol`
of the state at `p` has the null target, `point(symbol, time, new)` returns; afterwards the
interval has the target `new` and its slot `undo_tails` holds a copy of its tails, its other
fields are as before, and nothing else has changed: the other intervals of the partition, the
other partitions and the statistics of the state, the other states, the allocation counter,
the colored states, the root and the markers. -/
theorem point_null_target (g : globals) (fuel : Nat) (A : timed_automaton) (p symbol : Nat)
    (time : Int) (n : Nat) (s : timed_state) (l : interval_set) (k : Int) (i : interval)
    (hp : A.mem p = some s) (hl : s.targets[symbol]? = some l) (hok : partition_ok g l)
    (hf : find_interval l time = some (k, i)) (hto : i.to_ = none) :
    ∃ (A1 : timed_automaton) (l1 : interval_set),
      point g fuel A p symbol time (some n) = some A1 ∧
      A1.interval_at (some p) symbol time =
        some (⟨p, symbol, k⟩, { i with undo_tails := i.tails, to_ := some n }) ∧
      A1.mem p = some { targets := s.targets.set symbol l1, stat := s.stat } ∧
      List.Forall₂ (fun (a b : Int × interval) => a.1 = b.1 ∧
        (a.1 = k → b.2 = { a.2 with undo_tails := a.2.tails, to_ := some n }) ∧
        (a.1 ≠ k → b.2 = a.2)) l l1 ∧
      (∀ q, q ≠ p → A1.mem q = A.mem q) ∧ A1.next = A.next ∧ A1.states = A.states ∧
      A1.root = A.root ∧ A1.marker = A.marker := by
  have hsym : symbol < s.targets.length := (List.getElem?_eq_some.1 hl).1
  have hnd := partition_nodup hok
  have hat : A.interval_at (some p) symbol time = some (⟨p, symbol, k⟩, i) := by
    simp [timed_automaton.interval_at, hp, timed_state.find, timed_state.get_intervals, hl, hf]
  have hs1 : s.update symbol k (fun x => { x with undo_tails := x.tails, to_ := some n }) =
      s.set_intervals symbol
        (update_interval l k (fun x => { x with undo_tails := x.tails, to_ := some n })) := by
    unfold timed_state.update timed_state.set_intervals
    rw [hl]
  have hw : A.write ⟨p, symbol, k⟩ (fun x => { x with undo_tails := x.tails, to_ := some n }) =
      some (A.store p (s.set_intervals symbol
        (update_interval l k (fun x => { x with undo_tails := x.tails, to_ := some n })))) := by
    rw [write_eq hp, hs1]
  refine ⟨A.store p (s.set_intervals symbol
      (update_interval l k (fun x => { x with undo_tails := x.tails, to_ := some n }))),
    update_interval l k (fun x => { x with undo_tails := x.tails, to_ := some n }),
    ?_, ?_, ?_, ?_, ?_, rfl, rfl, rfl, rfl⟩
  · unfold point
    rw [hat]
    simp only [Option.some_bind, interval.get_target, hto]
    rw [if_neg (by simp), hw]
    rfl
  · exact interval_at_set (mem_store_self _ _ _) hsym
      (find_interval_update (fun x => { x with undo_tails := x.tails, to_ := some n }) hnd hf)
  · rw [mem_store_self]
    rfl
  · exact update_interval_rel k (fun x => { x with undo_tails := x.tails, to_ := some n }) hnd
  · intro q hq
    show (if q = p then _ else A.mem q) = A.mem q
    rw [if_neg hq]

/-- The interval of `null_target_automaton` has the null target; after `point(0, 1, new)`,
with the root itself as `new`, it has the target `new` and its tails in the slot
`undo_tails`. -/
theorem point_null_target_witness :
    ∃ (A1 : timed_automaton) (l1 : interval_set),
      point example_globals 1 null_target_automaton 0 0 1 (some 0) = some A1 ∧
      A1.interval_at (some 0) 0 1 =
        some (⟨0, 0, 10⟩, { null_target_interval with
          undo_tails := null_target_interval.tails, to_ := some 0 }) ∧
      A1.mem 0 = some ⟨null_target_root.targets.set 0 l1, null_target_root.stat⟩ ∧
      List.Forall₂ (fun (a b : Int × interval) => a.1 = b.1 ∧
        (a.1 = 10 → b.2 = { a.2 with undo_tails := a.2.tails, to_ := some 0 }) ∧
        (a.1 ≠ 10 → b.2 = a.2)) [(10, null_target_interval)] l1 ∧
      (∀ q, q ≠ 0 → A1.mem q = null_target_automaton.mem q) ∧
      A1.next = null_target_automaton.next ∧ A1.states = null_target_automaton.states ∧
      A1.root = null_target_automaton.root ∧ A1.marker = null_target_automaton.marker :=
  point_null_target example_globals 1 null_target_automaton 0 0 1 0 null_target_root
    [(10, null_target_interval)] 10 null_target_interval rfl rfl (by decide) (by rfl) rfl

/-- In `null_target_automaton` the interval of the root has the null target and an empty
slot `undo_tails`. After `point(0, 1, new)` with the root as `new` its slot `undo_tails`
holds two tails, and after the `undo_point(0, 1, new)` that follows its target is still
`new`. -/
theorem point_undo_point_null_target :
    (null_target_automaton.interval_at (some 0) 0 1).map
        (fun e => (e.2.to_, e.2.undo_tails.length)) = some (none, 0) ∧
      (point example_globals 1 null_target_automaton 0 0 1 (some 0)).bind (fun A1 =>
        (A1.interval_at (some 0) 0 1).map (fun e => (e.2.to_, e.2.undo_tails.length)))
        = some (some 0, 2) ∧
      (point example_globals 1 null_target_automaton 0 0 1 (some 0)).bind (fun A1 =>
        (undo_point example_globals 1 A1 0 0 1 (some 0)).bind (fun A2 =>
          (A2.interval_at (some 0) 0 1).map (fun e => e.2.to_))) = some (some 0) := by
  refine ⟨by rfl, by rfl, by rfl⟩

end RTI


namespace RTI

/-! ### C37: the rest bucket of the likelihood-ratio scorers -/

theorem likelihood_fold (g : globals) (N : numerics) (t1 t2 : Int) (l : List (Int × Int)) :
    ∀ (r : Int × ℚ),
      l.foldl (fun (acc : Int × ℚ) (p : Int × Int) =>
          if p.1 < g.MIN_DATA ∧ p.2 < g.MIN_DATA then acc
          else (acc.1 + 1, likelihood_term N acc.2 p.1 p.2 t1 t2)) r =
        (r.1 + (((l.filter
            (fun p => !decide (p.1 < g.MIN_DATA ∧ p.2 < g.MIN_DATA))).length : Nat) : Int),
          (l.filter (fun p => !decide (p.1 < g.MIN_DATA ∧ p.2 < g.MIN_DATA))).foldl
            (fun r p => likelihood_term N r p.1 p.2 t1 t2) r.2) := by
  induction l with
  | nil =>
    intro r
    simp
  | cons p ps ih =>
    intro r
    rw [List.foldl_cons, ih]
    by_cases h : p.1 < g.MIN_DATA ∧ p.2 < g.MIN_DATA
    · rw [if_pos h, List.filter_cons_of_neg (by rw [decide_eq_true h]; simp)]
    · rw [if_neg h, List.filter_cons_of_pos (by rw [decide_eq_false h]; rfl)]
      simp only [List.length_cons, List.foldl_cons, Nat.cast_add, Nat.cast_one]
      congr 1
      ring

theorem likelihood_terms_eq (g : globals) (N : numerics) (old new : List Int) (n : Nat)
    (t1 t2 : Int) (h1 : old.length = n) (h2 : new.length = n) :
    likelihood_terms g N old new n t1 t2 =
      some (((surviving_categories g old new).length : Int),
        (surviving_categories g old new).foldl
          (fun r p => likelihood_term N r p.1 p.2 t1 t2) 0) := by
  unfold likelihood_terms
  rw [foldlM_range_zip
    (fun (acc : Int × ℚ) (p : Int × Int) =>
      if p.1 < g.MIN_DATA ∧ p.2 < g.MIN_DATA then acc
      else (acc.1 + 1, likelihood_term N acc.2 p.1 p.2 t1 t2))
    old new n h1 h2, likelihood_fold]
  simp only [zero_add]
  rfl

theorem likelihood_test_rule (g : globals) (N : numerics) (old new : List Int) (n : Nat)
    (t1 t2 : Int) (hmin : 0 ≤ g.MIN_DATA) (h1 : old.length = n) (h2 : new.length = n) :
    ∃ s, likelihood_test g N old new n t1 t2 = some s ∧
      likelihood_bucket_rule g N old new t1 t2 s := by
  unfold likelihood_test
  rw [pool_counts_eq g old new n h1 h2, Option.some_bind]
  simp only
  by_cases hp : ((pooled_categories g old new).map Prod.fst).sum < g.MIN_DATA ∨
      ((pooled_categories g old new).map Prod.snd).sum < g.MIN_DATA
  · rw [if_pos hp]
    simp only
    rw [likelihood_terms_eq g N old new n _ _ h1 h2, Option.map_some',
      if_neg (by omega)]
    refine ⟨_, rfl, ?_⟩
    unfold likelihood_bucket_rule
    refine ⟨fun _ => ⟨rfl, rfl, rfl, rfl⟩, fun h => absurd hp h, fun h => ?_,
      fun _ => ⟨rfl, rfl⟩⟩
    omega
  · rw [if_neg hp]
    simp only
    rw [likelihood_terms_eq g N old new n _ _ h1 h2, Option.map_some']
    by_cases hb : ((pooled_categories g old new).map Prod.fst).sum > g.MIN_DATA ∨
        ((pooled_categories g old new).map Prod.snd).sum > g.MIN_DATA
    · rw [if_pos hb]
      refine ⟨_, rfl, ?_⟩
      unfold likelihood_bucket_rule
      exact ⟨fun h => absurd h hp, fun _ => ⟨rfl, rfl, rfl, rfl⟩, fun _ => ⟨rfl, rfl⟩,
        fun h => absurd ⟨by omega, by omega, hb⟩ h⟩
    · rw [if_neg hb]
      refine ⟨_, rfl, ?_⟩
      unfold likelihood_bucket_rule
      exact ⟨fun h => absurd h hp, fun _ => ⟨rfl, rfl, rfl, rfl⟩,
        fun h => absurd h.2.2 hb, fun _ => ⟨rfl, rfl⟩⟩

/-- C37: in each of the four likelihood-ratio scorers, when the arrays have their sizes,
`MIN_DATA` is not negative and both totals are at least `MIN_DATA`, the scorer ends with
sums `s` that obey the rule of the rest bucket (`likelihood_bucket_rule`): with the bucket
the sums of the categories whose count is below `MIN_DATA` on both sides, the bucket is
subtracted from both totals and reset to zero exactly when one of its sums is below
`MIN_DATA`, and it contributes a likelihood term and a parameter exactly when both sums are
at least `MIN_DATA` and one of them is above `MIN_DATA`. -/
theorem likelihood_bucket_spec (g : globals) (N : numerics) (acc : accumulators)
    (o n t : state_statistics) (hmin : 0 ≤ g.MIN_DATA) (ho : o.sized g) (hn : n.sized g)
    (ht : t.sized g)
    (h1 : ¬ (o.total_counts < g.MIN_DATA ∨ n.total_counts < g.MIN_DATA))
    (h2 : ¬ (t.total_counts < g.MIN_DATA ∨ t.total_marks < g.MIN_DATA)) :
    (∃ s, likelihood_bucket_rule g N o.symbol_counts n.symbol_counts o.total_counts
          n.total_counts s ∧
        get_likelihood_ratio g N acc (some o) (some n) = some (likelihood_finish acc s)) ∧
      (∃ s, likelihood_bucket_rule g N o.time_counts n.time_counts o.total_counts
          n.total_counts s ∧
        get_likelihood_ratio_time g N acc (some o) (some n) =
          some (likelihood_finish acc s)) ∧
      (∃ s, likelihood_bucket_rule g N t.symbol_counts t.symbol_marks t.total_counts
          t.total_marks s ∧
        get_likelihood_ratio_marks g N acc (some t) = some (likelihood_finish acc s)) ∧
      (∃ s, likelihood_bucket_rule g N t.time_counts t.time_marks t.total_counts
          t.total_marks s ∧
        get_likelihood_ratio_time_marks g N acc (some t) =
          some (likelihood_finish acc s)) := by
  refine ⟨?_, ?_, ?_, ?_⟩
  · obtain ⟨s, hs, hr⟩ := likelihood_test_rule g N o.symbol_counts n.symbol_counts
      g.MAX_SYMBOL o.total_counts n.total_counts hmin ho.1 hn.1
    exact ⟨s, hr, by simp only [get_likelihood_ratio, if_neg h1, hs, Option.map_some']⟩
  · obtain ⟨s, hs, hr⟩ := likelihood_test_rule g N o.time_counts n.time_counts
      NUM_HISTOGRAM_BARS o.total_counts n.total_counts hmin ho.2.1 hn.2.1
    exact ⟨s, hr, by simp only [get_likelihood_ratio_time, if_neg h1, hs, Option.map_some']⟩
  · obtain ⟨s, hs, hr⟩ := likelihood_test_rule g N t.symbol_counts t.symbol_marks
      g.MAX_SYMBOL t.total_counts t.total_marks hmin ht.1 ht.2.2.1
    exact ⟨s, hr, by simp only [get_likelihood_ratio_marks, if_neg h2, hs, Option.map_some']⟩
  · obtain ⟨s, hs, hr⟩ := likelihood_test_rule g N t.time_counts t.time_marks
      NUM_HISTOGRAM_BARS t.total_counts t.total_marks hmin ht.2.1 ht.2.2.2
    exact ⟨s, hr, by
      simp only [get_likelihood_ratio_time_marks, if_neg h2, hs, Option.map_some']⟩

/-- The witness of C37: the states with the symbol counts `5, 5, 20` and `3, 3, 20`, and a
state with 30 counts and 30 marks. -/
theorem likelihood_bucket_spec_witness :
    ∃ s, likelihood_bucket_rule three_symbol_globals example_numerics
        example_old_stat.symbol_counts example_new_stat.symbol_counts
        example_old_stat.total_counts example_new_stat.total_counts s ∧
      get_likelihood_ratio three_symbol_globals example_numerics zero_accumulators
        (some example_old_stat) (some example_new_stat)
        = some (likelihood_finish zero_accumulators s) :=
  (likelihood_bucket_spec three_symbol_globals example_numerics zero_accumulators
    example_old_stat example_new_stat { example_old_stat with total_marks := 30 } (by decide)
    ⟨rfl, rfl, rfl, rfl⟩ ⟨rfl, rfl, rfl, rfl⟩ ⟨rfl, rfl, rfl, rfl⟩ (by decide)
    (by decide)).1

end RTI


namespace RTI

/-! ### C38: the divisors of the chi-squared scorers -/

theorem pooled_fst_nonneg (g : globals) (old new : List Int) (h : ∀ x, x ∈ old → 0 ≤ x) :
    0 ≤ ((pooled_categories g old new).map Prod.fst).sum := by
  apply List.sum_nonneg
  intro x hx
  obtain ⟨p, hp, rfl⟩ := List.mem_map.1 hx
  exact h p.1 (List.of_mem_zip (List.mem_filter.1 hp).1).1

theorem pooled_snd_nonneg (g : globals) (old new : List Int) (h : ∀ x, x ∈ new → 0 ≤ x) :
    0 ≤ ((pooled_categories g old new).map Prod.snd).sum := by
  apply List.sum_nonneg
  intro x hx
  obtain ⟨p, hp, rfl⟩ := List.mem_map.1 hx
  exact h p.2 (List.of_mem_zip (List.mem_filter.1 hp).1).2

theorem chi2_call_safe_of_pos {a b t1 t2 : Int} (hab : 0 < a + b) (h1 : 1 ≤ t1)
    (h2 : 1 ≤ t2) : chi2_call_safe a b t1 t2 := by
  have hq : (0 : ℚ) < (a : ℚ) + (b : ℚ) := by exact_mod_cast hab
  have q1 : (0 : ℚ) < (t1 : ℚ) := by exact_mod_cast (by omega : (0 : Int) < t1)
  have q2 : (0 : ℚ) < (t2 : ℚ) := by exact_mod_cast (by omega : (0 : Int) < t2)
  refine ⟨hab, h1, h2, add_pos q1 q2, ?_, ?_⟩
  · exact div_pos (mul_pos q1 hq) (add_pos q1 q2)
  · exact div_pos (mul_pos q2 hq) (add_pos q1 q2)

theorem chi2_test_safe (g : globals) (old new : List Int) (n : Nat) (t1 t2 : Int)
    (hmin : 1 ≤ g.MIN_DATA) (h1 : old.length = n) (h2 : new.length = n)
    (hold : ∀ x, x ∈ old → 0 ≤ x) (hnew : ∀ x, x ∈ new → 0 ≤ x)
    (ht1 : g.MIN_DATA ≤ t1) (ht2 : g.MIN_DATA ≤ t2) :
    ∃ s, chi2_test g old new n t1 t2 = some s ∧ bucket_rule g old new t1 t2 s ∧
      chi2_calls_safe g old new s := by
  obtain ⟨s, hs, hr⟩ := chi2_test_rule g old new n t1 t2 (by omega) h1 h2
  refine ⟨s, hs, hr, ?_⟩
  have hpo := pooled_fst_nonneg g old new hold
  have hpn := pooled_snd_nonneg g old new hnew
  obtain ⟨r1, r2, -, -⟩ := hr
  have htot : 1 ≤ s.total_old ∧ 1 ≤ s.total_new := by
    by_cases hp : ((pooled_categories g old new).map Prod.fst).sum < g.MIN_DATA ∧
        ((pooled_categories g old new).map Prod.snd).sum < g.MIN_DATA
    · obtain ⟨e1, e2⟩ := r1 hp
      rw [e1, e2]
      omega
    · obtain ⟨e1, e2⟩ := r2 hp
      rw [e1, e2]
      omega
  refine ⟨htot.1, htot.2, ?_, ?_⟩
  · intro p hp
    obtain ⟨hz, hf⟩ := List.mem_filter.1 hp
    have ha := hold p.1 (List.of_mem_zip hz).1
    have hb := hnew p.2 (List.of_mem_zip hz).2
    have hnot : ¬ (p.1 < g.MIN_DATA ∧ p.2 < g.MIN_DATA) := by
      intro hc
      rw [decide_eq_true hc] at hf
      simp at hf
    exact chi2_call_safe_of_pos (by omega) htot.1 htot.2
  · intro hb
    exact chi2_call_safe_of_pos (by omega) htot.1 htot.2

/-- C38: in each of the four chi-squared scorers, when the arrays have their sizes, no
counter is negative, `MIN_DATA` is at least 1 (it is 10) and both totals are at least
`MIN_DATA`, the scorer ends with sums `s` for which `bucket_rule` tells the calls of
`calculate_chi2_value`, and every one of these calls divides by positive numbers only
(`chi2_calls_safe`): the totals are at least 1 after the rest bucket has been subtracted,
every scored category and the scored bucket has a positive combined count, and the sum of
the totals and the two expected values are positive. -/
theorem chi2_divisors_positive (g : globals) (N : numerics) (acc : accumulators)
    (o n t : state_statistics) (hmin : 1 ≤ g.MIN_DATA) (ho : o.sized g) (hn : n.sized g)
    (ht : t.sized g) (po : o.nonneg) (pn : n.nonneg) (pt : t.nonneg)
    (h1 : ¬ (o.total_counts < g.MIN_DATA ∨ n.total_counts < g.MIN_DATA))
    (h2 : ¬ (t.total_counts < g.MIN_DATA ∨ t.total_marks < g.MIN_DATA)) :
    (∃ s, bucket_rule g o.symbol_counts n.symbol_counts o.total_counts n.total_counts s ∧
        chi2_calls_safe g o.symbol_counts n.symbol_counts s ∧
        calculate_chi2_score g N acc (some o) (some n) = some (chi2_finish N acc s)) ∧
      (∃ s, bucket_rule g o.time_counts n.time_counts o.total_counts n.total_counts s ∧
        chi2_calls_safe g o.time_counts n.time_counts s ∧
        calculate_chi2_score_time g N acc (some o) (some n) = some (chi2_finish N acc s)) ∧
      (∃ s, bucket_rule g t.symbol_counts t.symbol_marks t.total_counts t.total_marks s ∧
        chi2_calls_safe g t.symbol_counts t.symbol_marks s ∧
        calculate_chi2_score_marks g N acc (some t) = some (chi2_finish N acc s)) ∧
      (∃ s, bucket_rule g t.time_counts t.time_marks t.total_counts t.total_marks s ∧
        chi2_calls_safe g t.time_counts t.time_marks s ∧
        calculate_chi2_score_time_marks g N acc (some t) = some (chi2_finish N acc s)) := by
  have a1 : g.MIN_DATA ≤ o.total_counts := by omega
  have a2 : g.MIN_DATA ≤ n.total_counts := by omega
  have a3 : g.MIN_DATA ≤ t.total_counts := by omega
  have a4 : g.MIN_DATA ≤ t.total_marks := by omega
  refine ⟨?_, ?_, ?_, ?_⟩
  · obtain ⟨s, hs, hr, hc⟩ := chi2_test_safe g o.symbol_counts n.symbol_counts g.MAX_SYMBOL
      o.total_counts n.total_counts hmin ho.1 hn.1 po.1 pn.1 a1 a2
    exact ⟨s, hr, hc, by simp only [calculate_chi2_score, if_neg h1, hs, Option.map_some']⟩
  · obtain ⟨s, hs, hr, hc⟩ := chi2_test_safe g o.time_counts n.time_counts
      NUM_HISTOGRAM_BARS o.total_counts n.total_counts hmin ho.2.1 hn.2.1 po.2.1 pn.2.1 a1 a2
    exact ⟨s, hr, hc, by
      simp only [calculate_chi2_score_time, if_neg h1, hs, Option.map_some']⟩
  · obtain ⟨s, hs, hr, hc⟩ := chi2_test_safe g t.symbol_counts t.symbol_marks g.MAX_SYMBOL
      t.total_counts t.total_marks hmin ht.1 ht.2.2.1 pt.1 pt.2.2.1 a3 a4
    exact ⟨s, hr, hc, by
      simp only [calculate_chi2_score_marks, if_neg h2, hs, Option.map_some']⟩
  · obtain ⟨s, hs, hr, hc⟩ := chi2_test_safe g t.time_counts t.time_marks
      NUM_HISTOGRAM_BARS t.total_counts t.total_marks hmin ht.2.1 ht.2.2.2 pt.2.1 pt.2.2.2
      a3 a4
    exact ⟨s, hr, hc, by
      simp only [calculate_chi2_score_time_marks, if_neg h2, hs, Option.map_some']⟩

/-- The witness of C38: the states with the symbol counts `5, 5, 20` and `3, 3, 20`, and a
state with 30 counts and 30 marks. -/
theorem chi2_divisors_positive_witness :
    ∃ s, bucket_rule three_symbol_globals example_old_stat.symbol_counts
        example_new_stat.symbol_counts example_old_stat.total_counts
        example_new_stat.total_counts s ∧
      chi2_calls_safe three_symbol_globals example_old_stat.symbol_counts
        example_new_stat.symbol_counts s ∧
      calculate_chi2_score three_symbol_globals example_numerics zero_accumulators
        (some example_old_stat) (some example_new_stat)
        = some (chi2_finish example_numerics zero_accumulators s) :=
  (chi2_divisors_positive three_symbol_globals example_numerics zero_accumulators
    example_old_stat example_new_stat { example_old_stat with total_marks := 30 } (by decide)
    ⟨rfl, rfl, rfl, rfl⟩ ⟨rfl, rfl, rfl, rfl⟩ ⟨rfl, rfl, rfl, rfl⟩
    ⟨by decide, by decide, by decide, by decide⟩ ⟨by decide, by decide, by decide, by decide⟩
    ⟨by decide, by decide, by decide, by decide⟩ (by decide) (by decide)).1

end RTI


namespace RTI

/-! ### C31: the divisions of `calculate_aic` -/

/-- The test of `quotient_ne_zero` is the test `x != 0` on the value of the quotient. -/
theorem quotient_ne_zero_eq (a b : Int) :
    quotient_ne_zero a b = match double_div a b with
      | none => true
      | some x => decide (x ≠ 0) := by
  unfold quotient_ne_zero double_div
  by_cases hb : b = 0
  · simp [hb]
  · have hq : (b : ℚ) ≠ 0 := by exact_mod_cast hb
    simp [hb, hq]

/-- The value of `quotient_log` is the logarithm of the value of the quotient where this
value is a positive number. -/
theorem quotient_log_eq (N : numerics) (a b : Int) :
    quotient_log N a b = (double_div a b).bind
      (fun x => if 0 < x then some (N.log x) else none) := by
  unfold quotient_log double_div
  by_cases hb : b = 0
  · simp [hb]
  · have hq : (b : ℚ) ≠ 0 := by exact_mod_cast hb
    rw [if_neg hb, Option.some_bind]
    have hiff : (0 : ℚ) < (a : ℚ) / (b : ℚ) ↔ 0 < a * b := by
      rw [div_pos_iff, ← Int.cast_zero, Int.cast_lt, Int.cast_lt, Int.cast_lt, Int.cast_lt]
      constructor
      · rintro (⟨h1, h2⟩ | ⟨h1, h2⟩)
        · exact Int.mul_pos h1 h2
        · exact Int.mul_pos_of_neg_of_neg h1 h2
      · intro h
        rcases lt_trichotomy b 0 with h2 | h2 | h2
        · right
          exact ⟨by
            by_contra hc
            have : a * b ≤ 0 := Int.mul_nonpos_of_nonneg_of_nonpos (by omega) (by omega)
            omega, h2⟩
        · exact absurd h2 hb
        · left
          exact ⟨by
            by_contra hc
            have : a * b ≤ 0 := Int.mul_nonpos_of_nonpos_of_nonneg (by omega) (by omega)
            omega, h2⟩
    by_cases hp : 0 < a * b
    · rw [if_pos ⟨hb, hp⟩, if_pos (hiff.2 hp)]
    · rw [if_neg (fun h => hp h.2), if_neg (fun h => hp (hiff.1 h))]

set_option maxRecDepth 1000000 in
/-- C31 (failing input): on the corpus of twenty words `a 0` followed by twenty words `b 0`,
with an alphabet of four symbols in the header, the way down of `greedy` makes three calls
of `get_best_refinements` and ends in an automaton with the colored states at the addresses
0, 1 and 2, for which `get_best_refinements` returns nothing, so that `greedy` calls
`calculate_aic` on it. The states at 1 and 2 hold no tails: their total counts are 0, every
probability of theirs is the quotient `0 / 0`, which is not a number and passes the test
`!= 0`, its logarithm is taken, and the result of `calculate_aic` and of
`calculate_aic_without_default` is not a finite number. With an alphabet of two symbols in
the header the update of `num_tests` in the loop over the four histogram bars, which the
test lets pass for every bar, reads `symbol_counts[2]` in an array of two entries. -/
theorem aic_two_branches :
    (automaton_of_corpus 4 two_branches 3).bind (fun r =>
        (greedy_descent r.1 default_p_values 3 5 r.2).map (fun d =>
          (d.1.length, d.2.states, (d.2.mem 1).map (fun s => s.stat.total_counts),
            (d.2.mem 2).map (fun s => s.stat.total_counts),
            quotient_ne_zero 0 0, quotient_log example_numerics 0 0,
            calculate_aic r.1 example_numerics d.2,
            calculate_aic_without_default r.1 example_numerics d.2)))
      = some (3, [0, 1, 2], some 0, some 0, true, none, some none, some none) ∧
    (automaton_of_corpus 2 two_branches 3).bind (fun r =>
        (greedy_descent r.1 default_p_values 3 5 r.2).map (fun d =>
          (d.1.length, d.2.states, (d.2.mem 1).map (fun s => s.stat.symbol_counts),
            calculate_aic r.1 example_numerics d.2,
            calculate_aic_without_default r.1 example_numerics d.2)))
      = some (3, [0, 1, 2], some [0, 0], none, none) := by
  constructor <;> rfl

end RTI


namespace RTI

/-! ### The marking loop of `test_split` -/

theorem mark_chain_same (g : globals) (n : Nat) :
    ∀ (A : timed_automaton) (r : interval_ptr) (x : timed_tail) (B : timed_automaton),
      mark_chain g n A (some r.state) r x = some B →
      heap_same A B ∧ (∀ y, A.marker y = true → B.marker y = true) ∧ B.marker x = true := by
  induction n with
  | zero =>
    intro A r x B h
    cases h
  | succ n ih =>
    intro A r x B h
    unfold mark_chain at h
    by_cases hx0 : A.marker x = true
    · rw [if_pos hx0] at h
      cases h
      exact ⟨heap_same_refl A, fun _ hy => hy, hx0⟩
    · rw [if_neg hx0] at h
      obtain ⟨A1, h1, h⟩ := Option.bind_eq_some.1 h
      obtain ⟨s, hs, -⟩ : ∃ s, A.mem r.state = some s ∧ True := by
        unfold timed_automaton.update_stat at h1
        simp only at h1
        obtain ⟨s, hs, -⟩ := Option.map_eq_some'.1 h1
        exact ⟨s, hs, trivial⟩
      obtain ⟨A1', A2, h1', h2, h3⟩ := mark_step g A r x s hs
      rw [h1'] at h1
      cases h1
      rw [h2, Option.some_bind] at h
      simp only at h
      rw [h3] at h
      have hsame := mark_one_same g A r x
      have hmono : ∀ y, A.marker y = true → (mark_one g A r x).marker y = true := by
        intro y hy
        show (if y = x then true else A.marker y) = true
        split
        · rfl
        · exact hy
      have hxm : (mark_one g A r x).marker x = true := by
        show (if x = x then true else A.marker x) = true
        rw [if_pos rfl]
      cases hx : x.next_tail with
      | none =>
        rw [hx] at h
        cases h
        exact ⟨hsame, hmono, hxm⟩
      | some nt =>
        rw [hx] at h
        simp only at h
        obtain ⟨i, -, h⟩ := Option.bind_eq_some.1 h
        obtain ⟨e, he, h⟩ := Option.bind_eq_some.1 h
        have hto := interval_at_state he
        rw [hto] at h
        obtain ⟨q1, q2, -⟩ := ih _ _ _ _ h
        exact ⟨heap_same_trans hsame q1, fun y hy => q2 y (hmono y hy), q2 x hxm⟩

theorem mark_marked (g : globals) (A : timed_automaton) (p : Option Nat) (r : interval_ptr)
    (x : timed_tail) (h : A.marker x = true) : mark g A p r x = some A := by
  unfold mark mark_chain
  rw [if_pos h]

theorem mark_upto_kept (g : globals) (r : interval_ptr) (t : Int) (L : List timed_tail) :
    ∀ (A B : timed_automaton), L.foldlM (mark_upto g r.state r t) A = some B →
      heap_same A B ∧ ∀ y, A.marker y = true → B.marker y = true := by
  intro A B h
  refine foldlM_inv (mark_upto g r.state r t)
    (fun C => heap_same A C ∧ ∀ y, A.marker y = true → C.marker y = true) L A B
    ⟨heap_same_refl A, fun _ hy => hy⟩ ?_ h
  intro C x D _ hC hD
  unfold mark_upto at hD
  split at hD
  · obtain ⟨q1, q2, -⟩ := mark_chain_same g _ _ _ _ _ hD
    exact ⟨heap_same_trans hC.1 q1, fun y hy => q2 y (hC.2 y hy)⟩
  · split at hD
    · cases hD
    · cases hD
      exact hC

theorem check_fold (g : globals) (p : Nat) (r : interval_ptr) (t : Int) (L : List timed_tail) :
    ∀ (A B : timed_automaton), (∀ x, x ∈ L → t < x.get_time_value) →
      L.foldlM (mark_upto g p r t) A = some B → B = A := by
  induction L with
  | nil =>
    intro A B _ h
    cases h
    rfl
  | cons x xs ih =>
    intro A B hL h
    rw [List.foldlM_cons] at h
    obtain ⟨C, hC, h⟩ := Option.bind_eq_some.1 h
    unfold mark_upto at hC
    rw [if_neg (by have := hL x (List.mem_cons_self _ _); omega)] at hC
    split at hC
    · cases hC
    · cases hC
      exact ih A B (fun y hy => hL y (List.mem_cons_of_mem _ hy)) h

theorem mark_upto_again (g : globals) (r : interval_ptr) (t1 t2 : Int) (h12 : t1 ≤ t2)
    (L : List timed_tail) :
    ∀ (A A1 : timed_automaton), tails_sorted L →
      L.foldlM (mark_upto g r.state r t1) A = some A1 →
      L.foldlM (mark_upto g r.state r t2) A1 = L.foldlM (mark_upto g r.state r t2) A := by
  induction L with
  | nil =>
    intro A A1 _ h
    cases h
    rfl
  | cons x xs ih =>
    intro A A1 hs h
    have hs' : tails_sorted xs := (List.pairwise_cons.1 hs).2
    by_cases hx : x.get_time_value ≤ t1
    · rw [List.foldlM_cons] at h
      obtain ⟨B, hB, h⟩ := Option.bind_eq_some.1 h
      have hmB : mark g A (some r.state) r x = some B := by
        unfold mark_upto at hB
        rw [if_pos hx] at hB
        exact hB
      obtain ⟨-, -, hBx⟩ := mark_chain_same g _ _ _ _ _ hmB
      have hA1x : A1.marker x = true := (mark_upto_kept g r t1 xs B A1 h).2 x hBx
      have e1 : (x :: xs).foldlM (mark_upto g r.state r t2) A =
          xs.foldlM (mark_upto g r.state r t2) B := by
        rw [List.foldlM_cons]
        unfold mark_upto
        rw [if_pos (by omega), hmB]
        rfl
      have e2 : (x :: xs).foldlM (mark_upto g r.state r t2) A1 =
          xs.foldlM (mark_upto g r.state r t2) A1 := by
        rw [List.foldlM_cons]
        unfold mark_upto
        rw [if_pos (by omega), mark_marked g A1 _ r x hA1x]
        rfl
      rw [e1, e2]
      exact ih B A1 hs' h
    · have hall : ∀ y, y ∈ x :: xs → t1 < y.get_time_value := by
        intro y hy
        rcases List.mem_cons.1 hy with rfl | hy
        · omega
        · have := (List.pairwise_cons.1 hs).1 y hy
          omega
      rw [check_fold g r.state r t1 (x :: xs) A A1 hall h]

theorem mark_all_join (g : globals) (A : timed_automaton)
    (M M' : List (interval_ptr × timed_tail)) :
    mark_all g (mark_all g A M) M' = mark_all g A (M ++ M') := by
  unfold mark_all
  rw [List.foldl_append]

theorem mark_upto_fold (g : globals) (A : timed_automaton) (r : interval_ptr) (t : Int)
    (L : List timed_tail) :
    ∀ (A0 : timed_automaton) (M : List (interval_ptr × timed_tail)),
      split_marks A r t L = some M → heap_same A A0 → (M.map Prod.snd).Nodup →
      (∀ e, e ∈ M → A0.marker e.2 = false) →
      (∀ x, x ∈ L → t < x.get_time_value → A0.marker x = false ∧ x ∉ M.map Prod.snd) →
      L.foldlM (mark_upto g r.state r t) A0 = some (mark_all g A0 M) := by
  induction L with
  | nil =>
    intro A0 M hM _ _ _ _
    cases hM
    rfl
  | cons x xs ih =>
    intro A0 M hM hsame hnd hun hrest
    unfold split_marks at hM
    rw [List.foldlM_cons]
    by_cases hx : x.get_time_value ≤ t
    · rw [if_pos hx] at hM
      obtain ⟨path, hpath, hM⟩ := Option.bind_eq_some.1 hM
      obtain ⟨M', hM', hM⟩ := Option.map_eq_some'.1 hM
      subst hM
      rw [List.map_append] at hnd
      have hstep : mark_upto g r.state r t A0 x = some (mark_all g A0 path) := by
        unfold mark_upto mark
        rw [if_pos hx]
        exact mark_chain_eq g _ A0 r x path (holders_same hsame _ _ _ _ hpath)
          (fun e he => hun e (List.mem_append_left _ he))
      rw [hstep]
      show xs.foldlM (mark_upto g r.state r t) (mark_all g A0 path) = _
      rw [ih (mark_all g A0 path) M' hM' (heap_same_trans hsame (mark_all_same g path A0))
        (List.Nodup.of_append_right hnd) ?_ ?_, mark_all_join]
      · intro e he
        rw [mark_all_marker, hun e (List.mem_append_right _ he), Bool.false_or,
          decide_eq_false_iff_not]
        intro hc
        exact (List.nodup_append.1 hnd).2.2 hc (List.mem_map_of_mem Prod.snd he)
      · intro y hy hty
        obtain ⟨q1, q2⟩ := hrest y (List.mem_cons_of_mem _ hy) hty
        rw [List.map_append, List.mem_append, not_or] at q2
        refine ⟨?_, q2.2⟩
        rw [mark_all_marker, q1, Bool.false_or, decide_eq_false_iff_not]
        exact q2.1
    · rw [if_neg hx] at hM
      have hstep : mark_upto g r.state r t A0 x = some A0 := by
        unfold mark_upto
        rw [if_neg hx, (hrest x (List.mem_cons_self _ _) (by omega)).1]
        rfl
      rw [hstep]
      exact ih A0 M hM hsame hnd hun
        (fun y hy hty => hrest y (List.mem_cons_of_mem _ hy) hty)

theorem split_marks_tails (A : timed_automaton) (r : interval_ptr) (t : Int)
    (L : List timed_tail) :
    ∀ (M : List (interval_ptr × timed_tail)), split_marks A r t L = some M →
      M.map Prod.snd =
        (L.filter (fun x => decide (x.get_time_value ≤ t))).flatMap chain := by
  induction L with
  | nil =>
    intro M hM
    cases hM
    rfl
  | cons x xs ih =>
    intro M hM
    unfold split_marks at hM
    by_cases hx : x.get_time_value ≤ t
    · rw [if_pos hx] at hM
      obtain ⟨path, hpath, hM⟩ := Option.bind_eq_some.1 hM
      obtain ⟨M', hM', hM⟩ := Option.map_eq_some'.1 hM
      subst hM
      rw [List.filter_cons_of_pos (by simpa using hx), List.flatMap_cons, List.map_append,
        ih M' hM', holders_tails A _ r x path hpath]
    · rw [if_neg hx] at hM
      rw [List.filter_cons_of_neg (by simpa using hx)]
      exact ih M hM

end RTI


namespace RTI

/-! ### C39: `test_split` for two split times in a row -/

/-- C39: let the times `t1 < t2` lie in the same interval `i` of the state at `p`, with a
target and with its tails in the order of the times, let `M` be the tails of `i` up to `t2`
and their successors, each with the interval that holds it along the targets
(`split_marks`), all different and none of them marked, and let the tails of `i` behind `t2`
be unmarked and not among them. If `test_split(symbol, t1)` returns, then
`test_split(symbol, t2)` called behind it, without clearing in between, returns the same
automaton and the same score as `test_split(symbol, t2)` called alone; this result is the
automaton in which the tails of `M` are marked, each in its interval, with the score of the
scorers on it; a tail is marked then exactly when it was marked before or is a tail of `i`
up to `t2` or one of its successors; and the statistics of every state have moved one unit
from the counts to the marks for each tail of `M` the state holds. -/
theorem test_split_twice (g : globals) (P : p_values) (fuel : Nat) (A : timed_automaton)
    (p symbol : Nat) (t1 t2 : Int) (in_ : interval_ptr) (i : interval) (target : Nat)
    (M : List (interval_ptr × timed_tail)) (h12 : t1 < t2)
    (hat1 : A.interval_at (some p) symbol t1 = some (in_, i))
    (hat2 : A.interval_at (some p) symbol t2 = some (in_, i))
    (hto : i.to_ = some target) (hsorted : tails_sorted i.tails)
    (hM : split_marks A in_ t2 i.tails = some M) (hnd : (M.map Prod.snd).Nodup)
    (hun : ∀ e, e ∈ M → A.marker e.2 = false)
    (hrest : ∀ x, x ∈ i.tails → t2 < x.get_time_value →
      A.marker x = false ∧ x ∉ M.map Prod.snd)
    (h1 : (test_split g P fuel A p symbol t1).isSome = true) :
    (test_split g P fuel A p symbol t1).bind (fun r => test_split g P fuel r.1 p symbol t2)
        = test_split g P fuel A p symbol t2 ∧
      test_split g P fuel A p symbol t2 =
        (recurse_test_split g fuel (mark_all g A M) (some target)).map
          (fun r => (mark_all g A M, split_score g P r)) ∧
      (∀ y, (mark_all g A M).marker y = (A.marker y || decide (y ∈ M.map Prod.snd))) ∧
      M.map Prod.snd =
        (i.tails.filter (fun x => decide (x.get_time_value ≤ t2))).flatMap chain ∧
      (∀ q s, A.mem q = some s → ∃ u, (mark_all g A M).mem q = some u ∧
        u.stat = ((M.filter (fun e => decide (e.1.state = q))).map Prod.snd).foldl
          (state_statistics.mark g) s.stat) := by
  have hp : p = in_.state := by
    have := interval_at_state hat1
    simpa using this
  subst hp
  have e2 : test_split g P fuel A in_.state symbol t2 =
      (i.tails.foldlM (mark_upto g in_.state in_ t2) A).bind (fun A1 =>
        (recurse_test_split g fuel A1 (some target)).map
          (fun r => (A1, split_score g P r))) := by
    unfold test_split
    rw [hat2]
    simp only [Option.some_bind, interval.get_target, hto]
  have e1 : test_split g P fuel A in_.state symbol t1 =
      (i.tails.foldlM (mark_upto g in_.state in_ t1) A).bind (fun A1 =>
        (recurse_test_split g fuel A1 (some target)).map
          (fun r => (A1, split_score g P r))) := by
    unfold test_split
    rw [hat1]
    simp only [Option.some_bind, interval.get_target, hto]
  refine ⟨?_, ?_, mark_all_marker g M A, split_marks_tails A in_ t2 i.tails M hM,
    mark_all_stat g M A⟩
  · obtain ⟨⟨A1, s1⟩, hr⟩ := Option.isSome_iff_exists.1 h1
    rw [hr, Option.some_bind]
    rw [e1] at hr
    obtain ⟨A1', hA1, hr⟩ := Option.bind_eq_some.1 hr
    obtain ⟨r1, -, hr⟩ := Option.map_eq_some'.1 hr
    have hA : A1' = A1 := (Prod.mk.inj hr).1
    rw [hA] at hA1
    have hsame := (mark_upto_kept g in_ t1 i.tails A A1 hA1).1
    obtain ⟨j, hj, hij⟩ := interval_at_same hsame hat2
    rw [e2]
    show test_split g P fuel A1 in_.state symbol t2 = _
    unfold test_split
    rw [hj]
    simp only [Option.some_bind, interval.get_target, hij.2.2.2.1, hto, hij.2.2.1]
    rw [mark_upto_again g in_ t1 t2 (le_of_lt h12) i.tails A A1 hsorted hA1]
  · rw [e2, mark_upto_fold g A in_ t2 i.tails A M hM (heap_same_refl A) hnd hun hrest,
      Option.some_bind]

/-- The witness of C39: the interval of the root of `example_tree` with the split times 1
and 5. -/
theorem test_split_twice_witness :
    (test_split example_globals example_p_values 3 example_tree 0 0 1).bind
        (fun r => test_split example_globals example_p_values 3 r.1 0 0 5)
        = test_split example_globals example_p_values 3 example_tree 0 0 5 ∧
      test_split example_globals example_p_values 3 example_tree 0 0 5 =
        (recurse_test_split example_globals 3
          (mark_all example_globals example_tree example_marks) (some 1)).map
          (fun r => (mark_all example_globals example_tree example_marks,
            split_score example_globals example_p_values r)) ∧
      (∀ y, (mark_all example_globals example_tree example_marks).marker y =
        (example_tree.marker y || decide (y ∈ example_marks.map Prod.snd))) ∧
      example_marks.map Prod.snd =
        (example_root_interval.tails.filter
          (fun x => decide (x.get_time_value ≤ 5))).flatMap chain ∧
      (∀ q s, example_tree.mem q = some s →
        ∃ u, (mark_all example_globals example_tree example_marks).mem q = some u ∧
          u.stat = ((example_marks.filter (fun e => decide (e.1.state = q))).map
            Prod.snd).foldl (state_statistics.mark example_globals) s.stat) :=
  test_split_twice example_globals example_p_values 3 example_tree 0 0 1 5 ⟨0, 0, 10⟩
    example_root_interval 1 example_marks (by decide) (by rfl) (by rfl) rfl
    (List.pairwise_cons.2 ⟨by decide, List.pairwise_singleton _ _⟩) (by rfl) (by decide)
    (fun _ _ => rfl) (by decide) (by rfl)

end RTI


namespace RTI

/-! ### `recurse_merge` removes no tail -/

theorem tails_kept_refl (A : timed_automaton) : tails_kept A A :=
  fun _ s hs => ⟨s, hs, fun _ l hl => ⟨l, hl, rfl, fun _ hx => hx⟩⟩

theorem tails_kept_trans {A B C : timed_automaton} (h1 : tails_kept A B)
    (h2 : tails_kept B C) : tails_kept A C := by
  intro q s hs
  obtain ⟨u, hu, hx⟩ := h1 q s hs
  obtain ⟨v, hv, hy⟩ := h2 q u hu
  refine ⟨v, hv, fun j l hl => ?_⟩
  obtain ⟨m, hm, hk, hxm⟩ := hx j l hl
  obtain ⟨n, hn, hk', hyn⟩ := hy j m hm
  exact ⟨n, hn, hk'.trans hk, fun x h => hyn x (hxm x h)⟩

theorem all_tails_update (l : interval_set) (k : Int) (f : interval → interval)
    (hf : ∀ i x, x ∈ i.tails → x ∈ (f i).tails) (x : timed_tail) (hx : x ∈ all_tails l) :
    x ∈ all_tails (update_interval l k f) := by
  induction l with
  | nil => exact hx
  | cons e rest ih =>
    obtain ⟨ke, ie⟩ := e
    simp only [update_interval]
    simp only [all_tails, List.mem_append] at hx
    by_cases hk : ke = k
    · rw [if_pos hk]
      simp only [all_tails, List.mem_append]
      rcases hx with hx | hx
      · exact Or.inl (hf ie x hx)
      · exact Or.inr hx
    · rw [if_neg hk]
      simp only [all_tails, List.mem_append]
      rcases hx with hx | hx
      · exact Or.inl hx
      · exact Or.inr (ih hx)

theorem update_interval_fst (l : interval_set) (k : Int) (f : interval → interval) :
    (update_interval l k f).map Prod.fst = l.map Prod.fst := by
  induction l with
  | nil => rfl
  | cons e rest ih =>
    obtain ⟨ke, ie⟩ := e
    simp only [update_interval]
    split
    · rfl
    · simp only [List.map_cons, ih]

theorem write_tails_kept {A B : timed_automaton} {r : interval_ptr} {f : interval → interval}
    (hw : A.write r f = some B) (hf : ∀ i x, x ∈ i.tails → x ∈ (f i).tails) :
    tails_kept A B := by
  unfold timed_automaton.write at hw
  obtain ⟨s0, hs0, hB⟩ := Option.map_eq_some'.1 hw
  subst hB
  intro q s hs
  by_cases hq : q = r.state
  · subst hq
    rw [hs0] at hs
    cases hs
    refine ⟨_, mem_store_self _ _ _, fun j l hl => ?_⟩
    unfold timed_state.update
    cases hsym : s0.targets[r.symbol]? with
    | none => exact ⟨l, hl, rfl, fun _ hx => hx⟩
    | some l0 =>
      simp only
      by_cases hj : j = r.symbol
      · rw [hj, hsym] at hl
        have hll : l0 = l := Option.some.inj hl
        have hlt : r.symbol < s0.targets.length := (List.getElem?_eq_some.1 hsym).1
        refine ⟨update_interval l0 r.key f, ?_, by rw [update_interval_fst, hll],
          fun x hx => all_tails_update l0 r.key f hf x (by rw [hll]; exact hx)⟩
        rw [hj]
        simp [hlt]
      · refine ⟨l, ?_, rfl, fun _ hx => hx⟩
        rw [List.getElem?_set_ne (fun h => hj h.symm)]
        exact hl
  · exact ⟨s, by rw [timed_automaton.store_mem, if_neg hq]; exact hs,
      fun _ l hl => ⟨l, hl, rfl, fun _ hx => hx⟩⟩

theorem update_stat_tails_kept {A B : timed_automaton} {p : Option Nat}
    {f : state_statistics → state_statistics} (hw : A.update_stat p f = some B) :
    tails_kept A B := by
  cases p with
  | none => cases hw
  | some a =>
    unfold timed_automaton.update_stat at hw
    simp only at hw
    obtain ⟨s0, hs0, hB⟩ := Option.map_eq_some'.1 hw
    subst hB
    intro q s hs
    by_cases hq : q = a
    · subst hq
      rw [hs0] at hs
      cases hs
      exact ⟨_, mem_store_self _ _ _, fun _ l hl => ⟨l, hl, rfl, fun _ hx => hx⟩⟩
    · exact ⟨s, by rw [timed_automaton.store_mem, if_neg hq]; exact hs,
        fun _ l hl => ⟨l, hl, rfl, fun _ hx => hx⟩⟩

theorem recurse_merge_tails_kept (g : globals) (fuel : Nat) :
    ∀ (A B : timed_automaton) (o n : Option Nat),
      recurse_merge g fuel A o n = some B → tails_kept A B := by
  induction fuel with
  | zero =>
    intro A B o n h
    cases o <;> cases n <;> simp [recurse_merge] at h
  | succ fuel ih =>
    intro A B o n h
    cases o with
    | none => simp [recurse_merge] at h
    | some old_target =>
      cases n with
      | none => simp [recurse_merge] at h
      | some new_target =>
        unfold recurse_merge at h
        refine foldlM_inv _ (tails_kept A) _ A B (tails_kept_refl A) ?_ h
        intro C i D _ hC hD
        obtain ⟨cnt, -, hD⟩ := Option.bind_eq_some.1 hD
        refine foldlM_inv _ (tails_kept A) _ C D hC ?_ hD
        intro C1 j D1 _ hC1 hD1
        obtain ⟨⟨old_ptr, old_in⟩, -, hD1⟩ := Option.bind_eq_some.1 hD1
        obtain ⟨⟨new_ptr, new_in⟩, -, hD1⟩ := Option.bind_eq_some.1 hD1
        simp only at hD1
        split at hD1
        · cases hD1
        · split at hD1
          · obtain ⟨A2, hA2, hD1⟩ := Option.bind_eq_some.1 hD1
            obtain ⟨old_in2, -, hD1⟩ := Option.bind_eq_some.1 hD1
            obtain ⟨A3, hA3, hD1⟩ := Option.bind_eq_some.1 hD1
            have k2 : tails_kept C1 A2 := by
              split at hA2
              · exact ih _ _ _ _ hA2
              · obtain ⟨A1, hA1, hA2⟩ := Option.bind_eq_some.1 hA2
                exact tails_kept_trans (write_tails_kept hA1 (fun _ _ hx => hx))
                  (write_tails_kept hA2 (fun _ _ hx => hx))
            have k3 : tails_kept A2 A3 :=
              write_tails_kept hA3 (fun _ _ hx => mem_insert_tails.2 (Or.inr hx))
            exact tails_kept_trans hC1
              (tails_kept_trans k2 (tails_kept_trans k3 (update_stat_tails_kept hD1)))
          · cases hD1
            exact hC1

theorem read_kept {A B : timed_automaton} (h : tails_kept A B) {r : interval_ptr}
    (hr : (A.read r).isSome = true) : (B.read r).isSome = true := by
  unfold timed_automaton.read at hr ⊢
  cases hs : A.mem r.state with
  | none => simp [hs] at hr
  | some s =>
    rw [hs, Option.some_bind] at hr
    unfold timed_state.get_intervals at hr ⊢
    cases hl : s.targets[r.symbol]? with
    | none => simp [hl] at hr
    | some l =>
      rw [hl, Option.some_bind] at hr
      obtain ⟨u, hu, hx⟩ := h r.state s hs
      obtain ⟨m, hm, hk, -⟩ := hx r.symbol l hl
      rw [hu, Option.some_bind, hm, Option.some_bind]
      rw [Option.isSome_map', List.find?_isSome] at hr ⊢
      obtain ⟨e, he, hek⟩ := hr
      have hmem : e.1 ∈ m.map Prod.fst := by
        rw [hk]
        exact List.mem_map_of_mem Prod.fst he
      obtain ⟨e', he', hee⟩ := List.mem_map.1 hmem
      exact ⟨e', he', by rw [hee]; exact hek⟩

theorem read_write_self {A B : timed_automaton} {r : interval_ptr} {f : interval → interval}
    (hw : A.write r f = some B) : B.read r = (A.read r).map f := by
  unfold timed_automaton.write at hw
  obtain ⟨s, hs, hB⟩ := Option.map_eq_some'.1 hw
  subst hB
  unfold timed_automaton.read
  rw [mem_store_self, hs, Option.some_bind, Option.some_bind]
  unfold timed_state.get_intervals timed_state.update
  cases hl : s.targets[r.symbol]? with
  | none =>
    simp only
    rw [hl]
    rfl
  | some l =>
    simp only
    have hlt : r.symbol < s.targets.length := (List.getElem?_eq_some.1 hl).1
    rw [List.getElem?_set_self hlt, Option.some_bind, Option.some_bind, find_key_update,
      Option.map_map, Option.map_map]
    congr 1
    funext e
    simp

end RTI


namespace RTI

/-! ### C33: the old target after `point` -/

theorem flat_tails_count {g : globals} {s0 s2 : timed_state} {kid2 : Nat → Int → state_tree}
    {sy : Nat} {lo l2 : interval_set} (hsy : sy < g.MAX_SYMBOL)
    (heq : state_equiv s0
      { targets := (List.range g.MAX_SYMBOL).map (fun i =>
          [(g.MAX_TIME, (merge_pieces g (((s2.targets[i]?).getD []).map
            (fun e => (e.2, flatten g (kid2 i e.1))))).1)])
        stat := s2.stat })
    (hlo : s0.targets[sy]? = some lo) (hl2 : s2.targets[sy]? = some l2) (hne : l2 ≠ [])
    (x : timed_tail) : (all_tails lo).count x = (all_tails l2).count x := by
  obtain ⟨l', hl', hequiv⟩ := state_equiv_targets heq hlo
  simp only [List.getElem?_map, List.getElem?_range hsy, Option.map_some', hl2,
    Option.getD_some, Option.some.injEq] at hl'
  subst hl'
  unfold interval_set_equiv at hequiv
  cases hequiv with
  | cons h1 h2 =>
    cases h2
    rename_i a
    rw [all_tails_count l2]
    simp only [all_tails, List.append_nil]
    rw [h1.2.2.2.1.count_eq]
    cases l2 with
    | nil => exact absurd rfl hne
    | cons c cs =>
      rw [List.map_cons, merge_pieces_count]
      simp only [List.map_cons, List.map_map, List.sum_cons]
      rfl

/-- C33 (amended): let the interval `i` that contains `time` in the partition for `symbol`
of the state at `p` point to the root `o` of a prefix tree of unsplit states, and let `new`
be a state of the set `N` of the states apart from the tree (`tree_below`). After
`point(symbol, time, new)` the interval has `o` in its slot `undo_to`, the old target `o` is
still allocated, and it is not emptied: every tail that it stored before the call in the
partition of a symbol it still stores in the partition of this symbol. -/
theorem point_keeps_old_target (g : globals) (fuel : Nat) (A A' : timed_automaton)
    (p symbol : Nat) (time : Int) (k : Int) (i : interval) (o n : Nat) (t : state_tree)
    (N : Set Nat) (hb : tree_below g fuel A p symbol k i o t N)
    (hat : A.interval_at (some p) symbol time = some (⟨p, symbol, k⟩, i)) (hn : n ∈ N)
    (h : point g fuel A p symbol time (some n) = some A') :
    (∃ j, A'.read ⟨p, symbol, k⟩ = some j ∧ j.undo_to = some o) ∧
      ∃ (so so' : timed_state), A.mem o = some so ∧ A'.mem o = some so' ∧
        ∀ (sy : Nat) (lo : interval_set), so.targets[sy]? = some lo →
          ∃ (lo' : interval_set), so'.targets[sy]? = some lo' ∧
            ∀ x, x ∈ all_tails lo → x ∈ all_tails lo' := by
  obtain ⟨s, l, hp, hl, hmem⟩ := hb.entry
  have hto := hb.target
  have hok := hb.ok
  have hrep := hb.tree
  have hpt := hb.apart
  have hsym : symbol < s.targets.length := (List.getElem?_eq_some.1 hl).1
  have hlok : partition_ok g l := (hok p s hp).2 l (mem_of_getElem?_some hl)
  have hnd := partition_nodup hlok
  have hot : o ∈ t.addrs := by
    obtain ⟨s0, kid0, rfl, -, -⟩ := rep_some hrep
    exact Or.inl rfl
  have hon : o ≠ n := fun h => (hb.side n hn).1 (h ▸ hot)
  have hop : o ≠ p := fun h => hpt (h ▸ hot)
  -- the first write
  have hs1 : s.update symbol k (fun x => { x with undo_tails := x.tails, to_ := some n }) =
      s.set_intervals symbol
        (update_interval l k (fun x => { x with undo_tails := x.tails, to_ := some n })) := by
    unfold timed_state.update timed_state.set_intervals
    rw [hl]
  have hw : A.write ⟨p, symbol, k⟩ (fun x => { x with undo_tails := x.tails, to_ := some n }) =
      some (A.store p (s.set_intervals symbol
        (update_interval l k (fun x => { x with undo_tails := x.tails, to_ := some n })))) := by
    rw [write_eq hp, hs1]
  have hok1 := heap_ok_write hok hw (fun _ => rfl) (fun _ => rfl)
  have hne : ∀ r, r ∈ t.addrs → r ≠ p := fun r hr h => hpt (h ▸ hr)
  have hrep1 : rep (A.store p (s.set_intervals symbol
      (update_interval l k (fun x => { x with undo_tails := x.tails, to_ := some n }))))
      (some o) t :=
    rep_frame hrep (fun r hr => by rw [timed_automaton.store_mem, if_neg (hne r hr)])
  have hcl1 : closed (A.store p (s.set_intervals symbol
      (update_interval l k (fun x => { x with undo_tails := x.tails, to_ := some n })))) N := by
    intro r hr
    obtain ⟨sr, hsr, hedges⟩ := hb.shut r hr
    by_cases hrp : r = p
    · subst hrp
      rw [hp] at hsr
      cases hsr
      refine ⟨_, mem_store_self _ _ _, fun i' e he n' hn' => ?_⟩
      rcases is_edge_redirect hl hnd he with ⟨h1, h2⟩ | ⟨-, -, x, hx⟩
      · exact hedges i' e h1 (fun h => h2 (by
          have := Prod.mk.inj h
          exact this.2)) n' hn'
      · rw [hx] at hn'
        cases hn'
        exact hn
    · refine ⟨sr, by rw [timed_automaton.store_mem, if_neg hrp]; exact hsr,
        fun i' e he n' hn' => hedges i' e he (fun h => hrp (Prod.mk.inj h).1) n' hn'⟩
  obtain ⟨A2, t2, q1, q2, q3, q4, q5, q6, q7, q8, q9, q10, q11, q12, q13, q14, -⟩ :=
    pre_split_spec fuel _ o n t i.tails hrep1 hb.wf hb.placed hb.fits hb.old hok1 hn hcl1
      hb.side
  -- the steps of `point`
  unfold point at h
  rw [hat] at h
  simp only [Option.some_bind, interval.get_target, hto, Option.some.injEq, hon, if_false,
    hw, q1] at h
  obtain ⟨A3, hA3, hA'⟩ := Option.bind_eq_some.1 h
  have k23 := recurse_merge_tails_kept g fuel A2 A3 (some o) (some n) hA3
  have k34 : tails_kept A3 A' := write_tails_kept hA' (fun _ _ hx => hx)
  refine ⟨?_, ?_⟩
  · -- the slot `undo_to`
    have h2p : A2.mem p = some (s.set_intervals symbol
        (update_interval l k (fun x => { x with undo_tails := x.tails, to_ := some n }))) := by
      rw [q10 p hpt (by simpa using hb.lt), mem_store_self]
    have hr2 : (A2.read ⟨p, symbol, k⟩).isSome = true := by
      have := interval_at_set h2p hsym
        (find_interval_update (fun x => { x with undo_tails := x.tails, to_ := some n }) hnd
          (by
            unfold timed_automaton.interval_at at hat
            simp only [hp, Option.some_bind, timed_state.find, timed_state.get_intervals,
              hl] at hat
            obtain ⟨e, he, hee⟩ := Option.map_eq_some'.1 hat
            have hk : e.1 = k := by
              have := (Prod.mk.inj hee).1
              exact congrArg interval_ptr.key this
            have hi : e.2 = i := (Prod.mk.inj hee).2
            rw [he]
            exact congrArg some (Prod.ext hk hi)))
      have hfk : (update_interval l k
          (fun x => { x with undo_tails := x.tails, to_ := some n })).find?
            (fun e => e.1 == k) ≠ none := by
        rw [find_key_update]
        intro hc
        rw [Option.map_eq_none', List.find?_eq_none] at hc
        exact hc (k, i) hmem (by simp)
      unfold timed_automaton.read
      rw [h2p, Option.some_bind]
      unfold timed_state.get_intervals timed_state.set_intervals
      simp only [List.getElem?_set_self hsym, Option.some_bind, Option.isSome_map']
      exact Option.ne_none_iff_isSome.1 hfk
    have hr3 := read_kept k23 hr2
    obtain ⟨j3, hj3⟩ := Option.isSome_iff_exists.1 hr3
    refine ⟨_, by rw [read_write_self hA', hj3]; rfl, rfl⟩
  · obtain ⟨s0, kid0, rfl, hA0, -⟩ := rep_some hrep
    obtain ⟨s2, kid2, rfl, hA2, -⟩ := rep_some q2
    obtain ⟨hu, -, -, -⟩ := hb.placed
    rw [flatten_node] at q6
    obtain ⟨s', kid', hnode, heq, -⟩ := q6
    obtain ⟨-, rfl, -⟩ := state_tree.node.inj hnode
    obtain ⟨hlen2, hparts, -, -, -⟩ := q4
    obtain ⟨u4, hu4, hx4⟩ := tails_kept_trans k23 k34 o s2 hA2
    refine ⟨s0, u4, hA0, hu4, fun sy lo hlo => ?_⟩
    have hsy : sy < g.MAX_SYMBOL := by
      rw [← hu.1]
      exact (List.getElem?_eq_some.1 hlo).1
    obtain ⟨l2, hl2, hok2⟩ := hparts sy hsy
    have hne2 : l2 ≠ [] := by
      intro hc
      rw [hc] at hok2
      exact hok2
    obtain ⟨m, hm, -, hxm⟩ := hx4 sy l2 hl2
    refine ⟨m, hm, fun x hx => hxm x ?_⟩
    have hc := flat_tails_count hsy heq hlo hl2 hne2 x
    have hpos : 0 < (all_tails lo).count x := List.count_pos_iff.2 hx
    exact List.count_pos_iff.1 (by omega)

/-- The witness of C33: in `example_tree` the interval of the root points to the tree below
it, and `point` lets it point to the root. -/
theorem point_keeps_old_target_witness :
    ∃ A', point small_globals 5 example_tree 0 0 1 (some 0) = some A' ∧
      ((∃ j, A'.read ⟨0, 0, 10⟩ = some j ∧ j.undo_to = some 1) ∧
        ∃ (so so' : timed_state), example_tree.mem 1 = some so ∧ A'.mem 1 = some so' ∧
          ∀ (sy : Nat) (lo : interval_set), so.targets[sy]? = some lo →
            ∃ (lo' : interval_set), so'.targets[sy]? = some lo' ∧
              ∀ x, x ∈ all_tails lo → x ∈ all_tails lo') :=
  ⟨(point small_globals 5 example_tree 0 0 1 (some 0)).get (by rfl),
    (Option.some_get _).symm,
    point_keeps_old_target small_globals 5 example_tree _ 0 0 1 10 example_root_interval 1 0
      example_state_tree {0} example_tree_below (by rfl) (Set.mem_singleton 0)
      (Option.some_get _).symm⟩

/-- On the corpus of the words `a 0 a 0` and `b 0 a 0`, after the target of the
`a`-transition of the root has been colored, `point` lets the `b`-transition of the root
point to it: the old target, the state at the address 3, is recorded in the slot `undo_to`
and still allocated, and it still stores its tail and counts it, while the new target, the
state at the address 1, stores two tails. -/
theorem point_old_target_not_emptied :
    (automaton_of_corpus 2 two_paths 4).bind (fun r =>
        (refinement.refine r.1 4 r.2 ⟨0, -2, 0, 0⟩).bind (fun A1 =>
          (point r.1 4 A1 0 1 0 (some 1)).map (fun A2 =>
            ((A1.interval_at (some 0) 1 0).map (fun e => (e.2.to_, e.2.tails.length)),
              (A2.interval_at (some 0) 1 0).map (fun e => (e.2.to_, e.2.undo_to)),
              (A2.mem 3).map (fun s =>
                (s.targets.map (fun l => l.map (fun e => e.2.tails.length)),
                  s.stat.total_counts)),
              (A2.mem 1).map (fun s =>
                (s.targets.map (fun l => l.map (fun e => e.2.tails.length)),
                  s.stat.total_counts))))))
      = some (some (some 3, 1), some (some 1, some 3), some ([[1], [0]], 1),
          some ([[2], [0]], 2)) := by
  rfl

end RTI


namespace RTI

/-! ### Exact prefix trees under `split` -/

theorem del_counts_add_counts (g : globals) (s : state_statistics) (l : List timed_tail) :
    del_counts g (add_counts g s l) l = s := by
  induction l generalizing s with
  | nil => rfl
  | cons x xs ih =>
    have h1 : add_counts g s (x :: xs) = add_counts g (s.add_count g x) xs := rfl
    have h2 : ∀ (s' : state_statistics),
        del_counts g s' (x :: xs) = del_counts g (s'.del_count g x) xs := fun _ => rfl
    rw [h1, h2, ← add_counts_del_count, state_statistics.del_add_count, ih]

theorem count_zero_eq_nil {l : List timed_tail} (h : ∀ x, l.count x = 0) : l = [] := by
  apply List.eq_nil_iff_forall_not_mem.2
  intro x hx
  have := List.count_pos_iff.2 hx
  have := h x
  omega

theorem exact_placed {g : globals} (t : state_tree) :
    ∀ (P : List timed_tail), exact_tree g t P → t.placed g P := by
  induction t with
  | null => intro P h; exact h
  | node a s kid ih =>
    intro P h
    obtain ⟨hu, hs, hc, -, hk⟩ := h
    refine ⟨hu, hs, fun x => ?_, fun i hi => ih i _ _ (hk i hi)⟩
    by_cases hx : x ∈ nexts P
    · rw [hc _ (hs x hx) x, if_pos rfl]
    · rw [List.count_eq_zero_of_not_mem hx]
      exact Nat.zero_le _

theorem exact_congr {g : globals} {t : state_tree} {P Q : List timed_tail}
    (h : exact_tree g t P) (hc : ∀ x, P.count x = Q.count x) : exact_tree g t Q := by
  have hp : P.Perm Q := List.perm_iff_count.2 hc
  cases t with
  | null =>
    have hP : P = [] := h
    subst hP
    exact hp.symm.eq_nil
  | node a s kid =>
    obtain ⟨hu, hs, hcn, hst, hk⟩ := h
    have hn := nexts_perm hp
    refine ⟨hu, fun x hx => hs x (hn.symm.subset hx), fun i hi x => ?_, hst, hk⟩
    rw [hcn i hi x, hn.count_eq]

theorem sum_range_ite (n a c : Nat) :
    ((List.range n).map (fun i => if a = i then c else 0)).sum = if a < n then c else 0 := by
  induction n with
  | zero => simp
  | succ n ih =>
    rw [List.range_succ, List.map_append, List.sum_append, ih]
    simp only [List.map_cons, List.map_nil, List.sum_cons, List.sum_nil, Nat.add_zero]
    by_cases h1 : a < n
    · have h2 : a ≠ n := by omega
      have h3 : a < n + 1 := by omega
      simp [h1, h2, h3]
    · by_cases h2 : a = n
      · have h3 : a < n + 1 := by omega
        simp [h1, h2]
      · have h3 : ¬ a < n + 1 := by omega
        simp [h1, h2, h3]

theorem unsplit_targets_eq {g : globals} {s : timed_state} (h : s.unsplit g) :
    s.targets = (List.range g.MAX_SYMBOL).map (fun i => [(g.MAX_TIME, s.iv i)]) := by
  apply List.ext_getElem?
  intro i
  by_cases hi : i < g.MAX_SYMBOL
  · rw [timed_state.unsplit_targets h hi, List.getElem?_map, List.getElem?_range hi]
    rfl
  · rw [List.getElem?_eq_none (by rw [h.1]; omega),
      List.getElem?_eq_none (by rw [List.length_map, List.length_range]; omega)]

theorem state_tails_count {g : globals} {s : timed_state} (h : s.unsplit g) (x : timed_tail) :
    (state_tails s).count x
      = ((List.range g.MAX_SYMBOL).map (fun i => (s.iv i).tails.count x)).sum := by
  unfold state_tails
  rw [List.count_flatten, unsplit_targets_eq h, List.map_map, List.map_map]
  congr 1
  apply List.map_congr_left
  intro i _
  simp [all_tails]

theorem stores_perm {g : globals} {s : timed_state} {L : List timed_tail} (hu : s.unsplit g)
    (hs : ∀ x ∈ L, x.get_symbol < g.MAX_SYMBOL)
    (hc : ∀ i, i < g.MAX_SYMBOL → ∀ x,
      (s.iv i).tails.count x = if x.get_symbol = i then L.count x else 0) :
    (state_tails s).Perm L := by
  rw [List.perm_iff_count]
  intro x
  rw [state_tails_count hu x]
  have e : (List.range g.MAX_SYMBOL).map (fun i => (s.iv i).tails.count x)
      = (List.range g.MAX_SYMBOL).map (fun i => if x.get_symbol = i then L.count x else 0) := by
    apply List.map_congr_left
    intro i hi
    exact hc i (List.mem_range.1 hi) x
  rw [e, sum_range_ite]
  by_cases hx : x.get_symbol < g.MAX_SYMBOL
  · rw [if_pos hx]
  · rw [if_neg hx]
    symm
    apply List.count_eq_zero_of_not_mem
    intro h
    exact hx (hs x h)

theorem split_rel_exact {g : globals} (t : state_tree) :
    ∀ (X P P' : List timed_tail) (tn t' : state_tree), exact_tree g t P →
      (∀ x, P'.count x + X.count x = P.count x) → split_rel g t X tn t' →
      exact_tree g tn X ∧ exact_tree g t' P' := by
  induction t with
  | null => intro X P P' tn t' _ _ h; exact absurd h (by simp [split_rel])
  | node a sT kid ih =>
    intro X P P' tn t' hex hc hs
    obtain ⟨n, sN, kidN, sT', kid', rfl, rfl, huN, huT', hstat, hstatN, hsym⟩ := hs
    obtain ⟨huT, hP1, hP2, hP3, hP4⟩ := hex
    have hn := nexts_count_add hc
    have hXs : ∀ x ∈ nexts X, x.get_symbol < g.MAX_SYMBOL := by
      intro x hx
      refine hP1 x (List.count_pos_iff.1 ?_)
      have := hn x
      have hpos : 0 < (nexts X).count x := List.count_pos_iff.2 hx
      omega
    have hPs : ∀ x ∈ nexts P', x.get_symbol < g.MAX_SYMBOL := by
      intro x hx
      refine hP1 x (List.count_pos_iff.1 ?_)
      have := hn x
      have hpos : 0 < (nexts P').count x := List.count_pos_iff.2 hx
      omega
    have hcN : ∀ i, i < g.MAX_SYMBOL → ∀ x,
        (sN.iv i).tails.count x = if x.get_symbol = i then (nexts X).count x else 0 :=
      fun i hi => (hsym i hi).1
    have hcT : ∀ i, i < g.MAX_SYMBOL → ∀ x,
        (sT'.iv i).tails.count x = if x.get_symbol = i then (nexts P').count x else 0 := by
      intro i hi x
      obtain ⟨c1, c2, -⟩ := hsym i hi
      have h1 := c1 x
      have h2 := c2 x
      have h3 := hP2 i hi x
      have h4 := hn x
      by_cases hx : x.get_symbol = i
      · rw [if_pos hx] at h1 h3 ⊢
        omega
      · rw [if_neg hx] at h1 h3 ⊢
        omega
    have pN := stores_perm huN hXs hcN
    have pT' := stores_perm huT' hPs hcT
    have pT := stores_perm huT hP1 hP2
    have hstN : sN.stat = add_counts g (state_statistics.new g) (state_tails sN) := by
      rw [hstatN]
      exact add_counts_perm g _ pN.symm
    have hstT : sT'.stat = add_counts g (state_statistics.new g) (state_tails sT') := by
      have hp : (state_tails sT).Perm (state_tails sT' ++ nexts X) := by
        refine pT.trans ?_
        rw [List.perm_iff_count]
        intro x
        rw [List.count_append, pT'.count_eq, hn x]
      rw [hstat, hP3, add_counts_perm g _ hp, add_counts_append, del_counts_add_counts]
    refine ⟨⟨huN, hXs, hcN, hstN, ?_⟩, ⟨huT', hPs, hcT, hstT, ?_⟩⟩
    · intro i hi
      obtain ⟨c1, c2, -, -, -, -, -, c3⟩ := hsym i hi
      by_cases h1 : (sN.iv i).tails = []
      · rw [if_pos h1] at c3
        rw [c3.1, h1]
        rfl
      · rw [if_neg h1] at c3
        by_cases h2 : (sT'.iv i).tails = []
        · rw [if_pos h2] at c3
          rw [c3.1]
          refine exact_congr (hP4 i hi) (fun x => ?_)
          have := c2 x
          rw [h2] at this
          simpa using this.symm
        · rw [if_neg h2] at c3
          exact (ih i g.MAX_TIME _ _ _ _ _ (hP4 i hi) c2 c3.2).1
    · intro i hi
      obtain ⟨c1, c2, -, -, -, -, -, c3⟩ := hsym i hi
      by_cases h1 : (sN.iv i).tails = []
      · rw [if_pos h1] at c3
        rw [c3.2.1]
        refine exact_congr (hP4 i hi) (fun x => ?_)
        have := c2 x
        rw [h1] at this
        simpa using this.symm
      · rw [if_neg h1] at c3
        by_cases h2 : (sT'.iv i).tails = []
        · rw [if_pos h2] at c3
          rw [c3.2.1, h2]
          rfl
        · rw [if_neg h2] at c3
          exact (ih i g.MAX_TIME _ _ _ _ _ (hP4 i hi) c2 c3.2).2

end RTI


namespace RTI

/-! ### C34: the two subtrees after `split` -/

theorem example_tree_exact :
    exact_tree example_globals example_state_tree
      [⟨0, 0, [(0, 1), (0, 3), (2, 4)]⟩, ⟨1, 0, [(0, 5), (0, 2), (2, 7)]⟩] := by
  have hi0 : ∀ i, i < example_globals.MAX_SYMBOL → i = 0 := by
    intro i hi
    have : example_globals.MAX_SYMBOL = 1 := rfl
    omega
  refine ⟨example_child_unsplit, by decide, fun i hi x => ?_, by decide, fun i hi => ?_⟩
  · have h1 : nexts [(⟨0, 0, [(0, 1), (0, 3), (2, 4)]⟩ : timed_tail),
        ⟨1, 0, [(0, 5), (0, 2), (2, 7)]⟩]
        = [⟨0, 1, [(0, 3), (2, 4)]⟩, ⟨1, 1, [(0, 2), (2, 7)]⟩] := by decide
    rw [h1, hi0 i hi]
    by_cases hx : x.get_symbol = 0
    · rw [if_pos hx]
      exact (List.Perm.swap _ _ _).count_eq x
    · rw [if_neg hx]
      have h2 : x ≠ ⟨0, 1, [(0, 3), (2, 4)]⟩ := fun h => hx (by rw [h]; rfl)
      have h3 : x ≠ ⟨1, 1, [(0, 2), (2, 7)]⟩ := fun h => hx (by rw [h]; rfl)
      have e : (example_child.iv 0).tails
          = [⟨1, 1, [(0, 2), (2, 7)]⟩, ⟨0, 1, [(0, 3), (2, 4)]⟩] := rfl
      rw [e]
      simp [List.count_cons, h2.symm, h3.symm]
  · rw [hi0 i hi]
    refine ⟨timed_state.new_unsplit example_globals, by decide, fun j hj x => ?_, by decide,
      fun j hj => ?_⟩
    · have h1 : nexts (example_child.iv 0).tails = [] := by decide
      rw [h1, timed_state.new_iv example_globals hj]
      simp [interval.new]
    · rw [timed_state.new_iv example_globals hj]
      rfl

/-- C34: `split(symbol, time)` on the state at `p`, whose partition for `symbol` is a cover
with the interval `i` around `time`, when both halves of `i` hold tails and the target of `i`
is the root of an exact prefix tree `t` (at every depth a state is in the initial shape,
stores exactly the successors of the tails of the interval that points to it, and its
statistics are the counts of the tails it stores): the call returns; the left half holds
the tails up to `time` and points to a state `n` that did not exist before, the right half
holds the other tails and keeps the target of `i`; below `n` is a tree `tn` that is an exact
prefix tree for the tails of the left half, below the old target a tree `t'` that is an
exact prefix tree for the tails of the right half; and every tail is stored in `tn` and `t'`
together as often as it was stored in `t`. -/
theorem split_subtrees_exact (g : globals) (fuel : Nat) (A : timed_automaton) (p : Nat)
    (s : timed_state) (symbol : Nat) (time : Int) (l : interval_set) (k : Int) (i : interval)
    (t : state_tree)
    (hp : A.mem p = some s) (hl : s.targets[symbol]? = some l) (hok : partition_ok g l)
    (hf : find_interval l time = some (k, i)) (hb : i.begin ≤ time) (he : time < i.end_)
    (hfresh : ∀ r, A.next ≤ r → A.mem r = none)
    (hrep : rep A i.to_ t) (hwf : t.wf) (hex : exact_tree g t i.tails) (hfit : t.fits fuel)
    (hpt : p ∉ t.addrs)
    (h1 : tails_upto i.tails time ≠ []) (h2 : tails_after i.tails time ≠ []) :
    ∃ A1 left right n tn t', split g fuel A p symbol time = some A1 ∧
      A1.interval_at (some p) symbol time = some (⟨p, symbol, time⟩, left) ∧
      A1.interval_at (some p) symbol (time + 1) = some (⟨p, symbol, k⟩, right) ∧
      left.tails = tails_upto i.tails time ∧ right.tails = tails_after i.tails time ∧
      left.to_ = some n ∧ A.mem n = none ∧ right.to_ = i.to_ ∧
      rep A1 (some n) tn ∧ rep A1 i.to_ t' ∧
      exact_tree g tn left.tails ∧ exact_tree g t' right.tails ∧
      ∀ x, tree_count x tn + tree_count x t' = tree_count x t := by
  obtain ⟨pre, post, rfl, hpre, hk⟩ := find_interval_decomp hok hf he
  have hsym : symbol < s.targets.length := (List.getElem?_eq_some.1 hl).1
  have hlt : ∀ r, A.mem r ≠ none → r < A.next := by
    intro r hr
    by_contra hlt
    exact hr (hfresh r (by omega))
  have hpn : p < A.next := hlt p (by rw [hp]; simp)
  have htl : ∀ r, r ∈ t.addrs → r < A.next := by
    intro r hr
    obtain ⟨s', hs'⟩ := rep_mem hrep hr
    exact hlt r (by rw [hs']; simp)
  have hpl := exact_placed t _ hex
  obtain ⟨A1, lp, rp, q1, q2, ⟨q3, q4, q5⟩, q6, q7, -, -, -, -, -, -, -, -, -, -, q8⟩ :=
    split_spec hp hl hpre hk hb he hpn hrep hwf hpl hfit hpt htl
  obtain ⟨t1, t2, -⟩ := two_at pre post time k lp.1 rp.1 hpre hk
  simp only [if_neg h1, if_neg h2] at q5
  have hn := q8 h1 h2
  obtain ⟨a, sT, kid, n, sN, kidN, sT', kid', e1, e2, e3⟩ := split_rel_node q5
  have hrt : rp.2.root = i.to_ := by
    rw [e3, rep_root hrep, e1]
    rfl
  have hl1 : lp.1.tails = tails_upto i.tails time := by rw [q3]; rfl
  have hr1 : rp.1.tails = tails_after i.tails time := by rw [q4]; rfl
  have hlto : lp.1.to_ = some A.next := by rw [q3]; exact hn
  have hrto : rp.1.to_ = i.to_ := by rw [q4]; exact hrt
  have hcnt : ∀ x, (tails_after i.tails time).count x + (tails_upto i.tails time).count x
      = i.tails.count x := by
    intro x
    conv_rhs => rw [← tails_upto_append_after i.tails time]
    rw [List.count_append]
    omega
  have hex2 := split_rel_exact t _ _ _ _ _ hex hcnt q5
  have hpX : t.placed g (tails_upto i.tails time) := by
    rw [e1] at hpl ⊢
    exact placed_mono hpl (tails_upto_count_le i.tails time)
  refine ⟨A1, lp.1, rp.1, A.next, lp.2, rp.2, q1, interval_at_set q2 hsym t1,
    interval_at_set q2 hsym t2, hl1, hr1, hlto, hfresh _ (le_refl _), hrto, ?_, ?_, ?_, ?_,
    fun x => split_rel_count x t _ _ _ hpX q5⟩
  · rw [← hlto]
    exact q6
  · rw [← hrto]
    exact q7
  · rw [hl1]
    exact hex2.1
  · rw [hr1]
    exact hex2.2

/-- The witness of C34: in the prefix tree of the words `(0, 1) (0, 3)` and `(0, 5) (0, 2)`
the interval of the root is split at 2, with a tail on either side. -/
theorem split_subtrees_exact_witness :
    ∃ A1 left right n tn t', split example_globals 2 example_tree 0 0 2 = some A1 ∧
      A1.interval_at (some 0) 0 2 = some (⟨0, 0, 2⟩, left) ∧
      A1.interval_at (some 0) 0 (2 + 1) = some (⟨0, 0, 10⟩, right) ∧
      left.tails = [⟨0, 0, [(0, 1), (0, 3), (2, 4)]⟩] ∧
      right.tails = [⟨1, 0, [(0, 5), (0, 2), (2, 7)]⟩] ∧
      left.to_ = some n ∧ example_tree.mem n = none ∧ right.to_ = some 1 ∧
      rep A1 (some n) tn ∧ rep A1 (some 1) t' ∧
      exact_tree example_globals tn left.tails ∧ exact_tree example_globals t' right.tails ∧
      ∀ x, tree_count x tn + tree_count x t' = tree_count x example_state_tree :=
  split_subtrees_exact example_globals 2 example_tree 0 example_root 0 2
    [(10, { interval.new 0 10 with
      tails := [⟨0, 0, [(0, 1), (0, 3), (2, 4)]⟩, ⟨1, 0, [(0, 5), (0, 2), (2, 7)]⟩]
      to_ := some 1 })] 10
    { interval.new 0 10 with
      tails := [⟨0, 0, [(0, 1), (0, 3), (2, 4)]⟩, ⟨1, 0, [(0, 5), (0, 2), (2, 7)]⟩]
      to_ := some 1 } example_state_tree
    rfl rfl (by decide) (by decide) (by decide) (by decide) example_tree_fresh
    example_tree_rep example_tree_wf example_tree_exact example_tree_fits
    example_tree_root_not_mem (by decide) (by decide)

end RTI


namespace RTI

/-! ### C36: `pre_split` aligns the old tree with the new state -/

theorem split_root_example_heap_ok : heap_ok example_globals split_root_example := by
  intro r s hr
  have h3 : split_root_example.mem r =
      if r = 0 then some split_root else example_tree.mem r := rfl
  rw [h3] at hr
  split at hr
  · cases hr
    exact ⟨rfl, by decide⟩
  · exact example_tree_heap_ok r s hr

theorem split_root_example_closed : closed split_root_example {0} := by
  intro n hn
  have h0 : n = 0 := hn
  subst h0
  refine ⟨split_root, rfl, fun i e he n' hn' => ?_⟩
  obtain ⟨l, hl, hel⟩ := he
  have hi : i = 0 := by
    have := (List.getElem?_eq_some.1 hl).1
    have hlen : split_root.targets.length = 1 := rfl
    omega
  subst hi
  have hl' : l = [(4, { interval.new 0 4 with to_ := some 0 }), (10, interval.new 5 10)] := by
    have e : split_root.targets[0]? = some
        [(4, { interval.new 0 4 with to_ := some 0 }), (10, interval.new 5 10)] := rfl
    rw [e] at hl
    exact (Option.some.inj hl).symm
  subst hl'
  simp only [List.mem_cons, List.mem_singleton, List.not_mem_nil, or_false] at hel
  rcases hel with rfl | rfl
  · simp only [Option.some.injEq] at hn'
    exact hn'.symm
  · simp [interval.new] at hn'

theorem split_root_example_rep : rep split_root_example (some 1) example_state_tree := by
  refine rep_frame example_tree_rep (fun r hr => ?_)
  have h0 : r ≠ 0 := fun h => example_tree_root_not_mem (h ▸ hr)
  show (if r = 0 then some split_root else example_tree.mem r) = example_tree.mem r
  rw [if_neg h0]

/-- C36: `pre_split(old_target, new_target)` when `old_target` is the root `o` of a prefix
tree `t` in the unsplit initial shape and `new_target` is a state `n` of a heap whose
partitions are covers, where the states reachable from `n` (a set `N` closed under the
targets of the intervals) are apart from the tree: the call returns once the recursion bound
exceeds the depth of the tree, and afterwards the tree `t2` below `o` is aligned with `n` (for
every symbol the partition of `o` has the same sequence of intervals `[begin, end]` as that
of `n`, and so on for every pair of corresponding intervals whose targets are both not null),
every tail is stored in `t2` as often as it was stored in `t`, and `n` and the states
reachable from it are as before. -/
theorem pre_split_aligned (g : globals) (fuel : Nat) (A : timed_automaton) (o n : Nat)
    (t : state_tree) (P : List timed_tail) (N : Set Nat)
    (hrep : rep A (some o) t) (hwf : t.wf) (hpl : t.placed g P) (hfit : t.fits fuel)
    (hlt : ∀ r, r ∈ t.addrs → r < A.next) (hok : heap_ok g A) (hn : n ∈ N)
    (hcl : closed A N) (hN : ∀ r, r ∈ N → r ∉ t.addrs ∧ r < A.next) :
    ∃ (A' : timed_automaton) (t2 : state_tree), pre_split g fuel A o n = some A' ∧
      rep A' (some o) t2 ∧ aligned g A' t2 n ∧ (∀ x, tree_count x t2 = tree_count x t) ∧
      ∀ r, r ∈ N → A'.mem r = A.mem r := by
  obtain ⟨A', t2, q1, q2, -, -, -, -, q7, -, -, q10, -, -, -, -, q15⟩ :=
    pre_split_spec fuel A o n t P hrep hwf hpl hfit hlt hok hn hcl hN
  exact ⟨A', t2, q1, q2, q7, q15, fun r hr => q10 r (hN r hr).1 (hN r hr).2⟩

/-- The witness of C36: the prefix tree of the words `(0, 1) (0, 3)` and `(0, 5) (0, 2)`,
whose root is the state 1, is split along a state 0 with the intervals `[0, 4]` and
`[5, 10]`, the first of which points back to the state 0. -/
theorem pre_split_aligned_witness :
    ∃ (A' : timed_automaton) (t2 : state_tree),
      pre_split example_globals 2 split_root_example 1 0 = some A' ∧
      rep A' (some 1) t2 ∧ aligned example_globals A' t2 0 ∧
      (∀ x, tree_count x t2 = tree_count x example_state_tree) ∧
      ∀ r, r ∈ ({0} : Set Nat) → A'.mem r = split_root_example.mem r :=
  pre_split_aligned example_globals 2 split_root_example 1 0 example_state_tree
    [⟨0, 0, [(0, 1), (0, 3), (2, 4)]⟩, ⟨1, 0, [(0, 5), (0, 2), (2, 7)]⟩] {0}
    split_root_example_rep example_tree_wf example_tree_placed example_tree_fits
    example_tree_addrs_lt split_root_example_heap_ok rfl split_root_example_closed
    (fun r hr => by
      have h0 : r = 0 := hr
      subst h0
      exact ⟨example_tree_root_not_mem, by decide⟩)

end RTI


namespace RTI

/-! ### `recurse_merge` and the record of its calls -/

theorem foldlM_map_fst {α β γ : Type} (f : α → γ → Option α) (f' : β → γ → Option β)
    (π : α → β) (hsim : ∀ a x, (f a x).map π = f' (π a) x) :
    ∀ (l : List γ) (a : α), (l.foldlM f a).map π = l.foldlM f' (π a) := by
  intro l
  induction l with
  | nil => intro a; rfl
  | cons x xs ih =>
    intro a
    rw [List.foldlM_cons, List.foldlM_cons]
    have h := hsim a x
    cases hf : f a x with
    | none =>
      rw [hf] at h
      rw [← h]
      rfl
    | some c =>
      rw [hf] at h
      rw [← h]
      exact ih c

theorem recurse_merge_visits_fst (g : globals) :
    ∀ (fuel : Nat) (A : timed_automaton) (o n : Option Nat),
      (recurse_merge_visits g fuel A o n).map Prod.fst = recurse_merge g fuel A o n := by
  intro fuel
  induction fuel with
  | zero =>
    intro A o n
    cases o <;> cases n <;> rfl
  | succ fuel ih =>
    intro A o n
    cases o with
    | none => cases n <;> rfl
    | some o =>
      cases n with
      | none => rfl
      | some n =>
        simp only [recurse_merge_visits, recurse_merge]
        refine foldlM_map_fst _ _ Prod.fst (fun c i => ?_) _ (A, [(o, n)])
        cases hm : num_intervals c.1 o i with
        | none => rfl
        | some m =>
          simp only [Option.some_bind]
          refine foldlM_map_fst _ _ Prod.fst (fun c j => ?_) _ c
          cases ho : nth_entry c.1 o i j with
          | none => rfl
          | some eo =>
            obtain ⟨old_ptr, old_in⟩ := eo
            cases hn : nth_entry c.1 n i j with
            | none => rfl
            | some en =>
              obtain ⟨new_ptr, new_in⟩ := en
              simp only [Option.some_bind]
              by_cases hc : old_in.end_ ≠ new_in.end_ ∨ old_in.begin ≠ new_in.begin
              · rw [if_pos hc, if_pos hc]
                rfl
              · rw [if_neg hc, if_neg hc]
                by_cases he : (!old_in.is_empty) = true
                · rw [if_pos he, if_pos he]
                  by_cases hne : (!new_in.is_empty) = true
                  · rw [if_pos hne, if_pos hne, ← ih]
                    cases hr : recurse_merge_visits g fuel c.1 old_in.to_ new_in.to_ with
                    | none => rfl
                    | some r =>
                      simp only [Option.map_some', Option.some_bind]
                      cases h1 : r.1.read old_ptr with
                      | none => rfl
                      | some x =>
                        simp only [Option.some_bind]
                        cases h2 : r.1.write new_ptr
                          (fun y => { y with tails := insert_tails y.tails x.tails }) with
                        | none => rfl
                        | some A3 =>
                          simp only [Option.some_bind]
                          cases h3 : A3.update_stat (some n)
                            (fun s => add_counts g s x.tails) with
                          | none => rfl
                          | some A4 => rfl
                  · rw [if_neg hne, if_neg hne]
                    cases h0 : (c.1.write new_ptr
                        (fun x => { x with to_ := old_in.to_ })).bind (fun A1 =>
                          A1.write old_ptr (fun x => { x with to_ := none })) with
                    | none => rfl
                    | some A2 =>
                      simp only [Option.map_some', Option.some_bind]
                      cases h1 : A2.read old_ptr with
                      | none => rfl
                      | some x =>
                        simp only [Option.some_bind]
                        cases h2 : A2.write new_ptr
                          (fun y => { y with tails := insert_tails y.tails x.tails }) with
                        | none => rfl
                        | some A3 =>
                          simp only [Option.some_bind]
                          cases h3 : A3.update_stat (some n)
                            (fun s => add_counts g s x.tails) with
                          | none => rfl
                          | some A4 => rfl
                · rw [if_neg he, if_neg he]
                  rfl

end RTI


namespace RTI

/-! ### The states that `recurse_merge` leaves alone -/

theorem recurse_merge_visits_succ (g : globals) (fuel : Nat) (A : timed_automaton)
    (o n : Nat) :
    recurse_merge_visits g (fuel + 1) A (some o) (some n) =
      (List.range g.MAX_SYMBOL).foldlM (fun (c : visits) (i : Nat) =>
        (num_intervals c.1 o i).bind (fun m =>
          (List.range m).foldlM (merge_round (recurse_merge_visits g fuel) g o n i) c))
        (A, [(o, n)]) := rfl

theorem foldlM_range_partial {α : Type} (f : α → Nat → Option α) (Inv : Nat → α → Prop)
    (n : Nat) (a0 : α) (h0 : Inv 0 a0)
    (hstep : ∀ k a c, k < n → Inv k a → f a k = some c → Inv (k + 1) c) :
    ∀ b, (List.range n).foldlM f a0 = some b → Inv n b := by
  induction n with
  | zero =>
    intro b h
    simp only [List.range_zero, List.foldlM_nil, pure, Option.some.injEq] at h
    rw [← h]
    exact h0
  | succ n ih =>
    intro b h
    rw [List.range_succ, List.foldlM_append] at h
    cases hx : (List.range n).foldlM f a0 with
    | none => rw [hx] at h; cases h
    | some a =>
      rw [hx] at h
      have hI := ih (fun k a c hk => hstep k a c (Nat.lt_succ_of_lt hk)) a hx
      simp only [Option.bind_eq_bind, Option.some_bind, List.foldlM_cons, List.foldlM_nil] at h
      cases hf : f a n with
      | none => rw [hf] at h; cases h
      | some c =>
        rw [hf] at h
        simp only [Option.some_bind, pure, Option.some.injEq] at h
        rw [← h]
        exact hstep n a c (Nat.lt_succ_self n) hI hf

theorem write_mem_other {A B : timed_automaton} {r : interval_ptr} {f : interval → interval}
    (h : A.write r f = some B) (q : Nat) (hq : q ≠ r.state) : B.mem q = A.mem q := by
  unfold timed_automaton.write at h
  obtain ⟨s, -, hB⟩ := Option.map_eq_some'.1 h
  rw [← hB, timed_automaton.store_mem, if_neg hq]

theorem write_mem_self {A B : timed_automaton} {r : interval_ptr} {f : interval → interval}
    (h : A.write r f = some B) {s : timed_state} (hs : A.mem r.state = some s) :
    B.mem r.state = some (s.update r.symbol r.key f) := by
  unfold timed_automaton.write at h
  rw [hs] at h
  simp only [Option.map_some', Option.some.injEq] at h
  rw [← h, mem_store_self]

theorem update_stat_mem_other {A B : timed_automaton} {p : Nat}
    {f : state_statistics → state_statistics} (h : A.update_stat (some p) f = some B)
    (q : Nat) (hq : q ≠ p) : B.mem q = A.mem q := by
  unfold timed_automaton.update_stat at h
  simp only at h
  obtain ⟨s, -, hB⟩ := Option.map_eq_some'.1 h
  rw [← hB, timed_automaton.store_mem, if_neg hq]

theorem update_stat_mem_self {A B : timed_automaton} {p : Nat}
    {f : state_statistics → state_statistics} (h : A.update_stat (some p) f = some B)
    {s : timed_state} (hs : A.mem p = some s) :
    B.mem p = some { s with stat := f s.stat } := by
  rw [update_stat_eq hs] at h
  simp only [Option.some.injEq] at h
  rw [← h, mem_store_self]

theorem nth_entry_some {A : timed_automaton} {p i j : Nat} {ptr : interval_ptr} {x : interval}
    (h : nth_entry A p i j = some (ptr, x)) :
    ptr.state = p ∧ ptr.symbol = i ∧
      ∃ s l, A.mem p = some s ∧ s.targets[i]? = some l ∧ l[j]? = some (ptr.key, x) := by
  unfold nth_entry at h
  obtain ⟨s, hs, h⟩ := Option.bind_eq_some.1 h
  obtain ⟨l, hl, h⟩ := Option.bind_eq_some.1 h
  obtain ⟨e, he, h⟩ := Option.map_eq_some'.1 h
  simp only [Prod.mk.injEq] at h
  obtain ⟨h1, h2⟩ := h
  subst h1
  subst h2
  exact ⟨rfl, rfl, s, l, hs, hl, he⟩

/-- The cases of a round of the inner loop. -/
theorem merge_round_cases {rec : timed_automaton → Option Nat → Option Nat → Option visits}
    {g : globals} {o n i j : Nat} {c c' : visits} (h : merge_round rec g o n i c j = some c') :
    ∃ old_ptr old_in new_ptr new_in, nth_entry c.1 o i j = some (old_ptr, old_in) ∧
      nth_entry c.1 n i j = some (new_ptr, new_in) ∧
      ((old_in.tails = [] ∧ c' = c) ∨
       (old_in.tails ≠ [] ∧ ∃ (c2 : visits) (old_in2 : interval) (A3 : timed_automaton),
          ((new_in.tails ≠ [] ∧ ∃ r, rec c.1 old_in.to_ new_in.to_ = some r ∧
              c2 = (r.1, c.2 ++ r.2)) ∨
           (new_in.tails = [] ∧ ∃ A1,
              c.1.write new_ptr (fun x => { x with to_ := old_in.to_ }) = some A1 ∧
              A1.write old_ptr (fun x => { x with to_ := none }) = some c2.1 ∧
              c2.2 = c.2)) ∧
          c2.1.read old_ptr = some old_in2 ∧
          c2.1.write new_ptr (fun x =>
            { x with tails := insert_tails x.tails old_in2.tails }) = some A3 ∧
          A3.update_stat (some n) (fun s => add_counts g s old_in2.tails) = some c'.1 ∧
          c'.2 = c2.2)) := by
  unfold merge_round at h
  obtain ⟨⟨old_ptr, old_in⟩, ho, h⟩ := Option.bind_eq_some.1 h
  obtain ⟨⟨new_ptr, new_in⟩, hn, h⟩ := Option.bind_eq_some.1 h
  refine ⟨old_ptr, old_in, new_ptr, new_in, ho, hn, ?_⟩
  simp only at h
  split at h
  · cases h
  rw [ite_nonempty] at h
  by_cases he : old_in.tails = []
  · rw [if_pos he] at h
    cases h
    exact Or.inl ⟨he, rfl⟩
  · rw [if_neg he] at h
    refine Or.inr ⟨he, ?_⟩
    obtain ⟨c2, hc2, h⟩ := Option.bind_eq_some.1 h
    obtain ⟨old_in2, h1, h⟩ := Option.bind_eq_some.1 h
    obtain ⟨A3, h2, h⟩ := Option.bind_eq_some.1 h
    obtain ⟨A4, h3, h⟩ := Option.map_eq_some'.1 h
    refine ⟨c2, old_in2, A3, ?_, h1, h2, ?_, ?_⟩
    · rw [ite_nonempty] at hc2
      by_cases hne : new_in.tails = []
      · rw [if_pos hne] at hc2
        obtain ⟨A2, hA2, hc⟩ := Option.map_eq_some'.1 hc2
        obtain ⟨A1, hA1, hA2⟩ := Option.bind_eq_some.1 hA2
        refine Or.inr ⟨hne, A1, hA1, ?_, ?_⟩
        · rw [← hc]
          exact hA2
        · rw [← hc]
      · rw [if_neg hne] at hc2
        obtain ⟨r, hr, hc⟩ := Option.map_eq_some'.1 hc2
        exact Or.inl ⟨hne, r, hr, hc.symm⟩
    · rw [← h]
      exact h3
    · rw [← h]

theorem merge_round_frame {rec : timed_automaton → Option Nat → Option Nat → Option visits}
    {g : globals} {o n i j : Nat} {c c' : visits}
    (hrec : ∀ A o' n' r, rec A o' n' = some r →
      ∀ q, (∀ p ∈ r.2, q ≠ p.1 ∧ q ≠ p.2) → r.1.mem q = A.mem q)
    (h : merge_round rec g o n i c j = some c') :
    ∃ R, c'.2 = c.2 ++ R ∧
      ∀ q, q ≠ o → q ≠ n → (∀ p ∈ R, q ≠ p.1 ∧ q ≠ p.2) → c'.1.mem q = c.1.mem q := by
  obtain ⟨old_ptr, old_in, new_ptr, new_in, ho, hn, hc⟩ := merge_round_cases h
  obtain ⟨po, -, -⟩ := nth_entry_some ho
  obtain ⟨pn, -, -⟩ := nth_entry_some hn
  rcases hc with ⟨-, rfl⟩ | ⟨-, c2, old_in2, A3, hc2, -, h2, h3, h4⟩
  · exact ⟨[], (List.append_nil _).symm, fun _ _ _ _ => rfl⟩
  · have hlast : ∀ q, q ≠ n → c'.1.mem q = c2.1.mem q := by
      intro q hq
      rw [update_stat_mem_other h3 q hq, write_mem_other h2 q (by rw [pn]; exact hq)]
    rcases hc2 with ⟨-, r, hr, rfl⟩ | ⟨-, A1, hA1, hA2, hc2⟩
    · refine ⟨r.2, h4, fun q _ hqn hq => ?_⟩
      rw [hlast q hqn]
      exact hrec _ _ _ _ hr q hq
    · refine ⟨[], by rw [h4, hc2, List.append_nil], fun q hqo hqn _ => ?_⟩
      rw [hlast q hqn, write_mem_other hA2 q (by rw [po]; exact hqo),
        write_mem_other hA1 q (by rw [pn]; exact hqn)]

/-- The loops of `recurse_merge_visits` extend the record and leave alone the states that
are not in it. -/
theorem merge_loops_frame {rec : timed_automaton → Option Nat → Option Nat → Option visits}
    {g : globals} {o n : Nat} {c0 b : visits} {l : List Nat}
    (hrec : ∀ A o' n' r, rec A o' n' = some r →
      ∀ q, (∀ p ∈ r.2, q ≠ p.1 ∧ q ≠ p.2) → r.1.mem q = A.mem q)
    (h : l.foldlM (fun (c : visits) (i : Nat) =>
        (num_intervals c.1 o i).bind (fun m =>
          (List.range m).foldlM (merge_round rec g o n i) c)) c0 = some b) :
    ∃ R, b.2 = c0.2 ++ R ∧
      ∀ q, q ≠ o → q ≠ n → (∀ p ∈ R, q ≠ p.1 ∧ q ≠ p.2) → b.1.mem q = c0.1.mem q := by
  have hround : ∀ (i : Nat) (a : visits) (j : Nat) (c : visits),
      (∃ R, a.2 = c0.2 ++ R ∧
        ∀ q, q ≠ o → q ≠ n → (∀ p ∈ R, q ≠ p.1 ∧ q ≠ p.2) → a.1.mem q = c0.1.mem q) →
      merge_round rec g o n i a j = some c →
      ∃ R, c.2 = c0.2 ++ R ∧
        ∀ q, q ≠ o → q ≠ n → (∀ p ∈ R, q ≠ p.1 ∧ q ≠ p.2) → c.1.mem q = c0.1.mem q := by
    intro i a j c ⟨R, hR, hm⟩ hc
    obtain ⟨R', hR', hm'⟩ := merge_round_frame hrec hc
    refine ⟨R ++ R', by rw [hR', hR, List.append_assoc], fun q hqo hqn hq => ?_⟩
    rw [hm' q hqo hqn (fun p hp => hq p (List.mem_append_right _ hp)),
      hm q hqo hqn (fun p hp => hq p (List.mem_append_left _ hp))]
  refine foldlM_inv _ (fun (c : visits) => ∃ R, c.2 = c0.2 ++ R ∧
      ∀ q, q ≠ o → q ≠ n → (∀ p ∈ R, q ≠ p.1 ∧ q ≠ p.2) → c.1.mem q = c0.1.mem q) l c0 b
    ⟨[], (List.append_nil _).symm, fun _ _ _ _ => rfl⟩ (fun a i c _ hI hc => ?_) h
  obtain ⟨m, -, hc⟩ := Option.bind_eq_some.1 hc
  exact foldlM_inv _ (fun (c : visits) => ∃ R, c.2 = c0.2 ++ R ∧
      ∀ q, q ≠ o → q ≠ n → (∀ p ∈ R, q ≠ p.1 ∧ q ≠ p.2) → c.1.mem q = c0.1.mem q)
    (List.range m) a c hI (fun a' j c' _ hI' hc' => hround i a' j c' hI' hc') hc

theorem recurse_merge_visits_frame (g : globals) :
    ∀ (fuel : Nat) (A : timed_automaton) (o n : Option Nat) (r : visits),
      recurse_merge_visits g fuel A o n = some r →
      ∀ q, (∀ p ∈ r.2, q ≠ p.1 ∧ q ≠ p.2) → r.1.mem q = A.mem q := by
  intro fuel
  induction fuel with
  | zero =>
    intro A o n r h
    cases o <;> cases n <;> simp [recurse_merge_visits] at h
  | succ fuel ih =>
    intro A o n r h q hq
    cases o with
    | none => cases n <;> simp [recurse_merge_visits] at h
    | some o =>
      cases n with
      | none => simp [recurse_merge_visits] at h
      | some n =>
        rw [recurse_merge_visits_succ] at h
        obtain ⟨R, hR, hm⟩ := merge_loops_frame (ih) h
        have hon := hq (o, n) (by rw [hR]; exact List.mem_append_left _ (List.mem_singleton.2 rfl))
        exact hm q hon.1 hon.2 (fun p hp => hq p (by rw [hR]; exact List.mem_append_right _ hp))

end RTI


namespace RTI

/-! ### One round of the inner loop of `recurse_merge` -/

theorem update_interval_getElem? {l : interval_set} {k : Int} {x : interval}
    (f : interval → interval) :
    ∀ {j : Nat}, (l.map Prod.fst).Nodup → l[j]? = some (k, x) →
      ∀ j', (update_interval l k f)[j']? = if j' = j then some (k, f x) else l[j']? := by
  induction l with
  | nil => intro j _ h; simp at h
  | cons e rest ih =>
    intro j hnd hj j'
    obtain ⟨k0, i0⟩ := e
    rw [List.map_cons, List.nodup_cons] at hnd
    cases j with
    | zero =>
      simp only [List.getElem?_cons_zero, Option.some.injEq, Prod.mk.injEq] at hj
      obtain ⟨rfl, rfl⟩ := hj
      simp only [update_interval, if_true]
      cases j' with
      | zero => simp
      | succ j' => simp
    | succ j =>
      simp only [List.getElem?_cons_succ] at hj
      have hne : k0 ≠ k := by
        intro h
        apply hnd.1
        rw [h]
        exact List.mem_map.2 ⟨(k, x), mem_of_getElem?_some hj, rfl⟩
      simp only [update_interval, if_neg hne]
      cases j' with
      | zero => simp
      | succ j' =>
        simp only [List.getElem?_cons_succ, Nat.succ_eq_add_one, add_left_inj]
        exact ih hnd.2 hj j'

theorem find_key_getElem? {l : interval_set} {k : Int} {x : interval} :
    ∀ {j : Nat}, (l.map Prod.fst).Nodup → l[j]? = some (k, x) →
      l.find? (fun e => e.1 == k) = some (k, x) := by
  induction l with
  | nil => intro j _ h; simp at h
  | cons e rest ih =>
    intro j hnd hj
    obtain ⟨k0, i0⟩ := e
    rw [List.map_cons, List.nodup_cons] at hnd
    cases j with
    | zero =>
      simp only [List.getElem?_cons_zero, Option.some.injEq, Prod.mk.injEq] at hj
      obtain ⟨rfl, rfl⟩ := hj
      simp
    | succ j =>
      simp only [List.getElem?_cons_succ] at hj
      have hne : k0 ≠ k := by
        intro h
        apply hnd.1
        rw [h]
        exact List.mem_map.2 ⟨(k, x), mem_of_getElem?_some hj, rfl⟩
      rw [List.find?_cons_of_neg _ (by simpa using hne)]
      exact ih hnd.2 hj

theorem read_at {A : timed_automaton} {p i j : Nat} {s : timed_state} {l : interval_set}
    {k : Int} {x : interval} (hm : A.mem p = some s) (hl : s.targets[i]? = some l)
    (hk : (l.map Prod.fst).Nodup) (hj : l[j]? = some (k, x)) :
    A.read ⟨p, i, k⟩ = some x := by
  simp [timed_automaton.read, hm, timed_state.get_intervals, hl, find_key_getElem? hk hj]

/-- The state after a write through the pointer to the entry `j` of the partition for the
symbol `i`. -/
theorem update_at {s : timed_state} {i j : Nat} {l : interval_set} {k : Int} {x : interval}
    (f : interval → interval) (hl : s.targets[i]? = some l) (hk : (l.map Prod.fst).Nodup)
    (hj : l[j]? = some (k, x)) :
    (s.update i k f).stat = s.stat ∧ (s.update i k f).targets.length = s.targets.length ∧
      (∀ i', i' ≠ i → (s.update i k f).targets[i']? = s.targets[i']?) ∧
      ∃ l', (s.update i k f).targets[i]? = some l' ∧ l'.map Prod.fst = l.map Prod.fst ∧
        ∀ j', l'[j']? = if j' = j then some (k, f x) else l[j']? := by
  have hi : i < s.targets.length := (List.getElem?_eq_some.1 hl).1
  have e : s.update i k f = { s with targets := s.targets.set i (update_interval l k f) } := by
    unfold timed_state.update
    rw [hl]
  rw [e]
  refine ⟨rfl, by simp, fun i' hi' => ?_, update_interval l k f, ?_, update_interval_fst l k f,
    update_interval_getElem? f hk hj⟩
  · simp only
    rw [List.getElem?_set_ne (Ne.symm hi')]
  · simp only
    rw [List.getElem?_set_self hi]

theorem all_tails_append (a b : interval_set) :
    all_tails (a ++ b) = all_tails a ++ all_tails b := by
  induction a with
  | nil => rfl
  | cons e rest ih =>
    show e.2.tails ++ all_tails (rest ++ b) = (e.2.tails ++ all_tails rest) ++ all_tails b
    rw [ih, List.append_assoc]

theorem all_tails_take_succ {l : interval_set} {j : Nat} {e : Int × interval}
    (h : l[j]? = some e) : all_tails (l.take (j + 1)) = all_tails (l.take j) ++ e.2.tails := by
  rw [List.take_succ, all_tails_append, h]
  simp [all_tails]

theorem visited_once_left {L R : List (Nat × Nat)} (h : visited_once (L ++ R)) :
    visited_once L := by
  unfold visited_once at h ⊢
  rw [List.map_append, List.map_append] at h
  refine h.sublist ?_
  exact List.Sublist.append (List.sublist_append_left _ _) (List.sublist_append_left _ _)

theorem visited_once_apart {L R : List (Nat × Nat)} (h : visited_once (L ++ R)) {o n : Nat}
    (hon : (o, n) ∈ L) : ∀ p ∈ R, (o ≠ p.1 ∧ o ≠ p.2) ∧ (n ≠ p.1 ∧ n ≠ p.2) := by
  unfold visited_once at h
  rw [List.map_append, List.map_append] at h
  have ho : o ∈ L.map Prod.fst := List.mem_map.2 ⟨(o, n), hon, rfl⟩
  have hn : n ∈ L.map Prod.snd := List.mem_map.2 ⟨(o, n), hon, rfl⟩
  intro p hp
  have hp1 : p.1 ∈ R.map Prod.fst := List.mem_map.2 ⟨p, hp, rfl⟩
  have hp2 : p.2 ∈ R.map Prod.snd := List.mem_map.2 ⟨p, hp, rfl⟩
  have h1 := List.nodup_append.1 h
  have h2 := List.nodup_append.1 h1.1
  have h3 := List.nodup_append.1 h1.2.1
  refine ⟨⟨fun e => ?_, fun e => ?_⟩, ⟨fun e => ?_, fun e => ?_⟩⟩
  · exact h2.2.2 ho (e ▸ hp1)
  · exact h1.2.2 (List.mem_append_left _ ho) (List.mem_append_right _ (e ▸ hp2))
  · exact h1.2.2 (List.mem_append_right _ (e ▸ hp1)) (List.mem_append_left _ hn)
  · exact h3.2.2 hn (e ▸ hp2)

theorem visited_once_ne {L : List (Nat × Nat)} (h : visited_once L) {o n : Nat}
    (hon : (o, n) ∈ L) : o ≠ n := by
  unfold visited_once at h
  intro e
  have ho : o ∈ L.map Prod.fst := List.mem_map.2 ⟨(o, n), hon, rfl⟩
  have hn : o ∈ L.map Prod.snd := List.mem_map.2 ⟨(o, n), hon, e.symm ▸ rfl⟩
  exact (List.nodup_append.1 h).2.2 ho hn

theorem rounds_done_zero (g : globals) (i : Nat) {lo ln : interval_set} {so sn : timed_state}
    (hlo : so.targets[i]? = some lo) (hln : sn.targets[i]? = some ln) :
    rounds_done g i 0 lo ln so sn so sn :=
  { stat_old := rfl
    stat_new := rfl
    len_old := rfl
    len_new := rfl
    others := fun _ _ => ⟨rfl, rfl⟩
    here := ⟨lo, ln, hlo, hln,
      { keys_old := rfl
        keys_new := rfl
        done := fun j' _ _ h => absurd h (Nat.not_lt_zero j')
        rest := fun _ _ => ⟨rfl, rfl⟩ }⟩ }

theorem rounds_done_step {g : globals} {i j : Nat} {lo ln lo_c ln_c lo' ln' : interval_set}
    {so0 sn0 so_c sn_c so' sn' : timed_state} {eo en : Int × interval}
    (hI : rounds_done g i j lo ln so0 sn0 so_c sn_c)
    (hM : merged_upto j lo ln lo_c ln_c)
    (heo : lo[j]? = some eo) (hen : ln[j]? = some en)
    (h1 : so'.stat = so_c.stat) (h2 : sn'.stat = add_counts g sn_c.stat eo.2.tails)
    (h3 : so'.targets.length = so_c.targets.length)
    (h4 : sn'.targets.length = sn_c.targets.length)
    (h5 : ∀ i', i' ≠ i → so'.targets[i']? = so_c.targets[i']?)
    (h5' : ∀ i', i' ≠ i → sn'.targets[i']? = sn_c.targets[i']?)
    (h6 : so'.targets[i]? = some lo') (h6' : sn'.targets[i]? = some ln')
    (h7 : lo'.map Prod.fst = lo_c.map Prod.fst) (h7' : ln'.map Prod.fst = ln_c.map Prod.fst)
    (h8 : ∀ j', lo'[j']? = if j' = j then some (old_entry_after eo en) else lo_c[j']?)
    (h8' : ∀ j', ln'[j']? = if j' = j then some (new_entry_after eo en) else ln_c[j']?) :
    rounds_done g i (j + 1) lo ln so0 sn0 so' sn' := by
  refine
    { stat_old := h1.trans hI.stat_old
      stat_new := ?_
      len_old := h3.trans hI.len_old
      len_new := h4.trans hI.len_new
      others := fun i' hi' => ⟨(h5 i' hi').trans (hI.others i' hi').1,
        (h5' i' hi').trans (hI.others i' hi').2⟩
      here := ⟨lo', ln', h6, h6',
        { keys_old := h7.trans hM.keys_old
          keys_new := h7'.trans hM.keys_new
          done := ?_
          rest := ?_ }⟩ }
  · rw [h2, hI.stat_new, all_tails_take_succ heo, add_counts_append]
  · intro j' eo' en' hj' heo' hen'
    by_cases hjj : j' = j
    · subst hjj
      rw [heo] at heo'
      rw [hen] at hen'
      cases heo'
      cases hen'
      rw [h8, h8', if_pos rfl, if_pos rfl]
      exact ⟨rfl, rfl⟩
    · rw [h8, h8', if_neg hjj, if_neg hjj]
      exact hM.done j' eo' en' (by omega) heo' hen'
  · intro j' hj'
    have hjj : j' ≠ j := by omega
    rw [h8, h8', if_neg hjj, if_neg hjj]
    exact hM.rest j' (by omega)

theorem merge_round_detail {rec : timed_automaton → Option Nat → Option Nat → Option visits}
    {g : globals} {o n i j : Nat} {c c' : visits} {lo ln : interval_set}
    {so0 sn0 so_c sn_c : timed_state}
    (hrec : ∀ A o' n' r, rec A o' n' = some r →
      ∀ q, (∀ p ∈ r.2, q ≠ p.1 ∧ q ≠ p.2) → r.1.mem q = A.mem q)
    (hon : o ≠ n) (hko : (lo.map Prod.fst).Nodup) (hkn : (ln.map Prod.fst).Nodup)
    (hmo : c.1.mem o = some so_c) (hmn : c.1.mem n = some sn_c)
    (hI : rounds_done g i j lo ln so0 sn0 so_c sn_c)
    (h : merge_round rec g o n i c j = some c')
    (hfree : ∀ R, c'.2 = c.2 ++ R → ∀ p ∈ R, (o ≠ p.1 ∧ o ≠ p.2) ∧ (n ≠ p.1 ∧ n ≠ p.2)) :
    ∃ so' sn', c'.1.mem o = some so' ∧ c'.1.mem n = some sn' ∧
      rounds_done g i (j + 1) lo ln so0 sn0 so' sn' := by
  obtain ⟨old_ptr, old_in, new_ptr, new_in, ho, hn, hc⟩ := merge_round_cases h
  obtain ⟨po, pio, s1, l1, hs1, hl1, hj1⟩ := nth_entry_some ho
  obtain ⟨pn, pin, s2, l2, hs2, hl2, hj2⟩ := nth_entry_some hn
  rw [hmo] at hs1
  rw [hmn] at hs2
  cases hs1
  cases hs2
  obtain ⟨lo_c, ln_c, hlo_c, hln_c, hM⟩ := hI.here
  have e1 : lo_c = l1 := Option.some.inj (hlo_c.symm.trans hl1)
  have e2 : ln_c = l2 := Option.some.inj (hln_c.symm.trans hl2)
  subst e1
  subst e2
  have heo : lo[j]? = some (old_ptr.key, old_in) := by
    rw [← (hM.rest j (le_refl _)).1]
    exact hj1
  have hen : ln[j]? = some (new_ptr.key, new_in) := by
    rw [← (hM.rest j (le_refl _)).2]
    exact hj2
  have hko_c : (lo_c.map Prod.fst).Nodup := by rw [hM.keys_old]; exact hko
  have hkn_c : (ln_c.map Prod.fst).Nodup := by rw [hM.keys_new]; exact hkn
  have hop : old_ptr = ⟨o, i, old_ptr.key⟩ := by
    cases old_ptr
    simp only at po pio
    rw [po, pio]
  have hnp : new_ptr = ⟨n, i, new_ptr.key⟩ := by
    cases new_ptr
    simp only at pn pin
    rw [pn, pin]
  rcases hc with ⟨he, rfl⟩ | ⟨he, c2, old_in2, A3, hc2, hrd, h2, h3, h4⟩
  · refine ⟨so_c, sn_c, hmo, hmn, rounds_done_step hI hM heo hen rfl ?_ rfl rfl
      (fun _ _ => rfl) (fun _ _ => rfl) hlo_c hln_c rfl rfl (fun j' => ?_) (fun j' => ?_)⟩
    · show sn_c.stat = add_counts g sn_c.stat old_in.tails
      rw [he]
      rfl
    · by_cases hjj : j' = j
      · rw [if_pos hjj, hjj, hj1]
        simp only [old_entry_after, he, if_true]
      · rw [if_neg hjj]
    · by_cases hjj : j' = j
      · rw [if_pos hjj, hjj, hj2]
        simp only [new_entry_after, he, if_true]
      · rw [if_neg hjj]
  · rcases hc2 with ⟨hne, r, hr, rfl⟩ | ⟨hne, A1, hA1, hA2, hc2⟩
    · -- the recursion leaves both states alone
      have hap := hfree r.2 h4
      have hro : r.1.mem o = some so_c := by
        rw [hrec _ _ _ _ hr o (fun p hp => (hap p hp).1)]
        exact hmo
      have hrn : r.1.mem n = some sn_c := by
        rw [hrec _ _ _ _ hr n (fun p hp => (hap p hp).2)]
        exact hmn
      have hrd' : r.1.read old_ptr = some old_in := by
        rw [hop]
        exact read_at hro hlo_c hko_c hj1
      simp only at hrd h2
      rw [hrd'] at hrd
      cases hrd
      have h3n : A3.mem n = some (sn_c.update i new_ptr.key
          (fun x => { x with tails := insert_tails x.tails old_in.tails })) := by
        have := write_mem_self h2 (by rw [pn]; exact hrn)
        rw [pn, pin] at this
        exact this
      have h3o : A3.mem o = some so_c := by
        rw [write_mem_other h2 o (by rw [pn]; exact hon)]
        exact hro
      obtain ⟨u1, u2, u3, l', u4, u5, u6⟩ :=
        update_at (fun x => { x with tails := insert_tails x.tails old_in.tails })
          hln_c hkn_c hj2
      refine ⟨so_c, _, ?_, update_stat_mem_self h3 h3n,
        rounds_done_step hI hM heo hen rfl ?_ rfl u2 (fun _ _ => rfl) u3 hlo_c u4 rfl u5
          (fun j' => ?_) (fun j' => ?_)⟩
      · rw [update_stat_mem_other h3 o hon]
        exact h3o
      · show add_counts g _ old_in.tails = add_counts g sn_c.stat old_in.tails
        rw [u1]
      · by_cases hjj : j' = j
        · rw [if_pos hjj, hjj, hj1]
          simp only [old_entry_after, he, hne, if_false]
        · rw [if_neg hjj]
      · rw [u6 j']
        by_cases hjj : j' = j
        · rw [if_pos hjj, if_pos hjj]
          simp only [new_entry_after, he, hne, if_false]
        · rw [if_neg hjj, if_neg hjj]
    · -- the new interval takes the target over
      have h1n : A1.mem n = some (sn_c.update i new_ptr.key
          (fun x => { x with to_ := old_in.to_ })) := by
        have := write_mem_self hA1 (by rw [pn]; exact hmn)
        rw [pn, pin] at this
        exact this
      have h1o : A1.mem o = some so_c := by
        rw [write_mem_other hA1 o (by rw [pn]; exact hon)]
        exact hmo
      have h2o : c2.1.mem o = some (so_c.update i old_ptr.key
          (fun x => { x with to_ := none })) := by
        have := write_mem_self hA2 (by rw [po]; exact h1o)
        rw [po, pio] at this
        exact this
      have h2n : c2.1.mem n = A1.mem n :=
        write_mem_other hA2 n (by rw [po]; exact Ne.symm hon)
      obtain ⟨v1, v2, v3, lo', v4, v5, v6⟩ :=
        update_at (fun x => { x with to_ := none }) hlo_c hko_c hj1
      obtain ⟨w1, w2, w3, ln1, w4, w5, w6⟩ :=
        update_at (fun x => { x with to_ := old_in.to_ }) hln_c hkn_c hj2
      have hrd' : c2.1.read old_ptr = some { old_in with to_ := none } := by
        rw [hop]
        refine @read_at _ _ _ j _ _ _ _ h2o v4 (by rw [v5]; exact hko_c) ?_
        rw [v6 j, if_pos rfl]
      rw [hrd'] at hrd
      cases hrd
      simp only at h2 h3
      have h3n : A3.mem n = some ((sn_c.update i new_ptr.key
          (fun x => { x with to_ := old_in.to_ })).update i new_ptr.key
          (fun x => { x with tails := insert_tails x.tails old_in.tails })) := by
        have := write_mem_self h2 (by rw [pn, h2n]; exact h1n)
        rw [pn, pin] at this
        exact this
      have h3o : A3.mem o = c2.1.mem o := write_mem_other h2 o (by rw [pn]; exact hon)
      obtain ⟨x1, x2, x3, ln2, x4, x5, x6⟩ :=
        update_at (fun x => { x with tails := insert_tails x.tails old_in.tails })
          w4 (by rw [w5]; exact hkn_c) (show ln1[j]? = some (new_ptr.key, _) by
            rw [w6 j, if_pos rfl])
      refine ⟨_, _, ?_, update_stat_mem_self h3 h3n,
        rounds_done_step hI hM heo hen v1 ?_ v2 (x2.trans w2) v3
          (fun i' hi' => (x3 i' hi').trans (w3 i' hi')) v4 x4 v5 (x5.trans w5)
          (fun j' => ?_) (fun j' => ?_)⟩
      · rw [update_stat_mem_other h3 o hon, h3o]
        exact h2o
      · show add_counts g _ old_in.tails = add_counts g sn_c.stat old_in.tails
        rw [x1, w1]
      · rw [v6 j']
        by_cases hjj : j' = j
        · rw [if_pos hjj, if_pos hjj]
          simp only [old_entry_after, he, hne, if_false, if_true]
        · rw [if_neg hjj, if_neg hjj]
      · rw [x6 j']
        by_cases hjj : j' = j
        · rw [if_pos hjj, if_pos hjj]
          simp only [new_entry_after, he, hne, if_false, if_true]
        · rw [if_neg hjj, if_neg hjj, w6 j', if_neg hjj]

end RTI


namespace RTI

/-! ### The loops of `recurse_merge` -/

theorem merge_rounds_frame {rec : timed_automaton → Option Nat → Option Nat → Option visits}
    {g : globals} {o n i : Nat} {c0 b : visits} {l : List Nat}
    (hrec : ∀ A o' n' r, rec A o' n' = some r →
      ∀ q, (∀ p ∈ r.2, q ≠ p.1 ∧ q ≠ p.2) → r.1.mem q = A.mem q)
    (h : l.foldlM (merge_round rec g o n i) c0 = some b) : ∃ R, b.2 = c0.2 ++ R := by
  refine foldlM_inv _ (fun (c : visits) => ∃ R, c.2 = c0.2 ++ R) l c0 b
    ⟨[], (List.append_nil _).symm⟩ (fun a j c _ hI hc => ?_) h
  obtain ⟨R, hR⟩ := hI
  obtain ⟨R', hR', -⟩ := merge_round_frame hrec hc
  exact ⟨R ++ R', by rw [hR', hR, List.append_assoc]⟩

theorem merge_inner_loop {rec : timed_automaton → Option Nat → Option Nat → Option visits}
    {g : globals} {o n i : Nat} {c0 b : visits} {lo ln : interval_set}
    {so0 sn0 : timed_state}
    (hrec : ∀ A o' n' r, rec A o' n' = some r →
      ∀ q, (∀ p ∈ r.2, q ≠ p.1 ∧ q ≠ p.2) → r.1.mem q = A.mem q)
    (hko : (lo.map Prod.fst).Nodup) (hkn : (ln.map Prod.fst).Nodup)
    (hmo : c0.1.mem o = some so0) (hmn : c0.1.mem n = some sn0)
    (hlo : so0.targets[i]? = some lo) (hln : sn0.targets[i]? = some ln)
    (hmem : (o, n) ∈ c0.2) (m : Nat)
    (h : (List.range m).foldlM (merge_round rec g o n i) c0 = some b)
    (hV : visited_once b.2) :
    ∃ so' sn', b.1.mem o = some so' ∧ b.1.mem n = some sn' ∧
      rounds_done g i m lo ln so0 sn0 so' sn' := by
  have hinv := foldlM_range_partial (merge_round rec g o n i)
    (fun (k : Nat) (c : visits) => ∃ R, c.2 = c0.2 ++ R ∧ (visited_once c.2 →
      ∃ so' sn', c.1.mem o = some so' ∧ c.1.mem n = some sn' ∧
        rounds_done g i k lo ln so0 sn0 so' sn')) m c0
    ⟨[], (List.append_nil _).symm, fun _ => ⟨so0, sn0, hmo, hmn, rounds_done_zero g i hlo hln⟩⟩
    (fun k a c _ hI hc => by
      obtain ⟨R, hR, hP⟩ := hI
      obtain ⟨R', hR', -⟩ := merge_round_frame hrec hc
      refine ⟨R ++ R', by rw [hR', hR, List.append_assoc], fun hVc => ?_⟩
      have hVa : visited_once a.2 := visited_once_left (hR' ▸ hVc)
      obtain ⟨so', sn', h1, h2, h3⟩ := hP hVa
      have hma : (o, n) ∈ a.2 := by
        rw [hR]
        exact List.mem_append_left _ hmem
      exact merge_round_detail hrec (visited_once_ne hVa hma) hko hkn h1 h2 h3 hc
        (fun R'' hR'' => visited_once_apart (hR'' ▸ hVc) hma)) b h
  obtain ⟨R, -, hP⟩ := hinv
  exact hP hV

theorem symbols_done_zero (g : globals) (so sn : timed_state) :
    symbols_done g 0 so sn so sn :=
  { stat_old := rfl
    stat_new := rfl
    len_old := rfl
    len_new := rfl
    rest := fun _ _ => ⟨rfl, rfl⟩
    done := fun i' _ _ h => absurd h (Nat.not_lt_zero i') }

theorem symbols_done_step {g : globals} {i : Nat} {so sn so_a sn_a so' sn' : timed_state}
    {lo ln : interval_set} (hS : symbols_done g i so sn so_a sn_a)
    (hlo : so.targets[i]? = some lo) (hln : sn.targets[i]? = some ln)
    (hR : rounds_done g i lo.length lo ln so_a sn_a so' sn') :
    symbols_done g (i + 1) so sn so' sn' := by
  refine
    { stat_old := hR.stat_old.trans hS.stat_old
      stat_new := ?_
      len_old := hR.len_old.trans hS.len_old
      len_new := hR.len_new.trans hS.len_new
      rest := fun i' hi' => ?_
      done := fun i' lo0 ln0 hi' hlo0 hln0 => ?_ }
  · rw [hR.stat_new, hS.stat_new, List.take_length, List.take_succ, hlo, List.map_append,
      List.flatten_append, add_counts_append]
    simp
  · have hne : i' ≠ i := by omega
    exact ⟨((hR.others i' hne).1).trans (hS.rest i' (by omega)).1,
      ((hR.others i' hne).2).trans (hS.rest i' (by omega)).2⟩
  · by_cases hii : i' = i
    · subst hii
      rw [hlo] at hlo0
      rw [hln] at hln0
      cases hlo0
      cases hln0
      exact hR.here
    · obtain ⟨lo', ln', h1, h2, h3⟩ := hS.done i' lo0 ln0 (by omega) hlo0 hln0
      exact ⟨lo', ln', ((hR.others i' hii).1).trans h1, ((hR.others i' hii).2).trans h2, h3⟩

theorem merge_outer_loop {rec : timed_automaton → Option Nat → Option Nat → Option visits}
    {g : globals} {o n : Nat} {A : timed_automaton} {b : visits} {so sn : timed_state}
    (hrec : ∀ A o' n' r, rec A o' n' = some r →
      ∀ q, (∀ p ∈ r.2, q ≠ p.1 ∧ q ≠ p.2) → r.1.mem q = A.mem q)
    (hmo : A.mem o = some so) (hmn : A.mem n = some sn)
    (hlo : so.targets.length = g.MAX_SYMBOL) (hln : sn.targets.length = g.MAX_SYMBOL)
    (hko : ∀ (i : Nat) (l : interval_set), so.targets[i]? = some l → (l.map Prod.fst).Nodup)
    (hkn : ∀ (i : Nat) (l : interval_set), sn.targets[i]? = some l → (l.map Prod.fst).Nodup)
    (h : (List.range g.MAX_SYMBOL).foldlM (fun (c : visits) (i : Nat) =>
        (num_intervals c.1 o i).bind (fun m =>
          (List.range m).foldlM (merge_round rec g o n i) c)) (A, [(o, n)]) = some b)
    (hV : visited_once b.2) :
    ∃ so' sn', b.1.mem o = some so' ∧ b.1.mem n = some sn' ∧
      symbols_done g g.MAX_SYMBOL so sn so' sn' := by
  have hinv := foldlM_range_partial (fun (c : visits) (i : Nat) =>
      (num_intervals c.1 o i).bind (fun m =>
        (List.range m).foldlM (merge_round rec g o n i) c))
    (fun (k : Nat) (c : visits) => ∃ R, c.2 = [(o, n)] ++ R ∧ (visited_once c.2 →
      ∃ so' sn', c.1.mem o = some so' ∧ c.1.mem n = some sn' ∧
        symbols_done g k so sn so' sn')) g.MAX_SYMBOL (A, [(o, n)])
    ⟨[], (List.append_nil _).symm, fun _ => ⟨so, sn, hmo, hmn, symbols_done_zero g so sn⟩⟩
    (fun i a c hi hI hc => by
      obtain ⟨R, hR, hP⟩ := hI
      obtain ⟨m, hm, hc⟩ := Option.bind_eq_some.1 hc
      obtain ⟨R', hR'⟩ := merge_rounds_frame hrec hc
      refine ⟨R ++ R', by rw [hR', hR, List.append_assoc], fun hVc => ?_⟩
      have hVa : visited_once a.2 := visited_once_left (hR' ▸ hVc)
      obtain ⟨so_a, sn_a, h1, h2, h3⟩ := hP hVa
      have hma : (o, n) ∈ a.2 := by
        rw [hR]
        exact List.mem_append_left _ (List.mem_singleton.2 rfl)
      obtain ⟨lo, hlo'⟩ : ∃ lo, so.targets[i]? = some lo :=
        ⟨so.targets[i], List.getElem?_eq_getElem (by omega)⟩
      obtain ⟨ln, hln'⟩ : ∃ ln, sn.targets[i]? = some ln :=
        ⟨sn.targets[i], List.getElem?_eq_getElem (by omega)⟩
      have hloa : so_a.targets[i]? = some lo := by rw [(h3.rest i (le_refl _)).1]; exact hlo'
      have hlna : sn_a.targets[i]? = some ln := by rw [(h3.rest i (le_refl _)).2]; exact hln'
      have hmm : m = lo.length := by
        rw [num_intervals_at h1 hloa] at hm
        exact (Option.some.inj hm).symm
      subst hmm
      obtain ⟨so', sn', k1, k2, k3⟩ := merge_inner_loop hrec (hko i lo hlo') (hkn i ln hln')
        h1 h2 hloa hlna hma lo.length hc hVc
      exact ⟨so', sn', k1, k2, symbols_done_step h3 hlo' hln' k3⟩) b h
  obtain ⟨R, -, hP⟩ := hinv
  exact hP hV

end RTI


namespace RTI

/-! ### The pairs of intervals after `recurse_merge` -/

theorem example_child_keys (i : Nat) (l : interval_set)
    (h : example_child.targets[i]? = some l) : (l.map Prod.fst).Nodup := by
  cases i with
  | zero =>
    have e : example_child.targets[0]? = some
        [(10, { interval.new 0 10 with
          tails := [⟨1, 1, [(0, 2), (2, 7)]⟩, ⟨0, 1, [(0, 3), (2, 4)]⟩]
          to_ := some 2 })] := rfl
    rw [e] at h
    cases h
    decide
  | succ i => cases h

/-- The pairs of intervals after a call that returns: a call `recurse_merge(old_target,
new_target)` that returns, on the states `o` and
`n`, when no state is the old or the new target of two calls of the recursion, nor the old
target of one and the new target of another (`V` is the list of the calls): for every symbol
and every pair of corresponding entries `eo` and `en` of the partitions of `o` and `n`, with
`eo'` and `en'` the entries afterwards: when the old interval holds tails, the new interval
holds its previous tails and those of the old interval, and when the new interval was empty
it has the target of the old interval and the target of the old interval is null; when the
old interval is empty both entries are as before. The statistics of `n` are its previous
statistics with every tail that `o` stores counted in addition. Both states have
`MAX_SYMBOL` partitions, and the keys of a partition are distinct. -/
theorem recurse_merge_pairs (g : globals) (fuel : Nat) (A A' : timed_automaton) (o n : Nat)
    (V : List (Nat × Nat)) (so sn : timed_state)
    (h : recurse_merge_visits g fuel A (some o) (some n) = some (A', V))
    (hV : visited_once V) (hmo : A.mem o = some so) (hmn : A.mem n = some sn)
    (hlo : so.targets.length = g.MAX_SYMBOL) (hln : sn.targets.length = g.MAX_SYMBOL)
    (hko : ∀ (i : Nat) (l : interval_set), so.targets[i]? = some l → (l.map Prod.fst).Nodup)
    (hkn : ∀ (i : Nat) (l : interval_set), sn.targets[i]? = some l → (l.map Prod.fst).Nodup) :
    recurse_merge g fuel A (some o) (some n) = some A' ∧
    ∃ so' sn', A'.mem o = some so' ∧ A'.mem n = some sn' ∧
      sn'.stat = add_counts g sn.stat (state_tails so) ∧
      ∀ i, i < g.MAX_SYMBOL → ∃ lo ln lo' ln', so.targets[i]? = some lo ∧
        sn.targets[i]? = some ln ∧ so'.targets[i]? = some lo' ∧ sn'.targets[i]? = some ln' ∧
        ∀ (j : Nat) (eo en : Int × interval), lo[j]? = some eo → ln[j]? = some en →
          ∃ eo' en', lo'[j]? = some eo' ∧ ln'[j]? = some en' ∧
            (eo.2.tails ≠ [] →
              (∀ x, en'.2.tails.count x = en.2.tails.count x + eo.2.tails.count x) ∧
              (en.2.tails = [] → en'.2.to_ = eo.2.to_ ∧ eo'.2.to_ = none)) ∧
            (eo.2.tails = [] → eo' = eo ∧ en' = en) := by
  have hfst := recurse_merge_visits_fst g fuel A (some o) (some n)
  rw [h] at hfst
  refine ⟨hfst.symm, ?_⟩
  cases fuel with
  | zero => simp [recurse_merge_visits] at h
  | succ fuel =>
    rw [recurse_merge_visits_succ] at h
    obtain ⟨so', sn', h1, h2, h3⟩ := merge_outer_loop (recurse_merge_visits_frame g fuel)
      hmo hmn hlo hln hko hkn h hV
    refine ⟨so', sn', h1, h2, ?_, fun i hi => ?_⟩
    · rw [h3.stat_new, ← hlo, List.take_length]
      rfl
    · obtain ⟨lo, hlo'⟩ : ∃ lo, so.targets[i]? = some lo :=
        ⟨so.targets[i], List.getElem?_eq_getElem (by omega)⟩
      obtain ⟨ln, hln'⟩ : ∃ ln, sn.targets[i]? = some ln :=
        ⟨sn.targets[i], List.getElem?_eq_getElem (by omega)⟩
      obtain ⟨lo', ln', k1, k2, k3⟩ := h3.done i lo ln hi hlo' hln'
      refine ⟨lo, ln, lo', ln', hlo', hln', k1, k2, fun j eo en heo hen => ?_⟩
      have hj : j < lo.length := (List.getElem?_eq_some.1 heo).1
      obtain ⟨d1, d2⟩ := k3.done j eo en hj heo hen
      refine ⟨_, _, d1, d2, fun he => ⟨fun x => ?_, fun hne => ?_⟩, fun he => ?_⟩
      · simp only [new_entry_after, if_neg he]
        exact count_insert_tails _ _ x
      · simp only [new_entry_after, old_entry_after, if_neg he, if_pos hne, and_self]
      · simp only [new_entry_after, old_entry_after, if_pos he, and_self]

/-- An instance for the pairs of intervals: the state 1 of the example tree, whose interval holds
two tails and
points to the state 2, is merged into the state 3, whose interval holds one tail and points
to the state 4; the recursion is called on the states 2 and 4. -/
theorem recurse_merge_pairs_witness :
    ∃ (A' : timed_automaton) (V : List (Nat × Nat)),
      recurse_merge_visits example_globals 2 merge_example (some 1) (some 3) = some (A', V) ∧
      V = [(1, 3), (2, 4)] ∧
      recurse_merge example_globals 2 merge_example (some 1) (some 3) = some A' ∧
      ∃ so' sn', A'.mem 1 = some so' ∧ A'.mem 3 = some sn' ∧
        sn'.stat = add_counts example_globals merge_new_state.stat (state_tails example_child) ∧
        ∀ i, i < example_globals.MAX_SYMBOL → ∃ lo ln lo' ln',
          example_child.targets[i]? = some lo ∧
          merge_new_state.targets[i]? = some ln ∧ so'.targets[i]? = some lo' ∧
          sn'.targets[i]? = some ln' ∧
          ∀ (j : Nat) (eo en : Int × interval), lo[j]? = some eo → ln[j]? = some en →
            ∃ eo' en', lo'[j]? = some eo' ∧ ln'[j]? = some en' ∧
              (eo.2.tails ≠ [] →
                (∀ x, en'.2.tails.count x = en.2.tails.count x + eo.2.tails.count x) ∧
                (en.2.tails = [] → en'.2.to_ = eo.2.to_ ∧ eo'.2.to_ = none)) ∧
              (eo.2.tails = [] → eo' = eo ∧ en' = en) :=
  ⟨((recurse_merge_visits example_globals 2 merge_example (some 1) (some 3)).get (by rfl)).1,
    [(1, 3), (2, 4)], by rfl, rfl,
    recurse_merge_pairs example_globals 2 merge_example _ 1 3 [(1, 3), (2, 4)] example_child
      merge_new_state (by rfl) (by unfold visited_once; decide) rfl rfl rfl rfl
      example_child_keys
      (fun i l h => by
        cases i with
        | zero =>
          have e : merge_new_state.targets[0]? = some
              [(10, { interval.new 0 10 with
                tails := [⟨2, 0, [(0, 4), (2, 4)]⟩]
                to_ := some 4 })] := rfl
          rw [e] at h
          cases h
          decide
        | succ i => cases h)⟩

end RTI


namespace RTI

/-! ### C20: the refinement that `greedy` applies -/

end RTI


namespace RTI

/-! ### C22: the candidates that `bestfirst` expands -/

/-- C22: for a result `(first, second, A1)` of `get_best_refinements` on the automaton `A`,
let `n` be the set `new_refinements` built from it. `bestfirst` called on `A` expands
exactly the entries of `n`, in their order, each by `add_merge_to_q` (refine, `greedy`, undo,
push), and then runs its loop; the body of the loop, when the sequence taken from the queue
leads to `A` and is not pruned, returns at once if `n` is empty and else expands exactly the
entries of `n`. The set `n` has at most 10 entries, in descending order. When some split has
a p-value below `SIGNIFICANCE`, its entries are the first ones, up to 10, of the splits with
a p-value below `SIGNIFICANCE` in ascending order, so the lowest ones, and all of them are
splits. When no split has a p-value below `SIGNIFICANCE`, its entries are the first ones, up
to 10, of the entries of the merge set with a p-value of at least `SIGNIFICANCE`, so the
highest ones, and none of them is a split. It is not empty when the merge set is not
empty. -/
theorem bestfirst_expands_candidates (g : globals) (P : p_values) (V : aic_values)
    (fuel k n : Nat) (A A1 : timed_automaton) (first second : refinement_set)
    (h : get_best_refinements g P fuel A = some (first, second, A1)) :
    bestfirst g P V fuel k n A =
        ((new_refinements P first second).foldlM (add_merge_to_q g P V fuel k)
          { TA := A1, Q := [], current_refinements := [], best_solution := -1,
            NODES := 0 }).bind (bestfirst_loop g P V fuel k n) ∧
      (∀ (s s1 : search), bestfirst_take g fuel s = some s1 → s1.TA = A →
        ¬ (s1.best_solution ≠ -1 ∧ V.aic_without_default s1.TA > s1.best_solution) →
        bestfirst_step g P V fuel k s =
          if new_refinements P first second = [] then some { s1 with TA := A1 }
          else (new_refinements P first second).foldlM (add_merge_to_q g P V fuel k)
            { s1 with TA := A1 }) ∧
      (new_refinements P first second).length ≤ 10 ∧
      descending (new_refinements P first second) ∧
      descending first ∧ descending second ∧
      ((∃ x, x ∈ second ∧ x.1 < P.SIGNIFICANCE) →
        (new_refinements P first second).Perm
            ((second.reverse.filter (fun x => decide (x.1 < P.SIGNIFICANCE))).take 10) ∧
          ∀ x, x ∈ new_refinements P first second → x.2.target = -1) ∧
      ((∀ x, x ∈ second → ¬ x.1 < P.SIGNIFICANCE) →
        (new_refinements P first second).Perm
            ((first.filter (fun x => decide (x.1 ≥ P.SIGNIFICANCE))).take 10) ∧
          ∀ x, x ∈ new_refinements P first second → x.2.target ≠ -1) ∧
      (first ≠ [] → new_refinements P first second ≠ []) := by
  refine ⟨?_, ?_, new_refinements_spec g P fuel A A1 first second h⟩
  · unfold bestfirst
    rw [h]
    rfl
  · intro s s1 ht hA hp
    have hp' : ¬ (s1.best_solution ≠ -1 ∧ V.aic_without_default A > s1.best_solution) := by
      rw [← hA]
      exact hp
    unfold bestfirst_step
    rw [ht, Option.some_bind]
    simp only [hA, h, Option.some_bind]
    rw [if_neg hp']
    rfl

/-- The witness of C22: for the prefix tree `example_tree` with `MIN_DATA = 1` the split set
holds the split at the time 1 with the p-value 0, below `SIGNIFICANCE = 1`, and the
candidates that `bestfirst` expands are this split. -/
theorem bestfirst_expands_candidates_witness :
    ∃ A1, get_best_refinements small_globals example_p_values 5 example_tree
        = some ([(1, ⟨0, -2, 0, 10⟩)], [(0, ⟨0, -1, 0, 1⟩)], A1) ∧
      bestfirst small_globals example_p_values ⟨fun _ => 0, fun _ => 0⟩ 5 3 3 example_tree =
        ((new_refinements example_p_values [(1, ⟨0, -2, 0, 10⟩)]
            [(0, ⟨0, -1, 0, 1⟩)]).foldlM
          (add_merge_to_q small_globals example_p_values ⟨fun _ => 0, fun _ => 0⟩ 5 3)
          { TA := A1, Q := [], current_refinements := [], best_solution := -1,
            NODES := 0 }).bind
          (bestfirst_loop small_globals example_p_values ⟨fun _ => 0, fun _ => 0⟩ 5 3 3) ∧
      (new_refinements example_p_values [(1, ⟨0, -2, 0, 10⟩)] [(0, ⟨0, -1, 0, 1⟩)]).length
        ≤ 10 ∧
      new_refinements example_p_values [(1, ⟨0, -2, 0, 10⟩)] [(0, ⟨0, -1, 0, 1⟩)] ≠ [] := by
  refine ⟨_, rfl, ?_⟩
  have h := bestfirst_expands_candidates small_globals example_p_values
    ⟨fun _ => 0, fun _ => 0⟩ 5 3 3 example_tree _
    [(1, ⟨0, -2, 0, 10⟩)] [(0, ⟨0, -1, 0, 1⟩)] rfl
  exact ⟨h.1, h.2.2.1, h.2.2.2.2.2.2.2.2 (by simp)⟩

end RTI


namespace RTI

/-! ### Marks commute and can be taken away -/

theorem update_interval_update (l : interval_set) (k : Int) (f f' : interval → interval) :
    update_interval (update_interval l k f) k f' = update_interval l k (fun i => f' (f i)) := by
  induction l with
  | nil => rfl
  | cons x rest ih =>
    obtain ⟨kx, ix⟩ := x
    simp only [update_interval]
    by_cases h : kx = k
    · simp only [if_pos h, update_interval, if_true]
    · simp only [if_neg h, update_interval, if_false, ih]

theorem update_interval_id (l : interval_set) (k : Int) (f : interval → interval)
    (hf : ∀ i, f i = i) : update_interval l k f = l := by
  induction l with
  | nil => rfl
  | cons x rest ih =>
    obtain ⟨kx, ix⟩ := x
    simp only [update_interval]
    split
    · rw [hf]
    · rw [ih]

theorem update_interval_comm (l : interval_set) (k k' : Int) (f : interval → interval) :
    update_interval (update_interval l k f) k' f =
      update_interval (update_interval l k' f) k f := by
  induction l with
  | nil => rfl
  | cons x rest ih =>
    obtain ⟨kx, ix⟩ := x
    by_cases h1 : kx = k
    · by_cases h2 : kx = k'
      · simp only [update_interval, if_pos h1, if_pos h2]
      · simp only [update_interval, if_pos h1, if_neg h2]
    · by_cases h2 : kx = k'
      · simp only [update_interval, if_neg h1, if_pos h2]
      · simp only [update_interval, if_neg h1, if_neg h2, ih]

/-- The array `targets` after a write through a pointer to the interval with the key `k` for
`symbol`. -/
theorem update_targets (s : timed_state) (symbol : Nat) (k : Int) (f : interval → interval) :
    (s.update symbol k f).targets =
      match s.targets[symbol]? with
      | none => s.targets
      | some l => s.targets.set symbol (update_interval l k f) := by
  unfold timed_state.update
  cases s.targets[symbol]? <;> rfl

theorem update_with_stat (s : timed_state) (st : state_statistics) (symbol : Nat) (k : Int)
    (f : interval → interval) :
    (({ s with stat := st } : timed_state).update symbol k f) =
      { targets := (s.update symbol k f).targets, stat := st } := by
  unfold timed_state.update
  cases s.targets[symbol]? <;> rfl

theorem update_update (s : timed_state) (symbol : Nat) (k : Int) (f f' : interval → interval) :
    ((s.update symbol k f).update symbol k f').targets =
      (s.update symbol k (fun i => f' (f i))).targets := by
  rw [update_targets, update_targets, update_targets]
  cases h : s.targets[symbol]? with
  | none =>
    simp only
    rw [h]
  | some l =>
    simp only
    have hlt : symbol < s.targets.length := (List.getElem?_eq_some_iff.1 h).1
    rw [List.getElem?_set_self hlt]
    simp only
    rw [List.set_set, update_interval_update]

theorem update_id (s : timed_state) (symbol : Nat) (k : Int) (f : interval → interval)
    (hf : ∀ i, f i = i) : (s.update symbol k f).targets = s.targets := by
  rw [update_targets]
  cases h : s.targets[symbol]? with
  | none => rfl
  | some l =>
    simp only
    rw [update_interval_id l k f hf]
    exact congrArg timed_state.targets (timed_state.set_intervals_self s h)

theorem update_comm (s : timed_state) (symbol symbol' : Nat) (k k' : Int)
    (f : interval → interval) :
    ((s.update symbol k f).update symbol' k' f).targets =
      ((s.update symbol' k' f).update symbol k f).targets := by
  by_cases hs : symbol = symbol'
  · subst hs
    rw [update_targets, update_targets, update_targets (s.update symbol k' f), update_targets]
    cases h : s.targets[symbol]? with
    | none =>
      simp only
      rw [h]
    | some l =>
      simp only
      have hlt : symbol < s.targets.length := (List.getElem?_eq_some_iff.1 h).1
      rw [List.getElem?_set_self hlt, List.getElem?_set_self hlt]
      simp only
      rw [List.set_set, List.set_set, update_interval_comm]
  · rw [update_targets, update_targets, update_targets (s.update symbol' k' f),
      update_targets s symbol']
    cases h : s.targets[symbol]? with
    | none =>
      simp only
      cases h' : s.targets[symbol']? with
      | none =>
        simp only
        rw [h]
      | some l' =>
        simp only
        rw [List.getElem?_set_ne (fun e => hs e.symm), h]
    | some l =>
      simp only
      rw [List.getElem?_set_ne hs]
      cases h' : s.targets[symbol']? with
      | none =>
        simp only
        rw [h]
      | some l' =>
        simp only
        rw [List.getElem?_set_ne (fun e => hs e.symm), h]
        simp only
        exact List.set_comm _ _ _ (fun e => hs e)

theorem mark_entry_eq (g : globals) (s : timed_state) (symbol : Nat) (k : Int)
    (x : timed_tail) :
    mark_entry g s symbol k x =
      { targets := (s.update symbol k
          (fun i => { i with num_marked := i.num_marked + 1 })).targets
        stat := s.stat.mark g x } := by
  unfold mark_entry
  rw [update_with_stat]

theorem unmark_entry_eq (g : globals) (s : timed_state) (symbol : Nat) (k : Int)
    (x : timed_tail) :
    unmark_entry g s symbol k x =
      { targets := (s.update symbol k
          (fun i => { i with num_marked := i.num_marked - 1 })).targets
        stat := s.stat.unmark g x } := by
  unfold unmark_entry
  rw [update_with_stat]

theorem update_targets_congr (s u : timed_state) (h : s.targets = u.targets) (symbol : Nat)
    (k : Int) (f : interval → interval) :
    (s.update symbol k f).targets = (u.update symbol k f).targets := by
  rw [update_targets, update_targets, h]

theorem unmark_mark_entry (g : globals) (s : timed_state) (symbol : Nat) (k : Int)
    (x : timed_tail) : unmark_entry g (mark_entry g s symbol k x) symbol k x = s := by
  rw [unmark_entry_eq, mark_entry_eq]
  simp only
  have h1 : (timed_state.update
      { targets := (s.update symbol k
          (fun i => { i with num_marked := i.num_marked + 1 })).targets,
        stat := s.stat.mark g x } symbol k
        (fun i => { i with num_marked := i.num_marked - 1 })).targets = s.targets := by
    refine (update_targets_congr
      ({ targets := (s.update symbol k
          (fun i => { i with num_marked := i.num_marked + 1 })).targets,
         stat := s.stat.mark g x } : timed_state)
      (s.update symbol k (fun i => { i with num_marked := i.num_marked + 1 })) rfl symbol k
      (fun i => { i with num_marked := i.num_marked - 1 })).trans
      ((update_update s symbol k _ _).trans (update_id s symbol k _ ?_))
    intro i
    cases i
    simp
  rw [h1, state_statistics.unmark_mark]

theorem mark_entry_comm (g : globals) (s : timed_state) (symbol symbol' : Nat) (k k' : Int)
    (x x' : timed_tail) :
    mark_entry g (mark_entry g s symbol k x) symbol' k' x' =
      mark_entry g (mark_entry g s symbol' k' x') symbol k x := by
  rw [mark_entry_eq g (mark_entry g s symbol k x), mark_entry_eq g (mark_entry g s symbol' k' x'),
    mark_entry_eq g s symbol k x, mark_entry_eq g s symbol' k' x']
  simp only
  rw [state_statistics.mark_comm]
  congr 1
  exact (update_targets_congr
      ({ targets := (s.update symbol k
          (fun i => { i with num_marked := i.num_marked + 1 })).targets,
         stat := s.stat.mark g x } : timed_state)
      (s.update symbol k (fun i => { i with num_marked := i.num_marked + 1 })) rfl symbol' k'
      (fun i => { i with num_marked := i.num_marked + 1 })).trans
    ((update_comm s symbol symbol' k k' _).trans
      (update_targets_congr
        ({ targets := (s.update symbol' k'
            (fun i => { i with num_marked := i.num_marked + 1 })).targets,
           stat := s.stat.mark g x' } : timed_state)
        (s.update symbol' k' (fun i => { i with num_marked := i.num_marked + 1 })) rfl symbol k
        (fun i => { i with num_marked := i.num_marked + 1 })).symm)

theorem automaton_ext {A B : timed_automaton} (h1 : A.mem = B.mem) (h2 : A.next = B.next)
    (h3 : A.states = B.states) (h4 : A.root = B.root) (h5 : A.marker = B.marker) : A = B := by
  cases A
  cases B
  simp only at h1 h2 h3 h4 h5
  subst h1 h2 h3 h4 h5
  rfl

theorem un_mark_mark_one (g : globals) (A : timed_automaton) (r : interval_ptr)
    (x : timed_tail) (hx : A.marker x = false) :
    un_mark_one g (mark_one g A r x) r x = A := by
  apply automaton_ext
  · funext q
    show (if q = r.state then
        ((if q = r.state then (A.mem q).map (fun s => mark_entry g s r.symbol r.key x)
          else A.mem q)).map (fun s => unmark_entry g s r.symbol r.key x)
        else (if q = r.state then (A.mem q).map (fun s => mark_entry g s r.symbol r.key x)
          else A.mem q)) = A.mem q
    by_cases hq : q = r.state
    · simp only [if_pos hq]
      cases A.mem q with
      | none => rfl
      | some s =>
        simp only [Option.map_some']
        rw [unmark_mark_entry]
    · simp only [if_neg hq]
  · rfl
  · rfl
  · rfl
  · funext t
    show (if t = x then false else (if t = x then true else A.marker t)) = A.marker t
    by_cases ht : t = x
    · rw [if_pos ht, ht, hx]
    · rw [if_neg ht, if_neg ht]

theorem mark_one_comm (g : globals) (A : timed_automaton) (r r' : interval_ptr)
    (x x' : timed_tail) :
    mark_one g (mark_one g A r x) r' x' = mark_one g (mark_one g A r' x') r x := by
  apply automaton_ext
  · funext q
    show (if q = r'.state then
        ((if q = r.state then (A.mem q).map (fun s => mark_entry g s r.symbol r.key x)
          else A.mem q)).map (fun s => mark_entry g s r'.symbol r'.key x')
        else (if q = r.state then (A.mem q).map (fun s => mark_entry g s r.symbol r.key x)
          else A.mem q)) =
      (if q = r.state then
        ((if q = r'.state then (A.mem q).map (fun s => mark_entry g s r'.symbol r'.key x')
          else A.mem q)).map (fun s => mark_entry g s r.symbol r.key x)
        else (if q = r'.state then (A.mem q).map (fun s => mark_entry g s r'.symbol r'.key x')
          else A.mem q))
    by_cases h1 : q = r.state
    · by_cases h2 : q = r'.state
      · simp only [if_pos h1, if_pos h2]
        cases A.mem q with
        | none => rfl
        | some s =>
          simp only [Option.map_some']
          rw [mark_entry_comm]
      · simp only [if_pos h1, if_neg h2]
    · by_cases h2 : q = r'.state
      · simp only [if_neg h1, if_pos h2]
      · simp only [if_neg h1, if_neg h2]
  · rfl
  · rfl
  · rfl
  · funext t
    show (if t = x' then true else (if t = x then true else A.marker t)) =
      (if t = x then true else (if t = x' then true else A.marker t))
    by_cases h1 : t = x <;> by_cases h2 : t = x' <;> simp [h1, h2]

theorem mark_all_perm (g : globals) (A : timed_automaton)
    {M M' : List (interval_ptr × timed_tail)} (h : M.Perm M') :
    mark_all g A M = mark_all g A M' := by
  unfold mark_all
  exact List.Perm.foldl_eq' h (fun x _ y _ z => mark_one_comm g z x.1 y.1 x.2 y.2) A

theorem mark_all_append (g : globals) (A : timed_automaton)
    (M M' : List (interval_ptr × timed_tail)) :
    mark_all g A (M ++ M') = mark_all g (mark_all g A M) M' := by
  unfold mark_all
  rw [List.foldl_append]

theorem mark_all_last (g : globals) (A : timed_automaton) (e : interval_ptr × timed_tail)
    (M : List (interval_ptr × timed_tail)) :
    mark_all g A (e :: M) = mark_one g (mark_all g A M) e.1 e.2 := by
  rw [mark_all_perm g A (List.perm_append_singleton e M).symm, mark_all_append]
  rfl

theorem un_mark_first (g : globals) (A : timed_automaton) (e : interval_ptr × timed_tail)
    (M : List (interval_ptr × timed_tail)) (hA : A.marker e.2 = false)
    (hM : e.2 ∉ M.map Prod.snd) :
    un_mark_one g (mark_all g A (e :: M)) e.1 e.2 = mark_all g A M := by
  rw [mark_all_last]
  apply un_mark_mark_one
  rw [mark_all_marker, hA]
  simp only [Bool.false_or, decide_eq_false_iff_not]
  exact hM

theorem un_mark_all_mark_all (g : globals) (A : timed_automaton)
    (path : List (interval_ptr × timed_tail)) :
    ∀ (M : List (interval_ptr × timed_tail)),
      ((path ++ M).map Prod.snd).Nodup → (∀ e, e ∈ path → A.marker e.2 = false) →
      un_mark_all g (mark_all g A (path ++ M)) path = mark_all g A M := by
  induction path with
  | nil =>
    intro M _ _
    rfl
  | cons e es ih =>
    intro M hnd hA
    have h1 : un_mark_all g (mark_all g A ((e :: es) ++ M)) (e :: es) =
        un_mark_all g (un_mark_one g (mark_all g A (e :: (es ++ M))) e.1 e.2) es := rfl
    rw [List.cons_append, List.map_cons, List.nodup_cons] at hnd
    rw [h1, un_mark_first g A e (es ++ M) (hA e (List.mem_cons_self _ _)) hnd.1]
    exact ih M hnd.2 (fun e' he' => hA e' (List.mem_cons_of_mem _ he'))

end RTI


namespace RTI

/-! ### Taking the marks of a chain of tails away -/

theorem unmark_entry_same (g : globals) (s : timed_state) (symbol : Nat) (key : Int)
    (x : timed_tail) : state_same s (unmark_entry g s symbol key x) := by
  unfold unmark_entry timed_state.update state_same
  simp only
  cases h : s.targets[symbol]? with
  | none => exact List.forall₂_same.2 (fun x _ => partition_same_refl x)
  | some l =>
    simp only
    have hself : s.targets = s.targets.set symbol l := by
      have h1 := timed_state.set_intervals_self s h
      exact (congrArg timed_state.targets h1).symm
    nth_rewrite 1 [hself]
    exact forall₂_set partition_same_refl
      (update_interval_same l key (fun i => { i with num_marked := i.num_marked - 1 })
        (fun i => ⟨rfl, rfl, rfl, rfl, rfl, rfl⟩)) s.targets symbol

theorem un_mark_one_same (g : globals) (A : timed_automaton) (r : interval_ptr)
    (x : timed_tail) : heap_same A (un_mark_one g A r x) := by
  refine ⟨fun q => ?_, rfl, rfl, rfl⟩
  unfold un_mark_one
  simp only
  cases h : A.mem q with
  | none =>
    left
    refine ⟨rfl, ?_⟩
    split <;> rfl
  | some s =>
    right
    by_cases hq : q = r.state
    · refine ⟨s, unmark_entry g s r.symbol r.key x, rfl, ?_,
        unmark_entry_same g s r.symbol r.key x⟩
      rw [if_pos hq]
      rfl
    · refine ⟨s, s, rfl, ?_, state_same_refl s⟩
      rw [if_neg hq]

theorem un_mark_step (g : globals) (A : timed_automaton) (r : interval_ptr) (x : timed_tail)
    (s : timed_state) (hm : A.mem r.state = some s) :
    ∃ A1 A2, A.update_stat (some r.state) (fun st => st.unmark g x) = some A1 ∧
      A1.write r (fun i => { i with num_marked := i.num_marked - 1 }) = some A2 ∧
      ({ A2 with marker := fun t => if t = x then false else A2.marker t } : timed_automaton)
        = un_mark_one g A r x := by
  obtain ⟨q, sy, k⟩ := r
  simp only at hm
  have hm1 : (A.store q { s with stat := s.stat.unmark g x }).mem q =
      some { s with stat := s.stat.unmark g x } := by
    simp [timed_automaton.store]
  refine ⟨_, _, update_stat_eq hm _, write_eq hm1 sy k _, ?_⟩
  unfold un_mark_one timed_automaton.store
  simp only
  congr 1
  funext q'
  by_cases hq : q' = q
  · subst hq
    simp only [if_true, hm, Option.map_some']
    rfl
  · simp only [if_neg hq]

theorem un_mark_chain_eq (g : globals) (n : Nat) :
    ∀ (A : timed_automaton) (r : interval_ptr) (x : timed_tail)
      (path : List (interval_ptr × timed_tail)),
      holders A n r x = some path → (∀ e, e ∈ path → A.marker e.2 = true) →
      un_mark_chain g n A (some r.state) r x = some (un_mark_all g A path) := by
  induction n with
  | zero =>
    intro A r x path hp _
    cases hp
  | succ n ih =>
    intro A r x path hp hun
    unfold holders at hp
    obtain ⟨i, hi, hp⟩ := Option.bind_eq_some.1 hp
    have hx0 : A.marker x = true := by
      cases hx : x.next_tail with
      | none =>
        rw [hx] at hp
        cases hp
        exact hun (r, x) (List.mem_singleton.2 rfl)
      | some nt =>
        rw [hx] at hp
        simp only at hp
        obtain ⟨e, -, hp⟩ := Option.bind_eq_some.1 hp
        obtain ⟨path', -, hp⟩ := Option.map_eq_some'.1 hp
        rw [← hp] at hun
        exact hun (r, x) (List.mem_cons_self _ _)
    obtain ⟨s, hs, -⟩ : ∃ s, A.mem r.state = some s ∧ True := by
      unfold timed_automaton.read at hi
      obtain ⟨s, hs, -⟩ := Option.bind_eq_some.1 hi
      exact ⟨s, hs, trivial⟩
    obtain ⟨A1, A2, h1, h2, h3⟩ := un_mark_step g A r x s hs
    unfold un_mark_chain
    rw [if_neg (by rw [hx0]; simp), h1, Option.some_bind, h2, Option.some_bind]
    simp only
    rw [h3]
    have hsame := un_mark_one_same g A r x
    cases hx : x.next_tail with
    | none =>
      rw [hx] at hp
      cases hp
      rfl
    | some nt =>
      rw [hx] at hp
      simp only at hp ⊢
      obtain ⟨e, he, hp⟩ := Option.bind_eq_some.1 hp
      obtain ⟨path', hp', hp⟩ := Option.map_eq_some'.1 hp
      obtain ⟨j, hj, hij⟩ := read_same hsame hi
      obtain ⟨j', hj', -⟩ := interval_at_same hsame he
      rw [hj, Option.some_bind, hij.2.2.2.1, hj', Option.some_bind]
      simp only
      have hto := interval_at_state he
      rw [hto]
      have hun' : ∀ e', e' ∈ path' → (un_mark_one g A r x).marker e'.2 = true := by
        intro e' he'
        have hmem : e'.2 ∈ chain nt := by
          rw [← holders_tails A n e.1 nt path' hp']
          exact List.mem_map_of_mem Prod.snd he'
        have hne : e'.2 ≠ x := by
          intro heq
          have hidx := chain_index hmem
          have hnt := (next_tail_length hx).2.2
          rw [heq] at hidx
          rcases hidx with h0 | h0
          · rw [h0] at hnt
            omega
          · omega
        show (if e'.2 = x then false else A.marker e'.2) = true
        rw [if_neg hne]
        exact hun e' (by rw [← hp]; exact List.mem_cons_of_mem _ he')
      rw [ih (un_mark_one g A r x) e.1 nt path' (holders_same hsame n _ _ _ hp') hun', ← hp]
      rfl

theorem un_mark_unmarked (g : globals) (A : timed_automaton) (p : Option Nat)
    (r : interval_ptr) (x : timed_tail) (h : A.marker x = false) :
    un_mark g A p r x = some A := by
  unfold un_mark un_mark_chain
  rw [if_pos (by rw [h]; rfl)]

/-- The loop of `clear_marked` over the tails `L` of the interval `r`, in the heap `A` with
the marks `M` of `test_split` for the split time `t`: it takes all these marks away. -/
theorem un_mark_fold (g : globals) (A : timed_automaton) (r : interval_ptr) (t : Int)
    (L : List timed_tail) :
    ∀ (M : List (interval_ptr × timed_tail)),
      split_marks A r t L = some M → (M.map Prod.snd).Nodup →
      (∀ e, e ∈ M → A.marker e.2 = false) →
      (∀ x, x ∈ L → t < x.get_time_value → A.marker x = false ∧ x ∉ M.map Prod.snd) →
      L.foldlM (fun (B : timed_automaton) (tail : timed_tail) =>
        un_mark g B (some r.state) r tail) (mark_all g A M) = some A := by
  induction L with
  | nil =>
    intro M hM _ _ _
    cases hM
    rfl
  | cons x xs ih =>
    intro M hM hnd hun hrest
    unfold split_marks at hM
    rw [List.foldlM_cons]
    by_cases hx : x.get_time_value ≤ t
    · rw [if_pos hx] at hM
      obtain ⟨path, hpath, hM⟩ := Option.bind_eq_some.1 hM
      obtain ⟨M', hM', hM⟩ := Option.map_eq_some'.1 hM
      subst hM
      have hsame := mark_all_same g (path ++ M') A
      have hstep : un_mark g (mark_all g A (path ++ M')) (some r.state) r x
          = some (mark_all g A M') := by
        unfold un_mark
        rw [un_mark_chain_eq g _ _ r x path (holders_same hsame _ _ _ _ hpath) ?_,
          un_mark_all_mark_all g A path M' hnd
            (fun e he => hun e (List.mem_append_left _ he))]
        intro e he
        rw [mark_all_marker]
        simp only [Bool.or_eq_true, decide_eq_true_eq]
        exact Or.inr (List.mem_map_of_mem Prod.snd (List.mem_append_left _ he))
      rw [hstep]
      rw [List.map_append] at hnd
      refine ih M' hM' (List.Nodup.of_append_right hnd)
        (fun e he => hun e (List.mem_append_right _ he)) ?_
      intro y hy hty
      obtain ⟨q1, q2⟩ := hrest y (List.mem_cons_of_mem _ hy) hty
      rw [List.map_append, List.mem_append, not_or] at q2
      exact ⟨q1, q2.2⟩
    · rw [if_neg hx] at hM
      obtain ⟨q1, q2⟩ := hrest x (List.mem_cons_self _ _) (by omega)
      have hstep : un_mark g (mark_all g A M) (some r.state) r x = some (mark_all g A M) := by
        apply un_mark_unmarked
        rw [mark_all_marker, q1, Bool.false_or, decide_eq_false_iff_not]
        exact q2
      rw [hstep]
      exact ih M hM hnd hun (fun y hy hty => hrest y (List.mem_cons_of_mem _ hy) hty)

end RTI


namespace RTI

/-! ### The marks of `test_split` in a prefix tree -/

theorem foldlM_total {α β : Type} (f : α → β → Option α) (l : List β)
    (h : ∀ a x, x ∈ l → ∃ b, f a x = some b) : ∀ a, ∃ b, l.foldlM f a = some b := by
  induction l with
  | nil => exact fun a => ⟨a, rfl⟩
  | cons x xs ih =>
    intro a
    obtain ⟨b, hb⟩ := h a x (List.mem_cons_self _ _)
    obtain ⟨c, hc⟩ := ih (fun a' y hy => h a' y (List.mem_cons_of_mem _ hy)) b
    exact ⟨c, by rw [List.foldlM_cons, hb]; exact hc⟩

theorem partition_begin_ge {g : globals} {l : interval_set} (h : partition_ok g l) :
    ∀ e, e ∈ l → g.MIN_TIME ≤ e.2.begin := by
  cases l with
  | nil => exact absurd h (by simp [partition_ok])
  | cons x rest =>
    obtain ⟨k, i⟩ := x
    obtain ⟨hb, -, hmin, hrest⟩ := h
    intro e he
    rcases List.mem_cons.1 he with rfl | he
    · exact le_of_eq hb.symm
    · have h1 := (tail_cover_begin_gt hrest e he).1
      have h2 := hmin (List.ne_nil_of_mem he)
      omega

/-- The lookup of a time within the bounds of an interval of a partition finds this
interval. -/
theorem find_interval_within {g : globals} {l : interval_set} {k : Int} {i : interval}
    {t : Int} (hok : partition_ok g l) (hm : (k, i) ∈ l) (hb : i.begin ≤ t)
    (he : t ≤ i.end_) : find_interval l t = some (k, i) := by
  have h1 := partition_begin_ge hok (k, i) hm
  have h2 := ((partition_ok_keys hok).1 (k, i) hm).2
  obtain ⟨e, q1, -, -, -, q5⟩ := lower_bound_partition hok
    (show g.MIN_TIME ≤ t by simp only at h1; omega)
    (show t ≤ g.MAX_TIME by simp only at h2; omega)
  unfold find_interval
  rw [q1, ← q5 (k, i) hm hb he]

theorem interval_at_within {g : globals} {A : timed_automaton} {p symbol : Nat}
    {s : timed_state} {l : interval_set} {k : Int} {i : interval} {t : Int}
    (hp : A.mem p = some s) (hl : s.targets[symbol]? = some l) (hok : partition_ok g l)
    (hm : (k, i) ∈ l) (hb : i.begin ≤ t) (he : t ≤ i.end_) :
    A.interval_at (some p) symbol t = some (⟨p, symbol, k⟩, i) := by
  simp [timed_automaton.interval_at, hp, timed_state.find, timed_state.get_intervals, hl,
    find_interval_within hok hm hb he]

/-- In a prefix tree the successors of a tail are found along the targets. -/
theorem holders_placed {g : globals} {A : timed_automaton} :
    ∀ (n : Nat) (t : state_tree) (r : interval_ptr) (i : interval) (x : timed_tail),
      A.read r = some i → rep A i.to_ t → t.placed g i.tails → x ∈ i.tails →
      n = x.rest.length + 1 → ∃ path, holders A n r x = some path := by
  intro n
  induction n with
  | zero =>
    intro t r i x _ _ _ _ hn
    omega
  | succ n ih =>
    intro t r i x hr hrep hpl hx hn
    unfold holders
    rw [hr, Option.some_bind]
    cases hnt : x.next_tail with
    | none => exact ⟨_, rfl⟩
    | some nt =>
      simp only
      obtain ⟨a, s, kid, rfl⟩ := placed_node hpl (List.ne_nil_of_mem hx)
      obtain ⟨hu, hsym, hcnt, hkids⟩ := hpl
      obtain ⟨hto, hm, hk⟩ := (rep_unsplit hu).1 hrep
      have hmem : nt ∈ nexts i.tails := List.mem_filterMap.2 ⟨x, hx, hnt⟩
      have hs := hsym nt hmem
      have hin : nt ∈ (s.iv nt.get_symbol).tails := by
        have h1 := hcnt nt
        have h2 : 0 < (nexts i.tails).count nt := List.count_pos_iff.2 hmem
        exact List.count_pos_iff.1 (by omega)
      rw [hto, interval_at_unsplit hm hu hs, Option.some_bind]
      obtain ⟨path, hpath⟩ := ih (kid nt.get_symbol g.MAX_TIME) ⟨a, nt.get_symbol, g.MAX_TIME⟩
        (s.iv nt.get_symbol) nt (read_unsplit hm hu hs) (hk _ hs) (hkids _ hs) hin
        (by have := (next_tail_length hnt).1; omega)
      exact ⟨_, by rw [hpath]; rfl⟩

theorem split_marks_placed {g : globals} {A : timed_automaton} {t : state_tree}
    {r : interval_ptr} {i : interval} (hr : A.read r = some i) (hrep : rep A i.to_ t)
    (hpl : t.placed g i.tails) (u : Int) :
    ∀ (L : List timed_tail), (∀ x, x ∈ L → x ∈ i.tails) →
      ∃ M, split_marks A r u L = some M := by
  intro L
  induction L with
  | nil => exact fun _ => ⟨[], rfl⟩
  | cons x xs ih =>
    intro hL
    obtain ⟨M, hM⟩ := ih (fun y hy => hL y (List.mem_cons_of_mem _ hy))
    unfold split_marks
    by_cases hx : x.get_time_value ≤ u
    · obtain ⟨path, hpath⟩ := holders_placed (x.rest.length + 1) t r i x hr hrep hpl
        (hL x (List.mem_cons_self _ _)) rfl
      rw [if_pos hx, hpath, Option.some_bind, hM]
      exact ⟨_, rfl⟩
    · rw [if_neg hx, hM]
      exact ⟨_, rfl⟩

theorem chains_filter_nodup {L : List timed_tail} (h : (L.flatMap chain).Nodup)
    (p : timed_tail → Bool) : ((L.filter p).flatMap chain).Nodup := by
  rw [List.nodup_flatMap] at h ⊢
  exact ⟨fun x hx => h.1 x (List.mem_of_mem_filter hx),
    List.Pairwise.sublist (List.filter_sublist _) h.2⟩

theorem chains_apart {L : List timed_tail} (h : (L.flatMap chain).Nodup) {x : timed_tail}
    (hx : x ∈ L) {u : Int} (hxu : u < x.get_time_value) :
    x ∉ (L.filter (fun y => decide (y.get_time_value ≤ u))).flatMap chain := by
  intro hc
  obtain ⟨y, hy, hxy⟩ := List.mem_flatMap.1 hc
  have hyL : y ∈ L := List.mem_of_mem_filter hy
  have hyu : y.get_time_value ≤ u := by
    have := (List.mem_filter.1 hy).2
    simpa using this
  have hne : x ≠ y := by
    intro e
    rw [e] at hxu
    omega
  rw [List.nodup_flatMap] at h
  have hd : List.Disjoint (chain x) (chain y) :=
    List.Pairwise.forall (fun a b hab => List.Disjoint.symm hab) h.2 hx hyL hne
  exact hd (mem_chain_self x) hxy

/-- The marks of `test_split` for the split time `u` in an interval above a prefix tree, when
no tail is marked and the tails of the interval and their successors are all different. -/
theorem split_marks_spec {g : globals} {A : timed_automaton} {t : state_tree}
    {r : interval_ptr} {i : interval} (hr : A.read r = some i) (hrep : rep A i.to_ t)
    (hpl : t.placed g i.tails) (hnd : (i.tails.flatMap chain).Nodup)
    (hun : ∀ x, A.marker x = false) (u : Int) :
    ∃ M, split_marks A r u i.tails = some M ∧ (M.map Prod.snd).Nodup ∧
      (∀ e, e ∈ M → A.marker e.2 = false) ∧
      ∀ x, x ∈ i.tails → u < x.get_time_value → A.marker x = false ∧ x ∉ M.map Prod.snd := by
  obtain ⟨M, hM⟩ := split_marks_placed hr hrep hpl u i.tails (fun _ h => h)
  have ht := split_marks_tails A r u i.tails M hM
  refine ⟨M, hM, ?_, fun e _ => hun e.2, fun x hx hxu => ⟨hun x, ?_⟩⟩
  · rw [ht]
    exact chains_filter_nodup hnd _
  · rw [ht]
    exact chains_apart hnd hx hxu

/-! ### `recurse_test_split` returns -/

theorem recurse_test_split_none (g : globals) (fuel : Nat) (A : timed_automaton) :
    recurse_test_split g fuel A none = some [] := by
  cases fuel <;> rfl

theorem recurse_test_split_returns {g : globals} {A H : timed_automaton} (hok : heap_ok g A)
    (hsame : heap_same A H) :
    ∀ (t : state_tree) (fuel : Nat) (q : Option Nat), rep A q t → t.fits fuel →
      ∃ r, recurse_test_split g fuel H q = some r := by
  intro t
  induction t with
  | null =>
    intro fuel q hrep _
    have hq : q = none := hrep
    rw [hq]
    exact ⟨[], recurse_test_split_none g fuel H⟩
  | node a s kid ih =>
    intro fuel q hrep hfit
    obtain ⟨m, rfl, hk⟩ := hfit
    obtain ⟨hq, hm, hkids⟩ := hrep
    rw [hq]
    obtain ⟨u, hu, hsu⟩ : ∃ u, H.mem a = some u ∧ state_same s u := by
      rcases hsame.1 a with ⟨h1, -⟩ | ⟨s', u, h1, h2, h3⟩
      · rw [hm] at h1
        cases h1
      · rw [hm] at h1
        cases h1
        exact ⟨u, h2, h3⟩
    unfold recurse_test_split
    rw [hu, Option.some_bind]
    apply foldlM_total
    intro acc i hi
    have hi' : i < g.MAX_SYMBOL := List.mem_range.1 hi
    obtain ⟨l, hl⟩ : ∃ l, s.get_intervals i = some l := by
      unfold timed_state.get_intervals
      exact ⟨_, List.getElem?_eq_getElem (by rw [(hok a s hm).1]; exact hi')⟩
    obtain ⟨l', hl', hll⟩ := (get_intervals_same hsu i).2 l hl
    unfold test_split_symbol
    rw [hl', Option.some_bind]
    apply foldlM_total
    intro acc' e' he'
    obtain ⟨e, he, hk1, hee⟩ := forall₂_of_mem_right hll he'
    unfold test_split_interval
    split
    · exact ⟨_, rfl⟩
    · have hto : e'.2.to_ = e.2.to_ := hee.2.2.2.1
      obtain ⟨r, hr⟩ := ih i e.1 m e.2.to_ (hkids i e ⟨l, hl, he⟩) (hk i e ⟨l, hl, he⟩)
      rw [hto, hr]
      exact ⟨_, rfl⟩

end RTI


namespace RTI

/-! ### The loop of `get_best_refinements` over the tails returns -/

theorem foldlM_total_inv {α β : Type} (f : α → β → Option α) (Inv : α → Prop) (l : List β)
    (h : ∀ a x, x ∈ l → Inv a → ∃ b, f a x = some b ∧ Inv b) :
    ∀ a, Inv a → ∃ b, l.foldlM f a = some b ∧ Inv b := by
  induction l with
  | nil => exact fun a ha => ⟨a, rfl, ha⟩
  | cons x xs ih =>
    intro a ha
    obtain ⟨b, hb, hIb⟩ := h a x (List.mem_cons_self _ _) ha
    obtain ⟨c, hc, hIc⟩ := ih (fun a' y hy => h a' y (List.mem_cons_of_mem _ hy)) b hIb
    exact ⟨c, by rw [List.foldlM_cons, hb]; exact hc, hIc⟩

theorem mark_upto_none (g : globals) (p : Nat) (r : interval_ptr) (t : Int)
    (A : timed_automaton) (hun : ∀ x, A.marker x = false) :
    ∀ (L : List timed_tail), (∀ x, x ∈ L → t < x.get_time_value) →
      L.foldlM (mark_upto g p r t) A = some A := by
  intro L
  induction L with
  | nil => exact fun _ => rfl
  | cons x xs ih =>
    intro hL
    have hx := hL x (List.mem_cons_self _ _)
    have hstep : mark_upto g p r t A x = some A := by
      unfold mark_upto
      rw [if_neg (by omega), hun x]
      rfl
    rw [List.foldlM_cons, hstep]
    exact ih (fun y hy => hL y (List.mem_cons_of_mem _ hy))

/-- The heap after the marking loop of `test_split` for the split time `u`, run in the heap
`A` in which no tail is marked, on the interval `i` above a prefix tree. -/
theorem mark_upto_marks {g : globals} {fuel : Nat} {A : timed_automaton} {p symbol : Nat}
    {k : Int} {i : interval} {o : Nat} {t : state_tree} {N : Set Nat}
    (b : tree_below g fuel A p symbol k i o t N) (hnd : (i.tails.flatMap chain).Nodup)
    (hun : ∀ x, A.marker x = false) (u : Int) :
    ∃ M, split_marks A ⟨p, symbol, k⟩ u i.tails = some M ∧ (M.map Prod.snd).Nodup ∧
      (∀ e, e ∈ M → A.marker e.2 = false) ∧
      (∀ x, x ∈ i.tails → u < x.get_time_value →
        A.marker x = false ∧ x ∉ M.map Prod.snd) ∧
      i.tails.foldlM (mark_upto g p ⟨p, symbol, k⟩ u) A = some (mark_all g A M) := by
  obtain ⟨s, l, hp, hl, hm⟩ := b.entry
  have hlok : partition_ok g l := (b.ok p s hp).2 l (mem_of_getElem?_some hl)
  have hread := read_entry hp hl hlok hm
  have hrep : rep A i.to_ t := by
    rw [b.target]
    exact b.tree
  obtain ⟨M, q1, q2, q3, q4⟩ := split_marks_spec hread hrep b.placed hnd hun u
  exact ⟨M, q1, q2, q3, q4,
    mark_upto_fold g A ⟨p, symbol, k⟩ u i.tails A M q1 (heap_same_refl A) q2 q3 q4⟩

/-- A call of `test_split` in the loop of `get_best_refinements` returns: `A` is the heap
before the loop, in which no tail is marked, and `H` the heap that an earlier call, for a
time `u'` that is not larger, has left. -/
theorem test_split_returns {g : globals} (P : p_values) {fuel : Nat} {A : timed_automaton}
    {p symbol : Nat} {k : Int} {i : interval} {o : Nat} {t : state_tree} {N : Set Nat}
    (b : tree_below g fuel A p symbol k i o t N) (hsorted : tails_sorted i.tails)
    (hnd : (i.tails.flatMap chain).Nodup) (hun : ∀ x, A.marker x = false) {u u' : Int}
    (hb : i.begin ≤ u) (he : u ≤ i.end_) (h12 : u' ≤ u) {H : timed_automaton}
    (hH : i.tails.foldlM (mark_upto g p ⟨p, symbol, k⟩ u') A = some H) :
    ∃ H' score, test_split g P fuel H p symbol u = some (H', score) ∧
      i.tails.foldlM (mark_upto g p ⟨p, symbol, k⟩ u) A = some H' := by
  obtain ⟨s, l, hp, hl, hm⟩ := b.entry
  have hlok : partition_ok g l := (b.ok p s hp).2 l (mem_of_getElem?_some hl)
  have hat := interval_at_within hp hl hlok hm hb he
  have hsame : heap_same A H := (mark_upto_kept g ⟨p, symbol, k⟩ u' i.tails A H hH).1
  obtain ⟨j, hj, hij⟩ := interval_at_same hsame hat
  obtain ⟨M, -, -, -, -, hfold⟩ := mark_upto_marks b hnd hun u
  have hagain := mark_upto_again g ⟨p, symbol, k⟩ u' u h12 i.tails A H hsorted hH
  obtain ⟨r, hr⟩ := recurse_test_split_returns b.ok (mark_all_same g M A) t fuel (some o)
    b.tree b.fits
  refine ⟨mark_all g A M, split_score g P r, ?_, hfold⟩
  unfold test_split
  rw [hj, Option.some_bind]
  have hto : j.get_target = some o := by
    show j.to_ = some o
    rw [hij.2.2.2.1]
    exact b.target
  simp only [hto]
  have htl : j.tails = i.tails := hij.2.2.1
  rw [htl]
  have e1 : i.tails.foldlM (mark_upto g p ⟨p, symbol, k⟩ u) H = some (mark_all g A M) := by
    rw [← hfold]
    exact hagain
  rw [e1, Option.some_bind, hr]
  rfl

theorem add_split_returns {g : globals} (P : p_values) {fuel : Nat} {A : timed_automaton}
    {p symbol state : Nat} {k : Int} {i : interval} {o : Nat} {t : state_tree} {N : Set Nat}
    (b : tree_below g fuel A p symbol k i o t N) (hst : A.get_state state = some p)
    (hsorted : tails_sorted i.tails) (hnd : (i.tails.flatMap chain).Nodup)
    (hun : ∀ x, A.marker x = false)
    (hbounds : ∀ x, x ∈ i.tails → i.begin ≤ x.get_time_value ∧ x.get_time_value ≤ i.end_)
    (acc : split_loop) (x : timed_tail) (hx : x ∈ i.tails)
    (hI : split_loop_inv g A p symbol k i acc) :
    ∃ c, add_split g P fuel state symbol acc x = some c ∧
      split_loop_inv g A p symbol k i c := by
  obtain ⟨h1, h2, u, hu, hH⟩ := hI
  unfold add_split
  by_cases hlt : acc.time < x.get_time_value
  · rw [if_pos hlt]
    have hsame : heap_same A acc.A := (mark_upto_kept g ⟨p, symbol, k⟩ u i.tails A acc.A hH).1
    have hst' : acc.A.get_state state = some p := by
      unfold timed_automaton.get_state at hst ⊢
      rw [hsame.2.2.1]
      exact hst
    obtain ⟨H', score, hts, hfold⟩ := test_split_returns P b hsorted hnd hun h1 h2 hu hH
    rw [hst', Option.some_bind, hts]
    exact ⟨_, rfl, (hbounds x hx).1, (hbounds x hx).2, acc.time, le_of_lt hlt, hfold⟩
  · rw [if_neg hlt]
    exact ⟨acc, rfl, h1, h2, u, hu, hH⟩

/-- The loop over the tails in `get_best_refinements` returns, and `clear_marked` then takes
all marks away: the heap is the one before the loop again. -/
theorem split_loop_returns {g : globals} (P : p_values) {fuel : Nat} {A : timed_automaton}
    {p symbol state : Nat} {k : Int} {i : interval} {o : Nat} {t : state_tree} {N : Set Nat}
    (b : tree_below g fuel A p symbol k i o t N) (hst : A.get_state state = some p)
    (hsorted : tails_sorted i.tails) (hnd : (i.tails.flatMap chain).Nodup)
    (hun : ∀ x, A.marker x = false)
    (hbounds : ∀ x, x ∈ i.tails → i.begin ≤ x.get_time_value ∧ x.get_time_value ≤ i.end_)
    {x0 : timed_tail} (hx0 : i.tails.head? = some x0) :
    ∃ r, i.tails.foldlM (add_split g P fuel state symbol)
        { splits := [], A := A, time := x0.get_time_value } = some r ∧
      r.A.get_state state = some p ∧
      clear_marked g r.A (some p) ⟨p, symbol, k⟩ = some A := by
  have hx0m : x0 ∈ i.tails := List.mem_of_mem_head? hx0
  have hhead : ∀ x, x ∈ i.tails → x0.get_time_value ≤ x.get_time_value := by
    intro x hx
    cases hT : i.tails with
    | nil => rw [hT] at hx; cases hx
    | cons y ys =>
      rw [hT] at hx hx0 hsorted
      simp only [List.head?_cons, Option.some.injEq] at hx0
      subst hx0
      rcases List.mem_cons.1 hx with rfl | hx
      · exact le_refl _
      · exact (List.pairwise_cons.1 hsorted).1 x hx
  have h0 : split_loop_inv g A p symbol k i
      { splits := [], A := A, time := x0.get_time_value } :=
    ⟨(hbounds x0 hx0m).1, (hbounds x0 hx0m).2, x0.get_time_value - 1, by simp,
      mark_upto_none g p ⟨p, symbol, k⟩ _ A hun i.tails (fun x hx => by
        have := hhead x hx
        omega)⟩
  obtain ⟨r, hr, -, -, u, -, hH⟩ := foldlM_total_inv (add_split g P fuel state symbol)
    (split_loop_inv g A p symbol k i) i.tails
    (fun acc x hx hI => add_split_returns P b hst hsorted hnd hun hbounds acc x hx hI) _ h0
  have hsame : heap_same A r.A := (mark_upto_kept g ⟨p, symbol, k⟩ u i.tails A r.A hH).1
  have hst' : r.A.get_state state = some p := by
    unfold timed_automaton.get_state at hst ⊢
    rw [hsame.2.2.1]
    exact hst
  refine ⟨r, hr, hst', ?_⟩
  obtain ⟨M, q1, q2, q3, q4, hfold⟩ := mark_upto_marks b hnd hun u
  have hrA : r.A = mark_all g A M := by
    rw [hfold] at hH
    exact (Option.some.inj hH).symm
  obtain ⟨s, l, hp, hl, hm⟩ := b.entry
  have hlok : partition_ok g l := (b.ok p s hp).2 l (mem_of_getElem?_some hl)
  have hread := read_entry hp hl hlok hm
  obtain ⟨j, hj, hij⟩ := read_same hsame hread
  unfold clear_marked
  rw [hj, Option.some_bind, hij.2.2.1, hrA]
  exact un_mark_fold g A ⟨p, symbol, k⟩ u i.tails M q1 q2 q3 q4

end RTI


namespace RTI

/-! ### The consistency check and the order of the tails -/

theorem get_intervals_equiv {s u : timed_state} (h : state_equiv s u) {symbol : Nat}
    {l : interval_set} (hl : s.get_intervals symbol = some l) :
    ∃ m, u.get_intervals symbol = some m ∧ interval_set_equiv l m := by
  unfold timed_state.get_intervals at hl ⊢
  have hlen := h.2.length_eq
  obtain ⟨hlt, hget⟩ := List.getElem?_eq_some_iff.1 hl
  have hlt2 : symbol < u.targets.length := by omega
  refine ⟨u.targets[symbol], List.getElem?_eq_getElem hlt2, ?_⟩
  rw [← hget]
  exact List.Forall₂.get h.2 hlt hlt2

theorem find_key_equiv {l m : interval_set} (h : interval_set_equiv l m) (k : Int) :
    ∀ e, l.find? (fun e => e.1 == k) = some e →
      ∃ e', m.find? (fun e => e.1 == k) = some e' ∧ e.1 = e'.1 ∧ interval_equiv e.2 e'.2 := by
  unfold interval_set_equiv at h
  induction h with
  | nil => exact fun e he => by simp at he
  | @cons a b as bs hab _ ih =>
    by_cases hk : a.1 = k
    · have hk2 : b.1 = k := by rw [← hab.1]; exact hk
      intro e he
      simp only [List.find?_cons, hk, beq_self_eq_true, Option.some.injEq] at he
      subst he
      exact ⟨b, by simp [List.find?_cons, hk2], hab.1, hab.2⟩
    · have hk2 : ¬ b.1 = k := by rw [← hab.1]; exact hk
      have e1 : (a :: as).find? (fun e => e.1 == k) = as.find? (fun e => e.1 == k) := by
        simp [List.find?_cons, hk]
      have e2 : (b :: bs).find? (fun e => e.1 == k) = bs.find? (fun e => e.1 == k) := by
        simp [List.find?_cons, hk2]
      rw [e1, e2]
      exact ih

theorem read_equiv {A B : timed_automaton} (h : heap_equiv A B) {r : interval_ptr}
    {i : interval} (hr : A.read r = some i) :
    ∃ j, B.read r = some j ∧ interval_equiv i j := by
  unfold timed_automaton.read at hr ⊢
  obtain ⟨s, hs, hr⟩ := Option.bind_eq_some.1 hr
  obtain ⟨l, hl, hr⟩ := Option.bind_eq_some.1 hr
  obtain ⟨e, he, rfl⟩ := Option.map_eq_some'.1 hr
  obtain ⟨u, hb, hsu⟩ := h.1 r.state s hs
  obtain ⟨m, hm, hlm⟩ := get_intervals_equiv hsu hl
  obtain ⟨e', he', -, hsame⟩ := find_key_equiv hlm r.key e he
  exact ⟨e'.2, by simp [hb, hm, he'], hsame⟩

theorem interval_at_equiv {A B : timed_automaton} (h : heap_equiv A B) {p : Option Nat}
    {symbol : Nat} {t : Int} {e : interval_ptr × interval}
    (hr : A.interval_at p symbol t = some e) :
    ∃ j, B.interval_at p symbol t = some (e.1, j) ∧ interval_equiv e.2 j := by
  unfold timed_automaton.interval_at at hr ⊢
  cases p with
  | none => cases hr
  | some q =>
    simp only at hr ⊢
    obtain ⟨x, hx, rfl⟩ := Option.map_eq_some'.1 hr
    obtain ⟨s, hs, hx⟩ := Option.bind_eq_some.1 hx
    unfold timed_state.find at hx
    obtain ⟨l, hl, hx⟩ := Option.bind_eq_some.1 hx
    obtain ⟨u, hb, hsu⟩ := h.1 q s hs
    obtain ⟨m, hm, hlm⟩ := get_intervals_equiv hsu hl
    obtain ⟨x', hx', hk, hsame⟩ :=
      find_interval_rel (R := fun a b => a.1 = b.1 ∧ interval_equiv a.2 b.2)
        (fun a b hab => hab.1) hlm hx
    refine ⟨x'.2, ?_, hsame⟩
    simp [hb, timed_state.find, hm, hx', hk]

theorem contains_equiv {i j : interval} (h : interval_equiv i j) (x : timed_tail) :
    contains_tail_in_set j.tails x = contains_tail_in_set i.tails x := by
  unfold contains_tail_in_set
  rw [Bool.eq_iff_iff]
  simp only [List.contains_eq_any_beq, List.any_eq_true, beq_iff_eq]
  constructor
  · rintro ⟨y, hy, rfl⟩
    exact ⟨x, h.2.2.1.mem_iff.2 hy, rfl⟩
  · rintro ⟨y, hy, rfl⟩
    exact ⟨x, h.2.2.1.mem_iff.1 hy, rfl⟩

theorem contains_state_equiv {A B : timed_automaton} (h : heap_equiv A B) (p : Option Nat) :
    B.contains_state p = A.contains_state p := by
  unfold timed_automaton.contains_state
  rw [h.2.1]

theorem check_next_tail_equiv {g : globals} {A B : timed_automaton} (h : heap_equiv A B) :
    ∀ (n : Nat) (in_ : interval_ptr) (tail : timed_tail),
      check_next_tail g n A in_ tail = true → check_next_tail g n B in_ tail = true := by
  intro n
  induction n with
  | zero =>
    intro in_ tail hc
    simp [check_next_tail] at hc
  | succ n ih =>
    intro in_ tail hc
    unfold check_next_tail at hc ⊢
    cases hr : A.read in_ with
    | none =>
      rw [hr] at hc
      cases hc
    | some i =>
      rw [hr] at hc
      obtain ⟨j, hj, hij⟩ := read_equiv h hr
      rw [hj]
      simp only [Bool.and_eq_true, decide_eq_true_eq, Bool.not_eq_true'] at hc ⊢
      obtain ⟨⟨⟨⟨h1, h2⟩, h3⟩, h4⟩, h5⟩ := hc
      refine ⟨⟨⟨⟨by rw [← hij.1]; exact h1, by rw [← hij.2.1]; exact h2⟩,
        by rw [contains_equiv hij]; exact h3⟩, by rw [h.2.2]; exact h4⟩, ?_⟩
      cases hnt : tail.next_tail with
      | none => rfl
      | some nt =>
        rw [hnt] at h5
        simp only at h5 ⊢
        have hto : j.get_target = i.get_target := hij.2.2.2.1.symm
        rw [hto]
        cases htg : i.get_target with
        | none =>
          rw [htg] at h5
          cases h5
        | some target =>
          rw [htg] at h5
          simp only at h5 ⊢
          cases hat : A.interval_at (some target) nt.get_symbol nt.get_time_value with
          | none =>
            rw [hat] at h5
            cases h5
          | some e =>
            obtain ⟨next_in, ni⟩ := e
            rw [hat] at h5
            obtain ⟨nj, hnj, hnij⟩ := interval_at_equiv h hat
            rw [hnj]
            simp only [Bool.and_eq_true, decide_eq_true_eq] at h5 ⊢
            obtain ⟨⟨⟨c1, c2⟩, c3⟩, c4⟩ := h5
            refine ⟨⟨⟨by rw [contains_equiv hnij]; exact c1, by rw [← hnij.1]; exact c2⟩,
              by rw [← hnij.2.1]; exact c3⟩, ?_⟩
            rw [contains_state_equiv h]
            by_cases hcs : A.contains_state (some target) = true
            · rw [if_pos hcs]
            · rw [if_neg hcs] at c4 ⊢
              simp only [Bool.and_eq_true, decide_eq_true_eq] at c4 ⊢
              obtain ⟨⟨⟨d1, d2⟩, d3⟩, d4⟩ := c4
              refine ⟨⟨⟨?_, by rw [← hnij.1]; exact d2⟩, by rw [← hnij.2.1]; exact d3⟩,
                ih next_in nt d4⟩
              cases hm : A.mem target with
              | none =>
                rw [hm] at d1
                cases d1
              | some st =>
                rw [hm] at d1
                obtain ⟨st', hm', hst⟩ := h.1 target st hm
                rw [hm']
                simp only [decide_eq_true_eq] at d1 ⊢
                rw [← hst.1]
                exact d1

/-- The consistency check passes in a heap that differs only in the order of the tails. -/
theorem check_consistency_equiv {g : globals} {A B : timed_automaton} (h : heap_equiv A B)
    (hcc : check_consistency g A = true) : check_consistency g B = true := by
  unfold check_consistency at hcc ⊢
  rw [List.all_eq_true] at hcc ⊢
  intro state hstate
  rw [h.2.1] at hstate
  have h1 := hcc state hstate
  cases hm : A.mem state with
  | none =>
    rw [hm] at h1
    cases h1
  | some s =>
    rw [hm] at h1
    obtain ⟨s', hm', hss⟩ := h.1 state s hm
    rw [hm']
    simp only [Bool.and_eq_true, decide_eq_true_eq, List.all_eq_true] at h1 ⊢
    refine ⟨by rw [← hss.1]; exact h1.1, fun i hi => ?_⟩
    have h2 := h1.2 i hi
    cases hl : s.get_intervals i with
    | none =>
      rw [hl] at h2
      cases h2
    | some l =>
      rw [hl] at h2
      obtain ⟨l', hl', hll⟩ := get_intervals_equiv hss hl
      rw [hl']
      simp only [Bool.and_eq_true, decide_eq_true_eq, List.all_eq_true,
        Bool.not_eq_true'] at h2 ⊢
      intro e' he'
      obtain ⟨e, he, -, hee⟩ := forall₂_of_mem_right hll he'
      obtain ⟨h3, h4⟩ := h2 e he
      refine ⟨by rw [← hee.2.2.2.2]; exact h3, fun tail htail => ?_⟩
      have htail' : tail ∈ e.2.tails := hee.2.2.1.mem_iff.2 htail
      obtain ⟨⟨⟨⟨c1, c2⟩, c3⟩, c4⟩, c5⟩ := h4 tail htail'
      refine ⟨⟨⟨⟨by rw [← hee.1]; exact c1, by rw [← hee.2.1]; exact c2⟩,
        by rw [contains_equiv hee]; exact c3⟩, by rw [h.2.2]; exact c4⟩, ?_⟩
      cases hnt : tail.next_tail with
      | none => rfl
      | some nt =>
        rw [hnt] at c5
        simp only at c5 ⊢
        have hto : e'.2.get_target = e.2.get_target := hee.2.2.2.1.symm
        rw [hto]
        cases htg : e.2.get_target with
        | none =>
          rw [htg] at c5
          cases c5
        | some target =>
          rw [htg] at c5
          simp only at c5 ⊢
          cases hat : A.interval_at (some target) nt.get_symbol nt.get_time_value with
          | none =>
            rw [hat] at c5
            cases c5
          | some x =>
            obtain ⟨next_in, ni⟩ := x
            rw [hat] at c5
            obtain ⟨nj, hnj, -⟩ := interval_at_equiv h hat
            rw [hnj]
            exact check_next_tail_equiv h _ next_in nt c5

/-! ### The selection returns -/

theorem check_consistency_states {g : globals} {A : timed_automaton}
    (hcc : check_consistency g A = true) {st : Nat} (hst : st ∈ A.states) :
    ∃ s, A.mem st = some s ∧ ∀ i, i < g.MAX_SYMBOL → ∃ l, s.get_intervals i = some l := by
  unfold check_consistency at hcc
  rw [List.all_eq_true] at hcc
  have h1 := hcc st hst
  cases hm : A.mem st with
  | none =>
    rw [hm] at h1
    cases h1
  | some s =>
    rw [hm] at h1
    simp only [Bool.and_eq_true, decide_eq_true_eq, List.all_eq_true] at h1
    refine ⟨s, rfl, fun i hi => ?_⟩
    have h2 := h1.2 i (List.mem_range.2 hi)
    cases hl : s.get_intervals i with
    | none =>
      rw [hl] at h2
      cases h2
    | some l => exact ⟨l, rfl⟩

theorem select_returns {g : globals} {A : timed_automaton}
    (hcc : check_consistency g A = true) : ∃ sel, select g A = some sel := by
  unfold select
  apply foldlM_total
  intro sel i hi
  have hi' : i < A.states.length := List.mem_range.1 hi
  have hgs : A.get_state i = some A.states[i] := List.getElem?_eq_getElem hi'
  obtain ⟨s, hm, hl⟩ := check_consistency_states hcc (List.getElem_mem hi')
  unfold select_state
  rw [hgs, Option.some_bind]
  apply foldlM_total
  intro sel' sy hsy
  obtain ⟨l, hl'⟩ := hl sy (List.mem_range.1 hsy)
  unfold select_symbol
  rw [hm, Option.some_bind, hl']
  exact ⟨_, rfl⟩

end RTI


namespace RTI

/-! ### `get_best_refinements` returns -/

theorem tree_equiv_cells {A B : timed_automaton} :
    ∀ (t t' : state_tree) (p : Option Nat), rep A p t → rep B p t' → tree_equiv t t' →
      ∀ q, q ∈ t.addrs →
        ∃ s s', A.mem q = some s ∧ B.mem q = some s' ∧ state_equiv s s' := by
  intro t
  induction t with
  | null =>
    intro t' p _ _ _ q hq
    exact absurd hq (by simp [state_tree.addrs])
  | node a s kid ih =>
    intro t' p hA hB he q hq
    obtain ⟨s', kid', rfl, hss, hkids⟩ := he
    obtain ⟨-, hmA, hkA⟩ := hA
    obtain ⟨-, hmB, hkB⟩ := hB
    rcases hq with hq | ⟨i, e, hedge, hq⟩
    · rw [hq]
      exact ⟨s, s', hmA, hmB, hss⟩
    · obtain ⟨e', hedge', hk, hee⟩ := is_edge_equiv hss hedge
      have hB' := hkB i e' hedge'
      rw [← hk, ← hee.2.2.2.1] at hB'
      exact ih i e.1 _ e.2.to_ (hkA i e hedge) hB' (hkids i e hedge) q hq

/-- The heap after the tests of the merges in `get_best_refinements` holds the states of the
heap before, up to the order of the tails. -/
theorem merge_fold_equiv {g : globals} {fuel : Nat} {A A1 : timed_automaton}
    {p symbol : Nat} {k : Int} {i : interval} {o : Nat} {t t1 : state_tree} {N : Set Nat}
    (b : tree_below g fuel A p symbol k i o t N)
    (b1 : tree_below g fuel A1 p symbol k i o t1 N) (he : tree_equiv t t1)
    (hframe : ∀ x, x < A.next → x ∉ t.addrs → A1.mem x = A.mem x)
    (hstates : A1.states = A.states) (hmarker : A1.marker = A.marker)
    (hfresh : ∀ r, A.next ≤ r → A.mem r = none) : heap_equiv A A1 := by
  refine ⟨fun q s hq => ?_, hstates, hmarker⟩
  have hlt : q < A.next := by
    by_contra hge
    rw [hfresh q (by omega)] at hq
    cases hq
  by_cases hqt : q ∈ t.addrs
  · obtain ⟨s0, s0', h1, h2, h3⟩ := tree_equiv_cells t t1 (some o) b.tree b1.tree he q hqt
    rw [hq] at h1
    cases h1
    exact ⟨s0', h2, h3⟩
  · exact ⟨s, by rw [hframe q hlt hqt]; exact hq, state_equiv_refl s⟩

/-- The part of `get_best_refinements` behind the selection returns, and it returns the heap
that the tests of the merges have left, when the selected interval lies above a prefix tree,
no tail is marked, the tails of the interval are in the order of a multimap, and they and
their successors are all different. -/
theorem score_refinements_restores {g : globals} (P : p_values) {fuel : Nat}
    {A : timed_automaton} {p symbol state : Nat} {k : Int} {i : interval} {o : Nat}
    {t : state_tree} {N : Set Nat} (b : tree_below g fuel A p symbol k i o t N)
    (hst : A.get_state state = some p) (hcc : check_consistency g A = true)
    (hfresh : ∀ r, A.next ≤ r → A.mem r = none) (hun : ∀ x, A.marker x = false)
    (hsorted : tails_sorted i.tails) (hnd : (i.tails.flatMap chain).Nodup)
    (hne : i.tails ≠ []) :
    ∃ first second A1,
      score_refinements g P fuel A ⟨p, symbol, k⟩ state symbol = some (first, second, A1) ∧
      heap_equiv A A1 := by
  obtain ⟨res, t1, r1, b1, r3, r4, r5, r6, r7, r8, r9⟩ :=
    @merge_fold_below g P fuel p symbol state k i o N
      (List.range A.num_states) ([], A) t b hst (fun j hj => List.mem_range.1 hj)
  obtain ⟨merges, A1⟩ := res
  simp only at b1 r4 r5 r6 r7 r8 r9
  have heq : heap_equiv A A1 := merge_fold_equiv b b1 r3 r5 r7 r8 hfresh
  have hcc1 : check_consistency g A1 = true := check_consistency_equiv heq hcc
  obtain ⟨s, l, hp, hl, hm⟩ := b1.entry
  have hlok : partition_ok g l := (b1.ok p s hp).2 l (mem_of_getElem?_some hl)
  have hread := read_entry hp hl hlok hm
  obtain ⟨x0, hx0⟩ : ∃ x0, i.tails.head? = some x0 := by
    cases hT : i.tails with
    | nil => exact absurd hT hne
    | cons y ys => exact ⟨y, rfl⟩
  have hst1 : A1.get_state state = some p := by
    unfold timed_automaton.get_state at hst ⊢
    rw [r7]
    exact hst
  have hpst : p ∈ A1.states := by
    unfold timed_automaton.get_state at hst1
    exact mem_of_getElem?_some hst1
  have hsym : symbol < g.MAX_SYMBOL := by
    rw [← (b1.ok p s hp).1]
    exact (List.getElem?_eq_some_iff.1 hl).1
  have hbounds : ∀ x, x ∈ i.tails →
      i.begin ≤ x.get_time_value ∧ x.get_time_value ≤ i.end_ := by
    intro x hx
    have := check_consistency_bounds hcc1 hpst hp hsym
      (show s.get_intervals symbol = some l from hl) hm hx
    exact ⟨this.1, this.2.1⟩
  have hun1 : ∀ x, A1.marker x = false := by
    intro x
    rw [r8]
    exact hun x
  obtain ⟨r, hr, hgs, hclear⟩ :=
    split_loop_returns P b1 hst1 hsorted hnd hun1 hbounds hx0
  refine ⟨insert_refinement merges (P.SIGNIFICANCE, ⟨state, -2, symbol, i.end_⟩), r.splits,
    A1, ?_, heq⟩
  unfold score_refinements
  rw [hcc, r1]
  simp only [Bool.not_true, Bool.false_eq_true, if_false, Option.some_bind, hcc1, hread, hx0,
    hr, hgs, hclear]

theorem score_refinements_returns {g : globals} (P : p_values) {fuel : Nat}
    {A : timed_automaton} {p symbol state : Nat} {k : Int} {i : interval} {o : Nat}
    {t : state_tree} {N : Set Nat} (b : tree_below g fuel A p symbol k i o t N)
    (hst : A.get_state state = some p) (hcc : check_consistency g A = true)
    (hfresh : ∀ r, A.next ≤ r → A.mem r = none) (hun : ∀ x, A.marker x = false)
    (hsorted : tails_sorted i.tails) (hnd : (i.tails.flatMap chain).Nodup)
    (hne : i.tails ≠ []) :
    ∃ first second A1,
      score_refinements g P fuel A ⟨p, symbol, k⟩ state symbol = some (first, second, A1) := by
  obtain ⟨first, second, A1, h, -⟩ :=
    score_refinements_restores P b hst hcc hfresh hun hsorted hnd hne
  exact ⟨first, second, A1, h⟩

/-- The function `get_best_refinements` returns when it selects an interval above a prefix
tree. -/
theorem selected_returns {g : globals} (P : p_values) {fuel : Nat} {A : timed_automaton}
    {sel : selection} {p symbol : Nat} {k : Int} {i : interval} {o : Nat} {t : state_tree}
    {N : Set Nat} (hcc : check_consistency g A = true)
    (hmin : 0 ≤ g.MIN_DATA ∧ 2 * g.MIN_DATA < 2 ^ 64)
    (hfresh : ∀ r, A.next ≤ r → A.mem r = none) (hun : ∀ x, A.marker x = false)
    (hsel : select g A = some sel) (hin : sel.in_ = some ⟨p, symbol, k⟩)
    (b : tree_below g fuel A p symbol k i o t N) (hsorted : tails_sorted i.tails)
    (hnd : (i.tails.flatMap chain).Nodup) :
    ∃ first second A', get_best_refinements g P fuel A = some (first, second, A') := by
  obtain ⟨c, hc, hptr, -, -, hs3, hs4⟩ := selected_candidate hsel hin
  have hread := read_candidate b.ok hc
  obtain ⟨s, l, hp, hl, hm⟩ := b.entry
  have hlok : partition_ok g l := (b.ok p s hp).2 l (mem_of_getElem?_some hl)
  have hread' := read_entry hp hl hlok hm
  rw [hptr, hread] at hread'
  have hci : c.iv = i := Option.some.inj hread'
  simp only [interval_ptr.mk.injEq] at hptr
  obtain ⟨h1, h2, h3⟩ := hptr
  unfold get_best_refinements
  rw [hcc, hsel]
  simp only [Bool.not_true, Bool.false_eq_true, if_false, Option.some_bind, hin]
  rw [h1, h2, h3, hread, Option.some_bind, emod_two_min_data hmin]
  by_cases hsmall : (c.iv.tails.length : Int) < 2 * g.MIN_DATA
  · rw [if_pos hsmall]
    exact ⟨_, _, _, rfl⟩
  · rw [if_neg hsmall, hs3, hs4, ← h1, ← h2, ← h3]
    obtain ⟨hgs, -, s', l', -, -, -, -, hemp⟩ := mem_candidates hc
    have hne : i.tails ≠ [] := by
      intro h0
      rw [← hci] at h0
      unfold interval.is_empty at hemp
      rw [h0] at hemp
      cases hemp
    rw [← h1] at hgs
    exact score_refinements_returns P b hgs hcc hfresh hun hsorted hnd hne

/-- The function `get_best_refinements` returns when the consistency check passes at entry, no
tail is marked, nothing lies behind the allocation pointer, and every interval it may select
that holds at least `2 * MIN_DATA` tails lies above a prefix tree, with its tails in the order
of a multimap and with tails and successors that are all different. -/
theorem get_best_refinements_returns (g : globals) (P : p_values) (fuel : Nat)
    (A : timed_automaton) (hcc : check_consistency g A = true) (hok : heap_ok g A)
    (hmin : 0 ≤ g.MIN_DATA ∧ 2 * g.MIN_DATA < 2 ^ 64)
    (hfresh : ∀ r, A.next ≤ r → A.mem r = none) (hun : ∀ x, A.marker x = false)
    (htree : ∀ c, c ∈ candidates g A → 2 * g.MIN_DATA ≤ (c.iv.tails.length : Int) →
      ∃ o t N, tree_below g fuel A c.state c.symbol c.key c.iv o t N ∧
        tails_sorted c.iv.tails ∧ (c.iv.tails.flatMap chain).Nodup) :
    ∃ first second A', get_best_refinements g P fuel A = some (first, second, A') := by
  obtain ⟨sel, hsel⟩ := select_returns hcc
  unfold get_best_refinements
  rw [hcc, hsel]
  simp only [Bool.not_true, Bool.false_eq_true, if_false, Option.some_bind]
  cases hin : sel.in_ with
  | none => exact ⟨_, _, _, rfl⟩
  | some in_ =>
    simp only
    obtain ⟨c, hc, hptr, -, -, hs3, hs4⟩ := selected_candidate hsel hin
    have hread := read_candidate hok hc
    rw [hptr, hread, Option.some_bind, emod_two_min_data hmin]
    by_cases hsmall : (c.iv.tails.length : Int) < 2 * g.MIN_DATA
    · rw [if_pos hsmall]
      exact ⟨_, _, _, rfl⟩
    · rw [if_neg hsmall, hs3, hs4]
      obtain ⟨o, t, N, b, hsorted, hnd⟩ := htree c hc (by omega)
      obtain ⟨hgs, -, s, l, -, -, -, -, hemp⟩ := mem_candidates hc
      have hne : c.iv.tails ≠ [] := by
        intro h0
        unfold interval.is_empty at hemp
        rw [h0] at hemp
        cases hemp
      exact score_refinements_returns P b hgs hcc hfresh hun hsorted hnd hne

theorem heap_equiv_refl (A : timed_automaton) : heap_equiv A A :=
  ⟨fun _ s hs => ⟨s, hs, state_equiv_refl s⟩, rfl, rfl⟩

/-- The function `get_best_refinements` returns, under the conditions of
`get_best_refinements_returns`, a heap that holds the states of the heap before, up to the
order of the tails, with the same colored states and the same markers. -/
theorem get_best_refinements_restores (g : globals) (P : p_values) (fuel : Nat)
    (A : timed_automaton) (hcc : check_consistency g A = true) (hok : heap_ok g A)
    (hmin : 0 ≤ g.MIN_DATA ∧ 2 * g.MIN_DATA < 2 ^ 64)
    (hfresh : ∀ r, A.next ≤ r → A.mem r = none) (hun : ∀ x, A.marker x = false)
    (htree : ∀ c, c ∈ candidates g A → 2 * g.MIN_DATA ≤ (c.iv.tails.length : Int) →
      ∃ o t N, tree_below g fuel A c.state c.symbol c.key c.iv o t N ∧
        tails_sorted c.iv.tails ∧ (c.iv.tails.flatMap chain).Nodup) :
    ∃ first second A', get_best_refinements g P fuel A = some (first, second, A') ∧
      heap_equiv A A' := by
  obtain ⟨sel, hsel⟩ := select_returns hcc
  unfold get_best_refinements
  rw [hcc, hsel]
  simp only [Bool.not_true, Bool.false_eq_true, if_false, Option.some_bind]
  cases hin : sel.in_ with
  | none => exact ⟨_, _, _, rfl, heap_equiv_refl A⟩
  | some in_ =>
    simp only
    obtain ⟨c, hc, hptr, -, -, hs3, hs4⟩ := selected_candidate hsel hin
    have hread := read_candidate hok hc
    rw [hptr, hread, Option.some_bind, emod_two_min_data hmin]
    by_cases hsmall : (c.iv.tails.length : Int) < 2 * g.MIN_DATA
    · rw [if_pos hsmall]
      exact ⟨_, _, _, rfl, heap_equiv_refl A⟩
    · rw [if_neg hsmall, hs3, hs4]
      obtain ⟨o, t, N, b, hsorted, hnd⟩ := htree c hc (by omega)
      obtain ⟨hgs, -, s, l, -, -, -, -, hemp⟩ := mem_candidates hc
      have hne : c.iv.tails ≠ [] := by
        intro h0
        unfold interval.is_empty at hemp
        rw [h0] at hemp
        cases hemp
      exact score_refinements_restores P b hgs hcc hfresh hun hsorted hnd hne

end RTI


namespace RTI

/-! ### The prefix tree with two colored states -/

/-- The automaton `long_tree` is the prefix tree of `long_words` after the refinement that
colors the state below the root. -/
theorem long_tree_of_input :
    ((tree_of_input small_globals 5 long_words).bind (fun A =>
      refinement.refine small_globals 5 A ⟨0, -2, 0, 10⟩)).map
        (fun A => ((List.range 5).map A.mem, A.next, A.states, A.root))
      = some ((List.range 5).map long_tree.mem, long_tree.next, long_tree.states,
          long_tree.root) := by
  rfl

theorem long_symbol {i : Nat} (hi : i < example_globals.MAX_SYMBOL) : i = 0 := by
  have : example_globals.MAX_SYMBOL = 1 := rfl
  omega

theorem long_grandchild_unsplit : long_grandchild.unsplit example_globals := by
  refine ⟨rfl, fun i hi => ?_⟩
  rw [long_symbol hi]
  exact ⟨_, rfl⟩

theorem long_child_unsplit : long_child.unsplit example_globals := by
  refine ⟨rfl, fun i hi => ?_⟩
  rw [long_symbol hi]
  exact ⟨_, rfl⟩

theorem long_root_unsplit : long_root.unsplit example_globals := by
  refine ⟨rfl, fun i hi => ?_⟩
  rw [long_symbol hi]
  exact ⟨_, rfl⟩

theorem long_tree_mem (r : Nat) :
    long_tree.mem r =
      if r = 0 then some long_root
      else if r = 1 then some long_child
      else if r = 2 then some long_grandchild
      else if r = 3 then some (timed_state.new example_globals)
      else none := rfl

theorem long_tree_fresh : ∀ r, long_tree.next ≤ r → long_tree.mem r = none := by
  intro r hr
  have h4 : long_tree.next = 4 := rfl
  have h0 : r ≠ 0 := by omega
  have h1 : r ≠ 1 := by omega
  have h2 : r ≠ 2 := by omega
  have h3 : r ≠ 3 := by omega
  simp [long_tree_mem, h0, h1, h2, h3]

theorem long_tree_heap_ok : heap_ok example_globals long_tree := by
  intro r s hr
  rw [long_tree_mem] at hr
  split at hr
  · cases hr
    exact ⟨rfl, by decide⟩
  · split at hr
    · cases hr
      exact ⟨rfl, by decide⟩
    · split at hr
      · cases hr
        exact ⟨rfl, by decide⟩
      · split at hr
        · cases hr
          exact ⟨rfl, by decide⟩
        · cases hr

theorem long_tree_rep : rep long_tree (some 2) long_state_tree := by
  refine (rep_unsplit long_grandchild_unsplit).2 ⟨rfl, rfl, fun i hi => ?_⟩
  rw [long_symbol hi]
  refine (rep_unsplit (timed_state.new_unsplit example_globals)).2 ⟨rfl, rfl, fun j hj => ?_⟩
  rw [timed_state.new_iv example_globals hj]
  rfl

theorem long_tree_addrs {r : Nat} (h : r ∈ long_state_tree.addrs) : r = 2 ∨ r = 3 := by
  rcases (mem_addrs_unsplit long_grandchild_unsplit).1 h with h | ⟨_, _, h⟩
  · exact Or.inl h
  · rcases (mem_addrs_unsplit (timed_state.new_unsplit example_globals)).1 h with h | ⟨_, _, h⟩
    · exact Or.inr h
    · exact absurd h (by simp [state_tree.addrs])

theorem long_tree_wf : long_state_tree.wf := by
  refine (wf_unsplit long_grandchild_unsplit).2 ⟨fun i _ => ⟨?_, ?_⟩, fun i j hi hj hij => ?_⟩
  · intro h
    rcases (mem_addrs_unsplit (timed_state.new_unsplit example_globals)).1 h with h | ⟨_, _, h⟩
    · cases h
    · exact h
  · refine (wf_unsplit (timed_state.new_unsplit example_globals)).2
      ⟨fun _ _ => ⟨fun h => h, trivial⟩, fun _ _ _ _ _ => ?_⟩
    simp [state_tree.addrs]
  · have := long_symbol hi
    have := long_symbol hj
    omega

theorem long_tree_placed : long_state_tree.placed example_globals long_child_interval.tails := by
  refine ⟨long_grandchild_unsplit, by decide, fun x => ?_, fun i hi => ?_⟩
  · have h1 : nexts long_child_interval.tails
        = [⟨1, 2, [(0, 4), (2, 11)]⟩, ⟨0, 2, [(0, 2), (2, 6)]⟩] := by decide
    rw [h1]
    by_cases hx : x.get_symbol = 0
    · rw [hx]
      exact le_of_eq ((List.Perm.swap _ _ _).count_eq x)
    · have h2 : x ≠ ⟨1, 2, [(0, 4), (2, 11)]⟩ := fun h => hx (by rw [h]; rfl)
      have h3 : x ≠ ⟨0, 2, [(0, 2), (2, 6)]⟩ := fun h => hx (by rw [h]; rfl)
      simp [List.count_cons, h2.symm, h3.symm]
  · rw [long_symbol hi]
    refine ⟨timed_state.new_unsplit example_globals, by decide, fun x => ?_, fun j hj => ?_⟩
    · have h1 : nexts (long_grandchild.iv 0).tails = [] := by decide
      rw [h1]
      simp
    · rw [timed_state.new_iv example_globals hj]
      rfl

theorem long_tree_fits : long_state_tree.fits 2 :=
  (fits_unsplit long_grandchild_unsplit).2 ⟨1, rfl, fun _ _ =>
    (fits_unsplit (timed_state.new_unsplit example_globals)).2 ⟨0, rfl, fun _ _ => trivial⟩⟩

theorem long_root_edge {i' : Nat} {e : Int × interval} (h : is_edge long_root i' e) :
    e.2.to_ = some 1 := by
  obtain ⟨hi, he⟩ := (timed_state.unsplit_is_edge long_root_unsplit).1 h
  rw [he, long_symbol hi]
  rfl

theorem long_child_edge {i' : Nat} {e : Int × interval} (h : is_edge long_child i' e) :
    i' = 0 ∧ e.1 = 10 := by
  obtain ⟨hi, he⟩ := (timed_state.unsplit_is_edge long_child_unsplit).1 h
  rw [he]
  exact ⟨long_symbol hi, rfl⟩

/-- In `long_tree` the interval of the colored state 1 lies above the prefix tree
`long_state_tree`. -/
theorem long_tree_below :
    tree_below small_globals 5 long_tree 1 0 10 long_child_interval 2 long_state_tree
      {0, 1} :=
  { ok := heap_ok_of_globals rfl rfl rfl long_tree_heap_ok
    entry := ⟨long_child, _, rfl, rfl, List.mem_singleton.2 rfl⟩
    target := rfl
    tree := long_tree_rep
    wf := long_tree_wf
    placed := placed_of_globals rfl rfl _ _ long_tree_placed
    fits := fits_mono long_tree_fits (by decide)
    apart := fun h => by
      rcases long_tree_addrs h with h | h <;> cases h
    old := fun r hr => by
      have h4 : long_tree.next = 4 := rfl
      rcases long_tree_addrs hr with h | h <;> omega
    lt := by decide
    colored := fun r hr => by
      have : long_tree.states = [0, 1] := rfl
      rw [this] at hr
      simpa using hr
    side := fun r hr => by
      have h4 : long_tree.next = 4 := rfl
      have hr' : r = 0 ∨ r = 1 := by simpa using hr
      refine ⟨fun h => ?_, by omega⟩
      rcases long_tree_addrs h with h | h <;> omega
    shut := fun r hr => by
      have hr' : r = 0 ∨ r = 1 := by simpa using hr
      rcases hr' with rfl | rfl
      · refine ⟨long_root, rfl, fun i' e he _ n' hn' => ?_⟩
        rw [long_root_edge he] at hn'
        cases hn'
        simp
      · refine ⟨long_child, rfl, fun i' e he hne => ?_⟩
        obtain ⟨h1, h2⟩ := long_child_edge he
        exact absurd (by rw [h1, h2]) hne }

end RTI


namespace RTI

/-! ### C16: the interval that `get_best_refinements` works on -/

theorem example_candidates :
    candidates small_globals example_tree = [⟨0, 0, 0, 10, example_root_interval⟩] := rfl

theorem example_candidate_below (c : candidate) (hc : c ∈ candidates small_globals example_tree)
    (_ : 2 * small_globals.MIN_DATA ≤ (c.iv.tails.length : Int)) :
    ∃ o t N, tree_below small_globals 5 example_tree c.state c.symbol c.key c.iv o t N ∧
      tails_sorted c.iv.tails ∧ (c.iv.tails.flatMap chain).Nodup := by
  rw [example_candidates, List.mem_singleton] at hc
  subst hc
  exact ⟨1, example_state_tree, {0}, example_tree_below,
    List.pairwise_cons.2 ⟨by decide, List.pairwise_singleton _ _⟩, by decide⟩

/-- C16: let the consistency check pass in the automaton `A`, in which the partitions are
covers, no tail is marked and nothing lies behind the allocation pointer, and let every
interval that may be selected and holds at least `2 * MIN_DATA` tails lie above a prefix tree,
with its tails in the order of a multimap and with tails and successors that are all
different. Then `get_best_refinements` returns. The candidates are the non-empty intervals of
the colored states whose target is not a colored state (a null target is not colored), in the
order of the state numbers, the symbols and the partitions. The interval selected is the
first one of the candidates with the largest number of tails. Both sets returned are empty
exactly when there is no candidate or the selected candidate has fewer than `2 * MIN_DATA`
tails; so every refinement returned carries the state number and the symbol of the selected
candidate, which has at least `2 * MIN_DATA` tails. -/
theorem selection_returned (g : globals) (P : p_values) (fuel : Nat) (A : timed_automaton)
    (hcc : check_consistency g A = true) (hok : heap_ok g A)
    (hmin : 0 ≤ g.MIN_DATA ∧ 2 * g.MIN_DATA < 2 ^ 64)
    (hfresh : ∀ r, A.next ≤ r → A.mem r = none) (hun : ∀ x, A.marker x = false)
    (htree : ∀ c, c ∈ candidates g A → 2 * g.MIN_DATA ≤ (c.iv.tails.length : Int) →
      ∃ o t N, tree_below g fuel A c.state c.symbol c.key c.iv o t N ∧
        tails_sorted c.iv.tails ∧ (c.iv.tails.flatMap chain).Nodup) :
    ∃ first second A' sel, get_best_refinements g P fuel A = some (first, second, A') ∧
      select g A = some sel ∧ first_largest (candidates g A) sel ∧
      ((first = [] ∧ second = []) ↔
        (candidates g A = [] ∨
          ∃ c, c ∈ candidates g A ∧ sel.in_ = some ⟨c.state, c.symbol, c.key⟩ ∧
            (c.iv.tails.length : Int) < 2 * g.MIN_DATA)) ∧
      ∀ x, x ∈ first ∨ x ∈ second →
        ∃ c, c ∈ candidates g A ∧ sel.in_ = some ⟨c.state, c.symbol, c.key⟩ ∧
          A.read ⟨c.state, c.symbol, c.key⟩ = some c.iv ∧
          2 * g.MIN_DATA ≤ (c.iv.tails.length : Int) ∧
          x.2.state = (c.number : Int) ∧ x.2.symbol = (c.symbol : Int) := by
  obtain ⟨first, second, A', h⟩ :=
    get_best_refinements_returns g P fuel A hcc hok hmin hfresh hun htree
  obtain ⟨sel, h1, h2, h3, h4⟩ := selection_spec g P fuel A A' first second h hok hmin
  exact ⟨first, second, A', sel, h, h1, h2, h3, h4⟩

/-- The witness of C16: in the prefix tree `example_tree` of the words `(0, 1) (0, 3)` and
`(0, 5) (0, 2)`, with `MIN_DATA = 1`, the only candidate is the interval of the root, with two
tails; `get_best_refinements` returns the color refinement and the split at the time 1. -/
theorem selection_returned_witness :
    ∃ first second A' sel,
      get_best_refinements small_globals example_p_values 5 example_tree
        = some (first, second, A') ∧
      select small_globals example_tree = some sel ∧
      first_largest (candidates small_globals example_tree) sel ∧
      first = [(1, ⟨0, -2, 0, 10⟩)] ∧ second = [(0, ⟨0, -1, 0, 1⟩)] := by
  obtain ⟨first, second, A', sel, h1, h2, h3, -⟩ :=
    selection_returned small_globals example_p_values 5 example_tree rfl
      (heap_ok_of_globals rfl rfl rfl example_tree_heap_ok) (by decide) example_tree_fresh
      (fun _ => rfl) example_candidate_below
  have e : ∃ B, get_best_refinements small_globals example_p_values 5 example_tree
      = some ([(1, ⟨0, -2, 0, 10⟩)], [(0, ⟨0, -1, 0, 1⟩)], B) := ⟨_, rfl⟩
  obtain ⟨B, hB⟩ := e
  rw [hB] at h1
  simp only [Option.some.injEq, Prod.mk.injEq] at h1
  exact ⟨first, second, A', sel, by rw [hB, ← h1.1, ← h1.2.1, ← h1.2.2], h2, h3,
    h1.1.symm, h1.2.1.symm⟩

end RTI


namespace RTI

/-! ### C17: the merge set holds the color refinement -/

/-- C17: let the consistency check pass in the automaton `A`, in which the partitions are
covers, no tail is marked and nothing lies behind the allocation pointer, and let every
interval that may be selected and holds at least `2 * MIN_DATA` tails lie above a prefix tree,
with its tails in the order of a multimap and with tails and successors that are all
different. Then `get_best_refinements` returns a merge set `first` and a split set `second`.
When it has selected the interval `i` and `i` holds at least `2 * MIN_DATA` tails, the
entries of `first` with the target code `-2` are the one color refinement of the state, the
symbol and the end of `i`, keyed by `SIGNIFICANCE`. In every case `first` is non-empty when
`second` is, and `greedy`, which runs when not both sets are empty, finds a refinement: it
does not read the first element of an empty merge set. -/
theorem color_refinement_returned (g : globals) (P : p_values) (fuel : Nat)
    (A : timed_automaton) (hcc : check_consistency g A = true) (hok : heap_ok g A)
    (hmin : 0 ≤ g.MIN_DATA ∧ 2 * g.MIN_DATA < 2 ^ 64)
    (hfresh : ∀ r, A.next ≤ r → A.mem r = none) (hun : ∀ x, A.marker x = false)
    (htree : ∀ c, c ∈ candidates g A → 2 * g.MIN_DATA ≤ (c.iv.tails.length : Int) →
      ∃ o t N, tree_below g fuel A c.state c.symbol c.key c.iv o t N ∧
        tails_sorted c.iv.tails ∧ (c.iv.tails.flatMap chain).Nodup) :
    ∃ first second A', get_best_refinements g P fuel A = some (first, second, A') ∧
      (∀ (sel : selection) (in_ : interval_ptr) (i : interval), select g A = some sel →
        sel.in_ = some in_ → A.read in_ = some i → 2 * g.MIN_DATA ≤ i.tails.length →
        first.filter (fun x => decide (x.2.target = -2))
          = [(P.SIGNIFICANCE, ⟨sel.state, -2, sel.symbol, i.end_⟩)]) ∧
      (second ≠ [] → first ≠ []) ∧
      (¬ (first = [] ∧ second = []) → ∃ r, greedy_choice P first second = some r) := by
  obtain ⟨first, second, A', h⟩ :=
    get_best_refinements_returns g P fuel A hcc hok hmin hfresh hun htree
  exact ⟨first, second, A', h, color_refinement_unique g P fuel A A' first second h hok hmin⟩

/-- The witness of C17: in the prefix tree of the words `(0, 1) (0, 3)` and `(0, 5) (0, 2)`,
with `MIN_DATA = 1`, the merge set returned is the color refinement of the interval of the
root, and `greedy` finds a refinement. -/
theorem color_refinement_returned_witness :
    ∃ first second A',
      get_best_refinements small_globals example_p_values 5 example_tree
        = some (first, second, A') ∧
      first.filter (fun x => decide (x.2.target = -2)) = [(1, ⟨0, -2, 0, 10⟩)] ∧
      (second ≠ [] → first ≠ []) ∧
      ∃ r, greedy_choice example_p_values first second = some r := by
  obtain ⟨first, second, A', h1, h2, h3, h4⟩ :=
    color_refinement_returned small_globals example_p_values 5 example_tree rfl
      (heap_ok_of_globals rfl rfl rfl example_tree_heap_ok) (by decide) example_tree_fresh
      (fun _ => rfl) example_candidate_below
  have hf := h2 { in_ := some ⟨0, 0, 10⟩, state := 0, symbol := 0, max_size := 2 } ⟨0, 0, 10⟩
    example_root_interval rfl rfl rfl (by decide)
  refine ⟨first, second, A', h1, hf, h3, h4 (fun hc => ?_)⟩
  rw [hc.1] at hf
  cases hf

end RTI


namespace RTI

/-! ### C19: the times at which `test_split` is called -/

/-- C19: let the consistency check pass in the automaton `A`, in which no tail is marked and
nothing lies behind the allocation pointer, and let `get_best_refinements` select the
interval `i` (key `k`, partition for `symbol` of the state at `p`) with at least
`2 * MIN_DATA` tails, above a prefix tree, with its tails in the order of a multimap and
with tails and successors that are all different. Then `get_best_refinements` returns, the
loop over the tails runs on the interval as selected, and it is the sequence of the calls of
`test_split` at the times `call_times`, in this order, whose results are collected in the
split set `second`. These times ascend strictly; they are the times of the tails of `i` but
the largest; each one lies in `[begin, end)` of `i` and has a tail of `i` at or before it and
a tail behind it. Every entry of `second` is a split of the selected state and symbol at one
of these times. -/
theorem split_calls_returned (g : globals) (P : p_values) (fuel : Nat) (A : timed_automaton)
    (sel : selection) (p symbol : Nat) (k : Int) (i : interval) (o : Nat) (t : state_tree)
    (N : Set Nat) (hcc : check_consistency g A = true)
    (hmin : 0 ≤ g.MIN_DATA ∧ 2 * g.MIN_DATA < 2 ^ 64)
    (hfresh : ∀ r, A.next ≤ r → A.mem r = none) (hun : ∀ x, A.marker x = false)
    (hsel : select g A = some sel) (hin : sel.in_ = some ⟨p, symbol, k⟩)
    (hsize : 2 * g.MIN_DATA ≤ i.tails.length)
    (hb : tree_below g fuel A p symbol k i o t N) (hsorted : tails_sorted i.tails)
    (hnd : (i.tails.flatMap chain).Nodup) :
    ∃ (first second : refinement_set) (A' : timed_automaton) (x0 : timed_tail)
      (A1 B : timed_automaton),
      get_best_refinements g P fuel A = some (first, second, A') ∧
      i.tails.head? = some x0 ∧ A1.read ⟨p, symbol, k⟩ = some i ∧
      (call_times x0.get_time_value i.tails).foldlM
        (split_step g P fuel sel.state.toNat symbol) ([], A1) = some (second, B) ∧
      (call_times x0.get_time_value i.tails).Pairwise (fun a b => a < b) ∧
      (∀ u, u ∈ call_times x0.get_time_value i.tails ↔
        (∃ x, x ∈ i.tails ∧ x.get_time_value = u) ∧ ∃ y, y ∈ i.tails ∧ u < y.get_time_value) ∧
      (∀ u, u ∈ call_times x0.get_time_value i.tails →
        i.begin ≤ u ∧ u < i.end_ ∧ tails_upto i.tails u ≠ [] ∧ tails_after i.tails u ≠ []) ∧
      ∀ x, x ∈ second → x.2.target = -1 ∧ x.2.state = sel.state ∧ x.2.symbol = sel.symbol ∧
        x.2.time ∈ call_times x0.get_time_value i.tails := by
  obtain ⟨first, second, A', h⟩ :=
    selected_returns P hcc hmin hfresh hun hsel hin hb hsorted hnd
  obtain ⟨x0, A1, B, q⟩ :=
    split_calls_spec g P fuel A A' first second sel p symbol k i o t N h hmin hsel hin hsize
      hb hsorted
  exact ⟨first, second, A', x0, A1, B, h, q⟩

/-- The witness of C19: in the prefix tree of the words `(0, 1) (0, 3)` and `(0, 5) (0, 2)`,
with `MIN_DATA = 1`, the interval of the root holds the tails with the times 1 and 5, and
`test_split` is called at the time 1. -/
theorem split_calls_returned_witness :
    ∃ (first second : refinement_set) (A' : timed_automaton) (x0 : timed_tail)
      (A1 B : timed_automaton),
      get_best_refinements small_globals example_p_values 5 example_tree
        = some (first, second, A') ∧
      example_root_interval.tails.head? = some x0 ∧
      A1.read ⟨0, 0, 10⟩ = some example_root_interval ∧
      (call_times x0.get_time_value example_root_interval.tails).foldlM
        (split_step small_globals example_p_values 5 0 0) ([], A1) = some (second, B) ∧
      call_times x0.get_time_value example_root_interval.tails = [1] := by
  obtain ⟨first, second, A', x0, A1, B, h1, h2, h3, h4, -⟩ :=
    split_calls_returned small_globals example_p_values 5 example_tree
      { in_ := some ⟨0, 0, 10⟩, state := 0, symbol := 0, max_size := 2 } 0 0 10
      example_root_interval 1 example_state_tree {0} rfl (by decide) example_tree_fresh
      (fun _ => rfl) rfl rfl (by decide) example_tree_below
      (List.pairwise_cons.2 ⟨by decide, List.pairwise_singleton _ _⟩) (by decide)
  refine ⟨first, second, A', x0, A1, B, h1, h2, h3, h4, ?_⟩
  have e : x0 = ⟨0, 0, [(0, 1), (0, 3), (2, 4)]⟩ := by
    have h0 : example_root_interval.tails.head?
        = some ⟨0, 0, [(0, 1), (0, 3), (2, 4)]⟩ := rfl
    rw [h0] at h2
    exact (Option.some.inj h2).symm
  rw [e]
  decide

end RTI


namespace RTI

/-! ### C18: the merge refinements and their p-values -/

/-- C18: let the consistency check pass in the automaton `A`, in which no tail is marked and
nothing lies behind the allocation pointer, and let `get_best_refinements` select the
interval `i` (key `k`, partition for `symbol` of the state at `p`) with at least
`2 * MIN_DATA` tails, above a prefix tree, with its tails in the order of a multimap and
with tails and successors that are all different. Then `get_best_refinements` returns a
merge set `first`; `test_point` was called once for every colored state other than the
root, in the order of the state numbers (the list `rs` of the numbers with the p-values
returned), and `first` holds, besides the color refinement, exactly one merge refinement for
every such state whose p-value is not `-1`, keyed by that p-value. No entry has the root as
target, and a state with the p-value `-1` has no entry. -/
theorem merge_refinements_returned (g : globals) (P : p_values) (fuel : Nat)
    (A : timed_automaton) (sel : selection) (p symbol : Nat) (k : Int) (i : interval)
    (o : Nat) (t : state_tree) (N : Set Nat) (hcc : check_consistency g A = true)
    (hmin : 0 ≤ g.MIN_DATA ∧ 2 * g.MIN_DATA < 2 ^ 64)
    (hfresh : ∀ r, A.next ≤ r → A.mem r = none) (hun : ∀ x, A.marker x = false)
    (hsel : select g A = some sel) (hin : sel.in_ = some ⟨p, symbol, k⟩)
    (hsize : 2 * g.MIN_DATA ≤ i.tails.length)
    (hb : tree_below g fuel A p symbol k i o t N) (hsorted : tails_sorted i.tails)
    (hnd : (i.tails.flatMap chain).Nodup) :
    ∃ (first second : refinement_set) (A' : timed_automaton) (rs : List (Nat × ℚ))
      (A1 : timed_automaton),
      get_best_refinements g P fuel A = some (first, second, A') ∧
      merge_scores g P fuel p sel.symbol.toNat i.end_ A (List.range A.num_states)
        = some (rs, A1) ∧
      rs.map Prod.fst = (List.range A.num_states).filter
        (fun j => decide (A.get_state j ≠ some A.root)) ∧
      first.Perm ((P.SIGNIFICANCE, ⟨sel.state, -2, sel.symbol, i.end_⟩) ::
        (rs.filter (fun r => decide (r.2 ≠ -1))).map
          (merge_entry sel.state.toNat sel.symbol.toNat i.end_)) := by
  obtain ⟨first, second, A', h⟩ :=
    selected_returns P hcc hmin hfresh hun hsel hin hb hsorted hnd
  obtain ⟨s, l, hp, hl, hm⟩ := hb.entry
  have hlok : partition_ok g l := (hb.ok p s hp).2 l (mem_of_getElem?_some hl)
  have hi := read_entry hp hl hlok hm
  obtain ⟨rs, A1, q⟩ :=
    merge_refinements_scored g P fuel A A' first second sel ⟨p, symbol, k⟩ i h hb.ok hmin hsel
      hin hi hsize
  exact ⟨first, second, A', rs, A1, h, q⟩

/-- The witness of C18: in the prefix tree of the words `(0, 1) (0, 3) (0, 2)` and
`(0, 5) (0, 2) (0, 4)` the state below the root is colored. With `MIN_DATA = 1`,
`get_best_refinements` selects its interval, `test_point` is called for the colored state 1
and returns the p-value 0, and the merge set holds the color refinement and the merge
refinement of the state 1, keyed by 0. -/
theorem merge_refinements_returned_witness :
    ∃ (first second : refinement_set) (A' A1 : timed_automaton),
      get_best_refinements small_globals example_p_values 5 long_tree
        = some (first, second, A') ∧
      merge_scores small_globals example_p_values 5 1 0 10 long_tree
        (List.range long_tree.num_states) = some ([(1, 0)], A1) ∧
      first.Perm [(1, ⟨1, -2, 0, 10⟩), (0, ⟨1, 1, 0, 10⟩)] := by
  obtain ⟨first, second, A', rs, A1, h1, h2, -, h4⟩ :=
    merge_refinements_returned small_globals example_p_values 5 long_tree
      { in_ := some ⟨1, 0, 10⟩, state := 1, symbol := 0, max_size := 2 } 1 0 10
      long_child_interval 2 long_state_tree {0, 1} rfl (by decide) long_tree_fresh
      (fun _ => rfl) rfl rfl (by decide) long_tree_below
      (List.pairwise_cons.2 ⟨by decide, List.pairwise_singleton _ _⟩) (by decide)
  have e : ∃ B, merge_scores small_globals example_p_values 5 1 0 10 long_tree
      (List.range long_tree.num_states) = some ([(1, 0)], B) := ⟨_, rfl⟩
  obtain ⟨B, hB⟩ := e
  have h2' : merge_scores small_globals example_p_values 5 1 0 10 long_tree
      (List.range long_tree.num_states) = some (rs, A1) := h2
  rw [hB] at h2'
  simp only [Option.some.injEq, Prod.mk.injEq] at h2'
  rw [← h2'.1] at h4
  exact ⟨first, second, A', B, h1, hB, h4⟩

end RTI


namespace RTI

/-! ### One round of `recurse_merge` returns -/

theorem store_mem_self (A : timed_automaton) (p : Nat) (s : timed_state) :
    (A.store p s).mem p = some s := by
  simp [timed_automaton.store]

theorem store_mem_other (A : timed_automaton) (p : Nat) (s : timed_state) {q : Nat}
    (h : q ≠ p) : (A.store p s).mem q = A.mem q := by
  simp [timed_automaton.store, h]

theorem is_empty_eq_false {x : interval} (h : x.tails ≠ []) : x.is_empty = false := by
  unfold interval.is_empty
  cases hT : x.tails with
  | nil => exact absurd hT h
  | cons y ys => rfl

theorem is_empty_eq_true {x : interval} (h : x.tails = []) : x.is_empty = true := by
  unfold interval.is_empty
  rw [h]
  rfl

/-- One round of the inner loop of `recurse_merge` returns, when the entries at its position
have the same bounds and the recursion, where it is called, returns and leaves the old and
the new target alone; `R` is the list of the calls of the recursion. -/
theorem merge_round_returns
    {rec : timed_automaton → Option Nat → Option Nat → Option visits}
    {g : globals} {o n i j : Nat} {c : visits} {lo ln : interval_set}
    {so0 sn0 so_c sn_c : timed_state} {eo en : Int × interval} (R : List (Nat × Nat))
    (hon : o ≠ n) (hko : (lo.map Prod.fst).Nodup) (hkn : (ln.map Prod.fst).Nodup)
    (hmo : c.1.mem o = some so_c) (hmn : c.1.mem n = some sn_c)
    (hI : rounds_done g i j lo ln so0 sn0 so_c sn_c)
    (heo : lo[j]? = some eo) (hen : ln[j]? = some en)
    (hb : eo.2.end_ = en.2.end_ ∧ eo.2.begin = en.2.begin)
    (hrec : eo.2.tails ≠ [] → en.2.tails ≠ [] →
      ∃ r, rec c.1 eo.2.to_ en.2.to_ = some r ∧ r.2 = R ∧ r.1.mem o = c.1.mem o ∧
        r.1.mem n = c.1.mem n)
    (hR : ¬ (eo.2.tails ≠ [] ∧ en.2.tails ≠ []) → R = []) :
    ∃ c', merge_round rec g o n i c j = some c' ∧ c'.2 = c.2 ++ R := by
  obtain ⟨ko, io⟩ := eo
  obtain ⟨kn, jn⟩ := en
  simp only at hb hrec hR
  obtain ⟨lo_c, ln_c, hlo_c, hln_c, hM⟩ := hI.here
  have hj1 : lo_c[j]? = some (ko, io) := by rw [(hM.rest j (le_refl _)).1]; exact heo
  have hj2 : ln_c[j]? = some (kn, jn) := by rw [(hM.rest j (le_refl _)).2]; exact hen
  have hko_c : (lo_c.map Prod.fst).Nodup := by rw [hM.keys_old]; exact hko
  have hkn_c : (ln_c.map Prod.fst).Nodup := by rw [hM.keys_new]; exact hkn
  unfold merge_round
  rw [nth_entry_at hmo hlo_c hj1, nth_entry_at hmn hln_c hj2]
  simp only [Option.some_bind]
  rw [if_neg (by rw [hb.1, hb.2]; simp)]
  by_cases he : io.tails = []
  · rw [is_empty_eq_true he]
    simp only [Bool.not_true, Bool.false_eq_true, if_false]
    exact ⟨c, rfl, by rw [hR (fun h => h.1 he), List.append_nil]⟩
  · rw [is_empty_eq_false he]
    simp only [Bool.not_false, if_true]
    by_cases hne : jn.tails = []
    · -- the new interval takes the target over
      rw [is_empty_eq_true hne]
      simp only [Bool.not_true, Bool.false_eq_true, if_false]
      have hR0 : R = [] := hR (fun h => h.2 hne)
      rw [write_eq hmn, Option.some_bind]
      have h1o : ((c.1.store n (sn_c.update i kn
          (fun x => { x with to_ := io.to_ }))).mem o) = some so_c := by
        rw [store_mem_other _ _ _ hon]
        exact hmo
      rw [write_eq h1o, Option.map_some', Option.some_bind]
      simp only
      obtain ⟨-, -, -, lo', v4, v5, v6⟩ :=
        update_at (fun x => { x with to_ := none }) hlo_c hko_c hj1
      have hrd := @read_at _ o i j _ _ ko _ (store_mem_self
        (c.1.store n (sn_c.update i kn (fun x => { x with to_ := io.to_ }))) o
        (so_c.update i ko (fun x => { x with to_ := none }))) v4 (by rw [v5]; exact hko_c)
        (by rw [v6 j, if_pos rfl])
      rw [hrd, Option.some_bind]
      have h2n : (((c.1.store n (sn_c.update i kn
          (fun x => { x with to_ := io.to_ }))).store o
            (so_c.update i ko (fun x => { x with to_ := none }))).mem n) =
          some (sn_c.update i kn (fun x => { x with to_ := io.to_ })) := by
        rw [store_mem_other _ _ _ (Ne.symm hon), store_mem_self]
      rw [write_eq h2n, Option.some_bind, update_stat_eq (store_mem_self _ _ _),
        Option.map_some']
      exact ⟨_, rfl, by rw [hR0, List.append_nil]⟩
    · -- the recursion is called
      rw [is_empty_eq_false hne]
      simp only [Bool.not_false, if_true]
      obtain ⟨r, hr, hr2, hro, hrn⟩ := hrec he hne
      rw [hr, Option.map_some', Option.some_bind]
      simp only
      have hrd := @read_at _ o i j _ _ ko _ (hro.trans hmo) hlo_c hko_c hj1
      rw [hrd, Option.some_bind, write_eq (hrn.trans hmn), Option.some_bind,
        update_stat_eq (store_mem_self _ _ _), Option.map_some']
      exact ⟨_, rfl, by rw [hr2]⟩

end RTI


namespace RTI

/-! ### The inner loop of `recurse_merge` returns -/

/-- The inner loop of `recurse_merge` for the symbol `i` returns: `A` is the heap at the
outermost call, of which the heap `c0.1` at the entry of the loop differs only in states
that are arguments of the calls `c0.2` made so far; `lo` and `ln` are the partitions of the
old and the new target; `G` gives, for a pair of entries, the calls of the recursion. -/
theorem merge_inner_returns
    {rec : timed_automaton → Option Nat → Option Nat → Option visits}
    {g : globals} {o n i : Nat} {A : timed_automaton} {c0 : visits} {lo ln : interval_set}
    {so0 sn0 : timed_state} {G : (Int × interval) × (Int × interval) → List (Nat × Nat)}
    (hrec : ∀ A o' n' r, rec A o' n' = some r →
      ∀ q, (∀ p ∈ r.2, q ≠ p.1 ∧ q ≠ p.2) → r.1.mem q = A.mem q)
    (hko : (lo.map Prod.fst).Nodup) (hkn : (ln.map Prod.fst).Nodup)
    (hmo : c0.1.mem o = some so0) (hmn : c0.1.mem n = some sn0)
    (hlo : so0.targets[i]? = some lo) (hln : sn0.targets[i]? = some ln)
    (hmem : (o, n) ∈ c0.2)
    (hframe : ∀ q, (∀ p ∈ c0.2, q ≠ p.1 ∧ q ≠ p.2) → c0.1.mem q = A.mem q)
    (hbounds : lo.map (fun e => (e.2.begin, e.2.end_))
      = ln.map (fun e => (e.2.begin, e.2.end_)))
    (hG0 : ∀ e, ¬ (e.1.2.tails ≠ [] ∧ e.2.2.tails ≠ []) → G e = [])
    (hG : ∀ (B : timed_automaton) (e : (Int × interval) × (Int × interval)),
      e ∈ List.zip lo ln → e.1.2.tails ≠ [] → e.2.2.tails ≠ [] →
      (∀ p ∈ G e, B.mem p.1 = A.mem p.1 ∧ B.mem p.2 = A.mem p.2) →
      ∃ r, rec B e.1.2.to_ e.2.2.to_ = some r ∧ r.2 = G e)
    (hV : visited_once (c0.2 ++ (List.zip lo ln).flatMap G)) :
    ∃ b, (List.range lo.length).foldlM (merge_round rec g o n i) c0 = some b ∧
      b.2 = c0.2 ++ (List.zip lo ln).flatMap G ∧
      (∀ q, (∀ p ∈ b.2, q ≠ p.1 ∧ q ≠ p.2) → b.1.mem q = A.mem q) ∧
      ∃ so' sn', b.1.mem o = some so' ∧ b.1.mem n = some sn' ∧
        rounds_done g i lo.length lo ln so0 sn0 so' sn' := by
  have hlen : lo.length = ln.length := by
    have := congrArg List.length hbounds
    simpa using this
  obtain ⟨b, hb, hI⟩ := foldlM_range_inv (merge_round rec g o n i)
    (fun (k : Nat) (c : visits) =>
      c.2 = c0.2 ++ ((List.zip lo ln).take k).flatMap G ∧
      (∀ q, (∀ p ∈ c.2, q ≠ p.1 ∧ q ≠ p.2) → c.1.mem q = A.mem q) ∧
      ∃ so' sn', c.1.mem o = some so' ∧ c.1.mem n = some sn' ∧
        rounds_done g i k lo ln so0 sn0 so' sn') lo.length c0
    ⟨by simp, hframe, so0, sn0, hmo, hmn, rounds_done_zero g i hlo hln⟩
    (fun j c hj hI => by
      obtain ⟨hT, hfr, so', sn', h1, h2, h3⟩ := hI
      obtain ⟨eo, heo⟩ : ∃ eo, lo[j]? = some eo := ⟨lo[j], List.getElem?_eq_getElem hj⟩
      obtain ⟨en, hen⟩ : ∃ en, ln[j]? = some en :=
        ⟨ln[j], List.getElem?_eq_getElem (by omega)⟩
      have hz : (List.zip lo ln)[j]? = some (eo, en) :=
        List.getElem?_zip_eq_some.2 ⟨heo, hen⟩
      have hzm : (eo, en) ∈ List.zip lo ln := mem_of_getElem?_some hz
      have htake : (List.zip lo ln).take (j + 1) = (List.zip lo ln).take j ++ [(eo, en)] := by
        rw [List.take_succ, hz]
        rfl
      have hb' : eo.2.end_ = en.2.end_ ∧ eo.2.begin = en.2.begin := by
        have h5 := congrArg (fun l => l[j]?) hbounds
        simp only [List.getElem?_map, heo, hen, Option.map_some', Option.some.injEq,
          Prod.mk.injEq] at h5
        exact ⟨h5.2, h5.1⟩
      have hVj : visited_once (c.2 ++ G (eo, en)) := by
        have e : c0.2 ++ (List.zip lo ln).flatMap G
            = (c.2 ++ G (eo, en)) ++ ((List.zip lo ln).drop (j + 1)).flatMap G := by
          rw [hT]
          nth_rewrite 1 [← List.take_append_drop (j + 1) (List.zip lo ln)]
          rw [htake]
          simp only [List.flatMap_append, List.flatMap_singleton, List.append_assoc]
        rw [e] at hV
        exact visited_once_left hV
      have hmc : (o, n) ∈ c.2 := by
        rw [hT]
        exact List.mem_append_left _ hmem
      have hap := visited_once_apart hVj hmc
      have hon : o ≠ n := visited_once_ne (visited_once_left hVj) hmc
      have hrec' : eo.2.tails ≠ [] → en.2.tails ≠ [] →
          ∃ r, rec c.1 eo.2.to_ en.2.to_ = some r ∧ r.2 = G (eo, en) ∧
            r.1.mem o = c.1.mem o ∧ r.1.mem n = c.1.mem n := by
        intro he hne
        have hagree : ∀ p ∈ G (eo, en),
            c.1.mem p.1 = A.mem p.1 ∧ c.1.mem p.2 = A.mem p.2 := by
          intro p hp
          constructor
          · apply hfr
            intro a ha
            have := visited_once_apart hVj (show (a.1, a.2) ∈ c.2 from ha) p hp
            exact ⟨Ne.symm this.1.1, Ne.symm this.2.1⟩
          · apply hfr
            intro a ha
            have := visited_once_apart hVj (show (a.1, a.2) ∈ c.2 from ha) p hp
            exact ⟨Ne.symm this.1.2, Ne.symm this.2.2⟩
        obtain ⟨r, hr, hr2⟩ := hG c.1 (eo, en) hzm he hne hagree
        refine ⟨r, hr, hr2, ?_, ?_⟩
        · exact hrec _ _ _ _ hr o (fun p hp => by rw [hr2] at hp; exact (hap p hp).1)
        · exact hrec _ _ _ _ hr n (fun p hp => by rw [hr2] at hp; exact (hap p hp).2)
      obtain ⟨c', hc', hc2⟩ := merge_round_returns (G (eo, en)) hon hko hkn h1 h2 h3 heo hen
        hb' hrec' (hG0 (eo, en))
      refine ⟨c', hc', ?_, ?_, ?_⟩
      · rw [hc2, hT, htake, List.flatMap_append, List.flatMap_singleton, List.append_assoc]
      · intro q hq
        obtain ⟨R', hR', hfr'⟩ := merge_round_frame hrec hc'
        have hRR : R' = G (eo, en) := List.append_cancel_left (hR'.symm.trans hc2)
        rw [hc2] at hq
        have hq1 : ∀ p ∈ c.2, q ≠ p.1 ∧ q ≠ p.2 :=
          fun p hp => hq p (List.mem_append_left _ hp)
        rw [hfr' q (hq1 (o, n) hmc).1 (hq1 (o, n) hmc).2
          (fun p hp => hq p (List.mem_append_right _ (hRR ▸ hp)))]
        exact hfr q hq1
      · exact merge_round_detail hrec hon hko hkn h1 h2 h3 hc' (fun R'' hR'' => by
          have hRR : R'' = G (eo, en) := List.append_cancel_left (hR''.symm.trans hc2)
          rw [hRR]
          exact hap))
  refine ⟨b, hb, ?_, hI.2.1, hI.2.2⟩
  rw [hI.1, List.take_of_length_le (by rw [List.length_zip]; omega)]

end RTI


namespace RTI

/-! ### The outer loop of `recurse_merge` returns -/

theorem range_flatMap_split {α : Type} (F : Nat → List α) (k : Nat) :
    ∀ (n : Nat), k ≤ n → ∃ X, (List.range n).flatMap F = (List.range k).flatMap F ++ X := by
  intro n hn
  induction n, hn using Nat.le_induction with
  | base => exact ⟨[], (List.append_nil _).symm⟩
  | succ m _ ih =>
    obtain ⟨X, hX⟩ := ih
    refine ⟨X ++ F m, ?_⟩
    rw [List.range_succ, List.flatMap_append, hX, List.flatMap_singleton, List.append_assoc]

/-- The two loops of `recurse_merge` on the states `o` and `n` of the heap `A` return, and
the calls made are `(o, n)` followed, symbol by symbol and pair of entries by pair of
entries, by the calls `G` of the recursion. -/
theorem merge_outer_returns
    {rec : timed_automaton → Option Nat → Option Nat → Option visits}
    {g : globals} {o n : Nat} {A : timed_automaton} {so sn : timed_state}
    {G : (Int × interval) × (Int × interval) → List (Nat × Nat)}
    (hrec : ∀ A o' n' r, rec A o' n' = some r →
      ∀ q, (∀ p ∈ r.2, q ≠ p.1 ∧ q ≠ p.2) → r.1.mem q = A.mem q)
    (hmo : A.mem o = some so) (hmn : A.mem n = some sn)
    (hlo : so.targets.length = g.MAX_SYMBOL) (hln : sn.targets.length = g.MAX_SYMBOL)
    (hko : ∀ (i : Nat) (l : interval_set), so.targets[i]? = some l → (l.map Prod.fst).Nodup)
    (hkn : ∀ (i : Nat) (l : interval_set), sn.targets[i]? = some l → (l.map Prod.fst).Nodup)
    (hbounds : ∀ (i : Nat) (lo ln : interval_set), so.targets[i]? = some lo →
      sn.targets[i]? = some ln →
      lo.map (fun e => (e.2.begin, e.2.end_)) = ln.map (fun e => (e.2.begin, e.2.end_)))
    (hG0 : ∀ e, ¬ (e.1.2.tails ≠ [] ∧ e.2.2.tails ≠ []) → G e = [])
    (hG : ∀ (B : timed_automaton) (i : Nat) (lo ln : interval_set)
      (e : (Int × interval) × (Int × interval)), so.targets[i]? = some lo →
      sn.targets[i]? = some ln → e ∈ List.zip lo ln → e.1.2.tails ≠ [] →
      e.2.2.tails ≠ [] →
      (∀ p ∈ G e, B.mem p.1 = A.mem p.1 ∧ B.mem p.2 = A.mem p.2) →
      ∃ r, rec B e.1.2.to_ e.2.2.to_ = some r ∧ r.2 = G e)
    (hV : visited_once ((o, n) :: (List.range g.MAX_SYMBOL).flatMap (fun i =>
      (List.zip ((so.targets[i]?).getD []) ((sn.targets[i]?).getD [])).flatMap G))) :
    ∃ b, (List.range g.MAX_SYMBOL).foldlM (fun (c : visits) (i : Nat) =>
        (num_intervals c.1 o i).bind (fun m =>
          (List.range m).foldlM (merge_round rec g o n i) c)) (A, [(o, n)]) = some b ∧
      b.2 = (o, n) :: (List.range g.MAX_SYMBOL).flatMap (fun i =>
        (List.zip ((so.targets[i]?).getD []) ((sn.targets[i]?).getD [])).flatMap G) := by
  obtain ⟨b, hb, hI⟩ := foldlM_range_inv (fun (c : visits) (i : Nat) =>
      (num_intervals c.1 o i).bind (fun m =>
        (List.range m).foldlM (merge_round rec g o n i) c))
    (fun (k : Nat) (c : visits) =>
      c.2 = (o, n) :: (List.range k).flatMap (fun i =>
        (List.zip ((so.targets[i]?).getD []) ((sn.targets[i]?).getD [])).flatMap G) ∧
      (∀ q, (∀ p ∈ c.2, q ≠ p.1 ∧ q ≠ p.2) → c.1.mem q = A.mem q) ∧
      ∃ so' sn', c.1.mem o = some so' ∧ c.1.mem n = some sn' ∧
        symbols_done g k so sn so' sn') g.MAX_SYMBOL (A, [(o, n)])
    ⟨by simp, fun _ _ => rfl, so, sn, hmo, hmn, symbols_done_zero g so sn⟩
    (fun k c hk hI => by
      obtain ⟨hT, hfr, so', sn', h1, h2, hS⟩ := hI
      obtain ⟨lo, hlo0⟩ : ∃ lo, so.targets[k]? = some lo :=
        ⟨so.targets[k], List.getElem?_eq_getElem (by omega)⟩
      obtain ⟨ln, hln0⟩ : ∃ ln, sn.targets[k]? = some ln :=
        ⟨sn.targets[k], List.getElem?_eq_getElem (by omega)⟩
      have hlo1 : so'.targets[k]? = some lo := ((hS.rest k (le_refl k)).1).trans hlo0
      have hln1 : sn'.targets[k]? = some ln := ((hS.rest k (le_refl k)).2).trans hln0
      have hFk : (List.zip ((so.targets[k]?).getD []) ((sn.targets[k]?).getD [])).flatMap G
          = (List.zip lo ln).flatMap G := by
        rw [hlo0, hln0]
        rfl
      have hsucc : (o, n) :: (List.range (k + 1)).flatMap (fun i =>
          (List.zip ((so.targets[i]?).getD []) ((sn.targets[i]?).getD [])).flatMap G)
          = c.2 ++ (List.zip lo ln).flatMap G := by
        rw [hT, List.range_succ, List.flatMap_append, List.flatMap_singleton, hFk]
        rfl
      have hVk : visited_once (c.2 ++ (List.zip lo ln).flatMap G) := by
        obtain ⟨X, hX⟩ := range_flatMap_split (fun i =>
          (List.zip ((so.targets[i]?).getD []) ((sn.targets[i]?).getD [])).flatMap G)
          (k + 1) g.MAX_SYMBOL (by omega)
        rw [hX, ← List.cons_append, hsucc] at hV
        exact visited_once_left hV
      have hmem : (o, n) ∈ c.2 := by
        rw [hT]
        exact List.mem_cons_self _ _
      obtain ⟨b, hb, hb2, hbfr, so2, sn2, hb3, hb4, hR⟩ :=
        merge_inner_returns (A := A) hrec (hko k lo hlo0) (hkn k ln hln0) h1 h2 hlo1 hln1 hmem
          hfr (hbounds k lo ln hlo0 hln0) hG0
          (fun B e he h3 h4 h5 => hG B k lo ln e hlo0 hln0 he h3 h4 h5) hVk
      refine ⟨b, ?_, ?_, hbfr, so2, sn2, hb3, hb4, symbols_done_step hS hlo0 hln0 hR⟩
      · simp only
        rw [num_intervals_at h1 hlo1, Option.some_bind]
        exact hb
      · rw [hb2, hsucc])
  exact ⟨b, hb, hI.1⟩

end RTI


namespace RTI

/-! ### `recurse_merge` returns on aligned states -/

theorem sublist_flatMap_of_mem {α β : Type} (f : α → List β) {a : α} :
    ∀ {l : List α}, a ∈ l → (f a).Sublist (l.flatMap f) := by
  intro l
  induction l with
  | nil => exact fun h => absurd h (List.not_mem_nil a)
  | cons x xs ih =>
    intro h
    rw [List.flatMap_cons]
    rcases List.mem_cons.1 h with rfl | h
    · exact List.sublist_append_left _ _
    · exact (ih h).trans (List.sublist_append_right _ _)

theorem visited_once_sublist {L L' : List (Nat × Nat)} (h : visited_once L)
    (hs : L'.Sublist L) : visited_once L' := by
  unfold visited_once at h ⊢
  exact h.sublist (List.Sublist.append (hs.map _) (hs.map _))

theorem merge_calls_succ (g : globals) (fuel : Nat) (A : timed_automaton) (o n : Nat)
    {so sn : timed_state} (hmo : A.mem o = some so) (hmn : A.mem n = some sn) :
    merge_calls g (fuel + 1) A o n = (o, n) :: state_calls g (merge_calls g fuel A) so sn := by
  simp only [merge_calls, hmo, hmn]

theorem pair_calls_sublist (g : globals) (fuel : Nat) (A : timed_automaton) (o n : Nat)
    {so sn : timed_state} (hmo : A.mem o = some so) (hmn : A.mem n = some sn) {i : Nat}
    (hi : i < g.MAX_SYMBOL) {e : (Int × interval) × (Int × interval)}
    (he : e ∈ List.zip ((so.targets[i]?).getD []) ((sn.targets[i]?).getD [])) :
    (pair_calls (merge_calls g fuel A) e).Sublist (merge_calls g (fuel + 1) A o n) := by
  rw [merge_calls_succ g fuel A o n hmo hmn]
  refine List.Sublist.trans ?_ (List.sublist_cons_self _ _)
  unfold state_calls
  refine List.Sublist.trans ?_
    (sublist_flatMap_of_mem (fun i =>
      (List.zip ((so.targets[i]?).getD []) ((sn.targets[i]?).getD [])).flatMap
        (pair_calls (merge_calls g fuel A))) (List.mem_range.2 hi))
  exact sublist_flatMap_of_mem _ he

theorem pair_calls_some (calls : Nat → Nat → List (Nat × Nat))
    {e : (Int × interval) × (Int × interval)} {o n : Nat} (h1 : e.1.2.tails ≠ [])
    (h2 : e.2.2.tails ≠ []) (ho : e.1.2.to_ = some o) (hn : e.2.2.to_ = some n) :
    pair_calls calls e = calls o n := by
  unfold pair_calls
  rw [if_pos ⟨h1, h2⟩, ho, hn]

/-- The calls of `recurse_merge` on `o` and `n`, and whether the two states are aligned,
depend only on the states that are arguments of these calls. -/
theorem merge_calls_congr (g : globals) :
    ∀ (fuel : Nat) (A B : timed_automaton) (o n : Nat),
      (∀ p ∈ merge_calls g fuel A o n, B.mem p.1 = A.mem p.1 ∧ B.mem p.2 = A.mem p.2) →
      merge_calls g fuel B o n = merge_calls g fuel A o n ∧
      (merge_aligned g fuel A o n → merge_aligned g fuel B o n) := by
  intro fuel
  induction fuel with
  | zero => exact fun A B o n _ => ⟨rfl, fun h => h⟩
  | succ fuel ih =>
    intro A B o n h
    have hcalls : merge_calls g (fuel + 1) A o n = (o, n) ::
        (match A.mem o, A.mem n with
          | some so, some sn => state_calls g (merge_calls g fuel A) so sn
          | _, _ => []) := rfl
    have hcallsB : merge_calls g (fuel + 1) B o n = (o, n) ::
        (match B.mem o, B.mem n with
          | some so, some sn => state_calls g (merge_calls g fuel B) so sn
          | _, _ => []) := rfl
    have h0 := h (o, n) (by rw [hcalls]; exact List.mem_cons_self _ _)
    simp only at h0
    constructor
    · rw [hcalls, hcallsB, h0.1, h0.2]
      congr 1
      cases hmo : A.mem o with
      | none => rfl
      | some so =>
        cases hmn : A.mem n with
        | none => rfl
        | some sn =>
          simp only
          unfold state_calls
          refine List.flatMap_congr (fun i hi => ?_)
          refine List.flatMap_congr (fun e he => ?_)
          have hsub := pair_calls_sublist g fuel A o n hmo hmn (List.mem_range.1 hi) he
          unfold pair_calls at hsub ⊢
          by_cases hne : e.1.2.tails ≠ [] ∧ e.2.2.tails ≠ []
          · simp only [if_pos hne] at hsub ⊢
            cases ho : e.1.2.to_ with
            | none => cases e.2.2.to_ <;> rfl
            | some o' =>
              cases hn : e.2.2.to_ with
              | none => rfl
              | some n' =>
                rw [ho, hn] at hsub
                simp only at hsub ⊢
                exact (ih A B o' n' (fun p hp => h p (hsub.subset hp))).1
          · simp only [if_neg hne]
    · rintro ⟨so, sn, hmo, hmn, hlo, hln, hko, hkn, hal⟩
      refine ⟨so, sn, h0.1.trans hmo, h0.2.trans hmn, hlo, hln, hko, hkn,
        fun i lo ln hlo0 hln0 => ⟨(hal i lo ln hlo0 hln0).1, fun j eo en heo hen h3 h4 => ?_⟩⟩
      obtain ⟨o', n', ho', hn', ha⟩ := (hal i lo ln hlo0 hln0).2 j eo en heo hen h3 h4
      refine ⟨o', n', ho', hn', (ih A B o' n' (fun p hp => h p ?_)).2 ha⟩
      have hi : i < g.MAX_SYMBOL := by
        rw [← hlo]
        exact (List.getElem?_eq_some.1 hlo0).1
      have he : (eo, en) ∈ List.zip ((so.targets[i]?).getD []) ((sn.targets[i]?).getD []) := by
        rw [hlo0, hln0]
        exact mem_of_getElem?_some (List.getElem?_zip_eq_some.2 ⟨heo, hen⟩)
      have hsub := pair_calls_sublist g fuel A o n hmo hmn hi he
      rw [pair_calls_some _ h3 h4 ho' hn'] at hsub
      exact hsub.subset hp

/-- On aligned states whose recursion never meets a state twice, `recurse_merge` returns
with enough fuel, and the calls it makes are those of `merge_calls`. -/
theorem recurse_merge_visits_returns (g : globals) :
    ∀ (fuel : Nat) (A : timed_automaton) (o n : Nat), merge_aligned g fuel A o n →
      visited_once (merge_calls g fuel A o n) →
      ∃ A', recurse_merge_visits g fuel A (some o) (some n)
        = some (A', merge_calls g fuel A o n) := by
  intro fuel
  induction fuel with
  | zero => exact fun A o n h => absurd h (fun h => h)
  | succ fuel ih =>
    intro A o n hal hV
    obtain ⟨so, sn, hmo, hmn, hlo, hln, hko, hkn, hal⟩ := hal
    have hcalls := merge_calls_succ g fuel A o n hmo hmn
    rw [recurse_merge_visits_succ]
    have hVV := hV
    rw [hcalls] at hV
    unfold state_calls at hV
    obtain ⟨b, hb, hb2⟩ := merge_outer_returns (G := pair_calls (merge_calls g fuel A))
      (recurse_merge_visits_frame g fuel) hmo hmn hlo hln hko hkn
      (fun i lo ln hlo0 hln0 => (hal i lo ln hlo0 hln0).1)
      (fun e he => by unfold pair_calls; rw [if_neg he])
      (fun B i lo ln e hlo0 hln0 he h3 h4 hagree => by
        obtain ⟨j, hj⟩ := List.getElem?_of_mem he
        obtain ⟨heo, hen⟩ := List.getElem?_zip_eq_some.1 hj
        obtain ⟨o', n', ho', hn', ha⟩ := (hal i lo ln hlo0 hln0).2 j e.1 e.2 heo hen h3 h4
        have hi : i < g.MAX_SYMBOL := by
          rw [← hlo]
          exact (List.getElem?_eq_some.1 hlo0).1
        have he' : e ∈ List.zip ((so.targets[i]?).getD []) ((sn.targets[i]?).getD []) := by
          rw [hlo0, hln0]
          exact he
        have hsub := pair_calls_sublist g fuel A o n hmo hmn hi he'
        have hpc := pair_calls_some (merge_calls g fuel A) h3 h4 ho' hn'
        rw [hpc] at hsub hagree ⊢
        obtain ⟨hc, hab⟩ := merge_calls_congr g fuel A B o' n' hagree
        obtain ⟨A', hA'⟩ := ih B o' n' (hab ha)
          (by rw [hc]; exact visited_once_sublist hVV hsub)
        rw [ho', hn', hA', hc]
        exact ⟨_, rfl, rfl⟩) hV
    refine ⟨b.1, ?_⟩
    rw [hb, hcalls]
    unfold state_calls
    rw [← hb2]

end RTI


namespace RTI

/-! ### More fuel changes neither the alignment nor the calls -/

theorem merge_aligned_succ (g : globals) :
    ∀ (fuel : Nat) (A : timed_automaton) (o n : Nat), merge_aligned g fuel A o n →
      merge_aligned g (fuel + 1) A o n ∧
      merge_calls g (fuel + 1) A o n = merge_calls g fuel A o n := by
  intro fuel
  induction fuel with
  | zero => exact fun A o n h => absurd h (fun h => h)
  | succ fuel ih =>
    intro A o n hal
    obtain ⟨so, sn, hmo, hmn, hlo, hln, hko, hkn, hal⟩ := hal
    constructor
    · refine ⟨so, sn, hmo, hmn, hlo, hln, hko, hkn,
        fun i lo ln hlo0 hln0 => ⟨(hal i lo ln hlo0 hln0).1, fun j eo en heo hen h3 h4 => ?_⟩⟩
      obtain ⟨o', n', ho', hn', ha⟩ := (hal i lo ln hlo0 hln0).2 j eo en heo hen h3 h4
      exact ⟨o', n', ho', hn', (ih A o' n' ha).1⟩
    · rw [merge_calls_succ g (fuel + 1) A o n hmo hmn, merge_calls_succ g fuel A o n hmo hmn]
      congr 1
      unfold state_calls
      refine List.flatMap_congr (fun i hi => ?_)
      refine List.flatMap_congr (fun e he => ?_)
      by_cases hne : e.1.2.tails ≠ [] ∧ e.2.2.tails ≠ []
      · have hi1 : i < so.targets.length := by
          rw [hlo]
          exact List.mem_range.1 hi
        have hi2 : i < sn.targets.length := by
          rw [hln]
          exact List.mem_range.1 hi
        obtain ⟨lo, hlo0⟩ : ∃ lo, so.targets[i]? = some lo :=
          ⟨so.targets[i], List.getElem?_eq_getElem hi1⟩
        obtain ⟨ln, hln0⟩ : ∃ ln, sn.targets[i]? = some ln :=
          ⟨sn.targets[i], List.getElem?_eq_getElem hi2⟩
        rw [hlo0, hln0] at he
        obtain ⟨j, hj⟩ := List.getElem?_of_mem he
        obtain ⟨heo, hen⟩ := List.getElem?_zip_eq_some.1 hj
        obtain ⟨o', n', ho', hn', ha⟩ :=
          (hal i lo ln hlo0 hln0).2 j e.1 e.2 heo hen hne.1 hne.2
        rw [pair_calls_some _ hne.1 hne.2 ho' hn', pair_calls_some _ hne.1 hne.2 ho' hn']
        exact (ih A o' n' ha).2
      · unfold pair_calls
        simp only [if_neg hne]

/-- States that are aligned to a depth that the fuel covers are aligned for any larger fuel,
with the same calls of the recursion. -/
theorem merge_aligned_mono (g : globals) (A : timed_automaton) (o n : Nat) (fuel : Nat)
    (hal : merge_aligned g fuel A o n) :
    ∀ (fuel' : Nat), fuel ≤ fuel' →
      merge_aligned g fuel' A o n ∧ merge_calls g fuel' A o n = merge_calls g fuel A o n := by
  intro fuel' hf
  induction fuel', hf using Nat.le_induction with
  | base => exact ⟨hal, rfl⟩
  | succ m _ ih =>
    obtain ⟨h1, h2⟩ := merge_aligned_succ g m A o n ih.1
    exact ⟨h1, h2.trans ih.2⟩

end RTI


namespace RTI

/-! ### C35: `recurse_merge` on aligned states -/

theorem merge_new_state_keys (i : Nat) (l : interval_set)
    (h : merge_new_state.targets[i]? = some l) : (l.map Prod.fst).Nodup := by
  cases i with
  | zero =>
    have e : merge_new_state.targets[0]? = some
        [(10, { interval.new 0 10 with
          tails := [⟨2, 0, [(0, 4), (2, 4)]⟩]
          to_ := some 4 })] := rfl
    rw [e] at h
    cases h
    decide
  | succ i => cases h

theorem example_leaf_keys (i : Nat) (l : interval_set)
    (h : (timed_state.new example_globals).targets[i]? = some l) :
    (l.map Prod.fst).Nodup := by
  cases i with
  | zero =>
    have e : (timed_state.new example_globals).targets[0]? = some [(10, interval.new 0 10)] :=
      rfl
    rw [e] at h
    cases h
    decide
  | succ i => cases h

/-- The states 2 and 4 of `merge_example`, both without tails, are aligned. -/
theorem merge_example_leaves_aligned : merge_aligned example_globals 1 merge_example 2 4 := by
  refine ⟨timed_state.new example_globals, timed_state.new example_globals, rfl, rfl, rfl, rfl,
    example_leaf_keys, example_leaf_keys, fun i lo ln hlo hln => ?_⟩
  cases i with
  | succ i => cases hlo
  | zero =>
    have e : (timed_state.new example_globals).targets[0]? = some [(10, interval.new 0 10)] :=
      rfl
    rw [e] at hlo hln
    cases hlo
    cases hln
    refine ⟨rfl, fun j eo en heo hen h3 h4 => ?_⟩
    cases j with
    | succ j => cases heo
    | zero =>
      cases heo
      exact absurd rfl h3

/-- The states 1 and 3 of `merge_example` are aligned. -/
theorem merge_example_aligned : merge_aligned example_globals 2 merge_example 1 3 := by
  refine ⟨example_child, merge_new_state, rfl, rfl, rfl, rfl, example_child_keys,
    merge_new_state_keys, fun i lo ln hlo hln => ?_⟩
  cases i with
  | succ i => cases hlo
  | zero =>
    have e1 : example_child.targets[0]? = some
        [(10, { interval.new 0 10 with
          tails := [⟨1, 1, [(0, 2), (2, 7)]⟩, ⟨0, 1, [(0, 3), (2, 4)]⟩]
          to_ := some 2 })] := rfl
    have e2 : merge_new_state.targets[0]? = some
        [(10, { interval.new 0 10 with
          tails := [⟨2, 0, [(0, 4), (2, 4)]⟩]
          to_ := some 4 })] := rfl
    rw [e1] at hlo
    rw [e2] at hln
    cases hlo
    cases hln
    refine ⟨rfl, fun j eo en heo hen h3 h4 => ?_⟩
    cases j with
    | succ j => cases heo
    | zero =>
      cases heo
      cases hen
      exact ⟨2, 4, rfl, rfl, merge_example_leaves_aligned⟩

theorem merge_example_calls :
    merge_calls example_globals 2 merge_example 1 3 = [(1, 3), (2, 4)] := by
  rfl

/-- C35: `recurse_merge(old_target, new_target)` on aligned states `o` (the old target) and
`n` (the new target) such that no state is met twice by the recursion. Aligned
(`merge_aligned`) is: both states exist and have `MAX_SYMBOL` partitions with distinct keys,
the two partitions of a symbol have the same bounds entry by entry, and where two
corresponding intervals both hold tails their targets exist and are aligned in turn, down to
the depth `fuel`. `merge_calls` lists the pairs of states on which the recursion is called,
in the heap before the call, and `visited_once` says that no state is the old or the new
target of two of them, nor the old target of one and the new target of another. Then the
call returns for every fuel `fuel'` that is at least this depth, and afterwards, for every
symbol and every pair of corresponding entries
`eo` and `en` of the partitions of `o` and `n`, with `eo'` and `en'` the entries afterwards:
when the old interval holds tails, the new interval holds its previous tails and those of
the old interval, and when the new interval was empty it has the target of the old interval
and the target of the old interval is null; when the old interval is empty both entries are
as before. The statistics of `n` are its previous statistics with every tail that `o` stores
counted in addition. -/
theorem recurse_merge_aligned (g : globals) (fuel fuel' : Nat) (A : timed_automaton)
    (o n : Nat) (so sn : timed_state) (hmo : A.mem o = some so) (hmn : A.mem n = some sn)
    (hal : merge_aligned g fuel A o n) (hV : visited_once (merge_calls g fuel A o n))
    (hf : fuel ≤ fuel') :
    ∃ A', recurse_merge g fuel' A (some o) (some n) = some A' ∧
    ∃ so' sn', A'.mem o = some so' ∧ A'.mem n = some sn' ∧
      sn'.stat = add_counts g sn.stat (state_tails so) ∧
      ∀ i, i < g.MAX_SYMBOL → ∃ lo ln lo' ln', so.targets[i]? = some lo ∧
        sn.targets[i]? = some ln ∧ so'.targets[i]? = some lo' ∧ sn'.targets[i]? = some ln' ∧
        ∀ (j : Nat) (eo en : Int × interval), lo[j]? = some eo → ln[j]? = some en →
          ∃ eo' en', lo'[j]? = some eo' ∧ ln'[j]? = some en' ∧
            (eo.2.tails ≠ [] →
              (∀ x, en'.2.tails.count x = en.2.tails.count x + eo.2.tails.count x) ∧
              (en.2.tails = [] → en'.2.to_ = eo.2.to_ ∧ eo'.2.to_ = none)) ∧
            (eo.2.tails = [] → eo' = eo ∧ en' = en) := by
  obtain ⟨hal', hc⟩ := merge_aligned_mono g A o n fuel hal fuel' hf
  rw [← hc] at hV
  obtain ⟨A', hA'⟩ := recurse_merge_visits_returns g fuel' A o n hal' hV
  cases fuel with
  | zero => exact absurd hal (fun h => h)
  | succ fuel =>
    obtain ⟨so0, sn0, h1, h2, hlo, hln, hko, hkn, -⟩ := hal
    rw [hmo] at h1
    rw [hmn] at h2
    cases h1
    cases h2
    exact ⟨A', recurse_merge_pairs g fuel' A A' o n _ so sn hA' hV hmo hmn hlo hln hko hkn⟩

/-- The witness of C35: the state 1 of the example tree, whose interval holds two tails and
points to the state 2, is merged into the state 3, whose interval holds one tail and points
to the state 4; the recursion is called on the states 2 and 4, the states are aligned to
the depth 2, and the call is made with the fuel 7. -/
theorem recurse_merge_aligned_witness :
    merge_aligned example_globals 2 merge_example 1 3 ∧
    merge_calls example_globals 2 merge_example 1 3 = [(1, 3), (2, 4)] ∧
    ∃ A', recurse_merge example_globals 7 merge_example (some 1) (some 3) = some A' ∧
    ∃ so' sn', A'.mem 1 = some so' ∧ A'.mem 3 = some sn' ∧
      sn'.stat = add_counts example_globals merge_new_state.stat (state_tails example_child) ∧
      ∀ i, i < example_globals.MAX_SYMBOL → ∃ lo ln lo' ln',
        example_child.targets[i]? = some lo ∧
        merge_new_state.targets[i]? = some ln ∧ so'.targets[i]? = some lo' ∧
        sn'.targets[i]? = some ln' ∧
        ∀ (j : Nat) (eo en : Int × interval), lo[j]? = some eo → ln[j]? = some en →
          ∃ eo' en', lo'[j]? = some eo' ∧ ln'[j]? = some en' ∧
            (eo.2.tails ≠ [] →
              (∀ x, en'.2.tails.count x = en.2.tails.count x + eo.2.tails.count x) ∧
              (en.2.tails = [] → en'.2.to_ = eo.2.to_ ∧ eo'.2.to_ = none)) ∧
            (eo.2.tails = [] → eo' = eo ∧ en' = en) :=
  ⟨merge_example_aligned, merge_example_calls,
    recurse_merge_aligned example_globals 2 7 merge_example 1 3 example_child merge_new_state
      rfl rfl merge_example_aligned
      (by rw [merge_example_calls]; unfold visited_once; decide) (by decide)⟩

end RTI


namespace RTI

/-! ### C15: `get_best_refinements` leaves the automaton as it was -/

theorem state_unmarked_equiv {s s' : timed_state} (h : state_equiv s s')
    (hs : state_unmarked s) : state_unmarked s' := by
  obtain ⟨hstat, htargets⟩ := h
  obtain ⟨h1, h2, h3, h4⟩ := hs
  refine ⟨by rw [← hstat]; exact h1, by rw [← hstat]; exact h2, by rw [← hstat]; exact h3,
    fun l' hl' e' he' => ?_⟩
  obtain ⟨l, hl, hll⟩ := forall₂_of_mem_right htargets hl'
  obtain ⟨e, he, hee⟩ := forall₂_of_mem_right hll he'
  rw [← hee.2.2.2.2.2]
  exact h4 l hl e he

theorem long_candidates :
    candidates small_globals long_tree = [⟨1, 1, 0, 10, long_child_interval⟩] := rfl

theorem long_candidate_below (c : candidate) (hc : c ∈ candidates small_globals long_tree)
    (_ : 2 * small_globals.MIN_DATA ≤ (c.iv.tails.length : Int)) :
    ∃ o t N, tree_below small_globals 5 long_tree c.state c.symbol c.key c.iv o t N ∧
      tails_sorted c.iv.tails ∧ (c.iv.tails.flatMap chain).Nodup := by
  rw [long_candidates, List.mem_singleton] at hc
  subst hc
  exact ⟨2, long_state_tree, {0, 1}, long_tree_below,
    List.pairwise_cons.2 ⟨by decide, List.pairwise_singleton _ _⟩, by decide⟩

/-- C15: let the consistency check pass in the automaton `A`, in which the partitions are
covers, no tail is marked and nothing lies behind the allocation pointer, and let every
interval that may be selected and holds at least `2 * MIN_DATA` tails lie above a prefix tree,
with its tails in the order of a multimap and with tails and successors that are all
different. Then `get_best_refinements` returns, and the automaton `A'` it leaves, after its
calls of `test_point` and `test_split` and the final `clear_marked`, is the one before the
call: the colored states are the same, no tail is marked, and every state `s` of `A` is in
`A'` at the same address as a state `s'` with the same statistics (every count and every
counter of marks), the same partitions with the same keys and, interval by interval, the
same bounds, the same tails as a multiset, the same target and the same number of marked
tails (`state_equiv`); so where the counters of marks and the numbers of marked tails were
zero before the call they are zero after it. -/
theorem get_best_refinements_unchanged (g : globals) (P : p_values) (fuel : Nat)
    (A : timed_automaton) (hcc : check_consistency g A = true) (hok : heap_ok g A)
    (hmin : 0 ≤ g.MIN_DATA ∧ 2 * g.MIN_DATA < 2 ^ 64)
    (hfresh : ∀ r, A.next ≤ r → A.mem r = none) (hun : ∀ x, A.marker x = false)
    (htree : ∀ c, c ∈ candidates g A → 2 * g.MIN_DATA ≤ (c.iv.tails.length : Int) →
      ∃ o t N, tree_below g fuel A c.state c.symbol c.key c.iv o t N ∧
        tails_sorted c.iv.tails ∧ (c.iv.tails.flatMap chain).Nodup) :
    ∃ first second A', get_best_refinements g P fuel A = some (first, second, A') ∧
      A'.states = A.states ∧ (∀ x, A'.marker x = false) ∧
      ∀ q s, A.mem q = some s → ∃ s', A'.mem q = some s' ∧ state_equiv s s' ∧
        (state_unmarked s → state_unmarked s') := by
  obtain ⟨first, second, A', h, hmem, hstates, hmarker⟩ :=
    get_best_refinements_restores g P fuel A hcc hok hmin hfresh hun htree
  refine ⟨first, second, A', h, hstates, fun x => by rw [hmarker]; exact hun x,
    fun q s hq => ?_⟩
  obtain ⟨s', hs', he⟩ := hmem q s hq
  exact ⟨s', hs', he, state_unmarked_equiv he⟩

/-- The witness of C15: in the prefix tree of the words `(0, 1) (0, 3) (0, 2)` and
`(0, 5) (0, 2) (0, 4)` the state below the root is colored. With `MIN_DATA = 1`,
`get_best_refinements` selects the interval of that state, calls `test_point` for the
colored state 1 and `test_split` at the time 2, and returns the color refinement, a merge
and a split; the state 1, unmarked before, is unmarked afterwards. -/
theorem get_best_refinements_unchanged_witness :
    state_unmarked long_child ∧
    ∃ first second A', get_best_refinements small_globals example_p_values 5 long_tree
        = some (first, second, A') ∧
      first ≠ [] ∧ second ≠ [] ∧
      A'.states = long_tree.states ∧ (∀ x, A'.marker x = false) ∧
      ∀ q s, long_tree.mem q = some s → ∃ s', A'.mem q = some s' ∧ state_equiv s s' ∧
        (state_unmarked s → state_unmarked s') := by
  refine ⟨by unfold state_unmarked; decide, ?_⟩
  obtain ⟨first, second, A', h1, h2⟩ :=
    get_best_refinements_unchanged small_globals example_p_values 5 long_tree rfl
      (heap_ok_of_globals rfl rfl rfl long_tree_heap_ok) (by decide) long_tree_fresh
      (fun _ => rfl) long_candidate_below
  have e : ∃ F S B, get_best_refinements small_globals example_p_values 5 long_tree
      = some (F, S, B) ∧ F ≠ [] ∧ S ≠ [] := ⟨_, _, _, rfl, by decide, by decide⟩
  obtain ⟨F, S, B, hB, hF, hS⟩ := e
  rw [hB] at h1
  simp only [Option.some.injEq, Prod.mk.injEq] at h1
  exact ⟨first, second, A', by rw [hB, ← h1.1, ← h1.2.1, ← h1.2.2],
    by rw [← h1.1]; exact hF, by rw [← h1.2.1]; exact hS, h2⟩

end RTI


namespace RTI

/-! ### C4: `test_split` leaves its marks to `clear_marked` -/

/-- C4: let no tail be marked in the automaton `A`, let `i` be the interval with the key `k`
in the partition for `symbol` of the state at `p`, above a prefix tree, with its tails in the
order of a multimap and with tails and successors that are all different, and let `u` be a
time within the bounds of `i`. Then `test_split(symbol, u)` returns, with an automaton `H`
that has the states of `A` with the same partitions, tails and targets, and in which the
marked tails are exactly the tails of `i` with a time up to `u` and their successors; and
`clear_marked` called on the interval afterwards, as `get_best_refinements` does, returns
the automaton `A` itself, with every count, every counter of marks, every number of marked
tails and every marker as before the call of `test_split`. -/
theorem test_split_then_clear_marked (g : globals) (P : p_values) (fuel : Nat)
    (A : timed_automaton) (p symbol : Nat) (k : Int) (i : interval) (o : Nat) (t : state_tree)
    (N : Set Nat) (u : Int) (hb : tree_below g fuel A p symbol k i o t N)
    (hnd : (i.tails.flatMap chain).Nodup) (hun : ∀ x, A.marker x = false)
    (h1 : i.begin ≤ u) (h2 : u ≤ i.end_) :
    ∃ H score, test_split g P fuel A p symbol u = some (H, score) ∧ heap_same A H ∧
      (∀ x, H.marker x = true ↔
        x ∈ (i.tails.filter (fun y => decide (y.get_time_value ≤ u))).flatMap chain) ∧
      clear_marked g H (some p) ⟨p, symbol, k⟩ = some A := by
  obtain ⟨s, l, hp, hl, hm⟩ := hb.entry
  have hlok : partition_ok g l := (hb.ok p s hp).2 l (mem_of_getElem?_some hl)
  have hat := interval_at_within hp hl hlok hm h1 h2
  have hread := read_entry hp hl hlok hm
  obtain ⟨M, q1, q2, q3, q4, hfold⟩ := mark_upto_marks hb hnd hun u
  have hsame := mark_all_same g M A
  obtain ⟨r, hr⟩ := recurse_test_split_returns hb.ok hsame t fuel (some o) hb.tree hb.fits
  refine ⟨mark_all g A M, split_score g P r, ?_, hsame, fun x => ?_, ?_⟩
  · unfold test_split
    rw [hat, Option.some_bind]
    have hto : i.get_target = some o := hb.target
    simp only [hto]
    rw [hfold, Option.some_bind, hr]
    rfl
  · rw [mark_all_marker, hun x, Bool.false_or, decide_eq_true_iff,
      split_marks_tails A ⟨p, symbol, k⟩ u i.tails M q1]
  · obtain ⟨j, hj, hij⟩ := read_same hsame hread
    unfold clear_marked
    rw [hj, Option.some_bind, hij.2.2.1]
    exact un_mark_fold g A ⟨p, symbol, k⟩ u i.tails M q1 q2 q3 q4

/-- The witness of C4: in the prefix tree of the words `(0, 1) (0, 3)` and `(0, 5) (0, 2)`,
`test_split(0, 1)` on the root marks the first word, and `clear_marked` gives the automaton
back. -/
theorem test_split_then_clear_marked_witness :
    ∃ H score, test_split small_globals example_p_values 5 example_tree 0 0 1
        = some (H, score) ∧ heap_same example_tree H ∧
      (∀ x, H.marker x = true ↔
        x ∈ (example_root_interval.tails.filter
          (fun y => decide (y.get_time_value ≤ 1))).flatMap chain) ∧
      clear_marked small_globals H (some 0) ⟨0, 0, 10⟩ = some example_tree :=
  test_split_then_clear_marked small_globals example_p_values 5 example_tree 0 0 10
    example_root_interval 1 example_state_tree {0} 1 example_tree_below (by decide)
    (fun _ => rfl) (by decide) (by decide)

/-- The counterexample of C4: the consistency check passes in the prefix tree of the words
`(0, 1) (0, 3)` and `(0, 5) (0, 2)`, in which no tail is marked; after `test_split(0, 1)` on
the root the first tail of the first word is marked, the root has one mark in its
statistics, and its interval counts one marked tail. -/
theorem test_split_leaves_marks :
    check_consistency small_globals example_tree = true ∧
    example_tree.marker ⟨0, 0, [(0, 1), (0, 3), (2, 4)]⟩ = false ∧
    (∃ s, example_tree.mem 0 = some s ∧ s.stat.total_marks = 0) ∧
    ∃ H score s i, test_split small_globals example_p_values 5 example_tree 0 0 1
        = some (H, score) ∧
      H.marker ⟨0, 0, [(0, 1), (0, 3), (2, 4)]⟩ = true ∧
      H.mem 0 = some s ∧ s.stat.total_marks = 1 ∧
      H.read ⟨0, 0, 10⟩ = some i ∧ i.num_marked = 1 :=
  ⟨rfl, rfl, ⟨_, rfl, rfl⟩, _, _, _, _, rfl, rfl, rfl, rfl, rfl, rfl⟩

end RTI
